import Mathlib

/-!
B+tree of `util/btree/btree.h`: embedding and verification

The tree of `src/util/btree/btree.h` is embedded as a purely functional
structure.

* A node is either a leaf holding its `count` live `(key, value)` slots or an
  internal node holding its `count` routing keys and `count + 1` children.
  Slots beyond `count` are not represented.
* The doubly linked leaf chain (`prev()` / `next()`) is represented by the
  in-order sequence of the leaves below the root: the successor of a leaf is
  the next leaf of that sequence, and the last leaf has a null successor.
* Slot indices are `uint16_t` and counts are 31-bit fields in the source; the
  embedding uses `Nat`, and the environment predicate `Params.Valid` requires
  both fanouts to fit in 16 bits, where no index can wrap.
* The entry counter `_M_nkeys` is a `Nat`: it never exceeds the number of live
  entries, which fit the address space, so the increment cannot wrap; the
  decrement in `btree::erase` runs only after an entry was removed, and in the
  states reachable from the empty tree the counter is then at least 1.
* Every operation returns `Except Fault _`.  A `Fault` marks a point where
  the source would leave defined behaviour (null successor, slot outside the
  occupied range, write past the capacity of a node, root replaced below the
  root).  Allocation always succeeds.
-/

namespace BPlusTree

/-- Ways in which an operation of the source leaves defined behaviour. -/
inductive Fault where
  /-- A null node pointer is dereferenced (`x->next()` of the last leaf). -/
  | nullNode
  /-- A slot or child outside the occupied range of a node is read. -/
  | outOfRange
  /-- An entry is written past the capacity of a node. -/
  | overflow
  /-- The root pointer is replaced by a child of a node that is not the root. -/
  | lostRoot
  /-- A child link of a leaf or an entry slot of an internal node is used. -/
  | wrongKind
  /-- The descent budget of the embedding is exhausted. -/
  | fuel
  deriving DecidableEq, Repr

/-- Template parameters of `btree<_Parameters>` together with the comparator. -/
structure Params (K : Type) where
  /-- Three-way comparator `_M_comp`. -/
  comp : K → K → Int
  /-- Value of `parameters_type::kInternalNodeMaxKeys` (fanout formula). -/
  rawInternalNodeMaxKeys : Nat
  /-- Value of `parameters_type::kLeafNodeMaxKeys` (fanout formula). -/
  rawLeafNodeMaxKeys : Nat
  /-- Value of `parameters_type::kDuplicates`. -/
  kDuplicates : Bool
  /-- Value of `parameters_type::kValueSize` (0 for sets). -/
  kValueSize : Nat

/-- Tree node: the live part of a leaf or of an internal node. -/
inductive Node (K V : Type) where
  | leaf (entries : List (K × V))
  | internal (keys : List K) (children : List (Node K V))
  deriving Repr

/-- Result of `try_rebalance_or_merge`. -/
inductive operation_result where
  | kNoop
  | kRebalancedLeftToRight
  | kRebalancedRightToLeft
  | kMerged
  | kShrinked
  deriving DecidableEq, Repr

/-- Tree object: `_M_root` and `_M_nkeys`. -/
structure Tree (K V : Type) where
  root : Option (Node K V)
  nkeys : Nat
  deriving Repr

/-- Iterator: the leaf (by its position in the leaf chain) and the slot. -/
structure Cursor where
  leaf : Nat
  pos : Nat
  deriving DecidableEq, Repr

section Constants

variable {K : Type} (p : Params K)

/-- Constant `node::kInternalNodeMaxKeys`: the formula value clamped to 3. -/
def Params.kInternalNodeMaxKeys : Nat :=
  if p.rawInternalNodeMaxKeys ≥ 3 then p.rawInternalNodeMaxKeys else 3

/-- Constant `node::kInternalNodeMinKeys`. -/
def Params.kInternalNodeMinKeys : Nat := ((p.kInternalNodeMaxKeys + 1) / 2) - 1

/-- Constant `node::kInternalNodeMedian`. -/
def Params.kInternalNodeMedian : Nat := p.kInternalNodeMaxKeys / 2

/-- Constant `node::kLeafNodeMaxKeys`: the formula value clamped to 3. -/
def Params.kLeafNodeMaxKeys : Nat :=
  if p.rawLeafNodeMaxKeys ≥ 3 then p.rawLeafNodeMaxKeys else 3

/-- Constant `node::kLeafNodeMinKeys`. -/
def Params.kLeafNodeMinKeys : Nat := p.kLeafNodeMaxKeys / 2

/-- Constant `node::kLeafNodeMedian`. -/
def Params.kLeafNodeMedian : Nat := (p.kLeafNodeMaxKeys + 1) / 2

end Constants

namespace Node

variable {K V : Type}

/-- Header field `count`. -/
def count : Node K V → Nat
  | leaf es => es.length
  | internal ks _ => ks.length

/-- Header field `type == kInternal`. -/
def isInternal : Node K V → Bool
  | leaf _ => false
  | internal _ _ => true

/-- Method `node::full`. -/
def full (p : Params K) (x : Node K V) : Bool :=
  match x with
  | internal ks _ => ks.length == p.kInternalNodeMaxKeys
  | leaf es => es.length == p.kLeafNodeMaxKeys

/-- Method `node::minkeys`. -/
def minkeys (p : Params K) (x : Node K V) : Bool :=
  match x with
  | internal ks _ => ks.length == p.kInternalNodeMinKeys
  | leaf es => es.length == p.kLeafNodeMinKeys

/-- Loop of `node::lower_bound` on the key array, with the state
`(left, right, ret)`; the first argument bounds the number of iterations. -/
def lower_bound_loop (comp : K → K → Int) (keys : List K) (key : K) :
    Nat → Nat → Nat → Bool → Bool × Nat
  | 0, left, _, ret => (ret, left)
  | fuel + 1, left, right, ret =>
    if left != right then
      let mid := (left + right) / 2
      match keys.get? mid with
      | none => (ret, left)
      | some km =>
        let r := comp km key
        if r < 0 then lower_bound_loop comp keys key fuel (mid + 1) right ret
        else if r > 0 then lower_bound_loop comp keys key fuel left mid ret
        else lower_bound_loop comp keys key fuel left mid true
    else (ret, left)

/-- Method `node::lower_bound`: `(ret, pos)`. -/
def lower_bound (comp : K → K → Int) (keys : List K) (key : K) : Bool × Nat :=
  lower_bound_loop comp keys key (keys.length + 1) 0 keys.length false

/-- Loop of `node::upper_bound` on the key array. -/
def upper_bound_loop (comp : K → K → Int) (keys : List K) (key : K) :
    Nat → Nat → Nat → Bool → Bool × Nat
  | 0, left, _, ret => (ret, left)
  | fuel + 1, left, right, ret =>
    if left != right then
      let mid := (left + right) / 2
      match keys.get? mid with
      | none => (ret, left)
      | some km =>
        let r := comp km key
        if r < 0 then upper_bound_loop comp keys key fuel (mid + 1) right ret
        else if r > 0 then upper_bound_loop comp keys key fuel left mid ret
        else upper_bound_loop comp keys key fuel (mid + 1) right true
    else (ret, left)

/-- Method `node::upper_bound`: `(ret, pos)`. -/
def upper_bound (comp : K → K → Int) (keys : List K) (key : K) : Bool × Nat :=
  upper_bound_loop comp keys key (keys.length + 1) 0 keys.length false

/-- Key array of a node (routing keys, or the keys of the leaf slots). -/
def keyArray : Node K V → List K
  | leaf es => es.map Prod.fst
  | internal ks _ => ks

/-- Child links of a node (none for a leaf). -/
def children : Node K V → List (Node K V)
  | leaf _ => []
  | internal _ cs => cs

/-- Number of levels below a node, measured along `children[0]`. -/
def height : Node K V → Nat
  | leaf _ => 0
  | internal _ [] => 1
  | internal _ (c :: _) => height c + 1

mutual
/-- Entries below a node, by a recursive in-order traversal. -/
def toList : Node K V → List (K × V)
  | leaf es => es
  | internal _ cs => toListL cs
/-- Entries below a list of siblings, left to right. -/
def toListL : List (Node K V) → List (K × V)
  | [] => []
  | c :: cs => toList c ++ toListL cs
end

mutual
/-- Leaves below a node in chain order (each leaf as its slot array). -/
def leaves : Node K V → List (List (K × V))
  | leaf es => [es]
  | internal _ cs => leavesL cs
/-- Leaves below a list of siblings, left to right. -/
def leavesL : List (Node K V) → List (List (K × V))
  | [] => []
  | c :: cs => leaves c ++ leavesL cs
end

/-- Method `node::split_child(i)` called on `x`: the full child `y = children[i]`
keeps its lower part, the new sibling `z` takes the upper part and is linked at
`children[i + 1]`, and one routing key enters `x` at slot `i`. -/
def split_child (p : Params K) (x : Node K V) (i : Nat) : Except Fault (Node K V) :=
  match x with
  | leaf _ => .error .wrongKind
  | internal ks cs =>
    match cs.get? i with
    | none => .error .outOfRange
    | some y =>
      if !(y.full p) then .error .outOfRange
      else if ks.length ≥ p.kInternalNodeMaxKeys then .error .overflow
      else
        match y with
        | internal yk yc =>
          let median := p.kInternalNodeMedian
          match yk.get? median with
          | none => .error .outOfRange
          | some up =>
            let y' := internal (yk.take median) (yc.take (median + 1))
            let z := internal (yk.drop (median + 1)) (yc.drop (median + 1))
            .ok (internal (ks.take i ++ up :: ks.drop i)
                  (cs.take i ++ y' :: z :: cs.drop (i + 1)))
        | leaf ye =>
          let ycount := p.kLeafNodeMedian
          match (ye.drop ycount).head? with
          | none => .error .outOfRange
          | some e =>
            .ok (internal (ks.take i ++ e.1 :: ks.drop i)
                  (cs.take i ++ leaf (ye.take ycount) :: leaf (ye.drop ycount)
                    :: cs.drop (i + 1)))

/-- Function `node::insert_non_full`: the result is the updated node and
whether `nkeys` was incremented.  The first argument bounds the descent. -/
def insert_non_full (p : Params K) :
    Nat → Node K V → K → V → Except Fault (Node K V × Bool)
  | 0, _, _, _ => .error .fuel
  | fuel + 1, internal ks cs, key, value =>
    let i := (upper_bound p.comp ks key).2
    match cs.get? i with
    | none => .error .outOfRange
    | some c =>
      if c.full p then
        match split_child p (internal ks cs) i with
        | .error f => .error f
        | .ok x' =>
          match x'.keyArray.get? i with
          | none => .error .outOfRange
          | some ki =>
            let i' := if p.comp ki key ≤ 0 then i + 1 else i
            match x'.children.get? i' with
            | none => .error .outOfRange
            | some c' =>
              match insert_non_full p fuel c' key value with
              | .error f => .error f
              | .ok (c'', grew) =>
                .ok (internal x'.keyArray (x'.children.set i' c''), grew)
      else
        match insert_non_full p fuel c key value with
        | .error f => .error f
        | .ok (c'', grew) => .ok (internal ks (cs.set i c''), grew)
  | _ + 1, leaf es, key, value =>
    let r := upper_bound p.comp (es.map Prod.fst) key
    let i := r.2
    if r.1 && !p.kDuplicates then
      if p.kValueSize > 0 then
        if i ≥ p.kLeafNodeMaxKeys then .error .overflow
        else
          match es.get? i with
          | some e => .ok (leaf (es.set i (e.1, value)), false)
          | none => .ok (leaf es, false)
      else .ok (leaf es, false)
    else if es.length ≥ p.kLeafNodeMaxKeys then .error .overflow
    else .ok (leaf (es.take i ++ (key, value) :: es.drop i), true)

/-- Function `node::rebalance_left_to_right(x, i)`: the last entry of the left
sibling `y = children[i - 1]` moves to the front of `z = children[i]`. -/
def rebalance_left_to_right (p : Params K) (x : Node K V) (i : Nat) :
    Except Fault (Node K V) :=
  match x with
  | leaf _ => .error .wrongKind
  | internal ks cs =>
    if i = 0 then .error .outOfRange
    else
      let i := i - 1
      match cs.get? i, cs.get? (i + 1), ks.get? i with
      | some y, some z, some xk =>
        match z, y with
        | internal zk zc, internal yk yc =>
          let ycount := yk.length
          if zk.length ≥ p.kInternalNodeMaxKeys then .error .overflow
          else if ycount = 0 then .error .outOfRange
          else
            match yk.get? (ycount - 1), yc.get? ycount with
            | some ylast, some ychild =>
              let z' := internal (xk :: zk) (ychild :: zc)
              let y' := internal (yk.take (ycount - 1)) (yc.take ycount)
              .ok (internal (ks.set i ylast) ((cs.set i y').set (i + 1) z'))
            | _, _ => .error .outOfRange
        | leaf ze, leaf ye =>
          let ycount := ye.length
          if ze.length ≥ p.kLeafNodeMaxKeys then .error .overflow
          else if ycount = 0 then .error .outOfRange
          else
            match ye.get? (ycount - 1) with
            | some e =>
              let z' := leaf (e :: ze)
              let y' := leaf (ye.take (ycount - 1))
              .ok (internal (ks.set i e.1) ((cs.set i y').set (i + 1) z'))
            | none => .error .outOfRange
        | _, _ => .error .wrongKind
      | _, _, _ => .error .outOfRange

/-- Function `node::rebalance_right_to_left(x, i)`: the first entry of the right
sibling `z = children[i + 1]` moves to the end of `y = children[i]`. -/
def rebalance_right_to_left (p : Params K) (x : Node K V) (i : Nat) :
    Except Fault (Node K V) :=
  match x with
  | leaf _ => .error .wrongKind
  | internal ks cs =>
    match cs.get? i, cs.get? (i + 1), ks.get? i with
    | some y, some z, some xk =>
      match y, z with
      | internal yk yc, internal zk zc =>
        if yk.length ≥ p.kInternalNodeMaxKeys then .error .overflow
        else
          match zk, zc with
          | zk0 :: zkrest, zc0 :: zcrest =>
            let y' := internal (yk ++ [xk]) (yc ++ [zc0])
            let z' := internal zkrest zcrest
            .ok (internal (ks.set i zk0) ((cs.set i y').set (i + 1) z'))
          | _, _ => .error .outOfRange
      | leaf ye, leaf ze =>
        if ye.length ≥ p.kLeafNodeMaxKeys then .error .overflow
        else
          match ze with
          | e :: e' :: rest =>
            let y' := leaf (ye ++ [e])
            let z' := leaf (e' :: rest)
            .ok (internal (ks.set i e'.1) ((cs.set i y').set (i + 1) z'))
          | _ => .error .outOfRange
      | _, _ => .error .wrongKind
    | _, _, _ => .error .outOfRange

/-- Function `node::merge(x, y, z, i)` with `y = children[i]` and
`z = children[i + 1]`: `z` is appended to `y` and unlinked from `x`. -/
def merge (p : Params K) (x : Node K V) (i : Nat) : Except Fault (Node K V) :=
  match x with
  | leaf _ => .error .wrongKind
  | internal ks cs =>
    match cs.get? i, cs.get? (i + 1), ks.get? i with
    | some y, some z, some xk =>
      match y, z with
      | internal yk yc, internal zk zc =>
        if yk.length + 1 + zk.length > p.kInternalNodeMaxKeys then .error .overflow
        else
          let y' := internal (yk ++ xk :: zk) (yc ++ zc)
          .ok (internal (ks.eraseIdx i) ((cs.set i y').eraseIdx (i + 1)))
      | leaf ye, leaf ze =>
        if ye.length + ze.length > p.kLeafNodeMaxKeys then .error .overflow
        else
          let y' := leaf (ye ++ ze)
          .ok (internal (ks.eraseIdx i) ((cs.set i y').eraseIdx (i + 1)))
      | _, _ => .error .wrongKind
    | _, _, _ => .error .outOfRange

/-- Tail of the merge branches of `try_rebalance_or_merge`: merge at `i`, then
replace the root by the merged child if `x` has no key left.  `xIsRoot` tells
whether `x` is the node `root` points to. -/
def merge_and_shrink (p : Params K) (x : Node K V) (xIsRoot : Bool) (i : Nat) :
    Except Fault (operation_result × Node K V × Nat) :=
  match merge p x i with
  | .error f => .error f
  | .ok x' =>
    if x'.count == 0 then
      match x'.children.head? with
      | none => .error .outOfRange
      | some c => if xIsRoot then .ok (.kShrinked, c, i) else .error .lostRoot
    else .ok (.kMerged, x', i)

/-- Function `node::try_rebalance_or_merge(x, root, i)`: the result holds the
operation performed, the node now standing for `x` (the new root after
`kShrinked`) and the updated `i`. -/
def try_rebalance_or_merge (p : Params K) (x : Node K V) (xIsRoot : Bool) (i : Nat) :
    Except Fault (operation_result × Node K V × Nat) :=
  match x.children.get? i with
  | none => .error .outOfRange
  | some c =>
    if c.minkeys p then
      if i > 0 then
        match x.children.get? (i - 1) with
        | none => .error .outOfRange
        | some l =>
          if !(l.minkeys p) then
            match rebalance_left_to_right p x i with
            | .error f => .error f
            | .ok x' => .ok (.kRebalancedLeftToRight, x', i)
          else
            let rightOk : Except Fault Bool :=
              if i < x.count then
                match x.children.get? (i + 1) with
                | none => .error .outOfRange
                | some r => .ok (!(r.minkeys p))
              else .ok false
            match rightOk with
            | .error f => .error f
            | .ok true =>
              match rebalance_right_to_left p x i with
              | .error f => .error f
              | .ok x' => .ok (.kRebalancedRightToLeft, x', i)
            | .ok false => merge_and_shrink p x xIsRoot (i - 1)
      else
        match x.children.get? (i + 1) with
        | none => .error .outOfRange
        | some r =>
          if !(r.minkeys p) then
            match rebalance_right_to_left p x i with
            | .error f => .error f
            | .ok x' => .ok (.kRebalancedRightToLeft, x', i)
          else merge_and_shrink p x xIsRoot i
    else .ok (.kNoop, x, i)

/-- Replace `children[i]` of an internal node. -/
def setChild (x : Node K V) (i : Nat) (c : Node K V) : Node K V :=
  match x with
  | leaf es => leaf es
  | internal ks cs => internal ks (cs.set i c)

/-- Loop of `try_rebalance_or_merge_subtree`: walk down `children[0]` from `x`,
calling `try_rebalance_or_merge(x, root, 0)` at every internal node. -/
def rebalance_spine (p : Params K) : Nat → Node K V → Except Fault (Node K V)
  | 0, _ => .error .fuel
  | _ + 1, leaf es => .ok (leaf es)
  | fuel + 1, internal ks cs =>
    match try_rebalance_or_merge p (internal ks cs) false 0 with
    | .error f => .error f
    | .ok (_, x', _) =>
      match x'.children.head? with
      | none => .error .outOfRange
      | some c =>
        match rebalance_spine p fuel c with
        | .error f => .error f
        | .ok c' => .ok (x'.setChild 0 c')

/-- Function `node::try_rebalance_or_merge_subtree(x, root, i)`. -/
def try_rebalance_or_merge_subtree (p : Params K) (x : Node K V) (xIsRoot : Bool)
    (i : Nat) : Except Fault (operation_result × Node K V) :=
  match try_rebalance_or_merge p x xIsRoot i with
  | .error f => .error f
  | .ok (opres, x', _) =>
    match opres with
    | .kMerged => .ok (opres, x')
    | .kShrinked => .ok (opres, x')
    | _ =>
      match x'.children.get? i with
      | none => .error .outOfRange
      | some c =>
        match rebalance_spine p (c.height + 1) c with
        | .error f => .error f
        | .ok c' => .ok (opres, x'.setChild i c')

/-- How the descent of `node::erase` ended below a node. -/
inductive EraseStep (K V : Type) where
  /-- An entry was removed; the argument is the updated node. -/
  | removed (x : Node K V)
  /-- The function returned false. -/
  | absent (x : Node K V)
  /-- The key is not in the leaf reached and `search_in_next_node` is set:
  slot 0 of the successor leaf decides. -/
  | successor (x : Node K V)

/-- Tail of `node::erase` once `x = x->next()` has been taken, seen from an
ancestor of the successor leaf: compare with slot 0 of the leftmost leaf below
`x` and remove that slot on equality. -/
def erase_first (comp : K → K → Int) (key : K) : Node K V → Except Fault (Bool × Node K V)
  | leaf [] => .error .outOfRange
  | leaf (e :: es) => if comp key e.1 != 0 then .ok (false, leaf (e :: es)) else .ok (true, leaf es)
  | internal _ [] => .error .outOfRange
  | internal ks (c :: cs) =>
    match erase_first comp key c with
    | .error f => .error f
    | .ok (b, c') => .ok (b, internal ks (c' :: cs))

/-- End of `node::erase` seen from the node `x` whose child `i` the descent
went through: the child is put back, and when the leaf reached has no match
while `search_in_next_node` is set, `x = x->next()` is the leftmost leaf below
`children[i + 1]` if that child exists (otherwise the successor lies further
up). -/
def erase_up (p : Params K) (key : K) (x : Node K V) (i : Nat) :
    EraseStep K V → Except Fault (EraseStep K V)
  | .removed c' => .ok (.removed (x.setChild i c'))
  | .absent c' => .ok (.absent (x.setChild i c'))
  | .successor c' =>
    match (x.setChild i c').children.get? (i + 1) with
    | none => .ok (.successor (x.setChild i c'))
    | some s =>
      match erase_first p.comp key s with
      | .error f => .error f
      | .ok (true, s') => .ok (.removed ((x.setChild i c').setChild (i + 1) s'))
      | .ok (false, _) => .ok (.absent (x.setChild i c'))

/-- First half of the loop body of `node::erase` at the internal node `x`:
the slot found by `lower_bound` and the steering on a tie.  The result is
either the new root to restart from (`x = root; continue`) or the node now
standing for `x`, the slot `i` and the value of `search_in_next_node`. -/
def erase_steer (p : Params K) (key : K) (x : Node K V) (xIsRoot : Bool)
    (search_in_next_node : Bool) : Except Fault (Node K V ⊕ (Node K V × Nat × Bool)) :=
  let r := lower_bound p.comp x.keyArray key
  let i := r.2
  if r.1 then
    if !p.kDuplicates then .ok (.inr (x, i + 1, search_in_next_node))
    else
      match try_rebalance_or_merge_subtree p x xIsRoot (i + 1) with
      | .error f => .error f
      | .ok (.kRebalancedLeftToRight, x') =>
        match x'.keyArray.get? i with
        | none => .error .outOfRange
        | some ki =>
          if p.comp key ki > 0 then .ok (.inr (x', i + 1, false))
          else .ok (.inr (x', i, true))
      | .ok (.kShrinked, newRoot) => .ok (.inl newRoot)
      | .ok (_, x') => .ok (.inr (x', i, true))
  else .ok (.inr (x, i, search_in_next_node))

/-- Loop and leaf part of `node::erase`, started at node `x` with the current
value of `search_in_next_node`; `xIsRoot` tells whether `x` is the root. -/
def erase_loop (p : Params K) (key : K) :
    Nat → Node K V → Bool → Bool → Except Fault (EraseStep K V)
  | 0, _, _, _ => .error .fuel
  | _ + 1, leaf es, _, search_in_next_node =>
    let r := lower_bound p.comp (es.map Prod.fst) key
    if !r.1 then
      if !p.kDuplicates || !search_in_next_node then .ok (.absent (leaf es))
      else .ok (.successor (leaf es))
    else .ok (.removed (leaf (es.eraseIdx r.2)))
  | fuel + 1, internal ks cs, xIsRoot, search_in_next_node =>
    match erase_steer p key (internal ks cs) xIsRoot search_in_next_node with
    | .error f => .error f
    | .ok (.inl newRoot) => erase_loop p key fuel newRoot true false
    | .ok (.inr (x1, i1, flag)) =>
      match try_rebalance_or_merge p x1 xIsRoot i1 with
      | .error f => .error f
      | .ok (.kShrinked, newRoot, _) => erase_loop p key fuel newRoot true false
      | .ok (_, x2, i2) =>
        match x2.children.get? i2 with
        | none => .error .outOfRange
        | some c =>
          match erase_loop p key fuel c false flag with
          | .error f => .error f
          | .ok r => erase_up p key x2 i2 r

/-- Function `node::erase(root, key, comp)`: the result and the new root. -/
def erase (p : Params K) (root : Node K V) (key : K) : Except Fault (Bool × Node K V) :=
  match erase_loop p key (root.height + 1) root true false with
  | .error f => .error f
  | .ok (.removed x) => .ok (true, x)
  | .ok (.absent x) => .ok (false, x)
  | .ok (.successor _) => .error .nullNode

end Node

namespace btree

variable {K V : Type}

/-- Method `btree::count`. -/
def count (t : Tree K V) : Nat := t.nkeys

/-- The tree built by the constructor `btree::btree`. -/
def empty : Tree K V := { root := none, nkeys := 0 }

/-- Method `btree::insert` (every allocation succeeds, so it returns true). -/
def insert (p : Params K) (t : Tree K V) (key : K) (value : V) :
    Except Fault (Tree K V) :=
  let prepared : Except Fault (Node K V) :=
    match t.root with
    | none => .ok (Node.leaf [])
    | some r =>
      if r.full p then Node.split_child p (Node.internal [] [r]) 0 else .ok r
  match prepared with
  | .error f => .error f
  | .ok root =>
    match Node.insert_non_full p (root.height + 1) root key value with
    | .error f => .error f
    | .ok (root', grew) =>
      .ok { root := some root', nkeys := if grew then t.nkeys + 1 else t.nkeys }

/-- Method `btree::erase`: the result and the tree afterwards. -/
def erase (p : Params K) (t : Tree K V) (key : K) : Except Fault (Bool × Tree K V) :=
  match t.root with
  | none => .ok (false, t)
  | some r =>
    match Node.erase p r key with
    | .error f => .error f
    | .ok (false, r') => .ok (false, { root := some r', nkeys := t.nkeys })
    | .ok (true, r') =>
      let n := t.nkeys - 1
      if n == 0 then .ok (true, { root := none, nkeys := n })
      else .ok (true, { root := some r', nkeys := n })

/-- Leaf chain of the tree: the leaves reachable from the leftmost leaf by
`next()`. -/
def chain (t : Tree K V) : List (List (K × V)) :=
  match t.root with
  | none => []
  | some r => r.leaves

/-- Accessors `iterator::key` and `iterator::value` of a cursor. -/
def entryAt (t : Tree K V) (c : Cursor) : Except Fault (K × V) :=
  match (chain t).get? c.leaf with
  | none => .error .nullNode
  | some es =>
    match es.get? c.pos with
    | none => .error .outOfRange
    | some e => .ok e

/-- Method `btree::begin`: `none` stands for the result false. -/
def begin (t : Tree K V) : Except Fault (Option Cursor) :=
  if t.nkeys == 0 then .ok none
  else
    match t.root with
    | none => .error .nullNode
    | some _ => .ok (some { leaf := 0, pos := 0 })

/-- Method `btree::next`: the result and the cursor afterwards. -/
def next (t : Tree K V) (c : Cursor) : Except Fault (Bool × Cursor) :=
  match (chain t).get? c.leaf with
  | none => .error .nullNode
  | some es =>
    if c.pos + 1 < es.length then .ok (true, { c with pos := c.pos + 1 })
    else if c.leaf + 1 < (chain t).length then .ok (true, { leaf := c.leaf + 1, pos := 0 })
    else .ok (false, c)

/-- Entries read at the cursor and at every position `next` leads to, until
`next` returns false. -/
def walk (t : Tree K V) : Nat → Cursor → Except Fault (List (K × V))
  | 0, _ => .error .fuel
  | fuel + 1, c =>
    match entryAt t c with
    | .error f => .error f
    | .ok e =>
      match next t c with
      | .error f => .error f
      | .ok (false, _) => .ok [e]
      | .ok (true, c') =>
        match walk t fuel c' with
        | .error f => .error f
        | .ok es => .ok (e :: es)

/-- Forward iteration sequence: `begin`, then `next` until it returns false
(empty when `begin` returns false). -/
def forward (t : Tree K V) : Except Fault (List (K × V)) :=
  match begin t with
  | .error f => .error f
  | .ok none => .ok []
  | .ok (some c) => walk t ((chain t).flatten.length + (chain t).length + 1) c

/-- Descent of `btree::lower_bound`: the leaf reached (as its offset in the
chain, starting from `off`), the slot, whether the leaf holds the key, and the
carry `search_in_next_node`. -/
def lower_bound_descend (p : Params K) (key : K) :
    Nat → Node K V → Nat → Bool → Except Fault (Bool × Bool × Cursor)
  | 0, _, _, _ => .error .fuel
  | _ + 1, Node.leaf es, off, carry =>
    let r := Node.lower_bound p.comp (es.map Prod.fst) key
    .ok (r.1, carry, { leaf := off, pos := r.2 })
  | fuel + 1, Node.internal ks cs, off, carry =>
    let r := Node.lower_bound p.comp ks key
    let pos := if r.1 && !p.kDuplicates then r.2 + 1 else r.2
    let carry' := if r.1 && p.kDuplicates then true else carry
    match cs.get? pos with
    | none => .error .outOfRange
    | some c =>
      lower_bound_descend p key fuel c (off + (Node.leavesL (cs.take pos)).length) carry'

/-- Method `btree::lower_bound`: the result and the cursor afterwards (`none`
when the cursor was not touched). -/
def lower_bound (p : Params K) (t : Tree K V) (key : K) :
    Except Fault (Bool × Option Cursor) :=
  if t.nkeys == 0 then .ok (false, none)
  else
    match t.root with
    | none => .error .nullNode
    | some r =>
      match lower_bound_descend p key (r.height + 1) r 0 false with
      | .error f => .error f
      | .ok (true, _, c) => .ok (true, some c)
      | .ok (false, carry, c) =>
        if !p.kDuplicates || !carry then .ok (false, some c)
        else
          match (chain t).get? (c.leaf + 1) with
          | none => .error .nullNode
          | some es =>
            match es.head? with
            | none => .error .outOfRange
            | some e =>
              if p.comp key e.1 != 0 then .ok (false, some { leaf := c.leaf + 1, pos := c.pos })
              else .ok (true, some { leaf := c.leaf + 1, pos := 0 })

/-- Method `btree::find`. -/
def find (p : Params K) (t : Tree K V) (key : K) : Except Fault (Bool × Option Cursor) :=
  lower_bound p t key

/-- Method `btree::get`: `some value` stands for the result true. -/
def get (p : Params K) (t : Tree K V) (key : K) : Except Fault (Option V) :=
  match lower_bound p t key with
  | .error f => .error f
  | .ok (true, some c) =>
    match entryAt t c with
    | .error f => .error f
    | .ok e => .ok (some e.2)
  | .ok _ => .ok none

end btree

end BPlusTree

namespace BPlusTree

variable {K V : Type}

/-- Assumptions on the environment of a tree: the comparator is a total
preorder given as a three-way comparison (its sign is antisymmetric and `≤` is
transitive), and both fanouts fit the 16-bit slot index type of the source. -/
structure Params.Valid (p : Params K) : Prop where
  comp_antisymm : ∀ a b, p.comp a b < 0 ↔ 0 < p.comp b a
  comp_trans : ∀ a b c, p.comp a b ≤ 0 → p.comp b c ≤ 0 → p.comp a c ≤ 0
  internal_fits : p.kInternalNodeMaxKeys < 65536
  leaf_fits : p.kLeafNodeMaxKeys < 65536

/-- Order required between two entries of the tree, the first one earlier in
iteration order: `≤` when duplicates are allowed, `<` otherwise. -/
def Params.before (p : Params K) (a b : K) : Prop :=
  if p.kDuplicates then p.comp a b ≤ 0 else p.comp a b < 0

/-- Order required between two items of a node read left to right, an item
being a routing key (tag `true`) or the key of an entry below a child (tag
`false`): a routing key is `≤` everything to its right, an entry is `before`
everything to its right. -/
def Params.rel (p : Params K) (a b : Bool × K) : Prop :=
  if a.1 then p.comp a.2 b.2 ≤ 0 else p.before a.2 b.2

namespace Node

/-- Keys of the entries below a node, tagged as entries. -/
def elems (x : Node K V) : List (Bool × K) := (toList x).map (fun e => (false, e.1))

/-- Items `k₀ c₀ k₁ c₁ …` of routing keys followed by the child to their right. -/
def tailItems : List K → List (Node K V) → List (Bool × K)
  | k :: ks, c :: cs => (true, k) :: (elems c ++ tailItems ks cs)
  | _, _ => []

/-- Items `c₀ k₀ c₁ k₁ …` of children followed by the routing key to their right. -/
def preItems : List K → List (Node K V) → List (Bool × K)
  | k :: ks, c :: cs => elems c ++ (true, k) :: preItems ks cs
  | _, _ => []

/-- Items of an internal node read left to right: `c₀ k₀ c₁ k₁ … cₙ`. -/
def items : List K → List (Node K V) → List (Bool × K)
  | _, [] => []
  | ks, c :: cs => elems c ++ tailItems ks cs

/-- Structural invariant of a subtree of height `h` whose top node holds at
least `minL` entries if it is a leaf and at least `minI` keys if it is
internal: every node below the top one holds between MIN and MAX keys, every
node at most MAX, an internal node has one more child than keys, all leaves
are at depth `h`, and keys are ordered within every node and between every
routing key and the entries of the subtrees on both sides of it. -/
inductive Wf (p : Params K) : Nat → Nat → Nat → Node K V → Prop where
  | leaf (minL minI : Nat) (es : List (K × V)) :
      minL ≤ es.length → es.length ≤ p.kLeafNodeMaxKeys →
      (es.map Prod.fst).Pairwise p.before →
      Wf p minL minI 0 (leaf es)
  | internal (minL minI h : Nat) (ks : List K) (cs : List (Node K V)) :
      minI ≤ ks.length → ks.length ≤ p.kInternalNodeMaxKeys →
      cs.length = ks.length + 1 →
      (∀ c ∈ cs, Wf p p.kLeafNodeMinKeys p.kInternalNodeMinKeys h c) →
      (items ks cs).Pairwise p.rel →
      Wf p minL minI (h + 1) (internal ks cs)

/-- Position `i'` of `cs'` holds what position `i` of `cs` held, possibly
extended by entries taken over from the siblings on either side; the entries
and their order are the same overall. -/
def Absorbed (cs : List (Node K V)) (i : Nat) (cs' : List (Node K V)) (i' : Nat) : Prop :=
  ∃ c c' a b, cs[i]? = some c ∧ cs'[i']? = some c' ∧
    toListL (cs.take i) = toListL (cs'.take i') ++ a ∧
    toList c' = a ++ (toList c ++ b) ∧
    toListL (cs.drop (i + 1)) = b ++ toListL (cs'.drop (i' + 1)) ∧
    (b = [] → cs'.drop (i' + 1) = cs.drop (i + 1))

/-- What `try_rebalance_or_merge(x, root, i)` guarantees about its result `r` on
a well-formed node `x = internal ks cs`: the entries below are unchanged; after
`kShrinked` the result is a well-formed root one level lower; otherwise the
result is a well-formed node with at most one key less, the routing keys left
of slot `i - 1` are untouched, and the child at the returned slot is above the
minimum and holds what slot `i` held plus entries absorbed from its siblings. -/
def TrmPost (p : Params K) (minL h : Nat) (xIsRoot : Bool) (ks : List K)
    (cs : List (Node K V)) (i : Nat) (r : operation_result × Node K V × Nat) : Prop :=
  toList r.2.1 = toListL cs ∧
  ((r.1 = .kShrinked ∧ xIsRoot = true ∧ Wf p 1 1 h r.2.1) ∨
   (r.1 ≠ .kShrinked ∧ ∃ ks' cs', r.2.1 = internal ks' cs' ∧
      Wf p minL ks'.length (h + 1) (internal ks' cs') ∧
      1 ≤ ks'.length ∧ ks.length ≤ ks'.length + 1 ∧ ks'.length ≤ ks.length ∧
      (r.1 ≠ .kMerged → ks'.length = ks.length ∧ r.2.2 = i) ∧
      (r.1 = .kMerged → r.2.2 + 1 = i ∨ (i = 0 ∧ r.2.2 = 0)) ∧
      ks'.take (i - 1) = ks.take (i - 1) ∧
      ((r.1 = .kNoop ∨ r.1 = .kRebalancedRightToLeft) → ks'.take i = ks.take i) ∧
      (r.1 = .kNoop → cs' = cs) ∧
      (∃ c', cs'[r.2.2]? = some c' ∧
        Wf p (p.kLeafNodeMinKeys + 1) (p.kInternalNodeMinKeys + 1) h c') ∧
      Absorbed cs i cs' r.2.2))

/-- The leftmost leaf below a node holds more than the minimum number of
entries. -/
def FirstLeafAbove (p : Params K) : Node K V → Prop
  | leaf es => p.kLeafNodeMinKeys < es.length
  | internal _ [] => False
  | internal _ (c :: _) => FirstLeafAbove p c

end Node

/-- Invariant of a tree object: no root and no entry, or a well-formed
non-empty root and `nkeys` equal to the number of entries. -/
def TreeInv (p : Params K) (t : Tree K V) : Prop :=
  match t.root with
  | none => t.nkeys = 0
  | some r => (∃ h, Node.Wf p 1 1 h r) ∧ t.nkeys = (Node.toList r).length

/-- Trees reachable from the empty tree by `insert` and `erase` calls that
return. -/
inductive Reachable (p : Params K) : Tree K V → Prop where
  | empty : Reachable p btree.empty
  | insert {t t' : Tree K V} (key : K) (value : V) :
      Reachable p t → btree.insert p t key value = .ok t' → Reachable p t'
  | erase {t t' : Tree K V} (key : K) (b : Bool) :
      Reachable p t → btree.erase p t key = .ok (b, t') → Reachable p t'

/-- Entries of a tree in the order of a recursive in-order traversal. -/
def contents (t : Tree K V) : List (K × V) :=
  match t.root with
  | none => []
  | some r => Node.toList r

/-- Reference insertion into a sorted list: the pair goes after the last entry
with key `≤ key`. -/
def refInsert (comp : K → K → Int) (key : K) (value : V) : List (K × V) → List (K × V)
  | [] => [(key, value)]
  | e :: es =>
    if comp e.1 key ≤ 0 then e :: refInsert comp key value es else (key, value) :: e :: es

/-- Reference removal: the first entry whose key compares equal to `key`. -/
def refErase (comp : K → K → Int) (key : K) : List (K × V) → List (K × V)
  | [] => []
  | e :: es => if comp e.1 key = 0 then es else e :: refErase comp key es

/-- Entries seen so far allow the descent of `erase` to continue into child
`i`: everything left of it is below `key`, and either everything right of it
is above `key`, or the child holds an entry `≥ key`, or (carry set) the right
sibling exists, can spare its first entry, and everything right of the child is
`≥ key`. -/
def EraseReady (p : Params K) (key : K) (flag : Bool) (cs : List (Node K V)) (i : Nat) : Prop :=
  (∀ e ∈ Node.toListL (cs.take i), p.comp e.1 key < 0) ∧
  ((∀ e ∈ Node.toListL (cs.drop (i + 1)), p.comp key e.1 < 0) ∨
   (∃ c e, cs[i]? = some c ∧ e ∈ Node.toList c ∧ p.comp key e.1 ≤ 0) ∨
   (flag = true ∧ p.kDuplicates = true ∧
      (∃ s, cs[i + 1]? = some s ∧ Node.FirstLeafAbove p s) ∧
      ∀ e ∈ Node.toListL (cs.drop (i + 1)), p.comp key e.1 ≤ 0))

/-- What the descent of `erase` guarantees about its outcome below a node
whose entries were `l`, `good` being the structural guarantee on the new
node. -/
def ErasePostG (p : Params K) (key : K) (good : Node K V → Prop) (l : List (K × V))
    (flag : Bool) : Node.EraseStep K V → Prop
  | .removed x' =>
      (∃ e ∈ l, p.comp e.1 key = 0) ∧ Node.toList x' = refErase p.comp key l ∧ good x'
  | .absent x' =>
      (∀ e ∈ l, p.comp e.1 key ≠ 0) ∧ Node.toList x' = l ∧ good x' ∧
      (flag = true → p.kDuplicates = true → ∃ e ∈ l, p.comp key e.1 < 0)
  | .successor x' =>
      (∀ e ∈ l, p.comp e.1 key ≠ 0) ∧ Node.toList x' = l ∧ good x' ∧ p.kDuplicates = true

/-- Structural guarantee on the node returned by the descent of `erase`: a
non-root node keeps its height and stays within the occupancy bounds; the root
may lose levels and, as a leaf, may become empty. -/
def EraseGood (p : Params K) (h : Nat) (xIsRoot : Bool) (x' : Node K V) : Prop :=
  if xIsRoot then ∃ h', h' ≤ h ∧ Node.Wf p 0 1 h' x'
  else Node.Wf p p.kLeafNodeMinKeys p.kInternalNodeMinKeys h x'

end BPlusTree

namespace BPlusTree

variable {K V : Type}

/-- What the descent of `btree::lower_bound` guarantees in a subtree whose
leaves are `ls`, entered with carry `carry`, when it stops at slot `i` of leaf
`j` (holding `es`) with results `found` and `carry'`: everything before the
slot is below `key`; on success the slot holds a key equal to `key`; otherwise
the leaf holds no such key and either everything after the leaf is above `key`
(no carry) or, with the carry set, the leaf is the last one of the subtree or
everything after it is `≥ key`. -/
def Node.DescendPost (p : Params K) (key : K) (ls : List (List (K × V))) (carry : Bool)
    (found carry' : Bool) (j i : Nat) (es : List (K × V)) : Prop :=
  ls[j]? = some es ∧ i ≤ es.length ∧
  (∀ e ∈ (ls.take j).flatten ++ es.take i, p.comp e.1 key < 0) ∧
  (found = true → ∃ e, es[i]? = some e ∧ p.comp e.1 key = 0) ∧
  (found = false →
    (∀ e ∈ es, p.comp e.1 key ≠ 0) ∧
    (carry' = false → carry = false ∧ ∀ e ∈ (ls.drop (j + 1)).flatten, p.comp key e.1 < 0) ∧
    (carry' = true → p.kDuplicates = true ∧
      ((carry = true ∧ j + 1 = ls.length) ∨
       (j + 1 < ls.length ∧ ∀ e ∈ (ls.drop (j + 1)).flatten, p.comp key e.1 ≤ 0))))

/-- Entries that iteration visits before it reaches the cursor. -/
def btree.entriesBefore (t : Tree K V) (c : Cursor) : List (K × V) :=
  ((btree.chain t).take c.leaf).flatten ++ (((btree.chain t).get? c.leaf).getD []).take c.pos

/-- A sequence of `insert` calls, in list order. -/
def btree.insertAll (p : Params K) : Tree K V → List (K × V) → Except Fault (Tree K V)
  | t, [] => .ok t
  | t, (k, v) :: l =>
    match btree.insert p t k v with
    | .error f => .error f
    | .ok t' => btree.insertAll p t' l

/-- One call on the tree: `insert(key, value)` or `erase(key)`. -/
inductive Op (K V : Type) where
  | insert (key : K) (value : V)
  | erase (key : K)

/-- A sequence of `insert` and `erase` calls, in list order; the results of the
calls are dropped. -/
def btree.applyOps (p : Params K) : Tree K V → List (Op K V) → Except Fault (Tree K V)
  | t, [] => .ok t
  | t, .insert k v :: ops =>
    match btree.insert p t k v with
    | .error f => .error f
    | .ok t' => btree.applyOps p t' ops
  | t, .erase k :: ops =>
    match btree.erase p t k with
    | .error f => .error f
    | .ok (_, t') => btree.applyOps p t' ops

/-- The same sequence of calls on the reference sorted list: `insert` places
the pair after the last entry with key `≤ key`, `erase` removes the first entry
with a key equal to `key`. -/
def refApply (comp : K → K → Int) : List (K × V) → List (Op K V) → List (K × V)
  | l, [] => l
  | l, .insert k v :: ops => refApply comp (refInsert comp k v l) ops
  | l, .erase k :: ops => refApply comp (refErase comp k l) ops

/-- The calls `ops`, replayed on the reference list `l`, never insert a key
that is currently present when duplicates are not allowed. -/
def NoOverwrite (p : Params K) : List (K × V) → List (Op K V) → Prop
  | _, [] => True
  | l, .insert k v :: ops =>
    (p.kDuplicates = false → ∀ e ∈ l, p.comp e.1 k ≠ 0) ∧
      NoOverwrite p (refInsert p.comp k v l) ops
  | l, .erase k :: ops => NoOverwrite p (refErase p.comp k l) ops

/-- Instantiation used for concrete evaluations: `int` keys compared by
subtraction, values of four bytes, and both fanouts at their minimum 3. -/
def intParams (dup : Bool) : Params Int :=
  { comp := fun a b => a - b, rawInternalNodeMaxKeys := 3, rawLeafNodeMaxKeys := 3,
    kDuplicates := dup, kValueSize := 4 }

/-- The multimap with fanout 3 after `insert` of the keys 1 to 6 (values ten
times the key) followed by `erase(5)` and `erase(4)`: the routing key 5 is no
longer the key of an entry, and the last two leaves hold the minimum. -/
def multimapStale : Tree Int Nat :=
  { root := some (.internal [3, 5] [.leaf [(1, 10), (2, 20)], .leaf [(3, 30)], .leaf [(6, 60)]]),
    nkeys := 4 }

/-- The multimap with fanout 3 after `insert` of `(1, 10)`, `(2, 20)`,
`(2, 21)`, `(3, 30)`, `(2, 22)`: the entries with key 2 span two leaves. -/
def multimapTies : Tree Int Nat :=
  { root := some (.internal [2] [.leaf [(1, 10), (2, 20)], .leaf [(2, 21), (2, 22), (3, 30)]]),
    nkeys := 5 }

end BPlusTree

namespace BPlusTree

variable {K V : Type}

/-- A sequence of `insert` and `erase` calls with the bookkeeping of the
calls: the result holds the tree afterwards, the number of `insert` calls
counted (when duplicates are not allowed, a call whose key is already present
is not counted) and the number of `erase` calls that returned true. -/
def btree.tally (p : Params K) : Tree K V → List (Op K V) → Except Fault (Tree K V × Nat × Nat)
  | t, [] => .ok (t, 0, 0)
  | t, .insert k v :: ops =>
    match btree.insert p t k v with
    | .error f => .error f
    | .ok t' =>
      match btree.tally p t' ops with
      | .error f => .error f
      | .ok (t'', i, e) =>
        .ok (t'', (if !p.kDuplicates && (contents t).any (fun x => p.comp x.1 k == 0)
                   then i else i + 1), e)
  | t, .erase k :: ops =>
    match btree.erase p t k with
    | .error f => .error f
    | .ok (b, t') =>
      match btree.tally p t' ops with
      | .error f => .error f
      | .ok (t'', i, e) => .ok (t'', i, if b then e + 1 else e)

namespace Node

/-- Largest number of keys a node of this kind may hold (`kInternalNodeMaxKeys`
or `kLeafNodeMaxKeys`, the constant `full()` tests against). -/
def maxKeys (p : Params K) : Node K V → Nat
  | internal _ _ => p.kInternalNodeMaxKeys
  | leaf _ => p.kLeafNodeMaxKeys

/-- Smallest number of keys a non-root node of this kind may hold
(`kInternalNodeMinKeys` or `kLeafNodeMinKeys`, the constant `minkeys()` tests
against). -/
def minKeys (p : Params K) : Node K V → Nat
  | internal _ _ => p.kInternalNodeMinKeys
  | leaf _ => p.kLeafNodeMinKeys

mutual
/-- Every node strictly below a node. -/
def subnodes : Node K V → List (Node K V)
  | leaf _ => []
  | internal _ cs => subnodesL cs
/-- The nodes of a list of siblings together with every node below them. -/
def subnodesL : List (Node K V) → List (Node K V)
  | [] => []
  | c :: cs => c :: (subnodes c ++ subnodesL cs)
end

mutual
/-- Depth of every leaf below a node, counted in child links from the node. -/
def leafDepths : Node K V → List Nat
  | leaf _ => [0]
  | internal _ cs => leafDepthsL cs
/-- Depth of every leaf below a list of siblings, counted from their parent. -/
def leafDepthsL : List (Node K V) → List Nat
  | [] => []
  | c :: cs => (leafDepths c).map (· + 1) ++ leafDepthsL cs
end

end Node

/-- The map with fanout 3 after `insert` of `(1, 10)`, `(2, 20)`, `(4, 40)`,
`(5, 50)`: key 3 is absent and the first entry with a key `≥ 3` is the first
slot of the second leaf. -/
def mapGap : Tree Int Nat :=
  { root := some (.internal [4] [.leaf [(1, 10), (2, 20)], .leaf [(4, 40), (5, 50)]]),
    nkeys := 4 }

end BPlusTree

/-!
Leaf chain of `util/btree/btree.h`: embedding with explicit links

The definitions below repeat the operations of the tree on nodes whose leaves
have an address, together with a heap that holds the `_M_prev` and `_M_next`
pointer of every leaf.  An iterator is the address of a leaf and a slot.

* `node::create` hands out an address that was never used and leaves both
  links null (`calloc`); addresses of deleted nodes are not handed out again.
* Only `split_child` and `merge` write links; `btree::next`, `btree::prev`,
  `btree::lower_bound` and `node::erase` read them.
-/

namespace BPlusTree

/-- Pointer fields `_M_prev` and `_M_next` of the leaves, by address, and the
first address `node::create` has not handed out yet. -/
structure Heap where
  prev : Nat → Option Nat
  next : Nat → Option Nat
  fresh : Nat

namespace Heap

/-- No leaf was created yet. -/
def empty : Heap := { prev := fun _ => none, next := fun _ => none, fresh := 0 }

/-- Setter `node::prev(node* n)` on the leaf at address `a`. -/
def setPrev (h : Heap) (a : Nat) (n : Option Nat) : Heap :=
  { h with prev := fun b => if b = a then n else h.prev b }

/-- Setter `node::next(node* n)` on the leaf at address `a`. -/
def setNext (h : Heap) (a : Nat) (n : Option Nat) : Heap :=
  { h with next := fun b => if b = a then n else h.next b }

/-- Function `node::create(kLeaf)`: the address of the new leaf, whose links are
null. -/
def create (h : Heap) : Nat × Heap :=
  (h.fresh,
    { prev := fun b => if b = h.fresh then none else h.prev b,
      next := fun b => if b = h.fresh then none else h.next b,
      fresh := h.fresh + 1 })

end Heap

/-- Tree node with the address of every leaf. -/
inductive LNode (K V : Type) where
  | leaf (addr : Nat) (entries : List (K × V))
  | internal (keys : List K) (children : List (LNode K V))

/-- Tree object with the heap of leaf links. -/
structure LTree (K V : Type) where
  root : Option (LNode K V)
  nkeys : Nat
  heap : Heap

/-- Iterator: `_M_node` (the address of a leaf) and `_M_pos`. -/
structure LCursor where
  node : Nat
  pos : Nat
  deriving DecidableEq, Repr

namespace LNode

variable {K V : Type}

mutual
/-- The node without the addresses of its leaves. -/
def strip : LNode K V → Node K V
  | leaf _ es => Node.leaf es
  | internal ks cs => Node.internal ks (stripL cs)
/-- The siblings without the addresses of their leaves. -/
def stripL : List (LNode K V) → List (Node K V)
  | [] => []
  | c :: cs => strip c :: stripL cs
end

mutual
/-- Addresses of the leaves below a node, left to right. -/
def addrs : LNode K V → List Nat
  | leaf a _ => [a]
  | internal _ cs => addrsL cs
/-- Addresses of the leaves below a list of siblings, left to right. -/
def addrsL : List (LNode K V) → List Nat
  | [] => []
  | c :: cs => addrs c ++ addrsL cs
end

mutual
/-- Slot array of the leaf at address `a` below a node, if there is one. -/
def leafAt : LNode K V → Nat → Option (List (K × V))
  | leaf b es, a => if b = a then some es else none
  | internal _ cs, a => leafAtL cs a
/-- Slot array of the leaf at address `a` below a list of siblings. -/
def leafAtL : List (LNode K V) → Nat → Option (List (K × V))
  | [], _ => none
  | c :: cs, a =>
    match leafAt c a with
    | some es => some es
    | none => leafAtL cs a
end

mutual
/-- The node after the slot array of the leaf at address `a` was replaced. -/
def setLeaf : LNode K V → Nat → List (K × V) → LNode K V
  | leaf b es, a, es' => if b = a then leaf b es' else leaf b es
  | internal ks cs, a, es' => internal ks (setLeafL cs a es')
/-- The siblings after the slot array of the leaf at address `a` was replaced. -/
def setLeafL : List (LNode K V) → Nat → List (K × V) → List (LNode K V)
  | [], _, _ => []
  | c :: cs, a, es' => setLeaf c a es' :: setLeafL cs a es'
end

/-- Header field `count`. -/
def count : LNode K V → Nat
  | leaf _ es => es.length
  | internal ks _ => ks.length

/-- Method `node::full`. -/
def full (p : Params K) (x : LNode K V) : Bool :=
  match x with
  | internal ks _ => ks.length == p.kInternalNodeMaxKeys
  | leaf _ es => es.length == p.kLeafNodeMaxKeys

/-- Method `node::minkeys`. -/
def minkeys (p : Params K) (x : LNode K V) : Bool :=
  match x with
  | internal ks _ => ks.length == p.kInternalNodeMinKeys
  | leaf _ es => es.length == p.kLeafNodeMinKeys

/-- Key array of a node. -/
def keyArray : LNode K V → List K
  | leaf _ es => es.map Prod.fst
  | internal ks _ => ks

/-- Child links of a node (none for a leaf). -/
def children : LNode K V → List (LNode K V)
  | leaf _ _ => []
  | internal _ cs => cs

/-- Number of levels below a node, measured along `children[0]`. -/
def height : LNode K V → Nat
  | leaf _ _ => 0
  | internal _ [] => 1
  | internal _ (c :: _) => height c + 1

/-- Replace `children[i]` of an internal node. -/
def setChild (x : LNode K V) (i : Nat) (c : LNode K V) : LNode K V :=
  match x with
  | leaf a es => leaf a es
  | internal ks cs => internal ks (cs.set i c)

end LNode

end BPlusTree

namespace BPlusTree

namespace LNode

variable {K V : Type}

/-- Method `node::split_child(i)` with the links: a new leaf `z` is linked into
the chain right after the leaf `y = children[i]`. -/
def split_child (p : Params K) (h : Heap) (x : LNode K V) (i : Nat) :
    Except Fault (LNode K V × Heap) :=
  match x with
  | leaf _ _ => .error .wrongKind
  | internal ks cs =>
    match cs.get? i with
    | none => .error .outOfRange
    | some y =>
      if !(y.full p) then .error .outOfRange
      else if ks.length ≥ p.kInternalNodeMaxKeys then .error .overflow
      else
        match y with
        | internal yk yc =>
          let median := p.kInternalNodeMedian
          match yk.get? median with
          | none => .error .outOfRange
          | some up =>
            let y' := internal (yk.take median) (yc.take (median + 1))
            let z := internal (yk.drop (median + 1)) (yc.drop (median + 1))
            .ok (internal (ks.take i ++ up :: ks.drop i)
                  (cs.take i ++ y' :: z :: cs.drop (i + 1)), h)
        | leaf ya ye =>
          let ycount := p.kLeafNodeMedian
          match (ye.drop ycount).head? with
          | none => .error .outOfRange
          | some e =>
            let za := h.create.1
            let h1 := h.create.2
            -- z->prev(y); z->next(y->next());
            let h2 := (h1.setPrev za (some ya)).setNext za (h1.next ya)
            -- if (z->next()) z->next()->prev(z);
            let h3 := match h2.next za with
              | some n => h2.setPrev n (some za)
              | none => h2
            -- y->next(z);
            let h4 := h3.setNext ya (some za)
            .ok (internal (ks.take i ++ e.1 :: ks.drop i)
                  (cs.take i ++ leaf ya (ye.take ycount) :: leaf za (ye.drop ycount)
                    :: cs.drop (i + 1)), h4)

/-- Function `node::insert_non_full`: the updated node, whether `nkeys` was
incremented, and the heap.  The first argument bounds the descent. -/
def insert_non_full (p : Params K) :
    Nat → Heap → LNode K V → K → V → Except Fault (LNode K V × Bool × Heap)
  | 0, _, _, _, _ => .error .fuel
  | fuel + 1, h, internal ks cs, key, value =>
    let i := (Node.upper_bound p.comp ks key).2
    match cs.get? i with
    | none => .error .outOfRange
    | some c =>
      if c.full p then
        match split_child p h (internal ks cs) i with
        | .error f => .error f
        | .ok (x', h1) =>
          match x'.keyArray.get? i with
          | none => .error .outOfRange
          | some ki =>
            let i' := if p.comp ki key ≤ 0 then i + 1 else i
            match x'.children.get? i' with
            | none => .error .outOfRange
            | some c' =>
              match insert_non_full p fuel h1 c' key value with
              | .error f => .error f
              | .ok (c'', grew, h2) =>
                .ok (internal x'.keyArray (x'.children.set i' c''), grew, h2)
      else
        match insert_non_full p fuel h c key value with
        | .error f => .error f
        | .ok (c'', grew, h1) => .ok (internal ks (cs.set i c''), grew, h1)
  | _ + 1, h, leaf a es, key, value =>
    let r := Node.upper_bound p.comp (es.map Prod.fst) key
    let i := r.2
    if r.1 && !p.kDuplicates then
      if p.kValueSize > 0 then
        if i ≥ p.kLeafNodeMaxKeys then .error .overflow
        else
          match es.get? i with
          | some e => .ok (leaf a (es.set i (e.1, value)), false, h)
          | none => .ok (leaf a es, false, h)
      else .ok (leaf a es, false, h)
    else if es.length ≥ p.kLeafNodeMaxKeys then .error .overflow
    else .ok (leaf a (es.take i ++ (key, value) :: es.drop i), true, h)

/-- Function `node::rebalance_left_to_right(x, i)`; no link is written. -/
def rebalance_left_to_right (p : Params K) (x : LNode K V) (i : Nat) :
    Except Fault (LNode K V) :=
  match x with
  | leaf _ _ => .error .wrongKind
  | internal ks cs =>
    if i = 0 then .error .outOfRange
    else
      let i := i - 1
      match cs.get? i, cs.get? (i + 1), ks.get? i with
      | some y, some z, some xk =>
        match z, y with
        | internal zk zc, internal yk yc =>
          let ycount := yk.length
          if zk.length ≥ p.kInternalNodeMaxKeys then .error .overflow
          else if ycount = 0 then .error .outOfRange
          else
            match yk.get? (ycount - 1), yc.get? ycount with
            | some ylast, some ychild =>
              let z' := internal (xk :: zk) (ychild :: zc)
              let y' := internal (yk.take (ycount - 1)) (yc.take ycount)
              .ok (internal (ks.set i ylast) ((cs.set i y').set (i + 1) z'))
            | _, _ => .error .outOfRange
        | leaf za ze, leaf ya ye =>
          let ycount := ye.length
          if ze.length ≥ p.kLeafNodeMaxKeys then .error .overflow
          else if ycount = 0 then .error .outOfRange
          else
            match ye.get? (ycount - 1) with
            | some e =>
              let z' := leaf za (e :: ze)
              let y' := leaf ya (ye.take (ycount - 1))
              .ok (internal (ks.set i e.1) ((cs.set i y').set (i + 1) z'))
            | none => .error .outOfRange
        | _, _ => .error .wrongKind
      | _, _, _ => .error .outOfRange

/-- Function `node::rebalance_right_to_left(x, i)`; no link is written. -/
def rebalance_right_to_left (p : Params K) (x : LNode K V) (i : Nat) :
    Except Fault (LNode K V) :=
  match x with
  | leaf _ _ => .error .wrongKind
  | internal ks cs =>
    match cs.get? i, cs.get? (i + 1), ks.get? i with
    | some y, some z, some xk =>
      match y, z with
      | internal yk yc, internal zk zc =>
        if yk.length ≥ p.kInternalNodeMaxKeys then .error .overflow
        else
          match zk, zc with
          | zk0 :: zkrest, zc0 :: zcrest =>
            let y' := internal (yk ++ [xk]) (yc ++ [zc0])
            let z' := internal zkrest zcrest
            .ok (internal (ks.set i zk0) ((cs.set i y').set (i + 1) z'))
          | _, _ => .error .outOfRange
      | leaf ya ye, leaf za ze =>
        if ye.length ≥ p.kLeafNodeMaxKeys then .error .overflow
        else
          match ze with
          | e :: e' :: rest =>
            let y' := leaf ya (ye ++ [e])
            let z' := leaf za (e' :: rest)
            .ok (internal (ks.set i e'.1) ((cs.set i y').set (i + 1) z'))
          | _ => .error .outOfRange
      | _, _ => .error .wrongKind
    | _, _, _ => .error .outOfRange

/-- Function `node::merge(x, y, z, i)` with the links: the leaf `z` is spliced
out of the chain. -/
def merge (p : Params K) (h : Heap) (x : LNode K V) (i : Nat) :
    Except Fault (LNode K V × Heap) :=
  match x with
  | leaf _ _ => .error .wrongKind
  | internal ks cs =>
    match cs.get? i, cs.get? (i + 1), ks.get? i with
    | some y, some z, some xk =>
      match y, z with
      | internal yk yc, internal zk zc =>
        if yk.length + 1 + zk.length > p.kInternalNodeMaxKeys then .error .overflow
        else
          let y' := internal (yk ++ xk :: zk) (yc ++ zc)
          .ok (internal (ks.eraseIdx i) ((cs.set i y').eraseIdx (i + 1)), h)
      | leaf ya ye, leaf za ze =>
        if ye.length + ze.length > p.kLeafNodeMaxKeys then .error .overflow
        else
          -- if (z->next()) z->next()->prev(y);
          let h1 := match h.next za with
            | some n => h.setPrev n (some ya)
            | none => h
          -- y->next(z->next());
          let h2 := h1.setNext ya (h1.next za)
          let y' := leaf ya (ye ++ ze)
          .ok (internal (ks.eraseIdx i) ((cs.set i y').eraseIdx (i + 1)), h2)
      | _, _ => .error .wrongKind
    | _, _, _ => .error .outOfRange

/-- Tail of the merge branches of `try_rebalance_or_merge`. -/
def merge_and_shrink (p : Params K) (h : Heap) (x : LNode K V) (xIsRoot : Bool) (i : Nat) :
    Except Fault (operation_result × LNode K V × Nat × Heap) :=
  match merge p h x i with
  | .error f => .error f
  | .ok (x', h1) =>
    if x'.count == 0 then
      match x'.children.head? with
      | none => .error .outOfRange
      | some c => if xIsRoot then .ok (.kShrinked, c, i, h1) else .error .lostRoot
    else .ok (.kMerged, x', i, h1)

/-- Function `node::try_rebalance_or_merge(x, root, i)`. -/
def try_rebalance_or_merge (p : Params K) (h : Heap) (x : LNode K V) (xIsRoot : Bool)
    (i : Nat) : Except Fault (operation_result × LNode K V × Nat × Heap) :=
  match x.children.get? i with
  | none => .error .outOfRange
  | some c =>
    if c.minkeys p then
      if i > 0 then
        match x.children.get? (i - 1) with
        | none => .error .outOfRange
        | some l =>
          if !(l.minkeys p) then
            match rebalance_left_to_right p x i with
            | .error f => .error f
            | .ok x' => .ok (.kRebalancedLeftToRight, x', i, h)
          else
            let rightOk : Except Fault Bool :=
              if i < x.count then
                match x.children.get? (i + 1) with
                | none => .error .outOfRange
                | some r => .ok (!(r.minkeys p))
              else .ok false
            match rightOk with
            | .error f => .error f
            | .ok true =>
              match rebalance_right_to_left p x i with
              | .error f => .error f
              | .ok x' => .ok (.kRebalancedRightToLeft, x', i, h)
            | .ok false => merge_and_shrink p h x xIsRoot (i - 1)
      else
        match x.children.get? (i + 1) with
        | none => .error .outOfRange
        | some r =>
          if !(r.minkeys p) then
            match rebalance_right_to_left p x i with
            | .error f => .error f
            | .ok x' => .ok (.kRebalancedRightToLeft, x', i, h)
          else merge_and_shrink p h x xIsRoot i
    else .ok (.kNoop, x, i, h)

/-- Loop of `try_rebalance_or_merge_subtree`. -/
def rebalance_spine (p : Params K) : Nat → Heap → LNode K V → Except Fault (LNode K V × Heap)
  | 0, _, _ => .error .fuel
  | _ + 1, h, leaf a es => .ok (leaf a es, h)
  | fuel + 1, h, internal ks cs =>
    match try_rebalance_or_merge p h (internal ks cs) false 0 with
    | .error f => .error f
    | .ok (_, x', _, h1) =>
      match x'.children.head? with
      | none => .error .outOfRange
      | some c =>
        match rebalance_spine p fuel h1 c with
        | .error f => .error f
        | .ok (c', h2) => .ok (x'.setChild 0 c', h2)

/-- Function `node::try_rebalance_or_merge_subtree(x, root, i)`. -/
def try_rebalance_or_merge_subtree (p : Params K) (h : Heap) (x : LNode K V)
    (xIsRoot : Bool) (i : Nat) : Except Fault (operation_result × LNode K V × Heap) :=
  match try_rebalance_or_merge p h x xIsRoot i with
  | .error f => .error f
  | .ok (opres, x', _, h1) =>
    match opres with
    | .kMerged => .ok (opres, x', h1)
    | .kShrinked => .ok (opres, x', h1)
    | _ =>
      match x'.children.get? i with
      | none => .error .outOfRange
      | some c =>
        match rebalance_spine p (c.height + 1) h1 c with
        | .error f => .error f
        | .ok (c', h2) => .ok (opres, x'.setChild i c', h2)

end LNode

end BPlusTree

namespace BPlusTree

/-- How the descent of `node::erase` ended below a node. -/
inductive LEraseStep (K V : Type) where
  /-- An entry was removed; the argument is the updated node. -/
  | removed (x : LNode K V)
  /-- The function returned false. -/
  | absent (x : LNode K V)
  /-- The key is not in the leaf reached, whose address is `a`, and
  `search_in_next_node` is set: `x = x->next()` follows. -/
  | successor (x : LNode K V) (a : Nat)

namespace LNode

variable {K V : Type}

/-- The child the descent of `node::erase` went through is put back. -/
def erase_up (x : LNode K V) (i : Nat) : LEraseStep K V → LEraseStep K V
  | .removed c' => .removed (x.setChild i c')
  | .absent c' => .absent (x.setChild i c')
  | .successor c' a => .successor (x.setChild i c') a

/-- First half of the loop body of `node::erase` at the internal node `x`. -/
def erase_steer (p : Params K) (key : K) (h : Heap) (x : LNode K V) (xIsRoot : Bool)
    (search_in_next_node : Bool) :
    Except Fault ((LNode K V ⊕ (LNode K V × Nat × Bool)) × Heap) :=
  let r := Node.lower_bound p.comp x.keyArray key
  let i := r.2
  if r.1 then
    if !p.kDuplicates then .ok (.inr (x, i + 1, search_in_next_node), h)
    else
      match try_rebalance_or_merge_subtree p h x xIsRoot (i + 1) with
      | .error f => .error f
      | .ok (.kRebalancedLeftToRight, x', h1) =>
        match x'.keyArray.get? i with
        | none => .error .outOfRange
        | some ki =>
          if p.comp key ki > 0 then .ok (.inr (x', i + 1, false), h1)
          else .ok (.inr (x', i, true), h1)
      | .ok (.kShrinked, newRoot, h1) => .ok (.inl newRoot, h1)
      | .ok (_, x', h1) => .ok (.inr (x', i, true), h1)
  else .ok (.inr (x, i, search_in_next_node), h)

/-- Loop and leaf part of `node::erase` up to the point where the leaf reached
has been searched. -/
def erase_loop (p : Params K) (key : K) :
    Nat → Heap → LNode K V → Bool → Bool → Except Fault (LEraseStep K V × Heap)
  | 0, _, _, _, _ => .error .fuel
  | _ + 1, h, leaf a es, _, search_in_next_node =>
    let r := Node.lower_bound p.comp (es.map Prod.fst) key
    if !r.1 then
      if !p.kDuplicates || !search_in_next_node then .ok (.absent (leaf a es), h)
      else .ok (.successor (leaf a es) a, h)
    else .ok (.removed (leaf a (es.eraseIdx r.2)), h)
  | fuel + 1, h, internal ks cs, xIsRoot, search_in_next_node =>
    match erase_steer p key h (internal ks cs) xIsRoot search_in_next_node with
    | .error f => .error f
    | .ok (.inl newRoot, h1) => erase_loop p key fuel h1 newRoot true false
    | .ok (.inr (x1, i1, flag), h1) =>
      match try_rebalance_or_merge p h1 x1 xIsRoot i1 with
      | .error f => .error f
      | .ok (.kShrinked, newRoot, _, h2) => erase_loop p key fuel h2 newRoot true false
      | .ok (_, x2, i2, h2) =>
        match x2.children.get? i2 with
        | none => .error .outOfRange
        | some c =>
          match erase_loop p key fuel h2 c false flag with
          | .error f => .error f
          | .ok (r, h3) => .ok (erase_up x2 i2 r, h3)

/-- Function `node::erase(root, key, comp)`: the result, the new root and the
heap.  After `x = x->next()` the entry at slot 0 of the successor leaf is
compared with the key and removed on equality. -/
def erase (p : Params K) (h : Heap) (root : LNode K V) (key : K) :
    Except Fault (Bool × LNode K V × Heap) :=
  match erase_loop p key (root.height + 1) h root true false with
  | .error f => .error f
  | .ok (.removed x, h1) => .ok (true, x, h1)
  | .ok (.absent x, h1) => .ok (false, x, h1)
  | .ok (.successor x a, h1) =>
    match h1.next a with
    | none => .error .nullNode
    | some b =>
      match x.leafAt b with
      | none => .error .nullNode
      | some [] => .error .outOfRange
      | some (e :: es) =>
        if p.comp key e.1 != 0 then .ok (false, x, h1)
        else .ok (true, x.setLeaf b es, h1)

/-- Leaf reached by following `children[0]` from a node. -/
def firstLeaf : LNode K V → Except Fault Nat
  | leaf a _ => .ok a
  | internal _ [] => .error .outOfRange
  | internal _ (c :: _) => firstLeaf c

/-- Leaf reached by following `children[count]` from a node, with its `count`;
the first argument bounds the descent. -/
def lastLeaf : Nat → LNode K V → Except Fault (Nat × Nat)
  | 0, _ => .error .fuel
  | _ + 1, leaf a es => .ok (a, es.length)
  | fuel + 1, internal ks cs =>
    match cs.get? ks.length with
    | none => .error .outOfRange
    | some c => lastLeaf fuel c

end LNode

namespace LTree

variable {K V : Type}

/-- Method `btree::count`. -/
def count (t : LTree K V) : Nat := t.nkeys

/-- The tree built by the constructor `btree::btree`. -/
def empty : LTree K V := { root := none, nkeys := 0, heap := Heap.empty }

/-- Method `btree::insert` (every allocation succeeds, so it returns true). -/
def insert (p : Params K) (t : LTree K V) (key : K) (value : V) :
    Except Fault (LTree K V) :=
  let prepared : Except Fault (LNode K V × Heap) :=
    match t.root with
    | none => .ok (LNode.leaf t.heap.create.1 [], t.heap.create.2)
    | some r =>
      if r.full p then LNode.split_child p t.heap (LNode.internal [] [r]) 0
      else .ok (r, t.heap)
  match prepared with
  | .error f => .error f
  | .ok (root, h) =>
    match LNode.insert_non_full p (root.height + 1) h root key value with
    | .error f => .error f
    | .ok (root', grew, h') =>
      .ok { root := some root', nkeys := if grew then t.nkeys + 1 else t.nkeys, heap := h' }

/-- Method `btree::erase`: the result and the tree afterwards. -/
def erase (p : Params K) (t : LTree K V) (key : K) : Except Fault (Bool × LTree K V) :=
  match t.root with
  | none => .ok (false, t)
  | some r =>
    match LNode.erase p t.heap r key with
    | .error f => .error f
    | .ok (false, r', h) => .ok (false, { root := some r', nkeys := t.nkeys, heap := h })
    | .ok (true, r', h) =>
      let n := t.nkeys - 1
      if n == 0 then .ok (true, { root := none, nkeys := n, heap := h })
      else .ok (true, { root := some r', nkeys := n, heap := h })

/-- Slot array of the leaf an iterator points to. -/
def slots (t : LTree K V) (a : Nat) : Except Fault (List (K × V)) :=
  match t.root with
  | none => .error .nullNode
  | some r =>
    match r.leafAt a with
    | none => .error .nullNode
    | some es => .ok es

/-- Accessors `iterator::key` and `iterator::value`. -/
def entryAt (t : LTree K V) (c : LCursor) : Except Fault (K × V) :=
  match slots t c.node with
  | .error f => .error f
  | .ok es =>
    match es.get? c.pos with
    | none => .error .outOfRange
    | some e => .ok e

/-- Method `btree::begin`: `none` stands for the result false. -/
def begin (t : LTree K V) : Except Fault (Option LCursor) :=
  if t.nkeys == 0 then .ok none
  else
    match t.root with
    | none => .error .nullNode
    | some r =>
      match r.firstLeaf with
      | .error f => .error f
      | .ok a => .ok (some { node := a, pos := 0 })

/-- Method `btree::end`: `none` stands for the result false.  The slot is
`count - 1` stored in a `uint16_t`. -/
def end_ (t : LTree K V) : Except Fault (Option LCursor) :=
  if t.nkeys == 0 then .ok none
  else
    match t.root with
    | none => .error .nullNode
    | some r =>
      match LNode.lastLeaf (r.height + 1) r with
      | .error f => .error f
      | .ok (a, count) => .ok (some { node := a, pos := (count + 65535) % 65536 })

/-- Method `btree::next`: the result and the iterator afterwards. -/
def next (t : LTree K V) (c : LCursor) : Except Fault (Bool × LCursor) :=
  match slots t c.node with
  | .error f => .error f
  | .ok es =>
    if c.pos + 1 < es.length then .ok (true, { c with pos := c.pos + 1 })
    else
      match t.heap.next c.node with
      | some n => .ok (true, { node := n, pos := 0 })
      | none => .ok (false, c)

/-- Method `btree::prev`: the result and the iterator afterwards. -/
def prev (t : LTree K V) (c : LCursor) : Except Fault (Bool × LCursor) :=
  if c.pos > 0 then .ok (true, { c with pos := c.pos - 1 })
  else
    match t.heap.prev c.node with
    | some n =>
      match slots t n with
      | .error f => .error f
      | .ok es => .ok (true, { node := n, pos := (es.length + 65535) % 65536 })
    | none => .ok (false, c)

/-- Entries read at the iterator and at every position `next` leads to, until
`next` returns false. -/
def walk (t : LTree K V) : Nat → LCursor → Except Fault (List (K × V))
  | 0, _ => .error .fuel
  | fuel + 1, c =>
    match entryAt t c with
    | .error f => .error f
    | .ok e =>
      match next t c with
      | .error f => .error f
      | .ok (false, _) => .ok [e]
      | .ok (true, c') =>
        match walk t fuel c' with
        | .error f => .error f
        | .ok es => .ok (e :: es)

/-- Entries read at the iterator and at every position `prev` leads to, until
`prev` returns false. -/
def walkBack (t : LTree K V) : Nat → LCursor → Except Fault (List (K × V))
  | 0, _ => .error .fuel
  | fuel + 1, c =>
    match entryAt t c with
    | .error f => .error f
    | .ok e =>
      match prev t c with
      | .error f => .error f
      | .ok (false, _) => .ok [e]
      | .ok (true, c') =>
        match walkBack t fuel c' with
        | .error f => .error f
        | .ok es => .ok (e :: es)

/-- Forward iteration sequence: `begin`, then `next` until it returns false
(empty when `begin` returns false). -/
def forward (t : LTree K V) : Except Fault (List (K × V)) :=
  match begin t with
  | .error f => .error f
  | .ok none => .ok []
  | .ok (some c) => walk t (t.nkeys + 1) c

/-- Backward iteration sequence: `end`, then `prev` until it returns false
(empty when `end` returns false). -/
def backward (t : LTree K V) : Except Fault (List (K × V)) :=
  match end_ t with
  | .error f => .error f
  | .ok none => .ok []
  | .ok (some c) => walkBack t (t.nkeys + 1) c

/-- The tree without the leaf addresses and the links. -/
def strip (t : LTree K V) : Tree K V :=
  { root := t.root.map LNode.strip, nkeys := t.nkeys }

end LTree

/-- Trees with links reachable from the empty tree by `insert` and `erase`
calls that return. -/
inductive LReachable {K V : Type} (p : Params K) : LTree K V → Prop where
  | empty : LReachable p LTree.empty
  | insert {t t' : LTree K V} (key : K) (value : V) :
      LReachable p t → LTree.insert p t key value = .ok t' → LReachable p t'
  | erase {t t' : LTree K V} (key : K) (b : Bool) :
      LReachable p t → LTree.erase p t key = .ok (b, t') → LReachable p t'

end BPlusTree

namespace BPlusTree

/-- The links of the addresses `L`, read left to right, form a doubly linked
segment: the first one has `pv` as its predecessor, the last one has `n` as its
successor, and neighbours point to each other. -/
def Seg (h : Heap) : Option Nat → List Nat → Option Nat → Prop
  | _, [], _ => True
  | pv, a :: L, n =>
    h.prev a = pv ∧ h.next a = (match L with | [] => n | b :: _ => some b) ∧
      Seg h (some a) L n

/-- The addresses `L` are distinct, were all handed out by `node::create`, and
their links form the doubly linked list `L` with null at both ends. -/
def Linked (h : Heap) (L : List Nat) : Prop :=
  L.Nodup ∧ (∀ a ∈ L, a < h.fresh) ∧ Seg h none L none

namespace LNode

variable {K V : Type}

mutual
/-- Every internal node below and including the node has one more child than
keys. -/
def Shape : LNode K V → Prop
  | leaf _ _ => True
  | internal ks cs => cs.length = ks.length + 1 ∧ ShapeL cs
/-- Every node of the list has the shape of a tree node. -/
def ShapeL : List (LNode K V) → Prop
  | [] => True
  | c :: cs => Shape c ∧ ShapeL cs
end

end LNode

/-- Addresses of the leaves of a tree, left to right. -/
def LTree.addrs {K V : Type} (t : LTree K V) : List Nat :=
  match t.root with
  | none => []
  | some r => r.addrs

/-- Invariant of a tree with links: without the links it satisfies the
invariant of the tree, and the leaf chain is the list of its leaves from left
to right. -/
def LInv {K V : Type} (p : Params K) (t : LTree K V) : Prop :=
  TreeInv p t.strip ∧ Linked t.heap t.addrs

/-- A sequence of `insert` and `erase` calls on a tree with links, in list
order; the results of the calls are dropped. -/
def LTree.applyOps {K V : Type} (p : Params K) :
    LTree K V → List (Op K V) → Except Fault (LTree K V)
  | t, [] => .ok t
  | t, .insert k v :: ops =>
    match LTree.insert p t k v with
    | .error f => .error f
    | .ok t' => LTree.applyOps p t' ops
  | t, .erase k :: ops =>
    match LTree.erase p t k with
    | .error f => .error f
    | .ok (_, t') => LTree.applyOps p t' ops

end BPlusTree

namespace BPlusTree

/-- Address that follows the first occurrence of `a` in a list of addresses. -/
def succAddr : List Nat → Nat → Option Nat
  | [], _ => none
  | [_], _ => none
  | b :: c :: L, a => if b = a then some c else succAddr (c :: L) a

namespace LEraseStep

variable {K V : Type}

/-- The node a step of the descent carries. -/
def node : LEraseStep K V → LNode K V
  | .removed x => x
  | .absent x => x
  | .successor x _ => x

/-- The step in terms of the tree without links: `successor x a` is settled by
slot 0 of the leaf that follows the leaf `a` among the leaves below `x`, when
there is one. -/
def resolve (p : Params K) (key : K) : LEraseStep K V → Except Fault (Node.EraseStep K V)
  | .removed x => .ok (.removed x.strip)
  | .absent x => .ok (.absent x.strip)
  | .successor x a =>
    match succAddr x.addrs a with
    | none => .ok (.successor x.strip)
    | some b =>
      match x.leafAt b with
      | none => .error .nullNode
      | some [] => .error .outOfRange
      | some (e :: es) =>
        if p.comp key e.1 != 0 then .ok (.absent x.strip)
        else .ok (.removed (x.setLeaf b es).strip)

end LEraseStep

/-- The leaves of a tree with links as the iterators see them: `L` lists the
addresses and `Lv` the slot arrays of the leaves from left to right, the links
make `L` a doubly linked list, and every leaf holds at least one entry and
fewer than `2^16`. -/
def LTree.View {K V : Type} (t : LTree K V) (L : List Nat) (Lv : List (List (K × V))) : Prop :=
  L.length = Lv.length ∧
    (∀ (j a : Nat) (es : List (K × V)), L[j]? = some a → Lv[j]? = some es →
      LTree.slots t a = .ok es) ∧
    Seg t.heap none L none ∧ (∀ l ∈ Lv, l ≠ [] ∧ l.length < 65536)

mutual
/-- Entries below a node, collected by a recursive in-order traversal of the
leaves. -/
def LNode.inorder {K V : Type} : LNode K V → List (K × V)
  | .leaf _ es => es
  | .internal _ cs => LNode.inorderL cs
/-- Entries below a list of siblings, left to right. -/
def LNode.inorderL {K V : Type} : List (LNode K V) → List (K × V)
  | [] => []
  | c :: cs => LNode.inorder c ++ LNode.inorderL cs
end

/-- Entries of a tree collected by a recursive in-order traversal of the
leaves from the root. -/
def LTree.inorder {K V : Type} (t : LTree K V) : List (K × V) :=
  match t.root with
  | none => []
  | some r => r.inorder

/-- The cursor is on the first entry: slot 0 of the leftmost leaf. -/
def LTree.OnFirst {K V : Type} (t : LTree K V) (c : LCursor) : Prop :=
  t.addrs.head? = some c.node ∧ c.pos = 0

/-- The cursor is on the last entry: the last slot of the rightmost leaf. -/
def LTree.OnLast {K V : Type} (t : LTree K V) (c : LCursor) : Prop :=
  t.addrs.getLast? = some c.node ∧ ∃ es, LTree.slots t c.node = .ok es ∧ c.pos + 1 = es.length

/-- Calls that build the sample map: keys 1 to 7 are inserted (values ten times
the key), then the keys 4, 1 and 2 are erased.  Leaves are split twice, and the
last `erase` merges two leaves. -/
def linkedSampleOps : List (Op Int Nat) :=
  [.insert 1 10, .insert 2 20, .insert 3 30, .insert 4 40, .insert 5 50, .insert 6 60,
    .insert 7 70, .erase 4, .erase 1, .erase 2]

/-- The map with fanout 3 built by `linkedSampleOps`, with its links: the leaf
at address 0 holds `(3, 30)` and is followed by the leaf at address 2, which
holds `(5, 50)`, `(6, 60)` and `(7, 70)`. -/
def linkedSample : LTree Int Nat :=
  match LTree.applyOps (intParams false) LTree.empty linkedSampleOps with
  | .ok t => t
  | .error _ => LTree.empty

end BPlusTree

namespace BPlusTree

variable {K V : Type}

namespace Node

/-- Loop of `node::lower_bound` in which running out of iterations, or reading
outside the key array, is reported as `none`; the state is `(left, right,
ret)`. -/
def lower_bound_run (comp : K → K → Int) (keys : List K) (key : K) :
    Nat → Nat → Nat → Bool → Option (Bool × Nat)
  | 0, _, _, _ => none
  | fuel + 1, left, right, ret =>
    if left != right then
      let mid := (left + right) / 2
      match keys.get? mid with
      | none => none
      | some km =>
        let r := comp km key
        if r < 0 then lower_bound_run comp keys key fuel (mid + 1) right ret
        else if r > 0 then lower_bound_run comp keys key fuel left mid ret
        else lower_bound_run comp keys key fuel left mid true
    else some (ret, left)

/-- Loop of `node::upper_bound` in which running out of iterations, or reading
outside the key array, is reported as `none`. -/
def upper_bound_run (comp : K → K → Int) (keys : List K) (key : K) :
    Nat → Nat → Nat → Bool → Option (Bool × Nat)
  | 0, _, _, _ => none
  | fuel + 1, left, right, ret =>
    if left != right then
      let mid := (left + right) / 2
      match keys.get? mid with
      | none => none
      | some km =>
        let r := comp km key
        if r < 0 then upper_bound_run comp keys key fuel (mid + 1) right ret
        else if r > 0 then upper_bound_run comp keys key fuel left mid ret
        else upper_bound_run comp keys key fuel (mid + 1) right true
    else some (ret, left)

end Node

namespace btree

/-- Descent of `btree::upper_bound`: the leaf reached (as its offset in the
chain, starting from `off`), the slot, and the result of `node::upper_bound` on
the leaf. -/
def upper_bound_descend (p : Params K) (key : K) :
    Nat → Node K V → Nat → Except Fault (Bool × Cursor)
  | 0, _, _ => .error .fuel
  | _ + 1, Node.leaf es, off =>
    let r := Node.upper_bound p.comp (es.map Prod.fst) key
    .ok (r.1, { leaf := off, pos := r.2 })
  | fuel + 1, Node.internal ks cs, off =>
    let r := Node.upper_bound p.comp ks key
    match cs.get? r.2 with
    | none => .error .outOfRange
    | some c => upper_bound_descend p key fuel c (off + (Node.leavesL (cs.take r.2)).length)

/-- Method `btree::upper_bound`: the result and the cursor afterwards (`none`
when the cursor was not touched). -/
def upper_bound (p : Params K) (t : Tree K V) (key : K) :
    Except Fault (Bool × Option Cursor) :=
  if t.nkeys == 0 then .ok (false, none)
  else
    match t.root with
    | none => .error .nullNode
    | some r =>
      match upper_bound_descend p key (r.height + 1) r 0 with
      | .error f => .error f
      | .ok (b, c) => .ok (b, some c)

/-- Method `btree::equal_range`: `lower_bound(key, begin) && upper_bound(key,
end)`; the result and the two cursors afterwards (`none` for a cursor that was
not touched). -/
def equal_range (p : Params K) (t : Tree K V) (key : K) :
    Except Fault (Bool × Option Cursor × Option Cursor) :=
  match lower_bound p t key with
  | .error f => .error f
  | .ok (false, b) => .ok (false, b, none)
  | .ok (true, b) =>
    match upper_bound p t key with
    | .error f => .error f
    | .ok (r, e) => .ok (r, b, e)

/-- Descent of `btree::end` along `children[count]`: the leaf reached (as its
offset in the chain, starting from `off`) and the slot `count - 1`, stored in
a `uint16_t`. -/
def end_descend : Nat → Node K V → Nat → Except Fault Cursor
  | 0, _, _ => .error .fuel
  | _ + 1, Node.leaf es, off => .ok { leaf := off, pos := (es.length + 65535) % 65536 }
  | fuel + 1, Node.internal ks cs, off =>
    match cs.get? ks.length with
    | none => .error .outOfRange
    | some c => end_descend fuel c (off + (Node.leavesL (cs.take ks.length)).length)

/-- Method `btree::end`: `none` stands for the result false. -/
def end_ (t : Tree K V) : Except Fault (Option Cursor) :=
  if t.nkeys == 0 then .ok none
  else
    match t.root with
    | none => .error .nullNode
    | some r =>
      match end_descend (r.height + 1) r 0 with
      | .error f => .error f
      | .ok c => .ok (some c)

/-- Method `btree::clear`: the root is deleted when there is one (`_M_root`
becomes NULL), and the number of keys is set to 0. -/
def clear (t : Tree K V) : Tree K V :=
  match t.root with
  | some _ => { root := none, nkeys := 0 }
  | none => { root := t.root, nkeys := 0 }

end btree

/-- Children of a sample node of the map with fanout 3: the left leaf is above
the minimum, the right leaf at the minimum. -/
def pairLeftHeavy : List (Node Int Nat) := [.leaf [(1, 10), (2, 20)], .leaf [(3, 30)]]

/-- Children of a sample node of the map with fanout 3: the left leaf is at the
minimum, the right leaf above it. -/
def pairRightHeavy : List (Node Int Nat) := [.leaf [(1, 10)], .leaf [(3, 30), (4, 40)]]

end BPlusTree

namespace BPlusTree

variable {K V : Type}

namespace Node

/-- Function `node::create` under an allocation script: the list gives the
outcome of the successive allocations (`true`: the node is created, `false`:
`calloc` or `new` returns NULL); once the script is used up every allocation
succeeds.  The result is the outcome and the rest of the script. -/
def create (script : List Bool) : Bool × List Bool :=
  match script with
  | [] => (true, [])
  | b :: rest => (b, rest)

/-- Method `node::split_child(i)` with the allocation of the sibling `z`
scripted: `none` stands for the return value false, which leaves `x` as it
is. -/
def split_child_alloc (p : Params K) (x : Node K V) (i : Nat) (script : List Bool) :
    Except Fault (Option (Node K V) × List Bool) :=
  match x with
  | leaf _ => .error .wrongKind
  | internal _ cs =>
    match cs.get? i with
    | none => .error .outOfRange
    | some _ =>
      let r := create script
      if r.1 then
        match split_child p x i with
        | .error f => .error f
        | .ok x' => .ok (some x', r.2)
      else .ok (none, r.2)

/-- Function `node::insert_non_full` with scripted allocations: the result is
the node afterwards, the return value, whether `nkeys` was incremented, and
the rest of the script. -/
def insert_non_full_alloc (p : Params K) :
    Nat → Node K V → K → V → List Bool → Except Fault (Node K V × Bool × Bool × List Bool)
  | 0, _, _, _, _ => .error .fuel
  | fuel + 1, internal ks cs, key, value, script =>
    let i := (upper_bound p.comp ks key).2
    match cs.get? i with
    | none => .error .outOfRange
    | some c =>
      if c.full p then
        match split_child_alloc p (internal ks cs) i script with
        | .error f => .error f
        | .ok (none, script') => .ok (internal ks cs, false, false, script')
        | .ok (some x', script') =>
          match x'.keyArray.get? i with
          | none => .error .outOfRange
          | some ki =>
            let i' := if p.comp ki key ≤ 0 then i + 1 else i
            match x'.children.get? i' with
            | none => .error .outOfRange
            | some c' =>
              match insert_non_full_alloc p fuel c' key value script' with
              | .error f => .error f
              | .ok (c'', ret, grew, script'') =>
                .ok (internal x'.keyArray (x'.children.set i' c''), ret, grew, script'')
      else
        match insert_non_full_alloc p fuel c key value script with
        | .error f => .error f
        | .ok (c'', ret, grew, script') => .ok (internal ks (cs.set i c''), ret, grew, script')
  | fuel + 1, leaf es, key, value, script =>
    match insert_non_full p (fuel + 1) (leaf es) key value with
    | .error f => .error f
    | .ok (x', grew) => .ok (x', true, grew, script)

end Node

/-- What a call of `btree::insert` leaves behind when allocations can fail. -/
inductive InsertOutcome (K V : Type) where
  /-- The call returned `ret` and the tree object is `t`. -/
  | returned (ret : Bool) (t : Tree K V)
  /-- The call returned false after `delete s` destroyed the node that
  `_M_root` still points to (`~node` deletes the children `0..count` of an
  internal node); `_M_nkeys` is `nkeys`. -/
  | rootDeleted (nkeys : Nat)

namespace btree

/-- Method `btree::insert` with scripted allocations. -/
def insert_alloc (p : Params K) (t : Tree K V) (key : K) (value : V) (script : List Bool) :
    Except Fault (InsertOutcome K V) :=
  let prepared : Except Fault (InsertOutcome K V ⊕ (Node K V × List Bool)) :=
    match t.root with
    | none =>
      let r := Node.create script
      if r.1 then .ok (.inr (Node.leaf [], r.2))
      else .ok (.inl (.returned false { root := none, nkeys := t.nkeys }))
    | some root =>
      if root.full p then
        let r := Node.create script
        if r.1 then
          match Node.split_child_alloc p (Node.internal [] [root]) 0 r.2 with
          | .error f => .error f
          | .ok (none, _) => .ok (.inl (.rootDeleted t.nkeys))
          | .ok (some s, script') => .ok (.inr (s, script'))
        else .ok (.inl (.returned false t))
      else .ok (.inr (root, script))
  match prepared with
  | .error f => .error f
  | .ok (.inl out) => .ok out
  | .ok (.inr (root, script')) =>
    match Node.insert_non_full_alloc p (root.height + 1) root key value script' with
    | .error f => .error f
    | .ok (root', ret, grew, _) =>
      .ok (.returned ret { root := some root', nkeys := if grew then t.nkeys + 1 else t.nkeys })

end btree

/-- Map with fanout 3 holding the keys 1, 2 and 3: the root is a full leaf. -/
def mapFullRoot : Tree Int Nat :=
  { root := some (.leaf [(1, 10), (2, 20), (3, 30)]), nkeys := 3 }

end BPlusTree

namespace BPlusTree

variable {K V : Type}

namespace Node

/-- Whether the descent of `node::erase` ended with the removal of an
entry. -/
def EraseStep.isRemoved : EraseStep K V → Bool
  | .removed _ => true
  | _ => false

/-- Function `erase_first` that also reports `count`, the number of entries of
the leaf read by `node::erase` at the moment it removes slot 0 (`none` when
nothing is removed). -/
def erase_first_traced (comp : K → K → Int) (key : K) :
    Node K V → Except Fault (Bool × Node K V × Option Nat)
  | leaf [] => .error .outOfRange
  | leaf (e :: es) =>
    if comp key e.1 != 0 then .ok (false, leaf (e :: es), none)
    else .ok (true, leaf es, some (e :: es).length)
  | internal _ [] => .error .outOfRange
  | internal ks (c :: cs) =>
    match erase_first_traced comp key c with
    | .error f => .error f
    | .ok (b, c', n) => .ok (b, internal ks (c' :: cs), n)

/-- Function `erase_up` that carries along the `count` read at the removal. -/
def erase_up_traced (p : Params K) (key : K) (x : Node K V) (i : Nat) :
    EraseStep K V × Option Nat → Except Fault (EraseStep K V × Option Nat)
  | (.removed c', n) => .ok (.removed (x.setChild i c'), n)
  | (.absent c', n) => .ok (.absent (x.setChild i c'), n)
  | (.successor c', n) =>
    match (x.setChild i c').children.get? (i + 1) with
    | none => .ok (.successor (x.setChild i c'), n)
    | some s =>
      match erase_first_traced p.comp key s with
      | .error f => .error f
      | .ok (true, s', m) => .ok (.removed ((x.setChild i c').setChild (i + 1) s'), m)
      | .ok (false, _, _) => .ok (.absent (x.setChild i c'), n)

/-- Function `erase_loop` that also reports `count`, the number of entries the
leaf holds at the moment `node::erase` removes an entry from it (the local
variable `count` of the source; `none` when nothing is removed). -/
def erase_loop_traced (p : Params K) (key : K) :
    Nat → Node K V → Bool → Bool → Except Fault (EraseStep K V × Option Nat)
  | 0, _, _, _ => .error .fuel
  | _ + 1, leaf es, _, search_in_next_node =>
    let r := lower_bound p.comp (es.map Prod.fst) key
    if !r.1 then
      if !p.kDuplicates || !search_in_next_node then .ok (.absent (leaf es), none)
      else .ok (.successor (leaf es), none)
    else .ok (.removed (leaf (es.eraseIdx r.2)), some es.length)
  | fuel + 1, internal ks cs, xIsRoot, search_in_next_node =>
    match erase_steer p key (internal ks cs) xIsRoot search_in_next_node with
    | .error f => .error f
    | .ok (.inl newRoot) => erase_loop_traced p key fuel newRoot true false
    | .ok (.inr (x1, i1, flag)) =>
      match try_rebalance_or_merge p x1 xIsRoot i1 with
      | .error f => .error f
      | .ok (.kShrinked, newRoot, _) => erase_loop_traced p key fuel newRoot true false
      | .ok (_, x2, i2) =>
        match x2.children.get? i2 with
        | none => .error .outOfRange
        | some c =>
          match erase_loop_traced p key fuel c false flag with
          | .error f => .error f
          | .ok r => erase_up_traced p key x2 i2 r

/-- Function `node::erase(root, key, comp)` with the `count` read at the
removal. -/
def erase_traced (p : Params K) (root : Node K V) (key : K) :
    Except Fault (Bool × Node K V × Option Nat) :=
  match erase_loop_traced p key (root.height + 1) root true false with
  | .error f => .error f
  | .ok (.removed x, n) => .ok (true, x, n)
  | .ok (.absent x, n) => .ok (false, x, n)
  | .ok (.successor _, _) => .error .nullNode

end Node

namespace btree

/-- Method `btree::erase` with the `count` that `node::erase` reads from the
leaf at the moment it removes an entry from it. -/
def erase_traced (p : Params K) (t : Tree K V) (key : K) :
    Except Fault (Bool × Tree K V × Option Nat) :=
  match t.root with
  | none => .ok (false, t, none)
  | some r =>
    match Node.erase_traced p r key with
    | .error f => .error f
    | .ok (false, r', n) => .ok (false, { root := some r', nkeys := t.nkeys }, n)
    | .ok (true, r', n) =>
      let k := t.nkeys - 1
      if k == 0 then .ok (true, { root := none, nkeys := k }, n)
      else .ok (true, { root := some r', nkeys := k }, n)

end btree

end BPlusTree

namespace BPlusTree

variable {K V : Type}

/-- Lists interleaved with routing keys, starting with a key:
`k₀ l₀ k₁ l₁ …`, as far as both sequences go. -/
def weaveTail : List K → List (List (Bool × K)) → List (Bool × K)
  | k :: ks, l :: ls => (true, k) :: (l ++ weaveTail ks ls)
  | _, _ => []

/-- Lists interleaved with routing keys, ending with a key:
`l₀ k₀ l₁ k₁ …`, as far as both sequences go. -/
def weavePre : List K → List (List (Bool × K)) → List (Bool × K)
  | k :: ks, l :: ls => l ++ (true, k) :: weavePre ks ls
  | _, _ => []

/-- Lists interleaved with routing keys: `l₀ k₀ l₁ k₁ … lₙ`. -/
def weave : List K → List (List (Bool × K)) → List (Bool × K)
  | _, [] => []
  | ks, l :: ls => l ++ weaveTail ks ls

namespace Node

mutual
/-- Keys below a node in in-order, the routing keys of every level included:
an item is the key of an entry (tag `false`) or a routing key (tag `true`),
and a routing key stands between the items of the children on its two
sides. -/
def fullItems : Node K V → List (Bool × K)
  | leaf es => es.map (fun e => (false, e.1))
  | internal ks cs => weave ks (fullItemsL cs)
/-- In-order items of every node of a list of siblings. -/
def fullItemsL : List (Node K V) → List (List (Bool × K))
  | [] => []
  | c :: cs => fullItems c :: fullItemsL cs
end

/-- The node that the steering of `erase` continues with. -/
def steerNode : Node K V ⊕ (Node K V × Nat × Bool) → Node K V
  | .inl n => n
  | .inr (x1, _, _) => x1

end Node

/-- Condition on three consecutive in-order items: a routing key that the
entry before it compares equal to is followed by an entry that compares equal
to it. -/
def TieOk (p : Params K) (x y z : Bool × K) : Prop :=
  x.1 = false → y.1 = true → z.1 = false → p.comp x.2 y.2 = 0 → p.comp y.2 z.2 = 0

/-- Every three consecutive items of the list satisfy `TieOk`. -/
def TiesKept (p : Params K) (l : List (Bool × K)) : Prop :=
  ∀ a x y z b, l = a ++ x :: y :: z :: b → TieOk p x y z

/-- Invariant of the routing keys of a tree: a tie between an entry and the
routing key after it continues on the other side of the key. -/
def TreeTies (p : Params K) (t : Tree K V) : Prop :=
  match t.root with
  | none => True
  | some r => TiesKept p r.fullItems

/-- Replacing the items `l` by `l'` keeps `TiesKept` wherever `l` occurs. -/
def TieSafe (p : Params K) (l l' : List (Bool × K)) : Prop :=
  ∀ a b, TiesKept p (a ++ (l ++ b)) → TiesKept p (a ++ (l' ++ b))

/-- Replacing `l` by `l'` keeps `TiesKept` wherever `l` occurs with nothing
above `key` before it and only items above `key` after it (the place of an
insertion of `key`). -/
def TieSafeInsert (p : Params K) (key : K) (l l' : List (Bool × K)) : Prop :=
  ∀ a b, (∀ x ∈ a, p.comp x.2 key ≤ 0) → (∀ x ∈ b, p.comp key x.2 < 0) →
    TiesKept p (a ++ (l ++ b)) → TiesKept p (a ++ (l' ++ b))

/-- Replacing `l` by `l'` keeps `TiesKept` wherever `l` occurs with only items
`≤ key` before it, the entries among them below `key`, and only items `≥ key`
after it (the place of the removal of the first entry equal to `key`). -/
def TieSafeErase (p : Params K) (key : K) (l l' : List (Bool × K)) : Prop :=
  ∀ a b, (∀ x ∈ a, p.comp x.2 key ≤ 0) → (∀ x ∈ a, x.1 = false → p.comp x.2 key < 0) →
    (∀ x ∈ b, p.comp key x.2 ≤ 0) →
    TiesKept p (a ++ (l ++ b)) → TiesKept p (a ++ (l' ++ b))

/-- What the descent of `erase` guarantees about the in-order items below a
node whose items were `l`: a removal is a replacement that is safe at the place
of the first entry equal to `key`, every other outcome a replacement that is
safe everywhere. -/
def EraseTies (p : Params K) (key : K) (l : List (Bool × K)) : Node.EraseStep K V → Prop
  | .removed x' => TieSafeErase p key l x'.fullItems
  | .absent x' => TieSafe p l x'.fullItems
  | .successor x' => TieSafe p l x'.fullItems

end BPlusTree

namespace BPlusTree

variable {K V : Type}

/-- Sizes that enter the fanout formulas of the parameter classes
(`set_parameters`, `common_map_parameters`): the template argument `_NodeSize`,
`sizeof(_Key)`, `sizeof(_Tp)` (0 for `set_parameters`, whose leaf formula
divides by `sizeof(_Key)` alone), `sizeof(node_header)`, `sizeof(void*)` and
the width of `size_t`, the type in which the formulas are computed. -/
structure Layout where
  nodeSize : Nat
  keySize : Nat
  valueSize : Nat
  headerSize : Nat
  ptrSize : Nat
  wordBits : Nat
  deriving Repr

namespace Layout

/-- Subtraction of `size_t` values: the result is taken modulo `2 ^ wordBits`. -/
def usub (L : Layout) (a b : Nat) : Nat :=
  (a % 2 ^ L.wordBits + (2 ^ L.wordBits - b % 2 ^ L.wordBits)) % 2 ^ L.wordBits

/-- Constant `parameters_type::kInternalNodeMaxKeys`:
`(kNodeSize - sizeof(node_header) - sizeof(void*)) / (sizeof(_Key) + sizeof(void*))`
in `size_t` arithmetic. -/
def rawInternalNodeMaxKeys (L : Layout) : Nat :=
  L.usub (L.usub L.nodeSize L.headerSize) L.ptrSize /
    ((L.keySize + L.ptrSize) % 2 ^ L.wordBits)

/-- Constant `parameters_type::kLeafNodeMaxKeys`:
`(kNodeSize - sizeof(node_header) - (2 * sizeof(void*))) / (sizeof(_Key) + sizeof(_Tp))`
in `size_t` arithmetic. -/
def rawLeafNodeMaxKeys (L : Layout) : Nat :=
  L.usub (L.usub L.nodeSize L.headerSize) ((2 * L.ptrSize) % 2 ^ L.wordBits) /
    ((L.keySize + L.valueSize) % 2 ^ L.wordBits)

/-- Template parameters of the tree instantiated with the sizes `L`. -/
def params (L : Layout) (comp : K → K → Int) (dup : Bool) : Params K :=
  { comp := comp, rawInternalNodeMaxKeys := L.rawInternalNodeMaxKeys,
    rawLeafNodeMaxKeys := L.rawLeafNodeMaxKeys, kDuplicates := dup, kValueSize := L.valueSize }

/-- The fanout formula for internal nodes as the specification writes it:
`(B − header − link) / (sizeof K + link)` over the integers. -/
def specInternalFanout (L : Layout) : Int :=
  ((L.nodeSize : Int) - L.headerSize - L.ptrSize) / ((L.keySize : Int) + L.ptrSize)

/-- The fanout formula for leaves as the specification writes it:
`(B − header − 2·link) / (sizeof K + sizeof V)` over the integers. -/
def specLeafFanout (L : Layout) : Int :=
  ((L.nodeSize : Int) - L.headerSize - 2 * L.ptrSize) / ((L.keySize : Int) + L.valueSize)

/-- Sizes on a platform with 64-bit `size_t` and pointers and a 4-byte
`node_header` (two bit-fields of one `uint32_t`). -/
def lp64 (nodeSize keySize valueSize : Nat) : Layout :=
  { nodeSize := nodeSize, keySize := keySize, valueSize := valueSize, headerSize := 4,
    ptrSize := 8, wordBits := 64 }

end Layout

/-- The specification's clamp of a fanout: the value when it is at least 3,
and 3 otherwise. -/
def specClamp (v : Int) : Int := if v ≥ 3 then v else 3

/-- The minimum number of keys of an internal node as the specification writes
it: `⌈(INT_MAX + 1) / 2⌉ − 1`. -/
def specInternalNodeMinKeys (intMax : Nat) : Nat := (intMax + 1 + 1) / 2 - 1

/-- Parameters of `btree_map<int, int>` with the default node size of 256
bytes and the comparator `util::minus<int>`. -/
def defaultIntParams : Params Int :=
  (Layout.lp64 256 4 4).params (fun a b => a - b) false

/-- Parameters of `btree_map<int, int, util::minus<int>, 8>`: a node size
below the size of the header and one link. -/
def tinyIntParams : Params Int :=
  (Layout.lp64 8 4 4).params (fun a b => a - b) false

/-- The map with fanout 3 after `insert` of the keys 1 to 4 (values ten times
the key) followed by `erase(2)` and `erase(4)`: a root with one routing key over
two leaves that hold the minimum, so that the next `erase` merges them and
replaces the root. -/
def mapTwoMinLeaves : Tree Int Nat :=
  { root := some (.internal [3] [.leaf [(1, 10)], .leaf [(3, 30)]]), nkeys := 2 }

/-- The map with fanout 3 after `insert` of the keys 1 to 4 (values ten times
the key) followed by `erase(3)`: the routing key 3 is no longer the key of an
entry, and the leftmost key of the leaf to its right is 4. -/
def mapStaleKey : Tree Int Nat :=
  { root := some (.internal [3] [.leaf [(1, 10), (2, 20)], .leaf [(4, 40)]]), nkeys := 3 }

/-- Links of three leaves at the addresses 0, 1 and 2, chained in this
order. -/
def threeLeafHeap : Heap :=
  { prev := fun a => if a = 1 then some 0 else if a = 2 then some 1 else none,
    next := fun a => if a = 0 then some 1 else if a = 1 then some 2 else none,
    fresh := 3 }

/-- Children of a node over the three leaves of `threeLeafHeap`: the first two
hold the minimum of a tree with fanout 3. -/
def threeLeafChildren : List (LNode Int Nat) :=
  [.leaf 0 [(1, 10)], .leaf 1 [(3, 30)], .leaf 2 [(5, 50), (6, 60)]]

end BPlusTree

namespace BPlusTree

variable {K V : Type}

/-- Calls that build the sample multimap with a stale routing key: keys 1 to 6
are inserted (values ten times the key), then the keys 5 and 4 are erased. -/
def linkedStaleOps : List (Op Int Nat) :=
  [.insert 1 10, .insert 2 20, .insert 3 30, .insert 4 40, .insert 5 50, .insert 6 60,
    .erase 5, .erase 4]

/-- The multimap with fanout 3 built by `linkedStaleOps`, with its links: the
root has the routing keys 3 and 5 over the leaves `[1, 2]`, `[3]` and `[6]` at
the addresses 0, 1 and 2. -/
def linkedStale : LTree Int Nat :=
  match LTree.applyOps (intParams true) LTree.empty linkedStaleOps with
  | .ok t => t
  | .error _ => LTree.empty

namespace LNode

/-- Descent of `btree::lower_bound`: whether the leaf reached holds the key,
the carry `search_in_next_node`, and the iterator (the address of the leaf
reached and the slot). -/
def lower_bound_descend (p : Params K) (key : K) :
    Nat → LNode K V → Bool → Except Fault (Bool × Bool × LCursor)
  | 0, _, _ => .error .fuel
  | _ + 1, leaf a es, carry =>
    let r := Node.lower_bound p.comp (es.map Prod.fst) key
    .ok (r.1, carry, { node := a, pos := r.2 })
  | fuel + 1, internal ks cs, carry =>
    let r := Node.lower_bound p.comp ks key
    let pos := if r.1 && !p.kDuplicates then r.2 + 1 else r.2
    let carry' := if r.1 && p.kDuplicates then true else carry
    match cs.get? pos with
    | none => .error .outOfRange
    | some c => lower_bound_descend p key fuel c carry'

end LNode

namespace LTree

/-- Method `btree::lower_bound` with the links: the result and the iterator
afterwards (`none` when the iterator was not touched).  After a miss in the
leaf reached with the carry set, `it._M_node = it._M_node->next()` follows and
slot 0 of that leaf is compared with the key. -/
def lower_bound (p : Params K) (t : LTree K V) (key : K) :
    Except Fault (Bool × Option LCursor) :=
  if t.nkeys == 0 then .ok (false, none)
  else
    match t.root with
    | none => .error .nullNode
    | some r =>
      match LNode.lower_bound_descend p key (r.height + 1) r false with
      | .error f => .error f
      | .ok (true, _, c) => .ok (true, some c)
      | .ok (false, carry, c) =>
        if !p.kDuplicates || !carry then .ok (false, some c)
        else
          match t.heap.next c.node with
          | none => .error .nullNode
          | some b =>
            match r.leafAt b with
            | none => .error .nullNode
            | some [] => .error .outOfRange
            | some (e :: _) =>
              if p.comp key e.1 != 0 then .ok (false, some { node := b, pos := c.pos })
              else .ok (true, some { node := b, pos := 0 })

/-- Method `btree::find`. -/
def find (p : Params K) (t : LTree K V) (key : K) : Except Fault (Bool × Option LCursor) :=
  lower_bound p t key

end LTree

end BPlusTree

namespace BPlusTree

variable {K V : Type}

/-- Trees reachable from the empty tree by `insert` calls alone. -/
inductive InsertReachable (p : Params K) : Tree K V → Prop where
  | empty : InsertReachable p btree.empty
  | insert {t t' : Tree K V} (key : K) (value : V) :
      InsertReachable p t → btree.insert p t key value = .ok t' → InsertReachable p t'

/-- Condition on two consecutive in-order items: a routing key is followed by
the entry whose key it is a copy of. -/
def CopyStep (x y : Bool × K) : Prop := x.1 = true → y = (false, x.2)

/-- Every routing key among the items is followed by an entry with that key. -/
def CopyKept (l : List (Bool × K)) : Prop := List.Chain' CopyStep l

/-- Invariant of the routing keys of a tree built by inserts: in the in-order
items every routing key is followed by an entry with the same key. -/
def TreeCopy (t : Tree K V) : Prop :=
  match t.root with
  | none => True
  | some r => CopyKept r.fullItems

/-- Replacing the items `l` by `l'` keeps `CopyKept` wherever `l` occurs. -/
def CopySafe (l l' : List (Bool × K)) : Prop :=
  ∀ a b, CopyKept (a ++ (l ++ b)) → CopyKept (a ++ (l' ++ b))

/-- Replacing `l` by `l'` keeps `CopyKept` wherever `l` occurs with nothing
above `key` before it and only items above `key` after it (the place of an
insertion of `key`). -/
def CopySafeInsert (p : Params K) (key : K) (l l' : List (Bool × K)) : Prop :=
  ∀ a b, (∀ x ∈ a, p.comp x.2 key ≤ 0) → (∀ x ∈ b, p.comp key x.2 < 0) →
    CopyKept (a ++ (l ++ b)) → CopyKept (a ++ (l' ++ b))

/-- Every routing key `keys[i]` of every internal node of the tree is the
first key, in in-order, below `children[i + 1]`. -/
def RoutingKeysCopied (t : Tree K V) : Prop :=
  ∀ r, t.root = some r → ∀ x, (x = r ∨ x ∈ r.subnodes) →
    ∀ ks cs, x = Node.internal ks cs → ∀ i k c, ks[i]? = some k → cs[i + 1]? = some c →
      (Node.toList c).head?.map Prod.fst = some k

/-- Every routing key `keys[i]` of every internal node of the tree is at most
the first key, in in-order, below `children[i + 1]`, which is the smallest key
there. -/
def RoutingKeysBelow (p : Params K) (t : Tree K V) : Prop :=
  ∀ r, t.root = some r → ∀ x, (x = r ∨ x ∈ r.subnodes) →
    ∀ ks cs, x = Node.internal ks cs → ∀ i k c, ks[i]? = some k → cs[i + 1]? = some c →
      ∃ e tl, Node.toList c = e :: tl ∧ p.comp k e.1 ≤ 0 ∧
        ∀ e' ∈ Node.toList c, p.comp e.1 e'.1 ≤ 0

/-- Unique-mode tree after inserting 1, 2, 3 and 4. -/
def mapFourInserts : Tree Int Nat :=
  { root := some (.internal [3] [.leaf [(1, 10), (2, 20)], .leaf [(3, 30), (4, 40)]]),
    nkeys := 4 }

end BPlusTree

namespace BPlusTree

variable {K V : Type}

namespace Params.Valid

variable {p : Params K}

theorem pos_iff (hv : p.Valid) (a b : K) : 0 < p.comp a b ↔ p.comp b a < 0 := (hv.comp_antisymm b a).symm

theorem nonneg_iff (hv : p.Valid) (a b : K) : 0 ≤ p.comp a b ↔ p.comp b a ≤ 0 := by
  have h1 := hv.comp_antisymm a b
  have h2 := hv.comp_antisymm b a
  constructor <;> intro h <;> omega

theorem zero_iff (hv : p.Valid) (a b : K) : p.comp a b = 0 ↔ p.comp b a = 0 := by
  have h1 := hv.comp_antisymm a b
  have h2 := hv.comp_antisymm b a
  constructor <;> intro h <;> omega

theorem comp_self (hv : p.Valid) (a : K) : p.comp a a = 0 := by
  have h1 := hv.comp_antisymm a a
  omega

theorem le_total (hv : p.Valid) (a b : K) : p.comp a b ≤ 0 ∨ p.comp b a ≤ 0 := by
  have h1 := hv.comp_antisymm a b
  omega

theorem lt_of_lt_of_le (hv : p.Valid) {a b c : K} (h1 : p.comp a b < 0) (h2 : p.comp b c ≤ 0) :
    p.comp a c < 0 := by
  have h3 := hv.comp_trans a b c (by omega) h2
  by_contra hc
  have h4 : p.comp a c = 0 := by omega
  have h5 : p.comp c a ≤ 0 := by have := (hv.zero_iff a c).1 h4; omega
  have h6 := hv.comp_trans b c a h2 h5
  have h7 := (hv.comp_antisymm a b).1 h1
  omega

theorem lt_of_le_of_lt (hv : p.Valid) {a b c : K} (h1 : p.comp a b ≤ 0) (h2 : p.comp b c < 0) :
    p.comp a c < 0 := by
  have h3 := hv.comp_trans a b c h1 (by omega)
  by_contra hc
  have h4 : p.comp a c = 0 := by omega
  have h5 : p.comp c a ≤ 0 := by have := (hv.zero_iff a c).1 h4; omega
  have h6 := hv.comp_trans c a b h5 h1
  have h7 := (hv.comp_antisymm b c).1 h2
  omega

theorem lt_trans (hv : p.Valid) {a b c : K} (h1 : p.comp a b < 0) (h2 : p.comp b c < 0) :
    p.comp a c < 0 := hv.lt_of_lt_of_le h1 (by omega)

theorem le_of_lt (_hv : p.Valid) {a b : K} (h1 : p.comp a b < 0) : p.comp a b ≤ 0 := by omega

theorem not_lt_iff (hv : p.Valid) (a b : K) : ¬ p.comp a b < 0 ↔ p.comp b a ≤ 0 := by
  have := hv.nonneg_iff a b
  omega

theorem not_le_iff (hv : p.Valid) (a b : K) : ¬ p.comp a b ≤ 0 ↔ p.comp b a < 0 := by
  have := hv.pos_iff a b
  omega

theorem before_le (_hv : p.Valid) {a b : K} (h : p.before a b) : p.comp a b ≤ 0 := by
  unfold Params.before at h
  split at h <;> omega

theorem before_of_lt (_hv : p.Valid) {a b : K} (h : p.comp a b < 0) : p.before a b := by
  unfold Params.before
  split <;> omega

theorem before_of_before_of_le (hv : p.Valid) {a b c : K} (h1 : p.before a b) (h2 : p.comp b c ≤ 0) :
    p.before a c := by
  unfold Params.before at *
  split at h1
  · simp only [*, if_true]; exact hv.comp_trans a b c h1 h2
  · simp only [*]; exact hv.lt_of_lt_of_le h1 h2

theorem before_of_le_of_before (hv : p.Valid) {a b c : K} (h1 : p.comp a b ≤ 0) (h2 : p.before b c) :
    p.before a c := by
  unfold Params.before at *
  split at h2
  · simp only [*, if_true]; exact hv.comp_trans a b c h1 h2
  · simp only [*]; exact hv.lt_of_le_of_lt h1 h2

end Params.Valid

end BPlusTree

namespace BPlusTree

variable {K V : Type}

theorem pairwise_get_take {α : Type} {R : α → α → Prop} {l : List α} (h : l.Pairwise R)
    {i : Nat} {a : α} (ha : l[i]? = some a) : ∀ b ∈ l.take i, R b a := by
  have hi : i < l.length := by
    by_contra hc
    rw [List.getElem?_eq_none (by omega)] at ha
    cases ha
  have hd : l = l.take i ++ a :: l.drop (i + 1) := by
    have h1 := List.getElem?_eq_getElem hi
    rw [h1] at ha
    injection ha with ha
    rw [← ha, List.getElem_cons_drop, List.take_append_drop]
  rw [hd] at h
  intro b hb
  exact (List.pairwise_append.1 h).2.2 b hb a (List.mem_cons_self _ _)

theorem pairwise_get_drop {α : Type} {R : α → α → Prop} {l : List α} (h : l.Pairwise R)
    {i : Nat} {a : α} (ha : l[i]? = some a) : ∀ b ∈ l.drop (i + 1), R a b := by
  have hi : i < l.length := by
    by_contra hc
    rw [List.getElem?_eq_none (by omega)] at ha
    cases ha
  have hd : l = l.take i ++ a :: l.drop (i + 1) := by
    have h1 := List.getElem?_eq_getElem hi
    rw [h1] at ha
    injection ha with ha
    rw [← ha, List.getElem_cons_drop, List.take_append_drop]
  rw [hd] at h
  intro b hb
  exact List.rel_of_pairwise_cons (List.pairwise_append.1 h).2.1 hb

theorem mem_take_succ_of_get {α : Type} {l : List α} {i : Nat} {a : α} (ha : l[i]? = some a)
    {b : α} (hb : b ∈ l.take (i + 1)) : b ∈ l.take i ∨ b = a := by
  rw [List.take_succ, ha] at hb
  simpa using hb

theorem mem_drop_of_get {α : Type} {l : List α} {i : Nat} {a : α} (ha : l[i]? = some a)
    {b : α} (hb : b ∈ l.drop i) : b = a ∨ b ∈ l.drop (i + 1) := by
  have hi : i < l.length := by
    by_contra hc
    rw [List.getElem?_eq_none (by omega)] at ha
    cases ha
  have h1 := List.getElem?_eq_getElem hi
  rw [h1] at ha
  injection ha with ha
  rw [List.drop_eq_getElem_cons hi, ha] at hb
  simpa using hb

namespace Node

variable {p : Params K}

theorem lower_bound_loop_spec (hv : p.Valid) {ks : List K}
    (hs : ks.Pairwise (fun a b => p.comp a b ≤ 0)) (key : K) :
    ∀ (fuel left right : Nat) (ret : Bool), right - left < fuel → left ≤ right →
      right ≤ ks.length →
      (∀ k ∈ ks.take left, p.comp k key < 0) →
      (∀ k ∈ ks.drop right, p.comp key k ≤ 0) →
      (ret = true → ∃ k ∈ ks, p.comp k key = 0) →
      (ret = false → ∀ k ∈ ks.drop right, p.comp key k < 0) →
      (lower_bound_loop p.comp ks key fuel left right ret).2 ≤ ks.length ∧
      (∀ k ∈ ks.take (lower_bound_loop p.comp ks key fuel left right ret).2,
          p.comp k key < 0) ∧
      (∀ k ∈ ks.drop (lower_bound_loop p.comp ks key fuel left right ret).2,
          p.comp key k ≤ 0) ∧
      ((lower_bound_loop p.comp ks key fuel left right ret).1 = true →
          ∃ k ∈ ks, p.comp k key = 0) ∧
      ((lower_bound_loop p.comp ks key fuel left right ret).1 = false →
          ∀ k ∈ ks.drop (lower_bound_loop p.comp ks key fuel left right ret).2,
            p.comp key k < 0) := by
  intro fuel
  induction fuel with
  | zero => intro left right ret hf; omega
  | succ fuel ih =>
    intro left right ret hf hlr hr hL hR hret hnret
    unfold lower_bound_loop
    by_cases hne : left = right
    · subst hne
      simp only [bne_self_eq_false, Bool.false_eq_true, if_false]
      exact ⟨hr, hL, hR, hret, hnret⟩
    · have hmid1 : left ≤ (left + right) / 2 := by omega
      have hmid2 : (left + right) / 2 < right := by omega
      have hlt : (left + right) / 2 < ks.length := by omega
      have hget : ks[(left + right) / 2]? = some (ks[(left + right) / 2]) :=
        List.getElem?_eq_getElem hlt
      simp only [bne_iff_ne, ne_eq, hne, not_false_eq_true, if_true, List.get?_eq_getElem?,
        hget]
      generalize hkm : ks[(left + right) / 2] = km at hget
      by_cases h1 : p.comp km key < 0
      · simp only [h1, if_true]
        apply ih _ _ _ (by omega) (by omega) hr _ hR hret hnret
        intro k hk
        rcases mem_take_succ_of_get hget hk with hk | hk
        · exact hv.lt_of_le_of_lt (pairwise_get_take hs hget k hk) h1
        · subst hk; exact h1
      · simp only [h1, if_false]
        by_cases h2 : p.comp km key > 0
        · simp only [h2, if_true]
          have h2' : p.comp key km < 0 := (hv.pos_iff _ _).1 h2
          have hall : ∀ k ∈ ks.drop ((left + right) / 2), p.comp key k < 0 := by
            intro k hk
            rcases mem_drop_of_get hget hk with hk | hk
            · subst hk; exact h2'
            · exact hv.lt_of_lt_of_le h2' (pairwise_get_drop hs hget k hk)
          apply ih _ _ _ (by omega) (by omega) (by omega) hL _ hret
          · intro hr' k hk
            exact hall k hk
          · intro k hk
            exact hv.le_of_lt (hall k hk)
        · simp only [h2, if_false]
          have h0 : p.comp km key = 0 := by omega
          have h0' : p.comp key km ≤ 0 := by have := (hv.zero_iff _ _).1 h0; omega
          apply ih _ _ _ (by omega) (by omega) (by omega) hL _ _ (by simp)
          · intro k hk
            rcases mem_drop_of_get hget hk with hk | hk
            · subst hk; exact h0'
            · exact hv.comp_trans _ _ _ h0' (pairwise_get_drop hs hget k hk)
          · intro _
            exact ⟨km, List.getElem?_mem hget, h0⟩

/-- Facts about `node::lower_bound` on a sorted key array. -/
theorem lower_bound_spec (hv : p.Valid) {ks : List K}
    (hs : ks.Pairwise (fun a b => p.comp a b ≤ 0)) (key : K) :
    (lower_bound p.comp ks key).2 ≤ ks.length ∧
    (∀ k ∈ ks.take (lower_bound p.comp ks key).2, p.comp k key < 0) ∧
    (∀ k ∈ ks.drop (lower_bound p.comp ks key).2, p.comp key k ≤ 0) ∧
    ((lower_bound p.comp ks key).1 = true ↔ ∃ k ∈ ks, p.comp k key = 0) := by
  have h := lower_bound_loop_spec hv hs key (ks.length + 1) 0 ks.length false (by omega)
    (by omega) (by omega) (by simp) (by simp) (by simp) (by simp)
  unfold lower_bound
  refine ⟨h.1, h.2.1, h.2.2.1, h.2.2.2.1, ?_⟩
  rintro ⟨k, hk, hk0⟩
  by_contra hc
  have hc' : (lower_bound_loop p.comp ks key (ks.length + 1) 0 ks.length false).1 = false := by
    simpa using hc
  have h5 := h.2.2.2.2 hc'
  rw [← List.take_append_drop
    (lower_bound_loop p.comp ks key (ks.length + 1) 0 ks.length false).2 ks] at hk
  rcases List.mem_append.1 hk with hk | hk
  · have := h.2.1 k hk; omega
  · have := h5 k hk
    have := (hv.zero_iff _ _).1 hk0
    omega

theorem upper_bound_loop_spec (hv : p.Valid) {ks : List K}
    (hs : ks.Pairwise (fun a b => p.comp a b ≤ 0)) (key : K) :
    ∀ (fuel left right : Nat) (ret : Bool), right - left < fuel → left ≤ right →
      right ≤ ks.length →
      (∀ k ∈ ks.take left, p.comp k key ≤ 0) →
      (∀ k ∈ ks.drop right, p.comp key k < 0) →
      (ret = true → ∃ k ∈ ks, p.comp k key = 0) →
      (ret = false → ∀ k ∈ ks.take left, p.comp k key < 0) →
      (upper_bound_loop p.comp ks key fuel left right ret).2 ≤ ks.length ∧
      (∀ k ∈ ks.take (upper_bound_loop p.comp ks key fuel left right ret).2,
          p.comp k key ≤ 0) ∧
      (∀ k ∈ ks.drop (upper_bound_loop p.comp ks key fuel left right ret).2,
          p.comp key k < 0) ∧
      ((upper_bound_loop p.comp ks key fuel left right ret).1 = true →
          ∃ k ∈ ks, p.comp k key = 0) ∧
      ((upper_bound_loop p.comp ks key fuel left right ret).1 = false →
          ∀ k ∈ ks.take (upper_bound_loop p.comp ks key fuel left right ret).2,
            p.comp k key < 0) := by
  intro fuel
  induction fuel with
  | zero => intro left right ret hf; omega
  | succ fuel ih =>
    intro left right ret hf hlr hr hL hR hret hnret
    unfold upper_bound_loop
    by_cases hne : left = right
    · subst hne
      simp only [bne_self_eq_false, Bool.false_eq_true, if_false]
      exact ⟨hr, hL, hR, hret, hnret⟩
    · have hmid1 : left ≤ (left + right) / 2 := by omega
      have hmid2 : (left + right) / 2 < right := by omega
      have hlt : (left + right) / 2 < ks.length := by omega
      have hget : ks[(left + right) / 2]? = some (ks[(left + right) / 2]) :=
        List.getElem?_eq_getElem hlt
      simp only [bne_iff_ne, ne_eq, hne, not_false_eq_true, if_true, List.get?_eq_getElem?,
        hget]
      generalize hkm : ks[(left + right) / 2] = km at hget
      by_cases h1 : p.comp km key < 0
      · simp only [h1, if_true]
        have hall : ∀ k ∈ ks.take ((left + right) / 2 + 1), p.comp k key < 0 := by
          intro k hk
          rcases mem_take_succ_of_get hget hk with hk | hk
          · exact hv.lt_of_le_of_lt (pairwise_get_take hs hget k hk) h1
          · subst hk; exact h1
        apply ih _ _ _ (by omega) (by omega) hr _ hR hret
        · intro _ k hk; exact hall k hk
        · intro k hk; exact hv.le_of_lt (hall k hk)
      · simp only [h1, if_false]
        by_cases h2 : p.comp km key > 0
        · simp only [h2, if_true]
          have h2' : p.comp key km < 0 := (hv.pos_iff _ _).1 h2
          apply ih _ _ _ (by omega) (by omega) (by omega) hL _ hret hnret
          intro k hk
          rcases mem_drop_of_get hget hk with hk | hk
          · subst hk; exact h2'
          · exact hv.lt_of_lt_of_le h2' (pairwise_get_drop hs hget k hk)
        · simp only [h2, if_false]
          have h0 : p.comp km key = 0 := by omega
          apply ih _ _ _ (by omega) (by omega) (by omega) _ hR _ (by simp)
          · intro k hk
            rcases mem_take_succ_of_get hget hk with hk | hk
            · exact hv.comp_trans _ _ _ (pairwise_get_take hs hget k hk) (by omega)
            · subst hk; omega
          · intro _
            exact ⟨km, List.getElem?_mem hget, h0⟩

/-- Facts about `node::upper_bound` on a sorted key array. -/
theorem upper_bound_spec (hv : p.Valid) {ks : List K}
    (hs : ks.Pairwise (fun a b => p.comp a b ≤ 0)) (key : K) :
    (upper_bound p.comp ks key).2 ≤ ks.length ∧
    (∀ k ∈ ks.take (upper_bound p.comp ks key).2, p.comp k key ≤ 0) ∧
    (∀ k ∈ ks.drop (upper_bound p.comp ks key).2, p.comp key k < 0) ∧
    ((upper_bound p.comp ks key).1 = true ↔ ∃ k ∈ ks, p.comp k key = 0) := by
  have h := upper_bound_loop_spec hv hs key (ks.length + 1) 0 ks.length false (by omega)
    (by omega) (by omega) (by simp) (by simp) (by simp) (by simp)
  unfold upper_bound
  refine ⟨h.1, h.2.1, h.2.2.1, h.2.2.2.1, ?_⟩
  rintro ⟨k, hk, hk0⟩
  by_contra hc
  have hc' : (upper_bound_loop p.comp ks key (ks.length + 1) 0 ks.length false).1 = false := by
    simpa using hc
  have h5 := h.2.2.2.2 hc'
  rw [← List.take_append_drop
    (upper_bound_loop p.comp ks key (ks.length + 1) 0 ks.length false).2 ks] at hk
  rcases List.mem_append.1 hk with hk | hk
  · have := h5 k hk; omega
  · have := h.2.2.1 k hk
    have := (hv.zero_iff _ _).1 hk0
    omega

end Node

end BPlusTree

namespace BPlusTree

variable {K V : Type}

/-! ### Fanout constants -/

namespace Params

variable (p : Params K)

theorem leafMax_ge : 3 ≤ p.kLeafNodeMaxKeys := by
  unfold kLeafNodeMaxKeys; split <;> omega

theorem internalMax_ge : 3 ≤ p.kInternalNodeMaxKeys := by
  unfold kInternalNodeMaxKeys; split <;> omega

theorem leafMin_pos : 1 ≤ p.kLeafNodeMinKeys := by
  have := p.leafMax_ge; unfold kLeafNodeMinKeys; omega

theorem internalMin_pos : 1 ≤ p.kInternalNodeMinKeys := by
  have := p.internalMax_ge; unfold kInternalNodeMinKeys; omega

theorem leafMin_lt_max : p.kLeafNodeMinKeys < p.kLeafNodeMaxKeys := by
  have := p.leafMax_ge; unfold kLeafNodeMinKeys; omega

theorem internalMin_lt_max : p.kInternalNodeMinKeys < p.kInternalNodeMaxKeys := by
  have := p.internalMax_ge; unfold kInternalNodeMinKeys; omega

theorem leafMedian_ge_min : p.kLeafNodeMinKeys ≤ p.kLeafNodeMedian := by
  unfold kLeafNodeMinKeys kLeafNodeMedian; omega

theorem leafMedian_lt_max : p.kLeafNodeMedian < p.kLeafNodeMaxKeys := by
  have := p.leafMax_ge; unfold kLeafNodeMedian; omega

theorem leafMax_sub_median : p.kLeafNodeMaxKeys - p.kLeafNodeMedian = p.kLeafNodeMinKeys := by
  unfold kLeafNodeMinKeys kLeafNodeMedian; omega

theorem internalMedian_ge_min : p.kInternalNodeMinKeys ≤ p.kInternalNodeMedian := by
  unfold kInternalNodeMinKeys kInternalNodeMedian; omega

theorem internalMedian_lt_max : p.kInternalNodeMedian < p.kInternalNodeMaxKeys := by
  have := p.internalMax_ge; unfold kInternalNodeMedian; omega

theorem internalMax_sub_median :
    p.kInternalNodeMaxKeys - p.kInternalNodeMedian - 1 = p.kInternalNodeMinKeys := by
  have := p.internalMax_ge
  unfold kInternalNodeMinKeys kInternalNodeMedian; omega

theorem leaf_merge_fits : 2 * p.kLeafNodeMinKeys ≤ p.kLeafNodeMaxKeys := by
  unfold kLeafNodeMinKeys; omega

theorem internal_merge_fits : 2 * p.kInternalNodeMinKeys + 1 ≤ p.kInternalNodeMaxKeys := by
  have := p.internalMax_ge
  unfold kInternalNodeMinKeys; omega

end Params

/-! ### Lists of siblings -/

namespace Node

theorem toListL_append (a b : List (Node K V)) : toListL (a ++ b) = toListL a ++ toListL b := by
  induction a with
  | nil => simp [toListL]
  | cons c a ih => simp [toListL, ih]

theorem leavesL_append (a b : List (Node K V)) : leavesL (a ++ b) = leavesL a ++ leavesL b := by
  induction a with
  | nil => simp [leavesL]
  | cons c a ih => simp [leavesL, ih]

@[simp] theorem toList_leaf (es : List (K × V)) : toList (leaf es : Node K V) = es := by
  simp [toList]

@[simp] theorem toList_internal (ks : List K) (cs : List (Node K V)) :
    toList (internal ks cs) = toListL cs := by
  simp [toList]

@[simp] theorem toListL_nil : toListL ([] : List (Node K V)) = [] := by
  simp [toListL]

@[simp] theorem toListL_cons (c : Node K V) (cs : List (Node K V)) :
    toListL (c :: cs) = toList c ++ toListL cs := by
  simp [toListL]

@[simp] theorem leaves_leaf (es : List (K × V)) : leaves (leaf es : Node K V) = [es] := by
  simp [leaves]

@[simp] theorem leaves_internal (ks : List K) (cs : List (Node K V)) :
    leaves (internal ks cs) = leavesL cs := by
  simp [leaves]

@[simp] theorem leavesL_nil : leavesL ([] : List (Node K V)) = [] := by
  simp [leavesL]

@[simp] theorem leavesL_cons (c : Node K V) (cs : List (Node K V)) :
    leavesL (c :: cs) = leaves c ++ leavesL cs := by
  simp [leavesL]

mutual
theorem flatten_leaves : ∀ x : Node K V, (leaves x).flatten = toList x
  | leaf es => by simp
  | internal _ cs => by simpa using flatten_leavesL cs
theorem flatten_leavesL : ∀ cs : List (Node K V), (leavesL cs).flatten = toListL cs
  | [] => by simp
  | c :: cs => by simp [flatten_leaves c, flatten_leavesL cs]
end

theorem elems_leaf (es : List (K × V)) :
    elems (leaf es : Node K V) = es.map (fun e => (false, e.1)) := by
  simp [elems]

theorem mem_elems {x : Node K V} {a : Bool × K} :
    a ∈ elems x ↔ ∃ e ∈ toList x, a = (false, e.1) := by
  simp [elems, eq_comm]

theorem items_cons (ks : List K) (c : Node K V) (cs : List (Node K V)) :
    items ks (c :: cs) = elems c ++ tailItems ks cs := by
  simp [items]

theorem tailItems_cons (k : K) (ks : List K) (c : Node K V) (cs : List (Node K V)) :
    tailItems (k :: ks) (c :: cs) = (true, k) :: (elems c ++ tailItems ks cs) := by
  simp [tailItems]

theorem preItems_cons (k : K) (ks : List K) (c : Node K V) (cs : List (Node K V)) :
    preItems (k :: ks) (c :: cs) = elems c ++ (true, k) :: preItems ks cs := by
  simp [preItems]

/-- Items of a node split around the child `y` at position `cl.length`. -/
theorem items_split : ∀ (kl : List K) (cl : List (Node K V)) (kr : List K) (y : Node K V)
    (cr : List (Node K V)), kl.length = cl.length →
    items (kl ++ kr) (cl ++ y :: cr) = preItems kl cl ++ (elems y ++ tailItems kr cr)
  | [], [], kr, y, cr, _ => by simp [items, preItems]
  | [], _ :: _, _, _, _, h => by simp at h
  | _ :: _, [], _, _, _, h => by simp at h
  | k :: kl, c :: cl, kr, y, cr, h => by
    have ih := items_split kl cl kr y cr (by simpa using h)
    cases hcl : cl ++ y :: cr with
    | nil => simp at hcl
    | cons c' rest =>
      rw [hcl, items_cons] at ih
      simp only [List.cons_append, items_cons, tailItems_cons, preItems_cons, hcl,
        List.append_assoc]
      rw [← ih]

end Node

end BPlusTree

namespace BPlusTree

variable {K V : Type}

/-! ### Order between items -/

namespace Params.Valid

variable {p : Params K}

theorem rel_to_le (hv : p.Valid) {a b : Bool × K} (h : p.rel a b) : p.comp a.2 b.2 ≤ 0 := by
  unfold Params.rel at h
  split at h
  · exact h
  · exact hv.before_le h

theorem rel_retag (_hv : p.Valid) {a : Bool × K} {t t' : Bool} {k : K}
    (h : p.rel a (t, k)) : p.rel a (t', k) := by
  unfold Params.rel at *
  exact h

theorem rel_trans_le (hv : p.Valid) {a b : Bool × K} {t : Bool} {k : K}
    (h : p.rel a b) (h2 : p.comp b.2 k ≤ 0) : p.rel a (t, k) := by
  unfold Params.rel at *
  split at h
  · simp only [*, if_true]; exact hv.comp_trans _ _ _ h h2
  · simp only [*]; exact hv.before_of_before_of_le h h2

theorem sep_rel (_hv : p.Valid) {k : K} {b : Bool × K} (h : p.comp k b.2 ≤ 0) :
    p.rel (true, k) b := by
  unfold Params.rel
  simpa using h

theorem elem_rel (_hv : p.Valid) {k : K} {b : Bool × K} (h : p.before k b.2) :
    p.rel (false, k) b := by
  unfold Params.rel
  simpa using h

end Params.Valid

theorem pairwise_insert_mid {α : Type} {R : α → α → Prop} {A B : List α} {x : α}
    (h : (A ++ B).Pairwise R) (hA : ∀ a ∈ A, R a x) (hB : ∀ b ∈ B, R x b) :
    (A ++ x :: B).Pairwise R := by
  rw [List.pairwise_append] at h ⊢
  refine ⟨h.1, List.pairwise_cons.2 ⟨hB, h.2.1⟩, ?_⟩
  intro a ha b hb
  rcases List.mem_cons.1 hb with hb | hb
  · subst hb; exact hA a ha
  · exact h.2.2 a ha b hb

namespace Node

variable {p : Params K}

/-! ### Items and entries -/

theorem elems_sublist_tailItems : ∀ (ks : List K) (cs : List (Node K V)),
    cs.length ≤ ks.length →
    ((toListL cs).map (fun e => ((false, e.1) : Bool × K))).Sublist (tailItems ks cs)
  | _, [], _ => by simp
  | [], _ :: _, h => by simp at h
  | k :: ks, c :: cs, h => by
    have ih := elems_sublist_tailItems ks cs (by simpa using h)
    simp only [toListL_cons, List.map_append, tailItems_cons]
    exact List.Sublist.cons _ (List.Sublist.append (List.Sublist.refl _) ih)

theorem elems_sublist_items (ks : List K) (cs : List (Node K V))
    (h : cs.length ≤ ks.length + 1) :
    ((toListL cs).map (fun e => ((false, e.1) : Bool × K))).Sublist (items ks cs) := by
  cases cs with
  | nil => simp
  | cons c cs =>
    simp only [toListL_cons, List.map_append, items_cons]
    exact List.Sublist.append (List.Sublist.refl _)
      (elems_sublist_tailItems ks cs (by simpa using h))

theorem seps_sublist_tailItems : ∀ (ks : List K) (cs : List (Node K V)),
    ks.length ≤ cs.length →
    (ks.map (fun k => ((true, k) : Bool × K))).Sublist (tailItems ks cs)
  | [], _, _ => by simp
  | _ :: _, [], h => by simp at h
  | k :: ks, c :: cs, h => by
    have ih := seps_sublist_tailItems ks cs (by simpa using h)
    simp only [List.map_cons, tailItems_cons]
    exact List.Sublist.cons₂ _ (List.Sublist.trans ih (List.sublist_append_right _ _))

theorem seps_sublist_items (ks : List K) (cs : List (Node K V))
    (h : ks.length + 1 ≤ cs.length) :
    (ks.map (fun k => ((true, k) : Bool × K))).Sublist (items ks cs) := by
  cases cs with
  | nil => simp at h
  | cons c cs =>
    rw [items_cons]
    exact List.Sublist.trans (seps_sublist_tailItems ks cs (by simpa using h))
      (List.sublist_append_right _ _)

theorem pairwise_before_of_items {ks : List K} {cs : List (Node K V)}
    (h : (items ks cs).Pairwise p.rel) (hl : cs.length ≤ ks.length + 1) :
    ((toListL cs).map Prod.fst).Pairwise p.before := by
  have h1 := h.sublist (elems_sublist_items ks cs hl)
  rw [List.pairwise_map] at h1 ⊢
  exact h1.imp (fun {a b} hab => by simpa [Params.rel] using hab)

theorem pairwise_le_of_items {ks : List K} {cs : List (Node K V)}
    (h : (items ks cs).Pairwise p.rel) (hl : ks.length + 1 ≤ cs.length) :
    ks.Pairwise (fun a b => p.comp a b ≤ 0) := by
  have h1 := h.sublist (seps_sublist_items ks cs hl)
  rw [List.pairwise_map] at h1
  exact h1.imp (fun {a b} hab => by simpa [Params.rel] using hab)

/-! ### Basic facts about `Wf` -/

theorem Wf.mono {minL minI minL' minI' h : Nat} {x : Node K V} (hx : Wf p minL minI h x)
    (hL : minL' ≤ minL) (hI : minI' ≤ minI) : Wf p minL' minI' h x := by
  cases hx with
  | leaf _ _ es h1 h2 h3 => exact Wf.leaf _ _ es (by omega) h2 h3
  | internal _ _ h ks cs h1 h2 h3 h4 h5 => exact Wf.internal _ _ h ks cs (by omega) h2 h3 h4 h5

theorem Wf.height_eq : ∀ {h minL minI : Nat} {x : Node K V}, Wf p minL minI h x → x.height = h
  | _, _, _, _, Wf.leaf _ _ es _ _ _ => by simp [height]
  | _, _, _, _, Wf.internal _ _ h ks cs _ _ h3 h4 _ => by
    cases cs with
    | nil => simp at h3
    | cons c cs =>
      simp only [height]
      rw [Wf.height_eq (h4 c (List.mem_cons_self _ _))]

theorem Wf.sorted {h minL minI : Nat} {x : Node K V} (hx : Wf p minL minI h x) :
    ((toList x).map Prod.fst).Pairwise p.before := by
  cases hx with
  | leaf _ _ es h1 h2 h3 => simpa using h3
  | internal _ _ h ks cs h1 h2 h3 h4 h5 =>
    simpa using pairwise_before_of_items h5 (by omega)

theorem Wf.elems_pairwise {h minL minI : Nat} {x : Node K V} (hx : Wf p minL minI h x) :
    (elems x).Pairwise p.rel := by
  have h1 := hx.sorted
  unfold elems
  rw [List.pairwise_map] at h1 ⊢
  exact h1.imp (fun {a b} hab => by simpa [Params.rel] using hab)

theorem Wf.toList_ne_nil : ∀ {h minL minI : Nat} {x : Node K V}, Wf p minL minI h x →
    (1 ≤ minL ∨ 0 < h) → toList x ≠ []
  | _, _, _, _, Wf.leaf _ _ es h1 _ _, hm => by
    rcases hm with hm | hm
    · intro hc
      simp only [toList_leaf] at hc
      subst hc
      simp at h1
      omega
    · omega
  | _, _, _, _, Wf.internal _ _ h ks cs _ _ h3 h4 _, _ => by
    cases cs with
    | nil => simp at h3
    | cons c cs =>
      have := Wf.toList_ne_nil (h4 c (List.mem_cons_self _ _)) (Or.inl p.leafMin_pos)
      simp [this]

theorem Wf.elems_ne_nil {h : Nat} {x : Node K V}
    (hx : Wf p p.kLeafNodeMinKeys p.kInternalNodeMinKeys h x) : elems x ≠ [] := by
  have := hx.toList_ne_nil (Or.inl p.leafMin_pos)
  simpa [elems] using this

theorem Wf.of_full {h minL minI : Nat} {x : Node K V} (hx : Wf p minL minI h x)
    (hf : x.full p = true) : Wf p p.kLeafNodeMinKeys p.kInternalNodeMinKeys h x := by
  cases hx with
  | leaf _ _ es h1 h2 h3 =>
    simp only [full, beq_iff_eq] at hf
    exact Wf.leaf _ _ es (by have := p.leafMin_lt_max; omega) h2 h3
  | internal _ _ h ks cs h1 h2 h3 h4 h5 =>
    simp only [full, beq_iff_eq] at hf
    exact Wf.internal _ _ h ks cs (by have := p.internalMin_lt_max; omega) h2 h3 h4 h5

end Node

end BPlusTree

namespace BPlusTree

variable {K V : Type}

theorem list_split_at {α : Type} {l : List α} {i : Nat} {a : α} (h : l[i]? = some a) :
    l = l.take i ++ a :: l.drop (i + 1) ∧ (l.take i).length = i ∧ i < l.length := by
  have hi : i < l.length := by
    by_contra hc
    rw [List.getElem?_eq_none (by omega)] at h
    cases h
  have h1 := List.getElem?_eq_getElem hi
  rw [h1] at h
  injection h with h
  refine ⟨?_, ?_, hi⟩
  · rw [← h, List.getElem_cons_drop, List.take_append_drop]
  · simp; omega

namespace Node

variable {p : Params K}

/-- Items of a node around the child at slot `i`. -/
theorem items_at {ks : List K} {cs : List (Node K V)} {i : Nat} {y : Node K V}
    (hl : cs.length = ks.length + 1) (hy : cs[i]? = some y) :
    items ks cs = preItems (ks.take i) (cs.take i) ++
      (elems y ++ tailItems (ks.drop i) (cs.drop (i + 1))) := by
  obtain ⟨h1, h2, h3⟩ := list_split_at hy
  have h4 : (ks.take i).length = (cs.take i).length := by simp; omega
  have := items_split (ks.take i) (cs.take i) (ks.drop i) y (cs.drop (i + 1)) h4
  rw [List.take_append_drop, ← h1] at this
  exact this

/-- Items of a node cut at a routing key. -/
theorem items_cut : ∀ (kl : List K) (cl : List (Node K V)) (k : K) (kr : List K)
    (cr : List (Node K V)), cl.length = kl.length + 1 → cr ≠ [] →
    items (kl ++ k :: kr) (cl ++ cr) = items kl cl ++ (true, k) :: items kr cr
  | _, [], _, _, _, h, _ => by simp at h
  | [], [c], k, kr, cr, _, hcr => by
    cases cr with
    | nil => exact absurd rfl hcr
    | cons c' cr => simp [items, tailItems]
  | [], _ :: _ :: _, _, _, _, h, _ => by simp at h
  | k' :: kl, c :: cl, k, kr, cr, h, hcr => by
    have ih := items_cut kl cl k kr cr (by simpa using h) hcr
    cases cl with
    | nil => simp at h
    | cons c2 cl =>
      simp only [List.cons_append, items_cons, tailItems_cons] at ih ⊢
      rw [ih]
      simp

theorem mem_preItems_bound (hv : p.Valid) : ∀ (kl : List K) (cl : List (Node K V)),
    (preItems kl cl).Pairwise p.rel → ∀ a ∈ preItems kl cl,
      ∃ k ∈ kl, a = (true, k) ∨ p.rel a (true, k)
  | [], _, _, a, ha => by simp [preItems] at ha
  | _ :: _, [], _, a, ha => by simp [preItems] at ha
  | k :: kl, c :: cl, h, a, ha => by
    rw [preItems_cons] at h ha
    rcases List.mem_append.1 ha with ha | ha
    · exact ⟨k, List.mem_cons_self _ _,
        Or.inr ((List.pairwise_append.1 h).2.2 a ha _ (List.mem_cons_self _ _))⟩
    · rcases List.mem_cons.1 ha with ha | ha
      · exact ⟨k, List.mem_cons_self _ _, Or.inl ha⟩
      · have h' := (List.pairwise_cons.1 (List.pairwise_append.1 h).2.1).2
        obtain ⟨k', hk', hr⟩ := mem_preItems_bound hv kl cl h' a ha
        exact ⟨k', List.mem_cons_of_mem _ hk', hr⟩

/-- Everything left of slot `i` is before a key that bounds the routing keys
left of slot `i`. -/
theorem preItems_rel (hv : p.Valid) {kl : List K} {cl : List (Node K V)}
    (h : (preItems kl cl).Pairwise p.rel) {key : K} (t : Bool)
    (hk : ∀ k ∈ kl, p.comp k key ≤ 0) : ∀ a ∈ preItems kl cl, p.rel a (t, key) := by
  intro a ha
  obtain ⟨k, hk', hr⟩ := mem_preItems_bound hv kl cl h a ha
  rcases hr with hr | hr
  · subst hr; exact hv.sep_rel (hk k hk')
  · exact hv.rel_trans_le hr (hk k hk')

theorem mem_tailItems_bound (hv : p.Valid) : ∀ (kr : List K) (cr : List (Node K V)),
    (tailItems kr cr).Pairwise p.rel → ∀ b ∈ tailItems kr cr,
      ∃ k ∈ kr, p.comp k b.2 ≤ 0
  | [], _, _, b, hb => by simp [tailItems] at hb
  | _ :: _, [], _, b, hb => by simp [tailItems] at hb
  | k :: kr, c :: cr, h, b, hb => by
    rw [tailItems_cons] at h hb
    rcases List.mem_cons.1 hb with hb | hb
    · subst hb; exact ⟨k, List.mem_cons_self _ _, by simpa using hv.comp_self k |>.le⟩
    · have h1 := List.pairwise_cons.1 h
      rcases List.mem_append.1 hb with hb' | hb'
      · exact ⟨k, List.mem_cons_self _ _, hv.rel_to_le (h1.1 b hb)⟩
      · obtain ⟨k', hk', hr⟩ :=
          mem_tailItems_bound hv kr cr (List.pairwise_append.1 h1.2).2.1 b hb'
        exact ⟨k', List.mem_cons_of_mem _ hk', hr⟩

/-- Everything right of slot `i` is above a key that is strictly below the
routing keys from slot `i` on. -/
theorem tailItems_lt (hv : p.Valid) {kr : List K} {cr : List (Node K V)}
    (h : (tailItems kr cr).Pairwise p.rel) {key : K}
    (hk : ∀ k ∈ kr, p.comp key k < 0) : ∀ b ∈ tailItems kr cr, p.comp key b.2 < 0 := by
  intro b hb
  obtain ⟨k, hk', hr⟩ := mem_tailItems_bound hv kr cr h b hb
  exact hv.lt_of_lt_of_le (hk k hk') hr

theorem tailItems_le (hv : p.Valid) {kr : List K} {cr : List (Node K V)}
    (h : (tailItems kr cr).Pairwise p.rel) {key : K}
    (hk : ∀ k ∈ kr, p.comp key k ≤ 0) : ∀ b ∈ tailItems kr cr, p.comp key b.2 ≤ 0 := by
  intro b hb
  obtain ⟨k, hk', hr⟩ := mem_tailItems_bound hv kr cr h b hb
  exact hv.comp_trans _ _ _ (hk k hk') hr

theorem mem_preItems_of_mem : ∀ (kl : List K) (cl : List (Node K V)),
    cl.length ≤ kl.length → ∀ e ∈ toListL cl, ((false, e.1) : Bool × K) ∈ preItems kl cl
  | _, [], _, e, he => by simp at he
  | [], _ :: _, h, _, _ => by simp at h
  | k :: kl, c :: cl, h, e, he => by
    rw [preItems_cons]
    rw [toListL_cons] at he
    rcases List.mem_append.1 he with he | he
    · exact List.mem_append_left _ (mem_elems.2 ⟨e, he, rfl⟩)
    · exact List.mem_append_right _ (List.mem_cons_of_mem _
        (mem_preItems_of_mem kl cl (by simpa using h) e he))

theorem mem_tailItems_of_mem : ∀ (kr : List K) (cr : List (Node K V)),
    cr.length ≤ kr.length → ∀ e ∈ toListL cr, ((false, e.1) : Bool × K) ∈ tailItems kr cr
  | _, [], _, e, he => by simp at he
  | [], _ :: _, h, _, _ => by simp at h
  | k :: kr, c :: cr, h, e, he => by
    rw [tailItems_cons]
    rw [toListL_cons] at he
    rcases List.mem_append.1 he with he | he
    · exact List.mem_cons_of_mem _ (List.mem_append_left _ (mem_elems.2 ⟨e, he, rfl⟩))
    · exact List.mem_cons_of_mem _ (List.mem_append_right _
        (mem_tailItems_of_mem kr cr (by simpa using h) e he))

end Node

end BPlusTree

namespace BPlusTree

variable {K V : Type}

namespace Node

variable {p : Params K}

theorem wf_child {h : Nat} {ks : List K} {cs : List (Node K V)} {minL minI : Nat}
    (hx : Wf p minL minI (h + 1) (internal ks cs)) {c : Node K V} (hc : c ∈ cs) :
    Wf p p.kLeafNodeMinKeys p.kInternalNodeMinKeys h c := by
  cases hx with
  | internal _ _ h ks cs h1 h2 h3 h4 h5 => exact h4 c hc

/-- Effect of `split_child(i)` on a well-formed node whose child `i` is full. -/
theorem split_child_spec (hv : p.Valid) {ks : List K} {cs : List (Node K V)}
    {minL minI h i : Nat} {y : Node K V}
    (hx : Wf p minL minI (h + 1) (internal ks cs))
    (hroom : ks.length < p.kInternalNodeMaxKeys)
    (hy : cs[i]? = some y) (hfull : y.full p = true) :
    ∃ up y1 z,
      split_child p (internal ks cs) i =
        .ok (internal (ks.take i ++ up :: ks.drop i)
              (cs.take i ++ y1 :: z :: cs.drop (i + 1))) ∧
      Wf p minL (ks.length + 1) (h + 1)
        (internal (ks.take i ++ up :: ks.drop i)
          (cs.take i ++ y1 :: z :: cs.drop (i + 1))) ∧
      toList y = toList y1 ++ toList z ∧
      y1.full p = false ∧ z.full p = false := by
  cases hx with
  | internal _ _ h ks cs h1 h2 h3 h4 h5 =>
  obtain ⟨hcs, hlen, hi⟩ := list_split_at hy
  have hyWf := h4 y (List.getElem?_mem hy)
  have hitems := items_at h3 hy
  rw [hitems] at h5
  have hP := (List.pairwise_append.1 h5).1
  have hET := (List.pairwise_append.1 h5).2.1
  have hPET := (List.pairwise_append.1 h5).2.2
  have hT := (List.pairwise_append.1 hET).2.1
  have hE_T := (List.pairwise_append.1 hET).2.2
  have hkl : (ks.take i).length = (cs.take i).length := by simp; omega
  have hmemL : ∀ c ∈ cs.take i, c ∈ cs := fun c hc => List.mem_of_mem_take hc
  have hmemR : ∀ c ∈ cs.drop (i + 1), c ∈ cs := fun c hc => List.mem_of_mem_drop hc
  -- common final step
  have hfinish : ∀ (up : K) (y1 z : Node K V),
      Wf p p.kLeafNodeMinKeys p.kInternalNodeMinKeys h y1 →
      Wf p p.kLeafNodeMinKeys p.kInternalNodeMinKeys h z →
      elems y = elems y1 ++ elems z →
      (∀ a ∈ elems y1, p.rel a (true, up)) →
      (∀ b ∈ elems z, p.comp up b.2 ≤ 0) →
      Wf p minL (ks.length + 1) (h + 1)
        (internal (ks.take i ++ up :: ks.drop i)
          (cs.take i ++ y1 :: z :: cs.drop (i + 1))) := by
    intro up y1 z hy1 hz hel hl hr
    refine Wf.internal _ _ h _ _ ?_ ?_ ?_ ?_ ?_
    · simp; omega
    · simp; omega
    · simp; omega
    · intro c hc
      rcases List.mem_append.1 hc with hc | hc
      · exact h4 c (hmemL c hc)
      · rcases List.mem_cons.1 hc with hc | hc
        · subst hc; exact hy1
        · rcases List.mem_cons.1 hc with hc | hc
          · subst hc; exact hz
          · exact h4 c (hmemR c hc)
    · rw [items_split (ks.take i) (cs.take i) (up :: ks.drop i) y1 (z :: cs.drop (i + 1)) hkl,
        tailItems_cons]
      rw [hel] at h5 hET hPET hE_T
      have hne1 : elems y1 ≠ [] := hy1.elems_ne_nil
      have hne2 : elems z ≠ [] := hz.elems_ne_nil
      obtain ⟨e1, he1⟩ := List.exists_mem_of_ne_nil _ hne1
      obtain ⟨e2, he2⟩ := List.exists_mem_of_ne_nil _ hne2
      have key1 : (preItems (ks.take i) (cs.take i) ++ elems y1 ++
          (elems z ++ tailItems (ks.drop i) (cs.drop (i + 1)))).Pairwise p.rel := by
        simpa [List.append_assoc] using h5
      have := pairwise_insert_mid (x := ((true, up) : Bool × K)) key1 ?_ ?_
      · simpa [List.append_assoc] using this
      · intro a ha
        rcases List.mem_append.1 ha with ha | ha
        · have h1' := hPET a ha e1 (by simp [he1])
          exact hv.rel_trans_le h1' (hv.rel_to_le (hl e1 he1))
        · exact hl a ha
      · intro b hb
        apply hv.sep_rel
        rcases List.mem_append.1 hb with hb | hb
        · exact hr b hb
        · have h1' := hE_T e2 (by simp [he2]) b hb
          exact hv.comp_trans _ _ _ (hr e2 he2) (hv.rel_to_le h1')
  cases hyWf with
  | leaf _ _ ye hy1 hy2 hy3 =>
    simp only [full, beq_iff_eq] at hfull
    have hmed := p.leafMedian_lt_max
    have hdrop : (ye.drop p.kLeafNodeMedian) ≠ [] := by
      intro hc
      have := congrArg List.length hc
      simp at this
      omega
    obtain ⟨e, rest, hd⟩ := List.exists_cons_of_ne_nil hdrop
    refine ⟨e.1, leaf (ye.take p.kLeafNodeMedian), leaf (ye.drop p.kLeafNodeMedian), ?_, ?_,
      ?_, ?_, ?_⟩
    · simp only [split_child, List.get?_eq_getElem?, hy, full, hfull, beq_self_eq_true,
        Bool.not_true, Bool.false_eq_true, if_false, ge_iff_le, hd, List.head?_cons]
      rw [if_neg (by omega)]
    · have hsplit : ye = ye.take p.kLeafNodeMedian ++ ye.drop p.kLeafNodeMedian :=
        (List.take_append_drop _ _).symm
      have hy3' : ((ye.take p.kLeafNodeMedian).map Prod.fst ++
          (ye.drop p.kLeafNodeMedian).map Prod.fst).Pairwise p.before := by
        rw [← List.map_append, ← hsplit]; exact hy3
      apply hfinish
      · refine Wf.leaf _ _ _ ?_ ?_ (List.pairwise_append.1 hy3').1
        · simp; have := p.leafMedian_ge_min; omega
        · simp; omega
      · refine Wf.leaf _ _ _ ?_ ?_ (List.pairwise_append.1 hy3').2.1
        · simp; have := p.leafMax_sub_median; omega
        · simp; omega
      · simp only [elems, toList_leaf, ← List.map_append, List.take_append_drop]
      · intro a ha
        simp only [elems, toList_leaf, List.mem_map] at ha
        obtain ⟨e', he', rfl⟩ := ha
        apply hv.elem_rel
        exact (List.pairwise_append.1 hy3').2.2 e'.1 (List.mem_map_of_mem _ he') e.1
          (by rw [hd]; simp)
      · intro b hb
        simp only [elems, toList_leaf, hd, List.map_cons, List.mem_cons, List.mem_map] at hb
        rcases hb with hb | ⟨e', he', rfl⟩
        · subst hb; exact le_of_eq (hv.comp_self _)
        · have h6 := (List.pairwise_append.1 hy3').2.1
          rw [hd] at h6
          simp only [List.map_cons, List.pairwise_cons] at h6
          exact hv.before_le (h6.1 e'.1 (List.mem_map_of_mem _ he'))
    · simp
    · simp only [full, beq_eq_false_iff_ne, ne_eq, List.length_take]
      omega
    · simp only [full, beq_eq_false_iff_ne, ne_eq, List.length_drop]
      have := p.leafMax_ge
      have := p.leafMax_sub_median
      have := p.leafMin_lt_max
      omega
  | internal _ _ h yk yc hy1 hy2 hy3 hy4 hy5 =>
    simp only [full, beq_iff_eq] at hfull
    have hmed := p.internalMedian_lt_max
    have hmlt : p.kInternalNodeMedian < yk.length := by omega
    have hget : yk[p.kInternalNodeMedian]? = some (yk[p.kInternalNodeMedian]) :=
      List.getElem?_eq_getElem hmlt
    generalize hup : yk[p.kInternalNodeMedian] = up at hget
    obtain ⟨hyk, _, _⟩ := list_split_at hget
    have hyc : yc = yc.take (p.kInternalNodeMedian + 1) ++ yc.drop (p.kInternalNodeMedian + 1) :=
      (List.take_append_drop _ _).symm
    have hdne : yc.drop (p.kInternalNodeMedian + 1) ≠ [] := by
      intro hc
      have := congrArg List.length hc
      simp at this
      omega
    have hcut := items_cut (yk.take p.kInternalNodeMedian) (yc.take (p.kInternalNodeMedian + 1))
      up (yk.drop (p.kInternalNodeMedian + 1)) (yc.drop (p.kInternalNodeMedian + 1))
      (by simp; omega) hdne
    rw [← hyk, ← hyc] at hcut
    rw [hcut] at hy5
    have hA := (List.pairwise_append.1 hy5).1
    have hB := (List.pairwise_cons.1 (List.pairwise_append.1 hy5).2.1)
    have hAB := (List.pairwise_append.1 hy5).2.2
    refine ⟨up, internal (yk.take p.kInternalNodeMedian) (yc.take (p.kInternalNodeMedian + 1)),
      internal (yk.drop (p.kInternalNodeMedian + 1)) (yc.drop (p.kInternalNodeMedian + 1)),
      ?_, ?_, ?_, ?_, ?_⟩
    · simp only [split_child, List.get?_eq_getElem?, hy, full, hfull, beq_self_eq_true,
        Bool.not_true, Bool.false_eq_true, if_false, ge_iff_le, hget]
      rw [if_neg (by omega)]
    · apply hfinish
      · refine Wf.internal _ _ _ _ _ ?_ ?_ ?_ ?_ hA
        · simp; have := p.internalMedian_ge_min; omega
        · simp; omega
        · simp; omega
        · intro c hc; exact hy4 c (List.mem_of_mem_take hc)
      · refine Wf.internal _ _ _ _ _ ?_ ?_ ?_ ?_ hB.2
        · simp; have := p.internalMax_sub_median; omega
        · simp; omega
        · simp; omega
        · intro c hc; exact hy4 c (List.mem_of_mem_drop hc)
      · simp only [elems, toList_internal, ← List.map_append, ← toListL_append,
          List.take_append_drop]
      · intro a ha
        have hsub := elems_sublist_items (yk.take p.kInternalNodeMedian)
          (yc.take (p.kInternalNodeMedian + 1)) (by simp; omega)
        have : a ∈ items (yk.take p.kInternalNodeMedian) (yc.take (p.kInternalNodeMedian + 1)) :=
          hsub.subset (by simpa [elems] using ha)
        exact hAB a this _ (List.mem_cons_self _ _)
      · intro b hb
        have hsub := elems_sublist_items (yk.drop (p.kInternalNodeMedian + 1))
          (yc.drop (p.kInternalNodeMedian + 1)) (by simp; omega)
        have : b ∈ items (yk.drop (p.kInternalNodeMedian + 1))
            (yc.drop (p.kInternalNodeMedian + 1)) :=
          hsub.subset (by simpa [elems] using hb)
        exact hv.rel_to_le (hB.1 b this)
    · simp only [toList_internal, ← toListL_append, List.take_append_drop]
    · simp only [full, beq_eq_false_iff_ne, ne_eq, List.length_take]
      omega
    · simp only [full, beq_eq_false_iff_ne, ne_eq, List.length_drop]
      have := p.internalMax_ge
      omega

end Node

end BPlusTree

namespace BPlusTree

variable {K V : Type}

namespace Node

variable {p : Params K}

theorem set_eq_of_get {α : Type} {l : List α} {i : Nat} {a : α} (b : α) (h : l[i]? = some a) :
    l.set i b = l.take i ++ b :: l.drop (i + 1) := by
  obtain ⟨_, _, hi⟩ := list_split_at h
  rw [List.set_eq_take_append_cons_drop, if_pos hi]

/-- Replacing child `i` of a well-formed node by a well-formed node of the same
height keeps the node well-formed when the items stay ordered. -/
theorem wf_set_child {ks : List K} {cs : List (Node K V)} {minL minI h i : Nat}
    {c c' : Node K V} (hx : Wf p minL minI (h + 1) (internal ks cs))
    (hc : cs[i]? = some c) (hc' : Wf p p.kLeafNodeMinKeys p.kInternalNodeMinKeys h c')
    (hit : (preItems (ks.take i) (cs.take i) ++
      (elems c' ++ tailItems (ks.drop i) (cs.drop (i + 1)))).Pairwise p.rel) :
    Wf p minL minI (h + 1) (internal ks (cs.set i c')) := by
  cases hx with
  | internal _ _ h ks cs h1 h2 h3 h4 h5 =>
  obtain ⟨hcs, hlen, hi⟩ := list_split_at hc
  refine Wf.internal _ _ h _ _ h1 h2 (by simpa using h3) ?_ ?_
  · intro d hd
    rcases List.mem_or_eq_of_mem_set hd with hd | hd
    · exact h4 d hd
    · subst hd; exact hc'
  · rw [set_eq_of_get c' hc]
    have hkl : (ks.take i).length = (cs.take i).length := by simp; omega
    have := items_split (ks.take i) (cs.take i) (ks.drop i) c' (cs.drop (i + 1)) hkl
    rw [List.take_append_drop] at this
    rw [this]
    exact hit

theorem toList_set_child {cs : List (Node K V)} {i : Nat} {c : Node K V} (c' : Node K V)
    (hc : cs[i]? = some c) :
    toListL cs = toListL (cs.take i) ++ (toList c ++ toListL (cs.drop (i + 1))) ∧
    toListL (cs.set i c') = toListL (cs.take i) ++ (toList c' ++ toListL (cs.drop (i + 1))) := by
  obtain ⟨hcs, _, _⟩ := list_split_at hc
  constructor
  · conv_lhs => rw [hcs]
    rw [toListL_append, toListL_cons]
  · rw [set_eq_of_get c' hc, toListL_append, toListL_cons]

/-- One level of `insert_non_full`: lifting the effect on the child at slot `i`
to the parent. -/
theorem insert_lift (hv : p.Valid) {ks : List K} {cs : List (Node K V)}
    {minL minI h i : Nat} {c c' : Node K V} {key : K} {value : V} {grew : Bool}
    (hx : Wf p minL minI (h + 1) (internal ks cs))
    (hc : cs[i]? = some c)
    (hkl : ∀ k ∈ ks.take i, p.comp k key ≤ 0)
    (hkr : ∀ k ∈ ks.drop i, p.comp key k < 0)
    (hc' : Wf p p.kLeafNodeMinKeys p.kInternalNodeMinKeys h c')
    (hres : (grew = true ∧ ∃ a b, toList c = a ++ b ∧ toList c' = a ++ (key, value) :: b ∧
        (∀ e ∈ a, p.before e.1 key) ∧ (∀ e ∈ b, p.comp key e.1 < 0)) ∨
      (grew = false ∧ p.kDuplicates = false ∧
        (toList c').map Prod.fst = (toList c).map Prod.fst ∧
        ∃ e ∈ toList c, p.comp e.1 key = 0)) :
    Wf p minL minI (h + 1) (internal ks (cs.set i c')) ∧
    ((grew = true ∧ ∃ a b, toList (internal ks cs) = a ++ b ∧
        toList (internal ks (cs.set i c')) = a ++ (key, value) :: b ∧
        (∀ e ∈ a, p.before e.1 key) ∧ (∀ e ∈ b, p.comp key e.1 < 0)) ∨
      (grew = false ∧ p.kDuplicates = false ∧
        (toList (internal ks (cs.set i c'))).map Prod.fst =
          (toList (internal ks cs)).map Prod.fst ∧
        ∃ e ∈ toList (internal ks cs), p.comp e.1 key = 0)) := by
  have hx' := hx
  cases hx with
  | internal _ _ h ks cs h1 h2 h3 h4 h5 =>
  obtain ⟨hcs, hlen, hi⟩ := list_split_at hc
  have hitems := items_at h3 hc
  rw [hitems] at h5
  have hP := (List.pairwise_append.1 h5).1
  have hET := (List.pairwise_append.1 h5).2.1
  have hT := (List.pairwise_append.1 hET).2.1
  obtain ⟨htl, htl'⟩ := toList_set_child c' hc
  have hL : ∀ e ∈ toListL (cs.take i), p.before e.1 key := by
    intro e he
    have hm := mem_preItems_of_mem (ks.take i) (cs.take i) (by simp; omega) e he
    have := preItems_rel hv hP false hkl _ hm
    simpa [Params.rel] using this
  have hR : ∀ e ∈ toListL (cs.drop (i + 1)), p.comp key e.1 < 0 := by
    intro e he
    have hm := mem_tailItems_of_mem (ks.drop i) (cs.drop (i + 1)) (by simp; omega) e he
    exact tailItems_lt hv hT hkr _ hm
  rcases hres with ⟨hg, a, b, hab, hab', ha, hb⟩ | ⟨hg, hd, hkeys, e, he, hek⟩
  · refine ⟨?_, Or.inl ⟨hg, toListL (cs.take i) ++ a, b ++ toListL (cs.drop (i + 1)), ?_, ?_,
      ?_, ?_⟩⟩
    · apply wf_set_child hx' hc hc'
      have hel : elems c = a.map (fun e => (false, e.1)) ++ b.map (fun e => (false, e.1)) := by
        simp [elems, hab]
      have hel' : elems c' = a.map (fun e => (false, e.1)) ++
          ((false, key) : Bool × K) :: b.map (fun e => (false, e.1)) := by
        simp [elems, hab']
      rw [hel] at h5
      rw [hel']
      have key1 : ((preItems (ks.take i) (cs.take i) ++ a.map (fun e => ((false, e.1) : Bool × K)))
          ++ (b.map (fun e => ((false, e.1) : Bool × K)) ++
            tailItems (ks.drop i) (cs.drop (i + 1)))).Pairwise p.rel := by
        simpa [List.append_assoc] using h5
      have := pairwise_insert_mid (x := ((false, key) : Bool × K)) key1 ?_ ?_
      · simpa [List.append_assoc] using this
      · intro x hx
        rcases List.mem_append.1 hx with hx | hx
        · exact preItems_rel hv hP false hkl _ hx
        · obtain ⟨e, he, rfl⟩ := List.mem_map.1 hx
          exact hv.elem_rel (ha e he)
      · intro x hx
        apply hv.elem_rel
        apply hv.before_of_lt
        rcases List.mem_append.1 hx with hx | hx
        · obtain ⟨e, he, rfl⟩ := List.mem_map.1 hx
          exact hb e he
        · exact tailItems_lt hv hT hkr _ hx
    · rw [toList_internal, htl, hab]; simp
    · rw [toList_internal, htl', hab']; simp
    · intro e he
      rcases List.mem_append.1 he with he | he
      · exact hL e he
      · exact ha e he
    · intro e he
      rcases List.mem_append.1 he with he | he
      · exact hb e he
      · exact hR e he
  · refine ⟨?_, Or.inr ⟨hg, hd, ?_, e, ?_, hek⟩⟩
    · apply wf_set_child hx' hc hc'
      have hel : elems c' = elems c := by
        unfold elems
        have := congrArg (List.map (fun k => ((false, k) : Bool × K))) hkeys
        simpa [List.map_map] using this
      rw [hel]; exact h5
    · rw [toList_internal, toList_internal, htl, htl']
      simp [hkeys]
    · rw [toList_internal, htl]; simp [he]

end Node

end BPlusTree

namespace BPlusTree

variable {K V : Type}

namespace Node

variable {p : Params K}

theorem pairwise_le_of_before (hv : p.Valid) {l : List K} (h : l.Pairwise p.before) :
    l.Pairwise (fun a b => p.comp a b ≤ 0) :=
  h.imp (fun {_ _} hab => hv.before_le hab)

/-- Leaf part of `insert_non_full`. -/
theorem insert_leaf_spec (hv : p.Valid) {es : List (K × V)} {minL minI : Nat} (fuel : Nat)
    (key : K) (value : V) (hx : Wf p minL minI 0 (leaf es))
    (hnf : (leaf es : Node K V).full p = false) :
    ∃ x' grew, insert_non_full p (fuel + 1) (leaf es) key value = .ok (x', grew) ∧
      Wf p minL minI 0 x' ∧ x'.count ≤ es.length + 1 ∧
      ((grew = true ∧ ∃ a b, toList (leaf es : Node K V) = a ++ b ∧
          toList x' = a ++ (key, value) :: b ∧
          (∀ e ∈ a, p.before e.1 key) ∧ (∀ e ∈ b, p.comp key e.1 < 0)) ∨
        (grew = false ∧ p.kDuplicates = false ∧
          (toList x').map Prod.fst = (toList (leaf es : Node K V)).map Prod.fst ∧
          ∃ e ∈ toList (leaf es : Node K V), p.comp e.1 key = 0)) := by
  cases hx with
  | leaf _ _ es h1 h2 h3 =>
  simp only [full, beq_eq_false_iff_ne, ne_eq] at hnf
  have hlt : es.length < p.kLeafNodeMaxKeys := by omega
  obtain ⟨hpos, htake, hdrop, hfound⟩ :=
    upper_bound_spec hv (pairwise_le_of_before hv h3) key
  generalize hr : upper_bound p.comp (es.map Prod.fst) key = r at hpos htake hdrop hfound
  simp only [List.length_map] at hpos
  unfold insert_non_full
  simp only [hr]
  by_cases hcase : (r.1 && !p.kDuplicates) = true
  · simp only [hcase, if_true]
    simp only [Bool.and_eq_true, Bool.not_eq_true', ] at hcase
    obtain ⟨e, he, hek⟩ := hfound.1 hcase.1
    obtain ⟨e0, he0, rfl⟩ := List.mem_map.1 he
    have hsame : ∀ x' : Node K V, x' = leaf es → Wf p minL minI 0 x' ∧ x'.count ≤ es.length + 1 ∧
        ((false = true ∧ ∃ a b, toList (leaf es : Node K V) = a ++ b ∧
          toList x' = a ++ (key, value) :: b ∧
          (∀ e ∈ a, p.before e.1 key) ∧ (∀ e ∈ b, p.comp key e.1 < 0)) ∨
        (false = false ∧ p.kDuplicates = false ∧
          (toList x').map Prod.fst = (toList (leaf es : Node K V)).map Prod.fst ∧
          ∃ e ∈ toList (leaf es : Node K V), p.comp e.1 key = 0)) := by
      intro x' hx'
      subst hx'
      refine ⟨Wf.leaf _ _ es h1 h2 h3, by simp [count], Or.inr ⟨rfl, hcase.2, rfl, e0, by simpa using he0, hek⟩⟩
    by_cases hvs : p.kValueSize > 0
    · simp only [hvs, if_true]
      rw [if_neg (by omega)]
      cases hget : es.get? r.2 with
      | none => exact ⟨_, _, rfl, hsame _ rfl⟩
      | some e1 =>
        refine ⟨_, _, rfl, ?_⟩
        have hkeys : (es.set r.2 (e1.1, value)).map Prod.fst = es.map Prod.fst := by
          rw [List.get?_eq_getElem?] at hget
          obtain ⟨hes, _, _⟩ := list_split_at hget
          rw [set_eq_of_get _ hget]
          conv_rhs => rw [hes]
          simp
        refine ⟨Wf.leaf _ _ _ (by simpa using h1) (by simpa using h2) (by rw [hkeys]; exact h3),
          by simp [count], Or.inr ⟨rfl, hcase.2, by simpa using hkeys, e0, by simpa using he0, hek⟩⟩
    · simp only [hvs, if_false]
      exact ⟨_, _, rfl, hsame _ rfl⟩
  · simp only [hcase, Bool.false_eq_true, if_false]
    rw [if_neg (by omega)]
    refine ⟨_, _, rfl, ?_, ?_, Or.inl ⟨rfl, es.take r.2, es.drop r.2, ?_, ?_, ?_, ?_⟩⟩
    · have hbefore : ∀ e ∈ es.take r.2, p.before e.1 key := by
        intro e he
        have hle := htake e.1 (by rw [← List.map_take]; exact List.mem_map_of_mem _ he)
        unfold Params.before
        split
        · exact hle
        · rename_i hd
          have hnf' : r.1 = false := by
            cases hr1 : r.1
            · rfl
            · simp [hr1, hd] at hcase
          by_contra hc
          have : p.comp e.1 key = 0 := by omega
          have := hfound.2 ⟨e.1, List.mem_map_of_mem _ (List.mem_of_mem_take he), this⟩
          simp [hnf'] at this
      refine Wf.leaf _ _ _ (by simp; omega) (by simp; omega) ?_
      have h3' : ((es.take r.2).map Prod.fst ++ (es.drop r.2).map Prod.fst).Pairwise p.before := by
        rw [← List.map_append, List.take_append_drop]; exact h3
      have := pairwise_insert_mid (x := key) h3' ?_ ?_
      · simpa using this
      · intro a ha
        obtain ⟨e, he, rfl⟩ := List.mem_map.1 ha
        exact hbefore e he
      · intro b hb
        apply hv.before_of_lt
        exact hdrop b (by rw [← List.map_drop]; exact hb)
    · simp [count]; omega
    · simp
    · simp
    · intro e he
      have hle := htake e.1 (by rw [← List.map_take]; exact List.mem_map_of_mem _ he)
      unfold Params.before
      split
      · exact hle
      · rename_i hd
        have hnf' : r.1 = false := by
          cases hr1 : r.1
          · rfl
          · simp [hr1, hd] at hcase
        by_contra hc
        have : p.comp e.1 key = 0 := by omega
        have := hfound.2 ⟨e.1, List.mem_map_of_mem _ (List.mem_of_mem_take he), this⟩
        simp [hnf'] at this
    · intro e he
      exact hdrop e.1 (by rw [← List.map_drop]; exact List.mem_map_of_mem _ he)

end Node

end BPlusTree

namespace BPlusTree

variable {K V : Type}

namespace Node

variable {p : Params K}

theorem getElem?_insert_at {α : Type} (l : List α) (i : Nat) (a : α) (hi : i ≤ l.length) :
    (l.take i ++ a :: l.drop i)[i]? = some a := by
  rw [List.getElem?_append_right (by simp)]
  simp [Nat.min_eq_left hi]

theorem take_insert_at {α : Type} (l : List α) (i : Nat) (a : α) (hi : i ≤ l.length) :
    (l.take i ++ a :: l.drop i).take i = l.take i ∧
    (l.take i ++ a :: l.drop i).drop i = a :: l.drop i ∧
    (l.take i ++ a :: l.drop i).take (i + 1) = l.take i ++ [a] ∧
    (l.take i ++ a :: l.drop i).drop (i + 1) = l.drop i := by
  have hlen : (l.take i).length = i := by simp [Nat.min_eq_left hi]
  refine ⟨?_, ?_, ?_, ?_⟩
  · exact List.take_left' hlen
  · exact List.drop_left' hlen
  · rw [List.take_append_eq_append_take, hlen]
    simp
  · rw [List.drop_append_eq_append_drop, hlen]
    simp

/-- Effect of `insert_non_full` on a well-formed node that is not full: it
returns, the node stays well-formed, and either the pair was placed after the
last entry with key `≤ key`, or (unique mode, key present) no key changed. -/
theorem insert_non_full_spec (hv : p.Valid) (key : K) (value : V) :
    ∀ (fuel h minL minI : Nat) (x : Node K V), Wf p minL minI h x → x.full p = false →
      h < fuel →
      ∃ x' grew, insert_non_full p fuel x key value = .ok (x', grew) ∧
        Wf p minL minI h x' ∧
        ((grew = true ∧ ∃ a b, toList x = a ++ b ∧ toList x' = a ++ (key, value) :: b ∧
            (∀ e ∈ a, p.before e.1 key) ∧ (∀ e ∈ b, p.comp key e.1 < 0)) ∨
          (grew = false ∧ p.kDuplicates = false ∧
            (toList x').map Prod.fst = (toList x).map Prod.fst ∧
            ∃ e ∈ toList x, p.comp e.1 key = 0)) := by
  intro fuel
  induction fuel with
  | zero => intro h minL minI x _ _ hf; omega
  | succ fuel ih =>
    intro h minL minI x hx hnf hf
    cases hx with
    | leaf _ _ es h1 h2 h3 =>
      obtain ⟨x', grew, he, hw, _, hres⟩ :=
        insert_leaf_spec hv fuel key value (Wf.leaf _ _ es h1 h2 h3) hnf
      exact ⟨x', grew, he, hw, hres⟩
    | internal _ _ h ks cs h1 h2 h3 h4 h5 =>
      have hx : Wf p minL minI (h + 1) (internal ks cs) := Wf.internal _ _ h ks cs h1 h2 h3 h4 h5
      simp only [full, beq_eq_false_iff_ne, ne_eq] at hnf
      have hroom : ks.length < p.kInternalNodeMaxKeys := by omega
      obtain ⟨hpos, htake, hdrop, _⟩ :=
        upper_bound_spec hv (pairwise_le_of_items h5 (by omega)) key
      generalize hi : (upper_bound p.comp ks key).2 = i at hpos htake hdrop
      have hilt : i < cs.length := by omega
      have hget : cs[i]? = some cs[i] := List.getElem?_eq_getElem hilt
      generalize hcdef : cs[i] = c at hget
      unfold insert_non_full
      simp only [hi, List.get?_eq_getElem?, hget]
      by_cases hfull : c.full p = true
      · simp only [hfull, if_true]
        obtain ⟨up, y1, z, hsplit, hWf', htl, hnf1, hnf2⟩ :=
          split_child_spec hv hx hroom hget hfull
        rw [hsplit]
        obtain ⟨ht1, ht2, ht3, ht4⟩ := take_insert_at ks i up hpos
        have hclen : (cs.take i).length = i := by simp; omega
        simp only [keyArray, children, getElem?_insert_at ks i up hpos]
        have hWf'' := hWf'.mono (le_refl minL) (show minI ≤ ks.length + 1 by omega)
        have htoList : toListL (cs.take i ++ y1 :: z :: cs.drop (i + 1)) = toListL cs := by
          obtain ⟨hcs, _, _⟩ := list_split_at hget
          conv_rhs => rw [hcs]
          simp [toListL_append, htl]
        by_cases hcmp : p.comp up key ≤ 0
        · simp only [hcmp, if_true]
          have hgz : (cs.take i ++ y1 :: z :: cs.drop (i + 1))[i + 1]? = some z := by
            rw [List.getElem?_append_right (by omega)]
            simp [hclen]
          simp only [hgz]
          have hzWf := wf_child hWf' (c := z) (by simp)
          obtain ⟨c'', grew, he, hw, hres⟩ := ih h _ _ z hzWf hnf2 (by omega)
          simp only [he]
          obtain ⟨hw2, hres2⟩ := insert_lift hv hWf'' hgz
            (by rw [ht3]; intro k hk
                rcases List.mem_append.1 hk with hk | hk
                · exact htake k hk
                · simp at hk; subst hk; exact hcmp)
            (by rw [ht4]; exact hdrop) hw hres
          refine ⟨_, _, rfl, hw2, ?_⟩
          simpa only [toList_internal, htoList] using hres2
        · simp only [hcmp, if_false]
          have hgy : (cs.take i ++ y1 :: z :: cs.drop (i + 1))[i]? = some y1 := by
            rw [List.getElem?_append_right (by omega)]
            simp [hclen]
          simp only [hgy]
          have hyWf := wf_child hWf' (c := y1) (by simp)
          obtain ⟨c'', grew, he, hw, hres⟩ := ih h _ _ y1 hyWf hnf1 (by omega)
          simp only [he]
          obtain ⟨hw2, hres2⟩ := insert_lift hv hWf'' hgy
            (by rw [ht1]; exact htake)
            (by rw [ht2]; intro k hk
                rcases List.mem_cons.1 hk with hk | hk
                · subst hk; exact (hv.not_le_iff _ _).1 hcmp
                · exact hdrop k hk) hw hres
          refine ⟨_, _, rfl, hw2, ?_⟩
          simpa only [toList_internal, htoList] using hres2
      · have hfull' : c.full p = false := by simpa using hfull
        simp only [hfull', Bool.false_eq_true, if_false]
        have hcWf := h4 c (List.getElem?_mem hget)
        obtain ⟨c'', grew, he, hw, hres⟩ := ih h _ _ c hcWf hfull' (by omega)
        simp only [he]
        obtain ⟨hw2, hres2⟩ := insert_lift hv hx hget htake hdrop hw hres
        exact ⟨_, _, rfl, hw2, hres2⟩

end Node

end BPlusTree

namespace BPlusTree

variable {K V : Type}

namespace Node

variable {p : Params K}

theorem Wf.raise_leaf {minL minI : Nat} {x : Node K V} (hx : Wf p minL minI 0 x)
    (hl : 1 ≤ (toList x).length) : Wf p 1 1 0 x := by
  cases hx with
  | leaf _ _ es h1 h2 h3 => exact Wf.leaf _ _ es (by simpa using hl) h2 h3

end Node

namespace btree

variable {p : Params K}

/-- Effect of `btree::insert` on a tree that satisfies the invariant. -/
theorem insert_spec (hv : p.Valid) {t : Tree K V} (hinv : TreeInv p t) (key : K) (value : V) :
    ∃ t', insert p t key value = .ok t' ∧ TreeInv p t' ∧
      ((t'.nkeys = t.nkeys + 1 ∧ ∃ a b, contents t = a ++ b ∧
          contents t' = a ++ (key, value) :: b ∧
          (∀ e ∈ a, p.before e.1 key) ∧ (∀ e ∈ b, p.comp key e.1 < 0)) ∨
        (t'.nkeys = t.nkeys ∧ p.kDuplicates = false ∧
          (contents t').map Prod.fst = (contents t).map Prod.fst ∧
          ∃ e ∈ contents t, p.comp e.1 key = 0)) := by
  -- common continuation once the root is prepared
  have hcont : ∀ (root : Node K V) (h : Nat) (n : Nat) (l : List (K × V)),
      Node.Wf p 0 0 h root → (0 < h → Node.Wf p 1 1 h root) →
      root.full p = false → Node.toList root = l → n = l.length →
      ∃ t', (match Node.insert_non_full p (root.height + 1) root key value with
            | Except.error f => (Except.error f : Except Fault (Tree K V))
            | Except.ok (root', grew) =>
              Except.ok { root := some root', nkeys := if grew then n + 1 else n }) =
              Except.ok t' ∧ TreeInv p t' ∧
        ((t'.nkeys = n + 1 ∧ ∃ a b, l = a ++ b ∧
            contents t' = a ++ (key, value) :: b ∧
            (∀ e ∈ a, p.before e.1 key) ∧ (∀ e ∈ b, p.comp key e.1 < 0)) ∨
          (t'.nkeys = n ∧ p.kDuplicates = false ∧
            (contents t').map Prod.fst = l.map Prod.fst ∧
            ∃ e ∈ l, p.comp e.1 key = 0)) := by
    intro root h n l hw0 hw1 hnf hl hn
    have hh := hw0.height_eq
    obtain ⟨x', grew, he, hw, hres⟩ :=
      Node.insert_non_full_spec hv key value (root.height + 1) h 0 0 root hw0 hnf (by omega)
    simp only [he]
    have hlen1 : 1 ≤ (Node.toList x').length := by
      rcases hres with ⟨_, a, b, _, hab', _, _⟩ | ⟨_, _, hk, e, he', _⟩
      · rw [hab']; simp; omega
      · have := congrArg List.length hk
        simp only [List.length_map] at this
        rw [this]
        exact List.length_pos_of_mem he'
    have hwf1 : ∃ h', Node.Wf p 1 1 h' x' := by
      cases h with
      | zero => exact ⟨0, hw.raise_leaf hlen1⟩
      | succ h =>
        obtain ⟨x'', grew', he2, hw2, _⟩ :=
          Node.insert_non_full_spec hv key value (root.height + 1) (h + 1) 1 1 root
            (hw1 (by omega)) hnf (by omega)
        rw [he] at he2
        injection he2 with he2
        injection he2 with he2 _
        subst he2
        exact ⟨_, hw2⟩
    rcases hres with ⟨hg, a, b, hab, hab', ha, hb⟩ | ⟨hg, hd, hk, e, he', hek⟩
    · subst hg
      refine ⟨_, rfl, ⟨hwf1, ?_⟩, Or.inl ⟨by simp, a, b, ?_, ?_, ha, hb⟩⟩
      · simp [hab', hn, ← hl, hab]; omega
      · rw [← hl, hab]
      · simp [contents, hab']
    · subst hg
      refine ⟨_, rfl, ⟨hwf1, ?_⟩, Or.inr ⟨by simp, hd, ?_, e, ?_, hek⟩⟩
      · have := congrArg List.length hk
        simp only [List.length_map] at this
        simp [this, hn, hl]
      · simp [contents, hk, hl]
      · rw [← hl]; exact he'
  unfold insert
  cases hroot : t.root with
  | none =>
    have hn : t.nkeys = 0 := by simpa [TreeInv, hroot] using hinv
    have hw : Node.Wf p 0 0 0 (Node.leaf ([] : List (K × V))) :=
      Node.Wf.leaf _ _ [] (by simp) (by simp) (by simp)
    have hnf : (Node.leaf ([] : List (K × V)) : Node K V).full p = false := by
      have := p.leafMax_ge
      simp only [Node.full, List.length_nil, beq_eq_false_iff_ne, ne_eq]
      omega
    have := hcont (Node.leaf []) 0 t.nkeys [] hw (by intro h; omega) hnf (by simp) (by simp [hn])
    simpa [contents, hroot] using this
  | some r =>
    obtain ⟨⟨h, hw⟩, hn⟩ : (∃ h, Node.Wf p 1 1 h r) ∧ t.nkeys = (Node.toList r).length := by
      simpa [TreeInv, hroot] using hinv
    by_cases hfull : r.full p = true
    · simp only [hfull, if_true]
      have hx0 : Node.Wf p 1 0 (h + 1) (Node.internal [] [r]) := by
        refine Node.Wf.internal _ _ h [] [r] (by simp) (by simp) (by simp) ?_ ?_
        · intro c hc
          simp only [List.mem_singleton] at hc
          subst hc
          exact hw.of_full hfull
        · simpa [Node.items, Node.tailItems] using hw.elems_pairwise
      obtain ⟨up, y1, z, hsplit, hWf', htl, hnf1, hnf2⟩ :=
        Node.split_child_spec hv hx0 (by have := p.internalMax_ge; simp; omega)
          (show ([r] : List (Node K V))[0]? = some r by simp) hfull
      rw [hsplit]
      simp only [List.take_zero, List.drop_zero, List.nil_append, List.length_nil, zero_add,
        List.drop_succ_cons, List.drop_nil] at hWf' ⊢
      have hnf0 : (Node.internal [up] [y1, z] : Node K V).full p = false := by
        have := p.internalMax_ge
        simp only [Node.full, List.length_singleton, beq_eq_false_iff_ne, ne_eq]
        omega
      have := hcont (Node.internal [up] [y1, z]) (h + 1) t.nkeys (Node.toList r)
        (hWf'.mono (by omega) (by omega)) (fun _ => hWf') hnf0 (by simp [htl]) hn
      simpa [contents, hroot] using this
    · have hfull' : r.full p = false := by simpa using hfull
      simp only [hfull', Bool.false_eq_true, if_false]
      have := hcont r h t.nkeys (Node.toList r) (hw.mono (by omega) (by omega))
        (fun _ => hw) hfull' rfl hn
      simpa [contents, hroot] using this

end btree

end BPlusTree

namespace BPlusTree

variable {K V : Type}

/-! ### Positions in the middle of a list -/

theorem get_mid0 {α : Type} (l : List α) (a : α) (r : List α) :
    (l ++ a :: r)[l.length]? = some a := by
  rw [List.getElem?_append_right (le_refl _)]; simp

theorem get_mid1 {α : Type} (l : List α) (a b : α) (r : List α) :
    (l ++ a :: b :: r)[l.length + 1]? = some b := by
  rw [List.getElem?_append_right (by omega)]; simp

theorem set_mid0 {α : Type} (l : List α) (a a' : α) (r : List α) :
    (l ++ a :: r).set l.length a' = l ++ a' :: r := by
  induction l with
  | nil => simp
  | cons x l ih => simp [ih]

theorem set_mid1 {α : Type} (l : List α) (a b b' : α) (r : List α) :
    (l ++ a :: b :: r).set (l.length + 1) b' = l ++ a :: b' :: r := by
  induction l with
  | nil => simp
  | cons x l ih => simp [ih]

theorem eraseIdx_mid0 {α : Type} (l : List α) (a : α) (r : List α) :
    (l ++ a :: r).eraseIdx l.length = l ++ r := by
  induction l with
  | nil => simp
  | cons x l ih => simp [ih]

theorem eraseIdx_mid1 {α : Type} (l : List α) (a b : α) (r : List α) :
    (l ++ a :: b :: r).eraseIdx (l.length + 1) = l ++ a :: r := by
  induction l with
  | nil => simp
  | cons x l ih => simp [ih]

theorem take_mid {α : Type} (l r : List α) : (l ++ r).take l.length = l := List.take_left _ _

theorem drop_mid {α : Type} (l r : List α) : (l ++ r).drop l.length = r := List.drop_left _ _

theorem drop_mid1 {α : Type} (l : List α) (a : α) (r : List α) :
    (l ++ a :: r).drop (l.length + 1) = r := by
  induction l with
  | nil => simp
  | cons x l ih => simp [ih]

theorem take_mid1 {α : Type} (l : List α) (a : α) (r : List α) :
    (l ++ a :: r).take (l.length + 1) = l ++ [a] := by
  induction l with
  | nil => simp
  | cons x l ih => simp [ih]

theorem drop_mid2 {α : Type} (l : List α) (a b : α) (r : List α) :
    (l ++ a :: b :: r).drop (l.length + 2) = r := by
  induction l with
  | nil => simp
  | cons x l ih => simp [ih]

namespace Node

variable {p : Params K}

/-! ### Items of a node against the entries below it -/

theorem tailItems_le_elem (hv : p.Valid) : ∀ (ks : List K) (cs : List (Node K V)),
    (tailItems ks cs).Pairwise p.rel → (∀ c ∈ cs, elems c ≠ []) →
    ∀ a ∈ tailItems ks cs, ∃ e ∈ toListL cs, a = (false, e.1) ∨ p.comp a.2 e.1 ≤ 0
  | [], _, _, _, a, ha => by simp [tailItems] at ha
  | _ :: _, [], _, _, a, ha => by simp [tailItems] at ha
  | k :: ks, c :: cs, h, hne, a, ha => by
    rw [tailItems_cons] at h ha
    have h1 := List.pairwise_cons.1 h
    rcases List.mem_cons.1 ha with ha | ha
    · obtain ⟨e0, he0⟩ := List.exists_mem_of_ne_nil _ (hne c (List.mem_cons_self _ _))
      obtain ⟨e, he, rfl⟩ := mem_elems.1 he0
      refine ⟨e, by simp [he], Or.inr ?_⟩
      subst ha
      exact hv.rel_to_le (h1.1 _ (List.mem_append_left _ he0))
    · rcases List.mem_append.1 ha with ha | ha
      · obtain ⟨e, he, rfl⟩ := mem_elems.1 ha
        exact ⟨e, by simp [he], Or.inl rfl⟩
      · obtain ⟨e, he, hr⟩ := tailItems_le_elem hv ks cs (List.pairwise_append.1 h1.2).2.1
          (fun c hc => hne c (List.mem_cons_of_mem _ hc)) a ha
        exact ⟨e, by simp [he], hr⟩

/-- Every item of a node is an entry below it or is `≤` some entry below it. -/
theorem items_le_elem (hv : p.Valid) {ks : List K} {cs : List (Node K V)}
    (h : (items ks cs).Pairwise p.rel) (hne : ∀ c ∈ cs, elems c ≠ []) :
    ∀ a ∈ items ks cs, ∃ e ∈ toListL cs, a = (false, e.1) ∨ p.comp a.2 e.1 ≤ 0 := by
  intro a ha
  cases cs with
  | nil => simp [items] at ha
  | cons c cs =>
    rw [items_cons] at h ha
    rcases List.mem_append.1 ha with ha | ha
    · obtain ⟨e, he, rfl⟩ := mem_elems.1 ha
      exact ⟨e, by simp [he], Or.inl rfl⟩
    · obtain ⟨e, he, hr⟩ := tailItems_le_elem hv ks cs (List.pairwise_append.1 h).2.1
        (fun c hc => hne c (List.mem_cons_of_mem _ hc)) a ha
      exact ⟨e, by simp [he], hr⟩

theorem preItems_ge_elem (hv : p.Valid) : ∀ (ks : List K) (cs : List (Node K V)),
    (preItems ks cs).Pairwise p.rel → (∀ c ∈ cs, elems c ≠ []) →
    ∀ a ∈ preItems ks cs, ∃ e ∈ toListL cs, a = (false, e.1) ∨ p.comp e.1 a.2 ≤ 0
  | [], _, _, _, a, ha => by simp [preItems] at ha
  | _ :: _, [], _, _, a, ha => by simp [preItems] at ha
  | k :: ks, c :: cs, h, hne, a, ha => by
    rw [preItems_cons] at h ha
    have h1 := List.pairwise_append.1 h
    rcases List.mem_append.1 ha with ha | ha
    · obtain ⟨e, he, rfl⟩ := mem_elems.1 ha
      exact ⟨e, by simp [he], Or.inl rfl⟩
    · rcases List.mem_cons.1 ha with ha | ha
      · obtain ⟨e0, he0⟩ := List.exists_mem_of_ne_nil _ (hne c (List.mem_cons_self _ _))
        obtain ⟨e, he, rfl⟩ := mem_elems.1 he0
        refine ⟨e, by simp [he], Or.inr ?_⟩
        subst ha
        exact hv.rel_to_le (h1.2.2 _ he0 _ (List.mem_cons_self _ _))
      · obtain ⟨e, he, hr⟩ := preItems_ge_elem hv ks cs (List.pairwise_cons.1 h1.2.1).2
          (fun c hc => hne c (List.mem_cons_of_mem _ hc)) a ha
        exact ⟨e, by simp [he], hr⟩

theorem items_eq_preItems : ∀ (ks : List K) (cs : List (Node K V)) (c : Node K V),
    ks.length = cs.length → items ks (cs ++ [c]) = preItems ks cs ++ elems c := by
  intro ks cs c h
  have := items_split ks cs [] c [] h
  simpa [tailItems] using this

/-- Every item of a node is an entry below it or is `≥` some entry below it. -/
theorem items_ge_elem (hv : p.Valid) {ks : List K} {cs : List (Node K V)}
    (hl : cs.length = ks.length + 1)
    (h : (items ks cs).Pairwise p.rel) (hne : ∀ c ∈ cs, elems c ≠ []) :
    ∀ a ∈ items ks cs, ∃ e ∈ toListL cs, a = (false, e.1) ∨ p.comp e.1 a.2 ≤ 0 := by
  intro a ha
  have hcs : cs ≠ [] := by intro hc; subst hc; simp at hl
  obtain ⟨c, cs', rfl⟩ : ∃ c cs', cs = cs' ++ [c] :=
    ⟨cs.getLast hcs, cs.dropLast, (List.dropLast_append_getLast hcs).symm⟩
  rw [items_eq_preItems ks cs' c (by simpa using hl.symm)] at h ha
  rcases List.mem_append.1 ha with ha | ha
  · obtain ⟨e, he, hr⟩ := preItems_ge_elem hv ks cs' (List.pairwise_append.1 h).1
      (fun c hc => hne c (List.mem_append_left _ hc)) a ha
    exact ⟨e, by simp [toListL_append, he], hr⟩
  · obtain ⟨e, he, rfl⟩ := mem_elems.1 ha
    exact ⟨e, by simp [toListL_append, he], Or.inl rfl⟩

/-- Items of a well-formed internal node are before any key the entries below
it are before. -/
theorem items_rel_of_elems (hv : p.Valid) {ks : List K} {cs : List (Node K V)} {h : Nat}
    {minL minI : Nat} (hx : Wf p minL minI (h + 1) (internal ks cs)) (t : Bool) {k : K}
    (hk : ∀ e ∈ toListL cs, p.before e.1 k) : ∀ a ∈ items ks cs, p.rel a (t, k) := by
  cases hx with
  | internal _ _ h ks cs h1 h2 h3 h4 h5 =>
  intro a ha
  obtain ⟨e, he, hr⟩ := items_le_elem hv h5 (fun c hc => (h4 c hc).elems_ne_nil) a ha
  rcases hr with hr | hr
  · subst hr; exact hv.elem_rel (hk e he)
  · unfold Params.rel
    split
    · exact hv.comp_trans _ _ _ hr (hv.before_le (hk e he))
    · exact hv.before_of_le_of_before hr (hk e he)

/-- Items of a well-formed internal node are above any key the entries below
it are above. -/
theorem items_ge_of_elems (hv : p.Valid) {ks : List K} {cs : List (Node K V)} {h : Nat}
    {minL minI : Nat} (hx : Wf p minL minI (h + 1) (internal ks cs)) {k : K}
    (hk : ∀ e ∈ toListL cs, p.comp k e.1 ≤ 0) : ∀ a ∈ items ks cs, p.comp k a.2 ≤ 0 := by
  cases hx with
  | internal _ _ h ks cs h1 h2 h3 h4 h5 =>
  intro a ha
  obtain ⟨e, he, hr⟩ := items_ge_elem hv h3 h5 (fun c hc => (h4 c hc).elems_ne_nil) a ha
  rcases hr with hr | hr
  · subst hr; exact hk e he
  · exact hv.comp_trans _ _ _ (hk e he) hr

end Node

end BPlusTree

namespace BPlusTree

variable {K V : Type}

namespace Node

variable {p : Params K}

theorem items_pair (kl : List K) (cl : List (Node K V)) (k : K) (kr : List K)
    (y z : Node K V) (cr : List (Node K V)) (hlen : kl.length = cl.length) :
    items (kl ++ k :: kr) (cl ++ y :: z :: cr) =
      preItems kl cl ++ (elems y ++ (true, k) :: (elems z ++ tailItems kr cr)) := by
  rw [items_split kl cl (k :: kr) y (z :: cr) hlen, tailItems_cons]

/-- Replacing two adjacent children and the routing key between them, the
entries below staying the same in the same order. -/
theorem wf_reseparate (hv : p.Valid) {kl kr : List K} {cl cr : List (Node K V)} {k k' : K}
    {y z y' z' : Node K V} {minL minI h : Nat} (hlen : kl.length = cl.length)
    (hx : Wf p minL minI (h + 1) (internal (kl ++ k :: kr) (cl ++ y :: z :: cr)))
    (hy' : Wf p p.kLeafNodeMinKeys p.kInternalNodeMinKeys h y')
    (hz' : Wf p p.kLeafNodeMinKeys p.kInternalNodeMinKeys h z')
    (hel : elems y ++ elems z = elems y' ++ elems z')
    (hl : ∀ a ∈ elems y', p.rel a (true, k'))
    (hr : ∀ b ∈ elems z', p.comp k' b.2 ≤ 0) :
    Wf p minL minI (h + 1) (internal (kl ++ k' :: kr) (cl ++ y' :: z' :: cr)) := by
  cases hx with
  | internal _ _ h _ _ h1 h2 h3 h4 h5 =>
  refine Wf.internal _ _ h _ _ (by simpa using h1) (by simpa using h2) (by simpa using h3) ?_ ?_
  · intro c hc
    rcases List.mem_append.1 hc with hc | hc
    · exact h4 c (by simp [hc])
    · rcases List.mem_cons.1 hc with hc | hc
      · subst hc; exact hy'
      · rcases List.mem_cons.1 hc with hc | hc
        · subst hc; exact hz'
        · exact h4 c (by simp [hc])
  · rw [items_pair _ _ _ _ _ _ _ hlen] at h5 ⊢
    have hsub : (preItems kl cl ++ (elems y ++ (elems z ++ tailItems kr cr))).Sublist
        (preItems kl cl ++ (elems y ++ (true, k) :: (elems z ++ tailItems kr cr))) :=
      List.Sublist.append (List.Sublist.refl _)
        (List.Sublist.append (List.Sublist.refl _) (List.sublist_cons_self _ _))
    have h6 := h5.sublist hsub
    have h7 : ((preItems kl cl ++ elems y') ++ (elems z' ++ tailItems kr cr)).Pairwise p.rel := by
      have : preItems kl cl ++ (elems y ++ (elems z ++ tailItems kr cr)) =
          (preItems kl cl ++ elems y') ++ (elems z' ++ tailItems kr cr) := by
        rw [← List.append_assoc (elems y), hel]; simp
      rw [← this]; exact h6
    obtain ⟨e1, he1⟩ := List.exists_mem_of_ne_nil _ hy'.elems_ne_nil
    obtain ⟨e2, he2⟩ := List.exists_mem_of_ne_nil _ hz'.elems_ne_nil
    have h8 := List.pairwise_append.1 h7
    have := pairwise_insert_mid (x := ((true, k') : Bool × K)) h7 ?_ ?_
    · simpa [List.append_assoc] using this
    · intro a ha
      rcases List.mem_append.1 ha with ha | ha
      · have h9 := (List.pairwise_append.1 h8.1).2.2 a ha e1 he1
        exact hv.rel_trans_le h9 (hv.rel_to_le (hl e1 he1))
      · exact hl a ha
    · intro b hb
      apply hv.sep_rel
      rcases List.mem_append.1 hb with hb | hb
      · exact hr b hb
      · have h9 := (List.pairwise_append.1 h8.2.1).2.2 e2 he2 b hb
        exact hv.comp_trans _ _ _ (hr e2 he2) (hv.rel_to_le h9)

/-- Replacing two adjacent children by one holding the entries of both, the
routing key between them disappearing. -/
theorem wf_merged (_hv : p.Valid) {kl kr : List K} {cl cr : List (Node K V)} {k : K}
    {y z y' : Node K V} {minL minI h : Nat} (hlen : kl.length = cl.length)
    (hx : Wf p minL minI (h + 1) (internal (kl ++ k :: kr) (cl ++ y :: z :: cr)))
    (hy' : Wf p p.kLeafNodeMinKeys p.kInternalNodeMinKeys h y')
    (hel : elems y' = elems y ++ elems z) :
    Wf p minL (kl.length + kr.length) (h + 1) (internal (kl ++ kr) (cl ++ y' :: cr)) := by
  cases hx with
  | internal _ _ h _ _ h1 h2 h3 h4 h5 =>
  refine Wf.internal _ _ h _ _ (by simp) ?_ ?_ ?_ ?_
  · simp at h2 ⊢; omega
  · simp at h3 ⊢; omega
  · intro c hc
    rcases List.mem_append.1 hc with hc | hc
    · exact h4 c (by simp [hc])
    · rcases List.mem_cons.1 hc with hc | hc
      · subst hc; exact hy'
      · exact h4 c (by simp [hc])
  · rw [items_pair _ _ _ _ _ _ _ hlen] at h5
    rw [items_split kl cl kr y' cr hlen, hel]
    have hsub : (preItems kl cl ++ (elems y ++ (elems z ++ tailItems kr cr))).Sublist
        (preItems kl cl ++ (elems y ++ (true, k) :: (elems z ++ tailItems kr cr))) :=
      List.Sublist.append (List.Sublist.refl _)
        (List.Sublist.append (List.Sublist.refl _) (List.sublist_cons_self _ _))
    simpa [List.append_assoc] using h5.sublist hsub

/-- Facts a well-formed node gives about two adjacent children. -/
theorem pair_facts (hv : p.Valid) {kl kr : List K} {cl cr : List (Node K V)} {k : K}
    {y z : Node K V} {minL minI h : Nat} (hlen : kl.length = cl.length)
    (hx : Wf p minL minI (h + 1) (internal (kl ++ k :: kr) (cl ++ y :: z :: cr))) :
    Wf p p.kLeafNodeMinKeys p.kInternalNodeMinKeys h y ∧
    Wf p p.kLeafNodeMinKeys p.kInternalNodeMinKeys h z ∧
    (∀ a ∈ elems y, p.rel a (true, k)) ∧
    (∀ b ∈ elems z, p.comp k b.2 ≤ 0) ∧
    (∀ a ∈ elems y, ∀ b ∈ elems z, p.rel a b) := by
  cases hx with
  | internal _ _ h _ _ h1 h2 h3 h4 h5 =>
  rw [items_pair _ _ _ _ _ _ _ hlen] at h5
  have h6 := (List.pairwise_append.1 h5).2.1
  have h7 := List.pairwise_append.1 h6
  have h8 := List.pairwise_cons.1 h7.2.1
  refine ⟨h4 y (by simp), h4 z (by simp), ?_, ?_, ?_⟩
  · intro a ha; exact h7.2.2 a ha _ (List.mem_cons_self _ _)
  · intro b hb; exact hv.rel_to_le (h8.1 b (List.mem_append_left _ hb))
  · intro a ha b hb
    exact h7.2.2 a ha b (List.mem_cons_of_mem _ (List.mem_append_left _ hb))

end Node

end BPlusTree

namespace BPlusTree

variable {K V : Type}

namespace Node

variable {p : Params K}

theorem last_split {α : Type} {l : List α} {n : Nat} {a : α} (hn : l.length = n + 1)
    (ha : l[n]? = some a) : l = l.take n ++ [a] := by
  obtain ⟨h1, _, _⟩ := list_split_at ha
  have : l.drop (n + 1) = [] := by
    apply List.eq_nil_of_length_eq_zero
    simp; omega
  rw [this] at h1
  exact h1

theorem items_cons_cons (k : K) (ks : List K) (c : Node K V) (cs : List (Node K V))
    (hcs : cs ≠ []) : items (k :: ks) (c :: cs) = elems c ++ (true, k) :: items ks cs := by
  cases cs with
  | nil => exact absurd rfl hcs
  | cons c' cs => simp [items, tailItems]

theorem elems_internal_append (ks ks' : List K) (a b : List (Node K V)) :
    elems (internal ks (a ++ b)) = elems (internal ks' a) ++ elems (internal ks' b) := by
  simp [elems, toListL_append]

theorem elems_internal_cons (ks ks' : List K) (c : Node K V) (b : List (Node K V)) :
    elems (internal ks (c :: b)) = elems c ++ elems (internal ks' b) := by
  simp [elems]

theorem elems_internal_single (ks : List K) (c : Node K V) :
    elems (internal ks [c]) = elems c := by
  simp [elems]

theorem mem_elems_items {ks : List K} {cs : List (Node K V)} (hl : cs.length ≤ ks.length + 1)
    {a : Bool × K} (ha : a ∈ elems (internal ks cs)) : a ∈ items ks cs :=
  (elems_sublist_items ks cs hl).subset (by simpa [elems] using ha)

/-- Effect of `rebalance_left_to_right` between the adjacent children `y` (above
the minimum) and `z` (at the minimum). -/
theorem rebalance_left_to_right_spec (hv : p.Valid) {kl kr : List K}
    {cl cr : List (Node K V)} {k : K} {y z : Node K V} {minL minI h : Nat}
    (hlen : kl.length = cl.length)
    (hx : Wf p minL minI (h + 1) (internal (kl ++ k :: kr) (cl ++ y :: z :: cr)))
    (hy : y.minkeys p = false) (hz : z.minkeys p = true) :
    ∃ k' y' z' m,
      rebalance_left_to_right p (internal (kl ++ k :: kr) (cl ++ y :: z :: cr))
          (cl.length + 1) = .ok (internal (kl ++ k' :: kr) (cl ++ y' :: z' :: cr)) ∧
      Wf p minL minI (h + 1) (internal (kl ++ k' :: kr) (cl ++ y' :: z' :: cr)) ∧
      toList y = toList y' ++ m ∧ toList z' = m ++ toList z ∧ m ≠ [] ∧
      Wf p (p.kLeafNodeMinKeys + 1) (p.kInternalNodeMinKeys + 1) h z' := by
  obtain ⟨hyW, hzW, hyk, hkz, hyz⟩ := pair_facts hv hlen hx
  have hg0 : (cl ++ y :: z :: cr)[cl.length]? = some y := get_mid0 _ _ _
  have hg1 : (cl ++ y :: z :: cr)[cl.length + 1]? = some z := get_mid1 _ _ _ _
  have hgk : (kl ++ k :: kr)[cl.length]? = some k := by rw [← hlen]; exact get_mid0 _ _ _
  have hsetk : ∀ k', (kl ++ k :: kr).set cl.length k' = kl ++ k' :: kr := by
    intro k'; rw [← hlen]; exact set_mid0 _ _ _ _
  have hsetc : ∀ y' z', ((cl ++ y :: z :: cr).set cl.length y').set (cl.length + 1) z' =
      cl ++ y' :: z' :: cr := by
    intro y' z'; rw [set_mid0, set_mid1]
  unfold rebalance_left_to_right
  simp only [Nat.add_one_ne_zero, if_false, Nat.add_sub_cancel, List.get?_eq_getElem?, hg0, hg1,
    hgk, hsetk, hsetc]
  cases hyW with
  | leaf _ _ ye hy1 hy2 hy3 =>
    cases hzW with
    | leaf _ _ ze hz1 hz2 hz3 =>
    simp only [minkeys, beq_eq_false_iff_ne, ne_eq, beq_iff_eq] at hy hz
    have hmin := p.leafMin_pos
    have hmm := p.leafMin_lt_max
    have hn : ye.length = (ye.length - 1) + 1 := by omega
    have hlt : ye.length - 1 < ye.length := by omega
    have hget : ye[ye.length - 1]? = some ye[ye.length - 1] := List.getElem?_eq_getElem hlt
    generalize hedef : ye[ye.length - 1] = e at hget
    have hye := last_split hn hget
    have hc1 : ¬ (ze.length ≥ p.kLeafNodeMaxKeys) := by omega
    have hc2 : ¬ (ye.length = 0) := by omega
    simp only [hc1, hc2, if_false, hget]
    have hy3' : ((ye.take (ye.length - 1)).map Prod.fst ++ [e.1]).Pairwise p.before := by
      have := hy3
      rw [hye] at this
      simpa using this
    have hez : ∀ b ∈ ze, p.before e.1 b.1 := by
      intro b hb
      have := hyz (false, e.1) (by rw [elems_leaf, hye]; simp) (false, b.1)
        (by rw [elems_leaf]; exact List.mem_map_of_mem _ hb)
      simpa [Params.rel] using this
    have hz'W : Wf p (p.kLeafNodeMinKeys + 1) (p.kInternalNodeMinKeys + 1) 0
        (leaf (e :: ze) : Node K V) := by
      refine Wf.leaf _ _ _ (by simp; omega) (by simp; omega) ?_
      simp only [List.map_cons, List.pairwise_cons]
      refine ⟨?_, hz3⟩
      intro b hb
      obtain ⟨b', hb', rfl⟩ := List.mem_map.1 hb
      exact hez b' hb'
    refine ⟨e.1, leaf (ye.take (ye.length - 1)), leaf (e :: ze), [e], rfl, ?_, ?_, ?_, ?_, hz'W⟩
    · apply wf_reseparate hv hlen hx _ (hz'W.mono (by omega) (by omega))
      · simp only [elems_leaf]
        conv_lhs => rw [hye]
        simp
      · intro a ha
        rw [elems_leaf] at ha
        obtain ⟨a', ha', rfl⟩ := List.mem_map.1 ha
        apply hv.elem_rel
        exact (List.pairwise_append.1 hy3').2.2 a'.1 (List.mem_map_of_mem _ ha') e.1 (by simp)
      · intro b hb
        rw [elems_leaf] at hb
        simp only [List.map_cons, List.mem_cons, List.mem_map] at hb
        rcases hb with hb | ⟨b', hb', rfl⟩
        · subst hb; exact le_of_eq (hv.comp_self _)
        · exact hv.before_le (hez b' hb')
      · exact Wf.leaf _ _ _ (by simp; omega) (by simp; omega) (List.pairwise_append.1 hy3').1
    · simpa using hye
    · simp
    · simp
  | internal _ _ h yk yc hy1 hy2 hy3 hy4 hy5 =>
    cases hzW with
    | internal _ _ _ zk zc hz1 hz2 hz3 hz4 hz5 =>
    have hyW : Wf p p.kLeafNodeMinKeys p.kInternalNodeMinKeys (h + 1) (internal yk yc) :=
      Wf.internal _ _ h yk yc hy1 hy2 hy3 hy4 hy5
    have hzW : Wf p p.kLeafNodeMinKeys p.kInternalNodeMinKeys (h + 1) (internal zk zc) :=
      Wf.internal _ _ h zk zc hz1 hz2 hz3 hz4 hz5
    simp only [minkeys, beq_eq_false_iff_ne, ne_eq, beq_iff_eq] at hy hz
    have hmin := p.internalMin_pos
    have hmm := p.internalMin_lt_max
    have hn : yk.length = (yk.length - 1) + 1 := by omega
    have hlt : yk.length - 1 < yk.length := by omega
    have hget : yk[yk.length - 1]? = some yk[yk.length - 1] := List.getElem?_eq_getElem hlt
    generalize hkdef : yk[yk.length - 1] = ylast at hget
    have hyk' := last_split hn hget
    have hltc : yk.length < yc.length := by omega
    have hgetc : yc[yk.length]? = some yc[yk.length] := List.getElem?_eq_getElem hltc
    generalize hcdef : yc[yk.length] = ychild at hgetc
    have hyc' := last_split hy3 hgetc
    have hc1 : ¬ (zk.length ≥ p.kInternalNodeMaxKeys) := by omega
    have hc2 : ¬ (yk.length = 0) := by omega
    simp only [hc1, hc2, if_false, hget, hgetc]
    have hzcne : zc ≠ [] := by intro hc; subst hc; simp at hz3
    have hcut := items_cut (yk.take (yk.length - 1)) (yc.take yk.length) ylast [] [ychild]
      (by simp; omega) (by simp)
    rw [← hyk', ← hyc'] at hcut
    have hsingle : items ([] : List K) [ychild] = elems ychild := by simp [items, tailItems]
    rw [hsingle] at hcut
    have hy5' := hy5
    rw [hcut] at hy5'
    have hA := List.pairwise_append.1 hy5'
    have hB := List.pairwise_cons.1 hA.2.1
    have hchW : Wf p p.kLeafNodeMinKeys p.kInternalNodeMinKeys h ychild :=
      hy4 ychild (List.getElem?_mem hgetc)
    have hely : elems (internal yk yc) =
        elems (internal (yk.take (yk.length - 1)) (yc.take yk.length)) ++ elems ychild := by
      conv_lhs => rw [hyc']
      rw [elems_internal_append yk (yk.take (yk.length - 1)), elems_internal_single]
    have hy'W : Wf p p.kLeafNodeMinKeys p.kInternalNodeMinKeys (h + 1)
        (internal (yk.take (yk.length - 1)) (yc.take yk.length)) := by
      refine Wf.internal _ _ _ _ _ (by simp; omega) (by simp; omega) (by simp; omega) ?_ hA.1
      intro c hc; exact hy4 c (List.mem_of_mem_take hc)
    have hchk : ∀ a ∈ elems ychild, p.rel a (true, k) := by
      intro a ha; exact hyk a (by rw [hely]; exact List.mem_append_right _ ha)
    have hkz' : ∀ e ∈ toListL zc, p.comp k e.1 ≤ 0 := by
      intro e he
      exact hkz (false, e.1) (mem_elems.2 ⟨e, by simpa using he, rfl⟩)
    have hz'W : Wf p (p.kLeafNodeMinKeys + 1) (p.kInternalNodeMinKeys + 1) (h + 1)
        (internal (k :: zk) (ychild :: zc)) := by
      refine Wf.internal _ _ _ _ _ (by simp; omega) (by simp; omega) (by simp; omega) ?_ ?_
      · intro c hc
        rcases List.mem_cons.1 hc with hc | hc
        · subst hc; exact hchW
        · exact hz4 c hc
      · rw [items_cons_cons _ _ _ _ hzcne, List.pairwise_append]
        refine ⟨hchW.elems_pairwise, List.pairwise_cons.2 ⟨?_, hz5⟩, ?_⟩
        · intro b hb
          exact hv.sep_rel (items_ge_of_elems hv hzW hkz' b hb)
        · intro a ha b hb
          rcases List.mem_cons.1 hb with hb | hb
          · subst hb; exact hchk a ha
          · obtain ⟨e, he, hr⟩ := items_ge_elem hv hz3 hz5
              (fun c hc => (hz4 c hc).elems_ne_nil) b hb
            have hae := hyz a (by rw [hely]; exact List.mem_append_right _ ha) (false, e.1)
              (mem_elems.2 ⟨e, by simpa using he, rfl⟩)
            rcases hr with hr | hr
            · subst hr; exact hae
            · exact hv.rel_trans_le (t := b.1) hae hr
    refine ⟨ylast, internal (yk.take (yk.length - 1)) (yc.take yk.length),
      internal (k :: zk) (ychild :: zc), toList ychild, rfl, ?_, ?_, ?_, ?_, hz'W⟩
    · apply wf_reseparate hv hlen hx hy'W (hz'W.mono (by omega) (by omega))
      · rw [hely, elems_internal_cons (k :: zk) zk]
        simp
      · intro a ha
        exact hA.2.2 a (mem_elems_items (by simp; omega) ha) _ (List.mem_cons_self _ _)
      · intro b hb
        rw [elems_internal_cons (k :: zk) zk] at hb
        obtain ⟨e0, he0⟩ := List.exists_mem_of_ne_nil _ hchW.elems_ne_nil
        rcases List.mem_append.1 hb with hb | hb
        · exact hv.rel_to_le (hB.1 b hb)
        · have h1 := hv.rel_to_le (hB.1 e0 he0)
          have h2 := hyz e0 (by rw [hely]; exact List.mem_append_right _ he0) b hb
          exact hv.comp_trans _ _ _ h1 (hv.rel_to_le h2)
    · conv_lhs => rw [toList_internal, hyc', toListL_append]
      simp
    · simp
    · exact hchW.toList_ne_nil (Or.inl p.leafMin_pos)

end Node

end BPlusTree

namespace BPlusTree

variable {K V : Type}

namespace Node

variable {p : Params K}

theorem before_of_elems {a : K} {b : Bool × K} (h : p.rel (false, a) b) : p.before a b.2 := by
  simpa [Params.rel] using h

/-- Effect of `rebalance_right_to_left` between the adjacent children `y` (at the
minimum) and `z` (above the minimum). -/
theorem rebalance_right_to_left_spec (hv : p.Valid) {kl kr : List K}
    {cl cr : List (Node K V)} {k : K} {y z : Node K V} {minL minI h : Nat}
    (hlen : kl.length = cl.length)
    (hx : Wf p minL minI (h + 1) (internal (kl ++ k :: kr) (cl ++ y :: z :: cr)))
    (hy : y.minkeys p = true) (hz : z.minkeys p = false) :
    ∃ k' y' z' m,
      rebalance_right_to_left p (internal (kl ++ k :: kr) (cl ++ y :: z :: cr))
          cl.length = .ok (internal (kl ++ k' :: kr) (cl ++ y' :: z' :: cr)) ∧
      Wf p minL minI (h + 1) (internal (kl ++ k' :: kr) (cl ++ y' :: z' :: cr)) ∧
      toList y' = toList y ++ m ∧ toList z = m ++ toList z' ∧ m ≠ [] ∧
      Wf p (p.kLeafNodeMinKeys + 1) (p.kInternalNodeMinKeys + 1) h y' := by
  obtain ⟨hyW, hzW, hyk, hkz, hyz⟩ := pair_facts hv hlen hx
  have hg0 : (cl ++ y :: z :: cr)[cl.length]? = some y := get_mid0 _ _ _
  have hg1 : (cl ++ y :: z :: cr)[cl.length + 1]? = some z := get_mid1 _ _ _ _
  have hgk : (kl ++ k :: kr)[cl.length]? = some k := by rw [← hlen]; exact get_mid0 _ _ _
  have hsetk : ∀ k', (kl ++ k :: kr).set cl.length k' = kl ++ k' :: kr := by
    intro k'; rw [← hlen]; exact set_mid0 _ _ _ _
  have hsetc : ∀ y' z', ((cl ++ y :: z :: cr).set cl.length y').set (cl.length + 1) z' =
      cl ++ y' :: z' :: cr := by
    intro y' z'; rw [set_mid0, set_mid1]
  unfold rebalance_right_to_left
  simp only [List.get?_eq_getElem?, hg0, hg1, hgk, hsetk, hsetc]
  cases hyW with
  | leaf _ _ ye hy1 hy2 hy3 =>
    cases hzW with
    | leaf _ _ ze hz1 hz2 hz3 =>
    simp only [minkeys, beq_eq_false_iff_ne, ne_eq, beq_iff_eq] at hy hz
    have hmin := p.leafMin_pos
    have hmm := p.leafMin_lt_max
    have hc1 : ¬ (ye.length ≥ p.kLeafNodeMaxKeys) := by omega
    simp only [hc1, if_false]
    match ze, hz1, hz2, hz3, hz, hkz, hyz, hx with
    | [], hz1, _, _, hz, _, _, _ => simp at hz1; omega
    | [_], hz1, _, _, hz, _, _, _ => simp at hz1 hz; omega
    | e :: e' :: rest, hz1, hz2, hz3, hz, hkz, hyz, hx =>
      simp only [List.map_cons, List.pairwise_cons] at hz3
      have hye : ∀ a ∈ ye, ∀ b ∈ e :: e' :: rest, p.before a.1 b.1 := by
        intro a ha b hb
        exact before_of_elems (hyz (false, a.1) (by rw [elems_leaf]; exact List.mem_map_of_mem _ ha)
          (false, b.1) (by rw [elems_leaf]; exact List.mem_map_of_mem _ hb))
      have hy'W : Wf p (p.kLeafNodeMinKeys + 1) (p.kInternalNodeMinKeys + 1) 0
          (leaf (ye ++ [e]) : Node K V) := by
        refine Wf.leaf _ _ _ (by simp; omega) (by simp; omega) ?_
        simp only [List.map_append, List.map_cons, List.map_nil, List.pairwise_append,
          List.pairwise_cons, List.Pairwise.nil, and_true, List.mem_singleton, forall_eq,
          List.not_mem_nil, false_implies, implies_true, true_and]
        refine ⟨hy3, ?_⟩
        intro a ha
        obtain ⟨a', ha', rfl⟩ := List.mem_map.1 ha
        exact hye a' ha' e (by simp)
      have hz'W : Wf p p.kLeafNodeMinKeys p.kInternalNodeMinKeys 0
          (leaf (e' :: rest) : Node K V) := by
        refine Wf.leaf _ _ _ (by simp at hz1 hz ⊢; omega) (by simp at hz2 ⊢; omega) ?_
        simpa using hz3.2
      refine ⟨e'.1, leaf (ye ++ [e]), leaf (e' :: rest), [e], rfl, ?_, ?_, ?_, ?_, hy'W⟩
      · apply wf_reseparate hv hlen hx (hy'W.mono (by omega) (by omega)) hz'W
        · simp [elems_leaf]
        · intro a ha
          rw [elems_leaf] at ha
          simp only [List.map_append, List.map_cons, List.map_nil, List.mem_append, List.mem_map,
            List.mem_singleton] at ha
          rcases ha with ⟨a', ha', rfl⟩ | ha
          · exact hv.elem_rel (hye a' ha' e' (by simp))
          · subst ha
            exact hv.elem_rel (hz3.1 e'.1 (by simp))
        · intro b hb
          rw [elems_leaf] at hb
          simp only [List.map_cons, List.mem_cons, List.mem_map] at hb
          rcases hb with hb | ⟨b', hb', rfl⟩
          · subst hb; exact le_of_eq (hv.comp_self _)
          · exact hv.before_le (hz3.2.1 b'.1 (List.mem_map_of_mem _ hb'))
      · simp
      · simp
      · simp
  | internal _ _ h yk yc hy1 hy2 hy3 hy4 hy5 =>
    cases hzW with
    | internal _ _ _ zk zc hz1 hz2 hz3 hz4 hz5 =>
    have hyW : Wf p p.kLeafNodeMinKeys p.kInternalNodeMinKeys (h + 1) (internal yk yc) :=
      Wf.internal _ _ h yk yc hy1 hy2 hy3 hy4 hy5
    simp only [minkeys, beq_eq_false_iff_ne, ne_eq, beq_iff_eq] at hy hz
    have hmin := p.internalMin_pos
    have hmm := p.internalMin_lt_max
    have hc1 : ¬ (yk.length ≥ p.kInternalNodeMaxKeys) := by omega
    simp only [hc1, if_false]
    match zk, zc, hz1, hz2, hz3, hz4, hz5, hz, hkz, hyz, hx with
    | [], _, hz1, _, _, _, _, _, _, _, _ => simp at hz1; omega
    | _ :: _, [], _, _, hz3, _, _, _, _, _, _ => simp at hz3
    | zk0 :: zkrest, zc0 :: zcrest, hz1, hz2, hz3, hz4, hz5, hz, hkz, hyz, hx =>
      have hzcne : zcrest ≠ [] := by intro hc; subst hc; simp at hz3
      rw [items_cons_cons _ _ _ _ hzcne] at hz5
      have hA := List.pairwise_append.1 hz5
      have hB := List.pairwise_cons.1 hA.2.1
      have hc0W := hz4 zc0 (List.mem_cons_self _ _)
      have helz : elems (internal (zk0 :: zkrest) (zc0 :: zcrest)) =
          elems zc0 ++ elems (internal zkrest zcrest) := elems_internal_cons _ _ _ _
      have hz'W : Wf p p.kLeafNodeMinKeys p.kInternalNodeMinKeys (h + 1)
          (internal zkrest zcrest) := by
        refine Wf.internal _ _ _ _ _ (by simp at hz1 hz ⊢; omega) (by simp at hz2 ⊢; omega)
          (by simpa using hz3) ?_ hB.2
        intro c hc; exact hz4 c (List.mem_cons_of_mem _ hc)
      have hyk' : ∀ e ∈ toListL yc, p.before e.1 k := by
        intro e he
        exact before_of_elems (hyk (false, e.1) (mem_elems.2 ⟨e, by simpa using he, rfl⟩))
      have hy'W : Wf p (p.kLeafNodeMinKeys + 1) (p.kInternalNodeMinKeys + 1) (h + 1)
          (internal (yk ++ [k]) (yc ++ [zc0])) := by
        refine Wf.internal _ _ _ _ _ (by simp; omega) (by simp; omega) (by simp; omega) ?_ ?_
        · intro c hc
          rcases List.mem_append.1 hc with hc | hc
          · exact hy4 c hc
          · simp at hc; subst hc; exact hc0W
        · rw [items_cut yk yc k [] [zc0] hy3 (by simp)]
          have hsingle : items ([] : List K) [zc0] = elems zc0 := by simp [items, tailItems]
          rw [hsingle, List.pairwise_append]
          refine ⟨hy5, List.pairwise_cons.2 ⟨?_, hc0W.elems_pairwise⟩, ?_⟩
          · intro b hb
            exact hv.sep_rel (hkz b (by rw [helz]; exact List.mem_append_left _ hb))
          · intro a ha b hb
            rcases List.mem_cons.1 hb with hb | hb
            · subst hb; exact items_rel_of_elems hv hyW true hyk' a ha
            · obtain ⟨e, he, rfl⟩ := mem_elems.1 hb
              apply items_rel_of_elems hv hyW false _ a ha
              intro e' he'
              exact before_of_elems (hyz (false, e'.1) (mem_elems.2 ⟨e', by simpa using he', rfl⟩)
                (false, e.1) (by rw [helz]; exact List.mem_append_left _ (mem_elems.2 ⟨e, he, rfl⟩)))
      refine ⟨zk0, internal (yk ++ [k]) (yc ++ [zc0]), internal zkrest zcrest, toList zc0, rfl,
        ?_, ?_, ?_, ?_, hy'W⟩
      · apply wf_reseparate hv hlen hx (hy'W.mono (by omega) (by omega)) hz'W
        · rw [helz, elems_internal_append (yk ++ [k]) yk, elems_internal_single]
          simp
        · intro a ha
          rw [elems_internal_append (yk ++ [k]) yk, elems_internal_single] at ha
          obtain ⟨e0, he0⟩ := List.exists_mem_of_ne_nil _ hc0W.elems_ne_nil
          rcases List.mem_append.1 ha with ha | ha
          · have h1 := hyz a ha e0 (by rw [helz]; exact List.mem_append_left _ he0)
            exact hv.rel_trans_le h1 (hv.rel_to_le (hA.2.2 e0 he0 _ (List.mem_cons_self _ _)))
          · exact hA.2.2 a ha _ (List.mem_cons_self _ _)
        · intro b hb
          exact hv.rel_to_le (hB.1 b (mem_elems_items (by simp at hz3 ⊢; omega) hb))
      · simp [toListL_append]
      · simp
      · exact hc0W.toList_ne_nil (Or.inl p.leafMin_pos)

/-- Effect of `merge` on two adjacent children that are both at the minimum. -/
theorem merge_spec (hv : p.Valid) {kl kr : List K}
    {cl cr : List (Node K V)} {k : K} {y z : Node K V} {minL minI h : Nat}
    (hlen : kl.length = cl.length)
    (hx : Wf p minL minI (h + 1) (internal (kl ++ k :: kr) (cl ++ y :: z :: cr)))
    (hy : y.minkeys p = true) (hz : z.minkeys p = true) :
    ∃ y',
      merge p (internal (kl ++ k :: kr) (cl ++ y :: z :: cr)) cl.length =
        .ok (internal (kl ++ kr) (cl ++ y' :: cr)) ∧
      Wf p minL (kl.length + kr.length) (h + 1) (internal (kl ++ kr) (cl ++ y' :: cr)) ∧
      toList y' = toList y ++ toList z ∧
      Wf p (p.kLeafNodeMinKeys + 1) (p.kInternalNodeMinKeys + 1) h y' := by
  obtain ⟨hyW, hzW, hyk, hkz, hyz⟩ := pair_facts hv hlen hx
  have hg0 : (cl ++ y :: z :: cr)[cl.length]? = some y := get_mid0 _ _ _
  have hg1 : (cl ++ y :: z :: cr)[cl.length + 1]? = some z := get_mid1 _ _ _ _
  have hgk : (kl ++ k :: kr)[cl.length]? = some k := by rw [← hlen]; exact get_mid0 _ _ _
  have hek : (kl ++ k :: kr).eraseIdx cl.length = kl ++ kr := by
    rw [← hlen]; exact eraseIdx_mid0 _ _ _
  have hec : ∀ y', ((cl ++ y :: z :: cr).set cl.length y').eraseIdx (cl.length + 1) =
      cl ++ y' :: cr := by
    intro y'; rw [set_mid0, eraseIdx_mid1]
  unfold merge
  simp only [List.get?_eq_getElem?, hg0, hg1, hgk, hek, hec]
  cases hyW with
  | leaf _ _ ye hy1 hy2 hy3 =>
    cases hzW with
    | leaf _ _ ze hz1 hz2 hz3 =>
    simp only [minkeys, beq_iff_eq] at hy hz
    have hmin := p.leafMin_pos
    have hfit := p.leaf_merge_fits
    have hc1 : ¬ (ye.length + ze.length > p.kLeafNodeMaxKeys) := by omega
    simp only [hc1, if_false]
    have hy'W : Wf p (p.kLeafNodeMinKeys + 1) (p.kInternalNodeMinKeys + 1) 0
        (leaf (ye ++ ze) : Node K V) := by
      refine Wf.leaf _ _ _ (by simp; omega) (by simp; omega) ?_
      rw [List.map_append, List.pairwise_append]
      refine ⟨hy3, hz3, ?_⟩
      intro a ha b hb
      obtain ⟨a', ha', rfl⟩ := List.mem_map.1 ha
      obtain ⟨b', hb', rfl⟩ := List.mem_map.1 hb
      exact before_of_elems (hyz (false, a'.1) (by rw [elems_leaf]; exact List.mem_map_of_mem _ ha')
        (false, b'.1) (by rw [elems_leaf]; exact List.mem_map_of_mem _ hb'))
    refine ⟨leaf (ye ++ ze), rfl, ?_, by simp, hy'W⟩
    exact wf_merged hv hlen hx (hy'W.mono (by omega) (by omega)) (by simp [elems_leaf])
  | internal _ _ h yk yc hy1 hy2 hy3 hy4 hy5 =>
    cases hzW with
    | internal _ _ _ zk zc hz1 hz2 hz3 hz4 hz5 =>
    have hyW : Wf p p.kLeafNodeMinKeys p.kInternalNodeMinKeys (h + 1) (internal yk yc) :=
      Wf.internal _ _ h yk yc hy1 hy2 hy3 hy4 hy5
    have hzW : Wf p p.kLeafNodeMinKeys p.kInternalNodeMinKeys (h + 1) (internal zk zc) :=
      Wf.internal _ _ h zk zc hz1 hz2 hz3 hz4 hz5
    simp only [minkeys, beq_iff_eq] at hy hz
    have hmin := p.internalMin_pos
    have hfit := p.internal_merge_fits
    have hc1 : ¬ (yk.length + 1 + zk.length > p.kInternalNodeMaxKeys) := by omega
    simp only [hc1, if_false]
    have hzcne : zc ≠ [] := by intro hc; subst hc; simp at hz3
    have hyk' : ∀ e ∈ toListL yc, p.before e.1 k := by
      intro e he
      exact before_of_elems (hyk (false, e.1) (mem_elems.2 ⟨e, by simpa using he, rfl⟩))
    have hkz' : ∀ e ∈ toListL zc, p.comp k e.1 ≤ 0 := by
      intro e he
      exact hkz (false, e.1) (mem_elems.2 ⟨e, by simpa using he, rfl⟩)
    have hy'W : Wf p (p.kLeafNodeMinKeys + 1) (p.kInternalNodeMinKeys + 1) (h + 1)
        (internal (yk ++ k :: zk) (yc ++ zc)) := by
      refine Wf.internal _ _ _ _ _ (by simp; omega) (by simp; omega) (by simp; omega) ?_ ?_
      · intro c hc
        rcases List.mem_append.1 hc with hc | hc
        · exact hy4 c hc
        · exact hz4 c hc
      · rw [items_cut yk yc k zk zc hy3 hzcne, List.pairwise_append]
        refine ⟨hy5, List.pairwise_cons.2 ⟨?_, hz5⟩, ?_⟩
        · intro b hb
          exact hv.sep_rel (items_ge_of_elems hv hzW hkz' b hb)
        · intro a ha b hb
          rcases List.mem_cons.1 hb with hb | hb
          · subst hb; exact items_rel_of_elems hv hyW true hyk' a ha
          · obtain ⟨e, he, hr⟩ := items_ge_elem hv hz3 hz5
              (fun c hc => (hz4 c hc).elems_ne_nil) b hb
            have hae : p.rel a (b.1, e.1) := by
              apply items_rel_of_elems hv hyW b.1 _ a ha
              intro e' he'
              exact before_of_elems (hyz (false, e'.1) (mem_elems.2 ⟨e', by simpa using he', rfl⟩)
                (false, e.1) (mem_elems.2 ⟨e, by simpa using he, rfl⟩))
            rcases hr with hr | hr
            · subst hr; exact hv.rel_retag hae
            · exact hv.rel_trans_le (t := b.1) hae hr
    refine ⟨internal (yk ++ k :: zk) (yc ++ zc), rfl, ?_, by simp [toListL_append], hy'W⟩
    exact wf_merged hv hlen hx (hy'W.mono (by omega) (by omega))
      (by simp [elems, toListL_append])

end Node

end BPlusTree

namespace BPlusTree

variable {K V : Type}

namespace Node

variable {p : Params K}

theorem pair_split {α : Type} {l : List α} {j : Nat} {a b : α} (ha : l[j]? = some a)
    (hb : l[j + 1]? = some b) :
    l = l.take j ++ a :: b :: l.drop (j + 2) ∧ (l.take j).length = j := by
  obtain ⟨h1, h2, _⟩ := list_split_at ha
  obtain ⟨_, _, h3⟩ := list_split_at hb
  refine ⟨?_, h2⟩
  have h4 : l.drop (j + 1) = b :: l.drop (j + 2) := by
    rw [List.drop_eq_getElem_cons h3]
    have := List.getElem?_eq_getElem h3
    rw [this] at hb
    injection hb with hb
    rw [hb]
  rw [h4] at h1
  exact h1

theorem Wf.above_of_not_min {h : Nat} {c : Node K V}
    (hc : Wf p p.kLeafNodeMinKeys p.kInternalNodeMinKeys h c) (hm : c.minkeys p = false) :
    Wf p (p.kLeafNodeMinKeys + 1) (p.kInternalNodeMinKeys + 1) h c := by
  cases hc with
  | leaf _ _ es h1 h2 h3 =>
    simp only [minkeys, beq_eq_false_iff_ne, ne_eq] at hm
    exact Wf.leaf _ _ es (by omega) h2 h3
  | internal _ _ h ks cs h1 h2 h3 h4 h5 =>
    simp only [minkeys, beq_eq_false_iff_ne, ne_eq] at hm
    exact Wf.internal _ _ h ks cs (by omega) h2 h3 h4 h5

theorem Wf.not_min_of_above {h : Nat} {c : Node K V}
    (hc : Wf p (p.kLeafNodeMinKeys + 1) (p.kInternalNodeMinKeys + 1) h c) :
    c.minkeys p = false := by
  cases hc with
  | leaf _ _ es h1 h2 h3 =>
    simp only [minkeys, beq_eq_false_iff_ne, ne_eq]; omega
  | internal _ _ h ks cs h1 h2 h3 h4 h5 =>
    simp only [minkeys, beq_eq_false_iff_ne, ne_eq]; omega

/-- `rebalance_left_to_right(x, j + 1)` in terms of slots. -/
theorem l2r_at (hv : p.Valid) {ks : List K} {cs : List (Node K V)} {minL minI h j : Nat}
    {k : K} {y z : Node K V} (hx : Wf p minL minI (h + 1) (internal ks cs))
    (hk : ks[j]? = some k) (hy : cs[j]? = some y) (hz : cs[j + 1]? = some z)
    (hymin : y.minkeys p = false) (hzmin : z.minkeys p = true) :
    ∃ k' y' z' m,
      rebalance_left_to_right p (internal ks cs) (j + 1) =
        .ok (internal (ks.take j ++ k' :: ks.drop (j + 1))
              (cs.take j ++ y' :: z' :: cs.drop (j + 2))) ∧
      Wf p minL minI (h + 1) (internal (ks.take j ++ k' :: ks.drop (j + 1))
              (cs.take j ++ y' :: z' :: cs.drop (j + 2))) ∧
      toList y = toList y' ++ m ∧ toList z' = m ++ toList z ∧ m ≠ [] ∧
      Wf p (p.kLeafNodeMinKeys + 1) (p.kInternalNodeMinKeys + 1) h z' := by
  obtain ⟨hcs, hcl⟩ := pair_split hy hz
  obtain ⟨hks, hkl, _⟩ := list_split_at hk
  have hlen : (ks.take j).length = (cs.take j).length := by rw [hkl, hcl]
  have hx' := hx
  rw [hks, hcs] at hx'
  have := rebalance_left_to_right_spec hv hlen hx' hymin hzmin
  rw [hcl, ← hks, ← hcs] at this
  exact this

/-- `rebalance_right_to_left(x, j)` in terms of slots. -/
theorem r2l_at (hv : p.Valid) {ks : List K} {cs : List (Node K V)} {minL minI h j : Nat}
    {k : K} {y z : Node K V} (hx : Wf p minL minI (h + 1) (internal ks cs))
    (hk : ks[j]? = some k) (hy : cs[j]? = some y) (hz : cs[j + 1]? = some z)
    (hymin : y.minkeys p = true) (hzmin : z.minkeys p = false) :
    ∃ k' y' z' m,
      rebalance_right_to_left p (internal ks cs) j =
        .ok (internal (ks.take j ++ k' :: ks.drop (j + 1))
              (cs.take j ++ y' :: z' :: cs.drop (j + 2))) ∧
      Wf p minL minI (h + 1) (internal (ks.take j ++ k' :: ks.drop (j + 1))
              (cs.take j ++ y' :: z' :: cs.drop (j + 2))) ∧
      toList y' = toList y ++ m ∧ toList z = m ++ toList z' ∧ m ≠ [] ∧
      Wf p (p.kLeafNodeMinKeys + 1) (p.kInternalNodeMinKeys + 1) h y' := by
  obtain ⟨hcs, hcl⟩ := pair_split hy hz
  obtain ⟨hks, hkl, _⟩ := list_split_at hk
  have hlen : (ks.take j).length = (cs.take j).length := by rw [hkl, hcl]
  have hx' := hx
  rw [hks, hcs] at hx'
  have := rebalance_right_to_left_spec hv hlen hx' hymin hzmin
  rw [hcl, ← hks, ← hcs] at this
  exact this

/-- `merge(x, children[j], children[j + 1], j)` in terms of slots. -/
theorem merge_at (hv : p.Valid) {ks : List K} {cs : List (Node K V)} {minL minI h j : Nat}
    {k : K} {y z : Node K V} (hx : Wf p minL minI (h + 1) (internal ks cs))
    (hk : ks[j]? = some k) (hy : cs[j]? = some y) (hz : cs[j + 1]? = some z)
    (hymin : y.minkeys p = true) (hzmin : z.minkeys p = true) :
    ∃ y',
      merge p (internal ks cs) j =
        .ok (internal (ks.take j ++ ks.drop (j + 1)) (cs.take j ++ y' :: cs.drop (j + 2))) ∧
      Wf p minL (ks.length - 1) (h + 1)
        (internal (ks.take j ++ ks.drop (j + 1)) (cs.take j ++ y' :: cs.drop (j + 2))) ∧
      toList y' = toList y ++ toList z ∧
      Wf p (p.kLeafNodeMinKeys + 1) (p.kInternalNodeMinKeys + 1) h y' := by
  obtain ⟨hcs, hcl⟩ := pair_split hy hz
  obtain ⟨hks, hkl, hjlt⟩ := list_split_at hk
  have hlen : (ks.take j).length = (cs.take j).length := by rw [hkl, hcl]
  have hx' := hx
  rw [hks, hcs] at hx'
  have := merge_spec hv hlen hx' hymin hzmin
  rw [hcl, ← hks, ← hcs] at this
  have hl : (ks.take j).length + (ks.drop (j + 1)).length = ks.length - 1 := by
    simp; omega
  rw [hl] at this
  exact this

end Node

end BPlusTree

namespace BPlusTree

variable {K V : Type}

namespace Node

variable {p : Params K}

theorem absorbed_refl {cs : List (Node K V)} {i : Nat} {c : Node K V} (hc : cs[i]? = some c) :
    Absorbed cs i cs i :=
  ⟨c, c, [], [], hc, hc, by simp, by simp, by simp, fun _ => rfl⟩

theorem absorbed_l2r (L R : List (Node K V)) {y z y' z' : Node K V} {m : List (K × V)}
    (h1 : toList y = toList y' ++ m) (h2 : toList z' = m ++ toList z) :
    Absorbed (L ++ y :: z :: R) (L.length + 1) (L ++ y' :: z' :: R) (L.length + 1) := by
  refine ⟨z, z', m, [], get_mid1 _ _ _ _, get_mid1 _ _ _ _, ?_, by simp [h2], ?_, ?_⟩
  · rw [take_mid1, take_mid1]
    simp [toListL_append, h1]
  · rw [show L.length + 1 + 1 = L.length + 2 from rfl, drop_mid2, drop_mid2]; simp
  · intro _
    rw [show L.length + 1 + 1 = L.length + 2 from rfl, drop_mid2, drop_mid2]

theorem absorbed_r2l (L R : List (Node K V)) {y z y' z' : Node K V} {m : List (K × V)}
    (h1 : toList y' = toList y ++ m) (h2 : toList z = m ++ toList z') (hm : m ≠ []) :
    Absorbed (L ++ y :: z :: R) L.length (L ++ y' :: z' :: R) L.length := by
  refine ⟨y, y', [], m, get_mid0 _ _ _, get_mid0 _ _ _, ?_, by simp [h1], ?_, ?_⟩
  · rw [take_mid, take_mid]; simp
  · rw [drop_mid1, drop_mid1]; simp [h2]
  · intro h; exact absurd h hm

theorem absorbed_merge_right (L R : List (Node K V)) {y z y' : Node K V}
    (h : toList y' = toList y ++ toList z) :
    Absorbed (L ++ y :: z :: R) (L.length + 1) (L ++ y' :: R) L.length := by
  refine ⟨z, y', toList y, [], get_mid1 _ _ _ _, get_mid0 _ _ _, ?_, by simp [h], ?_, ?_⟩
  · rw [take_mid1, take_mid]
    simp [toListL_append]
  · rw [show L.length + 1 + 1 = L.length + 2 from rfl, drop_mid2, drop_mid1]; simp
  · intro _
    rw [show L.length + 1 + 1 = L.length + 2 from rfl, drop_mid2, drop_mid1]

theorem absorbed_merge_left (L R : List (Node K V)) {y z y' : Node K V}
    (h : toList y' = toList y ++ toList z) (hz : toList z ≠ []) :
    Absorbed (L ++ y :: z :: R) L.length (L ++ y' :: R) L.length := by
  refine ⟨y, y', [], toList z, get_mid0 _ _ _, get_mid0 _ _ _, ?_, by simp [h], ?_, ?_⟩
  · rw [take_mid, take_mid]; simp
  · rw [drop_mid1, drop_mid1]; simp
  · intro h'; exact absurd h' hz

theorem wf_raise_internal {minL minI h : Nat} {ks : List K} {cs : List (Node K V)}
    (hx : Wf p minL minI (h + 1) (internal ks cs)) :
    Wf p minL ks.length (h + 1) (internal ks cs) := by
  cases hx with
  | internal _ _ h ks cs h1 h2 h3 h4 h5 => exact Wf.internal _ _ h ks cs (le_refl _) h2 h3 h4 h5

theorem wf_cs_length {minL minI h : Nat} {ks : List K} {cs : List (Node K V)}
    (hx : Wf p minL minI (h + 1) (internal ks cs)) : cs.length = ks.length + 1 := by
  cases hx with
  | internal _ _ h ks cs h1 h2 h3 h4 h5 => exact h3

theorem toListL_pair (L R : List (Node K V)) (y z y' z' : Node K V)
    (h : toList y ++ toList z = toList y' ++ toList z') :
    toListL (L ++ y' :: z' :: R) = toListL (L ++ y :: z :: R) := by
  simp only [toListL_append, toListL_cons]
  rw [← List.append_assoc (toList y'), ← h]
  simp

theorem toListL_merged (L R : List (Node K V)) (y z y' : Node K V)
    (h : toList y' = toList y ++ toList z) :
    toListL (L ++ y' :: R) = toListL (L ++ y :: z :: R) := by
  simp [toListL_append, h]

end Node

end BPlusTree

namespace BPlusTree

variable {K V : Type}

namespace Node

variable {p : Params K}

theorem take_insert_len {α : Type} (l : List α) (j : Nat) (a : α) (r : List α)
    (hj : j ≤ l.length) : (l.take j ++ a :: r).take j = l.take j :=
  List.take_left' (by simp; omega)

theorem take_append_len {α : Type} (l : List α) (j : Nat) (r : List α)
    (hj : j ≤ l.length) : (l.take j ++ r).take j = l.take j :=
  List.take_left' (by simp; omega)

theorem take_eq_of_take_eq {α : Type} {l l' : List α} {n m : Nat} (h : l.take n = l'.take n)
    (hm : m ≤ n) : l.take m = l'.take m := by
  have h1 : (l.take n).take m = l.take m := by rw [List.take_take]; simp [Nat.min_eq_left hm]
  have h2 : (l'.take n).take m = l'.take m := by rw [List.take_take]; simp [Nat.min_eq_left hm]
  rw [← h1, ← h2, h]

/-- The merge branches of `try_rebalance_or_merge`. -/
theorem merge_and_shrink_spec (hv : p.Valid) {ks : List K} {cs : List (Node K V)}
    {minL minI h j i : Nat} {k : K} {y z : Node K V} (xIsRoot : Bool)
    (hx : Wf p minL minI (h + 1) (internal ks cs))
    (hk : ks[j]? = some k) (hy : cs[j]? = some y) (hz : cs[j + 1]? = some z)
    (hymin : y.minkeys p = true) (hzmin : z.minkeys p = true)
    (hroot : xIsRoot = true ∨ 2 ≤ ks.length)
    (hi : i = j + 1 ∨ (i = j ∧ j = 0)) :
    ∃ r, merge_and_shrink p (internal ks cs) xIsRoot j = .ok r ∧
      TrmPost p minL h xIsRoot ks cs i r := by
  obtain ⟨y', hm, hW, htl, hy'W⟩ := merge_at hv hx hk hy hz hymin hzmin
  obtain ⟨hcs, hcl⟩ := pair_split hy hz
  obtain ⟨hks, hkl, hjlt⟩ := list_split_at hk
  have hzW : Wf p p.kLeafNodeMinKeys p.kInternalNodeMinKeys h z := wf_child hx (List.getElem?_mem hz)
  have hlen' : (ks.take j ++ ks.drop (j + 1)).length = ks.length - 1 := by simp; omega
  have htoList : toListL (cs.take j ++ y' :: cs.drop (j + 2)) = toListL cs := by
    conv_rhs => rw [hcs]
    exact toListL_merged _ _ _ _ _ htl
  unfold merge_and_shrink
  simp only [hm, count, children, hlen']
  by_cases h0 : ks.length - 1 = 0
  · have hks1 : ks.length = 1 := by omega
    have hj0 : j = 0 := by omega
    subst hj0
    simp only [h0, beq_self_eq_true, if_true, List.take_zero, List.nil_append, List.head?_cons]
    have hr : xIsRoot = true := by
      rcases hroot with hr | hr
      · exact hr
      · omega
    simp only [hr, if_true]
    refine ⟨_, rfl, ?_, Or.inl ⟨rfl, rfl, hy'W.mono ?_ ?_⟩⟩
    · simp only
      have hcl2 := wf_cs_length hx
      have hdr : cs.drop 2 = [] := by
        apply List.eq_nil_of_length_eq_zero; simp; omega
      rw [← htoList]
      simp [hdr]
    · have := p.leafMin_pos; omega
    · have := p.internalMin_pos; omega
  · have h0' : ((ks.length - 1) == 0) = false := by simpa using h0
    simp only [h0', Bool.false_eq_true, if_false]
    refine ⟨_, rfl, htoList, Or.inr ⟨by simp, _, _, rfl, ?_, ?_, ?_, ?_, ?_, ?_, ?_, ?_, ?_, ?_, ?_⟩⟩
    · rw [hlen']; exact hW
    · rw [hlen']; omega
    · rw [hlen']; omega
    · rw [hlen']; omega
    · intro hc; exact absurd rfl hc
    · intro _
      show j + 1 = i ∨ (i = 0 ∧ j = 0)
      rcases hi with hi | ⟨hi, hj0⟩
      · left; omega
      · right; exact ⟨by omega, hj0⟩
    · have : i - 1 ≤ j := by rcases hi with hi | ⟨hi, hj0⟩ <;> omega
      exact take_eq_of_take_eq (n := j)
        (by rw [take_append_len ks j _ (by omega)]) this
    · intro hc; rcases hc with hc | hc <;> cases hc
    · intro hc; cases hc
    · refine ⟨y', ?_, hy'W⟩
      have := get_mid0 (cs.take j) y' (cs.drop (j + 2))
      rw [hcl] at this
      exact this
    · generalize cs.take j = L at hcl hcs ⊢
      generalize cs.drop (j + 2) = R at hcs ⊢
      subst hcs
      subst hcl
      rcases hi with hi | ⟨hi, hj0⟩
      · subst hi; exact absorbed_merge_right L R htl
      · subst hi
        exact absorbed_merge_left L R htl (hzW.toList_ne_nil (Or.inl p.leafMin_pos))

/-- The branches of `try_rebalance_or_merge` that borrow from the right sibling. -/
theorem r2l_case (hv : p.Valid) {ks : List K} {cs : List (Node K V)}
    {minL minI h i : Nat} {k : K} {y z : Node K V} (xIsRoot : Bool)
    (hx : Wf p minL minI (h + 1) (internal ks cs))
    (hk1 : 1 ≤ ks.length)
    (hk : ks[i]? = some k) (hy : cs[i]? = some y) (hz : cs[i + 1]? = some z)
    (hymin : y.minkeys p = true) (hzmin : z.minkeys p = false) :
    ∃ x', rebalance_right_to_left p (internal ks cs) i = .ok x' ∧
      TrmPost p minL h xIsRoot ks cs i (.kRebalancedRightToLeft, x', i) := by
  obtain ⟨k', y', z', m, hm, hW, h1, h2, hmne, hy'W⟩ := r2l_at hv hx hk hy hz hymin hzmin
  obtain ⟨hcs, hcl⟩ := pair_split hy hz
  obtain ⟨hks, hkl, hjlt⟩ := list_split_at hk
  have hlen' : (ks.take i ++ k' :: ks.drop (i + 1)).length = ks.length := by simp; omega
  have htoList : toListL (cs.take i ++ y' :: z' :: cs.drop (i + 2)) = toListL cs := by
    conv_rhs => rw [hcs]
    exact toListL_pair _ _ _ _ _ _ (by rw [h1, h2]; simp)
  have htake : (ks.take i ++ k' :: ks.drop (i + 1)).take i = ks.take i :=
    take_insert_len ks i k' _ (by omega)
  refine ⟨_, hm, htoList, Or.inr ⟨by simp, _, _, rfl, ?_, ?_, ?_, ?_, ?_, ?_, ?_, ?_, ?_, ?_, ?_⟩⟩
  · rw [hlen']; exact wf_raise_internal hW |>.mono (le_refl _) (by rw [hlen'])
  · rw [hlen']; exact hk1
  · rw [hlen']; omega
  · rw [hlen']
  · intro _; exact ⟨hlen', rfl⟩
  · intro hc; cases hc
  · exact take_eq_of_take_eq htake (by omega)
  · intro _; exact htake
  · intro hc; cases hc
  · refine ⟨y', ?_, hy'W⟩
    have := get_mid0 (cs.take i) y' (z' :: cs.drop (i + 2))
    rw [hcl] at this
    exact this
  · generalize cs.take i = L at hcl hcs ⊢
    generalize cs.drop (i + 2) = R at hcs ⊢
    subst hcs
    subst hcl
    exact absorbed_r2l L R h1 h2 hmne

/-- The branch of `try_rebalance_or_merge` that borrows from the left sibling. -/
theorem l2r_case (hv : p.Valid) {ks : List K} {cs : List (Node K V)}
    {minL minI h j : Nat} {k : K} {y z : Node K V} (xIsRoot : Bool)
    (hx : Wf p minL minI (h + 1) (internal ks cs))
    (hk1 : 1 ≤ ks.length)
    (hk : ks[j]? = some k) (hy : cs[j]? = some y) (hz : cs[j + 1]? = some z)
    (hymin : y.minkeys p = false) (hzmin : z.minkeys p = true) :
    ∃ x', rebalance_left_to_right p (internal ks cs) (j + 1) = .ok x' ∧
      TrmPost p minL h xIsRoot ks cs (j + 1) (.kRebalancedLeftToRight, x', j + 1) := by
  obtain ⟨k', y', z', m, hm, hW, h1, h2, hmne, hz'W⟩ := l2r_at hv hx hk hy hz hymin hzmin
  obtain ⟨hcs, hcl⟩ := pair_split hy hz
  obtain ⟨hks, hkl, hjlt⟩ := list_split_at hk
  have hlen' : (ks.take j ++ k' :: ks.drop (j + 1)).length = ks.length := by simp; omega
  have htoList : toListL (cs.take j ++ y' :: z' :: cs.drop (j + 2)) = toListL cs := by
    conv_rhs => rw [hcs]
    exact toListL_pair _ _ _ _ _ _ (by rw [h1, h2]; simp)
  have htake : (ks.take j ++ k' :: ks.drop (j + 1)).take j = ks.take j :=
    take_insert_len ks j k' _ (by omega)
  refine ⟨_, hm, htoList, Or.inr ⟨by simp, _, _, rfl, ?_, ?_, ?_, ?_, ?_, ?_, ?_, ?_, ?_, ?_, ?_⟩⟩
  · rw [hlen']; exact wf_raise_internal hW |>.mono (le_refl _) (by rw [hlen'])
  · rw [hlen']; exact hk1
  · rw [hlen']; omega
  · rw [hlen']
  · intro _; exact ⟨hlen', rfl⟩
  · intro hc; cases hc
  · simpa using htake
  · intro hc; rcases hc with hc | hc <;> cases hc
  · intro hc; cases hc
  · refine ⟨z', ?_, hz'W⟩
    have := get_mid1 (cs.take j) y' z' (cs.drop (j + 2))
    rw [hcl] at this
    exact this
  · generalize cs.take j = L at hcl hcs ⊢
    generalize cs.drop (j + 2) = R at hcs ⊢
    subst hcs
    subst hcl
    exact absorbed_l2r L R h1 h2

end Node

end BPlusTree

namespace BPlusTree

variable {K V : Type}

namespace Node

variable {p : Params K}

theorem get_some_of_lt {α : Type} (l : List α) (i : Nat) (h : i < l.length) :
    ∃ a, l[i]? = some a := ⟨l[i], List.getElem?_eq_getElem h⟩

/-- When the child at slot `i` is above the minimum, `try_rebalance_or_merge`
does nothing. -/
theorem try_rebalance_or_merge_noop {ks : List K} {cs : List (Node K V)} {i : Nat}
    {c : Node K V} (xIsRoot : Bool) (hc : cs[i]? = some c) (hmin : c.minkeys p = false) :
    try_rebalance_or_merge p (internal ks cs) xIsRoot i = .ok (.kNoop, internal ks cs, i) := by
  unfold try_rebalance_or_merge
  simp [children, hc, hmin]

/-- Effect of `try_rebalance_or_merge(x, root, i)` on a well-formed node. -/
theorem try_rebalance_or_merge_spec (hv : p.Valid) {ks : List K} {cs : List (Node K V)}
    {minL minI h i : Nat} (xIsRoot : Bool)
    (hx : Wf p minL minI (h + 1) (internal ks cs))
    (hk1 : 1 ≤ ks.length) (hi : i ≤ ks.length)
    (hroot : xIsRoot = true ∨ 2 ≤ ks.length) :
    ∃ r, try_rebalance_or_merge p (internal ks cs) xIsRoot i = .ok r ∧
      TrmPost p minL h xIsRoot ks cs i r := by
  have hcl := wf_cs_length hx
  obtain ⟨c, hc⟩ := get_some_of_lt cs i (by omega)
  have hcW : Wf p p.kLeafNodeMinKeys p.kInternalNodeMinKeys h c :=
    wf_child hx (List.getElem?_mem hc)
  by_cases hmin : c.minkeys p = true
  · unfold try_rebalance_or_merge
    simp only [children, List.get?_eq_getElem?, hc, hmin, if_true, count]
    by_cases hpos : i > 0
    · simp only [hpos, if_true]
      obtain ⟨j, rfl⟩ : ∃ j, i = j + 1 := ⟨i - 1, by omega⟩
      simp only [Nat.add_sub_cancel]
      obtain ⟨l, hl⟩ := get_some_of_lt cs j (by omega)
      obtain ⟨k, hk⟩ := get_some_of_lt ks j (by omega)
      simp only [hl]
      by_cases hlmin : l.minkeys p = true
      · simp only [hlmin, Bool.not_true, Bool.false_eq_true, if_false]
        have hmerge : ∃ r, merge_and_shrink p (internal ks cs) xIsRoot j = .ok r ∧
            TrmPost p minL h xIsRoot ks cs (j + 1) r :=
          merge_and_shrink_spec hv xIsRoot hx hk hl hc hlmin hmin hroot (Or.inl rfl)
        by_cases hright : j + 1 < ks.length
        · simp only [hright, if_true]
          obtain ⟨r, hr⟩ := get_some_of_lt cs (j + 1 + 1) (by omega)
          obtain ⟨k2, hk2⟩ := get_some_of_lt ks (j + 1) (by omega)
          simp only [hr]
          by_cases hrmin : r.minkeys p = true
          · simp only [hrmin, Bool.not_true]
            exact hmerge
          · have hrmin' : r.minkeys p = false := by simpa using hrmin
            simp only [hrmin', Bool.not_false]
            obtain ⟨x', hx', hpost⟩ := r2l_case hv xIsRoot hx hk1 hk2 hc hr hmin hrmin'
            simp only [hx']
            exact ⟨_, rfl, hpost⟩
        · simp only [hright, if_false]
          exact hmerge
      · have hlmin' : l.minkeys p = false := by simpa using hlmin
        simp only [hlmin', Bool.not_false, if_true]
        obtain ⟨x', hx', hpost⟩ := l2r_case hv xIsRoot hx hk1 hk hl hc hlmin' hmin
        simp only [hx']
        exact ⟨_, rfl, hpost⟩
    · have hi0 : i = 0 := by omega
      subst hi0
      simp only [gt_iff_lt, lt_self_iff_false, if_false, zero_add]
      obtain ⟨r, hr⟩ := get_some_of_lt cs 1 (by omega)
      obtain ⟨k, hk⟩ := get_some_of_lt ks 0 (by omega)
      simp only [hr]
      by_cases hrmin : r.minkeys p = true
      · simp only [hrmin, Bool.not_true, Bool.false_eq_true, if_false]
        exact merge_and_shrink_spec hv xIsRoot hx hk hc hr hmin hrmin hroot (Or.inr ⟨rfl, rfl⟩)
      · have hrmin' : r.minkeys p = false := by simpa using hrmin
        simp only [hrmin', Bool.not_false, if_true]
        obtain ⟨x', hx', hpost⟩ := r2l_case hv xIsRoot hx hk1 hk hc hr hmin hrmin'
        simp only [hx']
        exact ⟨_, rfl, hpost⟩
  · have hmin' : c.minkeys p = false := by simpa using hmin
    rw [try_rebalance_or_merge_noop xIsRoot hc hmin']
    refine ⟨_, rfl, by simp, Or.inr ⟨by simp, ks, cs, rfl, wf_raise_internal hx, hk1, by omega,
      le_refl _, ?_, ?_, rfl, ?_, ?_, ?_, absorbed_refl hc⟩⟩
    · intro _; exact ⟨rfl, rfl⟩
    · intro hc'; cases hc'
    · intro _; rfl
    · intro _; rfl
    · exact ⟨c, hc, hcW.above_of_not_min hmin'⟩

end Node

end BPlusTree

namespace BPlusTree

variable {K V : Type}

namespace Node

variable {p : Params K}

@[simp] theorem setChild_internal (ks : List K) (cs : List (Node K V)) (i : Nat) (c : Node K V) :
    (internal ks cs).setChild i c = internal ks (cs.set i c) := rfl

/-- Replacing a child by one whose entries are a sublist of the old ones. -/
theorem wf_set_child_sublist {ks : List K} {cs : List (Node K V)} {minL minI h i : Nat}
    {c c' : Node K V} (hx : Wf p minL minI (h + 1) (internal ks cs))
    (hc : cs[i]? = some c) (hc' : Wf p p.kLeafNodeMinKeys p.kInternalNodeMinKeys h c')
    (hsub : (elems c').Sublist (elems c)) :
    Wf p minL minI (h + 1) (internal ks (cs.set i c')) := by
  apply wf_set_child hx hc hc'
  have hcl := wf_cs_length hx
  cases hx with
  | internal _ _ h ks cs h1 h2 h3 h4 h5 =>
  rw [items_at hcl hc] at h5
  exact h5.sublist (List.Sublist.append (List.Sublist.refl _)
    (List.Sublist.append hsub (List.Sublist.refl _)))

theorem firstLeafAbove_of_above {s : Node K V}
    (hs : Wf p (p.kLeafNodeMinKeys + 1) (p.kInternalNodeMinKeys + 1) 0 s) :
    FirstLeafAbove p s := by
  cases hs with
  | leaf _ _ es h1 h2 h3 => simp only [FirstLeafAbove]; omega

/-- Effect of the left-spine walk of `try_rebalance_or_merge_subtree` on a
subtree whose top node is above the minimum. -/
theorem rebalance_spine_spec (hv : p.Valid) :
    ∀ (fuel h : Nat) (s : Node K V),
      Wf p (p.kLeafNodeMinKeys + 1) (p.kInternalNodeMinKeys + 1) h s → h < fuel →
      ∃ s', rebalance_spine p fuel s = .ok s' ∧
        Wf p p.kLeafNodeMinKeys p.kInternalNodeMinKeys h s' ∧
        toList s' = toList s ∧ FirstLeafAbove p s' := by
  intro fuel
  induction fuel with
  | zero => intro h s _ hf; omega
  | succ fuel ih =>
    intro h s hs hf
    cases hs with
    | leaf _ _ es h1 h2 h3 =>
      refine ⟨leaf es, by simp [rebalance_spine], Wf.leaf _ _ es (by omega) h2 h3, rfl, ?_⟩
      simp only [FirstLeafAbove]; omega
    | internal _ _ h ks cs h1 h2 h3 h4 h5 =>
      have hx : Wf p (p.kLeafNodeMinKeys + 1) (p.kInternalNodeMinKeys + 1) (h + 1)
          (internal ks cs) := Wf.internal _ _ h ks cs h1 h2 h3 h4 h5
      have hmin := p.internalMin_pos
      obtain ⟨r, hr, hpost⟩ := try_rebalance_or_merge_spec hv false hx (by omega)
        (Nat.zero_le _) (Or.inr (by omega))
      obtain ⟨opres, x', i'⟩ := r
      unfold rebalance_spine
      simp only [hr]
      obtain ⟨htl, hcase⟩ := hpost
      rcases hcase with ⟨_, hroot, _⟩ | ⟨hns, ks', cs', hx', hW, hk1, hk2, hk3, hnm, hm, _, _, _,
        ⟨c', hc', hc'W⟩, habs⟩
      · simp at hroot
      · simp only at hx' hc' hnm hm htl habs
        subst hx'
        have hi0 : i' = 0 := by
          by_cases hmerged : opres = .kMerged
          · rcases hm hmerged with h | h
            · omega
            · exact h.2
          · exact (hnm hmerged).2
        subst hi0
        have hcs' : ∃ rest, cs' = c' :: rest := by
          cases cs' with
          | nil => simp at hc'
          | cons a rest => simp at hc'; subst hc'; exact ⟨rest, rfl⟩
        obtain ⟨rest, rfl⟩ := hcs'
        simp only [children, List.head?_cons]
        obtain ⟨s', hs', hs'W, hs'tl, hs'fla⟩ := ih h c' hc'W (by omega)
        simp only [hs', setChild_internal, List.set_cons_zero]
        have hW' : Wf p p.kLeafNodeMinKeys p.kInternalNodeMinKeys (h + 1)
            (internal ks' (c' :: rest)) := hW.mono (by omega) (by omega)
        have := wf_set_child_sublist hW' hc' hs'W
          (by simp only [elems, hs'tl]; exact List.Sublist.refl _)
        simp only [List.set_cons_zero] at this
        refine ⟨_, rfl, this, ?_, ?_⟩
        · simp only [toList_internal] at htl ⊢
          rw [← htl]; simp [hs'tl]
        · simpa [FirstLeafAbove] using hs'fla

/-- Effect of removing slot 0 of the leftmost leaf below a well-formed node
when its key compares equal to `key`. -/
theorem erase_first_spec (_hv : p.Valid) (key : K) :
    ∀ (h : Nat) (s : Node K V), Wf p p.kLeafNodeMinKeys p.kInternalNodeMinKeys h s →
      ∃ e rest, toList s = e :: rest ∧
        ((p.comp key e.1 ≠ 0 ∧ erase_first p.comp key s = .ok (false, s)) ∨
         (p.comp key e.1 = 0 ∧ ∃ s', erase_first p.comp key s = .ok (true, s') ∧
            toList s' = rest ∧
            (FirstLeafAbove p s → Wf p p.kLeafNodeMinKeys p.kInternalNodeMinKeys h s'))) := by
  intro h
  induction h with
  | zero =>
    intro s hs
    cases hs with
    | leaf _ _ es h1 h2 h3 =>
      have hmin := p.leafMin_pos
      cases es with
      | nil => simp at h1; omega
      | cons e rest =>
        refine ⟨e, rest, rfl, ?_⟩
        by_cases hk : p.comp key e.1 = 0
        · right
          refine ⟨hk, leaf rest, by simp [erase_first, hk], rfl, ?_⟩
          intro hfla
          simp only [FirstLeafAbove, List.length_cons] at hfla
          refine Wf.leaf _ _ rest (by omega) (by simp at h2; omega) ?_
          simp only [List.map_cons, List.pairwise_cons] at h3
          exact h3.2
        · left
          exact ⟨hk, by simp [erase_first, hk]⟩
  | succ h ih =>
    intro s hs
    cases hs with
    | internal _ _ _ ks cs h1 h2 h3 h4 h5 =>
      have hx : Wf p p.kLeafNodeMinKeys p.kInternalNodeMinKeys (h + 1) (internal ks cs) :=
        Wf.internal _ _ h ks cs h1 h2 h3 h4 h5
      cases cs with
      | nil => simp at h3
      | cons c cs =>
        obtain ⟨e, rest, htl, hcase⟩ := ih c (h4 c (List.mem_cons_self _ _))
        refine ⟨e, rest ++ toListL cs, by simp [htl], ?_⟩
        rcases hcase with ⟨hk, he⟩ | ⟨hk, s', he, hs'tl, hs'W⟩
        · left
          exact ⟨hk, by simp [erase_first, he]⟩
        · right
          refine ⟨hk, internal ks (s' :: cs), by simp [erase_first, he], by simp [hs'tl], ?_⟩
          intro hfla
          simp only [FirstLeafAbove] at hfla
          have hsub : (elems s').Sublist (elems c) := by
            simp only [elems, hs'tl, htl]
            exact (List.sublist_cons_self _ _).map _
          have := wf_set_child_sublist (i := 0) (c := c) hx (by simp) (hs'W hfla) hsub
          simpa using this

end Node

end BPlusTree

namespace BPlusTree

variable {K V : Type}

namespace Node

variable {p : Params K}

theorem take_set_self {α : Type} {l : List α} {i : Nat} {a : α} (b : α) (h : l[i]? = some a) :
    (l.set i b).take i = l.take i ∧ (l.set i b).drop (i + 1) = l.drop (i + 1) ∧
    (l.set i b)[i]? = some b := by
  obtain ⟨_, hlen, _⟩ := list_split_at h
  rw [set_eq_of_get b h]
  refine ⟨List.take_left' hlen, ?_, ?_⟩
  · have := drop_mid1 (l.take i) b (l.drop (i + 1))
    rw [hlen] at this
    exact this
  · have := get_mid0 (l.take i) b (l.drop (i + 1))
    rw [hlen] at this
    exact this

theorem absorbed_set {cs cs' : List (Node K V)} {i i' : Nat} {c' s' : Node K V}
    (h : Absorbed cs i cs' i') (hc' : cs'[i']? = some c') (hs : toList s' = toList c') :
    Absorbed cs i (cs'.set i' s') i' := by
  obtain ⟨c, c'', a, b, h1, h2, h3, h4, h5, h6⟩ := h
  rw [hc'] at h2
  injection h2 with h2
  subst h2
  obtain ⟨ht, hd, hg⟩ := take_set_self s' hc'
  refine ⟨c, s', a, b, h1, hg, ?_, ?_, ?_, ?_⟩
  · rw [ht]; exact h3
  · rw [hs]; exact h4
  · rw [hd]; exact h5
  · intro hb; rw [hd]; exact h6 hb

/-- Effect of `try_rebalance_or_merge_subtree(x, root, j)` on a well-formed node. -/
theorem try_rebalance_or_merge_subtree_spec (hv : p.Valid) {ks : List K}
    {cs : List (Node K V)} {minL minI h j : Nat} (xIsRoot : Bool)
    (hx : Wf p minL minI (h + 1) (internal ks cs))
    (hk1 : 1 ≤ ks.length) (hj : j ≤ ks.length) (hj0 : 0 < j)
    (hroot : xIsRoot = true ∨ 2 ≤ ks.length) :
    ∃ opres x', try_rebalance_or_merge_subtree p (internal ks cs) xIsRoot j = .ok (opres, x') ∧
      toList x' = toListL cs ∧
      ((opres = .kShrinked ∧ xIsRoot = true ∧ Wf p 1 1 h x') ∨
       (opres = .kMerged ∧ TrmPost p minL h xIsRoot ks cs j (.kMerged, x', j - 1)) ∨
       (opres ≠ .kShrinked ∧ opres ≠ .kMerged ∧ ∃ ks' cs' s', x' = internal ks' cs' ∧
          Wf p minL ks'.length (h + 1) (internal ks' cs') ∧ ks'.length = ks.length ∧
          ks'.take (j - 1) = ks.take (j - 1) ∧
          (opres ≠ .kRebalancedLeftToRight → ks'.take j = ks.take j) ∧
          cs'[j]? = some s' ∧ FirstLeafAbove p s' ∧ Absorbed cs j cs' j)) := by
  obtain ⟨r, hr, hpost⟩ := try_rebalance_or_merge_spec hv xIsRoot hx hk1 hj hroot
  obtain ⟨opres, x1, i'⟩ := r
  have hpost' := hpost
  obtain ⟨htl, hcase⟩ := hpost
  unfold try_rebalance_or_merge_subtree
  simp only [hr]
  rcases hcase with ⟨hs, hroot', hW⟩ | ⟨hns, ks', cs', hx', hW, hk1', hk2, hk3, hnm, hm, htk, htk2, _,
      ⟨c', hc', hc'W⟩, habs⟩
  · simp only at hs hW htl
    subst hs
    exact ⟨_, _, rfl, htl, Or.inl ⟨rfl, hroot', hW⟩⟩
  · simp only at hns hx' hnm hm htk2 hc' habs htl
    subst hx'
    by_cases hmerged : opres = .kMerged
    · subst hmerged
      refine ⟨_, _, rfl, htl, Or.inr (Or.inl ⟨rfl, ?_⟩)⟩
      have : i' = j - 1 := by
        rcases hm rfl with h | h
        · omega
        · omega
      subst this
      exact hpost'
    · obtain ⟨hlen, hi'⟩ := hnm hmerged
      subst hi'
      have hh := hc'W.height_eq
      obtain ⟨s', hs', hs'W, hs'tl, hs'fla⟩ :=
        rebalance_spine_spec hv (c'.height + 1) h c' hc'W (by omega)
      obtain ⟨_, _, hg⟩ := take_set_self s' hc'
      refine ⟨opres, internal ks' (cs'.set i' s'), ?_, ?_,
        Or.inr (Or.inr ⟨hns, hmerged, ks', cs'.set i' s', s', rfl, ?_, hlen,
        htk, ?_, hg, hs'fla, absorbed_set habs hc' hs'tl⟩)⟩
      · clear hpost' habs htk htk2 hnm hm hr htl
        cases opres <;> simp_all [children]
      · simp only [toList_internal] at htl ⊢
        rw [← htl, (toList_set_child s' hc').2, (toList_set_child s' hc').1, hs'tl]
      · exact wf_set_child_sublist hW hc' hs'W
          (by simp only [elems, hs'tl]; exact List.Sublist.refl _)
      · intro hnl
        apply htk2
        cases opres <;> simp_all

end Node

end BPlusTree

namespace BPlusTree

variable {K V : Type}

/-! ### Reference removal -/

theorem refErase_append_left (comp : K → K → Int) (key : K) {l : List (K × V)}
    (r : List (K × V)) (h : ∀ e ∈ l, comp e.1 key ≠ 0) :
    refErase comp key (l ++ r) = l ++ refErase comp key r := by
  induction l with
  | nil => rfl
  | cons e l ih =>
    have he := h e (List.mem_cons_self _ _)
    have ih' := ih (fun e' he' => h e' (List.mem_cons_of_mem _ he'))
    simp only [List.cons_append, refErase, he, if_false]
    exact congrArg (List.cons e) ih'

theorem refErase_append_mem (comp : K → K → Int) (key : K) {l : List (K × V)}
    (r : List (K × V)) (h : ∃ e ∈ l, comp e.1 key = 0) :
    refErase comp key (l ++ r) = refErase comp key l ++ r := by
  induction l with
  | nil => obtain ⟨e, he, _⟩ := h; simp at he
  | cons e l ih =>
    by_cases he : comp e.1 key = 0
    · simp [refErase, he]
    · obtain ⟨e', he', hk⟩ := h
      rcases List.mem_cons.1 he' with h1 | h1
      · subst h1; exact absurd hk he
      · have ih' := ih ⟨e', h1, hk⟩
        simp only [List.cons_append, refErase, he, if_false]
        exact congrArg (List.cons e) ih'

theorem refErase_of_not_mem (comp : K → K → Int) (key : K) {l : List (K × V)}
    (h : ∀ e ∈ l, comp e.1 key ≠ 0) : refErase comp key l = l := by
  have := refErase_append_left comp key [] h
  simpa [refErase] using this

theorem refErase_sublist (comp : K → K → Int) (key : K) (l : List (K × V)) :
    (refErase comp key l).Sublist l := by
  induction l with
  | nil => simp [refErase]
  | cons e l ih =>
    simp only [refErase]
    split
    · exact List.sublist_cons_self _ _
    · exact List.Sublist.cons₂ _ ih

theorem refErase_length (comp : K → K → Int) (key : K) {l : List (K × V)}
    (h : ∃ e ∈ l, comp e.1 key = 0) : (refErase comp key l).length + 1 = l.length := by
  induction l with
  | nil => obtain ⟨e, he, _⟩ := h; simp at he
  | cons e l ih =>
    by_cases he : comp e.1 key = 0
    · simp [refErase, he]
    · simp only [refErase, he, if_false, List.length_cons]
      obtain ⟨e', he', hk⟩ := h
      rcases List.mem_cons.1 he' with h1 | h1
      · subst h1; exact absurd hk he
      · rw [ih ⟨e', h1, hk⟩]

namespace Node

variable {p : Params K}

/-- The descent condition survives `try_rebalance_or_merge`. -/
theorem ready_absorbed {key : K} {flag : Bool} {cs cs' : List (Node K V)} {i i' : Nat}
    (hr : EraseReady p key flag cs i) (ha : Absorbed cs i cs' i') :
    EraseReady p key flag cs' i' := by
  obtain ⟨c, c', a, b, h1, h2, h3, h4, h5, h6⟩ := ha
  obtain ⟨hL, hD⟩ := hr
  refine ⟨?_, ?_⟩
  · intro e he
    exact hL e (by rw [h3]; exact List.mem_append_left _ he)
  · rcases hD with hD | ⟨c0, e, hc0, he, hk⟩ | ⟨hf, hd, ⟨s, hs, hfla⟩, hR⟩
    · left
      intro e he
      exact hD e (by rw [h5]; exact List.mem_append_right _ he)
    · right; left
      rw [h1] at hc0
      injection hc0 with hc0
      subst hc0
      exact ⟨c', e, h2, by rw [h4]; simp [he], hk⟩
    · cases b with
      | nil =>
        right; right
        have hdrop := h6 rfl
        refine ⟨hf, hd, ⟨s, ?_, hfla⟩, ?_⟩
        · have h7 : (cs'.drop (i' + 1))[0]? = (cs.drop (i + 1))[0]? := by rw [hdrop]
          simpa [List.getElem?_drop] using h7.trans (by simpa [List.getElem?_drop] using hs)
        · rw [hdrop]; exact hR
      | cons e0 b =>
        right; left
        refine ⟨c', e0, h2, by rw [h4]; simp, ?_⟩
        exact hR e0 (by rw [h5]; simp)

end Node

end BPlusTree

namespace BPlusTree

variable {K V : Type}

namespace Node

variable {p : Params K}

theorem lt_of_le_of_ne (hv : p.Valid) {a b : K} (h1 : p.comp a b ≤ 0) (h2 : p.comp b a ≠ 0) :
    p.comp a b < 0 := by
  have := hv.zero_iff a b
  by_contra hc
  have h3 : p.comp a b = 0 := by omega
  exact h2 (this.1 h3)

theorem ne_of_lt (hv : p.Valid) {a b : K} (h1 : p.comp a b < 0) : p.comp b a ≠ 0 := by
  have := hv.zero_iff b a
  intro hc
  have := this.1 hc
  omega

theorem ne_of_gt (_hv : p.Valid) {a b : K} (h1 : p.comp a b < 0) : p.comp a b ≠ 0 := by
  omega

/-- One level of the way back up in `erase`: lifting the outcome below child
`i` to the parent. -/
theorem erase_combine (hv : p.Valid) {key : K} {ks : List K} {cs : List (Node K V)}
    {minL minI h i : Nat} {flag' flagIn : Bool} {c : Node K V} {r : EraseStep K V}
    (hx : Wf p minL minI (h + 1) (internal ks cs)) (hc : cs[i]? = some c)
    (hready : EraseReady p key flag' cs i)
    (hin : flagIn = true → flag' = true ∨ ∃ e ∈ toList c, p.comp key e.1 ≤ 0)
    (hr : ErasePostG p key (Wf p p.kLeafNodeMinKeys p.kInternalNodeMinKeys h) (toList c) flag' r) :
    ∃ r', erase_up p key (internal ks cs) i r = .ok r' ∧
      ErasePostG p key (Wf p minL minI (h + 1)) (toListL cs) flagIn r' := by
  obtain ⟨hL, hD⟩ := hready
  have hcl := wf_cs_length hx
  have hsorted := hx.sorted
  simp only [toList_internal] at hsorted
  obtain ⟨hcs, hlen, hilt⟩ := list_split_at hc
  have htl : toListL cs = toListL (cs.take i) ++ (toList c ++ toListL (cs.drop (i + 1))) :=
    (toList_set_child c hc).1
  have hLne : ∀ e ∈ toListL (cs.take i), p.comp e.1 key ≠ 0 := fun e he => ne_of_gt hv (hL e he)
  rw [htl] at hsorted
  simp only [List.map_append, List.pairwise_append] at hsorted
  have hcR : ∀ e ∈ toList c, ∀ r ∈ toListL (cs.drop (i + 1)), p.comp e.1 r.1 ≤ 0 := by
    intro e he r hr'
    exact hv.before_le (hsorted.2.1.2.2 e.1 (List.mem_map_of_mem _ he) r.1
      (List.mem_map_of_mem _ hr'))
  have hRgt : (∃ e0 ∈ toList c, p.comp key e0.1 < 0) →
      ∀ r ∈ toListL (cs.drop (i + 1)), p.comp key r.1 < 0 := by
    rintro ⟨e0, he0, hk0⟩ r hr'
    exact hv.lt_of_lt_of_le hk0 (hcR e0 he0 r hr')
  cases r with
  | removed c' =>
    obtain ⟨hmem, htl', hc'W⟩ := hr
    refine ⟨_, rfl, ?_, ?_, ?_⟩
    · obtain ⟨e, he, hk⟩ := hmem
      exact ⟨e, by rw [htl]; simp [he], hk⟩
    · simp only [setChild_internal, toList_internal]
      rw [(toList_set_child c' hc).2, htl, htl', refErase_append_left _ _ _ hLne,
        refErase_append_mem _ _ _ hmem]
    · exact wf_set_child_sublist hx hc hc'W
        (by simp only [elems, htl']; exact (refErase_sublist _ _ _).map _)
  | absent c' =>
    obtain ⟨hne, htl', hc'W, hcl'⟩ := hr
    have he0 : flag' = true ∨ (∃ e ∈ toList c, p.comp key e.1 ≤ 0) → p.kDuplicates = true →
        ∃ e0 ∈ toList c, p.comp key e0.1 < 0 := by
      rintro (hf | ⟨e, he, hk⟩) hd
      · exact hcl' hf hd
      · exact ⟨e, he, lt_of_le_of_ne hv hk (hne e he)⟩
    have hR : ∀ r ∈ toListL (cs.drop (i + 1)), p.comp key r.1 < 0 := by
      rcases hD with hD | ⟨c0, e, hc0, he, hk⟩ | ⟨hf, hd, _, _⟩
      · exact hD
      · rw [hc] at hc0
        injection hc0 with hc0
        subst hc0
        exact hRgt ⟨e, he, lt_of_le_of_ne hv hk (hne e he)⟩
      · exact hRgt (hcl' hf hd)
    refine ⟨_, rfl, ?_, ?_, ?_, ?_⟩
    · intro e he
      rw [htl] at he
      rcases List.mem_append.1 he with he | he
      · exact hLne e he
      · rcases List.mem_append.1 he with he | he
        · exact hne e he
        · exact ne_of_lt hv (hR e he)
    · simp only [setChild_internal, toList_internal]
      rw [(toList_set_child c' hc).2, htl, htl']
    · exact wf_set_child_sublist hx hc hc'W
        (by simp only [elems, htl']; exact List.Sublist.refl _)
    · intro hf hd
      obtain ⟨e0, he0', hk0⟩ := he0 (hin hf) hd
      exact ⟨e0, by rw [htl]; simp [he0'], hk0⟩
  | successor c' =>
    obtain ⟨hne, htl', hc'W, hdup⟩ := hr
    have hx3 : Wf p minL minI (h + 1) (internal ks (cs.set i c')) :=
      wf_set_child_sublist hx hc hc'W (by simp only [elems, htl']; exact List.Sublist.refl _)
    have htl3 : toListL (cs.set i c') = toListL cs := by
      rw [(toList_set_child c' hc).2, htl, htl']
    have hget3 : (cs.set i c')[i + 1]? = cs[i + 1]? := by
      rw [List.getElem?_set_ne (by omega)]
    simp only [erase_up, setChild_internal, children, List.get?_eq_getElem?, hget3]
    cases hs : cs[i + 1]? with
    | none =>
      simp only
      have hR : cs.drop (i + 1) = [] := by
        apply List.drop_eq_nil_of_le
        by_contra hcon
        rw [List.getElem?_eq_getElem (by omega)] at hs
        cases hs
      refine ⟨_, rfl, ?_, by simpa using htl3, hx3, hdup⟩
      intro e he
      rw [htl, hR] at he
      simp only [toListL_nil, List.append_nil] at he
      rcases List.mem_append.1 he with he | he
      · exact hLne e he
      · exact hne e he
    | some s =>
      simp only
      have hsW : Wf p p.kLeafNodeMinKeys p.kInternalNodeMinKeys h s :=
        wf_child hx (List.getElem?_mem hs)
      obtain ⟨f, rest, hstl, hcase⟩ := erase_first_spec hv key h s hsW
      obtain ⟨hcs2, _⟩ := pair_split hc hs
      have hRs : toListL (cs.drop (i + 1)) = f :: (rest ++ toListL (cs.drop (i + 2))) := by
        have : cs.drop (i + 1) = s :: cs.drop (i + 2) := by
          obtain ⟨_, _, hlt⟩ := list_split_at hs
          rw [List.drop_eq_getElem_cons hlt]
          have := List.getElem?_eq_getElem hlt
          rw [this] at hs
          injection hs with hs
          rw [hs]
        rw [this]
        simp [hstl]
      have hfR : f ∈ toListL (cs.drop (i + 1)) := by rw [hRs]; simp
      have hRsorted := hsorted.2.1.2.1
      rw [hRs] at hRsorted
      simp only [List.map_cons, List.pairwise_cons] at hRsorted
      have hfle : ∀ r ∈ toListL (cs.drop (i + 1)), p.comp f.1 r.1 ≤ 0 := by
        intro r hr'
        rw [hRs] at hr'
        rcases List.mem_cons.1 hr' with hr' | hr'
        · subst hr'; exact le_of_eq (hv.comp_self _)
        · exact hv.before_le (hRsorted.1 r.1 (List.mem_map_of_mem _ hr'))
      rcases hcase with ⟨hk, hef⟩ | ⟨hk, s', hef, hs'tl, hs'W⟩
      · simp only [hef]
        have hkf : p.comp key f.1 < 0 := by
          rcases hD with hD | ⟨c0, e, hc0, he, hk0⟩ | ⟨hf, hd, _, hR'⟩
          · exact hD f hfR
          · rw [hc] at hc0
            injection hc0 with hc0
            subst hc0
            exact hRgt ⟨e, he, lt_of_le_of_ne hv hk0 (hne e he)⟩ f hfR
          · have := hR' f hfR
            by_contra hcon
            have : p.comp key f.1 = 0 := by omega
            exact hk this
        have hR : ∀ r ∈ toListL (cs.drop (i + 1)), p.comp key r.1 < 0 := by
          intro r hr'
          exact hv.lt_of_lt_of_le hkf (hfle r hr')
        refine ⟨_, rfl, ?_, by simpa using htl3, hx3, ?_⟩
        · intro e he
          rw [htl] at he
          rcases List.mem_append.1 he with he | he
          · exact hLne e he
          · rcases List.mem_append.1 he with he | he
            · exact hne e he
            · exact ne_of_lt hv (hR e he)
        · intro _ _
          exact ⟨f, by rw [htl]; simp [hfR], hkf⟩
      · simp only [hef]
        have hfk : p.comp f.1 key = 0 := (hv.zero_iff _ _).1 hk
        have hfla : FirstLeafAbove p s := by
          rcases hD with hD | ⟨c0, e, hc0, he, hk0⟩ | ⟨hf, hd, ⟨s0, hs0, hfla⟩, hR'⟩
          · have := hD f hfR; omega
          · rw [hc] at hc0
            injection hc0 with hc0
            subst hc0
            have := hRgt ⟨e, he, lt_of_le_of_ne hv hk0 (hne e he)⟩ f hfR
            omega
          · rw [hs] at hs0
            injection hs0 with hs0
            subst hs0
            exact hfla
        have hget3' : (cs.set i c')[i + 1]? = some s := by rw [hget3, hs]
        refine ⟨_, rfl, ?_, ?_, ?_⟩
        · exact ⟨f, by rw [htl]; simp [hfR], hfk⟩
        · simp only [toList_internal]
          rw [(toList_set_child s' hget3').2, hs'tl]
          obtain ⟨ht, hd, _⟩ := take_set_self c' hc
          have h1 : toListL ((cs.set i c').take (i + 1)) = toListL (cs.take i) ++ toList c := by
            rw [List.take_succ, ht, (take_set_self c' hc).2.2]
            simp [toListL_append, htl']
          have h2 : (cs.set i c').drop (i + 1 + 1) = cs.drop (i + 2) := by
            have := congrArg (List.drop 1) hd
            simpa [List.drop_drop, Nat.add_comm, Nat.add_left_comm] using this
          rw [h1, h2, htl, hRs, refErase_append_left _ _ _ hLne,
            refErase_append_left _ _ _ hne]
          simp [refErase, hfk]
        · exact wf_set_child_sublist hx3 hget3' (hs'W hfla)
            (by simp only [elems, hs'tl, hstl]; exact (List.sublist_cons_self _ _).map _)

end Node

end BPlusTree

namespace BPlusTree

variable {K V : Type}

namespace Node

variable {p : Params K}

theorem wf_internal_minL {a a' b h : Nat} {ks : List K} {cs : List (Node K V)}
    (hx : Wf p a b (h + 1) (internal ks cs)) : Wf p a' b (h + 1) (internal ks cs) := by
  cases hx with
  | internal _ _ h ks cs h1 h2 h3 h4 h5 => exact Wf.internal _ _ h ks cs h1 h2 h3 h4 h5

theorem wf_items_at {minL minI h i : Nat} {ks : List K} {cs : List (Node K V)}
    (hx : Wf p minL minI (h + 1) (internal ks cs)) (hi : i ≤ ks.length) :
    ∃ y, cs[i]? = some y ∧
      (preItems (ks.take i) (cs.take i) ++
        (elems y ++ tailItems (ks.drop i) (cs.drop (i + 1)))).Pairwise p.rel := by
  have hcl := wf_cs_length hx
  obtain ⟨y, hy⟩ := get_some_of_lt cs i (by omega)
  cases hx with
  | internal _ _ h ks cs h1 h2 h3 h4 h5 =>
  rw [items_at hcl hy] at h5
  exact ⟨y, hy, h5⟩

/-- Entries left of slot `i` are before a key that bounds the routing keys left
of slot `i`. -/
theorem wf_left_before (hv : p.Valid) {minL minI h i : Nat} {ks : List K}
    {cs : List (Node K V)} {key : K}
    (hx : Wf p minL minI (h + 1) (internal ks cs)) (hi : i ≤ ks.length)
    (hk : ∀ k ∈ ks.take i, p.comp k key ≤ 0) :
    ∀ e ∈ toListL (cs.take i), p.before e.1 key := by
  have hcl := wf_cs_length hx
  obtain ⟨y, hy, h5⟩ := wf_items_at hx hi
  intro e he
  have hm := mem_preItems_of_mem (ks.take i) (cs.take i) (by simp; omega) e he
  exact before_of_elems (preItems_rel hv (List.pairwise_append.1 h5).1 false hk _ hm)

/-- Entries left of slot `i` are below a key that is above the routing keys
left of slot `i`. -/
theorem wf_left_lt (hv : p.Valid) {minL minI h i : Nat} {ks : List K}
    {cs : List (Node K V)} {key : K}
    (hx : Wf p minL minI (h + 1) (internal ks cs)) (hi : i ≤ ks.length)
    (hk : ∀ k ∈ ks.take i, p.comp k key < 0) :
    ∀ e ∈ toListL (cs.take i), p.comp e.1 key < 0 := by
  have hcl := wf_cs_length hx
  obtain ⟨y, hy, h5⟩ := wf_items_at hx hi
  intro e he
  have hm := mem_preItems_of_mem (ks.take i) (cs.take i) (by simp; omega) e he
  obtain ⟨k, hk', hr⟩ := mem_preItems_bound hv _ _ (List.pairwise_append.1 h5).1 _ hm
  rcases hr with hr | hr
  · cases hr
  · exact hv.lt_of_le_of_lt (hv.before_le (before_of_elems hr)) (hk k hk')

/-- Entries right of slot `i` are above a key that is below the routing keys
from slot `i` on. -/
theorem wf_right_ge (hv : p.Valid) {minL minI h i : Nat} {ks : List K}
    {cs : List (Node K V)} {key : K}
    (hx : Wf p minL minI (h + 1) (internal ks cs)) (hi : i ≤ ks.length)
    (hk : ∀ k ∈ ks.drop i, p.comp key k ≤ 0) :
    ∀ e ∈ toListL (cs.drop (i + 1)), p.comp key e.1 ≤ 0 := by
  have hcl := wf_cs_length hx
  obtain ⟨y, hy, h5⟩ := wf_items_at hx hi
  intro e he
  have hm := mem_tailItems_of_mem (ks.drop i) (cs.drop (i + 1)) (by simp; omega) e he
  exact tailItems_le hv (List.pairwise_append.1 (List.pairwise_append.1 h5).2.1).2.1 hk _ hm

theorem wf_right_gt (hv : p.Valid) {minL minI h i : Nat} {ks : List K}
    {cs : List (Node K V)} {key : K}
    (hx : Wf p minL minI (h + 1) (internal ks cs)) (hi : i ≤ ks.length)
    (hk : ∀ k ∈ ks.drop i, p.comp key k < 0) :
    ∀ e ∈ toListL (cs.drop (i + 1)), p.comp key e.1 < 0 := by
  have hcl := wf_cs_length hx
  obtain ⟨y, hy, h5⟩ := wf_items_at hx hi
  intro e he
  have hm := mem_tailItems_of_mem (ks.drop i) (cs.drop (i + 1)) (by simp; omega) e he
  exact tailItems_lt hv (List.pairwise_append.1 (List.pairwise_append.1 h5).2.1).2.1 hk _ hm

theorem wf_keys_sorted {minL minI h : Nat} {ks : List K} {cs : List (Node K V)}
    (hx : Wf p minL minI (h + 1) (internal ks cs)) :
    ks.Pairwise (fun a b => p.comp a b ≤ 0) := by
  cases hx with
  | internal _ _ h ks cs h1 h2 h3 h4 h5 => exact pairwise_le_of_items h5 (by omega)

/-- On a tie, `lower_bound` stops at a slot whose key compares equal. -/
theorem found_head (hv : p.Valid) {ks : List K} {key : K} {i : Nat}
    (hs : ks.Pairwise (fun a b => p.comp a b ≤ 0))
    (htake : ∀ k ∈ ks.take i, p.comp k key < 0)
    (hdrop : ∀ k ∈ ks.drop i, p.comp key k ≤ 0)
    (hfound : ∃ k ∈ ks, p.comp k key = 0) :
    ∃ k0, ks[i]? = some k0 ∧ p.comp k0 key = 0 := by
  obtain ⟨k, hk, hk0⟩ := hfound
  rw [← List.take_append_drop i ks] at hk
  rcases List.mem_append.1 hk with hk | hk
  · have := htake k hk; omega
  · have hlt : i < ks.length := by
      by_contra hc
      rw [List.drop_eq_nil_of_le (by omega)] at hk
      simp at hk
    have hget : ks[i]? = some ks[i] := List.getElem?_eq_getElem hlt
    refine ⟨ks[i], hget, ?_⟩
    have h1 : p.comp key ks[i] ≤ 0 :=
      hdrop _ (List.mem_drop_iff_getElem.2 ⟨0, by simpa using hlt, by simp⟩)
    have h2 : p.comp ks[i] k ≤ 0 := by
      rcases mem_drop_of_get hget hk with h | h
      · subst h; exact le_of_eq (hv.comp_self _)
      · exact pairwise_get_drop hs hget k h
    have h3 := hv.comp_trans _ _ _ h2 (le_of_eq hk0)
    have h4 := (hv.nonneg_iff ks[i] key).2 h1
    omega

theorem take_succ_of_get {α : Type} {l : List α} {i : Nat} {a : α} (h : l[i]? = some a) :
    l.take (i + 1) = l.take i ++ [a] := by
  rw [List.take_succ, h]; rfl

theorem drop_of_get {α : Type} {l : List α} {i : Nat} {a : α} (h : l[i]? = some a) :
    l.drop i = a :: l.drop (i + 1) := by
  obtain ⟨_, _, hlt⟩ := list_split_at h
  rw [List.drop_eq_getElem_cons hlt]
  have := List.getElem?_eq_getElem hlt
  rw [this] at h
  injection h with h
  rw [h]

theorem keys_ge_of_head (hv : p.Valid) {ks : List K} {key k0 : K} {i : Nat}
    (hs : ks.Pairwise (fun a b => p.comp a b ≤ 0)) (hg : ks[i]? = some k0)
    (hk : p.comp key k0 ≤ 0) : ∀ k ∈ ks.drop i, p.comp key k ≤ 0 := by
  intro k hk'
  rcases mem_drop_of_get hg hk' with h | h
  · subst h; exact hk
  · exact hv.comp_trans _ _ _ hk (pairwise_get_drop hs hg k h)

end Node

end BPlusTree

namespace BPlusTree

variable {K V : Type}

namespace Node

variable {p : Params K}

theorem get_of_take_eq {α : Type} {l l' : List α} {i : Nat} (h : l'.take (i + 1) = l.take (i + 1)) :
    l'[i]? = l[i]? := by
  have h1 : (l'.take (i + 1))[i]? = l'[i]? := List.getElem?_take_of_succ
  have h2 : (l.take (i + 1))[i]? = l[i]? := List.getElem?_take_of_succ
  rw [← h1, ← h2, h]

theorem absorbed_mem {cs cs' : List (Node K V)} {i i' : Nat} {c : Node K V} {e : K × V}
    (ha : Absorbed cs i cs' i') (hc : cs[i]? = some c) (he : e ∈ toList c) :
    ∃ c', cs'[i']? = some c' ∧ e ∈ toList c' := by
  obtain ⟨c0, c', a, b, h1, h2, _, h4, _, _⟩ := ha
  rw [hc] at h1
  injection h1 with h1
  subst h1
  exact ⟨c', h2, by rw [h4]; simp [he]⟩

/-- Effect of the first half of the loop body of `erase` on a well-formed
internal node. -/
theorem erase_steer_spec (hv : p.Valid) (key : K) {ks : List K} {cs : List (Node K V)}
    {minL minI h : Nat} (xIsRoot flag : Bool)
    (hx : Wf p minL minI (h + 1) (internal ks cs))
    (hk1 : 1 ≤ ks.length) (hroot : xIsRoot = true ∨ 2 ≤ ks.length) :
    (∃ newRoot, erase_steer p key (internal ks cs) xIsRoot flag = .ok (.inl newRoot) ∧
        xIsRoot = true ∧ Wf p 1 1 h newRoot ∧ toList newRoot = toListL cs) ∨
    (∃ ks1 cs1 i1 flag1,
        erase_steer p key (internal ks cs) xIsRoot flag =
          .ok (.inr (internal ks1 cs1, i1, flag1)) ∧
        Wf p minL ks1.length (h + 1) (internal ks1 cs1) ∧ toListL cs1 = toListL cs ∧
        1 ≤ ks1.length ∧ ks.length ≤ ks1.length + 1 ∧ i1 ≤ ks1.length ∧
        EraseReady p key flag1 cs1 i1 ∧
        (flag = true → flag1 = true ∨
          ∃ c e, cs1[i1]? = some c ∧ e ∈ toList c ∧ p.comp key e.1 ≤ 0) ∧
        (ks1.length = ks.length ∨
          ∃ c, cs1[i1]? = some c ∧
            Wf p (p.kLeafNodeMinKeys + 1) (p.kInternalNodeMinKeys + 1) h c)) := by
  have hcl := wf_cs_length hx
  have hsorted := wf_keys_sorted hx
  obtain ⟨hpos, htake, hdrop, hfound⟩ := lower_bound_spec hv hsorted key
  unfold erase_steer
  simp only [keyArray]
  generalize hr : lower_bound p.comp ks key = r at hpos htake hdrop hfound
  by_cases hf : r.1 = true
  · -- a routing key compares equal
    simp only [hf, if_true]
    obtain ⟨k0, hk0, hk0eq⟩ := found_head hv hsorted htake hdrop (hfound.1 hf)
    obtain ⟨_, _, hilt⟩ := list_split_at hk0
    have hkey0 : p.comp key k0 ≤ 0 := by have := (hv.zero_iff _ _).1 hk0eq; omega
    obtain ⟨c, hc⟩ := get_some_of_lt cs (r.2 + 1) (by omega)
    have hcW := wf_child hx (List.getElem?_mem hc)
    obtain ⟨e0, he0⟩ := List.exists_mem_of_ne_nil _ (hcW.toList_ne_nil (Or.inl p.leafMin_pos))
    have hRge := wf_right_ge hv hx hpos hdrop
    have he0R : e0 ∈ toListL (cs.drop (r.2 + 1)) := by
      rw [drop_of_get hc]; simp [he0]
    have he0ge : p.comp key e0.1 ≤ 0 := hRge e0 he0R
    by_cases hd : p.kDuplicates = true
    · simp only [hd, Bool.not_true, Bool.false_eq_true, if_false]
      obtain ⟨opres, x', hsub, htl, hcase⟩ :=
        try_rebalance_or_merge_subtree_spec hv xIsRoot hx hk1 (show r.2 + 1 ≤ ks.length by omega)
          (by omega) hroot
      simp only [hsub]
      rcases hcase with ⟨hs, hroot', hW⟩ | ⟨hm, hpost⟩ | ⟨hns, hnm, ks', cs', s', hx', hW, hlen,
          htk, htk2, hs', hfla, habs⟩
      · subst hs
        exact Or.inl ⟨x', rfl, hroot', hW, htl⟩
      · subst hm
        obtain ⟨_, hcase⟩ := hpost
        rcases hcase with ⟨hs, _⟩ | ⟨_, ks', cs', hx', hW, hk1', hk2, hk3, _, _, htk, _, _,
          ⟨c', hc', hc'W⟩, habs⟩
        · cases hs
        · simp only [Nat.add_sub_cancel] at hx' hc' habs htk
          subst hx'
          simp only [toList_internal] at htl
          obtain ⟨c'', hc'', he''⟩ := absorbed_mem habs hc he0
          rw [hc'] at hc''
          injection hc'' with hc''
          subst hc''
          refine Or.inr ⟨ks', cs', r.2, true, rfl, hW, htl, hk1', hk2, by omega, ⟨?_, ?_⟩, ?_,
            Or.inr ⟨c', hc', hc'W⟩⟩
          · exact wf_left_lt hv hW (by omega) (by rw [htk]; exact htake)
          · exact Or.inr (Or.inl ⟨c', e0, hc', he'', he0ge⟩)
          · intro _; exact Or.inr ⟨c', e0, hc', he'', he0ge⟩
      · subst hx'
        simp only [Nat.add_sub_cancel, toList_internal] at htk htl
        obtain ⟨c'', hc'', he''⟩ := absorbed_mem habs hc he0
        rw [hs'] at hc''
        injection hc'' with hc''
        subst hc''
        have hsorted' := wf_keys_sorted hW
        have hleft := wf_left_lt hv hW (show r.2 ≤ ks'.length by omega)
          (by rw [htk]; exact htake)
        obtain ⟨ki, hki⟩ := get_some_of_lt ks' r.2 (by omega)
        have hD3 : p.comp key ki ≤ 0 → EraseReady p key true cs' r.2 := by
          intro hle
          refine ⟨hleft, Or.inr (Or.inr ⟨rfl, hd, ⟨s', hs', hfla⟩, ?_⟩)⟩
          exact wf_right_ge hv hW (by omega) (keys_ge_of_head hv hsorted' hki hle)
        by_cases hl : opres = .kRebalancedLeftToRight
        · subst hl
          simp only [keyArray, List.get?_eq_getElem?, hki]
          by_cases hgt : p.comp key ki > 0
          · simp only [hgt, if_true]
            have hlt : p.comp ki key < 0 := (hv.pos_iff _ _).1 hgt
            refine Or.inr ⟨ks', cs', r.2 + 1, false, rfl, hW, htl, by omega, by omega, by omega,
              ⟨?_, Or.inr (Or.inl ⟨s', e0, hs', he'', he0ge⟩)⟩, ?_, Or.inl hlen⟩
            · apply wf_left_lt hv hW (by omega)
              rw [take_succ_of_get hki, htk]
              intro k hk
              rcases List.mem_append.1 hk with hk | hk
              · exact htake k hk
              · simp at hk; subst hk; exact hlt
            · intro _; exact Or.inr ⟨s', e0, hs', he'', he0ge⟩
          · simp only [hgt, if_false]
            exact Or.inr ⟨ks', cs', r.2, true, rfl, hW, htl, by omega, by omega, by omega,
              hD3 (by omega), fun _ => Or.inl rfl, Or.inl hlen⟩
        · have hki' : ki = k0 := by
            have := get_of_take_eq (htk2 hl)
            rw [hki, hk0] at this
            injection this
          subst hki'
          cases opres
          · exact Or.inr ⟨ks', cs', r.2, true, rfl, hW, htl, by omega, by omega, by omega,
              hD3 hkey0, fun _ => Or.inl rfl, Or.inl hlen⟩
          · exact absurd rfl hl
          · exact Or.inr ⟨ks', cs', r.2, true, rfl, hW, htl, by omega, by omega, by omega,
              hD3 hkey0, fun _ => Or.inl rfl, Or.inl hlen⟩
          · exact absurd rfl hnm
          · exact absurd rfl hns
    · have hd' : p.kDuplicates = false := by simpa using hd
      simp only [hd', Bool.not_false, if_true]
      refine Or.inr ⟨ks, cs, r.2 + 1, flag, rfl, wf_raise_internal hx, rfl, hk1, by omega,
        by omega, ⟨?_, Or.inr (Or.inl ⟨c, e0, hc, he0, he0ge⟩)⟩, ?_, Or.inl rfl⟩
      · intro e he
        have hks : ∀ k ∈ ks.take (r.2 + 1), p.comp k key ≤ 0 := by
          rw [take_succ_of_get hk0]
          intro k hk
          rcases List.mem_append.1 hk with hk | hk
          · exact hv.le_of_lt (htake k hk)
          · simp at hk; subst hk; omega
        have := wf_left_before hv hx (show r.2 + 1 ≤ ks.length by omega) hks e he
        simpa [Params.before, hd'] using this
      · intro _; exact Or.inr ⟨c, e0, hc, he0, he0ge⟩
  · have hf' : r.1 = false := by simpa using hf
    simp only [hf', Bool.false_eq_true, if_false]
    refine Or.inr ⟨ks, cs, r.2, flag, rfl, wf_raise_internal hx, rfl, hk1, by omega, hpos,
      ⟨wf_left_lt hv hx hpos htake, Or.inl ?_⟩, fun hfl => Or.inl hfl, Or.inl rfl⟩
    apply wf_right_gt hv hx hpos
    intro k hk
    apply lt_of_le_of_ne hv (hdrop k hk)
    intro hc
    have := hfound.2 ⟨k, List.mem_of_mem_drop hk, hc⟩
    simp [hf'] at this

end Node

end BPlusTree

namespace BPlusTree

variable {K V : Type}

theorem ErasePostG.weaken {p : Params K} {key : K} {good good' : Node K V → Prop}
    {l : List (K × V)} {flag : Bool} {r : Node.EraseStep K V}
    (hg : ∀ x, good x → good' x) (h : ErasePostG p key good l flag r) :
    ErasePostG p key good' l flag r := by
  cases r with
  | removed x => exact ⟨h.1, h.2.1, hg _ h.2.2⟩
  | absent x => exact ⟨h.1, h.2.1, hg _ h.2.2.1, h.2.2.2⟩
  | successor x => exact ⟨h.1, h.2.1, hg _ h.2.2.1, h.2.2.2⟩

namespace Node

variable {p : Params K}

/-- The leaf part of `erase`: the entry at the lower bound is removed when its
key compares equal. -/
theorem erase_leaf_spec (hv : p.Valid) (key : K) {es : List (K × V)} {minL minI : Nat}
    (fuel : Nat) (xIsRoot flag : Bool) (hx : Wf p minL minI 0 (leaf es)) :
    ∃ r, erase_loop p key (fuel + 1) (leaf es) xIsRoot flag = .ok r ∧
      ErasePostG p key (Wf p (minL - 1) minI 0) es flag r := by
  cases hx with
  | leaf _ _ _ h1 h2 h3 =>
  have hsorted : (es.map Prod.fst).Pairwise (fun a b => p.comp a b ≤ 0) :=
    h3.imp (fun h => hv.before_le h)
  obtain ⟨hpos, htake, hdrop, hfound⟩ := lower_bound_spec hv hsorted key
  rw [erase_loop]
  generalize hr : lower_bound p.comp (es.map Prod.fst) key = r at hpos htake hdrop hfound
  by_cases hf : r.1 = true
  · simp only [hf, Bool.not_true, Bool.false_eq_true, if_false]
    obtain ⟨k0, hk0, hk0eq⟩ := found_head hv hsorted htake hdrop (hfound.1 hf)
    rw [List.getElem?_map] at hk0
    obtain ⟨e, he, hek⟩ := Option.map_eq_some'.1 hk0
    subst hek
    obtain ⟨hsplit, _, hilt⟩ := list_split_at he
    have hmem : e ∈ es := List.getElem?_mem he
    have htk : ∀ e' ∈ es.take r.2, p.comp e'.1 key ≠ 0 := by
      intro e' he'
      have := htake e'.1 (by rw [← List.map_take]; exact List.mem_map_of_mem _ he')
      omega
    refine ⟨_, rfl, ⟨e, hmem, hk0eq⟩, ?_, ?_⟩
    · simp only [toList_leaf]
      rw [List.eraseIdx_eq_take_drop_succ]
      conv_rhs => rw [hsplit]
      rw [refErase_append_left _ _ _ htk]
      simp [refErase, hk0eq]
    · refine Wf.leaf _ _ _ ?_ ?_ ?_
      · rw [List.length_eraseIdx]; simp only [hilt, if_true]; omega
      · rw [List.length_eraseIdx]; simp only [hilt, if_true]; omega
      · exact h3.sublist ((List.eraseIdx_sublist es r.2).map _)
  · have hf' : r.1 = false := by simpa using hf
    have hne : ∀ e ∈ es, p.comp e.1 key ≠ 0 := by
      intro e he hc
      have := hfound.2 ⟨e.1, List.mem_map_of_mem _ he, hc⟩
      simp [hf'] at this
    have hW : Wf p (minL - 1) minI 0 (leaf es) := Wf.leaf _ _ _ (by omega) h2 h3
    simp only [hf', Bool.not_false, if_true]
    by_cases hcond : (!p.kDuplicates || !flag) = true
    · simp only [hcond, if_true]
      refine ⟨_, rfl, hne, rfl, hW, ?_⟩
      intro h1 h2
      simp [h1, h2] at hcond
    · simp only [hcond, if_false]
      refine ⟨_, rfl, hne, rfl, hW, ?_⟩
      cases hd : p.kDuplicates
      · simp [hd] at hcond
      · rfl

end Node

end BPlusTree

namespace BPlusTree

variable {K V : Type}

namespace Node

variable {p : Params K}

/-- Outcome of the second half of the loop body of `erase`: the child to
descend into can spare an entry. -/
theorem erase_prepare (hv : p.Valid) {ks1 : List K} {cs1 : List (Node K V)}
    {minL h i1 n : Nat} (xIsRoot : Bool)
    (hx : Wf p minL ks1.length (h + 1) (internal ks1 cs1))
    (hk1 : 1 ≤ ks1.length) (hi : i1 ≤ ks1.length) (hn : n ≤ ks1.length + 1)
    (hroot : xIsRoot = true ∨ 2 ≤ n)
    (hside : ks1.length = n ∨ ∃ c, cs1[i1]? = some c ∧
      Wf p (p.kLeafNodeMinKeys + 1) (p.kInternalNodeMinKeys + 1) h c) :
    (∃ newRoot j, try_rebalance_or_merge p (internal ks1 cs1) xIsRoot i1 =
        .ok (.kShrinked, newRoot, j) ∧
        xIsRoot = true ∧ Wf p 1 1 h newRoot ∧ toList newRoot = toListL cs1) ∨
    (∃ op ks2 cs2 i2 c2, try_rebalance_or_merge p (internal ks1 cs1) xIsRoot i1 =
        .ok (op, internal ks2 cs2, i2) ∧ op ≠ .kShrinked ∧
        Wf p minL ks2.length (h + 1) (internal ks2 cs2) ∧ toListL cs2 = toListL cs1 ∧
        n ≤ ks2.length + 1 ∧ 1 ≤ ks2.length ∧ cs2[i2]? = some c2 ∧
        Wf p (p.kLeafNodeMinKeys + 1) (p.kInternalNodeMinKeys + 1) h c2 ∧
        Absorbed cs1 i1 cs2 i2) := by
  have hcl := wf_cs_length hx
  obtain ⟨c, hc⟩ := get_some_of_lt cs1 i1 (by omega)
  have hcW0 := wf_child hx (List.getElem?_mem hc)
  by_cases hmin : c.minkeys p = true
  · have hlen : ks1.length = n := by
      rcases hside with h2 | ⟨c', hc', hcW⟩
      · exact h2
      · rw [hc] at hc'; injection hc' with hc'; subst hc'
        rw [hcW.not_min_of_above] at hmin; cases hmin
    have hroot' : xIsRoot = true ∨ 2 ≤ ks1.length := by
      rcases hroot with h1 | h1
      · exact Or.inl h1
      · exact Or.inr (by omega)
    obtain ⟨⟨op, x2, i2⟩, htrm, htl, hcase⟩ := try_rebalance_or_merge_spec hv xIsRoot hx hk1 hi hroot'
    simp only at htl hcase
    rcases hcase with ⟨hs, hr, hW⟩ | ⟨hns, ks2, cs2, hx2, hW, hk2, hk3, _, _, _, _, _, _,
      ⟨c2, hc2, hc2W⟩, habs⟩
    · subst hs
      exact Or.inl ⟨x2, i2, htrm, hr, hW, htl⟩
    · subst hx2
      simp only [toList_internal] at htl
      exact Or.inr ⟨op, ks2, cs2, i2, c2, htrm, hns, hW, htl, by omega, hk2, hc2, hc2W, habs⟩
  · have hmin' : c.minkeys p = false := by simpa using hmin
    have hcW := hcW0.above_of_not_min hmin'
    exact Or.inr ⟨.kNoop, ks1, cs1, i1, c, try_rebalance_or_merge_noop xIsRoot hc hmin',
      by simp, hx, rfl, hn, hk1, hc, hcW, absorbed_refl hc⟩

end Node

end BPlusTree

namespace BPlusTree

variable {K V : Type}

namespace Node

variable {p : Params K}

theorem eraseGood_of_wf {minL minI h : Nat} {xIsRoot : Bool} {x : Node K V}
    (hx : Wf p minL minI h x) (hI : 1 ≤ minI)
    (hnr : xIsRoot = false → p.kLeafNodeMinKeys ≤ minL ∧ p.kInternalNodeMinKeys ≤ minI) :
    EraseGood p h xIsRoot x := by
  unfold EraseGood
  cases xIsRoot with
  | true => exact ⟨h, le_refl _, hx.mono (Nat.zero_le _) hI⟩
  | false => exact hx.mono (hnr rfl).1 (hnr rfl).2

theorem eraseGood_root_succ {h : Nat} {x : Node K V} (hx : EraseGood p h true x) :
    EraseGood p (h + 1) true x := by
  unfold EraseGood at hx ⊢
  obtain ⟨h', hh, hW⟩ := hx
  exact ⟨h', by omega, hW⟩

/-- The descent of `erase` from a well-formed node returns, and its outcome
agrees with removing the first entry of the in-order sequence whose key
compares equal to `key`. -/
theorem erase_loop_spec (hv : p.Valid) (key : K) :
    ∀ (fuel h : Nat) (x : Node K V) (xIsRoot flag : Bool),
      (xIsRoot = true → Wf p 1 1 h x ∧ flag = false) →
      (xIsRoot = false → Wf p (p.kLeafNodeMinKeys + 1) (p.kInternalNodeMinKeys + 1) h x) →
      h < fuel →
      ∃ r, erase_loop p key fuel x xIsRoot flag = .ok r ∧
        ErasePostG p key (EraseGood p h xIsRoot) (toList x) flag r := by
  intro fuel
  induction fuel with
  | zero => intro h x xIsRoot flag _ _ hf; omega
  | succ fuel ih =>
    intro h x xIsRoot flag hR hN hf
    have hW : ∃ minL minI, Wf p minL minI h x ∧ 1 ≤ minL ∧ 1 ≤ minI ∧
        (xIsRoot = false → p.kLeafNodeMinKeys + 1 ≤ minL ∧ p.kInternalNodeMinKeys + 1 ≤ minI) := by
      cases xIsRoot with
      | true => exact ⟨1, 1, (hR rfl).1, le_refl _, le_refl _, fun h => by cases h⟩
      | false =>
        exact ⟨_, _, hN rfl, by omega, by omega, fun _ => ⟨le_refl _, le_refl _⟩⟩
    obtain ⟨minL, minI, hW, hL1, hI1, hnr⟩ := hW
    cases hW with
    | leaf _ _ es h1 h2 h3 =>
      obtain ⟨r, hr, hpost⟩ := erase_leaf_spec hv key fuel xIsRoot flag (Wf.leaf minL minI es h1 h2 h3)
      refine ⟨r, hr, hpost.weaken ?_⟩
      intro x' hx'
      unfold EraseGood
      cases xIsRoot with
      | true => exact ⟨0, le_refl _, hx'.mono (Nat.zero_le _) hI1⟩
      | false => exact hx'.mono (by have := (hnr rfl).1; omega) (by have := (hnr rfl).2; omega)
    | internal _ _ h0 ks cs h1 h2 h3 h4 h5 =>
      have hx : Wf p minL minI (h0 + 1) (internal ks cs) := Wf.internal _ _ h0 ks cs h1 h2 h3 h4 h5
      have hk1 : 1 ≤ ks.length := by omega
      have hroot : xIsRoot = true ∨ 2 ≤ ks.length := by
        cases hxr : xIsRoot with
        | true => exact Or.inl rfl
        | false =>
          have := (hnr hxr).2
          have := p.internalMin_pos
          exact Or.inr (by omega)
      have hrestart : ∀ newRoot, xIsRoot = true → Wf p 1 1 h0 newRoot →
          toList newRoot = toListL cs →
          ∃ r, erase_loop p key fuel newRoot true false = .ok r ∧
            ErasePostG p key (EraseGood p (h0 + 1) xIsRoot) (toList (internal ks cs)) flag r := by
        intro newRoot hxr hnW htl
        obtain ⟨r, hr, hpost⟩ := ih h0 newRoot true false (fun _ => ⟨hnW, rfl⟩)
          (fun h => by cases h) (by omega)
        have hfl := (hR hxr).2
        subst hxr
        subst hfl
        rw [htl] at hpost
        exact ⟨r, hr, by simpa using hpost.weaken (fun x' hx' => eraseGood_root_succ hx')⟩
      rw [erase_loop]
      rcases erase_steer_spec hv key xIsRoot flag hx hk1 hroot with
        ⟨newRoot, hsteer, hxr, hnW, htl⟩ |
        ⟨ks1, cs1, i1, flag1, hsteer, hW1, htl1, hk11, hk12, hi1, hready, hin, hside⟩
      · simp only [hsteer]
        exact hrestart newRoot hxr hnW htl
      · simp only [hsteer]
        rcases erase_prepare hv xIsRoot hW1 hk11 hi1 hk12 hroot hside with
          ⟨newRoot, j, htrm, hxr, hnW, htl⟩ |
          ⟨op, ks2, cs2, i2, c2, htrm, hns, hW2, htl2, hk2, hk21, hc2, hc2W, habs⟩
        · simp only [htrm]
          exact hrestart newRoot hxr hnW (by rw [htl, htl1])
        · obtain ⟨r, hr, hpost⟩ := ih h0 c2 false flag1 (fun h => by cases h) (fun _ => hc2W)
            (by omega)
          have hpost' : ErasePostG p key (Wf p p.kLeafNodeMinKeys p.kInternalNodeMinKeys h0)
              (toList c2) flag1 r :=
            hpost.weaken (fun x' hx' => by simpa [EraseGood] using hx')
          have hin' : flag = true → flag1 = true ∨ ∃ e ∈ toList c2, p.comp key e.1 ≤ 0 := by
            intro hfl
            rcases hin hfl with h | ⟨c, e, hc, he, hle⟩
            · exact Or.inl h
            · obtain ⟨c', hc', he'⟩ := absorbed_mem habs hc he
              rw [hc2] at hc'
              injection hc' with hc'
              subst hc'
              exact Or.inr ⟨e, he', hle⟩
          obtain ⟨r', hr', hpost2⟩ := erase_combine hv hW2 hc2 (ready_absorbed hready habs)
            hin' hpost'
          have hstep : (match try_rebalance_or_merge p (internal ks1 cs1) xIsRoot i1 with
              | .error f => .error f
              | .ok (.kShrinked, newRoot, _) => erase_loop p key fuel newRoot true false
              | .ok (_, x2, i2) =>
                match x2.children.get? i2 with
                | none => .error .outOfRange
                | some c =>
                  match erase_loop p key fuel c false flag1 with
                  | .error f => .error f
                  | .ok r => erase_up p key x2 i2 r) = Except.ok r' := by
            rw [htrm]
            cases op <;> first | exact absurd rfl hns | simp [children, hc2, hr, hr']
          refine ⟨r', hstep, ?_⟩
          simp only [toList_internal]
          rw [← htl1, ← htl2]
          refine hpost2.weaken (fun x' hx' => eraseGood_of_wf hx' hk21 ?_)
          intro hxr
          have := hnr hxr
          exact ⟨by omega, by omega⟩

end Node

end BPlusTree

namespace BPlusTree

variable {K V : Type}

namespace Node

variable {p : Params K}

theorem wf_root_of_ne_nil {h : Nat} {x : Node K V} (hx : Wf p 0 1 h x) (hne : toList x ≠ []) :
    Wf p 1 1 h x := by
  cases hx with
  | leaf _ _ es h1 h2 h3 =>
    refine Wf.leaf _ _ es ?_ h2 h3
    cases es with
    | nil => simp at hne
    | cons e es => simp
  | internal _ _ h ks cs h1 h2 h3 h4 h5 => exact Wf.internal _ _ h ks cs h1 h2 h3 h4 h5

/-- Effect of `node::erase` on a well-formed root. -/
theorem node_erase_spec (hv : p.Valid) (key : K) {h : Nat} {root : Node K V} (hx : Wf p 1 1 h root) :
    (∃ root', erase p root key = .ok (true, root') ∧
        (∃ e ∈ toList root, p.comp e.1 key = 0) ∧
        toList root' = refErase p.comp key (toList root) ∧ ∃ h', Wf p 0 1 h' root') ∨
    (∃ root', erase p root key = .ok (false, root') ∧
        (∀ e ∈ toList root, p.comp e.1 key ≠ 0) ∧
        toList root' = toList root ∧ ∃ h', Wf p 0 1 h' root') ∨
    (erase p root key = .error .nullNode ∧ (∀ e ∈ toList root, p.comp e.1 key ≠ 0) ∧
        p.kDuplicates = true) := by
  obtain ⟨r, hr, hpost⟩ := erase_loop_spec hv key (root.height + 1) h root true false
    (fun _ => ⟨hx, rfl⟩) (fun h => by cases h) (by rw [hx.height_eq]; omega)
  unfold erase
  rw [hr]
  cases r with
  | removed x' =>
    obtain ⟨h1, h2, h', _, h3⟩ := hpost
    exact Or.inl ⟨x', rfl, h1, h2, h', h3⟩
  | absent x' =>
    obtain ⟨h1, h2, ⟨h', _, h3⟩, _⟩ := hpost
    exact Or.inr (Or.inl ⟨x', rfl, h1, h2, h', h3⟩)
  | successor x' =>
    obtain ⟨h1, h2, _, h3⟩ := hpost
    exact Or.inr (Or.inr ⟨rfl, h1, h3⟩)

end Node

namespace btree

variable {p : Params K}

/-- Effect of `btree::erase` on a tree that satisfies the invariant. -/
theorem erase_spec (hv : p.Valid) {t : Tree K V} (hinv : TreeInv p t) (key : K) :
    (∃ t', erase p t key = .ok (true, t') ∧ TreeInv p t' ∧
        (∃ e ∈ contents t, p.comp e.1 key = 0) ∧
        contents t' = refErase p.comp key (contents t) ∧ t'.nkeys + 1 = t.nkeys) ∨
    (∃ t', erase p t key = .ok (false, t') ∧ TreeInv p t' ∧
        (∀ e ∈ contents t, p.comp e.1 key ≠ 0) ∧
        contents t' = contents t ∧ t'.nkeys = t.nkeys) ∨
    (erase p t key = .error .nullNode ∧ (∀ e ∈ contents t, p.comp e.1 key ≠ 0) ∧
        p.kDuplicates = true) := by
  unfold TreeInv at hinv
  unfold erase contents
  cases hroot : t.root with
  | none =>
    rw [hroot] at hinv
    simp only
    refine Or.inr (Or.inl ⟨t, rfl, ?_, by simp, by simp [contents, hroot], rfl⟩)
    simp [TreeInv, hroot, hinv]
  | some r =>
    rw [hroot] at hinv
    simp only at hinv ⊢
    obtain ⟨⟨h, hW⟩, hn⟩ := hinv
    rcases Node.node_erase_spec hv key hW with
      ⟨r', he, hmem, htl, h', hW'⟩ | ⟨r', he, hmem, htl, h', hW'⟩ | ⟨he, hmem, hd⟩
    · rw [he]
      simp only
      have hlen := refErase_length p.comp key hmem
      rw [← htl] at hlen
      by_cases hz : t.nkeys - 1 = 0
      · have hnil : Node.toList r' = [] := by
          apply List.eq_nil_of_length_eq_zero; omega
        refine Or.inl ⟨{ root := none, nkeys := t.nkeys - 1 }, by simp [hz], ?_, hmem, ?_, ?_⟩
        · simp [TreeInv, hz]
        · simp [contents, ← htl, hnil]
        · simp only; omega
      · refine Or.inl ⟨{ root := some r', nkeys := t.nkeys - 1 }, by simp [hz], ?_, hmem, ?_, ?_⟩
        · refine ⟨⟨h', Node.wf_root_of_ne_nil hW' ?_⟩, ?_⟩
          · intro hnil
            rw [hnil] at hlen
            simp at hlen
            omega
          · simp only; omega
        · simp [contents, htl]
        · simp only; omega
    · rw [he]
      simp only
      refine Or.inr (Or.inl ⟨{ root := some r', nkeys := t.nkeys }, rfl, ?_, hmem, ?_, rfl⟩)
      · refine ⟨⟨h', Node.wf_root_of_ne_nil hW' ?_⟩, ?_⟩
        · rw [htl]; exact hW.toList_ne_nil (Or.inl (le_refl _))
        · simp only; rw [htl]; exact hn
      · simp [contents, htl]
    · rw [he]
      exact Or.inr (Or.inr ⟨rfl, hmem, hd⟩)

/-- Every tree reachable from the empty tree satisfies the invariant. -/
theorem reachable_inv (hv : p.Valid) {t : Tree K V} (hr : Reachable p t) : TreeInv p t := by
  induction hr with
  | empty => simp [TreeInv, empty]
  | insert key value _ hins ih =>
    obtain ⟨t'', h1, h2, _⟩ := insert_spec hv ih key value
    rw [hins] at h1
    injection h1 with h1
    subst h1
    exact h2
  | erase key b _ her ih =>
    rcases erase_spec hv ih key with ⟨t'', h1, h2, _⟩ | ⟨t'', h1, h2, _⟩ | ⟨h1, _⟩
    · rw [her] at h1
      injection h1 with h1
      injection h1 with _ h1
      subst h1
      exact h2
    · rw [her] at h1
      injection h1 with h1
      injection h1 with _ h1
      subst h1
      exact h2
    · rw [her] at h1
      cases h1

end btree

end BPlusTree

namespace BPlusTree

variable {K V : Type}

namespace Node

variable {p : Params K}

theorem mem_leavesL {l : List (K × V)} : ∀ {cs : List (Node K V)}, l ∈ leavesL cs →
    ∃ c ∈ cs, l ∈ leaves c
  | [], h => by simp at h
  | c :: cs, h => by
    simp only [leavesL_cons, List.mem_append] at h
    rcases h with h | h
    · exact ⟨c, List.mem_cons_self _ _, h⟩
    · obtain ⟨c', hc', hl⟩ := mem_leavesL h
      exact ⟨c', List.mem_cons_of_mem _ hc', hl⟩

/-- No leaf below a well-formed node with a positive leaf minimum is empty. -/
theorem leaves_ne_nil : ∀ (h : Nat) {minL minI : Nat} {x : Node K V}, Wf p minL minI h x →
    1 ≤ minL → ∀ l ∈ leaves x, l ≠ [] := by
  intro h
  induction h with
  | zero =>
    intro minL minI x hx hm l hl
    cases hx with
    | leaf _ _ es h1 h2 h3 =>
      simp only [leaves_leaf, List.mem_singleton] at hl
      subst hl
      intro hc
      subst hc
      simp at h1
      omega
  | succ h ih =>
    intro minL minI x hx hm l hl
    cases hx with
    | internal _ _ _ ks cs h1 h2 h3 h4 h5 =>
      simp only [leaves_internal] at hl
      obtain ⟨c, hc, hlc⟩ := mem_leavesL hl
      exact ih (h4 c hc) p.leafMin_pos l hlc

theorem leaves_ne_nil_list {h : Nat} {minL minI : Nat} {x : Node K V}
    (hx : Wf p minL minI h x) : leaves x ≠ [] := by
  cases hx with
  | leaf _ _ es h1 h2 h3 => simp
  | internal _ _ _ ks cs h1 h2 h3 h4 h5 =>
    intro hc
    have h6 := Wf.toList_ne_nil (Wf.internal minL minI _ ks cs h1 h2 h3 h4 h5) (Or.inr (by omega))
    rw [← flatten_leaves, hc] at h6
    simp at h6

end Node

namespace btree

variable {p : Params K}

/-- Walking `next` from a valid cursor visits the rest of the cursor's leaf
and then every later leaf of the chain. -/
theorem walk_spec (t : Tree K V) (hne : ∀ l ∈ chain t, l ≠ []) :
    ∀ (fuel j i : Nat) (es : List (K × V)), (chain t)[j]? = some es → i < es.length →
      (es.drop i).length + ((chain t).drop (j + 1)).flatten.length ≤ fuel →
      walk t fuel { leaf := j, pos := i } = .ok (es.drop i ++ ((chain t).drop (j + 1)).flatten) := by
  intro fuel
  induction fuel with
  | zero =>
    intro j i es _ hi hf
    simp only [List.length_drop] at hf
    omega
  | succ fuel ih =>
    intro j i es hes hi hf
    obtain ⟨e, he⟩ := Node.get_some_of_lt es i hi
    have hdrop : es.drop i = e :: es.drop (i + 1) := Node.drop_of_get he
    rw [walk]
    simp only [entryAt, next, List.get?_eq_getElem?, hes, he]
    by_cases h1 : i + 1 < es.length
    · simp only [h1, if_true]
      rw [ih j (i + 1) es hes h1 (by rw [hdrop] at hf; simp only [List.length_cons] at hf; omega)]
      simp [hdrop]
    · simp only [h1, if_false]
      have hnil : es.drop (i + 1) = [] := List.drop_eq_nil_of_le (by omega)
      by_cases h2 : j + 1 < (chain t).length
      · simp only [h2, if_true]
        obtain ⟨es', hes'⟩ := Node.get_some_of_lt (chain t) (j + 1) h2
        have hd2 : (chain t).drop (j + 1) = es' :: (chain t).drop (j + 1 + 1) :=
          Node.drop_of_get hes'
        have hne' : es' ≠ [] := hne es' (List.getElem?_mem hes')
        have hpos : 0 < es'.length := List.length_pos.2 hne'
        rw [ih (j + 1) 0 es' hes' hpos (by
          rw [hdrop, hd2] at hf
          simp only [List.length_cons, List.flatten_cons, List.length_append] at hf
          simp only [List.drop_zero]
          omega)]
        simp [hdrop, hnil, hd2]
      · simp only [h2, if_false]
        have hd2 : (chain t).drop (j + 1) = [] := List.drop_eq_nil_of_le (by omega)
        simp [hdrop, hnil, hd2]

/-- Forward iteration of a tree that satisfies the invariant returns and
yields the in-order sequence of its entries. -/
theorem forward_spec {t : Tree K V} (hinv : TreeInv p t) : forward t = .ok (contents t) := by
  unfold TreeInv at hinv
  unfold forward begin contents
  cases hroot : t.root with
  | none =>
    rw [hroot] at hinv
    simp only at hinv
    simp [hinv]
  | some r =>
    rw [hroot] at hinv
    obtain ⟨⟨h, hW⟩, hn⟩ := hinv
    have hne := hW.toList_ne_nil (Or.inl (le_refl _))
    have hnz : t.nkeys ≠ 0 := by
      rw [hn]
      intro hc
      exact hne (List.eq_nil_of_length_eq_zero hc)
    have hchain : chain t = r.leaves := by simp [chain, hroot]
    have hlne : ∀ l ∈ chain t, l ≠ [] := by
      rw [hchain]; exact Node.leaves_ne_nil h hW (le_refl _)
    have hcne : chain t ≠ [] := by rw [hchain]; exact Node.leaves_ne_nil_list hW
    obtain ⟨es, hes⟩ := Node.get_some_of_lt (chain t) 0 (List.length_pos.2 hcne)
    have hd : (chain t).drop 0 = es :: (chain t).drop (0 + 1) := Node.drop_of_get hes
    have hflat : (chain t).flatten = es ++ ((chain t).drop (0 + 1)).flatten := by
      conv_lhs => rw [← List.drop_zero (chain t), hd]
      simp
    have hpos : 0 < es.length := List.length_pos.2 (hlne es (List.getElem?_mem hes))
    simp only [hnz, beq_iff_eq, if_false]
    rw [walk_spec t hlne _ 0 0 es hes hpos (by
      simp only [List.drop_zero]
      rw [hflat]
      simp only [List.length_append]
      omega)]
    simp only [List.drop_zero]
    rw [← hflat, hchain, Node.flatten_leaves]

end btree

end BPlusTree

namespace BPlusTree

variable {K V : Type}

namespace Node

variable {p : Params K}

theorem nested_at {α : Type} (A B C : List α) {j : Nat} {a : α} (h : B[j]? = some a) :
    (A ++ (B ++ C))[A.length + j]? = some a ∧
    (A ++ (B ++ C)).take (A.length + j) = A ++ B.take j ∧
    (A ++ (B ++ C)).drop (A.length + j + 1) = B.drop (j + 1) ++ C ∧
    (A ++ (B ++ C)).length = A.length + B.length + C.length ∧ j < B.length := by
  obtain ⟨_, _, hlt⟩ := list_split_at h
  refine ⟨?_, ?_, ?_, ?_, hlt⟩
  · rw [List.getElem?_append_right (by omega)]
    simp only [Nat.add_sub_cancel_left]
    rw [List.getElem?_append_left hlt, h]
  · rw [List.take_append, List.take_append_of_le_length (by omega)]
  · rw [Nat.add_assoc, List.drop_append, List.drop_append_of_le_length (by omega)]
  · simp only [List.length_append]; omega

theorem leaves_split {cs : List (Node K V)} {i : Nat} {c : Node K V} (hc : cs[i]? = some c) :
    leavesL cs = leavesL (cs.take i) ++ (leaves c ++ leavesL (cs.drop (i + 1))) := by
  obtain ⟨hcs, _, _⟩ := list_split_at hc
  conv_lhs => rw [hcs]
  rw [leavesL_append, leavesL_cons]

/-- Entries of a child are before the entries of the children to its right. -/
theorem wf_child_before {minL minI h i : Nat} {ks : List K} {cs : List (Node K V)}
    {c : Node K V} (hx : Wf p minL minI h (internal ks cs)) (hc : cs[i]? = some c) :
    ∀ a ∈ toList c, ∀ b ∈ toListL (cs.drop (i + 1)), p.before a.1 b.1 := by
  have hs := hx.sorted
  simp only [toList_internal] at hs
  rw [(toList_set_child c hc).1, List.pairwise_map] at hs
  intro a ha b hb
  exact (List.pairwise_append.1 (List.pairwise_append.1 hs).2.1).2.2 a ha b hb

end Node

end BPlusTree

namespace BPlusTree

variable {K V : Type}

namespace Node

variable {p : Params K}

/-- The leaf step of the descent of `btree::lower_bound`. -/
theorem descend_leaf (hv : p.Valid) (key : K) {es : List (K × V)} {minL minI : Nat}
    (carry : Bool) (hx : Wf p minL minI 0 (leaf es))
    (hcarry : carry = true → p.kDuplicates = true) :
    DescendPost p key [es] carry (lower_bound p.comp (es.map Prod.fst) key).1 carry 0
      (lower_bound p.comp (es.map Prod.fst) key).2 es := by
  cases hx with
  | leaf _ _ _ h1 h2 h3 =>
  have hsorted : (es.map Prod.fst).Pairwise (fun a b => p.comp a b ≤ 0) :=
    h3.imp (fun h => hv.before_le h)
  obtain ⟨hpos, htake, hdrop, hfound⟩ := lower_bound_spec hv hsorted key
  generalize lower_bound p.comp (es.map Prod.fst) key = r at hpos htake hdrop hfound
  refine ⟨rfl, by simpa using hpos, ?_, ?_, ?_⟩
  · intro e he
    simp only [List.take_zero, List.flatten_nil, List.nil_append] at he
    exact htake e.1 (by rw [← List.map_take]; exact List.mem_map_of_mem _ he)
  · intro hf
    obtain ⟨k0, hk0, hk0eq⟩ := found_head hv hsorted htake hdrop (hfound.1 hf)
    rw [List.getElem?_map] at hk0
    obtain ⟨e, he, hek⟩ := Option.map_eq_some'.1 hk0
    subst hek
    exact ⟨e, he, hk0eq⟩
  · intro hf
    refine ⟨?_, ?_, ?_⟩
    · intro e he hc
      have := hfound.2 ⟨e.1, List.mem_map_of_mem _ he, hc⟩
      simp [hf] at this
    · intro hc
      exact ⟨hc, by simp⟩
    · intro hc
      exact ⟨hcarry hc, Or.inl ⟨hc, rfl⟩⟩

/-- Lifting the outcome of the descent in child `pos` to its parent. -/
theorem descend_lift (key : K) {ks : List K} {cs : List (Node K V)}
    {minL minI h pos : Nat} {c : Node K V} {carry carry1 found carry2 : Bool} {j i : Nat}
    {es : List (K × V)}
    (hx : Wf p minL minI (h + 1) (internal ks cs)) (hc : cs[pos]? = some c)
    (hleft : ∀ e ∈ toListL (cs.take pos), p.comp e.1 key < 0)
    (hA : carry1 = false → carry = false ∧ ∀ e ∈ toListL (cs.drop (pos + 1)), p.comp key e.1 < 0)
    (hB : carry1 = true → (carry = true ∧ cs.drop (pos + 1) = []) ∨
      (pos < ks.length ∧ ∀ e ∈ toListL (cs.drop (pos + 1)), p.comp key e.1 ≤ 0))
    (hC : p.kDuplicates = true → ∀ e ∈ toListL (cs.drop (pos + 1)), p.comp key e.1 ≤ 0)
    (hpost : DescendPost p key (leaves c) carry1 found carry2 j i es) :
    DescendPost p key (leavesL cs) carry found carry2
      ((leavesL (cs.take pos)).length + j) i es := by
  obtain ⟨h1, h2, h3, h4, h5⟩ := hpost
  have hcl := wf_cs_length hx
  obtain ⟨n1, n2, n3, n4, n5⟩ := nested_at (leavesL (cs.take pos)) (leaves c)
    (leavesL (cs.drop (pos + 1))) h1
  rw [leaves_split hc]
  refine ⟨n1, h2, ?_, h4, ?_⟩
  · rw [n2]
    intro e he
    simp only [List.flatten_append, List.append_assoc, List.mem_append] at he
    rcases he with he | he | he
    · rw [flatten_leavesL] at he; exact hleft e he
    · exact h3 e (List.mem_append_left _ he)
    · exact h3 e (List.mem_append_right _ he)
  · intro hf
    obtain ⟨h6, h7, h8⟩ := h5 hf
    refine ⟨h6, ?_, ?_⟩
    · intro hc2
      obtain ⟨h9, h10⟩ := h7 hc2
      obtain ⟨h11, h12⟩ := hA h9
      refine ⟨h11, ?_⟩
      rw [n3]
      intro e he
      simp only [List.flatten_append, List.mem_append] at he
      rcases he with he | he
      · exact h10 e he
      · rw [flatten_leavesL] at he; exact h12 e he
    · intro hc2
      obtain ⟨hd, h9⟩ := h8 hc2
      refine ⟨hd, ?_⟩
      rw [n3, n4]
      rcases h9 with ⟨h9, h10⟩ | ⟨h9, h10⟩
      · rcases hB h9 with ⟨h11, h12⟩ | ⟨h11, h12⟩
        · left
          refine ⟨h11, ?_⟩
          rw [h12]
          simp only [leavesL_nil, List.length_nil]
          omega
        · right
          obtain ⟨c2, hc2'⟩ := get_some_of_lt cs (pos + 1) (by omega)
          have hc2W := wf_child hx (List.getElem?_mem hc2')
          have hne := leaves_ne_nil_list hc2W
          have hlen : 0 < (leavesL (cs.drop (pos + 1))).length := by
            rw [drop_of_get hc2', leavesL_cons, List.length_append]
            have := List.length_pos.2 hne
            omega
          refine ⟨by omega, ?_⟩
          intro e he
          rw [List.drop_eq_nil_of_le (by omega)] at he
          simp only [List.nil_append] at he
          rw [flatten_leavesL] at he
          exact h12 e he
      · right
        refine ⟨by omega, ?_⟩
        intro e he
        simp only [List.flatten_append, List.mem_append] at he
        rcases he with he | he
        · exact h10 e he
        · rw [flatten_leavesL] at he; exact hC hd e he

end Node

end BPlusTree

namespace BPlusTree

variable {K V : Type}

namespace Node

variable {p : Params K}

/-- The descent of `btree::lower_bound` from a well-formed node returns, and
stops at the first slot of the subtree that is not below `key`. -/
theorem lower_bound_descend_spec (hv : p.Valid) (key : K) :
    ∀ (fuel h : Nat) (x : Node K V) (off : Nat) (carry : Bool) (minL minI : Nat),
      Wf p minL minI h x → 1 ≤ minL → h < fuel →
      (carry = true → p.kDuplicates = true ∧ ∀ e ∈ toList x, p.comp e.1 key ≤ 0) →
      ∃ found carry' j i es,
        btree.lower_bound_descend p key fuel x off carry =
          .ok (found, carry', { leaf := off + j, pos := i }) ∧
        DescendPost p key (leaves x) carry found carry' j i es := by
  intro fuel
  induction fuel with
  | zero => intro h x off carry minL minI _ _ hf; omega
  | succ fuel ih =>
    intro h x off carry minL minI hx hm hf hcarry
    cases hx with
    | leaf _ _ es h1 h2 h3 =>
      refine ⟨(lower_bound p.comp (es.map Prod.fst) key).1, carry, 0,
        (lower_bound p.comp (es.map Prod.fst) key).2, es, ?_, ?_⟩
      · rw [btree.lower_bound_descend]
        rfl
      · simpa using descend_leaf hv key carry (Wf.leaf minL minI es h1 h2 h3)
          (fun hc => (hcarry hc).1)
    | internal _ _ h0 ks cs h1 h2 h3 h4 h5 =>
      have hx : Wf p minL minI (h0 + 1) (internal ks cs) := Wf.internal _ _ h0 ks cs h1 h2 h3 h4 h5
      have hsorted := wf_keys_sorted hx
      obtain ⟨hpos, htake, hdrop, hfound⟩ := lower_bound_spec hv hsorted key
      have hfinish : ∀ (pos : Nat) (carry1 : Bool) (c : Node K V), cs[pos]? = some c →
          (carry1 = true → p.kDuplicates = true ∧ ∀ e ∈ toList c, p.comp e.1 key ≤ 0) →
          (∀ e ∈ toListL (cs.take pos), p.comp e.1 key < 0) →
          (carry1 = false → carry = false ∧
            ∀ e ∈ toListL (cs.drop (pos + 1)), p.comp key e.1 < 0) →
          (carry1 = true → (carry = true ∧ cs.drop (pos + 1) = []) ∨
            (pos < ks.length ∧ ∀ e ∈ toListL (cs.drop (pos + 1)), p.comp key e.1 ≤ 0)) →
          (p.kDuplicates = true → ∀ e ∈ toListL (cs.drop (pos + 1)), p.comp key e.1 ≤ 0) →
          ∃ found carry' j i es,
            btree.lower_bound_descend p key fuel c (off + (leavesL (cs.take pos)).length) carry1 =
              .ok (found, carry', { leaf := off + j, pos := i }) ∧
            DescendPost p key (leaves (internal ks cs)) carry found carry' j i es := by
        intro pos carry1 c hc hpre hleft hA hB hC
        obtain ⟨found, carry2, j, i, es, hrun, hpost⟩ :=
          ih h0 c (off + (leavesL (cs.take pos)).length) carry1 _ _
            (wf_child hx (List.getElem?_mem hc)) p.leafMin_pos (by omega) hpre
        refine ⟨found, carry2, (leavesL (cs.take pos)).length + j, i, es, ?_, ?_⟩
        · rw [hrun, Nat.add_assoc]
        · rw [leaves_internal]
          exact descend_lift key hx hc hleft hA hB hC hpost
      rw [btree.lower_bound_descend]
      generalize lower_bound p.comp ks key = r at hpos htake hdrop hfound
      have hcl := wf_cs_length hx
      by_cases hf : r.1 = true
      · obtain ⟨k0, hk0, hk0eq⟩ := found_head hv hsorted htake hdrop (hfound.1 hf)
        obtain ⟨_, _, hilt⟩ := list_split_at hk0
        have hkey0 : p.comp key k0 ≤ 0 := by have := (hv.zero_iff _ _).1 hk0eq; omega
        have hRge := wf_right_ge hv hx hpos hdrop
        by_cases hd : p.kDuplicates = true
        · obtain ⟨c, hc⟩ := get_some_of_lt cs r.2 (by omega)
          simp only [hf, hd, Bool.not_true, Bool.and_false, Bool.and_true, Bool.false_eq_true,
            if_false, if_true, List.get?_eq_getElem?, hc]
          refine hfinish r.2 true c hc ?_ (wf_left_lt hv hx hpos htake) (fun h => by cases h)
            (fun _ => Or.inr ⟨hilt, hRge⟩) (fun _ => hRge)
          intro _
          refine ⟨hd, ?_⟩
          intro e he
          apply hv.before_le
          have hks : ∀ k ∈ ks.take (r.2 + 1), p.comp k key ≤ 0 := by
            rw [take_succ_of_get hk0]
            intro k hk
            rcases List.mem_append.1 hk with hk | hk
            · exact hv.le_of_lt (htake k hk)
            · simp at hk; subst hk; omega
          apply wf_left_before hv hx (show r.2 + 1 ≤ ks.length by omega) hks e
          rw [take_succ_of_get hc, toListL_append]
          simp [he]
        · have hd' : p.kDuplicates = false := by simpa using hd
          obtain ⟨c, hc⟩ := get_some_of_lt cs (r.2 + 1) (by omega)
          have hcW := wf_child hx (List.getElem?_mem hc)
          obtain ⟨e0, he0⟩ := List.exists_mem_of_ne_nil _
            (hcW.toList_ne_nil (Or.inl p.leafMin_pos))
          have he0ge : p.comp key e0.1 ≤ 0 := hRge e0 (by rw [drop_of_get hc]; simp [he0])
          have hcf : carry = false := by
            cases hcc : carry with
            | false => rfl
            | true => have := (hcarry hcc).1; rw [hd'] at this; cases this
          simp only [hf, hd', Bool.not_false, Bool.and_false, Bool.and_true, Bool.false_eq_true,
            if_false, if_true, List.get?_eq_getElem?, hc]
          refine hfinish (r.2 + 1) carry c hc (fun h => by rw [hcf] at h; cases h) ?_ ?_
            (fun h => by rw [hcf] at h; cases h) (fun h => by rw [hd'] at h; cases h)
          · intro e he
            have hks : ∀ k ∈ ks.take (r.2 + 1), p.comp k key ≤ 0 := by
              rw [take_succ_of_get hk0]
              intro k hk
              rcases List.mem_append.1 hk with hk | hk
              · exact hv.le_of_lt (htake k hk)
              · simp at hk; subst hk; omega
            have := wf_left_before hv hx (show r.2 + 1 ≤ ks.length by omega) hks e he
            simpa [Params.before, hd'] using this
          · intro _
            refine ⟨hcf, ?_⟩
            intro e he
            have hb := wf_child_before hx hc e0 he0 e he
            have hlt : p.comp e0.1 e.1 < 0 := by simpa [Params.before, hd'] using hb
            exact hv.lt_of_le_of_lt he0ge hlt
      · have hf' : r.1 = false := by simpa using hf
        obtain ⟨c, hc⟩ := get_some_of_lt cs r.2 (by omega)
        have hgt : ∀ k ∈ ks.drop r.2, p.comp key k < 0 := by
          intro k hk
          apply lt_of_le_of_ne hv (hdrop k hk)
          intro hc
          have := hfound.2 ⟨k, List.mem_of_mem_drop hk, hc⟩
          simp [hf'] at this
        have hRgt := wf_right_gt hv hx hpos hgt
        simp only [hf', Bool.false_and, Bool.false_eq_true, if_false, List.get?_eq_getElem?, hc]
        refine hfinish r.2 carry c hc ?_ (wf_left_lt hv hx hpos htake) (fun h => ⟨h, hRgt⟩) ?_
          (fun _ e he => hv.le_of_lt (hRgt e he))
        · intro hcc
          refine ⟨(hcarry hcc).1, ?_⟩
          intro e he
          apply (hcarry hcc).2 e
          rw [toList_internal, (toList_set_child c hc).1]
          simp [he]
        · intro hcc
          left
          refine ⟨hcc, ?_⟩
          by_contra hne
          have hlt : r.2 + 1 < cs.length := by
            by_contra hge
            exact hne (List.drop_eq_nil_of_le (by omega))
          obtain ⟨c2, hc2⟩ := get_some_of_lt cs (r.2 + 1) hlt
          have hc2W := wf_child hx (List.getElem?_mem hc2)
          obtain ⟨e2, he2⟩ := List.exists_mem_of_ne_nil _
            (hc2W.toList_ne_nil (Or.inl p.leafMin_pos))
          have hin : e2 ∈ toListL (cs.drop (r.2 + 1)) := by rw [drop_of_get hc2]; simp [he2]
          have h1 := hRgt e2 hin
          have h2 := (hcarry hcc).2 e2 (by
            rw [toList_internal, (toList_set_child c hc).1]
            simp [hin])
          have h3 := (hv.nonneg_iff _ _).2 h2
          omega

end Node

end BPlusTree

namespace BPlusTree

variable {K V : Type}

namespace btree

variable {p : Params K}

theorem flatten_split {α : Type} {ls : List (List α)} {j : Nat} {es : List α}
    (h : ls[j]? = some es) :
    ls.flatten = (ls.take j).flatten ++ (es ++ (ls.drop (j + 1)).flatten) := by
  obtain ⟨hs, _, _⟩ := list_split_at h
  conv_lhs => rw [hs]
  simp

/-- Effect of `btree::lower_bound` on a tree that satisfies the invariant: it
returns true exactly when an entry with a key equal to `key` exists, and then
the cursor is on the first such entry. -/
theorem lower_bound_tree_spec (hv : p.Valid) {t : Tree K V} (hinv : TreeInv p t) (key : K) :
    (∃ c e b, lower_bound p t key = .ok (true, some c) ∧ entryAt t c = .ok e ∧
        p.comp e.1 key = 0 ∧ contents t = entriesBefore t c ++ e :: b ∧
        ∀ a ∈ entriesBefore t c, p.comp a.1 key < 0) ∨
    (∃ oc, lower_bound p t key = .ok (false, oc) ∧ ∀ e ∈ contents t, p.comp e.1 key ≠ 0) := by
  unfold TreeInv at hinv
  unfold lower_bound
  cases hroot : t.root with
  | none =>
    rw [hroot] at hinv
    simp only at hinv
    right
    exact ⟨none, by simp [hinv], by simp [contents, hroot]⟩
  | some r =>
    rw [hroot] at hinv
    obtain ⟨⟨h, hW⟩, hn⟩ := hinv
    have hne := hW.toList_ne_nil (Or.inl (le_refl _))
    have hnz : t.nkeys ≠ 0 := by
      rw [hn]
      intro hc
      exact hne (List.eq_nil_of_length_eq_zero hc)
    have hchain : chain t = r.leaves := by simp [chain, hroot]
    have hcont : contents t = (chain t).flatten := by
      rw [hchain, Node.flatten_leaves]; simp [contents, hroot]
    have hlne : ∀ l ∈ chain t, l ≠ [] := by
      rw [hchain]; exact Node.leaves_ne_nil h hW (le_refl _)
    have hsorted : (contents t).Pairwise (fun a b => p.comp a.1 b.1 ≤ 0) := by
      have := hW.sorted
      rw [List.pairwise_map] at this
      simp only [contents, hroot]
      exact this.imp (fun h => hv.before_le h)
    obtain ⟨found, carry, j, i, es, hrun, hpost⟩ :=
      Node.lower_bound_descend_spec hv key (r.height + 1) h r 0 false 1 1 hW (le_refl _)
        (by rw [hW.height_eq]; omega) (fun hc => by cases hc)
    rw [← hchain] at hpost
    obtain ⟨h1, h2, h3, h4, h5⟩ := hpost
    have hsplit := flatten_split h1
    simp only [hnz, beq_iff_eq, if_false, hrun, Nat.zero_add]
    cases found with
    | true =>
      obtain ⟨e, he, hek⟩ := h4 rfl
      obtain ⟨hes, _, _⟩ := list_split_at he
      left
      refine ⟨{ leaf := j, pos := i }, e, es.drop (i + 1) ++ ((chain t).drop (j + 1)).flatten,
        rfl, ?_, hek, ?_, ?_⟩
      · simp [entryAt, h1, he]
      · simp only [entriesBefore, List.get?_eq_getElem?, h1, Option.getD_some]
        rw [hcont, hsplit]
        conv_lhs => rw [hes]
        simp
      · simpa only [entriesBefore, List.get?_eq_getElem?, h1, Option.getD_some] using h3
    | false =>
      obtain ⟨h6, h7, h8⟩ := h5 rfl
      have hbefore : ∀ a ∈ ((chain t).take j).flatten, p.comp a.1 key ≠ 0 := by
        intro a ha
        exact Node.ne_of_gt hv (h3 a (List.mem_append_left _ ha))
      simp only
      by_cases hcond : (!p.kDuplicates || !carry) = true
      · simp only [hcond, if_true]
        right
        refine ⟨_, rfl, ?_⟩
        intro e he
        rw [hcont, hsplit] at he
        simp only [List.mem_append] at he
        rcases he with he | he | he
        · exact hbefore e he
        · exact h6 e he
        · cases hc : carry with
          | false => exact Node.ne_of_lt hv ((h7 hc).2 e he)
          | true =>
            have := (h8 hc).1
            simp [this, hc] at hcond
      · simp only [hcond, if_false]
        have hc : carry = true := by
          cases hc : carry with
          | false => simp [hc] at hcond
          | true => rfl
        obtain ⟨hd, h9⟩ := h8 hc
        rcases h9 with ⟨h9, _⟩ | ⟨h9, h10⟩
        · cases h9
        · obtain ⟨es2, hes2⟩ := Node.get_some_of_lt (chain t) (j + 1) h9
          have hd2 := Node.drop_of_get hes2
          have hne2 := hlne es2 (List.getElem?_mem hes2)
          obtain ⟨e, tl, hetl⟩ := List.exists_cons_of_ne_nil hne2
          subst hetl
          have hge : p.comp key e.1 ≤ 0 := h10 e (by rw [hd2]; simp)
          simp only [List.get?_eq_getElem?, hes2, List.head?_cons]
          by_cases heq : p.comp key e.1 = 0
          · simp only [heq, bne_self_eq_false, Bool.false_eq_true, if_false]
            have heq' : p.comp e.1 key = 0 := (hv.zero_iff _ _).2 heq
            left
            refine ⟨{ leaf := j + 1, pos := 0 }, e, tl ++ ((chain t).drop (j + 1 + 1)).flatten,
              rfl, ?_, heq', ?_, ?_⟩
            · simp [entryAt, hes2]
            · simp only [entriesBefore, List.get?_eq_getElem?, hes2, Option.getD_some,
                List.take_zero, List.append_nil]
              rw [hcont]
              conv_lhs => rw [← List.take_append_drop (j + 1) (chain t), hd2]
              simp
            · simp only [entriesBefore, List.get?_eq_getElem?, hes2, Option.getD_some,
                List.take_zero, List.append_nil]
              intro a ha
              rw [Node.take_succ_of_get h1] at ha
              simp only [List.flatten_append, List.flatten_cons, List.flatten_nil,
                List.append_nil, List.mem_append] at ha
              rcases ha with ha | ha
              · exact h3 a (List.mem_append_left _ ha)
              · have hle : p.comp a.1 e.1 ≤ 0 := by
                  rw [hcont, hsplit, hd2] at hsorted
                  have h11 := (List.pairwise_append.1 (List.pairwise_append.1 hsorted).2.1).2.2
                  exact h11 a ha e (by simp)
                have hle' : p.comp a.1 key ≤ 0 := hv.comp_trans _ _ _ hle (le_of_eq heq')
                exact Node.lt_of_le_of_ne hv hle' (fun hc2 => h6 a ha ((hv.zero_iff _ _).2 hc2))
          · have hbne : (p.comp key e.1 != 0) = true := by simpa using heq
            simp only [hbne, if_true]
            right
            refine ⟨_, rfl, ?_⟩
            have hlt : p.comp key e.1 < 0 := by omega
            intro a ha
            rw [hcont, hsplit] at ha
            simp only [List.mem_append] at ha
            rcases ha with ha | ha | ha
            · exact hbefore a ha
            · exact h6 a ha
            · apply Node.ne_of_lt hv
              rw [hd2] at ha
              simp only [List.flatten_cons, List.mem_append, List.mem_cons] at ha
              have hea : p.comp e.1 a.1 ≤ 0 := by
                rw [hcont, hsplit, hd2] at hsorted
                have h11 := (List.pairwise_append.1 (List.pairwise_append.1 hsorted).2.1).2.1
                simp only [List.flatten_cons, List.cons_append, List.pairwise_cons] at h11
                rcases ha with (ha | ha) | ha
                · subst ha; exact le_of_eq (hv.comp_self _)
                · exact h11.1 a (by simp [ha])
                · exact h11.1 a (by simp [ha])
              exact hv.lt_of_lt_of_le hlt hea

end btree

end BPlusTree

namespace BPlusTree

variable {K V : Type}

theorem intParams_valid (dup : Bool) : (intParams dup).Valid where
  comp_antisymm := by intro a b; simp only [intParams]; omega
  comp_trans := by intro a b c; simp only [intParams]; omega
  internal_fits := by simp [Params.kInternalNodeMaxKeys, intParams]
  leaf_fits := by simp [Params.kLeafNodeMaxKeys, intParams]

theorem refErase_decomp (comp : K → K → Int) (key : K) :
    ∀ {l : List (K × V)}, (∃ e ∈ l, comp e.1 key = 0) →
      ∃ a e b, l = a ++ e :: b ∧ (∀ x ∈ a, comp x.1 key ≠ 0) ∧ comp e.1 key = 0 ∧
        refErase comp key l = a ++ b
  | [], h => by obtain ⟨e, he, _⟩ := h; simp at he
  | x :: l, h => by
    by_cases hx : comp x.1 key = 0
    · exact ⟨[], x, l, rfl, by simp, hx, by simp [refErase, hx]⟩
    · have h' : ∃ e ∈ l, comp e.1 key = 0 := by
        obtain ⟨e, he, hek⟩ := h
        rcases List.mem_cons.1 he with he | he
        · subst he; exact absurd hek hx
        · exact ⟨e, he, hek⟩
      obtain ⟨a, e, b, h1, h2, h3, h4⟩ := refErase_decomp comp key h'
      refine ⟨x :: a, e, b, by simp [h1], ?_, h3, by simp [refErase, hx, h4]⟩
      intro y hy
      rcases List.mem_cons.1 hy with hy | hy
      · subst hy; exact hx
      · exact h2 y hy

namespace btree

variable {p : Params K}

/-- The keys of the in-order sequence of a tree that satisfies the invariant
are in non-decreasing order. -/
theorem contents_sorted (hv : p.Valid) {t : Tree K V} (hinv : TreeInv p t) :
    ((contents t).map Prod.fst).Pairwise (fun a b => p.comp a b ≤ 0) := by
  unfold TreeInv at hinv
  unfold contents
  cases hroot : t.root with
  | none => simp
  | some r =>
    rw [hroot] at hinv
    obtain ⟨⟨h, hW⟩, _⟩ := hinv
    exact hW.sorted.imp (fun h => hv.before_le h)

/-- After `insert(key, value)` the tree holds an entry with a key equal to
`key`. -/
theorem insert_present (hv : p.Valid) {t : Tree K V} (hinv : TreeInv p t) (key : K) (value : V) :
    ∃ t', insert p t key value = .ok t' ∧ TreeInv p t' ∧
      ∃ e ∈ contents t', p.comp e.1 key = 0 := by
  obtain ⟨t', h1, h2, h3⟩ := insert_spec hv hinv key value
  refine ⟨t', h1, h2, ?_⟩
  rcases h3 with ⟨_, a, b, _, hc, _⟩ | ⟨_, _, hk, e, he, hek⟩
  · exact ⟨(key, value), by rw [hc]; simp, hv.comp_self key⟩
  · have hm : e.1 ∈ (contents t').map Prod.fst := by
      rw [hk]; exact List.mem_map_of_mem _ he
    obtain ⟨e', he', hee⟩ := List.mem_map.1 hm
    exact ⟨e', he', by rw [hee]; exact hek⟩

/-- Inserting a list of pairs one after the other keeps, for every key, the
pairs with that key in insertion order. -/
theorem insertAll_spec (hv : p.Valid) :
    ∀ (l d : List (K × V)) (t : Tree K V), TreeInv p t → (contents t).Perm d →
      (∀ k, (contents t).filter (fun e => p.comp e.1 k == 0) =
        d.filter (fun e => p.comp e.1 k == 0)) →
      (p.kDuplicates = false →
        ((d ++ l).map Prod.fst).Pairwise (fun a b => p.comp a b ≠ 0)) →
      ∃ t', insertAll p t l = .ok t' ∧ TreeInv p t' ∧ (contents t').Perm (d ++ l) ∧
        ∀ k, (contents t').filter (fun e => p.comp e.1 k == 0) =
          (d ++ l).filter (fun e => p.comp e.1 k == 0) := by
  intro l
  induction l with
  | nil =>
    intro d t hinv hperm hfil _
    exact ⟨t, rfl, hinv, by simpa using hperm, by simpa using hfil⟩
  | cons x l ih =>
    intro d t hinv hperm hfil hdis
    obtain ⟨k, v⟩ := x
    obtain ⟨t1, h1, h2, h3⟩ := insert_spec hv hinv k v
    have hassoc : d ++ (k, v) :: l = (d ++ [(k, v)]) ++ l := by simp
    rcases h3 with ⟨_, a, b, hab, hc, ha, hb⟩ | ⟨_, hd, _, e, he, hek⟩
    · have hperm1 : (contents t1).Perm (d ++ [(k, v)]) := by
        rw [hc]
        refine List.perm_middle.trans ?_
        refine List.Perm.trans ?_ (List.perm_append_singleton _ _).symm
        exact List.Perm.cons _ (by rw [← hab]; exact hperm)
      have hfil1 : ∀ k', (contents t1).filter (fun e => p.comp e.1 k' == 0) =
          (d ++ [(k, v)]).filter (fun e => p.comp e.1 k' == 0) := by
        intro k'
        have hf := hfil k'
        rw [hab, List.filter_append] at hf
        rw [hc, List.filter_append, List.filter_append, ← hf]
        by_cases hkk : p.comp k k' = 0
        · have hbnil : b.filter (fun e => p.comp e.1 k' == 0) = [] := by
            rw [List.filter_eq_nil_iff]
            intro e he hc2
            have hc3 : p.comp e.1 k' = 0 := by simpa using hc2
            have h4 : p.comp e.1 k ≤ 0 :=
              hv.comp_trans _ _ _ (le_of_eq hc3) (le_of_eq ((hv.zero_iff _ _).1 hkk))
            have h5 := (hv.nonneg_iff _ _).2 h4
            have h6 := hb e he
            omega
          simp [List.filter_cons, hkk, hbnil]
        · simp [List.filter_cons, hkk]
      obtain ⟨t', h4, h5, h6, h7⟩ := ih (d ++ [(k, v)]) t1 h2 hperm1 hfil1
        (by rw [← hassoc]; exact hdis)
      refine ⟨t', ?_, h5, by rw [hassoc]; exact h6, by rw [hassoc]; exact h7⟩
      simp only [insertAll, h1]
      exact h4
    · have hdis' := hdis hd
      rw [List.map_append, List.pairwise_append] at hdis'
      have hed : e.1 ∈ d.map Prod.fst := List.mem_map_of_mem _ (hperm.subset he)
      exact absurd hek (hdis'.2.2 e.1 hed k (by simp))

end btree

end BPlusTree

namespace BPlusTree

variable {K V : Type}

theorem reachable_applyOps {p : Params K} :
    ∀ (ops : List (Op K V)) {t t' : Tree K V}, Reachable p t →
      btree.applyOps p t ops = .ok t' → Reachable p t'
  | [], t, t', hr, h => by
    simp only [btree.applyOps] at h
    injection h with h
    subst h
    exact hr
  | .insert k v :: ops, t, t', hr, h => by
    simp only [btree.applyOps] at h
    cases h1 : btree.insert p t k v with
    | error f => rw [h1] at h; cases h
    | ok t1 =>
      rw [h1] at h
      exact reachable_applyOps ops (Reachable.insert k v hr h1) h
  | .erase k :: ops, t, t', hr, h => by
    simp only [btree.applyOps] at h
    cases h1 : btree.erase p t k with
    | error f => rw [h1] at h; cases h
    | ok r =>
      obtain ⟨b, t1⟩ := r
      rw [h1] at h
      exact reachable_applyOps ops (Reachable.erase k b hr h1) h

variable {p : Params K}

/-- Claim C1: for every tree reachable from the empty tree by `insert` and
`erase` calls, in unique and in duplicate mode, walking `next` from `begin`
returns, and every two consecutive keys `k_i, k_{i+1}` of the walk satisfy
`C(k_i, k_{i+1}) ≤ 0`. -/
theorem forward_keys_nondecreasing (hv : p.Valid) {t : Tree K V} (hr : Reachable p t) :
    ∃ l, btree.forward t = .ok l ∧
      (l.map Prod.fst).Chain' (fun a b => p.comp a b ≤ 0) := by
  have hinv := btree.reachable_inv hv hr
  exact ⟨contents t, btree.forward_spec hinv,
    (btree.contents_sorted hv hinv).chain'⟩

theorem forward_keys_nondecreasing_witness :
    (intParams true).Valid ∧
    Reachable (intParams true)
      ({ root := some (.internal [3, 5]
          [.leaf [(1, 10), (2, 20)], .leaf [(3, 30), (4, 40)], .leaf [(6, 60)]]),
         nkeys := 5 } : Tree Int Nat) ∧
    ∃ l, btree.forward
        ({ root := some (.internal [3, 5]
            [.leaf [(1, 10), (2, 20)], .leaf [(3, 30), (4, 40)], .leaf [(6, 60)]]),
           nkeys := 5 } : Tree Int Nat) = .ok l ∧
      (l.map Prod.fst).Chain' (fun a b => (intParams true).comp a b ≤ 0) :=
  have hr : Reachable (intParams true)
      ({ root := some (.internal [3, 5]
          [.leaf [(1, 10), (2, 20)], .leaf [(3, 30), (4, 40)], .leaf [(6, 60)]]),
         nkeys := 5 } : Tree Int Nat) :=
    reachable_applyOps
      [.insert 1 10, .insert 2 20, .insert 3 30, .insert 4 40, .insert 5 50, .insert 6 60,
       .erase 5] Reachable.empty (by rfl)
  ⟨intParams_valid true, hr, forward_keys_nondecreasing (intParams_valid true) hr⟩

/-- Claim C2: inserting a finite list of pairs in list order into an empty
tree (any list in multimap mode, a list with pairwise distinct keys in map
mode) succeeds, and forward iteration then yields the stable sort of the list
by key: the keys are ascending, the sequence is a rearrangement of the list, and
for every key the pairs with that key appear in insertion order, each with its
own value. -/
theorem insert_all_stable_sort (hv : p.Valid) (l : List (K × V))
    (hdistinct : p.kDuplicates = false →
      (l.map Prod.fst).Pairwise (fun a b => p.comp a b ≠ 0)) :
    ∃ t out, btree.insertAll p btree.empty l = .ok t ∧ btree.forward t = .ok out ∧
      (out.map Prod.fst).Pairwise (fun a b => p.comp a b ≤ 0) ∧ out.Perm l ∧
      ∀ k, out.filter (fun e => p.comp e.1 k == 0) = l.filter (fun e => p.comp e.1 k == 0) := by
  have hinv0 : TreeInv p (btree.empty : Tree K V) := by simp [TreeInv, btree.empty]
  obtain ⟨t, h1, h2, h3, h4⟩ := btree.insertAll_spec hv l [] btree.empty hinv0
    (by simp [contents, btree.empty]) (by simp [contents, btree.empty])
    (by simpa using hdistinct)
  exact ⟨t, contents t, h1, btree.forward_spec h2, btree.contents_sorted hv h2,
    by simpa using h3, by simpa using h4⟩

theorem insert_all_stable_sort_witness :
    (intParams false).Valid ∧
    ((intParams false).kDuplicates = false →
      (([(2, 20), (1, 10), (3, 30), (0, 5)] : List (Int × Nat)).map Prod.fst).Pairwise
        (fun a b => (intParams false).comp a b ≠ 0)) ∧
    ∃ t out, btree.insertAll (intParams false) btree.empty
        ([(2, 20), (1, 10), (3, 30), (0, 5)] : List (Int × Nat)) = .ok t ∧
      btree.forward t = .ok out ∧
      (out.map Prod.fst).Pairwise (fun a b => (intParams false).comp a b ≤ 0) ∧
      out.Perm [(2, 20), (1, 10), (3, 30), (0, 5)] ∧
      ∀ k, out.filter (fun e => (intParams false).comp e.1 k == 0) =
        ([(2, 20), (1, 10), (3, 30), (0, 5)] : List (Int × Nat)).filter
          (fun e => (intParams false).comp e.1 k == 0) :=
  ⟨intParams_valid false, fun _ => by decide,
    insert_all_stable_sort (intParams_valid false) _ (fun _ => by decide)⟩

end BPlusTree

namespace BPlusTree

variable {K V : Type}

variable {p : Params K}

/-- Claim C3, evaluated at a sequence of calls on a multimap with fanout 3:
after six inserts and the removal of keys 5 and 4, `erase(5)` of the absent key
5 follows the null successor of the last leaf, although the reference list
simply reports that nothing is removed and stays as it is. -/
theorem applyOps_null_successor :
    btree.applyOps (intParams true) (btree.empty : Tree Int Nat)
      [.insert 1 10, .insert 2 20, .insert 3 30, .insert 4 40, .insert 5 50, .insert 6 60,
       .erase 5, .erase 4, .erase 5] = .error .nullNode ∧
    refApply (intParams true).comp ([] : List (Int × Nat))
      [.insert 1 10, .insert 2 20, .insert 3 30, .insert 4 40, .insert 5 50, .insert 6 60,
       .erase 5, .erase 4, .erase 5] = [(1, 10), (2, 20), (3, 30), (6, 60)] := by
  constructor
  · rfl
  · decide

/-- Claim C4: for every reachable tree, every key and every value, in either
mode, `insert(k, v)` returns, and afterwards `find(k)` returns true and leaves
the cursor on an entry whose key compares equal to `k`. -/
theorem find_after_insert (hv : p.Valid) {t : Tree K V} (hr : Reachable p t) (key : K)
    (value : V) :
    ∃ t' c e, btree.insert p t key value = .ok t' ∧
      btree.find p t' key = .ok (true, some c) ∧ btree.entryAt t' c = .ok e ∧
      p.comp e.1 key = 0 := by
  obtain ⟨t', h1, h2, e0, he0, hek0⟩ := btree.insert_present hv (btree.reachable_inv hv hr)
    key value
  rcases btree.lower_bound_tree_spec hv h2 key with ⟨c, e, b, h3, h4, h5, _⟩ | ⟨oc, _, h3⟩
  · exact ⟨t', c, e, h1, h3, h4, h5⟩
  · exact absurd hek0 (h3 e0 he0)

theorem find_after_insert_witness :
    (intParams true).Valid ∧
    Reachable (intParams true)
      ({ root := some (.internal [3] [.leaf [(1, 10), (2, 20)], .leaf [(3, 30), (4, 40)]]),
         nkeys := 4 } : Tree Int Nat) ∧
    ∃ t' c e, btree.insert (intParams true)
        ({ root := some (.internal [3] [.leaf [(1, 10), (2, 20)], .leaf [(3, 30), (4, 40)]]),
           nkeys := 4 } : Tree Int Nat) 2 21 = .ok t' ∧
      btree.find (intParams true) t' 2 = .ok (true, some c) ∧ btree.entryAt t' c = .ok e ∧
      (intParams true).comp e.1 2 = 0 :=
  have hr : Reachable (intParams true)
      ({ root := some (.internal [3] [.leaf [(1, 10), (2, 20)], .leaf [(3, 30), (4, 40)]]),
         nkeys := 4 } : Tree Int Nat) :=
    reachable_applyOps [.insert 1 10, .insert 2 20, .insert 3 30, .insert 4 40]
      Reachable.empty (by rfl)
  ⟨intParams_valid true, hr, find_after_insert (intParams_valid true) hr 2 21⟩

/-- Claim C5: for every reachable tree and every key `k`, in either mode,
`find(k)` is `lower_bound(k)`; it returns true if and only if the iteration
sequence holds an entry whose key compares equal to `k`, and when it returns
true the cursor is on the first such entry: no entry that iteration visits
before the cursor has a key equal to `k`. -/
theorem find_first_match (hv : p.Valid) {t : Tree K V} (hr : Reachable p t) (key : K) :
    btree.find p t key = btree.lower_bound p t key ∧
    ∃ l, btree.forward t = .ok l ∧
      ((∃ c e b, btree.lower_bound p t key = .ok (true, some c) ∧
          (∃ x ∈ l, p.comp x.1 key = 0) ∧ btree.entryAt t c = .ok e ∧ p.comp e.1 key = 0 ∧
          l = btree.entriesBefore t c ++ e :: b ∧
          ∀ a ∈ btree.entriesBefore t c, p.comp a.1 key ≠ 0) ∨
       (∃ oc, btree.lower_bound p t key = .ok (false, oc) ∧
          ∀ x ∈ l, p.comp x.1 key ≠ 0)) := by
  have hinv := btree.reachable_inv hv hr
  refine ⟨rfl, contents t, btree.forward_spec hinv, ?_⟩
  rcases btree.lower_bound_tree_spec hv hinv key with ⟨c, e, b, h3, h4, h5, h6, h7⟩ | ⟨oc, h3, h4⟩
  · left
    refine ⟨c, e, b, h3, ⟨e, by rw [h6]; simp, h5⟩, h4, h5, h6, ?_⟩
    intro a ha
    exact Node.ne_of_gt hv (h7 a ha)
  · exact Or.inr ⟨oc, h3, h4⟩

theorem find_first_match_witness :
    (intParams true).Valid ∧ Reachable (intParams true) multimapTies ∧
    (btree.find (intParams true) multimapTies 2 =
        btree.lower_bound (intParams true) multimapTies 2 ∧
      ∃ l, btree.forward multimapTies = .ok l ∧
        ((∃ c e b, btree.lower_bound (intParams true) multimapTies 2 = .ok (true, some c) ∧
            (∃ x ∈ l, (intParams true).comp x.1 2 = 0) ∧
            btree.entryAt multimapTies c = .ok e ∧ (intParams true).comp e.1 2 = 0 ∧
            l = btree.entriesBefore multimapTies c ++ e :: b ∧
            ∀ a ∈ btree.entriesBefore multimapTies c, (intParams true).comp a.1 2 ≠ 0) ∨
         (∃ oc, btree.lower_bound (intParams true) multimapTies 2 = .ok (false, oc) ∧
            ∀ x ∈ l, (intParams true).comp x.1 2 ≠ 0))) :=
  have hr : Reachable (intParams true) multimapTies :=
    reachable_applyOps [.insert 1 10, .insert 2 20, .insert 2 21, .insert 3 30, .insert 2 22]
      Reachable.empty (by rfl)
  ⟨intParams_valid true, hr, find_first_match (intParams_valid true) hr 2⟩

end BPlusTree

namespace BPlusTree

variable {K V : Type}

variable {p : Params K}

/-- Claim C6, evaluated on a map with fanout 3: after `insert(1, 10)` and
`insert(2, 20)`, the call `insert(1, 99)` returns, but `get(1)` afterwards
still yields the old value 10, not 99. -/
theorem overwrite_keeps_old_value :
    btree.applyOps (intParams false) (btree.empty : Tree Int Nat)
      [.insert 1 10, .insert 2 20, .insert 1 99] =
      .ok { root := some (.leaf [(1, 10), (2, 99)]), nkeys := 2 } ∧
    btree.get (intParams false)
      ({ root := some (.leaf [(1, 10), (2, 99)]), nkeys := 2 } : Tree Int Nat) 1 =
      .ok (some 10) := by
  constructor <;> rfl

/-- Claim C7, evaluated on a map with fanout 3 that holds `(1, 10)` and
`(2, 20)`: `insert(1, 99)` leaves `count()` at 2 but changes the value stored
for the other key 2 from 20 to 99. -/
theorem overwrite_changes_next_entry :
    btree.forward ({ root := some (.leaf [(1, 10), (2, 20)]), nkeys := 2 } : Tree Int Nat) =
      .ok [(1, 10), (2, 20)] ∧
    btree.insert (intParams false)
      ({ root := some (.leaf [(1, 10), (2, 20)]), nkeys := 2 } : Tree Int Nat) 1 99 =
      .ok { root := some (.leaf [(1, 10), (2, 99)]), nkeys := 2 } ∧
    btree.forward ({ root := some (.leaf [(1, 10), (2, 99)]), nkeys := 2 } : Tree Int Nat) =
      .ok [(1, 10), (2, 99)] := by
  refine ⟨?_, ?_, ?_⟩ <;> rfl

/-- Claim C8: for every reachable tree, in either mode, that holds at least
one entry whose key compares equal to `k`, `erase(k)` returns true. -/
theorem erase_present_true (hv : p.Valid) {t : Tree K V} (hr : Reachable p t) (key : K)
    (hmem : ∃ e ∈ contents t, p.comp e.1 key = 0) :
    ∃ t', btree.erase p t key = .ok (true, t') := by
  rcases btree.erase_spec hv (btree.reachable_inv hv hr) key with
    ⟨t', h1, _⟩ | ⟨t', _, _, h2, _⟩ | ⟨_, h2, _⟩
  · exact ⟨t', h1⟩
  · obtain ⟨e, he, hek⟩ := hmem
    exact absurd hek (h2 e he)
  · obtain ⟨e, he, hek⟩ := hmem
    exact absurd hek (h2 e he)

theorem erase_present_true_witness :
    (intParams true).Valid ∧ Reachable (intParams true) multimapStale ∧
    (∃ e ∈ contents multimapStale, (intParams true).comp e.1 6 = 0) ∧
    ∃ t', btree.erase (intParams true) multimapStale 6 = .ok (true, t') :=
  have hr : Reachable (intParams true) multimapStale :=
    reachable_applyOps
      [.insert 1 10, .insert 2 20, .insert 3 30, .insert 4 40, .insert 5 50, .insert 6 60,
       .erase 5, .erase 4] Reachable.empty (by rfl)
  have hmem : ∃ e ∈ contents multimapStale, (intParams true).comp e.1 6 = 0 :=
    ⟨(6, 60), by decide, by decide⟩
  ⟨intParams_valid true, hr, hmem, erase_present_true (intParams_valid true) hr 6 hmem⟩

/-- Claim C9, evaluated on a multimap with fanout 3: the tree reached by six
inserts and the removal of keys 5 and 4 holds no entry with key 5, and
`erase(5)` on it follows the null successor of the last leaf instead of
returning false. -/
theorem erase_absent_null_successor :
    btree.applyOps (intParams true) (btree.empty : Tree Int Nat)
      [.insert 1 10, .insert 2 20, .insert 3 30, .insert 4 40, .insert 5 50, .insert 6 60,
       .erase 5, .erase 4] = .ok multimapStale ∧
    (∀ e ∈ contents multimapStale, (intParams true).comp e.1 5 ≠ 0) ∧
    btree.erase (intParams true) multimapStale 5 = .error .nullNode := by
  refine ⟨by rfl, by decide, by rfl⟩

/-- Claim C10: for every reachable tree holding a key equal to `k`, `erase(k)`
returns true and removes exactly one entry, the first one in iteration order
whose key equals `k`; all other pairs keep their values and their relative
order, and `count()` goes down by one. -/
theorem erase_removes_first_match (hv : p.Valid) {t : Tree K V} (hr : Reachable p t) (key : K)
    (hmem : ∃ e ∈ contents t, p.comp e.1 key = 0) :
    ∃ t' a e b, btree.erase p t key = .ok (true, t') ∧
      btree.forward t = .ok (a ++ e :: b) ∧ (∀ x ∈ a, p.comp x.1 key ≠ 0) ∧
      p.comp e.1 key = 0 ∧ btree.forward t' = .ok (a ++ b) ∧
      btree.count t' + 1 = btree.count t := by
  have hinv := btree.reachable_inv hv hr
  obtain ⟨a, e, b, h1, h2, h3, h4⟩ := refErase_decomp p.comp key hmem
  rcases btree.erase_spec hv hinv key with
    ⟨t', h5, h6, _, h7, h8⟩ | ⟨t', _, _, h5, _⟩ | ⟨_, h5, _⟩
  · refine ⟨t', a, e, b, h5, ?_, h2, h3, ?_, h8⟩
    · rw [btree.forward_spec hinv, h1]
    · rw [btree.forward_spec h6, h7, h4]
  · obtain ⟨e, he, hek⟩ := hmem
    exact absurd hek (h5 e he)
  · obtain ⟨e, he, hek⟩ := hmem
    exact absurd hek (h5 e he)

theorem erase_removes_first_match_witness :
    (intParams true).Valid ∧ Reachable (intParams true) multimapTies ∧
    (∃ e ∈ contents multimapTies, (intParams true).comp e.1 2 = 0) ∧
    ∃ t' a e b, btree.erase (intParams true) multimapTies 2 = .ok (true, t') ∧
      btree.forward multimapTies = .ok (a ++ e :: b) ∧
      (∀ x ∈ a, (intParams true).comp x.1 2 ≠ 0) ∧
      (intParams true).comp e.1 2 = 0 ∧ btree.forward t' = .ok (a ++ b) ∧
      btree.count t' + 1 = btree.count multimapTies :=
  have hr : Reachable (intParams true) multimapTies :=
    reachable_applyOps [.insert 1 10, .insert 2 20, .insert 2 21, .insert 3 30, .insert 2 22]
      Reachable.empty (by rfl)
  have hmem : ∃ e ∈ contents multimapTies, (intParams true).comp e.1 2 = 0 :=
    ⟨(2, 20), by decide, by decide⟩
  ⟨intParams_valid true, hr, hmem,
    erase_removes_first_match (intParams_valid true) hr 2 hmem⟩

end BPlusTree

namespace BPlusTree

variable {K V : Type}

variable {p : Params K}

theorem refInsert_split (hv : p.Valid) (key : K) (value : V) :
    ∀ {a b : List (K × V)}, (∀ e ∈ a, p.comp e.1 key ≤ 0) → (∀ e ∈ b, p.comp key e.1 < 0) →
      refInsert p.comp key value (a ++ b) = a ++ (key, value) :: b
  | [], [], _, _ => by simp [refInsert]
  | [], e :: b, _, hb => by
    have h1 := hb e (List.mem_cons_self _ _)
    have h2 := (hv.comp_antisymm _ _).1 h1
    have h3 : ¬ p.comp e.1 key ≤ 0 := by omega
    simp [refInsert, h3]
  | e :: a, b, ha, hb => by
    have h1 := ha e (List.mem_cons_self _ _)
    have ih := refInsert_split hv key value (a := a) (b := b)
      (fun x hx => ha x (List.mem_cons_of_mem _ hx)) hb
    simp only [List.cons_append, refInsert, h1, if_true]
    exact congrArg (List.cons e) ih

namespace btree

/-- On a tree that satisfies the invariant, `insert` of a key that is absent
(or of any key when duplicates are allowed) acts like the reference insertion. -/
theorem insert_refines (hv : p.Valid) {t : Tree K V} (hinv : TreeInv p t) (key : K) (value : V)
    (habs : p.kDuplicates = false → ∀ e ∈ contents t, p.comp e.1 key ≠ 0) :
    ∃ t', insert p t key value = .ok t' ∧ TreeInv p t' ∧
      contents t' = refInsert p.comp key value (contents t) ∧ t'.nkeys = t.nkeys + 1 := by
  obtain ⟨t', h1, h2, h3⟩ := insert_spec hv hinv key value
  refine ⟨t', h1, h2, ?_⟩
  rcases h3 with ⟨hn, a, b, hab, hc, ha, hb⟩ | ⟨_, hd, _, e, he, hek⟩
  · refine ⟨?_, hn⟩
    rw [hc, hab]
    exact (refInsert_split hv key value (fun e he => hv.before_le (ha e he)) hb).symm
  · exact absurd hek (habs hd e he)

/-- A sequence of calls on a tree that satisfies the invariant follows the
reference list, unless an `erase` in duplicate mode follows a null successor. -/
theorem applyOps_refines (hv : p.Valid) :
    ∀ (ops : List (Op K V)) (t : Tree K V), TreeInv p t → NoOverwrite p (contents t) ops →
      (∃ t', applyOps p t ops = .ok t' ∧ TreeInv p t' ∧
          contents t' = refApply p.comp (contents t) ops ∧
          count t' = (refApply p.comp (contents t) ops).length) ∨
      (p.kDuplicates = true ∧ applyOps p t ops = .error .nullNode)
  | [], t, hinv, _ => by
    left
    refine ⟨t, rfl, hinv, rfl, ?_⟩
    unfold TreeInv at hinv
    unfold count contents refApply
    cases hroot : t.root with
    | none => rw [hroot] at hinv; simpa using hinv
    | some r => rw [hroot] at hinv; simpa using hinv.2
  | .insert k v :: ops, t, hinv, hno => by
    obtain ⟨hno1, hno2⟩ := hno
    obtain ⟨t1, h1, h2, h3, _⟩ := insert_refines hv hinv k v hno1
    rw [← h3] at hno2
    simp only [applyOps, h1, refApply]
    rw [← h3]
    exact applyOps_refines hv ops t1 h2 hno2
  | .erase k :: ops, t, hinv, hno => by
    have hno' : NoOverwrite p (refErase p.comp k (contents t)) ops := hno
    rcases erase_spec hv hinv k with
      ⟨t1, h1, h2, _, h3, _⟩ | ⟨t1, h1, h2, h4, h3, _⟩ | ⟨h1, _, hd⟩
    · simp only [applyOps, h1, refApply]
      rw [← h3] at hno' ⊢
      exact applyOps_refines hv ops t1 h2 hno'
    · have h5 : refErase p.comp k (contents t) = contents t := refErase_of_not_mem _ _ h4
      simp only [applyOps, h1, refApply]
      rw [h5, ← h3] at hno' ⊢
      exact applyOps_refines hv ops t1 h2 hno'
    · right
      exact ⟨hd, by simp only [applyOps, h1]⟩

end btree

end BPlusTree

namespace BPlusTree

variable {K V : Type}

variable {p : Params K}

namespace btree

/-- When duplicates are not allowed, the keys of the in-order sequence of a
tree that satisfies the invariant are strictly increasing. -/
theorem contents_strict (_hv : p.Valid) (hd : p.kDuplicates = false) {t : Tree K V}
    (hinv : TreeInv p t) :
    ((contents t).map Prod.fst).Pairwise (fun a b => p.comp a b < 0) := by
  unfold TreeInv at hinv
  unfold contents
  cases hroot : t.root with
  | none => simp
  | some r =>
    rw [hroot] at hinv
    obtain ⟨⟨h, hW⟩, _⟩ := hinv
    exact hW.sorted.imp (fun h => by simpa [Params.before, hd] using h)

/-- The bookkeeping of a sequence of calls on a tree that satisfies the
invariant: `count()` moves with the counted inserts and the successful erases,
unless an `erase` in duplicate mode follows a null successor. -/
theorem tally_count (hv : p.Valid) :
    ∀ (ops : List (Op K V)) (t : Tree K V), TreeInv p t →
      (∃ t' i e, tally p t ops = .ok (t', i, e) ∧ TreeInv p t' ∧
          count t' + e = count t + i) ∨
      (p.kDuplicates = true ∧ tally p t ops = .error .nullNode)
  | [], t, hinv => Or.inl ⟨t, 0, 0, rfl, hinv, rfl⟩
  | .insert k v :: ops, t, hinv => by
    obtain ⟨t1, h1, h2, h3⟩ := insert_spec hv hinv k v
    rcases tally_count hv ops t1 h2 with ⟨t', i, e, h4, h5, h6⟩ | ⟨hd, h4⟩
    · left
      simp only [tally, h1, h4]
      refine ⟨t', _, e, rfl, h5, ?_⟩
      unfold count at h6 ⊢
      rcases h3 with ⟨hn, a, b, hab, _, ha, hb⟩ | ⟨hn, hd, _, x, hx, hxk⟩
      · have hcond : (!p.kDuplicates && (contents t).any (fun x => p.comp x.1 k == 0)) = false := by
          cases hd : p.kDuplicates with
          | true => simp
          | false =>
            simp only [Bool.not_false, Bool.true_and, List.any_eq_false, beq_iff_eq]
            intro x hx
            rw [hab] at hx
            rcases List.mem_append.1 hx with hx | hx
            · have := ha x hx
              simp only [Params.before, hd] at this
              simp at this
              omega
            · exact Node.ne_of_lt hv (hb x hx)
        simp only [hcond, Bool.false_eq_true, if_false]
        omega
      · have hcond : (!p.kDuplicates && (contents t).any (fun x => p.comp x.1 k == 0)) = true := by
          simp only [hd, Bool.not_false, Bool.true_and, List.any_eq_true, beq_iff_eq]
          exact ⟨x, hx, hxk⟩
        simp only [hcond, if_true]
        omega
    · right
      exact ⟨hd, by simp only [tally, h1, h4]⟩
  | .erase k :: ops, t, hinv => by
    rcases erase_spec hv hinv k with
      ⟨t1, h1, h2, _, _, h3⟩ | ⟨t1, h1, h2, _, _, h3⟩ | ⟨h1, _, hd⟩
    · rcases tally_count hv ops t1 h2 with ⟨t', i, e, h4, h5, h6⟩ | ⟨hd, h4⟩
      · left
        simp only [tally, h1, h4]
        refine ⟨t', i, _, rfl, h5, ?_⟩
        unfold count at h6 ⊢
        simp only [if_true]
        omega
      · right
        exact ⟨hd, by simp only [tally, h1, h4]⟩
    · rcases tally_count hv ops t1 h2 with ⟨t', i, e, h4, h5, h6⟩ | ⟨hd, h4⟩
      · left
        simp only [tally, h1, h4]
        refine ⟨t', i, _, rfl, h5, ?_⟩
        unfold count at h6 ⊢
        simp only [Bool.false_eq_true, if_false]
        omega
      · right
        exact ⟨hd, by simp only [tally, h1, h4]⟩
    · right
      exact ⟨hd, by simp only [tally, h1]⟩

end btree

/-- Claim C11: for every reachable tree and every `insert(k, v)` that adds an
entry (any `k` in duplicate mode, `k` not present in unique mode), the call
returns and the forward iteration sequence afterwards is the previous one with
`(k, v)` placed right after the last entry whose key is `≤ k`: the entries
before it are the ones with a key `≤ k`, the entries after it the ones with a
key `> k`, all unchanged, and `count()` grows by one. -/
theorem insert_after_last_le (hv : p.Valid) {t : Tree K V} (hr : Reachable p t) (key : K)
    (value : V) (habs : p.kDuplicates = false → ∀ e ∈ contents t, p.comp e.1 key ≠ 0) :
    ∃ t' a b, btree.insert p t key value = .ok t' ∧ btree.forward t = .ok (a ++ b) ∧
      btree.forward t' = .ok (a ++ (key, value) :: b) ∧
      (∀ e ∈ a, p.comp e.1 key ≤ 0) ∧ (∀ e ∈ b, p.comp key e.1 < 0) ∧
      btree.count t' = btree.count t + 1 := by
  have hinv := btree.reachable_inv hv hr
  obtain ⟨t', h1, h2, h3⟩ := btree.insert_spec hv hinv key value
  rcases h3 with ⟨hn, a, b, hab, hc, ha, hb⟩ | ⟨_, hd, _, e, he, hek⟩
  · refine ⟨t', a, b, h1, ?_, ?_, fun e he => hv.before_le (ha e he), hb, hn⟩
    · rw [btree.forward_spec hinv, hab]
    · rw [btree.forward_spec h2, hc]
  · exact absurd hek (habs hd e he)

theorem insert_after_last_le_witness :
    (intParams true).Valid ∧ Reachable (intParams true) multimapTies ∧
    ((intParams true).kDuplicates = false →
      ∀ e ∈ contents multimapTies, (intParams true).comp e.1 2 ≠ 0) ∧
    ∃ t' a b, btree.insert (intParams true) multimapTies 2 23 = .ok t' ∧
      btree.forward multimapTies = .ok (a ++ b) ∧
      btree.forward t' = .ok (a ++ (2, 23) :: b) ∧
      (∀ e ∈ a, (intParams true).comp e.1 2 ≤ 0) ∧
      (∀ e ∈ b, (intParams true).comp 2 e.1 < 0) ∧
      btree.count t' = btree.count multimapTies + 1 :=
  have hr : Reachable (intParams true) multimapTies :=
    reachable_applyOps [.insert 1 10, .insert 2 20, .insert 2 21, .insert 3 30, .insert 2 22]
      Reachable.empty (by rfl)
  have habs : (intParams true).kDuplicates = false →
      ∀ e ∈ contents multimapTies, (intParams true).comp e.1 2 ≠ 0 :=
    fun h => by simp [intParams] at h
  ⟨intParams_valid true, hr, habs,
    insert_after_last_le (intParams_valid true) hr 2 23 habs⟩

/-- Count law of a sequence of `insert` and `erase` calls applied to an empty
tree: when every call returns, `count()` afterwards equals the number of
`insert` calls (in unique mode without the calls whose key is already present)
minus the number of `erase` calls that returned true; the only sequences with a
call that does not return are those in duplicate mode in which an `erase`
follows a null successor. -/
theorem tally_empty_count (hv : p.Valid) (ops : List (Op K V)) :
    (∃ t' i e, btree.tally p btree.empty ops = .ok (t', i, e) ∧
        e ≤ i ∧ btree.count t' = i - e) ∨
    (p.kDuplicates = true ∧ btree.tally p (btree.empty : Tree K V) ops = .error .nullNode) := by
  have hinv0 : TreeInv p (btree.empty : Tree K V) := by simp [TreeInv, btree.empty]
  rcases btree.tally_count hv ops btree.empty hinv0 with ⟨t', i, e, h1, _, h2⟩ | h
  · left
    have h3 : btree.count (btree.empty : Tree K V) = 0 := rfl
    exact ⟨t', i, e, h1, by omega, by omega⟩
  · exact Or.inr h

/-- Claim C12, evaluated at a sequence of calls on a multimap with fanout 3:
after six `insert` calls and the removal of the keys 5 and 4, `count()` is
`6 - 2 = 4` and no entry has the key 5, so a further `erase(5)` should return
false and leave `count()` at 4; instead that call follows the null successor of
the last leaf, and there is no `count()` afterwards. -/
theorem tally_null_successor :
    (∃ t, btree.tally (intParams true) (btree.empty : Tree Int Nat)
        [.insert 1 10, .insert 2 20, .insert 3 30, .insert 4 40, .insert 5 50, .insert 6 60,
         .erase 5, .erase 4] = .ok (t, 6, 2) ∧
      btree.count t = 4 ∧ ∀ e ∈ contents t, (intParams true).comp e.1 5 ≠ 0) ∧
    btree.tally (intParams true) (btree.empty : Tree Int Nat)
      [.insert 1 10, .insert 2 20, .insert 3 30, .insert 4 40, .insert 5 50, .insert 6 60,
       .erase 5, .erase 4, .erase 5] = .error .nullNode := by
  refine ⟨⟨multimapStale, ?_, ?_, ?_⟩, ?_⟩
  · rfl
  · rfl
  · decide
  · rfl

/-- Claim C13: in unique mode no reachable tree holds two entries whose keys
compare equal: forward iteration returns, its keys are pairwise strictly
increasing under the comparator, and in particular every two consecutive keys
are. -/
theorem unique_keys_strictly_increasing (hv : p.Valid) (hd : p.kDuplicates = false)
    {t : Tree K V} (hr : Reachable p t) :
    ∃ l, btree.forward t = .ok l ∧
      (l.map Prod.fst).Pairwise (fun a b => p.comp a b < 0) ∧
      (l.map Prod.fst).Chain' (fun a b => p.comp a b < 0) := by
  have hinv := btree.reachable_inv hv hr
  have hs := btree.contents_strict hv hd hinv
  exact ⟨contents t, btree.forward_spec hinv, hs, hs.chain'⟩

theorem unique_keys_strictly_increasing_witness :
    (intParams false).Valid ∧ (intParams false).kDuplicates = false ∧
    Reachable (intParams false) mapGap ∧
    ∃ l, btree.forward mapGap = .ok l ∧
      (l.map Prod.fst).Pairwise (fun a b => (intParams false).comp a b < 0) ∧
      (l.map Prod.fst).Chain' (fun a b => (intParams false).comp a b < 0) :=
  have hr : Reachable (intParams false) mapGap :=
    reachable_applyOps [.insert 1 10, .insert 2 20, .insert 4 40, .insert 5 50, .insert 2 21]
      Reachable.empty (by rfl)
  ⟨intParams_valid false, rfl, hr,
    unique_keys_strictly_increasing (intParams_valid false) rfl hr⟩

end BPlusTree

namespace BPlusTree

variable {K V : Type}

variable {p : Params K}

namespace Node

theorem mem_subnodesL {y : Node K V} : ∀ {cs : List (Node K V)}, y ∈ subnodesL cs →
    ∃ c ∈ cs, y = c ∨ y ∈ subnodes c
  | [], h => by simp [subnodesL] at h
  | c :: cs, h => by
    simp only [subnodesL, List.mem_cons, List.mem_append] at h
    rcases h with h | h | h
    · exact ⟨c, List.mem_cons_self _ _, Or.inl h⟩
    · exact ⟨c, List.mem_cons_self _ _, Or.inr h⟩
    · obtain ⟨c', hc', hy⟩ := mem_subnodesL h
      exact ⟨c', List.mem_cons_of_mem _ hc', hy⟩

theorem mem_leafDepthsL {d : Nat} : ∀ {cs : List (Node K V)}, d ∈ leafDepthsL cs →
    ∃ c ∈ cs, ∃ d' ∈ leafDepths c, d = d' + 1
  | [], h => by simp [leafDepthsL] at h
  | c :: cs, h => by
    simp only [leafDepthsL, List.mem_append, List.mem_map] at h
    rcases h with ⟨d', hd', hdd⟩ | h
    · exact ⟨c, List.mem_cons_self _ _, d', hd', hdd.symm⟩
    · obtain ⟨c', hc', hy⟩ := mem_leafDepthsL h
      exact ⟨c', List.mem_cons_of_mem _ hc', hy⟩

/-- A well-formed node holds at most the maximum, and at least the minimum it
was shown to hold. -/
theorem wf_count_bounds {minL minI h : Nat} {x : Node K V} (hx : Wf p minL minI h x) :
    x.count ≤ x.maxKeys p ∧
    (p.kLeafNodeMinKeys ≤ minL → p.kInternalNodeMinKeys ≤ minI → x.minKeys p ≤ x.count) := by
  cases hx with
  | leaf _ _ es h1 h2 h3 =>
    exact ⟨h2, fun hL _ => by simp only [minKeys, count]; omega⟩
  | internal _ _ h ks cs h1 h2 h3 h4 h5 =>
    exact ⟨h2, fun _ hI => by simp only [minKeys, count]; omega⟩

/-- Every node strictly below a well-formed node holds between the minimum and
the maximum number of keys of its kind. -/
theorem wf_subnodes_bounds : ∀ (h : Nat) {minL minI : Nat} {x : Node K V},
    Wf p minL minI h x →
    ∀ y ∈ subnodes x, y.minKeys p ≤ y.count ∧ y.count ≤ y.maxKeys p := by
  intro h
  induction h with
  | zero =>
    intro minL minI x hx y hy
    cases hx with
    | leaf _ _ es h1 h2 h3 => simp [subnodes] at hy
  | succ h ih =>
    intro minL minI x hx y hy
    cases hx with
    | internal _ _ _ ks cs h1 h2 h3 h4 h5 =>
      simp only [subnodes] at hy
      obtain ⟨c, hc, hyc⟩ := mem_subnodesL hy
      rcases hyc with hyc | hyc
      · subst hyc
        have := wf_count_bounds (h4 y hc)
        exact ⟨this.2 (le_refl _) (le_refl _), this.1⟩
      · exact ih (h4 c hc) y hyc

/-- Every leaf below a well-formed node of height `h` is `h` links below it. -/
theorem wf_leafDepths : ∀ (h : Nat) {minL minI : Nat} {x : Node K V},
    Wf p minL minI h x → ∀ d ∈ leafDepths x, d = h := by
  intro h
  induction h with
  | zero =>
    intro minL minI x hx d hd
    cases hx with
    | leaf _ _ es h1 h2 h3 => simpa [leafDepths] using hd
  | succ h ih =>
    intro minL minI x hx d hd
    cases hx with
    | internal _ _ _ ks cs h1 h2 h3 h4 h5 =>
      simp only [leafDepths] at hd
      obtain ⟨c, hc, d', hd', hdd⟩ := mem_leafDepthsL hd
      rw [hdd, ih (h4 c hc) d' hd']

end Node

/-- Claim C14: in every tree reachable from the empty tree by `insert` and
`erase` calls, in unique and in duplicate mode, the root holds at most the
maximum number of keys of its kind, and every other node holds at least the
minimum and at most the maximum (`kInternalNodeMinKeys..kInternalNodeMaxKeys`
for internal nodes, `kLeafNodeMinKeys..kLeafNodeMaxKeys` for leaves). -/
theorem occupancy_bounds (hv : p.Valid) {t : Tree K V} (hr : Reachable p t) {r : Node K V}
    (hroot : t.root = some r) :
    r.count ≤ r.maxKeys p ∧
    ∀ x ∈ r.subnodes, x.minKeys p ≤ x.count ∧ x.count ≤ x.maxKeys p := by
  have hinv := btree.reachable_inv hv hr
  unfold TreeInv at hinv
  rw [hroot] at hinv
  obtain ⟨⟨h, hW⟩, _⟩ := hinv
  exact ⟨(Node.wf_count_bounds hW).1, Node.wf_subnodes_bounds h hW⟩

theorem occupancy_bounds_witness :
    (intParams true).Valid ∧ Reachable (intParams true) multimapStale ∧
    multimapStale.root = some (.internal [3, 5]
      [.leaf [(1, 10), (2, 20)], .leaf [(3, 30)], .leaf [(6, 60)]]) ∧
    ((Node.internal [3, 5] [.leaf [(1, 10), (2, 20)], .leaf [(3, 30)], .leaf [(6, 60)]] :
        Node Int Nat).count ≤
      (Node.internal [3, 5] [.leaf [(1, 10), (2, 20)], .leaf [(3, 30)], .leaf [(6, 60)]] :
        Node Int Nat).maxKeys (intParams true) ∧
    ∀ x ∈ (Node.internal [3, 5] [.leaf [(1, 10), (2, 20)], .leaf [(3, 30)], .leaf [(6, 60)]] :
        Node Int Nat).subnodes,
      x.minKeys (intParams true) ≤ x.count ∧ x.count ≤ x.maxKeys (intParams true)) :=
  have hr : Reachable (intParams true) multimapStale :=
    reachable_applyOps
      [.insert 1 10, .insert 2 20, .insert 3 30, .insert 4 40, .insert 5 50, .insert 6 60,
       .erase 5, .erase 4] Reachable.empty (by rfl)
  ⟨intParams_valid true, hr, rfl, occupancy_bounds (intParams_valid true) hr rfl⟩

/-- Claim C15: in every tree reachable from the empty tree by `insert` and
`erase` calls all leaves are at the same depth below the root, which is the
height of the root measured along its first children. -/
theorem leaves_same_depth (hv : p.Valid) {t : Tree K V} (hr : Reachable p t) {r : Node K V}
    (hroot : t.root = some r) :
    ∀ d ∈ r.leafDepths, d = r.height := by
  have hinv := btree.reachable_inv hv hr
  unfold TreeInv at hinv
  rw [hroot] at hinv
  obtain ⟨⟨h, hW⟩, _⟩ := hinv
  rw [hW.height_eq]
  exact Node.wf_leafDepths h hW

theorem leaves_same_depth_witness :
    (intParams true).Valid ∧ Reachable (intParams true) multimapStale ∧
    multimapStale.root = some (.internal [3, 5]
      [.leaf [(1, 10), (2, 20)], .leaf [(3, 30)], .leaf [(6, 60)]]) ∧
    ∀ d ∈ (Node.internal [3, 5] [.leaf [(1, 10), (2, 20)], .leaf [(3, 30)], .leaf [(6, 60)]] :
        Node Int Nat).leafDepths,
      d = (Node.internal [3, 5] [.leaf [(1, 10), (2, 20)], .leaf [(3, 30)], .leaf [(6, 60)]] :
        Node Int Nat).height :=
  have hr : Reachable (intParams true) multimapStale :=
    reachable_applyOps
      [.insert 1 10, .insert 2 20, .insert 3 30, .insert 4 40, .insert 5 50, .insert 6 60,
       .erase 5, .erase 4] Reachable.empty (by rfl)
  ⟨intParams_valid true, hr, rfl, leaves_same_depth (intParams_valid true) hr rfl⟩

end BPlusTree

namespace BPlusTree

variable {K V : Type}

variable {p : Params K}

namespace Node

/-- The descent of `btree::lower_bound` ends in a leaf of the subtree, at the
slot and with the result that `node::lower_bound` gives on that leaf. -/
theorem lower_bound_descend_leaf (key : K) :
    ∀ (fuel : Nat) (x : Node K V) (off : Nat) (carry : Bool) (r : Bool × Bool × Cursor),
      btree.lower_bound_descend p key fuel x off carry = .ok r →
      ∃ j es, (leaves x)[j]? = some es ∧ r.2.2.leaf = off + j ∧
        (r.1, r.2.2.pos) = lower_bound p.comp (es.map Prod.fst) key := by
  intro fuel
  induction fuel with
  | zero =>
    intro x off carry r h
    simp [btree.lower_bound_descend] at h
  | succ fuel ih =>
    intro x off carry r h
    cases x with
    | leaf es =>
      rw [btree.lower_bound_descend] at h
      injection h with h
      subst h
      exact ⟨0, es, by simp, rfl, rfl⟩
    | internal ks cs =>
      rw [btree.lower_bound_descend] at h
      split at h
      · cases h
      · rename_i c hc
        rw [List.get?_eq_getElem?] at hc
        obtain ⟨j, es, h1, h2, h3⟩ := ih c _ _ r h
        generalize (if ((lower_bound p.comp ks key).1 && !p.kDuplicates) = true
            then (lower_bound p.comp ks key).2 + 1 else (lower_bound p.comp ks key).2) = pos
          at hc h2
        obtain ⟨n1, _, _, _, _⟩ := nested_at (leavesL (cs.take pos)) (leaves c)
          (leavesL (cs.drop (pos + 1))) h1
        refine ⟨(leavesL (cs.take pos)).length + j, es, ?_, ?_, h3⟩
        · rw [leaves_internal, leaves_split hc]; exact n1
        · rw [h2, Nat.add_assoc]

end Node

end BPlusTree

namespace BPlusTree

variable {K V : Type}

variable {p : Params K}

namespace btree

/-- When duplicates are not allowed and no entry has a key equal to `key`,
`btree::lower_bound` on a non-empty tree returns false with the cursor at the
slot of the reached leaf that separates the entries below `key` from the
entries above it. -/
theorem lower_bound_absent_unique (hv : p.Valid) (hd : p.kDuplicates = false) {t : Tree K V}
    (hinv : TreeInv p t) (key : K) (hne : contents t ≠ [])
    (habs : ∀ e ∈ contents t, p.comp e.1 key ≠ 0) :
    ∃ c es, lower_bound p t key = .ok (false, some c) ∧ (chain t)[c.leaf]? = some es ∧
      c.pos ≤ es.length ∧
      contents t = entriesBefore t c ++ (es.drop c.pos ++ ((chain t).drop (c.leaf + 1)).flatten) ∧
      (∀ a ∈ entriesBefore t c, p.comp a.1 key < 0) ∧
      (∀ x ∈ es.drop c.pos ++ ((chain t).drop (c.leaf + 1)).flatten, p.comp key x.1 < 0) := by
  have hsorted := contents_sorted hv hinv
  unfold TreeInv at hinv
  unfold lower_bound
  cases hroot : t.root with
  | none => simp [contents, hroot] at hne
  | some r =>
    rw [hroot] at hinv
    obtain ⟨⟨h, hW⟩, hn⟩ := hinv
    have hnz : t.nkeys ≠ 0 := by
      rw [hn]
      intro hc
      exact (hW.toList_ne_nil (Or.inl (le_refl _))) (List.eq_nil_of_length_eq_zero hc)
    have hchain : chain t = r.leaves := by simp [chain, hroot]
    have hcont : contents t = (chain t).flatten := by
      rw [hchain, Node.flatten_leaves]; simp [contents, hroot]
    obtain ⟨found, carry, j, i, es, hrun, hpost⟩ :=
      Node.lower_bound_descend_spec hv key (r.height + 1) h r 0 false 1 1 hW (le_refl _)
        (by rw [hW.height_eq]; omega) (fun hc => by cases hc)
    obtain ⟨j2, es2, g1, g2, g3⟩ := Node.lower_bound_descend_leaf key _ _ _ _ _ hrun
    rw [← hchain] at hpost g1
    obtain ⟨h1, h2, h3, h4, h5⟩ := hpost
    simp only [Nat.zero_add] at g2
    subst g2
    rw [h1] at g1
    injection g1 with g1
    subst g1
    have hsplit := flatten_split h1
    have hmem : ∀ e ∈ es, e ∈ contents t := by
      intro e he
      rw [hcont, hsplit]
      simp [he]
    cases found with
    | true =>
      obtain ⟨e, he, hek⟩ := h4 rfl
      exact absurd hek (habs e (hmem e (List.getElem?_mem he)))
    | false =>
      obtain ⟨h6, h7, h8⟩ := h5 rfl
      have hcf : carry = false := by
        cases hc : carry with
        | false => rfl
        | true => have := (h8 hc).1; rw [hd] at this; cases this
      obtain ⟨_, h9⟩ := h7 hcf
      have hsl : (es.map Prod.fst).Pairwise (fun a b => p.comp a b ≤ 0) := by
        rw [hcont, hsplit, List.map_append, List.map_append] at hsorted
        exact (List.pairwise_append.1 (List.pairwise_append.1 hsorted).2.1).1
      obtain ⟨_, _, hdrop, _⟩ := Node.lower_bound_spec hv hsl key
      rw [← g3] at hdrop
      simp only [hnz, beq_iff_eq, if_false, hrun, Nat.zero_add, hd, Bool.not_false,
        Bool.true_or, if_true]
      refine ⟨{ leaf := j, pos := i }, es, rfl, h1, h2, ?_, ?_, ?_⟩
      · simp only [entriesBefore, List.get?_eq_getElem?, h1, Option.getD_some]
        rw [hcont, hsplit, List.append_assoc]
        congr 1
        rw [← List.append_assoc, List.take_append_drop]
      · simpa only [entriesBefore, List.get?_eq_getElem?, h1, Option.getD_some] using h3
      · intro x hx
        rcases List.mem_append.1 hx with hx | hx
        · have hle := hdrop x.1 (by rw [← List.map_drop]; exact List.mem_map_of_mem _ hx)
          exact Node.lt_of_le_of_ne hv hle (h6 x (List.mem_of_mem_drop hx))
        · exact h9 x hx

end btree

/-- Claim C19: for every reachable map or multimap and every key `k`,
`get(k, out)` returns true with the value of the first entry in iteration order
whose key equals `k` when such an entry exists, and returns false when no entry
of the iteration sequence has a key equal to `k`. -/
theorem get_first_match (hv : p.Valid) {t : Tree K V} (hr : Reachable p t) (key : K) :
    ∃ l, btree.forward t = .ok l ∧
      ((∃ a e b, btree.get p t key = .ok (some e.2) ∧ l = a ++ e :: b ∧
          p.comp e.1 key = 0 ∧ ∀ x ∈ a, p.comp x.1 key ≠ 0) ∨
       (btree.get p t key = .ok none ∧ ∀ x ∈ l, p.comp x.1 key ≠ 0)) := by
  have hinv := btree.reachable_inv hv hr
  refine ⟨contents t, btree.forward_spec hinv, ?_⟩
  unfold btree.get
  rcases btree.lower_bound_tree_spec hv hinv key with ⟨c, e, b, h3, h4, h5, h6, h7⟩ | ⟨oc, h3, h4⟩
  · left
    refine ⟨btree.entriesBefore t c, e, b, by simp only [h3, h4], h6, h5, ?_⟩
    intro a ha
    exact Node.ne_of_gt hv (h7 a ha)
  · right
    exact ⟨by simp only [h3], h4⟩

theorem get_first_match_witness :
    (intParams true).Valid ∧ Reachable (intParams true) multimapTies ∧
    ∃ l, btree.forward multimapTies = .ok l ∧
      ((∃ a e b, btree.get (intParams true) multimapTies 2 = .ok (some e.2) ∧ l = a ++ e :: b ∧
          (intParams true).comp e.1 2 = 0 ∧ ∀ x ∈ a, (intParams true).comp x.1 2 ≠ 0) ∨
       (btree.get (intParams true) multimapTies 2 = .ok none ∧
          ∀ x ∈ l, (intParams true).comp x.1 2 ≠ 0)) :=
  have hr : Reachable (intParams true) multimapTies :=
    reachable_applyOps [.insert 1 10, .insert 2 20, .insert 2 21, .insert 3 30, .insert 2 22]
      Reachable.empty (by rfl)
  ⟨intParams_valid true, hr, get_first_match (intParams_valid true) hr 2⟩

/-- Claim C20 fails at the map holding 1, 2, 4, 5 in the leaves `[1, 2]` and
`[4, 5]`: the first entry with a key `≥ 3` is `(4, 40)`, the first slot of the
second leaf, but `lower_bound(3)` returns false with the cursor at slot 2 of
the first leaf, which holds no entry. -/
theorem lower_bound_past_leaf_end :
    Reachable (intParams false) mapGap ∧
    (∃ x ∈ contents mapGap, (intParams false).comp 3 x.1 ≤ 0) ∧
    btree.forward mapGap = .ok [(1, 10), (2, 20), (4, 40), (5, 50)] ∧
    btree.lower_bound (intParams false) mapGap 3 = .ok (false, some { leaf := 0, pos := 2 }) ∧
    btree.entryAt mapGap { leaf := 0, pos := 2 } = .error .outOfRange ∧
    btree.entryAt mapGap { leaf := 1, pos := 0 } = .ok (4, 40) :=
  ⟨reachable_applyOps [.insert 1 10, .insert 2 20, .insert 4 40, .insert 5 50]
      Reachable.empty (by rfl),
    ⟨(4, 40), by decide, by decide⟩, by rfl, by rfl, by rfl, by rfl⟩

/-- Claim C20, amended: for every reachable tree and every key `k` such that
some entry has a key `≥ k`: if an entry has a key equal to `k`, `lower_bound(k)`
returns true and leaves the cursor on the first entry in iteration order whose
key is `≥ k`; if none has and duplicates are not allowed, it returns false with
the cursor at the slot of the reached leaf where `k` belongs: every entry before
it is `< k` and every entry from it on is `> k`, so the cursor is on the first
entry with a key `≥ k` when that slot is occupied and one past the last slot of
the leaf otherwise. -/
theorem lower_bound_first_ge (hv : p.Valid) {t : Tree K V} (hr : Reachable p t) (key : K)
    (hge : ∃ x ∈ contents t, p.comp key x.1 ≤ 0) :
    ∃ l, btree.forward t = .ok l ∧
      ((∃ x ∈ l, p.comp x.1 key = 0) →
        ∃ c e b, btree.lower_bound p t key = .ok (true, some c) ∧ btree.entryAt t c = .ok e ∧
          l = btree.entriesBefore t c ++ e :: b ∧
          (∀ a ∈ btree.entriesBefore t c, p.comp a.1 key < 0) ∧ p.comp key e.1 ≤ 0) ∧
      ((∀ x ∈ l, p.comp x.1 key ≠ 0) → p.kDuplicates = false →
        ∃ c es, btree.lower_bound p t key = .ok (false, some c) ∧
          (btree.chain t)[c.leaf]? = some es ∧ c.pos ≤ es.length ∧
          l = btree.entriesBefore t c ++
            (es.drop c.pos ++ ((btree.chain t).drop (c.leaf + 1)).flatten) ∧
          (∀ a ∈ btree.entriesBefore t c, p.comp a.1 key < 0) ∧
          (∀ x ∈ es.drop c.pos ++ ((btree.chain t).drop (c.leaf + 1)).flatten,
            p.comp key x.1 < 0)) := by
  have hinv := btree.reachable_inv hv hr
  refine ⟨contents t, btree.forward_spec hinv, ?_, ?_⟩
  · rintro ⟨x, hx, hxk⟩
    rcases btree.lower_bound_tree_spec hv hinv key with ⟨c, e, b, h3, h4, h5, h6, h7⟩ | ⟨oc, _, h4⟩
    · exact ⟨c, e, b, h3, h4, h6, h7, by have := (hv.zero_iff _ _).1 h5; omega⟩
    · exact absurd hxk (h4 x hx)
  · intro habs hd
    have hne : contents t ≠ [] := by
      obtain ⟨x, hx, _⟩ := hge
      exact List.ne_nil_of_mem hx
    exact btree.lower_bound_absent_unique hv hd hinv key hne habs

theorem lower_bound_first_ge_witness :
    (intParams false).Valid ∧ Reachable (intParams false) mapGap ∧
    (∃ x ∈ contents mapGap, (intParams false).comp 3 x.1 ≤ 0) ∧
    ∃ l, btree.forward mapGap = .ok l ∧
      ((∃ x ∈ l, (intParams false).comp x.1 3 = 0) →
        ∃ c e b, btree.lower_bound (intParams false) mapGap 3 = .ok (true, some c) ∧
          btree.entryAt mapGap c = .ok e ∧
          l = btree.entriesBefore mapGap c ++ e :: b ∧
          (∀ a ∈ btree.entriesBefore mapGap c, (intParams false).comp a.1 3 < 0) ∧
          (intParams false).comp 3 e.1 ≤ 0) ∧
      ((∀ x ∈ l, (intParams false).comp x.1 3 ≠ 0) → (intParams false).kDuplicates = false →
        ∃ c es, btree.lower_bound (intParams false) mapGap 3 = .ok (false, some c) ∧
          (btree.chain mapGap)[c.leaf]? = some es ∧ c.pos ≤ es.length ∧
          l = btree.entriesBefore mapGap c ++
            (es.drop c.pos ++ ((btree.chain mapGap).drop (c.leaf + 1)).flatten) ∧
          (∀ a ∈ btree.entriesBefore mapGap c, (intParams false).comp a.1 3 < 0) ∧
          (∀ x ∈ es.drop c.pos ++ ((btree.chain mapGap).drop (c.leaf + 1)).flatten,
            (intParams false).comp 3 x.1 < 0)) :=
  have hr : Reachable (intParams false) mapGap :=
    reachable_applyOps [.insert 1 10, .insert 2 20, .insert 4 40, .insert 5 50]
      Reachable.empty (by rfl)
  have hge : ∃ x ∈ contents mapGap, (intParams false).comp 3 x.1 ≤ 0 :=
    ⟨(4, 40), by decide, by decide⟩
  ⟨intParams_valid false, hr, hge, lower_bound_first_ge (intParams_valid false) hr 3 hge⟩

end BPlusTree

namespace BPlusTree

variable {K V : Type}

namespace LNode

@[simp] theorem strip_leaf (a : Nat) (es : List (K × V)) :
    strip (leaf a es : LNode K V) = Node.leaf es := by
  simp [strip]

@[simp] theorem strip_internal (ks : List K) (cs : List (LNode K V)) :
    strip (internal ks cs) = Node.internal ks (stripL cs) := by
  simp [strip]

theorem stripL_eq_map : ∀ cs : List (LNode K V), stripL cs = cs.map strip
  | [] => by simp [stripL]
  | c :: cs => by simp [stripL, stripL_eq_map cs]

@[simp] theorem addrs_leaf (a : Nat) (es : List (K × V)) :
    addrs (leaf a es : LNode K V) = [a] := by
  simp [addrs]

@[simp] theorem addrs_internal (ks : List K) (cs : List (LNode K V)) :
    addrs (internal ks cs) = addrsL cs := by
  simp [addrs]

@[simp] theorem addrsL_nil : addrsL ([] : List (LNode K V)) = [] := by
  simp [addrsL]

@[simp] theorem addrsL_cons (c : LNode K V) (cs : List (LNode K V)) :
    addrsL (c :: cs) = addrs c ++ addrsL cs := by
  simp [addrsL]

theorem addrsL_append (a b : List (LNode K V)) : addrsL (a ++ b) = addrsL a ++ addrsL b := by
  induction a with
  | nil => simp
  | cons c a ih => simp [ih]

theorem addrsL_split {cs : List (LNode K V)} {i : Nat} {c : LNode K V} (hc : cs[i]? = some c) :
    addrsL cs = addrsL (cs.take i) ++ (addrs c ++ addrsL (cs.drop (i + 1))) := by
  obtain ⟨hcs, _, _⟩ := list_split_at hc
  conv_lhs => rw [hcs]
  rw [addrsL_append, addrsL_cons]

theorem addrsL_set {cs : List (LNode K V)} {i : Nat} {c : LNode K V} (c' : LNode K V)
    (hc : cs[i]? = some c) :
    addrsL (cs.set i c') = addrsL (cs.take i) ++ (addrs c' ++ addrsL (cs.drop (i + 1))) := by
  rw [Node.set_eq_of_get c' hc, addrsL_append, addrsL_cons]

@[simp] theorem strip_full (p : Params K) (x : LNode K V) : x.strip.full p = x.full p := by
  cases x <;> simp [Node.full, full, stripL_eq_map]

@[simp] theorem strip_minkeys (p : Params K) (x : LNode K V) :
    x.strip.minkeys p = x.minkeys p := by
  cases x <;> simp [Node.minkeys, minkeys, stripL_eq_map]

@[simp] theorem strip_count (x : LNode K V) : x.strip.count = x.count := by
  cases x <;> simp [Node.count, count]

@[simp] theorem strip_keyArray (x : LNode K V) : x.strip.keyArray = x.keyArray := by
  cases x <;> simp [Node.keyArray, keyArray]

@[simp] theorem strip_children (x : LNode K V) : x.strip.children = x.children.map strip := by
  cases x <;> simp [Node.children, children, stripL_eq_map]

@[simp] theorem strip_height : ∀ x : LNode K V, x.strip.height = x.height
  | leaf _ _ => by simp [Node.height, height]
  | internal _ [] => by simp [Node.height, height, stripL]
  | internal _ (c :: _) => by simp [Node.height, height, stripL, strip_height c]

@[simp] theorem strip_setChild (x : LNode K V) (i : Nat) (c : LNode K V) :
    (x.setChild i c).strip = x.strip.setChild i c.strip := by
  cases x <;> simp [Node.setChild, setChild, stripL_eq_map, List.map_set]

end LNode

end BPlusTree

namespace BPlusTree

/-- A segment only depends on the links of its own addresses. -/
theorem seg_frame {h h' : Heap} : ∀ {L : List Nat} {pv n : Option Nat}, Seg h pv L n →
    (∀ a ∈ L, h'.prev a = h.prev a ∧ h'.next a = h.next a) → Seg h' pv L n
  | [], _, _, _, _ => trivial
  | a :: L, pv, n, hs, hf => by
    obtain ⟨h1, h2, h3⟩ := hs
    have ha := hf a (List.mem_cons_self _ _)
    exact ⟨by rw [ha.1, h1], by rw [ha.2, h2],
      seg_frame h3 (fun b hb => hf b (List.mem_cons_of_mem _ hb))⟩

/-- A segment followed by the address `y` and a second segment. -/
theorem seg_mid {h : Heap} {y : Nat} {B : List Nat} {n : Option Nat} :
    ∀ {A : List Nat} {pv : Option Nat}, Seg h pv (A ++ y :: B) n ↔
      Seg h pv A (some y) ∧
        h.prev y = (match A.getLast? with | some a => some a | none => pv) ∧
        h.next y = (match B with | [] => n | b :: _ => some b) ∧ Seg h (some y) B n
  | [], pv => by
    simp only [List.nil_append, Seg, List.getLast?_nil]
    constructor
    · rintro ⟨h1, h2, h3⟩
      exact ⟨trivial, h1, h2, h3⟩
    · rintro ⟨_, h1, h2, h3⟩
      exact ⟨h1, h2, h3⟩
  | [a], pv => by
    simp only [List.singleton_append, Seg, List.getLast?_singleton]
    constructor
    · rintro ⟨h1, h2, h3, h4, h5⟩
      exact ⟨⟨h1, h2, trivial⟩, h3, h4, h5⟩
    · rintro ⟨⟨h1, h2, _⟩, h3, h4, h5⟩
      exact ⟨h1, h2, h3, h4, h5⟩
  | a :: a' :: A, pv => by
    have ih := @seg_mid h y B n (a' :: A) (some a)
    simp only [List.cons_append, Seg] at ih ⊢
    rw [List.getLast?_cons_cons]
    constructor
    · rintro ⟨h1, h2, h3⟩
      obtain ⟨g1, g2, g3, g4⟩ := ih.1 h3
      exact ⟨⟨h1, h2, g1⟩, by
        cases hl : (a' :: A).getLast? with
        | none => simp at hl
        | some l => rw [hl] at g2; exact g2, g3, g4⟩
    · rintro ⟨⟨h1, h2, g1⟩, g2, g3, g4⟩
      refine ⟨h1, h2, ih.2 ⟨g1, ?_, g3, g4⟩⟩
      cases hl : (a' :: A).getLast? with
      | none => simp at hl
      | some l => rw [hl] at g2; exact g2

end BPlusTree

namespace BPlusTree

/-- The four link assignments of `split_child` put the new leaf right after
`y` in the chain. -/
theorem link_after {h : Heap} {A B : List Nat} {y : Nat} (hl : Linked h (A ++ y :: B)) :
    Linked
      ((match ((h.create.2.setPrev h.create.1 (some y)).setNext h.create.1
            (h.create.2.next y)).next h.create.1 with
        | some n => ((h.create.2.setPrev h.create.1 (some y)).setNext h.create.1
            (h.create.2.next y)).setPrev n (some h.create.1)
        | none => (h.create.2.setPrev h.create.1 (some y)).setNext h.create.1
            (h.create.2.next y)).setNext y (some h.create.1))
      (A ++ y :: h.fresh :: B) := by
  obtain ⟨hnd, hfr, hseg⟩ := hl
  have hy : y < h.fresh := hfr y (by simp)
  have hyz : y ≠ h.fresh := by omega
  obtain ⟨s1, s2, s3, s4⟩ := seg_mid.1 hseg
  have hndA : ∀ a ∈ A, a ≠ y ∧ a ≠ h.fresh ∧ a ∉ B := by
    intro a ha
    have h1 := hfr a (by simp [ha])
    rw [List.nodup_append] at hnd
    have h2 : a ∉ y :: B := hnd.2.2 ha
    simp only [List.mem_cons, not_or] at h2
    exact ⟨h2.1, by omega, h2.2⟩
  have hndB : ∀ b ∈ B, b ≠ y ∧ b ≠ h.fresh := by
    intro b hb
    have h1 := hfr b (by simp [hb])
    rw [List.nodup_append] at hnd
    have h2 := (List.nodup_cons.1 hnd.2.1).1
    exact ⟨fun hc => h2 (hc ▸ hb), by omega⟩
  have hndBB : B.Nodup := by
    rw [List.nodup_append] at hnd
    exact (List.nodup_cons.1 hnd.2.1).2
  refine ⟨?_, ?_, ?_⟩
  · -- distinct
    rw [List.nodup_append] at hnd ⊢
    refine ⟨hnd.1, ?_, ?_⟩
    · rw [List.nodup_cons, List.nodup_cons]
      refine ⟨?_, ?_, hndBB⟩
      · simp only [List.mem_cons, not_or]
        exact ⟨hyz, (List.nodup_cons.1 hnd.2.1).1⟩
      · intro hc; exact (hndB _ hc).2 rfl
    · intro a ha hc
      simp only [List.mem_cons] at hc
      rcases hc with hc | hc | hc
      · exact (hndA a ha).1 hc
      · exact (hndA a ha).2.1 hc
      · exact (hndA a ha).2.2 hc
  · -- allocated
    intro a ha
    have hfresh : ∀ g : Heap, (g.setNext y (some h.create.1)).fresh = g.fresh := fun _ => rfl
    have : a ≤ h.fresh := by
      simp only [List.mem_append, List.mem_cons] at ha
      rcases ha with ha | ha | ha | ha
      · exact Nat.le_of_lt (hfr a (by simp [ha]))
      · omega
      · omega
      · exact Nat.le_of_lt (hfr a (by simp [ha]))
    cases B with
    | nil =>
      simp only [Heap.create, Heap.setPrev, Heap.setNext, if_true, hyz, if_false, s3]
      omega
    | cons n B' =>
      simp only [Heap.create, Heap.setPrev, Heap.setNext, if_true, hyz, if_false, s3]
      omega
  · -- links
    cases B with
    | nil =>
      simp only at s3
      rw [seg_mid]
      refine ⟨?_, ?_, ?_, ?_⟩
      · apply seg_frame s1
        intro a ha
        obtain ⟨h1, h2, _⟩ := hndA a ha
        simp [Heap.create, Heap.setPrev, Heap.setNext, hyz, s3, h1, h2]
      · simp [Heap.create, Heap.setPrev, Heap.setNext, hyz, s3, s2]
      · simp [Heap.create, Heap.setPrev, Heap.setNext, hyz, s3]
      · simp [Seg, Heap.create, Heap.setPrev, Heap.setNext, hyz, s3, hyz.symm]
    | cons n B' =>
      simp only at s3
      obtain ⟨hn1, hn2⟩ := hndB n (by simp)
      obtain ⟨t1, t2, t3⟩ := s4
      have hnB' : n ∉ B' := (List.nodup_cons.1 hndBB).1
      rw [seg_mid]
      refine ⟨?_, ?_, ?_, ?_⟩
      · apply seg_frame s1
        intro a ha
        obtain ⟨h1, h2, h3⟩ := hndA a ha
        have h4 : a ≠ n := fun hc => h3 (by simp [hc])
        simp [Heap.create, Heap.setPrev, Heap.setNext, hyz, s3, h1, h2, h4]
      · have : y ≠ n := fun hc => hn1 hc.symm
        simp [Heap.create, Heap.setPrev, Heap.setNext, hyz, s3, s2, this]
      · simp [Heap.create, Heap.setPrev, Heap.setNext, hyz, s3]
      · refine ⟨?_, ?_, ?_, ?_, ?_⟩
        · have : h.fresh ≠ n := fun hc => hn2 hc.symm
          simp [Heap.create, Heap.setPrev, Heap.setNext, hyz, s3, this]
        · simp [Heap.create, Heap.setPrev, Heap.setNext, hyz, s3, hyz.symm]
        · simp [Heap.create, Heap.setPrev, Heap.setNext, hyz, s3]
        · simp [Heap.create, Heap.setPrev, Heap.setNext, hyz, s3, hn1, hn2, t2]
        · apply seg_frame t3
          intro b hb
          obtain ⟨h1, h2⟩ := hndB b (by simp [hb])
          have h3 : b ≠ n := fun hc => hnB' (hc ▸ hb)
          simp [Heap.create, Heap.setPrev, Heap.setNext, hyz, s3, h1, h2, h3]

end BPlusTree

namespace BPlusTree

/-- The two link assignments of `merge` splice `z` out of the chain. -/
theorem unlink {h : Heap} {A B : List Nat} {y z : Nat} (hl : Linked h (A ++ y :: z :: B)) :
    Linked
      ((match h.next z with
        | some n => h.setPrev n (some y)
        | none => h).setNext y
        ((match h.next z with
          | some n => h.setPrev n (some y)
          | none => h).next z))
      (A ++ y :: B) := by
  obtain ⟨hnd, hfr, hseg⟩ := hl
  obtain ⟨s1, s2, s3, s4⟩ := seg_mid.1 hseg
  obtain ⟨t1, t2, t3⟩ := s4
  have hnd' := List.nodup_append.1 hnd
  have hyzB := List.nodup_cons.1 hnd'.2.1
  have hzB := List.nodup_cons.1 hyzB.2
  have hyB : y ∉ B := fun hc => hyzB.1 (by simp [hc])
  have hndA : ∀ a ∈ A, a ≠ y ∧ a ∉ B := by
    intro a ha
    have h2 : a ∉ y :: z :: B := hnd'.2.2 ha
    simp only [List.mem_cons, not_or] at h2
    exact ⟨h2.1, h2.2.2⟩
  refine ⟨?_, ?_, ?_⟩
  · rw [List.nodup_append]
    refine ⟨hnd'.1, List.nodup_cons.2 ⟨hyB, hzB.2⟩, ?_⟩
    intro a ha hc
    simp only [List.mem_cons] at hc
    rcases hc with hc | hc
    · exact (hndA a ha).1 hc
    · exact (hndA a ha).2 hc
  · intro a ha
    have : a < h.fresh := hfr a (by
      simp only [List.mem_append, List.mem_cons] at ha ⊢
      rcases ha with ha | ha | ha
      · exact Or.inl ha
      · exact Or.inr (Or.inl ha)
      · exact Or.inr (Or.inr (Or.inr ha)))
    cases B with
    | nil => simpa [Heap.setPrev, Heap.setNext, t2] using this
    | cons n B' => simpa [Heap.setPrev, Heap.setNext, t2] using this
  · cases B with
    | nil =>
      simp only at t2
      rw [seg_mid]
      refine ⟨?_, ?_, ?_, trivial⟩
      · apply seg_frame s1
        intro a ha
        obtain ⟨h1, _⟩ := hndA a ha
        simp [Heap.setPrev, Heap.setNext, t2, h1]
      · simp [Heap.setPrev, Heap.setNext, t2, s2]
      · simp [Heap.setPrev, Heap.setNext, t2]
    | cons n B' =>
      simp only at t2
      obtain ⟨u1, u2, u3⟩ := t3
      have hny : n ≠ y := fun hc => hyB (by simp [hc])
      have hnB' : n ∉ B' := (List.nodup_cons.1 hzB.2).1
      rw [seg_mid]
      refine ⟨?_, ?_, ?_, ?_, ?_, ?_⟩
      · apply seg_frame s1
        intro a ha
        obtain ⟨h1, h2⟩ := hndA a ha
        have h4 : a ≠ n := fun hc => h2 (by simp [hc])
        simp [Heap.setPrev, Heap.setNext, t2, h1, h4]
      · simp [Heap.setPrev, Heap.setNext, t2, s2, hny.symm]
      · simp [Heap.setPrev, Heap.setNext, t2]
      · simp [Heap.setPrev, Heap.setNext, t2]
      · simp [Heap.setPrev, Heap.setNext, t2, hny, u2]
      · apply seg_frame u3
        intro b hb
        have h1 : b ≠ y := fun hc => hyB (by simp [← hc, hb])
        have h3 : b ≠ n := fun hc => hnB' (hc ▸ hb)
        simp [Heap.setPrev, Heap.setNext, t2, h1, h3]

/-- Successor link of the address at position `i` of a segment. -/
theorem seg_next {h : Heap} : ∀ {L : List Nat} {pv n : Option Nat} {i a : Nat},
    Seg h pv L n → L[i]? = some a →
    h.next a = (match L[i + 1]? with | some b => some b | none => n)
  | [], _, _, _, _, _, hi => by simp at hi
  | x :: L, pv, n, 0, a, hs, hi => by
    simp only [List.getElem?_cons_zero, Option.some.injEq] at hi
    subst hi
    obtain ⟨_, h2, _⟩ := hs
    rw [h2]
    cases L <;> simp
  | x :: L, pv, n, i + 1, a, hs, hi => by
    simp only [List.getElem?_cons_succ] at hi ⊢
    exact seg_next hs.2.2 hi

/-- Predecessor link of the address at position `i` of a segment. -/
theorem seg_prev {h : Heap} : ∀ {L : List Nat} {pv n : Option Nat} {i a : Nat},
    Seg h pv L n → L[i]? = some a →
    h.prev a = (if i = 0 then pv else L[i - 1]?)
  | [], _, _, _, _, _, hi => by simp at hi
  | x :: L, pv, n, 0, a, hs, hi => by
    simp only [List.getElem?_cons_zero, Option.some.injEq] at hi
    subst hi
    simpa using hs.1
  | x :: L, pv, n, i + 1, a, hs, hi => by
    simp only [List.getElem?_cons_succ] at hi
    have := seg_prev hs.2.2 hi
    rw [this]
    cases i with
    | zero => simp
    | succ j => simp

end BPlusTree

namespace BPlusTree

variable {K V : Type}

namespace LNode

variable {p : Params K}

/-- Without the links, `split_child` is the `split_child` of the tree. -/
theorem split_child_strip (h : Heap) (x : LNode K V) (i : Nat) :
    (split_child p h x i).map (fun r => r.1.strip) = Node.split_child p x.strip i := by
  cases x with
  | leaf a es => simp [split_child, Node.split_child, Except.map]
  | internal ks cs =>
    simp only [split_child, Node.split_child, strip_internal, stripL_eq_map,
      List.get?_eq_getElem?, List.getElem?_map]
    cases hget : cs[i]? with
    | none => simp [Except.map]
    | some y =>
      simp only [Option.map_some', strip_full]
      by_cases hfull : y.full p = true
      · simp only [hfull, Bool.not_true, Bool.false_eq_true, if_false]
        by_cases hov : ks.length ≥ p.kInternalNodeMaxKeys
        · simp [hov, Except.map]
        · simp only [hov, if_false]
          cases y with
          | leaf ya ye =>
            simp only [strip_leaf]
            cases hhead : (ye.drop p.kLeafNodeMedian).head? with
            | none => simp [Except.map]
            | some e =>
              simp [Except.map, stripL_eq_map, List.map_take, List.map_drop]
          | internal yk yc =>
            simp only [strip_internal, stripL_eq_map]
            cases hup : yk[p.kInternalNodeMedian]? with
            | none => simp [Except.map]
            | some up =>
              simp [Except.map, stripL_eq_map, List.map_take, List.map_drop]
      · simp [hfull, Except.map]

end LNode

end BPlusTree

namespace BPlusTree

variable {K V : Type}

@[simp] theorem Heap.setPrev_fresh (h : Heap) (a : Nat) (n : Option Nat) :
    (h.setPrev a n).fresh = h.fresh := rfl

@[simp] theorem Heap.setNext_fresh (h : Heap) (a : Nat) (n : Option Nat) :
    (h.setNext a n).fresh = h.fresh := rfl

@[simp] theorem Heap.create_fresh (h : Heap) : h.create.2.fresh = h.fresh + 1 := rfl

@[simp] theorem Heap.match_setPrev_fresh (h : Heap) (o : Option Nat) (v : Option Nat) :
    (match o with
      | some n => h.setPrev n v
      | none => h).fresh = h.fresh := by
  cases o <;> rfl

namespace LNode

variable {p : Params K}

/-- Effect of `split_child` on the leaf chain: it stays the list of the leaves
from left to right. -/
theorem split_child_chain {h h' : Heap} {x x' : LNode K V} {i : Nat} {A B : List Nat}
    (hrun : split_child p h x i = .ok (x', h')) (hl : Linked h (A ++ (addrs x ++ B))) :
    Linked h' (A ++ (addrs x' ++ B)) ∧ h.fresh ≤ h'.fresh := by
  cases x with
  | leaf a es => simp [split_child] at hrun
  | internal ks cs =>
    simp only [split_child, List.get?_eq_getElem?] at hrun
    cases hget : cs[i]? with
    | none => simp [hget] at hrun
    | some y =>
      simp only [hget] at hrun
      by_cases hfull : y.full p = true
      · simp only [hfull, Bool.not_true, Bool.false_eq_true, if_false] at hrun
        by_cases hov : ks.length ≥ p.kInternalNodeMaxKeys
        · simp [hov] at hrun
        · simp only [hov, if_false] at hrun
          cases y with
          | leaf ya ye =>
            simp only at hrun
            cases hhead : (ye.drop p.kLeafNodeMedian).head? with
            | none => simp [hhead] at hrun
            | some e =>
              simp only [hhead] at hrun
              injection hrun with hrun
              injection hrun with hx hh
              subst hx
              subst hh
              rw [addrs_internal, addrsL_split hget, addrs_leaf] at hl
              have hl' : Linked h ((A ++ addrsL (cs.take i)) ++
                  ya :: (addrsL (cs.drop (i + 1)) ++ B)) := by
                simpa using hl
              have := link_after hl'
              refine ⟨?_, ?_⟩
              · simpa [addrsL_append, Heap.create] using this
              · simp only [Heap.setNext_fresh]
                generalize ((h.create.2.setPrev h.create.1 (some ya)).setNext h.create.1
                  (h.create.2.next ya)).next h.create.1 = o
                cases o <;> simp
          | internal yk yc =>
            simp only at hrun
            cases hup : yk[p.kInternalNodeMedian]? with
            | none => simp [hup] at hrun
            | some up =>
              simp only [hup] at hrun
              injection hrun with hrun
              injection hrun with hx hh
              subst hx
              subst hh
              refine ⟨?_, le_refl _⟩
              rw [addrs_internal, addrsL_split hget, addrs_internal] at hl
              simp only [addrs_internal, addrsL_append, addrsL_cons]
              have : addrsL (yc.take (p.kInternalNodeMedian + 1)) ++
                  addrsL (yc.drop (p.kInternalNodeMedian + 1)) = addrsL yc := by
                rw [← addrsL_append, List.take_append_drop]
              simpa [← this] using hl
      · simp [hfull] at hrun

end LNode

end BPlusTree

namespace BPlusTree

variable {K V : Type}

namespace LNode

variable {p : Params K}

/-- Without the links, `insert_non_full` is the `insert_non_full` of the tree. -/
theorem insert_non_full_strip (key : K) (value : V) :
    ∀ (fuel : Nat) (h : Heap) (x : LNode K V),
      (insert_non_full p fuel h x key value).map (fun r => (r.1.strip, r.2.1)) =
        Node.insert_non_full p fuel x.strip key value := by
  intro fuel
  induction fuel with
  | zero => intro h x; simp [insert_non_full, Node.insert_non_full, Except.map]
  | succ fuel ih =>
    intro h x
    cases x with
    | leaf a es =>
      simp only [insert_non_full, Node.insert_non_full, strip_leaf, List.get?_eq_getElem?]
      split
      · split
        · split
          · simp [Except.map]
          · cases hget : es[(Node.upper_bound p.comp (es.map Prod.fst) key).2]? <;>
              simp [Except.map]
        · simp [Except.map]
      · split <;> simp [Except.map]
    | internal ks cs =>
      have hs := split_child_strip (p := p) h (internal ks cs) (Node.upper_bound p.comp ks key).2
      simp only [strip_internal, stripL_eq_map] at hs
      simp only [insert_non_full, Node.insert_non_full, strip_internal, stripL_eq_map,
        List.get?_eq_getElem?, List.getElem?_map]
      cases hget : cs[(Node.upper_bound p.comp ks key).2]? with
      | none => simp [Except.map]
      | some c =>
        simp only [Option.map_some', strip_full]
        by_cases hfull : c.full p = true
        · simp only [hfull, if_true]
          rw [← hs]
          cases hsp : split_child p h (internal ks cs) (Node.upper_bound p.comp ks key).2 with
          | error f => simp [Except.map]
          | ok r =>
            obtain ⟨x1, h1⟩ := r
            simp only [Except.map, strip_keyArray, strip_children, List.getElem?_map]
            cases hki : x1.keyArray[(Node.upper_bound p.comp ks key).2]? with
            | none => simp
            | some ki =>
              simp only []
              generalize (if p.comp ki key ≤ 0 then (Node.upper_bound p.comp ks key).2 + 1
                else (Node.upper_bound p.comp ks key).2) = i'
              cases hc' : x1.children[i']? with
              | none => simp
              | some c' =>
                simp only [Option.map_some']
                rw [← ih h1 c']
                cases hrec : insert_non_full p fuel h1 c' key value with
                | error f => simp [Except.map]
                | ok r2 =>
                  obtain ⟨c'', grew, h2⟩ := r2
                  simp [Except.map, stripL_eq_map, List.map_set]
        · simp only [hfull, Bool.false_eq_true, if_false]
          rw [← ih h c]
          cases hrec : insert_non_full p fuel h c key value with
          | error f => simp [Except.map]
          | ok r2 =>
            obtain ⟨c'', grew, h2⟩ := r2
            simp [Except.map, stripL_eq_map, List.map_set]

end LNode

end BPlusTree

namespace BPlusTree

variable {K V : Type}

namespace LNode

variable {p : Params K}

theorem linked_child {h : Heap} {A B : List Nat} {cs : List (LNode K V)} {i : Nat}
    {c : LNode K V} (hc : cs[i]? = some c) (hl : Linked h (A ++ (addrsL cs ++ B))) :
    Linked h ((A ++ addrsL (cs.take i)) ++ (addrs c ++ (addrsL (cs.drop (i + 1)) ++ B))) := by
  rw [addrsL_split hc] at hl
  simpa using hl

theorem linked_set_child {h : Heap} {A B : List Nat} {cs : List (LNode K V)} {i : Nat}
    {c c' : LNode K V} (hc : cs[i]? = some c)
    (hl : Linked h ((A ++ addrsL (cs.take i)) ++ (addrs c' ++ (addrsL (cs.drop (i + 1)) ++ B)))) :
    Linked h (A ++ (addrsL (cs.set i c') ++ B)) := by
  rw [addrsL_set c' hc]
  simpa using hl

/-- Effect of `insert_non_full` on the leaf chain. -/
theorem insert_non_full_chain (key : K) (value : V) :
    ∀ (fuel : Nat) {h h' : Heap} {x x' : LNode K V} {g : Bool} {A B : List Nat},
      insert_non_full p fuel h x key value = .ok (x', g, h') →
      Linked h (A ++ (addrs x ++ B)) →
      Linked h' (A ++ (addrs x' ++ B)) ∧ h.fresh ≤ h'.fresh := by
  intro fuel
  induction fuel with
  | zero => intro h h' x x' g A B hrun; simp [insert_non_full] at hrun
  | succ fuel ih =>
    intro h h' x x' g A B hrun hl
    cases x with
    | leaf a es =>
      simp only [insert_non_full, List.get?_eq_getElem?] at hrun
      have hgoal : ∀ es', x' = leaf a es' → h' = h →
          Linked h' (A ++ (addrs x' ++ B)) ∧ h.fresh ≤ h'.fresh := by
        intro es' hx hh
        subst hx
        subst hh
        exact ⟨by simpa using hl, le_refl _⟩
      split at hrun
      · split at hrun
        · split at hrun
          · cases hrun
          · split at hrun <;>
            · injection hrun with hrun
              injection hrun with hx hrun
              injection hrun with _ hh
              exact hgoal _ hx.symm hh.symm
        · injection hrun with hrun
          injection hrun with hx hrun
          injection hrun with _ hh
          exact hgoal _ hx.symm hh.symm
      · split at hrun
        · cases hrun
        · injection hrun with hrun
          injection hrun with hx hrun
          injection hrun with _ hh
          exact hgoal _ hx.symm hh.symm
    | internal ks cs =>
      simp only [insert_non_full, List.get?_eq_getElem?] at hrun
      cases hget : cs[(Node.upper_bound p.comp ks key).2]? with
      | none => simp [hget] at hrun
      | some c =>
        simp only [hget] at hrun
        by_cases hfull : c.full p = true
        · simp only [hfull, if_true] at hrun
          cases hsp : split_child p h (internal ks cs) (Node.upper_bound p.comp ks key).2 with
          | error f => simp [hsp] at hrun
          | ok r =>
            obtain ⟨x1, h1⟩ := r
            simp only [hsp] at hrun
            obtain ⟨hl1, hf1⟩ := split_child_chain hsp hl
            cases x1 with
            | leaf a1 e1 =>
              simp only [keyArray, children] at hrun
              split at hrun
              · cases hrun
              · simp at hrun
            | internal ks1 cs1 =>
              simp only [keyArray, children] at hrun
              cases hki : ks1[(Node.upper_bound p.comp ks key).2]? with
              | none => simp [hki] at hrun
              | some ki =>
                simp only [hki] at hrun
                generalize (if p.comp ki key ≤ 0 then (Node.upper_bound p.comp ks key).2 + 1
                  else (Node.upper_bound p.comp ks key).2) = i' at hrun
                cases hc' : cs1[i']? with
                | none => simp [hc'] at hrun
                | some c' =>
                  simp only [hc'] at hrun
                  cases hrec : insert_non_full p fuel h1 c' key value with
                  | error f => simp [hrec] at hrun
                  | ok r2 =>
                    obtain ⟨c'', grew, h2⟩ := r2
                    simp only [hrec] at hrun
                    injection hrun with hrun
                    injection hrun with hx hrun
                    injection hrun with _ hh
                    subst hx
                    subst hh
                    rw [addrs_internal] at hl1
                    obtain ⟨hl2, hf2⟩ := ih hrec (linked_child hc' hl1)
                    exact ⟨by rw [addrs_internal]; exact linked_set_child hc' hl2, by omega⟩
        · simp only [hfull, Bool.false_eq_true, if_false] at hrun
          cases hrec : insert_non_full p fuel h c key value with
          | error f => simp [hrec] at hrun
          | ok r2 =>
            obtain ⟨c'', grew, h2⟩ := r2
            simp only [hrec] at hrun
            injection hrun with hrun
            injection hrun with hx hrun
            injection hrun with _ hh
            subst hx
            subst hh
            rw [addrs_internal] at hl
            obtain ⟨hl2, hf2⟩ := ih hrec (linked_child hget hl)
            exact ⟨by rw [addrs_internal]; exact linked_set_child hget hl2, hf2⟩

end LNode

end BPlusTree

namespace BPlusTree

variable {K V : Type}

namespace LTree

variable {p : Params K}

/-- Without the links, `btree::insert` is the `insert` of the tree. -/
theorem insert_strip (t : LTree K V) (key : K) (value : V) :
    (insert p t key value).map strip = btree.insert p t.strip key value := by
  unfold insert btree.insert strip
  cases hroot : t.root with
  | none =>
    simp only [Option.map_none']
    have := LNode.insert_non_full_strip (p := p) key value
      ((LNode.leaf t.heap.create.1 ([] : List (K × V))).height + 1) t.heap.create.2
      (LNode.leaf t.heap.create.1 [])
    simp only [LNode.strip_leaf, LNode.height] at this
    simp only [LNode.height, Node.height]
    rw [← this]
    cases LNode.insert_non_full p (0 + 1) t.heap.create.2 (LNode.leaf t.heap.create.1 [])
      key value with
    | error f => simp [Except.map]
    | ok r => simp [Except.map]
  | some r =>
    simp only [Option.map_some', LNode.strip_full]
    have hfin : ∀ (root : LNode K V) (h : Heap),
        (match LNode.insert_non_full p (root.height + 1) h root key value with
          | .error f => (.error f : Except Fault (LTree K V))
          | .ok (root', grew, h') =>
            .ok { root := some root', nkeys := if grew then t.nkeys + 1 else t.nkeys,
                  heap := h' }).map
            (fun (u : LTree K V) => ({ root := u.root.map LNode.strip, nkeys := u.nkeys } : Tree K V)) =
        (match Node.insert_non_full p (root.strip.height + 1) root.strip key value with
          | .error f => (.error f : Except Fault (Tree K V))
          | .ok (root', grew) =>
            .ok { root := some root', nkeys := if grew then t.nkeys + 1 else t.nkeys }) := by
      intro root h
      rw [← LNode.insert_non_full_strip, LNode.strip_height]
      cases LNode.insert_non_full p (root.height + 1) h root key value with
      | error f => simp [Except.map]
      | ok r => simp [Except.map]
    by_cases hfull : r.full p = true
    · simp only [hfull, if_true]
      have hs := LNode.split_child_strip (p := p) t.heap (LNode.internal [] [r]) 0
      simp only [LNode.strip_internal, LNode.stripL, LNode.strip] at hs
      rw [← hs]
      cases hsp : LNode.split_child p t.heap (LNode.internal [] [r]) 0 with
      | error f => simp [Except.map]
      | ok r1 =>
        obtain ⟨x1, h1⟩ := r1
        simp only [Except.map]
        exact hfin x1 h1
    · simp only [hfull, Bool.false_eq_true, if_false]
      exact hfin r t.heap

/-- The leaf chain after `btree::insert` is the list of the leaves from left to
right. -/
theorem insert_chain {t t' : LTree K V} {key : K} {value : V}
    (hrun : insert p t key value = .ok t') (hl : Linked t.heap t.addrs) :
    Linked t'.heap t'.addrs := by
  unfold insert at hrun
  unfold addrs at hl
  have hfin : ∀ (root : LNode K V) (h : Heap), Linked h root.addrs →
      (match LNode.insert_non_full p (root.height + 1) h root key value with
        | .error f => (.error f : Except Fault (LTree K V))
        | .ok (root', grew, h') =>
          .ok { root := some root', nkeys := if grew then t.nkeys + 1 else t.nkeys,
                heap := h' }) = .ok t' → Linked t'.heap t'.addrs := by
    intro root h hlr hr
    cases hins : LNode.insert_non_full p (root.height + 1) h root key value with
    | error f => simp [hins] at hr
    | ok r =>
      obtain ⟨root', grew, h'⟩ := r
      simp only [hins] at hr
      injection hr with hr
      subst hr
      have := (LNode.insert_non_full_chain key value _ hins (A := []) (B := [])
        (by simpa using hlr)).1
      simpa [addrs] using this
  cases hroot : t.root with
  | none =>
    rw [hroot] at hrun hl
    simp only at hrun
    refine hfin _ _ ?_ hrun
    obtain ⟨_, _, _⟩ := hl
    refine ⟨by simp, by simp [Heap.create], ?_⟩
    simp [Seg, Heap.create]
  | some r =>
    rw [hroot] at hrun hl
    simp only at hrun hl
    by_cases hfull : r.full p = true
    · simp only [hfull, if_true] at hrun
      cases hsp : LNode.split_child p t.heap (LNode.internal [] [r]) 0 with
      | error f => simp [hsp] at hrun
      | ok r1 =>
        obtain ⟨x1, h1⟩ := r1
        simp only [hsp] at hrun
        have := (LNode.split_child_chain hsp (A := []) (B := []) (by simpa using hl)).1
        exact hfin x1 h1 (by simpa using this) hrun
    · simp only [hfull, Bool.false_eq_true, if_false] at hrun
      exact hfin r t.heap hl hrun

end LTree

end BPlusTree

namespace BPlusTree

variable {K V : Type}

theorem set_pair {α : Type} {l : List α} {j : Nat} {a b : α} (a' b' : α)
    (ha : l[j]? = some a) (hb : l[j + 1]? = some b) :
    (l.set j a').set (j + 1) b' = l.take j ++ a' :: b' :: l.drop (j + 2) := by
  obtain ⟨hl, hlen⟩ := Node.pair_split ha hb
  conv_lhs => rw [hl]
  have h1 := set_mid0 (l.take j) a a' (b :: l.drop (j + 2))
  rw [hlen] at h1
  rw [h1]
  have h2 := set_mid1 (l.take j) a' b b' (l.drop (j + 2))
  rw [hlen] at h2
  exact h2

theorem merge_pair {α : Type} {l : List α} {j : Nat} {a b : α} (a' : α)
    (ha : l[j]? = some a) (hb : l[j + 1]? = some b) :
    (l.set j a').eraseIdx (j + 1) = l.take j ++ a' :: l.drop (j + 2) := by
  obtain ⟨hl, hlen⟩ := Node.pair_split ha hb
  conv_lhs => rw [hl]
  have h1 := set_mid0 (l.take j) a a' (b :: l.drop (j + 2))
  rw [hlen] at h1
  rw [h1]
  have h2 := eraseIdx_mid1 (l.take j) a' b (l.drop (j + 2))
  rw [hlen] at h2
  exact h2

namespace LNode

variable {p : Params K}

theorem shapeL_iff : ∀ {cs : List (LNode K V)}, ShapeL cs ↔ ∀ c ∈ cs, Shape c
  | [] => by simp [ShapeL]
  | c :: cs => by simp [ShapeL, @shapeL_iff cs]

theorem shape_internal {ks : List K} {cs : List (LNode K V)} :
    Shape (internal ks cs) ↔ cs.length = ks.length + 1 ∧ ∀ c ∈ cs, Shape c := by
  simp [Shape, shapeL_iff]

@[simp] theorem shape_leaf (a : Nat) (es : List (K × V)) : Shape (leaf a es : LNode K V) := by
  simp [Shape]

/-- A node whose tree satisfies the structural invariant has the shape of a
tree node. -/
theorem shape_of_wf : ∀ (h : Nat) {minL minI : Nat} {x : LNode K V},
    Node.Wf p minL minI h x.strip → Shape x := by
  intro h
  induction h with
  | zero =>
    intro minL minI x hx
    cases x with
    | leaf a es => simp
    | internal ks cs => simp only [strip_internal] at hx; cases hx
  | succ h ih =>
    intro minL minI x hx
    cases x with
    | leaf a es => simp
    | internal ks cs =>
      simp only [strip_internal, stripL_eq_map] at hx
      cases hx with
      | internal _ _ _ _ _ h1 h2 h3 h4 h5 =>
        rw [shape_internal]
        refine ⟨by simpa using h3, ?_⟩
        intro c hc
        exact ih (h4 c.strip (List.mem_map_of_mem _ hc))

end LNode

end BPlusTree

namespace BPlusTree

variable {K V : Type}

namespace LNode

variable {p : Params K}

/-- Without the links, `rebalance_left_to_right` is the one of the tree. -/
theorem rebalance_left_to_right_strip (x : LNode K V) (i : Nat) :
    (rebalance_left_to_right p x i).map strip = Node.rebalance_left_to_right p x.strip i := by
  cases x with
  | leaf a es => simp [rebalance_left_to_right, Node.rebalance_left_to_right, Except.map]
  | internal ks cs =>
    simp only [rebalance_left_to_right, Node.rebalance_left_to_right, strip_internal,
      stripL_eq_map, List.get?_eq_getElem?, List.getElem?_map]
    by_cases hi : i = 0
    · simp [hi, Except.map]
    · simp only [hi, if_false]
      cases hy : cs[i - 1]? with
      | none => simp [Except.map]
      | some y =>
        cases hz : cs[i - 1 + 1]? with
        | none => simp [Except.map]
        | some z =>
          cases hk : ks[i - 1]? with
          | none => simp [Except.map]
          | some xk =>
            simp only [Option.map_some']
            cases z with
            | leaf za ze =>
              cases y with
              | leaf ya ye =>
                simp only [strip_leaf]
                split
                · simp [Except.map]
                · split
                  · simp [Except.map]
                  · cases he : ye[ye.length - 1]? <;>
                      simp [Except.map, stripL_eq_map, List.map_set]
              | internal yk yc => simp [Except.map]
            | internal zk zc =>
              cases y with
              | leaf ya ye => simp [Except.map]
              | internal yk yc =>
                simp only [strip_internal, stripL_eq_map, List.getElem?_map]
                split
                · simp [Except.map]
                · split
                  · simp [Except.map]
                  · cases hyl : yk[yk.length - 1]? <;> cases hyc : yc[yk.length]? <;>
                      simp [Except.map, stripL_eq_map, List.map_set, List.map_take]

/-- Without the links, `rebalance_right_to_left` is the one of the tree. -/
theorem rebalance_right_to_left_strip (x : LNode K V) (i : Nat) :
    (rebalance_right_to_left p x i).map strip = Node.rebalance_right_to_left p x.strip i := by
  cases x with
  | leaf a es => simp [rebalance_right_to_left, Node.rebalance_right_to_left, Except.map]
  | internal ks cs =>
    simp only [rebalance_right_to_left, Node.rebalance_right_to_left, strip_internal,
      stripL_eq_map, List.get?_eq_getElem?, List.getElem?_map]
    cases hy : cs[i]? with
    | none => simp [Except.map]
    | some y =>
      cases hz : cs[i + 1]? with
      | none => simp [Except.map]
      | some z =>
        cases hk : ks[i]? with
        | none => simp [Except.map]
        | some xk =>
          simp only [Option.map_some']
          cases y with
          | leaf ya ye =>
            cases z with
            | leaf za ze =>
              simp only [strip_leaf]
              split
              · simp [Except.map]
              · match ze with
                | [] => simp [Except.map]
                | [e] => simp [Except.map]
                | e :: e' :: rest => simp [Except.map, stripL_eq_map, List.map_set]
            | internal zk zc => simp [Except.map]
          | internal yk yc =>
            cases z with
            | leaf za ze => simp [Except.map]
            | internal zk zc =>
              simp only [strip_internal, stripL_eq_map]
              split
              · simp [Except.map]
              · match zk, zc with
                | [], _ => simp [Except.map]
                | _ :: _, [] => simp [Except.map]
                | zk0 :: zkrest, zc0 :: zcrest =>
                  simp [Except.map, stripL_eq_map, List.map_set]

end LNode

end BPlusTree

namespace BPlusTree

variable {K V : Type}

namespace LNode

variable {p : Params K}

theorem pair_frame {ks ks' : List K} {cs : List (LNode K V)} {j : Nat} {y z y' z' : LNode K V}
    (hy : cs[j]? = some y) (hz : cs[j + 1]? = some z) (hlen : ks'.length = ks.length)
    (hs : Shape (internal ks cs)) (hy' : Shape y → Shape z → Shape y') (hz' : Shape y → Shape z → Shape z')
    (ha : Shape y → Shape z → addrs y' ++ addrs z' = addrs y ++ addrs z) :
    Shape (internal ks' ((cs.set j y').set (j + 1) z')) ∧
      addrs (internal ks' ((cs.set j y').set (j + 1) z')) = addrs (internal ks cs) := by
  rw [shape_internal] at hs
  have hsy : Shape y := hs.2 y (List.getElem?_mem hy)
  have hsz : Shape z := hs.2 z (List.getElem?_mem hz)
  constructor
  · rw [shape_internal]
    refine ⟨by simp [hlen, hs.1], ?_⟩
    intro c hc
    rw [set_pair y' z' hy hz] at hc
    simp only [List.mem_append, List.mem_cons] at hc
    rcases hc with hc | hc | hc | hc
    · exact hs.2 c (List.mem_of_mem_take hc)
    · rw [hc]; exact hy' hsy hsz
    · rw [hc]; exact hz' hsy hsz
    · exact hs.2 c (List.mem_of_mem_drop hc)
  · rw [addrs_internal, addrs_internal, set_pair y' z' hy hz]
    conv_rhs => rw [(Node.pair_split hy hz).1]
    simp only [addrsL_append, addrsL_cons]
    rw [← List.append_assoc (addrs y'), ha hsy hsz, List.append_assoc]

/-- Function `rebalance_left_to_right` keeps the shape and the leaves. -/
theorem rebalance_left_to_right_frame {x x' : LNode K V} {i : Nat}
    (hrun : rebalance_left_to_right p x i = .ok x') (hs : Shape x) :
    Shape x' ∧ addrs x' = addrs x := by
  cases x with
  | leaf a es => simp [rebalance_left_to_right] at hrun
  | internal ks cs =>
    simp only [rebalance_left_to_right, List.get?_eq_getElem?] at hrun
    by_cases hi : i = 0
    · simp [hi] at hrun
    · simp only [hi, if_false] at hrun
      cases hy : cs[i - 1]? with
      | none => simp [hy] at hrun
      | some y =>
        cases hz : cs[i - 1 + 1]? with
        | none => simp [hy, hz] at hrun
        | some z =>
          cases hk : ks[i - 1]? with
          | none => simp [hy, hz, hk] at hrun
          | some xk =>
            simp only [hy, hz, hk] at hrun
            cases z with
            | leaf za ze =>
              cases y with
              | leaf ya ye =>
                simp only at hrun
                split at hrun
                · cases hrun
                · split at hrun
                  · cases hrun
                  · cases he : ye[ye.length - 1]? with
                    | none => simp [he] at hrun
                    | some e =>
                      simp only [he] at hrun
                      injection hrun with hrun
                      subst hrun
                      exact pair_frame hy hz (by simp) hs (fun _ _ => by simp)
                        (fun _ _ => by simp) (fun _ _ => by simp)
              | internal yk yc => simp at hrun
            | internal zk zc =>
              cases y with
              | leaf ya ye => simp at hrun
              | internal yk yc =>
                simp only at hrun
                split at hrun
                · cases hrun
                · split at hrun
                  · cases hrun
                  · rename_i hne
                    cases hyl : yk[yk.length - 1]? with
                    | none => simp [hyl] at hrun
                    | some ylast =>
                      cases hyc : yc[yk.length]? with
                      | none => simp [hyl, hyc] at hrun
                      | some ychild =>
                        simp only [hyl, hyc] at hrun
                        injection hrun with hrun
                        subst hrun
                        refine pair_frame hy hz (by simp) hs ?_ ?_ ?_
                        · intro hsy _
                          rw [shape_internal] at hsy ⊢
                          refine ⟨?_, fun c hc => hsy.2 c (List.mem_of_mem_take hc)⟩
                          simp only [List.length_take]
                          omega
                        · intro hsy hsz
                          rw [shape_internal] at hsy hsz ⊢
                          refine ⟨by simp [hsz.1], ?_⟩
                          intro c hc
                          rcases List.mem_cons.1 hc with hc | hc
                          · rw [hc]; exact hsy.2 _ (List.getElem?_mem hyc)
                          · exact hsz.2 c hc
                        · intro hsy hsz
                          rw [shape_internal] at hsy
                          simp only [addrs_internal, addrsL_cons]
                          rw [addrsL_split hyc, List.drop_of_length_le (by omega)]
                          simp

/-- Function `rebalance_right_to_left` keeps the shape and the leaves. -/
theorem rebalance_right_to_left_frame {x x' : LNode K V} {i : Nat}
    (hrun : rebalance_right_to_left p x i = .ok x') (hs : Shape x) :
    Shape x' ∧ addrs x' = addrs x := by
  cases x with
  | leaf a es => simp [rebalance_right_to_left] at hrun
  | internal ks cs =>
    simp only [rebalance_right_to_left, List.get?_eq_getElem?] at hrun
    cases hy : cs[i]? with
    | none => simp [hy] at hrun
    | some y =>
      cases hz : cs[i + 1]? with
      | none => simp [hy, hz] at hrun
      | some z =>
        cases hk : ks[i]? with
        | none => simp [hy, hz, hk] at hrun
        | some xk =>
          simp only [hy, hz, hk] at hrun
          cases y with
          | leaf ya ye =>
            cases z with
            | leaf za ze =>
              simp only at hrun
              split at hrun
              · cases hrun
              · match ze, hz, hrun with
                | [], _, hrun => simp at hrun
                | [e], _, hrun => simp at hrun
                | e :: e' :: rest, hz, hrun =>
                  simp only at hrun
                  injection hrun with hrun
                  subst hrun
                  exact pair_frame hy hz (by simp) hs (fun _ _ => by simp)
                    (fun _ _ => by simp) (fun _ _ => by simp)
            | internal zk zc => simp at hrun
          | internal yk yc =>
            cases z with
            | leaf za ze => simp at hrun
            | internal zk zc =>
              simp only at hrun
              split at hrun
              · cases hrun
              · match zk, zc, hz, hrun with
                | [], _, _, hrun => simp at hrun
                | _ :: _, [], _, hrun => simp at hrun
                | zk0 :: zkrest, zc0 :: zcrest, hz, hrun =>
                  simp only at hrun
                  injection hrun with hrun
                  subst hrun
                  refine pair_frame hy hz (by simp) hs ?_ ?_ ?_
                  · intro hsy hsz
                    rw [shape_internal] at hsy hsz ⊢
                    refine ⟨by simp [hsy.1], ?_⟩
                    intro c hc
                    rcases List.mem_append.1 hc with hc | hc
                    · exact hsy.2 c hc
                    · rw [List.mem_singleton.1 hc]
                      exact hsz.2 _ (List.mem_cons_self _ _)
                  · intro hsy hsz
                    rw [shape_internal] at hsz ⊢
                    refine ⟨by simpa using hsz.1, ?_⟩
                    intro c hc
                    exact hsz.2 c (List.mem_cons_of_mem _ hc)
                  · intro hsy hsz
                    simp [addrsL_append]

end LNode

end BPlusTree

namespace BPlusTree

variable {K V : Type}

theorem map_eraseIdx_comm {α β : Type} (f : α → β) :
    ∀ (l : List α) (i : Nat), (l.eraseIdx i).map f = (l.map f).eraseIdx i
  | [], _ => by simp
  | _ :: _, 0 => by simp
  | a :: l, i + 1 => by simp [map_eraseIdx_comm f l i]

namespace LNode

variable {p : Params K}

/-- Without the links, `merge` is the one of the tree. -/
theorem merge_strip (h : Heap) (x : LNode K V) (i : Nat) :
    (merge p h x i).map (fun r => r.1.strip) = Node.merge p x.strip i := by
  cases x with
  | leaf a es => simp [merge, Node.merge, Except.map]
  | internal ks cs =>
    simp only [merge, Node.merge, strip_internal, stripL_eq_map, List.get?_eq_getElem?,
      List.getElem?_map]
    cases hy : cs[i]? with
    | none => simp [Except.map]
    | some y =>
      cases hz : cs[i + 1]? with
      | none => simp [Except.map]
      | some z =>
        cases hk : ks[i]? with
        | none => simp [Except.map]
        | some xk =>
          simp only [Option.map_some']
          cases y with
          | leaf ya ye =>
            cases z with
            | leaf za ze =>
              simp only [strip_leaf]
              split
              · simp [Except.map]
              · simp [Except.map, stripL_eq_map, List.map_set, map_eraseIdx_comm]
            | internal zk zc => simp [Except.map]
          | internal yk yc =>
            cases z with
            | leaf za ze => simp [Except.map]
            | internal zk zc =>
              simp only [strip_internal, stripL_eq_map]
              split
              · simp [Except.map]
              · simp [Except.map, stripL_eq_map, List.map_set, map_eraseIdx_comm]

/-- Effect of `merge` on the leaf chain. -/
theorem merge_chain {h h' : Heap} {x x' : LNode K V} {i : Nat} {A B : List Nat}
    (hrun : merge p h x i = .ok (x', h')) (hs : Shape x)
    (hl : Linked h (A ++ (addrs x ++ B))) :
    Shape x' ∧ Linked h' (A ++ (addrs x' ++ B)) := by
  cases x with
  | leaf a es => simp [merge] at hrun
  | internal ks cs =>
    simp only [merge, List.get?_eq_getElem?] at hrun
    cases hy : cs[i]? with
    | none => simp [hy] at hrun
    | some y =>
      cases hz : cs[i + 1]? with
      | none => simp [hy, hz] at hrun
      | some z =>
        cases hk : ks[i]? with
        | none => simp [hy, hz, hk] at hrun
        | some xk =>
          simp only [hy, hz, hk] at hrun
          rw [shape_internal] at hs
          have hsy : Shape y := hs.2 y (List.getElem?_mem hy)
          have hsz : Shape z := hs.2 z (List.getElem?_mem hz)
          have hik : i < ks.length := (List.getElem?_eq_some.1 hk).1
          have hshape : ∀ y' : LNode K V, Shape y' →
              Shape (internal (ks.eraseIdx i) ((cs.set i y').eraseIdx (i + 1))) := by
            intro y' hy'
            rw [shape_internal]
            constructor
            · rw [List.length_eraseIdx, List.length_eraseIdx]
              simp only [List.length_set]
              have : i + 1 < cs.length := (List.getElem?_eq_some.1 hz).1
              simp [hik, this]
              omega
            · intro c hc
              rw [merge_pair y' hy hz] at hc
              simp only [List.mem_append, List.mem_cons] at hc
              rcases hc with hc | hc | hc
              · exact hs.2 c (List.mem_of_mem_take hc)
              · rw [hc]; exact hy'
              · exact hs.2 c (List.mem_of_mem_drop hc)
          rw [addrs_internal, (Node.pair_split hy hz).1] at hl
          cases y with
          | leaf ya ye =>
            cases z with
            | leaf za ze =>
              simp only at hrun
              split at hrun
              · cases hrun
              · injection hrun with hrun
                injection hrun with hx hh
                subst hx
                subst hh
                refine ⟨hshape _ (by simp), ?_⟩
                rw [addrs_internal, merge_pair _ hy hz]
                simp only [addrsL_append, addrsL_cons, addrs_leaf, List.singleton_append,
                  List.append_assoc, List.cons_append] at hl ⊢
                rw [← List.append_assoc] at hl ⊢
                exact unlink hl
            | internal zk zc => simp at hrun
          | internal yk yc =>
            cases z with
            | leaf za ze => simp at hrun
            | internal zk zc =>
              simp only at hrun
              split at hrun
              · cases hrun
              · injection hrun with hrun
                injection hrun with hx hh
                subst hx
                subst hh
                rw [shape_internal] at hsy hsz
                refine ⟨hshape _ ?_, ?_⟩
                · rw [shape_internal]
                  refine ⟨by simp [hsy.1, hsz.1]; omega, ?_⟩
                  intro c hc
                  rcases List.mem_append.1 hc with hc | hc
                  · exact hsy.2 c hc
                  · exact hsz.2 c hc
                · rw [addrs_internal, merge_pair _ hy hz]
                  simpa [addrsL_append] using hl

/-- Without the links, `merge_and_shrink` is the one of the tree. -/
theorem merge_and_shrink_strip (h : Heap) (x : LNode K V) (xIsRoot : Bool) (i : Nat) :
    (merge_and_shrink p h x xIsRoot i).map (fun r => (r.1, r.2.1.strip, r.2.2.1)) =
      Node.merge_and_shrink p x.strip xIsRoot i := by
  unfold merge_and_shrink Node.merge_and_shrink
  rw [← merge_strip h x i]
  cases hm : merge p h x i with
  | error f => simp [Except.map]
  | ok r =>
    obtain ⟨x', h1⟩ := r
    simp only [Except.map, strip_count, strip_children, List.head?_map]
    by_cases hc : (x'.count == 0) = true
    · simp only [hc, if_true]
      cases hh : x'.children.head? with
      | none => simp
      | some c => cases xIsRoot <;> simp
    · simp [hc]

/-- Effect of `merge_and_shrink` on the leaf chain. -/
theorem merge_and_shrink_chain {h h' : Heap} {x x' : LNode K V} {xIsRoot : Bool} {i j : Nat}
    {o : operation_result} {A B : List Nat}
    (hrun : merge_and_shrink p h x xIsRoot i = .ok (o, x', j, h')) (hs : Shape x)
    (hl : Linked h (A ++ (addrs x ++ B))) :
    Shape x' ∧ Linked h' (A ++ (addrs x' ++ B)) := by
  unfold merge_and_shrink at hrun
  cases hm : merge p h x i with
  | error f => simp [hm] at hrun
  | ok r =>
    obtain ⟨x1, h1⟩ := r
    simp only [hm] at hrun
    obtain ⟨hs1, hl1⟩ := merge_chain hm hs hl
    split at hrun
    · rename_i hc0
      cases x1 with
      | leaf a es => simp [children] at hrun
      | internal ks1 cs1 =>
        simp only [count, beq_iff_eq, List.length_eq_zero] at hc0
        rw [shape_internal] at hs1
        match cs1, hs1, hl1, hrun with
        | [], hs1, _, _ => simp [hc0] at hs1
        | [c], hs1, hl1, hrun =>
          simp only [children, List.head?_cons] at hrun
          cases xIsRoot with
          | false => simp at hrun
          | true =>
            simp only [if_true] at hrun
            injection hrun with hrun
            injection hrun with _ hrun
            injection hrun with hx hrun
            injection hrun with _ hh
            subst hx
            subst hh
            exact ⟨hs1.2 c (List.mem_cons_self _ _), by simpa using hl1⟩
        | _ :: _ :: _, hs1, _, _ => simp [hc0] at hs1
    · injection hrun with hrun
      injection hrun with _ hrun
      injection hrun with hx hrun
      injection hrun with _ hh
      subst hx
      subst hh
      exact ⟨hs1, hl1⟩

end LNode

end BPlusTree

namespace BPlusTree

variable {K V : Type}

namespace LNode

variable {p : Params K}

/-- Without the links, `try_rebalance_or_merge` is the one of the tree. -/
theorem try_rebalance_or_merge_strip (h : Heap) (x : LNode K V) (xIsRoot : Bool) (i : Nat) :
    (try_rebalance_or_merge p h x xIsRoot i).map (fun r => (r.1, r.2.1.strip, r.2.2.1)) =
      Node.try_rebalance_or_merge p x.strip xIsRoot i := by
  unfold try_rebalance_or_merge Node.try_rebalance_or_merge
  rw [← rebalance_left_to_right_strip, ← rebalance_right_to_left_strip,
    ← merge_and_shrink_strip h x xIsRoot (i - 1), ← merge_and_shrink_strip h x xIsRoot i]
  simp only [strip_children, List.get?_eq_getElem?, List.getElem?_map, strip_count]
  cases hc : x.children[i]? with
  | none => simp [Except.map]
  | some c =>
    simp only [Option.map_some', strip_minkeys]
    by_cases hmin : c.minkeys p = true
    · simp only [hmin, if_true]
      by_cases hi : i > 0
      · simp only [hi, if_true]
        cases hl : x.children[i - 1]? with
        | none => simp [Except.map]
        | some l =>
          simp only [Option.map_some', strip_minkeys]
          by_cases hlm : l.minkeys p = true
          · simp only [hlm, Bool.not_true, Bool.false_eq_true, if_false]
            by_cases hlt : i < x.count
            · simp only [hlt, if_true]
              cases hr : x.children[i + 1]? with
              | none => simp [Except.map]
              | some r =>
                simp only [Option.map_some', strip_minkeys]
                cases hrm : r.minkeys p
                · simp only [Bool.not_false]
                  cases hop : rebalance_right_to_left p x i <;> simp [Except.map]
                · simp only [Bool.not_true]
            · simp only [hlt, if_false]
          · simp only [hlm, Bool.not_false, if_true]
            cases hop : rebalance_left_to_right p x i <;> simp [Except.map]
      · simp only [hi, if_false]
        cases hr : x.children[i + 1]? with
        | none => simp [Except.map]
        | some r =>
          simp only [Option.map_some', strip_minkeys]
          cases hrm : r.minkeys p
          · simp only [Bool.not_false, if_true]
            cases hop : rebalance_right_to_left p x i <;> simp [Except.map]
          · simp only [Bool.not_true, Bool.false_eq_true, if_false]
    · simp [hmin, Except.map]

/-- Effect of `try_rebalance_or_merge` on the leaf chain. -/
theorem try_rebalance_or_merge_chain {h h' : Heap} {x x' : LNode K V} {xIsRoot : Bool}
    {i j : Nat} {o : operation_result} {A B : List Nat}
    (hrun : try_rebalance_or_merge p h x xIsRoot i = .ok (o, x', j, h')) (hs : Shape x)
    (hl : Linked h (A ++ (addrs x ++ B))) :
    Shape x' ∧ Linked h' (A ++ (addrs x' ++ B)) := by
  unfold try_rebalance_or_merge at hrun
  simp only [List.get?_eq_getElem?] at hrun
  have hl2r : ∀ {y : Except Fault (LNode K V)},
      y = rebalance_left_to_right p x i ∨ y = rebalance_right_to_left p x i →
      ∀ {o' : operation_result}, (match y with
        | .error f => .error f
        | .ok x1 => .ok (o', x1, i, h)) = (.ok (o, x', j, h') :
          Except Fault (operation_result × LNode K V × Nat × Heap)) →
      Shape x' ∧ Linked h' (A ++ (addrs x' ++ B)) := by
    intro y hy o' hm
    cases hop : y with
    | error f => simp [hop] at hm
    | ok x1 =>
      simp only [hop] at hm
      injection hm with hm
      injection hm with _ hm
      injection hm with hx hm
      injection hm with _ hh
      subst hx
      subst hh
      have hfr : Shape x1 ∧ addrs x1 = addrs x := by
        rcases hy with hy | hy
        · exact rebalance_left_to_right_frame (hy ▸ hop) hs
        · exact rebalance_right_to_left_frame (hy ▸ hop) hs
      exact ⟨hfr.1, by rw [hfr.2]; exact hl⟩
  cases hc : x.children[i]? with
  | none => simp [hc] at hrun
  | some c =>
    simp only [hc] at hrun
    split at hrun
    · split at hrun
      · cases hlft : x.children[i - 1]? with
        | none => simp [hlft] at hrun
        | some l =>
          simp only [hlft] at hrun
          split at hrun
          · exact hl2r (Or.inl rfl) hrun
          · split at hrun
            · cases hrun
            · exact hl2r (Or.inr rfl) hrun
            · exact merge_and_shrink_chain hrun hs hl
      · cases hr : x.children[i + 1]? with
        | none => simp [hr] at hrun
        | some r =>
          simp only [hr] at hrun
          split at hrun
          · exact hl2r (Or.inr rfl) hrun
          · exact merge_and_shrink_chain hrun hs hl
    · injection hrun with hrun
      injection hrun with _ hrun
      injection hrun with hx hrun
      injection hrun with _ hh
      subst hx
      subst hh
      exact ⟨hs, hl⟩

end LNode

end BPlusTree

namespace BPlusTree

variable {K V : Type}

namespace LNode

variable {p : Params K}

theorem shape_child {x c : LNode K V} {i : Nat} (hs : Shape x) (hc : x.children[i]? = some c) :
    Shape c := by
  cases x with
  | leaf a es => simp [children] at hc
  | internal ks cs => exact (shape_internal.1 hs).2 c (List.getElem?_mem hc)

theorem shape_setChild {x c' : LNode K V} (i : Nat) (hs : Shape x) (hc' : Shape c') :
    Shape (x.setChild i c') := by
  cases x with
  | leaf a es => simp [setChild]
  | internal ks cs =>
    rw [shape_internal] at hs
    simp only [setChild, shape_internal, List.length_set]
    refine ⟨hs.1, ?_⟩
    intro c hc
    rcases List.mem_or_eq_of_mem_set hc with hc | hc
    · exact hs.2 c hc
    · rw [hc]; exact hc'

theorem linked_child_of {h : Heap} {A B : List Nat} {x c : LNode K V} {i : Nat}
    (hc : x.children[i]? = some c) (hl : Linked h (A ++ (addrs x ++ B))) :
    Linked h ((A ++ addrsL (x.children.take i)) ++
      (addrs c ++ (addrsL (x.children.drop (i + 1)) ++ B))) := by
  cases x with
  | leaf a es => simp [children] at hc
  | internal ks cs => exact linked_child hc (by simpa using hl)

theorem linked_setChild {h : Heap} {A B : List Nat} {x c c' : LNode K V} {i : Nat}
    (hc : x.children[i]? = some c)
    (hl : Linked h ((A ++ addrsL (x.children.take i)) ++
      (addrs c' ++ (addrsL (x.children.drop (i + 1)) ++ B)))) :
    Linked h (A ++ (addrs (x.setChild i c') ++ B)) := by
  cases x with
  | leaf a es => simp [children] at hc
  | internal ks cs =>
    simp only [setChild, addrs_internal]
    exact linked_set_child hc hl

/-- Without the links, `rebalance_spine` is the one of the tree. -/
theorem rebalance_spine_strip : ∀ (fuel : Nat) (h : Heap) (x : LNode K V),
    (rebalance_spine p fuel h x).map (fun r => r.1.strip) =
      Node.rebalance_spine p fuel x.strip := by
  intro fuel
  induction fuel with
  | zero => intro h x; simp [rebalance_spine, Node.rebalance_spine, Except.map]
  | succ fuel ih =>
    intro h x
    cases x with
    | leaf a es => simp [rebalance_spine, Node.rebalance_spine, Except.map]
    | internal ks cs =>
      rw [strip_internal]
      simp only [rebalance_spine, Node.rebalance_spine]
      rw [← strip_internal, ← try_rebalance_or_merge_strip h]
      cases hop : try_rebalance_or_merge p h (internal ks cs) false 0 with
      | error f => simp [Except.map]
      | ok r =>
        obtain ⟨o, x1, j, h1⟩ := r
        simp only [Except.map, strip_children, List.head?_map]
        cases hh : x1.children.head? with
        | none => simp
        | some c =>
          simp only [Option.map_some']
          rw [← ih h1 c]
          cases hrec : rebalance_spine p fuel h1 c with
          | error f => simp [Except.map]
          | ok r2 => simp [Except.map]

/-- Effect of `rebalance_spine` on the leaf chain. -/
theorem rebalance_spine_chain : ∀ (fuel : Nat) {h h' : Heap} {x x' : LNode K V}
    {A B : List Nat}, rebalance_spine p fuel h x = .ok (x', h') → Shape x →
    Linked h (A ++ (addrs x ++ B)) → Shape x' ∧ Linked h' (A ++ (addrs x' ++ B)) := by
  intro fuel
  induction fuel with
  | zero => intro h h' x x' A B hrun; simp [rebalance_spine] at hrun
  | succ fuel ih =>
    intro h h' x x' A B hrun hs hl
    cases x with
    | leaf a es =>
      simp only [rebalance_spine] at hrun
      injection hrun with hrun
      injection hrun with hx hh
      subst hx
      subst hh
      exact ⟨hs, hl⟩
    | internal ks cs =>
      simp only [rebalance_spine] at hrun
      cases hop : try_rebalance_or_merge p h (internal ks cs) false 0 with
      | error f => simp [hop] at hrun
      | ok r =>
        obtain ⟨o, x1, j, h1⟩ := r
        simp only [hop] at hrun
        obtain ⟨hs1, hl1⟩ := try_rebalance_or_merge_chain hop hs hl
        cases hh : x1.children.head? with
        | none => simp [hh] at hrun
        | some c =>
          simp only [hh] at hrun
          cases hrec : rebalance_spine p fuel h1 c with
          | error f => simp [hrec] at hrun
          | ok r2 =>
            obtain ⟨c', h2⟩ := r2
            simp only [hrec] at hrun
            injection hrun with hrun
            injection hrun with hx hh2
            subst hx
            subst hh2
            have hc0 : x1.children[0]? = some c := by rw [← List.head?_eq_getElem?]; exact hh
            obtain ⟨hs2, hl2⟩ := ih hrec (shape_child hs1 hc0) (linked_child_of hc0 hl1)
            exact ⟨shape_setChild 0 hs1 hs2, linked_setChild hc0 hl2⟩

/-- Without the links, `try_rebalance_or_merge_subtree` is the one of the tree. -/
theorem try_rebalance_or_merge_subtree_strip (h : Heap) (x : LNode K V) (xIsRoot : Bool)
    (i : Nat) :
    (try_rebalance_or_merge_subtree p h x xIsRoot i).map (fun r => (r.1, r.2.1.strip)) =
      Node.try_rebalance_or_merge_subtree p x.strip xIsRoot i := by
  unfold try_rebalance_or_merge_subtree Node.try_rebalance_or_merge_subtree
  rw [← try_rebalance_or_merge_strip h]
  cases hop : try_rebalance_or_merge p h x xIsRoot i with
  | error f => simp [Except.map]
  | ok r =>
    obtain ⟨o, x1, j, h1⟩ := r
    simp only [Except.map]
    have hrest : (Except.map (fun r => (r.1, r.2.1.strip))
        (match x1.children.get? i with
        | none => .error .outOfRange
        | some c =>
          match rebalance_spine p (c.height + 1) h1 c with
          | .error f => .error f
          | .ok (c', h2) => .ok (o, x1.setChild i c', h2)) :
          Except Fault (operation_result × Node K V)) =
        (match x1.strip.children.get? i with
        | none => .error .outOfRange
        | some c =>
          match Node.rebalance_spine p (c.height + 1) c with
          | .error f => .error f
          | .ok c' => .ok (o, x1.strip.setChild i c')) := by
      simp only [strip_children, List.get?_eq_getElem?, List.getElem?_map]
      cases hc : x1.children[i]? with
      | none => simp [Except.map]
      | some c =>
        simp only [Option.map_some', strip_height]
        rw [← rebalance_spine_strip (c.height + 1) h1 c]
        cases hrec : rebalance_spine p (c.height + 1) h1 c with
        | error f => simp [Except.map]
        | ok r2 => simp [Except.map]
    cases o <;> first | exact hrest | simp [Except.map]

/-- Effect of `try_rebalance_or_merge_subtree` on the leaf chain. -/
theorem try_rebalance_or_merge_subtree_chain {h h' : Heap} {x x' : LNode K V}
    {xIsRoot : Bool} {i : Nat} {o : operation_result} {A B : List Nat}
    (hrun : try_rebalance_or_merge_subtree p h x xIsRoot i = .ok (o, x', h')) (hs : Shape x)
    (hl : Linked h (A ++ (addrs x ++ B))) :
    Shape x' ∧ Linked h' (A ++ (addrs x' ++ B)) := by
  unfold try_rebalance_or_merge_subtree at hrun
  cases hop : try_rebalance_or_merge p h x xIsRoot i with
  | error f => simp [hop] at hrun
  | ok r =>
    obtain ⟨o1, x1, j, h1⟩ := r
    simp only [hop] at hrun
    obtain ⟨hs1, hl1⟩ := try_rebalance_or_merge_chain hop hs hl
    have hrest : (match x1.children.get? i with
        | none => .error .outOfRange
        | some c =>
          match rebalance_spine p (c.height + 1) h1 c with
          | .error f => .error f
          | .ok (c', h2) => .ok (o1, x1.setChild i c', h2)) =
          (.ok (o, x', h') : Except Fault (operation_result × LNode K V × Heap)) →
        Shape x' ∧ Linked h' (A ++ (addrs x' ++ B)) := by
      intro hrun
      simp only [List.get?_eq_getElem?] at hrun
      cases hc : x1.children[i]? with
      | none => simp [hc] at hrun
      | some c =>
        simp only [hc] at hrun
        cases hrec : rebalance_spine p (c.height + 1) h1 c with
        | error f => simp [hrec] at hrun
        | ok r2 =>
          obtain ⟨c', h2⟩ := r2
          simp only [hrec] at hrun
          injection hrun with hrun
          injection hrun with _ hrun
          injection hrun with hx hh2
          subst hx
          subst hh2
          obtain ⟨hs2, hl2⟩ := rebalance_spine_chain _ hrec (shape_child hs1 hc)
            (linked_child_of hc hl1)
          exact ⟨shape_setChild i hs1 hs2, linked_setChild hc hl2⟩
    cases o1 <;> first
      | exact hrest hrun
      | (injection hrun with hrun
         injection hrun with _ hrun
         injection hrun with hx hh
         subst hx
         subst hh
         exact ⟨hs1, hl1⟩)

end LNode

end BPlusTree

namespace BPlusTree

variable {K V : Type}

namespace LNode

variable {p : Params K}

/-- Without the links, `erase_steer` is the one of the tree. -/
theorem erase_steer_strip (key : K) (h : Heap) (x : LNode K V) (xIsRoot s : Bool) :
    (erase_steer p key h x xIsRoot s).map
        (fun r => Sum.map strip (fun q => (q.1.strip, q.2)) r.1) =
      Node.erase_steer p key x.strip xIsRoot s := by
  unfold erase_steer Node.erase_steer
  simp only [strip_keyArray]
  by_cases hf : (Node.lower_bound p.comp x.keyArray key).1 = true
  · simp only [hf, if_true]
    cases hd : p.kDuplicates
    · simp [Except.map]
    · simp only [Bool.not_true, Bool.false_eq_true, if_false]
      rw [← try_rebalance_or_merge_subtree_strip h]
      cases hop : try_rebalance_or_merge_subtree p h x xIsRoot
          ((Node.lower_bound p.comp x.keyArray key).2 + 1) with
      | error f => simp [Except.map]
      | ok r =>
        obtain ⟨o, x1, h1⟩ := r
        cases o
        · simp [Except.map]
        · simp only [Except.map, strip_keyArray]
          cases hk : x1.keyArray.get? (Node.lower_bound p.comp x.keyArray key).2 with
          | none => simp
          | some ki =>
            by_cases hcmp : p.comp key ki > 0 <;> simp [hcmp]
        · simp [Except.map]
        · simp [Except.map]
        · simp [Except.map]
  · simp [hf, Except.map]

/-- Effect of `erase_steer` on the leaf chain. -/
theorem erase_steer_chain {key : K} {h h' : Heap} {x : LNode K V} {xIsRoot s : Bool}
    {r : LNode K V ⊕ (LNode K V × Nat × Bool)} {A B : List Nat}
    (hrun : erase_steer p key h x xIsRoot s = .ok (r, h')) (hs : Shape x)
    (hl : Linked h (A ++ (addrs x ++ B))) :
    Shape (Sum.elim id Prod.fst r) ∧ Linked h' (A ++ (addrs (Sum.elim id Prod.fst r) ++ B)) := by
  simp only [erase_steer] at hrun
  have hsame : ∀ {j : Nat} {b : Bool}, (.ok (.inr (x, j, b), h) :
      Except Fault ((LNode K V ⊕ (LNode K V × Nat × Bool)) × Heap)) = .ok (r, h') →
      Shape (Sum.elim id Prod.fst r) ∧
        Linked h' (A ++ (addrs (Sum.elim id Prod.fst r) ++ B)) := by
    intro j b hrun
    injection hrun with hrun
    injection hrun with hr hh
    subst hr
    subst hh
    exact ⟨hs, hl⟩
  by_cases hf : (Node.lower_bound p.comp x.keyArray key).1 = true
  · simp only [hf, if_true] at hrun
    cases hd : p.kDuplicates
    · simp only [hd, Bool.not_false, if_true] at hrun
      exact hsame hrun
    · simp only [hd, Bool.not_true, Bool.false_eq_true, if_false] at hrun
      cases hop : try_rebalance_or_merge_subtree p h x xIsRoot
          ((Node.lower_bound p.comp x.keyArray key).2 + 1) with
      | error f => simp [hop] at hrun
      | ok r1 =>
        obtain ⟨o, x1, h1⟩ := r1
        obtain ⟨hs1, hl1⟩ := try_rebalance_or_merge_subtree_chain hop hs hl
        simp only [hop] at hrun
        have hfin : ∀ {q : LNode K V ⊕ (LNode K V × Nat × Bool)},
            (.ok (q, h1) :
              Except Fault ((LNode K V ⊕ (LNode K V × Nat × Bool)) × Heap)) = .ok (r, h') →
            Sum.elim id Prod.fst q = x1 →
            Shape (Sum.elim id Prod.fst r) ∧
              Linked h' (A ++ (addrs (Sum.elim id Prod.fst r) ++ B)) := by
          intro q hrun hq
          injection hrun with hrun
          injection hrun with hr hh
          subst hr
          subst hh
          rw [hq]
          exact ⟨hs1, hl1⟩
        cases o
        · exact hfin hrun rfl
        · simp only [List.get?_eq_getElem?] at hrun
          cases hk : x1.keyArray[(Node.lower_bound p.comp x.keyArray key).2]? with
          | none => simp [hk] at hrun
          | some ki =>
            simp only [hk] at hrun
            split at hrun
            · exact hfin hrun rfl
            · exact hfin hrun rfl
        · exact hfin hrun rfl
        · exact hfin hrun rfl
        · exact hfin hrun rfl
  · simp only [hf, Bool.false_eq_true, if_false] at hrun
    exact hsame hrun

/-- Effect of the descent of `node::erase` on the leaf chain; the leaf whose
successor is to be taken is a leaf of the node. -/
theorem erase_loop_chain (key : K) : ∀ (fuel : Nat) {h h' : Heap} {x : LNode K V}
    {xIsRoot s : Bool} {r : LEraseStep K V} {A B : List Nat},
    erase_loop p key fuel h x xIsRoot s = .ok (r, h') → Shape x →
    Linked h (A ++ (addrs x ++ B)) →
    Shape r.node ∧ Linked h' (A ++ (addrs r.node ++ B)) ∧
      ∀ x' a, r = .successor x' a → a ∈ addrs x' := by
  intro fuel
  induction fuel with
  | zero => intro h h' x xIsRoot s r A B hrun; simp [erase_loop] at hrun
  | succ fuel ih =>
    intro h h' x xIsRoot s r A B hrun hs hl
    cases x with
    | leaf a es =>
      simp only [erase_loop] at hrun
      split at hrun
      · split at hrun
        · injection hrun with hrun
          injection hrun with hr hh
          subst hr
          subst hh
          exact ⟨hs, hl, by intro x' a' hx; cases hx⟩
        · injection hrun with hrun
          injection hrun with hr hh
          subst hr
          subst hh
          refine ⟨hs, hl, ?_⟩
          intro x' a' hx
          injection hx with hx1 hx2
          subst hx1
          subst hx2
          simp
      · injection hrun with hrun
        injection hrun with hr hh
        subst hr
        subst hh
        exact ⟨by simp [LEraseStep.node], by simpa [LEraseStep.node] using hl,
          by intro x' a' hx; cases hx⟩
    | internal ks cs =>
      simp only [erase_loop] at hrun
      cases hst : erase_steer p key h (internal ks cs) xIsRoot s with
      | error f => simp [hst] at hrun
      | ok r1 =>
        obtain ⟨q, h1⟩ := r1
        obtain ⟨hs1, hl1⟩ := erase_steer_chain hst hs hl
        simp only [hst] at hrun
        cases q with
        | inl newRoot => exact ih hrun hs1 hl1
        | inr q =>
          obtain ⟨x1, i1, flag⟩ := q
          simp only at hrun
          simp only [Sum.elim_inr] at hs1 hl1
          cases hop : try_rebalance_or_merge p h1 x1 xIsRoot i1 with
          | error f => simp [hop] at hrun
          | ok r2 =>
            obtain ⟨o, x2, i2, h2⟩ := r2
            obtain ⟨hs2, hl2⟩ := try_rebalance_or_merge_chain hop hs1 hl1
            simp only [hop] at hrun
            have hrest : (match x2.children.get? i2 with
                | none => .error .outOfRange
                | some c =>
                  match erase_loop p key fuel h2 c false flag with
                  | .error f => .error f
                  | .ok (r, h3) => .ok (erase_up x2 i2 r, h3)) =
                  (.ok (r, h') : Except Fault (LEraseStep K V × Heap)) →
                Shape r.node ∧ Linked h' (A ++ (addrs r.node ++ B)) ∧
                  ∀ x' a, r = .successor x' a → a ∈ addrs x' := by
              intro hrun
              simp only [List.get?_eq_getElem?] at hrun
              cases hc : x2.children[i2]? with
              | none => simp [hc] at hrun
              | some c =>
                simp only [hc] at hrun
                cases hrec : erase_loop p key fuel h2 c false flag with
                | error f => simp [hrec] at hrun
                | ok r3 =>
                  obtain ⟨rc, h3⟩ := r3
                  simp only [hrec] at hrun
                  injection hrun with hrun
                  injection hrun with hr hh
                  subst hr
                  subst hh
                  obtain ⟨hs3, hl3, hmem⟩ := ih hrec (shape_child hs2 hc)
                    (linked_child_of hc hl2)
                  have hnode : (erase_up x2 i2 rc).node = x2.setChild i2 rc.node := by
                    cases rc <;> rfl
                  rw [hnode]
                  refine ⟨shape_setChild i2 hs2 hs3, linked_setChild hc hl3, ?_⟩
                  intro x' a hx
                  cases rc with
                  | removed c' => cases hx
                  | absent c' => cases hx
                  | successor c' a' =>
                    simp only [erase_up] at hx
                    injection hx with hx1 hx2
                    subst hx1
                    subst hx2
                    have ha := hmem c' a' rfl
                    cases x2 with
                    | leaf b es => simp [children] at hc
                    | internal ks2 cs2 =>
                      simp only [children] at hc
                      simp only [setChild, addrs_internal, addrsL_set c' hc]
                      simp [ha]
            cases o <;> first
              | exact hrest hrun
              | exact ih hrun hs2 hl2

end LNode

end BPlusTree

namespace BPlusTree

variable {K V : Type}

namespace LNode

mutual
theorem leafAt_none : ∀ (x : LNode K V) {b : Nat}, b ∉ addrs x → leafAt x b = none
  | leaf a es, b, h => by
    simp only [addrs_leaf, List.mem_singleton] at h
    simp [leafAt, Ne.symm h]
  | internal _ cs, b, h => by
    simp only [addrs_internal] at h
    simpa [leafAt] using leafAtL_none cs h
theorem leafAtL_none : ∀ (cs : List (LNode K V)) {b : Nat}, b ∉ addrsL cs → leafAtL cs b = none
  | [], _, _ => by simp [leafAtL]
  | c :: cs, b, h => by
    simp only [addrsL_cons, List.mem_append, not_or] at h
    simp [leafAtL, leafAt_none c h.1, leafAtL_none cs h.2]
end

mutual
theorem leafAt_some : ∀ (x : LNode K V) {b : Nat}, b ∈ addrs x → ∃ es, leafAt x b = some es
  | leaf a es, b, h => by
    simp only [addrs_leaf, List.mem_singleton] at h
    exact ⟨es, by simp [leafAt, h]⟩
  | internal _ cs, b, h => by
    simp only [addrs_internal] at h
    simpa [leafAt] using leafAtL_some cs h
theorem leafAtL_some : ∀ (cs : List (LNode K V)) {b : Nat}, b ∈ addrsL cs →
    ∃ es, leafAtL cs b = some es
  | [], _, h => by simp at h
  | c :: cs, b, h => by
    simp only [addrsL_cons, List.mem_append] at h
    by_cases hc : b ∈ addrs c
    · obtain ⟨es, hes⟩ := leafAt_some c hc
      exact ⟨es, by simp [leafAtL, hes]⟩
    · obtain ⟨es, hes⟩ := leafAtL_some cs (h.resolve_left hc)
      exact ⟨es, by simp [leafAtL, leafAt_none c hc, hes]⟩
end

mutual
theorem setLeaf_of_not_mem : ∀ (x : LNode K V) {b : Nat} (es' : List (K × V)),
    b ∉ addrs x → setLeaf x b es' = x
  | leaf a es, b, es', h => by
    simp only [addrs_leaf, List.mem_singleton] at h
    simp [setLeaf, Ne.symm h]
  | internal _ cs, b, es', h => by
    simp only [addrs_internal] at h
    simp [setLeaf, setLeafL_of_not_mem cs es' h]
theorem setLeafL_of_not_mem : ∀ (cs : List (LNode K V)) {b : Nat} (es' : List (K × V)),
    b ∉ addrsL cs → setLeafL cs b es' = cs
  | [], _, _, _ => by simp [setLeafL]
  | c :: cs, b, es', h => by
    simp only [addrsL_cons, List.mem_append, not_or] at h
    simp [setLeafL, setLeaf_of_not_mem c es' h.1, setLeafL_of_not_mem cs es' h.2]
end

mutual
theorem addrs_setLeaf : ∀ (x : LNode K V) (b : Nat) (es' : List (K × V)),
    addrs (setLeaf x b es') = addrs x
  | leaf a es, b, es' => by
    by_cases h : a = b <;> simp [setLeaf, h]
  | internal _ cs, b, es' => by
    simp [setLeaf, addrsL_setLeafL cs b es']
theorem addrsL_setLeafL : ∀ (cs : List (LNode K V)) (b : Nat) (es' : List (K × V)),
    addrsL (setLeafL cs b es') = addrsL cs
  | [], _, _ => by simp [setLeafL]
  | c :: cs, b, es' => by
    simp [setLeafL, addrs_setLeaf c b es', addrsL_setLeafL cs b es']
end

theorem setLeafL_length : ∀ (cs : List (LNode K V)) (b : Nat) (es' : List (K × V)),
    (setLeafL cs b es').length = cs.length
  | [], _, _ => by simp [setLeafL]
  | c :: cs, b, es' => by simp [setLeafL, setLeafL_length cs b es']

mutual
theorem shape_setLeaf : ∀ (x : LNode K V) (b : Nat) (es' : List (K × V)),
    Shape x → Shape (setLeaf x b es')
  | leaf a es, b, es', _ => by
    by_cases h : a = b <;> simp [setLeaf, h]
  | internal ks cs, b, es', h => by
    simp only [Shape] at h
    simp only [setLeaf, Shape, setLeafL_length]
    exact ⟨h.1, shapeL_setLeafL cs b es' h.2⟩
theorem shapeL_setLeafL : ∀ (cs : List (LNode K V)) (b : Nat) (es' : List (K × V)),
    ShapeL cs → ShapeL (setLeafL cs b es')
  | [], _, _, _ => by simp [setLeafL, ShapeL]
  | c :: cs, b, es', h => by
    simp only [ShapeL] at h
    simp only [setLeafL, ShapeL]
    exact ⟨shape_setLeaf c b es' h.1, shapeL_setLeafL cs b es' h.2⟩
end

/-- Among siblings with distinct leaves, a leaf is found in the child that
holds it. -/
theorem leafAtL_mid {P Q : List (LNode K V)} {c : LNode K V} {b : Nat}
    (hb : b ∈ addrs c) (hP : b ∉ addrsL P) :
    leafAtL (P ++ c :: Q) b = leafAt c b := by
  induction P with
  | nil =>
    obtain ⟨es, hes⟩ := leafAt_some c hb
    simp [leafAtL, hes]
  | cons d P ih =>
    simp only [addrsL_cons, List.mem_append, not_or] at hP
    simp [leafAtL, leafAt_none d hP.1, ih hP.2]

/-- Among siblings with distinct leaves, a leaf is replaced in the child that
holds it. -/
theorem setLeafL_mid {P Q : List (LNode K V)} {c : LNode K V} {b : Nat} (es' : List (K × V))
    (hP : b ∉ addrsL P) (hQ : b ∉ addrsL Q) :
    setLeafL (P ++ c :: Q) b es' = P ++ setLeaf c b es' :: Q := by
  induction P with
  | nil => simp [setLeafL, setLeafL_of_not_mem Q es' hQ]
  | cons d P ih =>
    simp only [addrsL_cons, List.mem_append, not_or] at hP
    simp [setLeafL, setLeaf_of_not_mem d es' hP.1, ih hP.2]

/-- A node of the right shape has a leaf. -/
theorem addrs_ne_nil : ∀ (n : Nat) (x : LNode K V), x.height ≤ n → Shape x → addrs x ≠ [] := by
  intro n
  induction n with
  | zero =>
    intro x hh hs
    cases x with
    | leaf a es => simp
    | internal ks cs => cases cs <;> simp [height] at hh
  | succ n ih =>
    intro x hh hs
    cases x with
    | leaf a es => simp
    | internal ks cs =>
      rw [shape_internal] at hs
      cases cs with
      | nil => simp at hs
      | cons c cs =>
        simp only [height] at hh
        have := ih c (by omega) (hs.2 c (List.mem_cons_self _ _))
        simp [this]

end LNode

theorem succAddr_append_left : ∀ {P : List Nat} (Q : List Nat) {a : Nat}, a ∉ P →
    succAddr (P ++ Q) a = succAddr Q a
  | [], _, _, _ => by simp
  | [b], [], a, h => by simp [succAddr]
  | [b], c :: Q, a, h => by
    simp only [List.mem_singleton] at h
    simp [succAddr, Ne.symm h]
  | b :: c :: P, Q, a, h => by
    simp only [List.mem_cons, not_or] at h
    have ih := succAddr_append_left (P := c :: P) Q (a := a) (by simp [h.2.1, h.2.2])
    simp only [List.cons_append] at ih ⊢
    simp [succAddr, Ne.symm h.1, ih]

theorem succAddr_append_some : ∀ {Q : List Nat} (R : List Nat) {a b : Nat},
    succAddr Q a = some b → succAddr (Q ++ R) a = some b
  | [], _, _, _, h => by simp [succAddr] at h
  | [_], _, _, _, h => by simp [succAddr] at h
  | c :: d :: Q, R, a, b, h => by
    simp only [succAddr] at h
    simp only [List.cons_append, succAddr]
    by_cases hc : c = a
    · simpa [hc] using h
    · simp only [hc, if_false] at h ⊢
      exact succAddr_append_some (Q := d :: Q) R h

theorem succAddr_append_none : ∀ {Q : List Nat} (R : List Nat) {a : Nat},
    a ∈ Q → succAddr Q a = none → succAddr (Q ++ R) a = R.head?
  | [], _, _, hm, _ => by simp at hm
  | [c], [], a, hm, _ => by simp [succAddr]
  | [c], r :: R, a, hm, _ => by
    simp only [List.mem_singleton] at hm
    simp [succAddr, hm]
  | c :: d :: Q, R, a, hm, h => by
    simp only [succAddr] at h
    by_cases hc : c = a
    · simp [hc] at h
    · simp only [hc, if_false] at h
      have hm' : a ∈ d :: Q := by
        rcases List.mem_cons.1 hm with hm | hm
        · exact absurd hm.symm hc
        · exact hm
      have ih := succAddr_append_none (Q := d :: Q) R hm' h
      simp only [List.cons_append] at ih ⊢
      simp [succAddr, hc, ih]

theorem succAddr_mem : ∀ {Q : List Nat} {a b : Nat}, succAddr Q a = some b → b ∈ Q
  | [], _, _, h => by simp [succAddr] at h
  | [_], _, _, h => by simp [succAddr] at h
  | c :: d :: Q, a, b, h => by
    simp only [succAddr] at h
    by_cases hc : c = a
    · simp only [hc, if_true, Option.some.injEq] at h
      simp [h]
    · simp only [hc, if_false] at h
      exact List.mem_cons_of_mem _ (succAddr_mem h)

/-- In a doubly linked segment the `next` link of a member is the address that
follows it. -/
theorem seg_succAddr {h : Heap} : ∀ {L : List Nat} {pv n : Option Nat} {a : Nat},
    Seg h pv L n → a ∈ L →
    h.next a = (match succAddr L a with | some b => some b | none => n)
  | [], _, _, _, _, hm => by simp at hm
  | [c], pv, n, a, hs, hm => by
    simp only [List.mem_singleton] at hm
    subst hm
    simpa [succAddr] using hs.2.1
  | c :: d :: L, pv, n, a, hs, hm => by
    by_cases hc : c = a
    · subst hc
      simpa [succAddr] using hs.2.1
    · have hm' : a ∈ d :: L := by
        rcases List.mem_cons.1 hm with hm | hm
        · exact absurd hm.symm hc
        · exact hm
      have ih := seg_succAddr hs.2.2 hm'
      simp only [succAddr, hc, if_false]
      exact ih

end BPlusTree

namespace BPlusTree

variable {K V : Type}

namespace LNode

variable {p : Params K}

/-- Function `erase_first` works on the leftmost leaf below a node. -/
theorem erase_first_leftmost (comp : K → K → Int) (key : K) : ∀ (n : Nat) (s : LNode K V),
    s.height ≤ n → Shape s → (addrs s).Nodup →
    ∃ b rest es0, addrs s = b :: rest ∧ leafAt s b = some es0 ∧
      Node.erase_first comp key s.strip = (match es0 with
        | [] => .error .outOfRange
        | e :: es => if comp key e.1 != 0 then .ok (false, s.strip)
          else .ok (true, (s.setLeaf b es).strip)) := by
  intro n
  induction n with
  | zero =>
    intro s hh hs hnd
    cases s with
    | leaf a es =>
      refine ⟨a, [], es, by simp, by simp [leafAt], ?_⟩
      cases es with
      | nil => simp [Node.erase_first]
      | cons e es => simp [Node.erase_first, setLeaf]
    | internal ks cs => cases cs <;> simp [height] at hh
  | succ n ih =>
    intro s hh hs hnd
    cases s with
    | leaf a es =>
      refine ⟨a, [], es, by simp, by simp [leafAt], ?_⟩
      cases es with
      | nil => simp [Node.erase_first]
      | cons e es => simp [Node.erase_first, setLeaf]
    | internal ks cs =>
      rw [shape_internal] at hs
      cases cs with
      | nil => simp at hs
      | cons c cs =>
        simp only [height] at hh
        simp only [addrs_internal, addrsL_cons] at hnd
        obtain ⟨b, rest, es0, hb, hl, hef⟩ := ih c (by omega) (hs.2 c (List.mem_cons_self _ _))
          (List.nodup_append.1 hnd).1
        have hbc : b ∈ addrs c := by simp [hb]
        have hbn : b ∉ addrsL cs := fun hc => (List.nodup_append.1 hnd).2.2 hbc hc
        refine ⟨b, rest ++ addrsL cs, es0, by simp [hb], by simp [leafAt, leafAtL, hl], ?_⟩
        simp only [strip_internal, stripL_eq_map, List.map_cons, Node.erase_first, hef]
        cases es0 with
        | nil => simp
        | cons e es =>
          simp only
          by_cases hcmp : (comp key e.1 != 0) = true
          · simp [hcmp]
          · simp [hcmp, setLeaf, setLeafL, setLeafL_of_not_mem cs es hbn, stripL_eq_map]

/-- Going up one level, the step of the descent with links resolves to the step
of the descent in the tree. -/
theorem resolve_up_split (key : K) (ks : List K) (P Q : List (LNode K V)) (c : LNode K V)
    (r : LEraseStep K V) (hs : ∀ s ∈ Q, Shape s)
    (hnd : (addrsL P ++ (addrs r.node ++ addrsL Q)).Nodup)
    (hmem : ∀ x' a, r = .successor x' a → a ∈ addrs x') :
    (erase_up (internal ks (P ++ c :: Q)) P.length r).resolve p key =
      (match r.resolve p key with
      | .error f => .error f
      | .ok q => Node.erase_up p key (internal ks (P ++ c :: Q)).strip P.length q) := by
  have hset : ∀ c' : LNode K V,
      (internal ks (P ++ c :: Q)).setChild P.length c' = internal ks (P ++ c' :: Q) := by
    intro c'
    simp [setChild, set_mid0]
  cases r with
  | removed c' =>
    simp only [erase_up, LEraseStep.resolve, Node.erase_up, strip_setChild]
  | absent c' =>
    simp only [erase_up, LEraseStep.resolve, Node.erase_up, strip_setChild]
  | successor c' a =>
    have ha : a ∈ addrs c' := hmem c' a rfl
    simp only [LEraseStep.node] at hnd
    obtain ⟨hndP, hndR, hdisj⟩ := List.nodup_append.1 hnd
    obtain ⟨hndC, hndQ, hdisj2⟩ := List.nodup_append.1 hndR
    have hnotP : ∀ {b}, b ∈ addrs c' → b ∉ addrsL P := by
      intro b hb hc
      exact hdisj hc (List.mem_append_left _ hb)
    have hnotQ : ∀ {b}, b ∈ addrs c' → b ∉ addrsL Q := fun hb hc => hdisj2 hb hc
    simp only [erase_up, LEraseStep.resolve, hset, addrs_internal, addrsL_append, addrsL_cons]
    rw [succAddr_append_left _ (hnotP ha)]
    cases hsucc : succAddr (addrs c') a with
    | some b =>
      have hb : b ∈ addrs c' := succAddr_mem hsucc
      rw [succAddr_append_some _ hsucc]
      simp only [leafAt, leafAtL_mid hb (hnotP hb)]
      cases hleaf : leafAt c' b with
      | none => simp
      | some es0 =>
        cases es0 with
        | nil => simp
        | cons e es =>
          simp only
          cases hcmp : (p.comp key e.1 != 0)
          · simp only [Bool.false_eq_true, ↓reduceIte, Node.erase_up, ← strip_setChild, hset,
              setLeaf, setLeafL_mid es (hnotP hb) (hnotQ hb)]
          · simp only [↓reduceIte, Node.erase_up, ← strip_setChild, hset]
    | none =>
      rw [succAddr_append_none _ ha hsucc]
      simp only [Node.erase_up, ← strip_setChild, hset]
      cases Q with
      | nil =>
        have hg : ((internal ks (P ++ [c'])).strip).children.get? (P.length + 1) = none := by
          simp only [strip_children, children, List.get?_eq_getElem?, List.getElem?_map]
          simp
        simp only [hg, addrsL_nil, List.head?_nil]
      | cons s Q' =>
        have hg : ((internal ks (P ++ c' :: s :: Q')).strip).children.get? (P.length + 1) =
            some s.strip := by
          simp only [strip_children, children, List.get?_eq_getElem?, List.getElem?_map,
            get_mid1, Option.map_some']
        simp only [addrsL_cons] at hnd hndQ hdisj2 hdisj
        obtain ⟨hndS, hndQ', hdisj3⟩ := List.nodup_append.1 hndQ
        obtain ⟨b, rest, es0, hb, hl, hef⟩ := erase_first_leftmost p.comp key s.height s (le_refl _)
          (hs s (List.mem_cons_self _ _)) hndS
        have hbs : b ∈ addrs s := by simp [hb]
        have hbP : b ∉ addrsL (P ++ [c']) := by
          rw [addrsL_append]
          simp only [addrsL_cons, addrsL_nil, List.append_nil, List.mem_append, not_or]
          constructor
          · intro hc
            exact hdisj hc (List.mem_append_right _ (List.mem_append_left _ hbs))
          · intro hc
            exact hdisj2 hc (List.mem_append_left _ hbs)
        have hbQ : b ∉ addrsL Q' := fun hc => hdisj3 hbs hc
        have hla : leafAtL (P ++ c' :: s :: Q') b = leafAt s b := by
          have := leafAtL_mid (P := P ++ [c']) (Q := Q') hbs hbP
          simpa using this
        have hsl : ∀ es, setLeafL (P ++ c' :: s :: Q') b es = P ++ c' :: setLeaf s b es :: Q' := by
          intro es
          have := setLeafL_mid (P := P ++ [c']) (Q := Q') (c := s) es hbP hbQ
          simpa using this
        have hset1 : ∀ s' : LNode K V,
            (internal ks (P ++ c' :: s :: Q')).setChild (P.length + 1) s' =
              internal ks (P ++ c' :: s' :: Q') := by
          intro s'
          simp [setChild, set_mid1]
        simp only [hg, hb, addrsL_cons, List.cons_append, List.head?_cons, leafAt, hla, hl, hef]
        cases es0 with
        | nil => simp
        | cons e es =>
          simp only
          cases hcmp : (p.comp key e.1 != 0)
          · simp only [Bool.false_eq_true, ↓reduceIte, ← strip_setChild, hset1, setLeaf, hsl]
          · simp only [↓reduceIte]

end LNode

end BPlusTree

namespace BPlusTree

variable {K V : Type}

namespace LNode

variable {p : Params K}

theorem resolve_up (key : K) {x2 c : LNode K V} {i2 : Nat} (hc : x2.children[i2]? = some c)
    (r : LEraseStep K V) (hs : Shape x2)
    (hnd : (addrsL (x2.children.take i2) ++
      (addrs r.node ++ addrsL (x2.children.drop (i2 + 1)))).Nodup)
    (hmem : ∀ x' a, r = .successor x' a → a ∈ addrs x') :
    (erase_up x2 i2 r).resolve p key =
      (match r.resolve p key with
      | .error f => .error f
      | .ok q => Node.erase_up p key x2.strip i2 q) := by
  cases x2 with
  | leaf a es => simp [children] at hc
  | internal ks cs =>
    simp only [children] at hc hnd
    obtain ⟨hcs, hlen, _⟩ := list_split_at hc
    have hsQ : ∀ s ∈ cs.drop (i2 + 1), Shape s :=
      fun s hs' => (shape_internal.1 hs).2 s (List.mem_of_mem_drop hs')
    have := resolve_up_split (p := p) key ks (cs.take i2) (cs.drop (i2 + 1)) c r hsQ hnd hmem
    rw [← hcs, hlen] at this
    exact this

/-- The descent of `node::erase` with links, resolved, is the descent in the
tree. -/
theorem erase_loop_resolve (key : K) : ∀ (fuel : Nat) {h : Heap} {x : LNode K V}
    {xIsRoot s : Bool} {A B : List Nat}, Shape x → Linked h (A ++ (addrs x ++ B)) →
    (match erase_loop p key fuel h x xIsRoot s with
      | .error f => .error f
      | .ok (r, _) => r.resolve p key) = Node.erase_loop p key fuel x.strip xIsRoot s := by
  intro fuel
  induction fuel with
  | zero => intro h x xIsRoot s A B _ _; simp [erase_loop, Node.erase_loop]
  | succ fuel ih =>
    intro h x xIsRoot s A B hs hl
    cases x with
    | leaf a es =>
      simp only [erase_loop, Node.erase_loop, strip_leaf]
      by_cases hf : (!(Node.lower_bound p.comp (es.map Prod.fst) key).1) = true
      · simp only [hf, if_true]
        by_cases hd : (!p.kDuplicates || !s) = true
        · simp only [hd, if_true, LEraseStep.resolve, strip_leaf]
        · simp only [hd, Bool.false_eq_true, if_false, LEraseStep.resolve, strip_leaf,
            addrs_leaf, succAddr]
      · simp only [hf, Bool.false_eq_true, if_false, LEraseStep.resolve, strip_leaf]
    | internal ks cs =>
      rw [strip_internal]
      simp only [erase_loop, Node.erase_loop]
      rw [← strip_internal, ← erase_steer_strip key h]
      cases hst : erase_steer p key h (internal ks cs) xIsRoot s with
      | error f => simp [Except.map]
      | ok r1 =>
        obtain ⟨q, h1⟩ := r1
        obtain ⟨hs1, hl1⟩ := erase_steer_chain hst hs hl
        cases q with
        | inl newRoot =>
          simp only [Except.map, Sum.map_inl]
          exact ih hs1 hl1
        | inr q =>
          obtain ⟨x1, i1, flag⟩ := q
          simp only [Sum.elim_inr] at hs1 hl1
          simp only [Except.map, Sum.map_inr]
          rw [← try_rebalance_or_merge_strip h1]
          cases hop : try_rebalance_or_merge p h1 x1 xIsRoot i1 with
          | error f => simp [Except.map]
          | ok r2 =>
            obtain ⟨o, x2, i2, h2⟩ := r2
            obtain ⟨hs2, hl2⟩ := try_rebalance_or_merge_chain hop hs1 hl1
            simp only [Except.map]
            have hrest : ((match (match x2.children.get? i2 with
                | none => .error .outOfRange
                | some c =>
                  match erase_loop p key fuel h2 c false flag with
                  | .error f => .error f
                  | .ok (r, h3) => .ok (erase_up x2 i2 r, h3) :
                    Except Fault (LEraseStep K V × Heap)) with
                | .error f => .error f
                | .ok (r, _) => r.resolve p key) : Except Fault (Node.EraseStep K V)) =
                (match x2.strip.children.get? i2 with
                | none => .error .outOfRange
                | some c =>
                  match Node.erase_loop p key fuel c false flag with
                  | .error f => .error f
                  | .ok r => Node.erase_up p key x2.strip i2 r) := by
              simp only [strip_children, List.get?_eq_getElem?, List.getElem?_map]
              cases hc : x2.children[i2]? with
              | none => simp
              | some c =>
                simp only [Option.map_some']
                have hlc := linked_child_of hc hl2
                rw [← ih (shape_child hs2 hc) hlc]
                cases hrec : erase_loop p key fuel h2 c false flag with
                | error f => simp
                | ok r3 =>
                  obtain ⟨rc, h3⟩ := r3
                  simp only
                  obtain ⟨hs3, hl3, hmem⟩ := erase_loop_chain key fuel hrec (shape_child hs2 hc) hlc
                  have hnd := hl3.1
                  rw [List.append_assoc] at hnd
                  have hnd1 := (List.nodup_append.1 hnd).2.1
                  rw [← List.append_assoc, ← List.append_assoc] at hnd1
                  have hnd2 := (List.nodup_append.1 hnd1).1
                  rw [List.append_assoc] at hnd2
                  exact resolve_up key hc rc hs2 hnd2 hmem
            cases o <;> first
              | exact hrest
              | exact ih hs2 hl2

end LNode

end BPlusTree

namespace BPlusTree

variable {K V : Type}

namespace LNode

variable {p : Params K}

/-- Without the links, `node::erase` is the one of the tree: the leaf found by
`x->next()` is the next leaf from left to right. -/
theorem erase_strip {h : Heap} {root : LNode K V} (key : K) (hs : Shape root)
    (hl : Linked h (addrs root)) :
    (erase p h root key).map (fun r => (r.1, r.2.1.strip)) = Node.erase p root.strip key := by
  have hl' : Linked h ([] ++ (addrs root ++ [])) := by simpa using hl
  unfold erase Node.erase
  rw [← erase_loop_resolve key _ hs hl', strip_height]
  cases hrun : erase_loop p key (root.height + 1) h root true false with
  | error f => simp [Except.map]
  | ok r1 =>
    obtain ⟨r, h1⟩ := r1
    obtain ⟨hs1, hl1, hmem⟩ := erase_loop_chain key _ hrun hs hl'
    cases r with
    | removed x => simp [Except.map, LEraseStep.resolve]
    | absent x => simp [Except.map, LEraseStep.resolve]
    | successor x a =>
      simp only [LEraseStep.node, List.nil_append, List.append_nil] at hl1
      have hnext := seg_succAddr hl1.2.2 (hmem x a rfl)
      simp only [LEraseStep.resolve]
      cases hsucc : succAddr x.addrs a with
      | none =>
        simp only [hsucc] at hnext
        simp [hnext, Except.map]
      | some b =>
        simp only [hsucc] at hnext
        simp only [hnext]
        cases hleaf : x.leafAt b with
        | none => simp [Except.map]
        | some es0 =>
          cases es0 with
          | nil => simp [Except.map]
          | cons e es =>
            simp only
            cases hcmp : (p.comp key e.1 != 0) <;> simp [Except.map]

/-- Effect of `node::erase` on the leaf chain. -/
theorem erase_chain {h h' : Heap} {root x' : LNode K V} {key : K} {b : Bool}
    (hrun : erase p h root key = .ok (b, x', h')) (hs : Shape root)
    (hl : Linked h (addrs root)) :
    Shape x' ∧ Linked h' (addrs x') := by
  have hl' : Linked h ([] ++ (addrs root ++ [])) := by simpa using hl
  unfold erase at hrun
  cases hloop : erase_loop p key (root.height + 1) h root true false with
  | error f => simp [hloop] at hrun
  | ok r1 =>
    obtain ⟨r, h1⟩ := r1
    obtain ⟨hs1, hl1, hmem⟩ := erase_loop_chain key _ hloop hs hl'
    simp only [List.nil_append, List.append_nil] at hl1
    simp only [hloop] at hrun
    cases r with
    | removed x =>
      simp only at hrun
      injection hrun with hrun
      injection hrun with _ hrun
      injection hrun with hx hh
      subst hx
      subst hh
      exact ⟨hs1, hl1⟩
    | absent x =>
      simp only at hrun
      injection hrun with hrun
      injection hrun with _ hrun
      injection hrun with hx hh
      subst hx
      subst hh
      exact ⟨hs1, hl1⟩
    | successor x a =>
      simp only [LEraseStep.node] at hs1 hl1
      simp only at hrun
      cases hn : h1.next a with
      | none => simp [hn] at hrun
      | some c =>
        simp only [hn] at hrun
        cases hleaf : x.leafAt c with
        | none => simp [hleaf] at hrun
        | some es0 =>
          cases es0 with
          | nil => simp [hleaf] at hrun
          | cons e es =>
            simp only [hleaf] at hrun
            split at hrun
            · injection hrun with hrun
              injection hrun with _ hrun
              injection hrun with hx hh
              subst hx
              subst hh
              exact ⟨hs1, hl1⟩
            · injection hrun with hrun
              injection hrun with _ hrun
              injection hrun with hx hh
              subst hx
              subst hh
              exact ⟨shape_setLeaf _ _ _ hs1, by rw [addrs_setLeaf]; exact hl1⟩

end LNode

namespace LTree

variable {p : Params K}

/-- Without the links, `btree::erase` is the one of the tree. -/
theorem tree_erase_strip {t : LTree K V} (key : K)
    (hs : ∀ r, t.root = some r → LNode.Shape r) (hl : Linked t.heap t.addrs) :
    (erase p t key).map (fun (r : Bool × LTree K V) => (r.1, r.2.strip)) =
      btree.erase p t.strip key := by
  unfold erase btree.erase strip
  unfold addrs at hl
  cases hroot : t.root with
  | none => simp [Except.map, hroot]
  | some r =>
    rw [hroot] at hl
    simp only [Option.map_some']
    rw [← LNode.erase_strip key (hs r hroot) hl]
    cases hrun : LNode.erase p t.heap r key with
    | error f => simp [Except.map]
    | ok r1 =>
      obtain ⟨b, r', h'⟩ := r1
      cases b with
      | false => simp [Except.map]
      | true =>
        simp only [Except.map]
        by_cases hn : (t.nkeys - 1 == 0) = true
        · simp [hn]
        · simp [hn]

/-- The leaf chain after `btree::erase` is the list of the leaves from left to
right. -/
theorem tree_erase_chain {t t' : LTree K V} {key : K} {b : Bool}
    (hrun : erase p t key = .ok (b, t'))
    (hs : ∀ r, t.root = some r → LNode.Shape r) (hl : Linked t.heap t.addrs) :
    Linked t'.heap t'.addrs := by
  unfold erase at hrun
  unfold addrs at hl
  cases hroot : t.root with
  | none =>
    rw [hroot] at hrun hl
    simp only at hrun
    injection hrun with hrun
    injection hrun with _ ht
    subst ht
    simpa [addrs, hroot] using hl
  | some r =>
    rw [hroot] at hrun hl
    simp only at hrun hl
    cases hop : LNode.erase p t.heap r key with
    | error f => simp [hop] at hrun
    | ok r1 =>
      obtain ⟨b1, r', h'⟩ := r1
      obtain ⟨hs1, hl1⟩ := LNode.erase_chain hop (hs r hroot) hl
      simp only [hop] at hrun
      cases b1 with
      | false =>
        simp only at hrun
        injection hrun with hrun
        injection hrun with _ ht
        subst ht
        simpa [addrs] using hl1
      | true =>
        simp only at hrun
        split at hrun
        · injection hrun with hrun
          injection hrun with _ ht
          subst ht
          exact ⟨by simp [addrs], by simp [addrs], by simp [addrs, Seg]⟩
        · injection hrun with hrun
          injection hrun with _ ht
          subst ht
          simpa [addrs] using hl1

end LTree

end BPlusTree

namespace BPlusTree

variable {K V : Type}

variable {p : Params K}

theorem LTree.strip_empty : (LTree.empty : LTree K V).strip = btree.empty := rfl

/-- The root of a tree with links whose tree satisfies the invariant has the
shape of a tree node. -/
theorem LTree.shape_of_inv {t : LTree K V} (hinv : TreeInv p t.strip) :
    ∀ r, t.root = some r → LNode.Shape r := by
  intro r hr
  unfold TreeInv LTree.strip at hinv
  rw [hr] at hinv
  simp only [Option.map_some'] at hinv
  obtain ⟨⟨h, hW⟩, _⟩ := hinv
  exact LNode.shape_of_wf h hW

/-- Without its links, a reachable tree with links is a reachable tree, and
its leaf chain is the list of its leaves from left to right. -/
theorem lreachable_spec (hv : p.Valid) {t : LTree K V} (hr : LReachable p t) :
    Reachable p t.strip ∧ Linked t.heap t.addrs := by
  induction hr with
  | empty =>
    refine ⟨by rw [LTree.strip_empty]; exact Reachable.empty, ?_⟩
    exact ⟨by simp [LTree.addrs, LTree.empty], by simp [LTree.addrs, LTree.empty],
      by simp [LTree.addrs, LTree.empty, Seg]⟩
  | @insert t0 t1 key value _ hins ih =>
    have hsim := LTree.insert_strip (p := p) t0 key value
    rw [hins] at hsim
    exact ⟨Reachable.insert key value ih.1 (by simpa [Except.map] using hsim.symm),
      LTree.insert_chain hins ih.2⟩
  | erase key b _ her ih =>
    have hs := LTree.shape_of_inv (btree.reachable_inv hv ih.1)
    have hsim := LTree.tree_erase_strip (p := p) key hs ih.2
    rw [her] at hsim
    exact ⟨Reachable.erase key b ih.1 (by simpa [Except.map] using hsim.symm),
      LTree.tree_erase_chain her hs ih.2⟩

/-- Every reachable tree with links satisfies the invariant. -/
theorem lreachable_inv (hv : p.Valid) {t : LTree K V} (hr : LReachable p t) : LInv p t :=
  ⟨btree.reachable_inv hv (lreachable_spec hv hr).1, (lreachable_spec hv hr).2⟩

end BPlusTree

namespace BPlusTree

variable {K V : Type}

namespace LNode

variable {p : Params K}

mutual
theorem addrs_length : ∀ x : LNode K V, (addrs x).length = (Node.leaves x.strip).length
  | leaf _ _ => by simp
  | internal _ cs => by simpa using addrsL_length cs
theorem addrsL_length : ∀ cs : List (LNode K V),
    (addrsL cs).length = (Node.leavesL (stripL cs)).length
  | [] => by simp [stripL]
  | c :: cs => by simp [stripL, addrs_length c, addrsL_length cs]
end

mutual
/-- The leaf at the `j`-th address of a node is its `j`-th leaf from the left. -/
theorem leafAt_index : ∀ (x : LNode K V) {j a : Nat}, (addrs x).Nodup →
    (addrs x)[j]? = some a → leafAt x a = (Node.leaves x.strip)[j]?
  | leaf b es, j, a, _, hj => by
    cases j with
    | zero =>
      simp only [addrs_leaf, List.getElem?_cons_zero, Option.some.injEq] at hj
      simp [leafAt, hj]
    | succ j => simp at hj
  | internal _ cs, j, a, hnd, hj => by
    simp only [addrs_internal] at hnd hj
    simpa [leafAt] using leafAtL_index cs hnd hj
theorem leafAtL_index : ∀ (cs : List (LNode K V)) {j a : Nat}, (addrsL cs).Nodup →
    (addrsL cs)[j]? = some a → leafAtL cs a = (Node.leavesL (stripL cs))[j]?
  | [], _, _, _, hj => by simp at hj
  | c :: cs, j, a, hnd, hj => by
    simp only [addrsL_cons] at hnd hj
    obtain ⟨hndc, hndcs, hdisj⟩ := List.nodup_append.1 hnd
    simp only [stripL, Node.leavesL_cons]
    by_cases hlt : j < (addrs c).length
    · rw [List.getElem?_append_left hlt] at hj
      have hlt' : j < (Node.leaves c.strip).length := by rw [← addrs_length]; exact hlt
      rw [List.getElem?_append_left hlt', ← leafAt_index c hndc hj]
      obtain ⟨es, hes⟩ := leafAt_some c (List.getElem?_mem hj)
      simp [leafAtL, hes]
    · rw [List.getElem?_append_right (by omega)] at hj
      have hge' : (Node.leaves c.strip).length ≤ j := by rw [← addrs_length]; omega
      rw [List.getElem?_append_right hge', ← addrs_length,
        ← leafAtL_index cs hndcs hj]
      have hnot : a ∉ addrs c := fun hc => hdisj hc (List.getElem?_mem hj)
      simp [leafAtL, leafAt_none c hnot]
end

/-- Function `firstLeaf` finds the leftmost leaf. -/
theorem firstLeaf_spec : ∀ (n : Nat) (x : LNode K V), x.height ≤ n → Shape x →
    ∃ a rest, addrs x = a :: rest ∧ firstLeaf x = .ok a := by
  intro n
  induction n with
  | zero =>
    intro x hh hs
    cases x with
    | leaf a es => exact ⟨a, [], by simp, by simp [firstLeaf]⟩
    | internal ks cs => cases cs <;> simp [height] at hh
  | succ n ih =>
    intro x hh hs
    cases x with
    | leaf a es => exact ⟨a, [], by simp, by simp [firstLeaf]⟩
    | internal ks cs =>
      rw [shape_internal] at hs
      cases cs with
      | nil => simp at hs
      | cons c cs =>
        simp only [height] at hh
        obtain ⟨a, rest, ha, hf⟩ := ih c (by omega) (hs.2 c (List.mem_cons_self _ _))
        exact ⟨a, rest ++ addrsL cs, by simp [ha], by simp [firstLeaf, hf]⟩

/-- Function `lastLeaf` finds the rightmost leaf and its `count`. -/
theorem lastLeaf_spec : ∀ (h : Nat) {minL minI : Nat} (x : LNode K V),
    Node.Wf p minL minI h x.strip →
    ∃ a es init, addrs x = init ++ [a] ∧
      (Node.leaves x.strip).getLast? = some es ∧
      ((addrs x).Nodup → lastLeaf (h + 1) x = .ok (a, es.length)) := by
  intro h
  induction h with
  | zero =>
    intro minL minI x hx
    cases x with
    | leaf a es => exact ⟨a, es, [], by simp, by simp, by simp [lastLeaf]⟩
    | internal ks cs => simp only [strip_internal] at hx; cases hx
  | succ h ih =>
    intro minL minI x hx
    cases x with
    | leaf a es => simp only [strip_leaf] at hx; cases hx
    | internal ks cs =>
      simp only [strip_internal, stripL_eq_map] at hx
      cases hx with
      | internal _ _ _ _ _ h1 h2 h3 h4 h5 =>
        simp only [List.length_map] at h3
        have hlt : ks.length < cs.length := by omega
        obtain ⟨c, hc⟩ : ∃ c, cs[ks.length]? = some c :=
          ⟨cs[ks.length], List.getElem?_eq_getElem hlt⟩
        obtain ⟨hcs, _, _⟩ := list_split_at hc
        have hdrop : cs.drop (ks.length + 1) = [] := List.drop_of_length_le (by omega)
        rw [hdrop] at hcs
        obtain ⟨a, es, init, ha, hlast, hrun⟩ :=
          ih c (h4 c.strip (List.mem_map_of_mem _ (List.getElem?_mem hc)))
        have haddr : addrs (internal ks cs) = (addrsL (cs.take ks.length) ++ init) ++ [a] := by
          rw [addrs_internal]
          conv_lhs => rw [hcs]
          simp [addrsL_append, ha]
        refine ⟨a, es, addrsL (cs.take ks.length) ++ init, haddr, ?_, ?_⟩
        · simp only [strip_internal, stripL_eq_map, Node.leaves_internal]
          conv_lhs => rw [hcs]
          simp only [List.map_append, List.map_cons, List.map_nil, Node.leavesL_append,
            Node.leavesL_cons, Node.leavesL_nil, List.append_nil]
          rw [List.getLast?_append, hlast]
          simp
        · intro hnd
          simp only [lastLeaf, List.get?_eq_getElem?, hc]
          apply hrun
          rw [addrs_internal] at hnd
          rw [hcs, addrsL_append] at hnd
          simpa using (List.nodup_append.1 hnd).2.1

end LNode

end BPlusTree

namespace BPlusTree

variable {K V : Type}

namespace LTree

/-- Walking `next` from a cursor visits the rest of the cursor's leaf and then
every later leaf. -/
theorem walk_view {t : LTree K V} {L : List Nat} {Lv : List (List (K × V))}
    (hview : View t L Lv) :
    ∀ (fuel j i a : Nat) (es : List (K × V)), L[j]? = some a → Lv[j]? = some es →
      i < es.length → (es.drop i).length + (Lv.drop (j + 1)).flatten.length ≤ fuel →
      walk t fuel { node := a, pos := i } = .ok (es.drop i ++ (Lv.drop (j + 1)).flatten) := by
  obtain ⟨hlen, hslots, hseg, hne⟩ := hview
  intro fuel
  induction fuel with
  | zero =>
    intro j i a es _ _ hi hf
    simp only [List.length_drop] at hf
    omega
  | succ fuel ih =>
    intro j i a es ha hes hi hf
    obtain ⟨e, he⟩ := Node.get_some_of_lt es i hi
    have hdrop : es.drop i = e :: es.drop (i + 1) := Node.drop_of_get he
    rw [walk]
    simp only [entryAt, next, hslots j a es ha hes, List.get?_eq_getElem?, he]
    by_cases h1 : i + 1 < es.length
    · simp only [h1, if_true]
      rw [ih j (i + 1) a es ha hes h1
        (by rw [hdrop] at hf; simp only [List.length_cons] at hf; omega)]
      simp [hdrop]
    · simp only [h1, if_false]
      have hnil : es.drop (i + 1) = [] := List.drop_eq_nil_of_le (by omega)
      have hnext := seg_next hseg ha
      by_cases h2 : j + 1 < L.length
      · obtain ⟨b, hb⟩ := Node.get_some_of_lt L (j + 1) h2
        obtain ⟨es', hes'⟩ := Node.get_some_of_lt Lv (j + 1) (by omega)
        have hd2 : Lv.drop (j + 1) = es' :: Lv.drop (j + 1 + 1) := Node.drop_of_get hes'
        have hpos : 0 < es'.length := List.length_pos.2 (hne es' (List.getElem?_mem hes')).1
        simp only [hb] at hnext
        simp only [hnext]
        rw [ih (j + 1) 0 b es' hb hes' hpos (by
          rw [hdrop, hd2] at hf
          simp only [List.length_cons, List.flatten_cons, List.length_append] at hf
          simp only [List.drop_zero]
          omega)]
        simp [hdrop, hnil, hd2]
      · have hb : L[j + 1]? = none := List.getElem?_eq_none (by omega)
        simp only [hb] at hnext
        simp only [hnext]
        have hd2 : Lv.drop (j + 1) = [] := List.drop_eq_nil_of_le (by omega)
        simp [hdrop, hnil, hd2]

/-- Walking `prev` from a cursor visits the slots of the cursor's leaf down to
slot 0 and then every earlier leaf from its last slot down. -/
theorem walkBack_view {t : LTree K V} {L : List Nat} {Lv : List (List (K × V))}
    (hview : View t L Lv) :
    ∀ (fuel j i a : Nat) (es : List (K × V)), L[j]? = some a → Lv[j]? = some es →
      i < es.length → i + 1 + (Lv.take j).flatten.length ≤ fuel →
      walkBack t fuel { node := a, pos := i } =
        .ok ((es.take (i + 1)).reverse ++ (Lv.take j).flatten.reverse) := by
  obtain ⟨hlen, hslots, hseg, hne⟩ := hview
  intro fuel
  induction fuel with
  | zero => intro j i a es _ _ hi hf; omega
  | succ fuel ih =>
    intro j i a es ha hes hi hf
    obtain ⟨e, he⟩ := Node.get_some_of_lt es i hi
    have htake : es.take (i + 1) = es.take i ++ [e] := Node.take_succ_of_get he
    rw [walkBack]
    simp only [entryAt, prev, hslots j a es ha hes, List.get?_eq_getElem?, he]
    by_cases h1 : i > 0
    · simp only [h1, if_true]
      obtain ⟨i', rfl⟩ : ∃ i', i = i' + 1 := ⟨i - 1, by omega⟩
      simp only [Nat.add_sub_cancel]
      rw [ih j i' a es ha hes (by omega) (by omega)]
      simp [htake]
    · simp only [h1, if_false]
      have hi0 : i = 0 := by omega
      subst hi0
      have hprev := seg_prev hseg ha
      cases j with
      | zero =>
        simp only [if_true] at hprev
        simp only [hprev]
        simp [htake]
      | succ j' =>
        simp only [Nat.add_one_ne_zero, if_false, Nat.add_sub_cancel] at hprev
        have hjl : j' + 1 < L.length := (List.getElem?_eq_some.1 ha).1
        obtain ⟨b, hb⟩ := Node.get_some_of_lt L j' (by omega)
        obtain ⟨es', hes'⟩ := Node.get_some_of_lt Lv j' (by omega)
        have hb1 := hne es' (List.getElem?_mem hes')
        have hpos : 0 < es'.length := List.length_pos.2 hb1.1
        have hmod : (es'.length + 65535) % 65536 = es'.length - 1 := by omega
        have ht2 : Lv.take (j' + 1) = Lv.take j' ++ [es'] := Node.take_succ_of_get hes'
        rw [hb] at hprev
        simp only [hprev, hslots j' b es' hb hes', hmod]
        rw [ih j' (es'.length - 1) b es' hb hes' (by omega) (by
          rw [ht2] at hf
          simp only [List.flatten_append, List.length_append, List.flatten_cons,
            List.flatten_nil, List.append_nil] at hf
          omega)]
        have hfull : es'.take (es'.length - 1 + 1) = es' := by
          rw [Nat.sub_add_cancel hpos, List.take_length]
        simp [htake, ht2, hfull]

end LTree

end BPlusTree

namespace BPlusTree

variable {K V : Type}

variable {p : Params K}

/-- No leaf below a well-formed node holds more than the leaf maximum. -/
theorem Node.leaves_len_le : ∀ (h : Nat) {minL minI : Nat} {x : Node K V},
    Node.Wf p minL minI h x → ∀ l ∈ Node.leaves x, l.length ≤ p.kLeafNodeMaxKeys := by
  intro h
  induction h with
  | zero =>
    intro minL minI x hx l hl
    cases hx with
    | leaf _ _ es h1 h2 h3 =>
      simp only [Node.leaves_leaf, List.mem_singleton] at hl
      subst hl
      exact h2
  | succ h ih =>
    intro minL minI x hx l hl
    cases hx with
    | internal _ _ _ ks cs h1 h2 h3 h4 h5 =>
      simp only [Node.leaves_internal] at hl
      obtain ⟨c, hc, hlc⟩ := Node.mem_leavesL hl
      exact ih (h4 c hc) l hlc

mutual
theorem LNode.inorder_eq : ∀ x : LNode K V, x.inorder = Node.toList x.strip
  | .leaf _ _ => by simp [LNode.inorder]
  | .internal _ cs => by simpa [LNode.inorder] using LNode.inorderL_eq cs
theorem LNode.inorderL_eq : ∀ cs : List (LNode K V),
    LNode.inorderL cs = Node.toListL (LNode.stripL cs)
  | [] => by simp [LNode.inorderL, LNode.stripL]
  | c :: cs => by simp [LNode.inorderL, LNode.stripL, LNode.inorder_eq c, LNode.inorderL_eq cs]
end

namespace LTree

/-- What the invariant gives about the root of a non-empty tree with links. -/
theorem inv_root {t : LTree K V} (hinv : LInv p t) (hne : t.count ≠ 0) :
    ∃ r h, t.root = some r ∧ Node.Wf p 1 1 h r.strip ∧
      t.nkeys = (Node.toList r.strip).length ∧ Linked t.heap r.addrs := by
  obtain ⟨hti, hl⟩ := hinv
  unfold TreeInv strip at hti
  unfold addrs at hl
  cases hroot : t.root with
  | none =>
    rw [hroot] at hti
    simp only [Option.map_none'] at hti
    exact absurd hti hne
  | some r =>
    rw [hroot] at hti hl
    simp only [Option.map_some'] at hti
    obtain ⟨⟨h, hW⟩, hn⟩ := hti
    exact ⟨r, h, rfl, hW, hn, hl⟩

/-- The leaves of a tree that satisfies the invariant, as the iterators see
them. -/
theorem view_of_inv (hv : p.Valid) {t : LTree K V} {r : LNode K V} {h : Nat}
    (hroot : t.root = some r) (hW : Node.Wf p 1 1 h r.strip) (hl : Linked t.heap r.addrs) :
    View t r.addrs (Node.leaves r.strip) := by
  refine ⟨LNode.addrs_length r, ?_, hl.2.2, ?_⟩
  · intro j a es ha hes
    have := LNode.leafAt_index r hl.1 ha
    rw [hes] at this
    simp [slots, hroot, this]
  · intro l hl'
    refine ⟨Node.leaves_ne_nil h hW (le_refl _) l hl', ?_⟩
    have := Node.leaves_len_le h hW l hl'
    have := hv.leaf_fits
    omega

/-- On a non-empty tree that satisfies the invariant, `begin` and `end` return
cursors on the first and on the last entry, the forward walk yields the
in-order sequence, the backward walk its reverse, and `prev` at the first and
`next` at the last entry return false without moving the cursor. -/
theorem iterate_spec (hv : p.Valid) {t : LTree K V} (hinv : LInv p t) (hne : t.count ≠ 0) :
    ∃ r cb ce first last, t.root = some r ∧ OnFirst t cb ∧ OnLast t ce ∧
      t.count = (Node.toList r.strip).length ∧
      begin t = .ok (some cb) ∧ end_ t = .ok (some ce) ∧
      entryAt t cb = .ok first ∧ (Node.toList r.strip).head? = some first ∧
      entryAt t ce = .ok last ∧ (Node.toList r.strip).getLast? = some last ∧
      forward t = .ok (Node.toList r.strip) ∧
      backward t = .ok (Node.toList r.strip).reverse ∧
      next t ce = .ok (false, ce) ∧ prev t cb = .ok (false, cb) := by
  obtain ⟨r, h, hroot, hW, hn, hl⟩ := inv_root hinv hne
  have hview := view_of_inv hv hroot hW hl
  have hshape : LNode.Shape r := LNode.shape_of_wf h hW
  have hnz : (t.nkeys == 0) = false := by
    simp only [count] at hne
    simpa using hne
  have hlen := LNode.addrs_length r
  obtain ⟨a0, rest, ha0, hfirst⟩ := LNode.firstLeaf_spec r.height r (le_refl _) hshape
  obtain ⟨aN, esN, init, haN, hlastv, hlastrun⟩ := LNode.lastLeaf_spec h r hW
  have hheight : r.height = h := by rw [← LNode.strip_height]; exact hW.height_eq
  -- the first leaf
  have hL0 : r.addrs[0]? = some a0 := by rw [ha0]; simp
  obtain ⟨es0, hes0⟩ := Node.get_some_of_lt (Node.leaves r.strip) 0 (by
    rw [← hlen, ha0]; simp)
  have hes0ne := (hview.2.2.2 es0 (List.getElem?_mem hes0)).1
  have hpos0 : 0 < es0.length := List.length_pos.2 hes0ne
  have hd0 : (Node.leaves r.strip).drop 0 = es0 :: (Node.leaves r.strip).drop (0 + 1) :=
    Node.drop_of_get hes0
  have hflat0 : Node.toList r.strip = es0 ++ ((Node.leaves r.strip).drop (0 + 1)).flatten := by
    rw [← Node.flatten_leaves]
    conv_lhs => rw [← List.drop_zero (Node.leaves r.strip), hd0]
    simp
  obtain ⟨first, hfst⟩ := Node.get_some_of_lt es0 0 hpos0
  -- the last leaf
  have hLN : r.addrs[init.length]? = some aN := by rw [haN]; exact get_mid0 init aN []
  have hlenN : (Node.leaves r.strip).length = init.length + 1 := by
    rw [← hlen, haN]; simp
  have hesN : (Node.leaves r.strip)[init.length]? = some esN := by
    rw [List.getLast?_eq_getElem?, hlenN] at hlastv
    simpa using hlastv
  have hesNb := hview.2.2.2 esN (List.getElem?_mem hesN)
  have hposN : 0 < esN.length := List.length_pos.2 hesNb.1
  have hmod : (esN.length + 65535) % 65536 = esN.length - 1 := by omega
  have htN : (Node.leaves r.strip).take (init.length + 1) = Node.leaves r.strip := by
    rw [← hlenN, List.take_length]
  have htN' : (Node.leaves r.strip).take (init.length + 1) =
      (Node.leaves r.strip).take init.length ++ [esN] := Node.take_succ_of_get hesN
  have hflatN : Node.toList r.strip =
      ((Node.leaves r.strip).take init.length).flatten ++ esN := by
    rw [← Node.flatten_leaves]
    conv_lhs => rw [← htN, htN']
    simp
  obtain ⟨last, hlst⟩ := Node.get_some_of_lt esN (esN.length - 1) (by omega)
  have hbegin : begin t = .ok (some { node := a0, pos := 0 }) := by
    simp [begin, hnz, hroot, hfirst]
  have hend : end_ t = .ok (some { node := aN, pos := esN.length - 1 }) := by
    simp only [end_, hnz, hroot, hheight, hlastrun hl.1, hmod]
    simp
  refine ⟨r, { node := a0, pos := 0 }, { node := aN, pos := esN.length - 1 }, first, last,
    hroot, ?_, ?_, hn, hbegin, hend, ?_, ?_, ?_, ?_, ?_, ?_, ?_, ?_⟩
  · simp [OnFirst, addrs, hroot, ha0]
  · refine ⟨by simp [addrs, hroot, haN], esN, hview.2.1 _ aN esN hLN hesN, ?_⟩
    simp only
    omega
  · simp [entryAt, hview.2.1 0 a0 es0 hL0 hes0, hfst]
  · rw [hflat0]
    cases es0 with
    | nil => simp at hpos0
    | cons e es => simpa using hfst
  · simp [entryAt, hview.2.1 _ aN esN hLN hesN, hlst]
  · rw [hflatN, List.getLast?_append_of_ne_nil _ hesNb.1, List.getLast?_eq_getElem?]
    exact hlst
  · simp only [forward, hbegin]
    rw [walk_view hview _ 0 0 a0 es0 hL0 hes0 hpos0 (by
      simp only [List.drop_zero]
      rw [hn, hflat0]
      simp only [List.length_append]
      omega)]
    simp [hflat0]
  · simp only [backward, hend]
    rw [walkBack_view hview _ init.length (esN.length - 1) aN esN hLN hesN (by omega) (by
      rw [hn, hflatN]
      simp only [List.length_append]
      omega)]
    have hfull : esN.take (esN.length - 1 + 1) = esN := by
      rw [Nat.sub_add_cancel hposN, List.take_length]
    rw [hfull, hflatN]
    simp
  · have hnext := seg_next hview.2.2.1 hLN
    have hnone : r.addrs[init.length + 1]? = none :=
      List.getElem?_eq_none (by rw [haN]; simp)
    rw [hnone] at hnext
    simp only [next, hview.2.1 _ aN esN hLN hesN, hnext]
    have : ¬ (esN.length - 1 + 1 < esN.length) := by omega
    simp [this]
  · have hprev := seg_prev hview.2.2.1 hL0
    simp only [if_true] at hprev
    simp [prev, hprev]

end LTree

end BPlusTree

namespace BPlusTree

variable {K V : Type}

theorem lreachable_applyOps {p : Params K} :
    ∀ (ops : List (Op K V)) {t t' : LTree K V}, LReachable p t →
      LTree.applyOps p t ops = .ok t' → LReachable p t'
  | [], t, t', hr, h => by
    simp only [LTree.applyOps] at h
    injection h with h
    subst h
    exact hr
  | .insert k v :: ops, t, t', hr, h => by
    simp only [LTree.applyOps] at h
    cases h1 : LTree.insert p t k v with
    | error f => rw [h1] at h; cases h
    | ok t1 =>
      rw [h1] at h
      exact lreachable_applyOps ops (LReachable.insert k v hr h1) h
  | .erase k :: ops, t, t', hr, h => by
    simp only [LTree.applyOps] at h
    cases h1 : LTree.erase p t k with
    | error f => rw [h1] at h; cases h
    | ok r =>
      obtain ⟨b, t1⟩ := r
      rw [h1] at h
      exact lreachable_applyOps ops (LReachable.erase k b hr h1) h

theorem linkedSample_run :
    LTree.applyOps (intParams false) LTree.empty linkedSampleOps = .ok linkedSample := by
  rfl

theorem linkedSample_reachable : LReachable (intParams false) linkedSample :=
  lreachable_applyOps _ LReachable.empty linkedSample_run

theorem LTree.inorder_strip (t : LTree K V) : t.inorder = contents t.strip := by
  unfold LTree.inorder contents LTree.strip
  cases t.root with
  | none => rfl
  | some r => simp [LNode.inorder_eq]

theorem LTree.onLast_unique {t : LTree K V} {c c' : LCursor} (h : LTree.OnLast t c)
    (h' : LTree.OnLast t c') : c = c' := by
  obtain ⟨h1, es, h2, h3⟩ := h
  obtain ⟨h1', es', h2', h3'⟩ := h'
  rw [h1] at h1'
  injection h1' with h1'
  rw [h1', h2'] at h2
  injection h2 with h2
  subst h2
  cases c
  cases c'
  simp only at h1' h3 h3'
  subst h1'
  simp only [LCursor.mk.injEq, true_and]
  omega

theorem LTree.onFirst_unique {t : LTree K V} {c c' : LCursor} (h : LTree.OnFirst t c)
    (h' : LTree.OnFirst t c') : c = c' := by
  obtain ⟨h1, h2⟩ := h
  obtain ⟨h1', h2'⟩ := h'
  rw [h1] at h1'
  injection h1' with h1'
  cases c
  cases c'
  simp only at h1' h2 h2'
  subst h1' h2 h2'
  rfl

set_option maxHeartbeats 4000000 in
theorem linkedSample_onLast : LTree.OnLast linkedSample { node := 2, pos := 2 } := by
  refine ⟨?_, [(5, 50), (6, 60), (7, 70)], ?_, ?_⟩
  · rfl
  · rfl
  · rfl

set_option maxHeartbeats 4000000 in
theorem linkedSample_onFirst : LTree.OnFirst linkedSample { node := 0, pos := 0 } := by
  refine ⟨?_, ?_⟩
  · rfl
  · rfl

/-- Claim C16: for every reachable non-empty tree, the entries read by starting at
`begin` and calling `next` until it returns false are exactly those of a
recursive in-order traversal of the leaves from the root, in the same order,
and there are `count()` of them. -/
theorem forward_is_inorder {p : Params K} (hv : p.Valid) {t : LTree K V}
    (hr : LReachable p t) (hne : t.count ≠ 0) :
    LTree.forward t = .ok t.inorder ∧ t.inorder.length = t.count := by
  obtain ⟨r, cb, ce, first, last, hroot, _, _, hn, _, _, _, _, _, _, hf, _, _, _⟩ :=
    LTree.iterate_spec hv (lreachable_inv hv hr) hne
  have hin : t.inorder = Node.toList r.strip := by
    simp [LTree.inorder, hroot, LNode.inorder_eq]
  exact ⟨by rw [hin]; exact hf, by rw [hin]; exact hn.symm⟩

theorem forward_is_inorder_witness :
    (intParams false).Valid ∧ LReachable (intParams false) linkedSample ∧
      linkedSample.count ≠ 0 ∧
      LTree.forward linkedSample = .ok linkedSample.inorder ∧
      linkedSample.inorder.length = linkedSample.count :=
  ⟨intParams_valid false, linkedSample_reachable, by decide,
    forward_is_inorder (intParams_valid false) linkedSample_reachable (by decide)⟩

/-- Claim C17: for every reachable non-empty tree, `end` returns a cursor on the last
entry (the last slot of the rightmost leaf, which holds the last entry of the
forward sequence), and the entries read by starting at `end` and calling `prev`
until it returns false are the forward `begin`/`next` sequence reversed. -/
theorem backward_is_reverse {p : Params K} (hv : p.Valid) {t : LTree K V}
    (hr : LReachable p t) (hne : t.count ≠ 0) :
    ∃ ce last l, LTree.end_ t = .ok (some ce) ∧ LTree.OnLast t ce ∧
      LTree.entryAt t ce = .ok last ∧ LTree.forward t = .ok l ∧ l.getLast? = some last ∧
      LTree.backward t = .ok l.reverse := by
  obtain ⟨r, cb, ce, first, last, hroot, _, hon, hn, _, hend, _, _, hel, hlast, hf, hb, _, _⟩ :=
    LTree.iterate_spec hv (lreachable_inv hv hr) hne
  exact ⟨ce, last, _, hend, hon, hel, hf, hlast, hb⟩

theorem backward_is_reverse_witness :
    (intParams false).Valid ∧ LReachable (intParams false) linkedSample ∧
      linkedSample.count ≠ 0 ∧
      ∃ ce last l, LTree.end_ linkedSample = .ok (some ce) ∧ LTree.OnLast linkedSample ce ∧
        LTree.entryAt linkedSample ce = .ok last ∧ LTree.forward linkedSample = .ok l ∧
        l.getLast? = some last ∧ LTree.backward linkedSample = .ok l.reverse :=
  ⟨intParams_valid false, linkedSample_reachable, by decide,
    backward_is_reverse (intParams_valid false) linkedSample_reachable (by decide)⟩

/-- Claim C18: for every reachable non-empty tree, `next` on a cursor that is on the
last entry returns false and leaves the cursor where it is, and `prev` on a
cursor that is on the first entry returns false and leaves the cursor where it
is. -/
theorem ends_keep_cursor {p : Params K} (hv : p.Valid) {t : LTree K V}
    (hr : LReachable p t) (hne : t.count ≠ 0) :
    (∀ c, LTree.OnLast t c → LTree.next t c = .ok (false, c)) ∧
      (∀ c, LTree.OnFirst t c → LTree.prev t c = .ok (false, c)) := by
  obtain ⟨r, cb, ce, first, last, hroot, honf, honl, _, _, _, _, _, _, _, _, _, hnext, hprev⟩ :=
    LTree.iterate_spec hv (lreachable_inv hv hr) hne
  constructor
  · intro c hc
    rw [LTree.onLast_unique hc honl]
    exact hnext
  · intro c hc
    rw [LTree.onFirst_unique hc honf]
    exact hprev

theorem ends_keep_cursor_witness :
    (intParams false).Valid ∧ LReachable (intParams false) linkedSample ∧
      linkedSample.count ≠ 0 ∧
      LTree.OnLast linkedSample { node := 2, pos := 2 } ∧
      LTree.OnFirst linkedSample { node := 0, pos := 0 } ∧
      LTree.next linkedSample { node := 2, pos := 2 } = .ok (false, { node := 2, pos := 2 }) ∧
      LTree.prev linkedSample { node := 0, pos := 0 } = .ok (false, { node := 0, pos := 0 }) :=
  ⟨intParams_valid false, linkedSample_reachable, by decide,
    linkedSample_onLast, linkedSample_onFirst,
    (ends_keep_cursor (intParams_valid false) linkedSample_reachable (by decide)).1 _
      linkedSample_onLast,
    (ends_keep_cursor (intParams_valid false) linkedSample_reachable (by decide)).2 _
      linkedSample_onFirst⟩

end BPlusTree

namespace BPlusTree

variable {K V : Type}

namespace Node

variable {p : Params K}

/-- The loop of `node::lower_bound` ends within `right - left + 1` iterations
and never reads outside the key array. -/
theorem lower_bound_run_eq (comp : K → K → Int) (keys : List K) (key : K) :
    ∀ (fuel left right : Nat) (ret : Bool), right - left < fuel → left ≤ right →
      right ≤ keys.length →
      lower_bound_run comp keys key fuel left right ret =
        some (lower_bound_loop comp keys key fuel left right ret) := by
  intro fuel
  induction fuel with
  | zero => intro left right ret hf; omega
  | succ fuel ih =>
    intro left right ret hf hlr hr
    rw [lower_bound_run, lower_bound_loop]
    by_cases hne : (left != right) = true
    · simp only [hne, if_true]
      have hlt : left < right := by
        have : left ≠ right := by simpa using hne
        omega
      have hmid : (left + right) / 2 < keys.length := by omega
      obtain ⟨km, hkm⟩ := get_some_of_lt keys _ hmid
      simp only [List.get?_eq_getElem?, hkm]
      split
      · exact ih _ _ _ (by omega) (by omega) hr
      · split
        · exact ih _ _ _ (by omega) (by omega) (by omega)
        · exact ih _ _ _ (by omega) (by omega) (by omega)
    · simp [hne]

/-- The loop of `node::upper_bound` ends within `right - left + 1` iterations
and never reads outside the key array. -/
theorem upper_bound_run_eq (comp : K → K → Int) (keys : List K) (key : K) :
    ∀ (fuel left right : Nat) (ret : Bool), right - left < fuel → left ≤ right →
      right ≤ keys.length →
      upper_bound_run comp keys key fuel left right ret =
        some (upper_bound_loop comp keys key fuel left right ret) := by
  intro fuel
  induction fuel with
  | zero => intro left right ret hf; omega
  | succ fuel ih =>
    intro left right ret hf hlr hr
    rw [upper_bound_run, upper_bound_loop]
    by_cases hne : (left != right) = true
    · simp only [hne, if_true]
      have hlt : left < right := by
        have : left ≠ right := by simpa using hne
        omega
      have hmid : (left + right) / 2 < keys.length := by omega
      obtain ⟨km, hkm⟩ := get_some_of_lt keys _ hmid
      simp only [List.get?_eq_getElem?, hkm]
      split
      · exact ih _ _ _ (by omega) (by omega) hr
      · split
        · exact ih _ _ _ (by omega) (by omega) (by omega)
        · exact ih _ _ _ (by omega) (by omega) hr
    · simp [hne]

/-- The result of the loop of `node::lower_bound` does not depend on the bound
on the number of iterations once it exceeds `right - left`. -/
theorem lower_bound_loop_fuel (comp : K → K → Int) (keys : List K) (key : K) :
    ∀ (fuel fuel' left right : Nat) (ret : Bool), right - left < fuel → right - left < fuel' →
      left ≤ right → right ≤ keys.length →
      lower_bound_loop comp keys key fuel left right ret =
        lower_bound_loop comp keys key fuel' left right ret := by
  intro fuel
  induction fuel with
  | zero => intro fuel' left right ret hf; omega
  | succ fuel ih =>
    intro fuel' left right ret hf hf' hlr hr
    cases fuel' with
    | zero => omega
    | succ fuel' =>
      rw [lower_bound_loop, lower_bound_loop]
      by_cases hne : (left != right) = true
      · simp only [hne, if_true]
        have hlt : left < right := by
          have : left ≠ right := by simpa using hne
          omega
        cases hkm : keys.get? ((left + right) / 2) with
        | none => rfl
        | some km =>
          simp only
          split
          · exact ih _ _ _ _ (by omega) (by omega) (by omega) hr
          · split
            · exact ih _ _ _ _ (by omega) (by omega) (by omega) (by omega)
            · exact ih _ _ _ _ (by omega) (by omega) (by omega) (by omega)
      · simp [hne]

/-- The result of the loop of `node::upper_bound` does not depend on the bound
on the number of iterations once it exceeds `right - left`. -/
theorem upper_bound_loop_fuel (comp : K → K → Int) (keys : List K) (key : K) :
    ∀ (fuel fuel' left right : Nat) (ret : Bool), right - left < fuel → right - left < fuel' →
      left ≤ right → right ≤ keys.length →
      upper_bound_loop comp keys key fuel left right ret =
        upper_bound_loop comp keys key fuel' left right ret := by
  intro fuel
  induction fuel with
  | zero => intro fuel' left right ret hf; omega
  | succ fuel ih =>
    intro fuel' left right ret hf hf' hlr hr
    cases fuel' with
    | zero => omega
    | succ fuel' =>
      rw [upper_bound_loop, upper_bound_loop]
      by_cases hne : (left != right) = true
      · simp only [hne, if_true]
        have hlt : left < right := by
          have : left ≠ right := by simpa using hne
          omega
        cases hkm : keys.get? ((left + right) / 2) with
        | none => rfl
        | some km =>
          simp only
          split
          · exact ih _ _ _ _ (by omega) (by omega) (by omega) hr
          · split
            · exact ih _ _ _ _ (by omega) (by omega) (by omega) (by omega)
            · exact ih _ _ _ _ (by omega) (by omega) (by omega) hr
      · simp [hne]

end Node

/-- In a sorted key array split at `pos` into keys `≤ key` and keys `> key`,
a key equal to `key` puts one at slot `pos - 1`. -/
theorem Node.tie_before_pos {p : Params K} (hv : p.Valid) {ks : List K} {key : K} {pos : Nat}
    (hs : ks.Pairwise (fun a b => p.comp a b ≤ 0)) (h1 : pos ≤ ks.length)
    (h2 : ∀ k ∈ ks.take pos, p.comp k key ≤ 0) (h3 : ∀ k ∈ ks.drop pos, p.comp key k < 0)
    (hex : ∃ k ∈ ks, p.comp k key = 0) :
    1 ≤ pos ∧ ∃ l, ks[pos - 1]? = some l ∧ p.comp l key = 0 := by
  obtain ⟨k, hk, hk0⟩ := hex
  have hkt : k ∈ ks.take pos := by
    rw [← List.take_append_drop pos ks] at hk
    rcases List.mem_append.1 hk with hk | hk
    · exact hk
    · have := h3 k hk
      have := (hv.zero_iff _ _).1 hk0
      omega
  have hpos : 1 ≤ pos := by
    cases pos with
    | zero => simp at hkt
    | succ n => omega
  obtain ⟨l, hl⟩ := Node.get_some_of_lt ks (pos - 1) (by omega)
  have hlt : l ∈ ks.take pos := by
    have := Node.take_succ_of_get hl
    rw [Nat.sub_add_cancel hpos] at this
    rw [this]
    simp
  refine ⟨hpos, l, hl, ?_⟩
  have hle := h2 l hlt
  have hkl : p.comp k l ≤ 0 := by
    have htk := Node.take_succ_of_get hl
    rw [Nat.sub_add_cancel hpos] at htk
    rw [htk] at hkt
    rcases List.mem_append.1 hkt with hkt | hkt
    · have hsplit := (list_split_at hl).1
      rw [hsplit] at hs
      exact (List.pairwise_append.1 hs).2.2 k hkt l (List.mem_cons_self _ _)
    · rw [List.mem_singleton.1 hkt]
      exact le_of_eq (hv.comp_self l)
  have h7 : p.comp key l ≤ 0 :=
    hv.comp_trans key k l (by have := (hv.zero_iff _ _).1 hk0; omega) hkl
  have := (hv.nonneg_iff l key).2 h7
  omega

/-- Claim C26: on a key array sorted ascending under the comparator,
`node::lower_bound` terminates (with any bound above `count` on the number of
iterations the loop ends, and it reads only slots below `count`), `pos` is the
first slot whose key is `≥ key` (every key before `pos` is `< key`, every key
from `pos` on is `≥ key`, and `pos = count` if there is none), and the result
is true if and only if some slot holds a key that compares equal to `key`. -/
theorem node_lower_bound_first_ge {p : Params K} (hv : p.Valid) {ks : List K}
    (hs : ks.Pairwise (fun a b => p.comp a b ≤ 0)) (key : K) :
    (∀ fuel, ks.length < fuel →
      Node.lower_bound_run p.comp ks key fuel 0 ks.length false =
        some (Node.lower_bound p.comp ks key)) ∧
    (Node.lower_bound p.comp ks key).2 ≤ ks.length ∧
    (∀ k ∈ ks.take (Node.lower_bound p.comp ks key).2, p.comp k key < 0) ∧
    (∀ k ∈ ks.drop (Node.lower_bound p.comp ks key).2, p.comp key k ≤ 0) ∧
    ((∀ k ∈ ks, p.comp k key < 0) → (Node.lower_bound p.comp ks key).2 = ks.length) ∧
    ((Node.lower_bound p.comp ks key).1 = true ↔ ∃ k ∈ ks, p.comp k key = 0) := by
  obtain ⟨h1, h2, h3, h4⟩ := Node.lower_bound_spec hv hs key
  refine ⟨?_, h1, h2, h3, ?_, h4⟩
  · intro fuel hf
    rw [Node.lower_bound_run_eq p.comp ks key fuel 0 ks.length false (by omega) (by omega)
      (le_refl _)]
    unfold Node.lower_bound
    rw [Node.lower_bound_loop_fuel p.comp ks key fuel (ks.length + 1) 0 ks.length false
      (by omega) (by omega) (by omega) (le_refl _)]
  · intro hall
    by_contra hne
    have hlt : (Node.lower_bound p.comp ks key).2 < ks.length := by omega
    obtain ⟨k, hk⟩ := Node.get_some_of_lt ks _ hlt
    have hmem : k ∈ ks.drop (Node.lower_bound p.comp ks key).2 := by
      rw [Node.drop_of_get hk]
      exact List.mem_cons_self _ _
    have h5 := h3 k hmem
    have h6 := hall k (List.getElem?_mem hk)
    have := (hv.comp_antisymm k key).1 h6
    omega

theorem node_lower_bound_first_ge_witness :
    (intParams false).Valid ∧
    ([1, 3, 3, 5] : List Int).Pairwise (fun a b => (intParams false).comp a b ≤ 0) ∧
    (∀ fuel, ([1, 3, 3, 5] : List Int).length < fuel →
      Node.lower_bound_run (intParams false).comp [1, 3, 3, 5] 3 fuel 0
          ([1, 3, 3, 5] : List Int).length false =
        some (Node.lower_bound (intParams false).comp [1, 3, 3, 5] 3)) ∧
    (Node.lower_bound (intParams false).comp [1, 3, 3, 5] 3).2 ≤
      ([1, 3, 3, 5] : List Int).length ∧
    (∀ k ∈ ([1, 3, 3, 5] : List Int).take (Node.lower_bound (intParams false).comp [1, 3, 3, 5] 3).2,
      (intParams false).comp k 3 < 0) ∧
    (∀ k ∈ ([1, 3, 3, 5] : List Int).drop (Node.lower_bound (intParams false).comp [1, 3, 3, 5] 3).2,
      (intParams false).comp 3 k ≤ 0) ∧
    ((∀ k ∈ ([1, 3, 3, 5] : List Int), (intParams false).comp k 3 < 0) →
      (Node.lower_bound (intParams false).comp [1, 3, 3, 5] 3).2 =
        ([1, 3, 3, 5] : List Int).length) ∧
    ((Node.lower_bound (intParams false).comp [1, 3, 3, 5] 3).1 = true ↔
      ∃ k ∈ ([1, 3, 3, 5] : List Int), (intParams false).comp k 3 = 0) :=
  ⟨intParams_valid false, by decide,
    node_lower_bound_first_ge (intParams_valid false) (by decide) 3⟩

/-- Claim C27: on a key array sorted ascending under the comparator,
`node::upper_bound` terminates, `pos` is the first slot whose key is `> key`
(every key before `pos` is `≤ key`, every key from `pos` on is `> key`, and
`pos = count` if there is none), and the result is true if and only if the node
holds a key equal to `key`; whenever it is true, `pos ≥ 1`, the key at slot
`pos - 1` is equal to `key`, and the key at slot `pos`, if there is one, is
not. -/
theorem node_upper_bound_first_gt {p : Params K} (hv : p.Valid) {ks : List K}
    (hs : ks.Pairwise (fun a b => p.comp a b ≤ 0)) (key : K) :
    (∀ fuel, ks.length < fuel →
      Node.upper_bound_run p.comp ks key fuel 0 ks.length false =
        some (Node.upper_bound p.comp ks key)) ∧
    (Node.upper_bound p.comp ks key).2 ≤ ks.length ∧
    (∀ k ∈ ks.take (Node.upper_bound p.comp ks key).2, p.comp k key ≤ 0) ∧
    (∀ k ∈ ks.drop (Node.upper_bound p.comp ks key).2, p.comp key k < 0) ∧
    ((∀ k ∈ ks, p.comp k key ≤ 0) → (Node.upper_bound p.comp ks key).2 = ks.length) ∧
    ((Node.upper_bound p.comp ks key).1 = true ↔ ∃ k ∈ ks, p.comp k key = 0) ∧
    ((Node.upper_bound p.comp ks key).1 = true →
      1 ≤ (Node.upper_bound p.comp ks key).2 ∧
      (∃ k, ks[(Node.upper_bound p.comp ks key).2 - 1]? = some k ∧ p.comp k key = 0) ∧
      ∀ k, ks[(Node.upper_bound p.comp ks key).2]? = some k → p.comp k key ≠ 0) := by
  obtain ⟨h1, h2, h3, h4⟩ := Node.upper_bound_spec hv hs key
  refine ⟨?_, h1, h2, h3, ?_, h4, ?_⟩
  · intro fuel hf
    rw [Node.upper_bound_run_eq p.comp ks key fuel 0 ks.length false (by omega) (by omega)
      (le_refl _)]
    unfold Node.upper_bound
    rw [Node.upper_bound_loop_fuel p.comp ks key fuel (ks.length + 1) 0 ks.length false
      (by omega) (by omega) (by omega) (le_refl _)]
  · intro hall
    by_contra hne
    have hlt : (Node.upper_bound p.comp ks key).2 < ks.length := by omega
    obtain ⟨k, hk⟩ := Node.get_some_of_lt ks _ hlt
    have hmem : k ∈ ks.drop (Node.upper_bound p.comp ks key).2 := by
      rw [Node.drop_of_get hk]
      exact List.mem_cons_self _ _
    have h5 := h3 k hmem
    have h6 := hall k (List.getElem?_mem hk)
    have := (hv.comp_antisymm key k).1 h5
    omega
  · intro hfound
    obtain ⟨hpos, l, hl, hl0⟩ := Node.tie_before_pos hv hs h1 h2 h3 (h4.1 hfound)
    refine ⟨hpos, ⟨l, hl, hl0⟩, ?_⟩
    intro m hm hm0
    have hmem : m ∈ ks.drop (Node.upper_bound p.comp ks key).2 := by
      rw [Node.drop_of_get hm]
      exact List.mem_cons_self _ _
    have := h3 m hmem
    have := (hv.zero_iff _ _).1 hm0
    omega

theorem node_upper_bound_first_gt_witness :
    (intParams false).Valid ∧
    ([1, 3, 3, 5] : List Int).Pairwise (fun a b => (intParams false).comp a b ≤ 0) ∧
    (∀ fuel, ([1, 3, 3, 5] : List Int).length < fuel →
      Node.upper_bound_run (intParams false).comp [1, 3, 3, 5] 3 fuel 0
          ([1, 3, 3, 5] : List Int).length false =
        some (Node.upper_bound (intParams false).comp [1, 3, 3, 5] 3)) ∧
    (Node.upper_bound (intParams false).comp [1, 3, 3, 5] 3).2 ≤
      ([1, 3, 3, 5] : List Int).length ∧
    (∀ k ∈ ([1, 3, 3, 5] : List Int).take (Node.upper_bound (intParams false).comp [1, 3, 3, 5] 3).2,
      (intParams false).comp k 3 ≤ 0) ∧
    (∀ k ∈ ([1, 3, 3, 5] : List Int).drop (Node.upper_bound (intParams false).comp [1, 3, 3, 5] 3).2,
      (intParams false).comp 3 k < 0) ∧
    ((∀ k ∈ ([1, 3, 3, 5] : List Int), (intParams false).comp k 3 ≤ 0) →
      (Node.upper_bound (intParams false).comp [1, 3, 3, 5] 3).2 =
        ([1, 3, 3, 5] : List Int).length) ∧
    ((Node.upper_bound (intParams false).comp [1, 3, 3, 5] 3).1 = true ↔
      ∃ k ∈ ([1, 3, 3, 5] : List Int), (intParams false).comp k 3 = 0) ∧
    ((Node.upper_bound (intParams false).comp [1, 3, 3, 5] 3).1 = true →
      1 ≤ (Node.upper_bound (intParams false).comp [1, 3, 3, 5] 3).2 ∧
      (∃ k, ([1, 3, 3, 5] : List Int)[(Node.upper_bound (intParams false).comp
          [1, 3, 3, 5] 3).2 - 1]? = some k ∧ (intParams false).comp k 3 = 0) ∧
      ∀ k, ([1, 3, 3, 5] : List Int)[(Node.upper_bound (intParams false).comp
          [1, 3, 3, 5] 3).2]? = some k → (intParams false).comp k 3 ≠ 0) :=
  ⟨intParams_valid false, by decide,
    node_upper_bound_first_gt (intParams_valid false) (by decide) 3⟩

end BPlusTree

namespace BPlusTree

variable {K V : Type}

/-- Claim C28: for a non-full internal node `x` whose child `y = children[i]`
is full, `split_child(i)` returns; `x` then has one more key and one more
child, with `y` (shortened) at slot `i` and the new sibling `z` at slot
`i + 1` and every other key and child as before; a leaf `y` keeps the entries
`[0, kLeafNodeMedian)`, `z` gets the entries `[kLeafNodeMedian,
kLeafNodeMaxKeys)` and `keys[i]` of `x` is the first key of `z`; an internal
`y` keeps the keys `[0, kInternalNodeMedian)`, `z` gets the keys after the
median, and the median key is `keys[i]` of `x` and in neither child; the
in-order sequence of the entries below `x` is unchanged. -/
theorem split_child_layout {p : Params K} {ks : List K} {cs : List (Node K V)} {i : Nat}
    {y : Node K V} (hlen : cs.length = ks.length + 1)
    (hroom : ks.length < p.kInternalNodeMaxKeys) (hy : cs[i]? = some y)
    (hfull : y.full p = true)
    (hshape : ∀ yk yc, y = Node.internal yk yc → yc.length = yk.length + 1) :
    ∃ up y1 z x',
      Node.split_child p (Node.internal ks cs) i = .ok x' ∧
      x' = Node.internal (ks.take i ++ up :: ks.drop i) (cs.take i ++ y1 :: z :: cs.drop (i + 1)) ∧
      x'.count = ks.length + 1 ∧ x'.children.length = cs.length + 1 ∧
      x'.keyArray[i]? = some up ∧ x'.children[i]? = some y1 ∧ x'.children[i + 1]? = some z ∧
      (∀ ye, y = Node.leaf ye →
        y1 = Node.leaf (ye.take p.kLeafNodeMedian) ∧ z = Node.leaf (ye.drop p.kLeafNodeMedian) ∧
        y1.count = p.kLeafNodeMedian ∧ z.count = p.kLeafNodeMaxKeys - p.kLeafNodeMedian ∧
        ∃ e, (ye.drop p.kLeafNodeMedian)[0]? = some e ∧ up = e.1) ∧
      (∀ yk yc, y = Node.internal yk yc →
        y1 = Node.internal (yk.take p.kInternalNodeMedian) (yc.take (p.kInternalNodeMedian + 1)) ∧
        z = Node.internal (yk.drop (p.kInternalNodeMedian + 1))
          (yc.drop (p.kInternalNodeMedian + 1)) ∧
        yk = yk.take p.kInternalNodeMedian ++ up :: yk.drop (p.kInternalNodeMedian + 1) ∧
        y1.count = p.kInternalNodeMedian ∧
        z.count = p.kInternalNodeMaxKeys - p.kInternalNodeMedian - 1 ∧
        y1.children.length = y1.count + 1 ∧ z.children.length = z.count + 1) ∧
      Node.toList x' = Node.toList (Node.internal ks cs) := by
  obtain ⟨hcs, htl, hilt⟩ := list_split_at hy
  have hik : i ≤ ks.length := by omega
  have hkl : (ks.take i).length = i := by simp; omega
  have hfacts : ∀ (up : K) (y1 z : Node K V),
      Node.toList y = Node.toList y1 ++ Node.toList z →
      (Node.internal (ks.take i ++ up :: ks.drop i)
          (cs.take i ++ y1 :: z :: cs.drop (i + 1))).count = ks.length + 1 ∧
      (Node.internal (ks.take i ++ up :: ks.drop i)
          (cs.take i ++ y1 :: z :: cs.drop (i + 1))).children.length = cs.length + 1 ∧
      (Node.internal (ks.take i ++ up :: ks.drop i)
          (cs.take i ++ y1 :: z :: cs.drop (i + 1))).keyArray[i]? = some up ∧
      (Node.internal (ks.take i ++ up :: ks.drop i)
          (cs.take i ++ y1 :: z :: cs.drop (i + 1))).children[i]? = some y1 ∧
      (Node.internal (ks.take i ++ up :: ks.drop i)
          (cs.take i ++ y1 :: z :: cs.drop (i + 1))).children[i + 1]? = some z ∧
      Node.toList (Node.internal (ks.take i ++ up :: ks.drop i)
          (cs.take i ++ y1 :: z :: cs.drop (i + 1))) = Node.toList (Node.internal ks cs) := by
    intro up y1 z htl'
    refine ⟨?_, ?_, ?_, ?_, ?_, ?_⟩
    · simp only [Node.count, List.length_append, List.length_cons, List.length_take,
        List.length_drop]
      omega
    · simp only [Node.children, List.length_append, List.length_cons, List.length_take,
        List.length_drop]
      omega
    · simp only [Node.keyArray]
      have := get_mid0 (ks.take i) up (ks.drop i)
      rwa [hkl] at this
    · simp only [Node.children]
      have := get_mid0 (cs.take i) y1 (z :: cs.drop (i + 1))
      rwa [htl] at this
    · simp only [Node.children]
      have := get_mid1 (cs.take i) y1 z (cs.drop (i + 1))
      rwa [htl] at this
    · simp only [Node.toList_internal]
      conv_rhs => rw [hcs]
      simp only [Node.toListL_append, Node.toListL_cons, htl', List.append_assoc]
  unfold Node.split_child
  simp only [List.get?_eq_getElem?, hy, hfull, Bool.not_true, Bool.false_eq_true, if_false,
    ge_iff_le, Nat.not_le.2 hroom]
  cases y with
  | leaf ye =>
    have hyl : ye.length = p.kLeafNodeMaxKeys := by
      simpa [Node.full] using hfull
    have hmed := p.leafMedian_lt_max
    obtain ⟨e, he⟩ := Node.get_some_of_lt ye p.kLeafNodeMedian (by omega)
    have hdrop := Node.drop_of_get he
    simp only [hdrop, List.head?_cons]
    have h := hfacts e.1 (Node.leaf (ye.take p.kLeafNodeMedian))
      (Node.leaf (e :: ye.drop (p.kLeafNodeMedian + 1)))
      (by simp only [Node.toList_leaf]; rw [← hdrop, List.take_append_drop])
    refine ⟨e.1, _, _, _, rfl, rfl, h.1, h.2.1, h.2.2.1, h.2.2.2.1, h.2.2.2.2.1, ?_, ?_,
      h.2.2.2.2.2⟩
    · intro ye' hye
      injection hye with hye
      subst hye
      refine ⟨rfl, by rw [hdrop], ?_, ?_, e, by rw [hdrop]; simp, rfl⟩
      · simp only [Node.count, List.length_take]; omega
      · simp only [Node.count, List.length_cons, List.length_drop]; omega
    · intro yk yc hc
      cases hc
  | internal yk yc =>
    have hyl : yk.length = p.kInternalNodeMaxKeys := by
      simpa [Node.full] using hfull
    have hycl := hshape yk yc rfl
    have hmed := p.internalMedian_lt_max
    obtain ⟨up, hup⟩ := Node.get_some_of_lt yk p.kInternalNodeMedian (by omega)
    simp only [hup]
    have hsplitk := (list_split_at hup).1
    have htl' : Node.toList (Node.internal yk yc) =
        Node.toList (Node.internal (yk.take p.kInternalNodeMedian)
          (yc.take (p.kInternalNodeMedian + 1))) ++
        Node.toList (Node.internal (yk.drop (p.kInternalNodeMedian + 1))
          (yc.drop (p.kInternalNodeMedian + 1))) := by
      simp only [Node.toList_internal]
      rw [← Node.toListL_append, List.take_append_drop]
    have h := hfacts up _ _ htl'
    refine ⟨up, _, _, _, rfl, rfl, h.1, h.2.1, h.2.2.1, h.2.2.2.1, h.2.2.2.2.1, ?_, ?_,
      h.2.2.2.2.2⟩
    · intro ye hc
      cases hc
    · intro yk' yc' hc
      injection hc with hc1 hc2
      subst hc1
      subst hc2
      refine ⟨rfl, rfl, hsplitk, ?_, ?_, ?_, ?_⟩
      · simp only [Node.count, List.length_take]; omega
      · simp only [Node.count, List.length_drop]; omega
      · simp only [Node.children, Node.count, List.length_take]; omega
      · simp only [Node.children, Node.count, List.length_drop]; omega

theorem split_child_layout_witness :
    ([.leaf [(1, 10), (2, 20), (3, 30)], .leaf [(4, 40)]] : List (Node Int Nat)).length =
      ([4] : List Int).length + 1 ∧
    ([4] : List Int).length < (intParams false).kInternalNodeMaxKeys ∧
    ([.leaf [(1, 10), (2, 20), (3, 30)], .leaf [(4, 40)]] : List (Node Int Nat))[0]? =
      some (.leaf [(1, 10), (2, 20), (3, 30)]) ∧
    (Node.leaf [(1, 10), (2, 20), (3, 30)] : Node Int Nat).full (intParams false) = true ∧
    (∀ yk yc, (Node.leaf [(1, 10), (2, 20), (3, 30)] : Node Int Nat) = Node.internal yk yc →
      yc.length = yk.length + 1) ∧
    ∃ up y1 z x',
      Node.split_child (intParams false)
        (Node.internal [4] [.leaf [(1, 10), (2, 20), (3, 30)], .leaf [(4, 40)]]) 0 = .ok x' ∧
      x' = Node.internal (([4] : List Int).take 0 ++ up :: ([4] : List Int).drop 0)
        (([.leaf [(1, 10), (2, 20), (3, 30)], .leaf [(4, 40)]] : List (Node Int Nat)).take 0 ++
          y1 :: z ::
          ([.leaf [(1, 10), (2, 20), (3, 30)], .leaf [(4, 40)]] : List (Node Int Nat)).drop
            (0 + 1)) ∧
      x'.count = ([4] : List Int).length + 1 ∧
      x'.children.length =
        ([.leaf [(1, 10), (2, 20), (3, 30)], .leaf [(4, 40)]] : List (Node Int Nat)).length + 1 ∧
      x'.keyArray[0]? = some up ∧ x'.children[0]? = some y1 ∧ x'.children[0 + 1]? = some z ∧
      (∀ ye, (Node.leaf [(1, 10), (2, 20), (3, 30)] : Node Int Nat) = Node.leaf ye →
        y1 = Node.leaf (ye.take (intParams false).kLeafNodeMedian) ∧
        z = Node.leaf (ye.drop (intParams false).kLeafNodeMedian) ∧
        y1.count = (intParams false).kLeafNodeMedian ∧
        z.count = (intParams false).kLeafNodeMaxKeys - (intParams false).kLeafNodeMedian ∧
        ∃ e, (ye.drop (intParams false).kLeafNodeMedian)[0]? = some e ∧ up = e.1) ∧
      (∀ yk yc, (Node.leaf [(1, 10), (2, 20), (3, 30)] : Node Int Nat) = Node.internal yk yc →
        y1 = Node.internal (yk.take (intParams false).kInternalNodeMedian)
          (yc.take ((intParams false).kInternalNodeMedian + 1)) ∧
        z = Node.internal (yk.drop ((intParams false).kInternalNodeMedian + 1))
          (yc.drop ((intParams false).kInternalNodeMedian + 1)) ∧
        yk = yk.take (intParams false).kInternalNodeMedian ++
          up :: yk.drop ((intParams false).kInternalNodeMedian + 1) ∧
        y1.count = (intParams false).kInternalNodeMedian ∧
        z.count = (intParams false).kInternalNodeMaxKeys -
          (intParams false).kInternalNodeMedian - 1 ∧
        y1.children.length = y1.count + 1 ∧ z.children.length = z.count + 1) ∧
      Node.toList x' =
        Node.toList (Node.internal [4] [.leaf [(1, 10), (2, 20), (3, 30)], .leaf [(4, 40)]]) :=
  ⟨by decide, by decide, by rfl, by decide, (fun _ _ h => by cases h),
    split_child_layout (by decide) (by decide) (by rfl) (by decide)
      (fun _ _ h => by cases h)⟩

end BPlusTree

namespace BPlusTree

variable {K V : Type}

namespace Node

theorem toList_set_pair {ks ks' : List K} {cs : List (Node K V)} {j : Nat} {y z : Node K V}
    (y' z' : Node K V) (hy : cs[j]? = some y) (hz : cs[j + 1]? = some z)
    (h : toList y' ++ toList z' = toList y ++ toList z) :
    toList (internal ks' ((cs.set j y').set (j + 1) z')) = toList (internal ks cs) := by
  simp only [toList_internal]
  rw [set_pair y' z' hy hz]
  conv_rhs => rw [(pair_split hy hz).1]
  exact toListL_pair _ _ y z y' z' h.symm

end Node

/-- Claim C30: for an internal node `x` with adjacent children `y =
children[j]` and `z = children[j + 1]` of the same kind,
`rebalance_left_to_right(x, j + 1)` (with `y` above its minimum and room in
`z`) and `rebalance_right_to_left(x, j)` (with `z` above its minimum and room
in `y`) return and move exactly one entry across: the count of the donor
decreases by one, the count of the receiver increases by one, the count of `x`
and its other keys and children are unchanged, the in-order sequence of the
entries below `x` is unchanged, and when `y` and `z` are leaves the routing key
`keys[j]` between them becomes the first key of `z` after the call. -/
theorem rebalance_moves_one {p : Params K} {ks : List K} {cs : List (Node K V)} {j : Nat}
    {xk : K} {y z : Node K V} (hk : ks[j]? = some xk) (hy : cs[j]? = some y)
    (hz : cs[j + 1]? = some z) (hkind : y.isInternal = z.isInternal)
    (hys : ∀ yk yc, y = Node.internal yk yc → yc.length = yk.length + 1)
    (hzs : ∀ zk zc, z = Node.internal zk zc → zc.length = zk.length + 1) :
    (y.minKeys p < y.count → z.count < z.maxKeys p →
      ∃ key y' z',
        Node.rebalance_left_to_right p (Node.internal ks cs) (j + 1) =
          .ok (Node.internal (ks.set j key) ((cs.set j y').set (j + 1) z')) ∧
        y'.count + 1 = y.count ∧ z'.count = z.count + 1 ∧
        (Node.internal (ks.set j key) ((cs.set j y').set (j + 1) z')).count =
          (Node.internal ks cs).count ∧
        Node.toList y' ++ Node.toList z' = Node.toList y ++ Node.toList z ∧
        Node.toList (Node.internal (ks.set j key) ((cs.set j y').set (j + 1) z')) =
          Node.toList (Node.internal ks cs) ∧
        (y.isInternal = false → ∃ e, (Node.toList z').head? = some e ∧ key = e.1)) ∧
    (z.minKeys p < z.count → y.count < y.maxKeys p →
      ∃ key y' z',
        Node.rebalance_right_to_left p (Node.internal ks cs) j =
          .ok (Node.internal (ks.set j key) ((cs.set j y').set (j + 1) z')) ∧
        y'.count = y.count + 1 ∧ z'.count + 1 = z.count ∧
        (Node.internal (ks.set j key) ((cs.set j y').set (j + 1) z')).count =
          (Node.internal ks cs).count ∧
        Node.toList y' ++ Node.toList z' = Node.toList y ++ Node.toList z ∧
        Node.toList (Node.internal (ks.set j key) ((cs.set j y').set (j + 1) z')) =
          Node.toList (Node.internal ks cs) ∧
        (y.isInternal = false → ∃ e, (Node.toList z').head? = some e ∧ key = e.1)) := by
  have hcount : ∀ (key : K) (cs' : List (Node K V)),
      (Node.internal (ks.set j key) cs').count = (Node.internal ks cs).count := by
    intro key cs'
    simp [Node.count]
  constructor
  · intro hdonor hroom
    unfold Node.rebalance_left_to_right
    simp only [Nat.add_one_ne_zero, if_false, Nat.add_sub_cancel, List.get?_eq_getElem?, hy, hz,
      hk]
    cases y with
    | leaf ye =>
      cases z with
      | internal zk zc => simp [Node.isInternal] at hkind
      | leaf ze =>
        simp only [Node.count, Node.minKeys, Node.maxKeys] at hdonor hroom
        have hpos : ye.length ≠ 0 := by omega
        obtain ⟨e, he⟩ := Node.get_some_of_lt ye (ye.length - 1) (by omega)
        have hlast : ye = ye.take (ye.length - 1) ++ [e] :=
          Node.last_split (n := ye.length - 1) (by omega) he
        simp only [ge_iff_le, Nat.not_le.2 hroom, if_false, hpos, he]
        have htl : Node.toList (Node.leaf (ye.take (ye.length - 1))) ++
            Node.toList (Node.leaf (e :: ze)) =
            Node.toList (Node.leaf ye) ++ Node.toList (Node.leaf ze : Node K V) := by
          simp only [Node.toList_leaf]
          conv_rhs => rw [hlast]
          simp
        refine ⟨e.1, _, _, rfl, ?_, ?_, hcount _ _, htl, Node.toList_set_pair _ _ hy hz htl, ?_⟩
        · simp only [Node.count, List.length_take]; omega
        · simp [Node.count]
        · intro _
          exact ⟨e, by simp, rfl⟩
    | internal yk yc =>
      cases z with
      | leaf ze => simp [Node.isInternal] at hkind
      | internal zk zc =>
        simp only [Node.count, Node.minKeys, Node.maxKeys] at hdonor hroom
        have hpos : yk.length ≠ 0 := by omega
        have hycl := hys yk yc rfl
        obtain ⟨ylast, hyl⟩ := Node.get_some_of_lt yk (yk.length - 1) (by omega)
        obtain ⟨ychild, hyc⟩ := Node.get_some_of_lt yc yk.length (by omega)
        have hlastc : yc = yc.take yk.length ++ [ychild] := Node.last_split hycl hyc
        simp only [ge_iff_le, Nat.not_le.2 hroom, if_false, hpos, hyl, hyc]
        have htl : Node.toList (Node.internal (yk.take (yk.length - 1)) (yc.take yk.length)) ++
            Node.toList (Node.internal (xk :: zk) (ychild :: zc)) =
            Node.toList (Node.internal yk yc) ++ Node.toList (Node.internal zk zc) := by
          simp only [Node.toList_internal]
          conv_rhs => rw [hlastc]
          simp [Node.toListL_append]
        refine ⟨ylast, _, _, rfl, ?_, ?_, hcount _ _, htl, Node.toList_set_pair _ _ hy hz htl, ?_⟩
        · simp only [Node.count, List.length_take]; omega
        · simp [Node.count]
        · intro hc
          simp [Node.isInternal] at hc
  · intro hdonor hroom
    unfold Node.rebalance_right_to_left
    simp only [List.get?_eq_getElem?, hy, hz, hk]
    cases y with
    | leaf ye =>
      cases z with
      | internal zk zc => simp [Node.isInternal] at hkind
      | leaf ze =>
        simp only [Node.count, Node.minKeys, Node.maxKeys] at hdonor hroom
        have hmin := p.leafMin_pos
        simp only [ge_iff_le, Nat.not_le.2 hroom, if_false]
        match ze, hz, hdonor with
        | [], _, hdonor => simp at hdonor
        | [_], _, hdonor => simp at hdonor; omega
        | e :: e' :: rest, hz, _ =>
          simp only
          have htl : Node.toList (Node.leaf (ye ++ [e])) ++
              Node.toList (Node.leaf (e' :: rest)) =
              Node.toList (Node.leaf ye) ++
                Node.toList (Node.leaf (e :: e' :: rest) : Node K V) := by
            simp
          refine ⟨e'.1, _, _, rfl, ?_, ?_, hcount _ _, htl, Node.toList_set_pair _ _ hy hz htl, ?_⟩
          · simp [Node.count]
          · simp [Node.count]
          · intro _
            exact ⟨e', by simp, rfl⟩
    | internal yk yc =>
      cases z with
      | leaf ze => simp [Node.isInternal] at hkind
      | internal zk zc =>
        simp only [Node.count, Node.minKeys, Node.maxKeys] at hdonor hroom
        have hzcl := hzs zk zc rfl
        simp only [ge_iff_le, Nat.not_le.2 hroom, if_false]
        match zk, zc, hz, hdonor, hzcl with
        | [], _, _, hdonor, _ => simp at hdonor
        | _ :: _, [], _, _, hzcl => simp at hzcl
        | zk0 :: zkrest, zc0 :: zcrest, hz, _, _ =>
          simp only
          have htl : Node.toList (Node.internal (yk ++ [xk]) (yc ++ [zc0])) ++
              Node.toList (Node.internal zkrest zcrest) =
              Node.toList (Node.internal yk yc) ++
                Node.toList (Node.internal (zk0 :: zkrest) (zc0 :: zcrest)) := by
            simp [Node.toListL_append]
          refine ⟨zk0, _, _, rfl, ?_, ?_, hcount _ _, htl, Node.toList_set_pair _ _ hy hz htl, ?_⟩
          · simp [Node.count]
          · simp [Node.count]
          · intro hc
            simp [Node.isInternal] at hc

theorem rebalance_moves_one_witness :
    (([3] : List Int)[0]? = some 3 ∧ pairLeftHeavy[0]? = some (.leaf [(1, 10), (2, 20)]) ∧
      pairLeftHeavy[0 + 1]? = some (.leaf [(3, 30)]) ∧
      (Node.leaf [(1, 10), (2, 20)] : Node Int Nat).minKeys (intParams false) <
        (Node.leaf [(1, 10), (2, 20)] : Node Int Nat).count ∧
      (Node.leaf [(3, 30)] : Node Int Nat).count <
        (Node.leaf [(3, 30)] : Node Int Nat).maxKeys (intParams false) ∧
      ∃ key y' z',
        Node.rebalance_left_to_right (intParams false) (Node.internal [3] pairLeftHeavy)
            (0 + 1) =
          .ok (Node.internal (([3] : List Int).set 0 key)
            ((pairLeftHeavy.set 0 y').set (0 + 1) z')) ∧
        y'.count + 1 = (Node.leaf [(1, 10), (2, 20)] : Node Int Nat).count ∧
        z'.count = (Node.leaf [(3, 30)] : Node Int Nat).count + 1 ∧
        (Node.internal (([3] : List Int).set 0 key)
            ((pairLeftHeavy.set 0 y').set (0 + 1) z')).count =
          (Node.internal [3] pairLeftHeavy).count ∧
        Node.toList y' ++ Node.toList z' =
          Node.toList (Node.leaf [(1, 10), (2, 20)] : Node Int Nat) ++
            Node.toList (Node.leaf [(3, 30)] : Node Int Nat) ∧
        Node.toList (Node.internal (([3] : List Int).set 0 key)
            ((pairLeftHeavy.set 0 y').set (0 + 1) z')) =
          Node.toList (Node.internal [3] pairLeftHeavy) ∧
        ((Node.leaf [(1, 10), (2, 20)] : Node Int Nat).isInternal = false →
          ∃ e, (Node.toList z').head? = some e ∧ key = e.1)) ∧
    (([3] : List Int)[0]? = some 3 ∧ pairRightHeavy[0]? = some (.leaf [(1, 10)]) ∧
      pairRightHeavy[0 + 1]? = some (.leaf [(3, 30), (4, 40)]) ∧
      (Node.leaf [(3, 30), (4, 40)] : Node Int Nat).minKeys (intParams false) <
        (Node.leaf [(3, 30), (4, 40)] : Node Int Nat).count ∧
      (Node.leaf [(1, 10)] : Node Int Nat).count <
        (Node.leaf [(1, 10)] : Node Int Nat).maxKeys (intParams false) ∧
      ∃ key y' z',
        Node.rebalance_right_to_left (intParams false) (Node.internal [3] pairRightHeavy) 0 =
          .ok (Node.internal (([3] : List Int).set 0 key)
            ((pairRightHeavy.set 0 y').set (0 + 1) z')) ∧
        y'.count = (Node.leaf [(1, 10)] : Node Int Nat).count + 1 ∧
        z'.count + 1 = (Node.leaf [(3, 30), (4, 40)] : Node Int Nat).count ∧
        (Node.internal (([3] : List Int).set 0 key)
            ((pairRightHeavy.set 0 y').set (0 + 1) z')).count =
          (Node.internal [3] pairRightHeavy).count ∧
        Node.toList y' ++ Node.toList z' =
          Node.toList (Node.leaf [(1, 10)] : Node Int Nat) ++
            Node.toList (Node.leaf [(3, 30), (4, 40)] : Node Int Nat) ∧
        Node.toList (Node.internal (([3] : List Int).set 0 key)
            ((pairRightHeavy.set 0 y').set (0 + 1) z')) =
          Node.toList (Node.internal [3] pairRightHeavy) ∧
        ((Node.leaf [(1, 10)] : Node Int Nat).isInternal = false →
          ∃ e, (Node.toList z').head? = some e ∧ key = e.1)) :=
  ⟨⟨by rfl, by rfl, by rfl, by decide, by decide,
      (@rebalance_moves_one Int Nat (intParams false) [3] pairLeftHeavy 0 3 _ _
        (by rfl) (by rfl) (by rfl) (by rfl) (fun _ _ h => by cases h)
        (fun _ _ h => by cases h)).1 (by decide) (by decide)⟩,
    ⟨by rfl, by rfl, by rfl, by decide, by decide,
      (@rebalance_moves_one Int Nat (intParams false) [3] pairRightHeavy 0 3 _ _
        (by rfl) (by rfl) (by rfl) (by rfl) (fun _ _ h => by cases h)
        (fun _ _ h => by cases h)).2 (by decide) (by decide)⟩⟩

end BPlusTree

namespace BPlusTree

variable {K V : Type}

/-- Claim C24: for every tree, after `clear()` the tree is the empty tree:
`count()` is 0 and `begin()` (like `end()`) returns false; a second `clear()`
leaves it in the same empty state. -/
theorem clear_empties (t : Tree K V) :
    btree.count (btree.clear t) = 0 ∧ btree.begin (btree.clear t) = .ok none ∧
    btree.end_ (btree.clear t) = .ok none ∧ btree.forward (btree.clear t) = .ok [] ∧
    btree.clear t = btree.empty ∧ btree.clear (btree.clear t) = btree.clear t := by
  have h : btree.clear t = btree.empty := by
    unfold btree.clear btree.empty
    cases hr : t.root <;> simp
  rw [h]
  refine ⟨rfl, rfl, rfl, rfl, rfl, rfl⟩

end BPlusTree

namespace BPlusTree

variable {K V : Type}

namespace Node

variable {p : Params K}

/-- With every allocation granted, `insert_non_full` under a script is
`insert_non_full`. -/
theorem insert_non_full_alloc_nil (key : K) (value : V) :
    ∀ (fuel : Nat) (x : Node K V),
      insert_non_full_alloc p fuel x key value [] =
        (insert_non_full p fuel x key value).map (fun r => (r.1, true, r.2, [])) := by
  intro fuel
  induction fuel with
  | zero => intro x; cases x <;> rfl
  | succ fuel ih =>
    intro x
    cases x with
    | leaf es =>
      unfold insert_non_full_alloc
      cases insert_non_full p (fuel + 1) (leaf es) key value with
      | error f => rfl
      | ok r => rfl
    | internal ks cs =>
      unfold insert_non_full_alloc insert_non_full
      simp only [List.get?_eq_getElem?]
      cases hc : cs[(upper_bound p.comp ks key).2]? with
      | none => rfl
      | some c =>
        simp only []
        by_cases hfull : c.full p = true
        · simp only [hfull, if_true, split_child_alloc, List.get?_eq_getElem?, hc, create]
          cases hs : split_child p (internal ks cs) (upper_bound p.comp ks key).2 with
          | error f => rfl
          | ok x' =>
            simp only []
            cases hk : x'.keyArray[(upper_bound p.comp ks key).2]? with
            | none => rfl
            | some ki =>
              simp only []
              cases hc' : x'.children[if p.comp ki key ≤ 0 then (upper_bound p.comp ks key).2 + 1
                  else (upper_bound p.comp ks key).2]? with
              | none => rfl
              | some c' =>
                simp only [ih c']
                cases insert_non_full p fuel c' key value with
                | error f => rfl
                | ok r => rfl
        · have hfull' : c.full p = false := by simpa using hfull
          simp only [hfull', Bool.false_eq_true, if_false, ih c]
          cases insert_non_full p fuel c key value with
          | error f => rfl
          | ok r => rfl

/-- Replacing a child by a well-formed one holding the same entries. -/
theorem wf_set_child_same {ks : List K} {cs : List (Node K V)} {minL minI h i : Nat}
    {c c' : Node K V} (hx : Wf p minL minI (h + 1) (internal ks cs))
    (hc : cs[i]? = some c) (hc' : Wf p p.kLeafNodeMinKeys p.kInternalNodeMinKeys h c')
    (hsame : toList c' = toList c) :
    Wf p minL minI (h + 1) (internal ks (cs.set i c')) ∧
    toList (internal ks (cs.set i c')) = toList (internal ks cs) := by
  constructor
  · apply wf_set_child_sublist hx hc hc'
    simp [elems, hsame]
  · obtain ⟨h1, h2⟩ := toList_set_child c' hc
    simp only [toList_internal, h1, h2, hsame]

/-- Effect of `insert_non_full` under an allocation script on a well-formed
node that is not full: it returns; when it returns true it did what
`insert_non_full` does, and when it returns false (an allocation of a split
sibling failed) the node is still well-formed and holds the same entries in
the same order. -/
theorem insert_non_full_alloc_spec (hv : p.Valid) (key : K) (value : V) :
    ∀ (fuel h minL minI : Nat) (x : Node K V) (script : List Bool),
      Wf p minL minI h x → x.full p = false → h < fuel →
      ∃ x' ret grew script',
        insert_non_full_alloc p fuel x key value script = .ok (x', ret, grew, script') ∧
        ((ret = true ∧ insert_non_full p fuel x key value = .ok (x', grew)) ∨
          (ret = false ∧ grew = false ∧ Wf p minL minI h x' ∧ toList x' = toList x)) := by
  intro fuel
  induction fuel with
  | zero => intro h minL minI x _ _ _ hf; omega
  | succ fuel ih =>
    intro h minL minI x script hx hnf hf
    cases hx with
    | leaf _ _ es h1 h2 h3 =>
      obtain ⟨x', grew, he, _⟩ :=
        insert_leaf_spec hv fuel key value (Wf.leaf minL minI es h1 h2 h3) hnf
      refine ⟨x', true, grew, script, ?_, Or.inl ⟨rfl, he⟩⟩
      unfold insert_non_full_alloc
      rw [he]
    | internal _ _ h ks cs h1 h2 h3 h4 h5 =>
      have hx : Wf p minL minI (h + 1) (internal ks cs) := Wf.internal _ _ h ks cs h1 h2 h3 h4 h5
      simp only [full, beq_eq_false_iff_ne, ne_eq] at hnf
      have hroom : ks.length < p.kInternalNodeMaxKeys := by omega
      obtain ⟨hpos, _, _, _⟩ :=
        upper_bound_spec hv (pairwise_le_of_items h5 (by omega)) key
      generalize hi : (upper_bound p.comp ks key).2 = i at hpos
      have hilt : i < cs.length := by omega
      have hget : cs[i]? = some cs[i] := List.getElem?_eq_getElem hilt
      generalize hcdef : cs[i] = c at hget
      unfold insert_non_full_alloc insert_non_full
      simp only [hi, List.get?_eq_getElem?, hget]
      by_cases hfull : c.full p = true
      · simp only [hfull, if_true, split_child_alloc, List.get?_eq_getElem?, hget]
        cases hcr : (create script).1 with
        | false =>
          simp only [Bool.false_eq_true, if_false]
          exact ⟨_, _, _, _, rfl, Or.inr ⟨rfl, rfl, hx, rfl⟩⟩
        | true =>
          simp only [if_true]
          obtain ⟨up, y1, z, hsplit, hWf', htl, hnf1, hnf2⟩ :=
            split_child_spec hv hx hroom hget hfull
          rw [hsplit]
          have hclen : (cs.take i).length = i := by simp; omega
          simp only [keyArray, children, getElem?_insert_at ks i up hpos]
          have hWf'' := hWf'.mono (le_refl minL) (show minI ≤ ks.length + 1 by omega)
          have htoList : toListL (cs.take i ++ y1 :: z :: cs.drop (i + 1)) = toListL cs := by
            obtain ⟨hcs, _, _⟩ := list_split_at hget
            conv_rhs => rw [hcs]
            simp [toListL_append, htl]
          by_cases hcmp : p.comp up key ≤ 0
          · simp only [hcmp, if_true]
            have hgz : (cs.take i ++ y1 :: z :: cs.drop (i + 1))[i + 1]? = some z := by
              rw [List.getElem?_append_right (by omega)]
              simp [hclen]
            simp only [hgz]
            have hzWf := wf_child hWf' (c := z) (by simp)
            obtain ⟨c'', ret, grew, s', he, hres⟩ :=
              ih h _ _ z (create script).2 hzWf hnf2 (by omega)
            simp only [he]
            rcases hres with ⟨hr, hpure⟩ | ⟨hr, hg, hw, hsame⟩
            · exact ⟨_, _, _, _, rfl, Or.inl ⟨hr, by rw [hpure]⟩⟩
            · obtain ⟨hw2, hl2⟩ := wf_set_child_same hWf'' hgz hw hsame
              refine ⟨_, _, _, _, rfl, Or.inr ⟨hr, hg, hw2, ?_⟩⟩
              rw [hl2]
              simp only [toList_internal, htoList]
          · simp only [hcmp, if_false]
            have hgy : (cs.take i ++ y1 :: z :: cs.drop (i + 1))[i]? = some y1 := by
              rw [List.getElem?_append_right (by omega)]
              simp [hclen]
            simp only [hgy]
            have hyWf := wf_child hWf' (c := y1) (by simp)
            obtain ⟨c'', ret, grew, s', he, hres⟩ :=
              ih h _ _ y1 (create script).2 hyWf hnf1 (by omega)
            simp only [he]
            rcases hres with ⟨hr, hpure⟩ | ⟨hr, hg, hw, hsame⟩
            · exact ⟨_, _, _, _, rfl, Or.inl ⟨hr, by rw [hpure]⟩⟩
            · obtain ⟨hw2, hl2⟩ := wf_set_child_same hWf'' hgy hw hsame
              refine ⟨_, _, _, _, rfl, Or.inr ⟨hr, hg, hw2, ?_⟩⟩
              rw [hl2]
              simp only [toList_internal, htoList]
      · have hfull' : c.full p = false := by simpa using hfull
        simp only [hfull', Bool.false_eq_true, if_false]
        have hcWf := h4 c (List.getElem?_mem hget)
        obtain ⟨c'', ret, grew, s', he, hres⟩ := ih h _ _ c script hcWf hfull' (by omega)
        simp only [he]
        rcases hres with ⟨hr, hpure⟩ | ⟨hr, hg, hw, hsame⟩
        · exact ⟨_, _, _, _, rfl, Or.inl ⟨hr, by rw [hpure]⟩⟩
        · obtain ⟨hw2, hl2⟩ := wf_set_child_same hx hget hw hsame
          exact ⟨_, _, _, _, rfl, Or.inr ⟨hr, hg, hw2, hl2⟩⟩

end Node

end BPlusTree

namespace BPlusTree

variable {K V : Type}

namespace btree

variable {p : Params K}

/-- With every allocation granted, `insert` under a script is `insert` and
returns true. -/
theorem insert_alloc_nil (t : Tree K V) (key : K) (value : V) :
    insert_alloc p t key value [] =
      (insert p t key value).map (fun t' => InsertOutcome.returned true t') := by
  unfold insert_alloc insert
  cases hroot : t.root with
  | none =>
    simp only [Node.create, if_true, Node.insert_non_full_alloc_nil]
    cases Node.insert_non_full p ((Node.leaf ([] : List (K × V))).height + 1) (Node.leaf [])
        key value with
    | error f => rfl
    | ok r => rfl
  | some r =>
    by_cases hfull : r.full p = true
    · simp only [hfull, if_true, Node.create, Node.split_child_alloc, List.get?_eq_getElem?,
        List.getElem?_cons_zero]
      cases hs : Node.split_child p (Node.internal [] [r]) 0 with
      | error f => rfl
      | ok s =>
        simp only [Node.insert_non_full_alloc_nil]
        cases Node.insert_non_full p (s.height + 1) s key value with
        | error f => rfl
        | ok r => rfl
    · have hfull' : r.full p = false := by simpa using hfull
      simp only [hfull', Bool.false_eq_true, if_false, Node.insert_non_full_alloc_nil]
      cases Node.insert_non_full p (r.height + 1) r key value with
      | error f => rfl
      | ok r => rfl

/-- Calls of `insert` in which allocations may fail, on a tree that satisfies
the invariant: the call returns; when it returns true it did what `insert`
does; when it returns false without having deleted the root, the tree still
satisfies the invariant and holds the same entries in the same order, with the
same count; and the root is deleted exactly when the root is full, the
allocation of the new root succeeds and the allocation of the split sibling
fails. -/
theorem insert_alloc_spec (hv : p.Valid) {t : Tree K V} (hinv : TreeInv p t) (key : K)
    (value : V) (script : List Bool) :
    ∃ out, insert_alloc p t key value script = .ok out ∧
      ((∃ t', out = .returned true t' ∧ insert p t key value = .ok t') ∨
        (∃ t', out = .returned false t' ∧ TreeInv p t' ∧ contents t' = contents t ∧
          count t' = count t) ∨
        (out = .rootDeleted t.nkeys ∧ (∃ r, t.root = some r ∧ r.full p = true) ∧
          ∃ rest, script = true :: false :: rest)) := by
  -- common continuation once the root is prepared
  have hcont : ∀ (root : Node K V) (h : Nat) (s : List Bool)
      (pure : Except Fault (Node K V)),
      pure = .ok root →
      Node.Wf p 0 0 h root → (0 < h → Node.Wf p 1 1 h root) →
      root.full p = false → Node.toList root = contents t → t.nkeys = (contents t).length →
      ∃ out, (match Node.insert_non_full_alloc p (root.height + 1) root key value s with
            | Except.error f => (Except.error f : Except Fault (InsertOutcome K V))
            | Except.ok (root', ret, grew, _) =>
              Except.ok (.returned ret
                { root := some root', nkeys := if grew then t.nkeys + 1 else t.nkeys })) =
              Except.ok out ∧
        ((∃ t', out = .returned true t' ∧
            (match pure with
              | .error f => (Except.error f : Except Fault (Tree K V))
              | .ok root =>
                match Node.insert_non_full p (root.height + 1) root key value with
                | .error f => .error f
                | .ok (root', grew) =>
                  .ok { root := some root',
                        nkeys := if grew then t.nkeys + 1 else t.nkeys }) = .ok t') ∨
          (∃ t', out = .returned false t' ∧ TreeInv p t' ∧ contents t' = contents t ∧
            count t' = count t)) := by
    intro root h s pure hpure hw0 hw1 hnf hl hn
    subst hpure
    have hh := hw0.height_eq
    obtain ⟨x', ret, grew, s', he, hres⟩ :=
      Node.insert_non_full_alloc_spec hv key value (root.height + 1) h 0 0 root s hw0 hnf
        (by omega)
    simp only [he]
    rcases hres with ⟨hr, hp⟩ | ⟨hr, hg, hw, hsame⟩
    · subst hr
      refine ⟨_, rfl, Or.inl ⟨_, rfl, ?_⟩⟩
      simp only [hp]
    · subst hr
      subst hg
      refine ⟨_, rfl, Or.inr ⟨_, rfl, ?_, ?_, ?_⟩⟩
      · cases h with
        | zero =>
          -- a leaf root allocates nothing, so the call cannot have returned false
          cases hw0 with
          | leaf _ _ es h1 h2 h3 =>
            unfold Node.insert_non_full_alloc at he
            cases hq : Node.insert_non_full p ((Node.leaf es).height + 1) (Node.leaf es)
                key value with
            | error f => simp only [hq] at he; cases he
            | ok q =>
              simp only [hq] at he
              injection he with he
              simp only [Prod.mk.injEq] at he
              exact absurd he.2.1 (by simp)
        | succ h =>
          obtain ⟨x'', ret', grew', s'', he2, hres2⟩ :=
            Node.insert_non_full_alloc_spec hv key value (root.height + 1) (h + 1) 1 1 root s
              (hw1 (by omega)) hnf (by omega)
          rw [he] at he2
          injection he2 with he2
          simp only [Prod.mk.injEq] at he2
          obtain ⟨hx2, hr2, hg2, _⟩ := he2
          subst hx2
          subst hr2
          rcases hres2 with ⟨hr, _⟩ | ⟨_, _, hw2, _⟩
          · cases hr
          · simp only [TreeInv]
            refine ⟨⟨_, hw2⟩, ?_⟩
            simp [hsame, hl, hn]
      · simp [contents, hsame, hl]
      · simp [count]
  have hn : t.nkeys = (contents t).length := by
    unfold TreeInv at hinv
    unfold contents
    cases hroot : t.root with
    | none => simpa [hroot] using hinv
    | some r =>
      rw [hroot] at hinv
      exact hinv.2
  unfold insert_alloc insert
  cases hroot : t.root with
  | none =>
    cases hcr : (Node.create script).1 with
    | false =>
      simp only [hcr, Bool.false_eq_true, if_false]
      refine ⟨_, rfl, Or.inr (Or.inl ⟨_, rfl, ?_, ?_, rfl⟩)⟩
      · simpa [TreeInv, hroot] using hinv
      · simp [contents, hroot]
    | true =>
      simp only [hcr, if_true]
      have hw : Node.Wf p 0 0 0 (Node.leaf ([] : List (K × V))) :=
        Node.Wf.leaf _ _ [] (by simp) (by simp) (by simp)
      have hnf : (Node.leaf ([] : List (K × V)) : Node K V).full p = false := by
        have := p.leafMax_ge
        simp only [Node.full, List.length_nil, beq_eq_false_iff_ne, ne_eq]
        omega
      obtain ⟨out, ho, hres⟩ := hcont (Node.leaf []) 0 (Node.create script).2
        (.ok (Node.leaf [])) rfl hw (by intro h; omega) hnf (by simp [contents, hroot]) hn
      refine ⟨out, ho, ?_⟩
      rcases hres with h1 | h2
      · exact Or.inl h1
      · exact Or.inr (Or.inl h2)
  | some r =>
    obtain ⟨⟨h, hw⟩, _⟩ : (∃ h, Node.Wf p 1 1 h r) ∧ t.nkeys = (Node.toList r).length := by
      simpa [TreeInv, hroot] using hinv
    have hcr : contents t = Node.toList r := by simp [contents, hroot]
    by_cases hfull : r.full p = true
    · simp only [hfull, if_true]
      cases hc1 : (Node.create script).1 with
      | false =>
        simp only [Bool.false_eq_true, if_false]
        exact ⟨_, rfl, Or.inr (Or.inl ⟨_, rfl, hinv, rfl, rfl⟩)⟩
      | true =>
        simp only [if_true, Node.split_child_alloc, List.get?_eq_getElem?,
          List.getElem?_cons_zero]
        cases hc2 : (Node.create (Node.create script).2).1 with
        | false =>
          simp only [Bool.false_eq_true, if_false]
          refine ⟨_, rfl, Or.inr (Or.inr ⟨rfl, ⟨r, rfl, hfull⟩, ?_⟩)⟩
          cases script with
          | nil => simp [Node.create] at hc2
          | cons b rest =>
            simp only [Node.create] at hc1 hc2
            subst hc1
            cases rest with
            | nil => simp [Node.create] at hc2
            | cons b2 rest2 =>
              simp only [Node.create] at hc2
              subst hc2
              exact ⟨rest2, rfl⟩
        | true =>
          simp only [if_true]
          have hx0 : Node.Wf p 1 0 (h + 1) (Node.internal [] [r]) := by
            refine Node.Wf.internal _ _ h [] [r] (by simp) (by simp) (by simp) ?_ ?_
            · intro c hc
              simp only [List.mem_singleton] at hc
              subst hc
              exact hw.of_full hfull
            · simpa [Node.items, Node.tailItems] using hw.elems_pairwise
          obtain ⟨up, y1, z, hsplit, hWf', htl, hnf1, hnf2⟩ :=
            Node.split_child_spec hv hx0 (by have := p.internalMax_ge; simp; omega)
              (show ([r] : List (Node K V))[0]? = some r by simp) hfull
          rw [hsplit]
          simp only [List.take_zero, List.drop_zero, List.nil_append, List.length_nil, zero_add,
            List.drop_succ_cons, List.drop_nil] at hWf' ⊢
          have hnf0 : (Node.internal [up] [y1, z] : Node K V).full p = false := by
            have := p.internalMax_ge
            simp only [Node.full, List.length_singleton, beq_eq_false_iff_ne, ne_eq]
            omega
          obtain ⟨out, ho, hres⟩ := hcont (Node.internal [up] [y1, z]) (h + 1)
            (Node.create (Node.create script).2).2 (.ok (Node.internal [up] [y1, z])) rfl
            (hWf'.mono (by omega) (by omega)) (fun _ => hWf') hnf0 (by simp [htl, hcr]) hn
          refine ⟨out, ho, ?_⟩
          rcases hres with h1 | h2
          · exact Or.inl h1
          · exact Or.inr (Or.inl h2)
    · have hfull' : r.full p = false := by simpa using hfull
      simp only [hfull', Bool.false_eq_true, if_false]
      obtain ⟨out, ho, hres⟩ := hcont r h script (.ok r) rfl (hw.mono (by omega) (by omega))
        (fun _ => hw) hfull' hcr.symm hn
      refine ⟨out, ho, ?_⟩
      rcases hres with h1 | h2
      · exact Or.inl h1
      · exact Or.inr (Or.inl h2)

end btree

theorem mapFullRoot_reachable : Reachable (intParams false) mapFullRoot :=
  reachable_applyOps [.insert 1 10, .insert 2 20, .insert 3 30] Reachable.empty (by rfl)

/-- Claim C25 fails on the code: on the reachable map with fanout 3 whose root
is the full leaf [1, 2, 3], `insert(4, 40)` with the allocation of the new root
granted and the allocation of the split sibling refused returns false after
`delete s` has destroyed the old root, which `_M_root` still points to: no
tree is left to iterate.  When the first allocation is refused instead, the
call returns false and the tree is untouched. -/
theorem failed_root_split_deletes_root :
    Reachable (intParams false) mapFullRoot ∧
    btree.insert_alloc (intParams false) mapFullRoot 4 40 [true, false] =
      .ok (.rootDeleted 3) ∧
    btree.insert_alloc (intParams false) mapFullRoot 4 40 [false] =
      .ok (.returned false mapFullRoot) :=
  ⟨mapFullRoot_reachable, by rfl, by rfl⟩

end BPlusTree

namespace BPlusTree

variable {K V : Type}

namespace Node

variable {p : Params K}

/-- The descent of `btree::upper_bound` from a well-formed node returns, and
stops in the leaf and at the slot that split the entries of the subtree into
those with a key `≤ key` and those with a key `> key`; the result tells whether
the reached leaf holds a key equal to `key`, and then the slot before the
cursor holds one. -/
theorem upper_bound_descend_spec (hv : p.Valid) (key : K) :
    ∀ (fuel h : Nat) (x : Node K V) (off : Nat) (minL minI : Nat),
      Wf p minL minI h x → h < fuel →
      ∃ found j i es,
        btree.upper_bound_descend p key fuel x off =
          .ok (found, { leaf := off + j, pos := i }) ∧
        (leaves x)[j]? = some es ∧ i ≤ es.length ∧
        (∀ e ∈ ((leaves x).take j).flatten ++ es.take i, p.comp e.1 key ≤ 0) ∧
        (∀ e ∈ es.drop i ++ ((leaves x).drop (j + 1)).flatten, p.comp key e.1 < 0) ∧
        (p.kDuplicates = false → ∀ e ∈ ((leaves x).take j).flatten, p.comp e.1 key < 0) ∧
        (found = true ↔ ∃ e ∈ es, p.comp e.1 key = 0) ∧
        (found = true → 1 ≤ i ∧ ∃ e, es[i - 1]? = some e ∧ p.comp e.1 key = 0) := by
  intro fuel
  induction fuel with
  | zero => intro h x off minL minI _ hf; omega
  | succ fuel ih =>
    intro h x off minL minI hx hf
    cases hx with
    | leaf _ _ es h1 h2 h3 =>
      have hsorted : (es.map Prod.fst).Pairwise (fun a b => p.comp a b ≤ 0) :=
        h3.imp (fun h => hv.before_le h)
      obtain ⟨hpos, htake, hdrop, hfound⟩ := upper_bound_spec hv hsorted key
      refine ⟨(upper_bound p.comp (es.map Prod.fst) key).1, 0,
        (upper_bound p.comp (es.map Prod.fst) key).2, es, ?_, ?_, ?_, ?_, ?_, ?_, ?_, ?_⟩
      · rw [btree.upper_bound_descend]
        rfl
      · simp
      · simpa using hpos
      · intro e he
        simp only [List.take_zero, List.flatten_nil, List.nil_append] at he
        exact htake e.1 (by rw [← List.map_take]; exact List.mem_map_of_mem _ he)
      · intro e he
        simp only [leaves, List.drop_succ_cons, List.drop_nil, List.flatten_nil,
          List.append_nil] at he
        exact hdrop e.1 (by rw [← List.map_drop]; exact List.mem_map_of_mem _ he)
      · intro _ e he
        simp at he
      · rw [hfound]
        constructor
        · rintro ⟨k, hk, hk0⟩
          obtain ⟨e, he, hek⟩ := List.mem_map.1 hk
          subst hek
          exact ⟨e, he, hk0⟩
        · rintro ⟨e, he, he0⟩
          exact ⟨e.1, List.mem_map_of_mem _ he, he0⟩
      · intro hf
        obtain ⟨hp1, l, hl, hl0⟩ := tie_before_pos hv hsorted hpos htake hdrop (hfound.1 hf)
        rw [List.getElem?_map] at hl
        obtain ⟨e, he, hek⟩ := Option.map_eq_some'.1 hl
        subst hek
        exact ⟨hp1, e, he, hl0⟩
    | internal _ _ h0 ks cs h1 h2 h3 h4 h5 =>
      have hx : Wf p minL minI (h0 + 1) (internal ks cs) := Wf.internal _ _ h0 ks cs h1 h2 h3 h4 h5
      have hsorted := wf_keys_sorted hx
      obtain ⟨hpos, htake, hdrop, _⟩ := upper_bound_spec hv hsorted key
      rw [btree.upper_bound_descend]
      generalize (upper_bound p.comp ks key).2 = pos at hpos htake hdrop
      obtain ⟨c, hc⟩ := get_some_of_lt cs pos (by omega)
      simp only [List.get?_eq_getElem?, hc]
      obtain ⟨found, j, i, es, hrun, g1, g2, g3, g4, g5, g6, g7⟩ :=
        ih h0 c (off + (leavesL (cs.take pos)).length) _ _
          (wf_child hx (List.getElem?_mem hc)) (by omega)
      have hleft := wf_left_before hv hx hpos htake
      have hright := wf_right_gt hv hx hpos hdrop
      obtain ⟨n1, n2, n3, _, _⟩ := nested_at (leavesL (cs.take pos)) (leaves c)
        (leavesL (cs.drop (pos + 1))) g1
      refine ⟨found, (leavesL (cs.take pos)).length + j, i, es, ?_, ?_, g2, ?_, ?_, ?_, g6, g7⟩
      · rw [hrun, Nat.add_assoc]
      · rw [leaves_internal, leaves_split hc]
        exact n1
      · rw [leaves_internal, leaves_split hc, n2]
        intro e he
        simp only [List.flatten_append, List.append_assoc, List.mem_append] at he
        rcases he with he | he | he
        · rw [flatten_leavesL] at he
          exact hv.before_le (hleft e he)
        · exact g3 e (List.mem_append_left _ he)
        · exact g3 e (List.mem_append_right _ he)
      · rw [leaves_internal, leaves_split hc, n3]
        intro e he
        simp only [List.flatten_append, List.mem_append] at he
        rcases he with he | he | he
        · exact g4 e (List.mem_append_left _ he)
        · exact g4 e (List.mem_append_right _ he)
        · rw [flatten_leavesL] at he
          exact hright e he
      · intro hd
        rw [leaves_internal, leaves_split hc, n2]
        intro e he
        simp only [List.flatten_append, List.mem_append] at he
        rcases he with he | he
        · rw [flatten_leavesL] at he
          have := hleft e he
          simpa [Params.before, hd] using this
        · exact g5 hd e he

end Node

namespace btree

variable {p : Params K}

/-- Effect of `btree::upper_bound` on a tree that satisfies the invariant and
holds an entry: it returns with the cursor in a leaf of the chain, at the slot
that splits the iteration sequence into the entries with a key `≤ key` (before
the cursor) and those with a key `> key` (from the cursor on); the result tells
whether the reached leaf holds a key equal to `key`; when duplicates are not
allowed, that is whether the tree holds one. -/
theorem upper_bound_tree_spec (hv : p.Valid) {t : Tree K V} (hinv : TreeInv p t) (key : K)
    (hne : contents t ≠ []) :
    ∃ found c es, upper_bound p t key = .ok (found, some c) ∧
      (chain t)[c.leaf]? = some es ∧ c.pos ≤ es.length ∧
      contents t = entriesBefore t c ++ (es.drop c.pos ++ ((chain t).drop (c.leaf + 1)).flatten) ∧
      (∀ a ∈ entriesBefore t c, p.comp a.1 key ≤ 0) ∧
      (∀ b ∈ es.drop c.pos ++ ((chain t).drop (c.leaf + 1)).flatten, p.comp key b.1 < 0) ∧
      (found = true ↔ ∃ e ∈ es, p.comp e.1 key = 0) ∧
      (found = true → 1 ≤ c.pos ∧ ∃ e, es[c.pos - 1]? = some e ∧ p.comp e.1 key = 0) ∧
      (p.kDuplicates = false → (found = true ↔ ∃ e ∈ contents t, p.comp e.1 key = 0)) := by
  unfold TreeInv at hinv
  unfold upper_bound
  cases hroot : t.root with
  | none => simp [contents, hroot] at hne
  | some r =>
    rw [hroot] at hinv
    obtain ⟨⟨h, hW⟩, hn⟩ := hinv
    have hnz : t.nkeys ≠ 0 := by
      rw [hn]
      intro hc
      apply hne
      simp only [contents, hroot]
      exact List.eq_nil_of_length_eq_zero hc
    have hchain : chain t = r.leaves := by simp [chain, hroot]
    have hcont : contents t = (chain t).flatten := by
      rw [hchain, Node.flatten_leaves]; simp [contents, hroot]
    obtain ⟨found, j, i, es, hrun, g1, g2, g3, g4, g5, g6, g7⟩ :=
      Node.upper_bound_descend_spec hv key (r.height + 1) h r 0 1 1 hW
        (by rw [hW.height_eq]; omega)
    rw [← hchain] at g1 g3 g4 g5
    have hsplit := flatten_split g1
    simp only [hnz, beq_iff_eq, if_false, hrun, Nat.zero_add]
    have hbefore : entriesBefore t { leaf := j, pos := i } =
        ((chain t).take j).flatten ++ es.take i := by
      simp only [entriesBefore, List.get?_eq_getElem?, g1, Option.getD_some]
    refine ⟨found, { leaf := j, pos := i }, es, rfl, g1, g2, ?_, ?_, g4, g6, g7, ?_⟩
    · rw [hbefore, hcont, hsplit, List.append_assoc, ← List.append_assoc (es.take i),
        List.take_append_drop]
    · rw [hbefore]
      exact g3
    · intro hd
      rw [g6]
      constructor
      · rintro ⟨e, he, he0⟩
        refine ⟨e, ?_, he0⟩
        rw [hcont, hsplit]
        simp [he]
      · rintro ⟨e, he, he0⟩
        rw [hcont, hsplit] at he
        simp only [List.mem_append] at he
        rcases he with he | he | he
        · have := g5 hd e he
          omega
        · exact ⟨e, he, he0⟩
        · have := g4 e (List.mem_append_right _ he)
          have := (hv.zero_iff _ _).1 he0
          omega

end btree

end BPlusTree

namespace BPlusTree

variable {K V : Type}

namespace btree

variable {p : Params K}

/-- Two cuts of a sorted list: when the part before the first cut is `< key`
and is followed by an entry equal to `key`, and the second cut has the entries
`≤ key` before it and those `> key` after it, the entries between the cuts are
equal to `key` and there is one. -/
theorem cuts_delimit (hv : p.Valid) {key : K} {l B E R b' : List (K × V)} {e0 : K × V}
    (hs : (l.map Prod.fst).Pairwise (fun a b => p.comp a b ≤ 0))
    (h1 : l = B ++ e0 :: b') (h2 : l = E ++ R) (he0 : p.comp e0.1 key = 0)
    (hE : ∀ a ∈ E, p.comp a.1 key ≤ 0) (hR : ∀ x ∈ R, p.comp key x.1 < 0) :
    ∃ mid, E = B ++ mid ∧ mid ≠ [] ∧ ∀ x ∈ mid, p.comp x.1 key = 0 := by
  have hnotR : e0 ∉ R := by
    intro hm
    have := hR e0 hm
    have := (hv.zero_iff _ _).1 he0
    omega
  have heq : B ++ e0 :: b' = E ++ R := by rw [← h1, h2]
  rcases List.append_eq_append_iff.1 heq with ⟨a', hEa, hcons⟩ | ⟨c', hBc, hRc⟩
  · cases a' with
    | nil =>
      simp only [List.nil_append] at hcons
      exact absurd (by rw [← hcons]; simp) hnotR
    | cons a0 a'' =>
      simp only [List.cons_append, List.cons.injEq] at hcons
      obtain ⟨ha0, _⟩ := hcons
      subst ha0
      refine ⟨e0 :: a'', hEa, by simp, ?_⟩
      intro x hx
      have hle : p.comp x.1 key ≤ 0 := hE x (by rw [hEa]; simp [hx])
      have hge : p.comp e0.1 x.1 ≤ 0 := by
        rcases List.mem_cons.1 hx with hx | hx
        · subst hx; exact le_of_eq (hv.comp_self _)
        · rw [h2, hEa, List.pairwise_map] at hs
          have h3 := (List.pairwise_append.1 (List.pairwise_append.1 hs).1).2.1
          exact (List.pairwise_cons.1 h3).1 x hx
      have hkx : p.comp key x.1 ≤ 0 :=
        hv.comp_trans key e0.1 x.1 (by have := (hv.zero_iff _ _).1 he0; omega) hge
      have := (hv.nonneg_iff x.1 key).2 hkx
      omega
  · exact absurd (by rw [hRc]; simp) hnotR

/-- Effect of `btree::equal_range` on a tree that satisfies the invariant and
holds a key equal to `key`: both cursors are set, the first on the first
entry equal to `key`, the second at the slot after the last entry `≤ key` of the
leaf `upper_bound` reached; the entries between them are those equal to `key`,
and the result is the result of `upper_bound`. -/
theorem equal_range_spec (hv : p.Valid) {t : Tree K V} (hinv : TreeInv p t) (key : K)
    (hpres : ∃ x ∈ contents t, p.comp x.1 key = 0) :
    ∃ r b e es mid e0,
      upper_bound p t key = .ok (r, some e) ∧
      lower_bound p t key = .ok (true, some b) ∧
      equal_range p t key = .ok (r, some b, some e) ∧
      entryAt t b = .ok e0 ∧
      (chain t)[e.leaf]? = some es ∧ e.pos ≤ es.length ∧ (r = true → 1 ≤ e.pos) ∧
      contents t =
        entriesBefore t e ++ (es.drop e.pos ++ ((chain t).drop (e.leaf + 1)).flatten) ∧
      (∀ a ∈ entriesBefore t e, p.comp a.1 key ≤ 0) ∧
      (∀ x ∈ es.drop e.pos ++ ((chain t).drop (e.leaf + 1)).flatten, p.comp key x.1 < 0) ∧
      entriesBefore t e = entriesBefore t b ++ mid ∧
      (∀ a ∈ entriesBefore t b, p.comp a.1 key < 0) ∧
      (∀ x ∈ mid, p.comp x.1 key = 0) ∧ mid.head? = some e0 ∧
      (r = true ↔ ∃ x ∈ es, p.comp x.1 key = 0) ∧
      (p.kDuplicates = false → r = true) := by
  obtain ⟨x0, hx0, hx0k⟩ := hpres
  have hne : contents t ≠ [] := List.ne_nil_of_mem hx0
  obtain ⟨r, e, es, hub, g1, g2, g3, g4, g5, g6, g7, g8⟩ := upper_bound_tree_spec hv hinv key hne
  rcases lower_bound_tree_spec hv hinv key with ⟨b, e0, b', hlb, hat, he0, hsplit, hbl⟩ |
      ⟨oc, _, habs⟩
  · obtain ⟨mid, hmid, hmne, hmeq⟩ :=
      cuts_delimit hv (contents_sorted hv hinv) hsplit g3 he0 g4 g5
    have hhead : mid.head? = some e0 := by
      have h1 : entriesBefore t b ++ e0 :: b' =
          entriesBefore t b ++ (mid ++ (es.drop e.pos ++
            ((chain t).drop (e.leaf + 1)).flatten)) := by
        rw [← hsplit, ← List.append_assoc, ← hmid]
        exact g3
      have h2 := List.append_cancel_left h1
      cases mid with
      | nil => exact absurd rfl hmne
      | cons m0 mr =>
        simp only [List.cons_append, List.cons.injEq] at h2
        simp [h2.1]
    refine ⟨r, b, e, es, mid, e0, hub, hlb, ?_, hat, g1, g2, (fun hr => (g7 hr).1), g3, g4, g5, hmid, hbl, hmeq,
      hhead, g6, ?_⟩
    · simp only [equal_range, hlb, hub]
    · intro hd
      exact (g8 hd).2 ⟨x0, hx0, hx0k⟩
  · exact absurd hx0k (habs x0 hx0)

end btree

end BPlusTree

namespace BPlusTree

variable {K V : Type}

namespace Node

variable {p : Params K}

/-- The descent of `btree::end` from a well-formed node returns at the last
slot of the last leaf of the subtree. -/
theorem end_descend_spec (hv : p.Valid) :
    ∀ (fuel h : Nat) (x : Node K V) (off : Nat) (minL minI : Nat),
      Wf p minL minI h x → 1 ≤ minL → h < fuel →
      ∃ j es, btree.end_descend fuel x off = .ok { leaf := off + j, pos := es.length - 1 } ∧
        (leaves x)[j]? = some es ∧ j + 1 = (leaves x).length ∧ es ≠ [] := by
  intro fuel
  induction fuel with
  | zero => intro h x off minL minI _ _ hf; omega
  | succ fuel ih =>
    intro h x off minL minI hx hm hf
    cases hx with
    | leaf _ _ es h1 h2 h3 =>
      have hfit := hv.leaf_fits
      have hmod : (es.length + 65535) % 65536 = es.length - 1 := by omega
      refine ⟨0, es, ?_, by simp, by simp, ?_⟩
      · rw [btree.end_descend, hmod]
        rfl
      · intro hc
        rw [hc] at h1
        simp at h1
        omega
    | internal _ _ h0 ks cs h1 h2 h3 h4 h5 =>
      have hx : Wf p minL minI (h0 + 1) (internal ks cs) := Wf.internal _ _ h0 ks cs h1 h2 h3 h4 h5
      obtain ⟨c, hc⟩ := get_some_of_lt cs ks.length (by omega)
      rw [btree.end_descend]
      simp only [List.get?_eq_getElem?, hc]
      obtain ⟨j, es, hrun, g1, g2, g3⟩ :=
        ih h0 c (off + (leavesL (cs.take ks.length)).length) _ _
          (wf_child hx (List.getElem?_mem hc)) p.leafMin_pos (by omega)
      obtain ⟨n1, _, _, n4, _⟩ := nested_at (leavesL (cs.take ks.length)) (leaves c)
        (leavesL (cs.drop (ks.length + 1))) g1
      have hdrop : cs.drop (ks.length + 1) = [] := List.drop_eq_nil_of_le (by omega)
      refine ⟨(leavesL (cs.take ks.length)).length + j, es, ?_, ?_, ?_, g3⟩
      · rw [hrun, Nat.add_assoc]
      · rw [leaves_internal, leaves_split hc]
        exact n1
      · rw [leaves_internal, leaves_split hc, n4, hdrop]
        simp only [leavesL_nil, List.length_nil]
        omega

end Node

namespace btree

variable {p : Params K}

/-- Under the invariant `begin` returns, with no cursor on the empty tree and
with a cursor on an entry otherwise. -/
theorem begin_spec {t : Tree K V} (hinv : TreeInv p t) :
    ∃ ob, begin t = .ok ob ∧ (ob = none ↔ count t = 0) ∧
      ∀ c, ob = some c → ∃ e, entryAt t c = .ok e := by
  unfold TreeInv at hinv
  unfold begin count
  cases hroot : t.root with
  | none =>
    rw [hroot] at hinv
    simp only at hinv
    exact ⟨none, by simp [hinv], by simp [hinv], by intro c hc; cases hc⟩
  | some r =>
    rw [hroot] at hinv
    obtain ⟨⟨h, hW⟩, hn⟩ := hinv
    have hne := hW.toList_ne_nil (Or.inl (le_refl _))
    have hnz : t.nkeys ≠ 0 := by
      rw [hn]
      intro hc
      exact hne (List.eq_nil_of_length_eq_zero hc)
    have hchain : chain t = r.leaves := by simp [chain, hroot]
    refine ⟨some { leaf := 0, pos := 0 }, by simp [hnz], by simp [hnz], ?_⟩
    intro c hc
    injection hc with hc
    subst hc
    obtain ⟨l, ls, hl⟩ := List.exists_cons_of_ne_nil (Node.leaves_ne_nil_list hW)
    have hlne : l ≠ [] := Node.leaves_ne_nil h hW (le_refl _) l (by rw [hl]; simp)
    obtain ⟨e, es, hes⟩ := List.exists_cons_of_ne_nil hlne
    refine ⟨e, ?_⟩
    simp [entryAt, hchain, hl, hes]

/-- Under the invariant `end` returns, with no cursor on the empty tree and
with a cursor on an entry otherwise. -/
theorem end_spec (hv : p.Valid) {t : Tree K V} (hinv : TreeInv p t) :
    ∃ oe, end_ t = .ok oe ∧ (oe = none ↔ count t = 0) ∧
      ∀ c, oe = some c → ∃ e, entryAt t c = .ok e := by
  unfold TreeInv at hinv
  unfold end_ count
  cases hroot : t.root with
  | none =>
    rw [hroot] at hinv
    simp only at hinv
    exact ⟨none, by simp [hinv], by simp [hinv], by intro c hc; cases hc⟩
  | some r =>
    rw [hroot] at hinv
    obtain ⟨⟨h, hW⟩, hn⟩ := hinv
    have hne := hW.toList_ne_nil (Or.inl (le_refl _))
    have hnz : t.nkeys ≠ 0 := by
      rw [hn]
      intro hc
      exact hne (List.eq_nil_of_length_eq_zero hc)
    have hchain : chain t = r.leaves := by simp [chain, hroot]
    obtain ⟨j, es, hrun, g1, _, g3⟩ :=
      Node.end_descend_spec hv (r.height + 1) h r 0 1 1 hW (le_refl _)
        (by rw [hW.height_eq]; omega)
    simp only [hnz, beq_iff_eq, if_false, hrun, Nat.zero_add]
    refine ⟨_, rfl, by simp, ?_⟩
    intro c hc
    injection hc with hc
    subst hc
    have hlen : 0 < es.length := List.length_pos.2 g3
    obtain ⟨e, he⟩ := Node.get_some_of_lt es (es.length - 1) (by omega)
    refine ⟨e, ?_⟩
    simp only [entryAt, List.get?_eq_getElem?, hchain, g1, he]

/-- Under the invariant `lower_bound` (and `find`) returns, and a result true
comes with a cursor on an entry. -/
theorem lower_bound_cursor (hv : p.Valid) {t : Tree K V} (hinv : TreeInv p t) (key : K) :
    ∃ r oc, lower_bound p t key = .ok (r, oc) ∧ find p t key = .ok (r, oc) ∧
      (r = true → ∃ c e, oc = some c ∧ entryAt t c = .ok e) := by
  rcases lower_bound_tree_spec hv hinv key with ⟨c, e, b, h1, h2, _⟩ | ⟨oc, h1, _⟩
  · exact ⟨true, some c, h1, by simp only [find, h1], fun _ => ⟨c, e, rfl, h2⟩⟩
  · exact ⟨false, oc, h1, by simp only [find, h1], fun h => by cases h⟩

/-- Under the invariant `upper_bound` returns, and a result true comes with
a cursor in a leaf of the chain whose slot is at least 1 and at most the count
of the leaf; the slot before it holds an entry. -/
theorem upper_bound_cursor (hv : p.Valid) {t : Tree K V} (hinv : TreeInv p t) (key : K) :
    ∃ r oc, upper_bound p t key = .ok (r, oc) ∧
      (r = true → ∃ c es e, oc = some c ∧ (chain t)[c.leaf]? = some es ∧
        1 ≤ c.pos ∧ c.pos ≤ es.length ∧
        entryAt t { leaf := c.leaf, pos := c.pos - 1 } = .ok e) := by
  by_cases hne : contents t = []
  · have hnk : t.nkeys = 0 := by
      unfold TreeInv at hinv
      unfold contents at hne
      cases hroot : t.root with
      | none => simpa [hroot] using hinv
      | some r =>
        rw [hroot] at hinv hne
        simp only at hne
        rw [hinv.2, hne]
        rfl
    exact ⟨false, none, by simp [upper_bound, hnk], fun h => by cases h⟩
  · obtain ⟨r, c, es, hub, g1, g2, _, _, _, _, g7, _⟩ := upper_bound_tree_spec hv hinv key hne
    refine ⟨r, some c, hub, ?_⟩
    intro hr
    obtain ⟨hp1, e, he, _⟩ := g7 hr
    refine ⟨c, es, e, rfl, g1, hp1, g2, ?_⟩
    simp only [entryAt, List.get?_eq_getElem?, g1, he]

/-- Under the invariant `equal_range` returns, and a result true comes with
a first cursor on an entry and a second cursor as `upper_bound` leaves it. -/
theorem equal_range_cursor (hv : p.Valid) {t : Tree K V} (hinv : TreeInv p t) (key : K) :
    ∃ r ob oe, equal_range p t key = .ok (r, ob, oe) ∧
      (r = true → ∃ b e0 c es e, ob = some b ∧ entryAt t b = .ok e0 ∧ oe = some c ∧
        (chain t)[c.leaf]? = some es ∧ 1 ≤ c.pos ∧ c.pos ≤ es.length ∧
        entryAt t { leaf := c.leaf, pos := c.pos - 1 } = .ok e) := by
  obtain ⟨r1, ob, h1, _, hb⟩ := lower_bound_cursor hv hinv key
  obtain ⟨r2, oe, h2, he⟩ := upper_bound_cursor hv hinv key
  cases r1 with
  | false =>
    exact ⟨false, ob, none, by simp only [equal_range, h1], fun h => by cases h⟩
  | true =>
    refine ⟨r2, ob, oe, by simp only [equal_range, h1, h2], ?_⟩
    intro hr
    obtain ⟨b, e0, hob, hat⟩ := hb rfl
    obtain ⟨c, es, e, hoe, g1, g2, g3, g4⟩ := he hr
    exact ⟨b, e0, c, es, e, hob, hat, hoe, g1, g2, g3, g4⟩

end btree

variable {p : Params K}

theorem mapGap_reachable : Reachable (intParams false) mapGap :=
  reachable_applyOps [.insert 1 10, .insert 2 20, .insert 4 40, .insert 5 50]
    Reachable.empty (by rfl)

/-- Claim C22 fails at the map holding 1, 2, 4, 5 in the leaves `[1, 2]` and
`[4, 5]`: key 2 is present and the first entry with a key `> 2` is `(4, 40)`,
the first slot of the second leaf, but `upper_bound(2)` leaves the cursor at
slot 2 of the first leaf, which holds no entry; `equal_range(2)` ends there. -/
theorem upper_bound_past_leaf_end :
    Reachable (intParams false) mapGap ∧
    (∃ x ∈ contents mapGap, (intParams false).comp x.1 2 = 0) ∧
    (∃ x ∈ contents mapGap, (intParams false).comp 2 x.1 < 0) ∧
    btree.forward mapGap = .ok [(1, 10), (2, 20), (4, 40), (5, 50)] ∧
    btree.upper_bound (intParams false) mapGap 2 = .ok (true, some { leaf := 0, pos := 2 }) ∧
    btree.equal_range (intParams false) mapGap 2 =
      .ok (true, some { leaf := 0, pos := 1 }, some { leaf := 0, pos := 2 }) ∧
    btree.entryAt mapGap { leaf := 0, pos := 2 } = .error .outOfRange ∧
    btree.entryAt mapGap { leaf := 1, pos := 0 } = .ok (4, 40) :=
  ⟨mapGap_reachable, ⟨(2, 20), by decide, by decide⟩, ⟨(4, 40), by decide, by decide⟩,
    by rfl, by rfl, by rfl, by rfl, by rfl⟩

/-- Claim C22, amended: for every reachable tree and every key `k` that is
present in the tree, `upper_bound(k)` leaves the cursor at the slot of the
reached leaf that splits the iteration sequence: every entry before the cursor
has a key `≤ k` and every entry from the cursor on has a key `> k`, so the
cursor is on the first entry whose key is `> k` when that slot is occupied and
one past the last slot of the leaf otherwise; the entries from the first cursor
of `equal_range(k)` (on the first entry equal to `k`) up to the second one (the
cursor of `upper_bound(k)`) are exactly the entries equal to `k`. -/
theorem upper_bound_splits_sequence (hv : p.Valid) {t : Tree K V} (hr : Reachable p t) (key : K)
    (hpres : ∃ x ∈ contents t, p.comp x.1 key = 0) :
    ∃ l, btree.forward t = .ok l ∧
      ∃ r b e es mid e0,
        btree.upper_bound p t key = .ok (r, some e) ∧
        btree.equal_range p t key = .ok (r, some b, some e) ∧
        (btree.chain t)[e.leaf]? = some es ∧ e.pos ≤ es.length ∧
        l = btree.entriesBefore t e ++
          (es.drop e.pos ++ ((btree.chain t).drop (e.leaf + 1)).flatten) ∧
        (∀ a ∈ btree.entriesBefore t e, p.comp a.1 key ≤ 0) ∧
        (∀ x ∈ es.drop e.pos ++ ((btree.chain t).drop (e.leaf + 1)).flatten,
          p.comp key x.1 < 0) ∧
        (∀ x, es[e.pos]? = some x → btree.entryAt t e = .ok x) ∧
        btree.entryAt t b = .ok e0 ∧ mid.head? = some e0 ∧
        btree.entriesBefore t e = btree.entriesBefore t b ++ mid ∧
        (∀ a ∈ btree.entriesBefore t b, p.comp a.1 key < 0) ∧
        (∀ x ∈ mid, p.comp x.1 key = 0) := by
  have hinv := btree.reachable_inv hv hr
  refine ⟨contents t, btree.forward_spec hinv, ?_⟩
  obtain ⟨r, b, e, es, mid, e0, h1, _, h3, h4, h5, h6, _, h8, h9, h10, h11, h12, h13, h14, _⟩ :=
    btree.equal_range_spec hv hinv key hpres
  refine ⟨r, b, e, es, mid, e0, h1, h3, h5, h6, h8, h9, h10, ?_, h4, h14, h11, h12, h13⟩
  intro x hx
  simp only [btree.entryAt, List.get?_eq_getElem?, h5, hx]

theorem upper_bound_splits_sequence_witness :
    (intParams false).Valid ∧ Reachable (intParams false) mapGap ∧
    (∃ x ∈ contents mapGap, (intParams false).comp x.1 2 = 0) ∧
    ∃ l, btree.forward mapGap = .ok l ∧
      ∃ r b e es mid e0,
        btree.upper_bound (intParams false) mapGap 2 = .ok (r, some e) ∧
        btree.equal_range (intParams false) mapGap 2 = .ok (r, some b, some e) ∧
        (btree.chain mapGap)[e.leaf]? = some es ∧ e.pos ≤ es.length ∧
        l = btree.entriesBefore mapGap e ++
          (es.drop e.pos ++ ((btree.chain mapGap).drop (e.leaf + 1)).flatten) ∧
        (∀ a ∈ btree.entriesBefore mapGap e, (intParams false).comp a.1 2 ≤ 0) ∧
        (∀ x ∈ es.drop e.pos ++ ((btree.chain mapGap).drop (e.leaf + 1)).flatten,
          (intParams false).comp 2 x.1 < 0) ∧
        (∀ x, es[e.pos]? = some x → btree.entryAt mapGap e = .ok x) ∧
        btree.entryAt mapGap b = .ok e0 ∧ mid.head? = some e0 ∧
        btree.entriesBefore mapGap e = btree.entriesBefore mapGap b ++ mid ∧
        (∀ a ∈ btree.entriesBefore mapGap b, (intParams false).comp a.1 2 < 0) ∧
        (∀ x ∈ mid, (intParams false).comp x.1 2 = 0) :=
  have hpres : ∃ x ∈ contents mapGap, (intParams false).comp x.1 2 = 0 :=
    ⟨(2, 20), by decide, by decide⟩
  ⟨intParams_valid false, mapGap_reachable, hpres,
    upper_bound_splits_sequence (intParams_valid false) mapGap_reachable 2 hpres⟩

/-- Claim C23 fails at the map holding 1, 2, 4, 5 in the leaves `[1, 2]` and
`[4, 5]`: `upper_bound(5)` returns true with the cursor at slot 2 of the second
leaf, whose count is 2, so the cursor designates no entry; `equal_range(5)`
returns true with that cursor as its second one. -/
theorem upper_bound_cursor_past_count :
    Reachable (intParams false) mapGap ∧
    btree.upper_bound (intParams false) mapGap 5 = .ok (true, some { leaf := 1, pos := 2 }) ∧
    btree.equal_range (intParams false) mapGap 5 =
      .ok (true, some { leaf := 1, pos := 1 }, some { leaf := 1, pos := 2 }) ∧
    (btree.chain mapGap)[1]? = some [(4, 40), (5, 50)] ∧
    btree.entryAt mapGap { leaf := 1, pos := 2 } = .error .outOfRange :=
  ⟨mapGap_reachable, by rfl, by rfl, by rfl, by rfl⟩

/-- Claim C23, amended: on a reachable tree each of `begin`, `end`, `find`,
`lower_bound`, `upper_bound` and `equal_range` returns; whenever `begin`, `end`,
`find` or `lower_bound` returns true, the cursor it produced is in a leaf of the
chain at a slot in `[0, count)`, so it designates a live entry, and so does the
first cursor of `equal_range`; whenever `upper_bound` or `equal_range` returns
true, the cursor of `upper_bound` (the second cursor of `equal_range`) is in a
leaf of the chain at a slot in `[1, count]`: the slot before it holds an entry,
and the slot itself may be one past the last entry of the leaf. -/
theorem true_results_cursors (hv : p.Valid) {t : Tree K V} (hr : Reachable p t) (key : K) :
    (∃ ob, btree.begin t = .ok ob ∧ (ob = none ↔ btree.count t = 0) ∧
      ∀ c, ob = some c → ∃ e, btree.entryAt t c = .ok e) ∧
    (∃ oe, btree.end_ t = .ok oe ∧ (oe = none ↔ btree.count t = 0) ∧
      ∀ c, oe = some c → ∃ e, btree.entryAt t c = .ok e) ∧
    (∃ r oc, btree.lower_bound p t key = .ok (r, oc) ∧ btree.find p t key = .ok (r, oc) ∧
      (r = true → ∃ c e, oc = some c ∧ btree.entryAt t c = .ok e)) ∧
    (∃ r oc, btree.upper_bound p t key = .ok (r, oc) ∧
      (r = true → ∃ c es e, oc = some c ∧ (btree.chain t)[c.leaf]? = some es ∧
        1 ≤ c.pos ∧ c.pos ≤ es.length ∧
        btree.entryAt t { leaf := c.leaf, pos := c.pos - 1 } = .ok e)) ∧
    (∃ r ob oe, btree.equal_range p t key = .ok (r, ob, oe) ∧
      (r = true → ∃ b e0 c es e, ob = some b ∧ btree.entryAt t b = .ok e0 ∧ oe = some c ∧
        (btree.chain t)[c.leaf]? = some es ∧ 1 ≤ c.pos ∧ c.pos ≤ es.length ∧
        btree.entryAt t { leaf := c.leaf, pos := c.pos - 1 } = .ok e)) := by
  have hinv := btree.reachable_inv hv hr
  exact ⟨btree.begin_spec hinv, btree.end_spec hv hinv, btree.lower_bound_cursor hv hinv key,
    btree.upper_bound_cursor hv hinv key, btree.equal_range_cursor hv hinv key⟩

theorem true_results_cursors_witness :
    (intParams false).Valid ∧ Reachable (intParams false) mapGap ∧
    (∃ ob, btree.begin mapGap = .ok ob ∧ (ob = none ↔ btree.count mapGap = 0) ∧
      ∀ c, ob = some c → ∃ e, btree.entryAt mapGap c = .ok e) ∧
    (∃ oe, btree.end_ mapGap = .ok oe ∧ (oe = none ↔ btree.count mapGap = 0) ∧
      ∀ c, oe = some c → ∃ e, btree.entryAt mapGap c = .ok e) ∧
    (∃ r oc, btree.lower_bound (intParams false) mapGap 4 = .ok (r, oc) ∧
      btree.find (intParams false) mapGap 4 = .ok (r, oc) ∧
      (r = true → ∃ c e, oc = some c ∧ btree.entryAt mapGap c = .ok e)) ∧
    (∃ r oc, btree.upper_bound (intParams false) mapGap 4 = .ok (r, oc) ∧
      (r = true → ∃ c es e, oc = some c ∧ (btree.chain mapGap)[c.leaf]? = some es ∧
        1 ≤ c.pos ∧ c.pos ≤ es.length ∧
        btree.entryAt mapGap { leaf := c.leaf, pos := c.pos - 1 } = .ok e)) ∧
    (∃ r ob oe, btree.equal_range (intParams false) mapGap 4 = .ok (r, ob, oe) ∧
      (r = true → ∃ b e0 c es e, ob = some b ∧ btree.entryAt mapGap b = .ok e0 ∧ oe = some c ∧
        (btree.chain mapGap)[c.leaf]? = some es ∧ 1 ≤ c.pos ∧ c.pos ≤ es.length ∧
        btree.entryAt mapGap { leaf := c.leaf, pos := c.pos - 1 } = .ok e)) :=
  ⟨intParams_valid false, mapGap_reachable,
    true_results_cursors (intParams_valid false) mapGap_reachable 4⟩

end BPlusTree

namespace BPlusTree

variable {K V : Type}

namespace Node

variable {p : Params K}

/-- Dropping the reported `count` from `erase_first_traced` gives
`erase_first`. -/
theorem erase_first_traced_fst (comp : K → K → Int) (key : K) :
    ∀ (h : Nat) (s : Node K V), s.height ≤ h →
      (erase_first_traced comp key s).map (fun r => (r.1, r.2.1)) = erase_first comp key s := by
  intro h
  induction h with
  | zero =>
    intro s hs
    cases s with
    | leaf es =>
      cases es with
      | nil => rfl
      | cons e es =>
        simp only [erase_first_traced, erase_first]
        split <;> rfl
    | internal ks cs =>
      cases cs with
      | nil => rfl
      | cons c cs => simp [height] at hs
  | succ h ih =>
    intro s hs
    cases s with
    | leaf es =>
      cases es with
      | nil => rfl
      | cons e es =>
        simp only [erase_first_traced, erase_first]
        split <;> rfl
    | internal ks cs =>
      cases cs with
      | nil => rfl
      | cons c cs =>
        have hc : c.height ≤ h := by
          simp only [height] at hs
          omega
        have := ih c hc
        simp only [erase_first_traced, erase_first]
        rw [← this]
        cases erase_first_traced comp key c with
        | error f => rfl
        | ok r => rfl

/-- Dropping the reported `count` from `erase_up_traced` gives `erase_up`. -/
theorem erase_up_traced_fst (key : K) (x : Node K V) (i : Nat) (r : EraseStep K V)
    (n : Option Nat) :
    (erase_up_traced p key x i (r, n)).map Prod.fst = erase_up p key x i r := by
  cases r with
  | removed c' => rfl
  | absent c' => rfl
  | successor c' =>
    simp only [erase_up_traced, erase_up]
    cases (x.setChild i c').children.get? (i + 1) with
    | none => rfl
    | some s =>
      simp only []
      rw [← erase_first_traced_fst p.comp key s.height s (le_refl _)]
      cases erase_first_traced p.comp key s with
      | error f => rfl
      | ok q =>
        obtain ⟨b, s', m⟩ := q
        cases b <;> rfl

/-- Dropping the reported `count` from `erase_loop_traced` gives
`erase_loop`. -/
theorem erase_loop_traced_fst (key : K) :
    ∀ (fuel : Nat) (x : Node K V) (xIsRoot flag : Bool),
      (erase_loop_traced p key fuel x xIsRoot flag).map Prod.fst =
        erase_loop p key fuel x xIsRoot flag := by
  intro fuel
  induction fuel with
  | zero => intro x xIsRoot flag; cases x <;> rfl
  | succ fuel ih =>
    intro x xIsRoot flag
    cases x with
    | leaf es =>
      simp only [erase_loop_traced, erase_loop]
      split
      · split <;> rfl
      · rfl
    | internal ks cs =>
      simp only [erase_loop_traced, erase_loop]
      cases erase_steer p key (internal ks cs) xIsRoot flag with
      | error f => rfl
      | ok st =>
        cases st with
        | inl newRoot => exact ih newRoot true false
        | inr q =>
          obtain ⟨x1, i1, flag1⟩ := q
          simp only []
          cases try_rebalance_or_merge p x1 xIsRoot i1 with
          | error f => rfl
          | ok q2 =>
            obtain ⟨op, x2, i2⟩ := q2
            have hrest : (match x2.children.get? i2 with
                | none => (Except.error Fault.outOfRange : Except Fault (EraseStep K V × Option Nat))
                | some c =>
                  match erase_loop_traced p key fuel c false flag1 with
                  | .error f => .error f
                  | .ok r => erase_up_traced p key x2 i2 r).map Prod.fst =
                (match x2.children.get? i2 with
                | none => (Except.error Fault.outOfRange : Except Fault (EraseStep K V))
                | some c =>
                  match erase_loop p key fuel c false flag1 with
                  | .error f => .error f
                  | .ok r => erase_up p key x2 i2 r) := by
              cases x2.children.get? i2 with
              | none => rfl
              | some c =>
                simp only []
                rw [← ih c false flag1]
                cases erase_loop_traced p key fuel c false flag1 with
                | error f => rfl
                | ok r =>
                  obtain ⟨r0, n0⟩ := r
                  exact erase_up_traced_fst key x2 i2 r0 n0
            cases op
            · exact hrest
            · exact hrest
            · exact hrest
            · exact hrest
            · exact ih x2 true false

/-- The `count` reported by `erase_first_traced` is the number of entries of
the leftmost leaf below the node. -/
theorem erase_first_traced_count (key : K) :
    ∀ (h : Nat) (s : Node K V), s.height ≤ h → FirstLeafAbove p s →
      ∀ b s' n, erase_first_traced p.comp key s = .ok (b, s', n) →
        (b = true → ∃ c, n = some c ∧ p.kLeafNodeMinKeys < c) ∧ (b = false → n = none) := by
  intro h
  induction h with
  | zero =>
    intro s hs hfla b s' n hrun
    cases s with
    | leaf es =>
      cases es with
      | nil => simp [erase_first_traced] at hrun
      | cons e es =>
        simp only [erase_first_traced] at hrun
        simp only [FirstLeafAbove] at hfla
        split at hrun
        · injection hrun with hrun
          simp only [Prod.mk.injEq] at hrun
          obtain ⟨hb, _, hn⟩ := hrun
          subst hb; subst hn
          exact ⟨(fun h => by cases h), fun _ => rfl⟩
        · injection hrun with hrun
          simp only [Prod.mk.injEq] at hrun
          obtain ⟨hb, _, hn⟩ := hrun
          subst hb; subst hn
          exact ⟨(fun _ => ⟨_, rfl, hfla⟩), (fun h => by cases h)⟩
    | internal ks cs =>
      cases cs with
      | nil => simp [FirstLeafAbove] at hfla
      | cons c cs => simp [height] at hs
  | succ h ih =>
    intro s hs hfla b s' n hrun
    cases s with
    | leaf es =>
      cases es with
      | nil => simp [erase_first_traced] at hrun
      | cons e es =>
        simp only [erase_first_traced] at hrun
        simp only [FirstLeafAbove] at hfla
        split at hrun
        · injection hrun with hrun
          simp only [Prod.mk.injEq] at hrun
          obtain ⟨hb, _, hn⟩ := hrun
          subst hb; subst hn
          exact ⟨(fun h => by cases h), fun _ => rfl⟩
        · injection hrun with hrun
          simp only [Prod.mk.injEq] at hrun
          obtain ⟨hb, _, hn⟩ := hrun
          subst hb; subst hn
          exact ⟨(fun _ => ⟨_, rfl, hfla⟩), (fun h => by cases h)⟩
    | internal ks cs =>
      cases cs with
      | nil => simp [FirstLeafAbove] at hfla
      | cons c cs =>
        have hc : c.height ≤ h := by
          simp only [height] at hs
          omega
        simp only [FirstLeafAbove] at hfla
        simp only [erase_first_traced] at hrun
        cases hq : erase_first_traced p.comp key c with
        | error f => rw [hq] at hrun; cases hrun
        | ok q =>
          obtain ⟨b0, c', n0⟩ := q
          rw [hq] at hrun
          injection hrun with hrun
          simp only [Prod.mk.injEq] at hrun
          obtain ⟨hb, _, hn⟩ := hrun
          subst hb; subst hn
          exact ih c hc hfla b0 c' n0 hq

/-- The leaf that replaces a root of height 1 when its last key goes holds
more than the minimum number of entries of a leaf. -/
theorem shrunk_leaf_above_min {ks : List K} {cs : List (Node K V)} {minL minI h a b : Nat}
    {es : List (K × V)} (hx : Wf p minL minI (h + 1) (internal ks cs)) (hk : 1 ≤ ks.length)
    (hn : Wf p a b h (leaf es)) (htl : es = toListL cs) :
    p.kLeafNodeMinKeys < es.length := by
  have hmin := p.leafMin_pos
  cases hn with
  | leaf _ _ _ g1 g2 g3 =>
  cases hx with
  | internal _ _ _ _ _ h1 h2 h3 h4 h5 =>
  cases cs with
  | nil => simp at h3
  | cons c0 cs =>
    cases cs with
    | nil => simp only [List.length_cons, List.length_nil] at h3; omega
    | cons c1 cs =>
      have hc0 := h4 c0 (by simp)
      have hc1 := h4 c1 (by simp)
      cases hc0 with
      | leaf _ _ e0 k1 k2 k3 =>
      cases hc1 with
      | leaf _ _ e1 l1 l2 l3 =>
      rw [htl]
      simp only [toListL_cons, toList_leaf, List.length_append]
      omega

/-- When the descent below child `i` ends with `search_in_next_node` set and
slot 0 of the successor leaf holds a key equal to `key`, the successor leaf was
prepared: it holds more than the minimum number of entries. -/
theorem successor_prepared (hv : p.Valid) {key : K} {ks : List K} {cs : List (Node K V)}
    {minL minI h i : Nat} {flag' : Bool} {c c' s : Node K V} {f : K × V} {rest : List (K × V)}
    (hx : Wf p minL minI (h + 1) (internal ks cs)) (hc : cs[i]? = some c)
    (hready : EraseReady p key flag' cs i)
    (hr : ErasePostG p key (Wf p p.kLeafNodeMinKeys p.kInternalNodeMinKeys h) (toList c) flag'
      (.successor c'))
    (hs : cs[i + 1]? = some s) (hstl : toList s = f :: rest) (hk : p.comp key f.1 = 0) :
    FirstLeafAbove p s := by
  obtain ⟨hL, hD⟩ := hready
  have hsorted := hx.sorted
  simp only [toList_internal] at hsorted
  have htl : toListL cs = toListL (cs.take i) ++ (toList c ++ toListL (cs.drop (i + 1))) :=
    (toList_set_child c hc).1
  rw [htl] at hsorted
  simp only [List.map_append, List.pairwise_append] at hsorted
  have hcR : ∀ e ∈ toList c, ∀ r ∈ toListL (cs.drop (i + 1)), p.comp e.1 r.1 ≤ 0 := by
    intro e he r hr'
    exact hv.before_le (hsorted.2.1.2.2 e.1 (List.mem_map_of_mem _ he) r.1
      (List.mem_map_of_mem _ hr'))
  obtain ⟨hne, _, _, _⟩ := hr
  have hfR : f ∈ toListL (cs.drop (i + 1)) := by
    rw [drop_of_get hs]
    simp [hstl]
  rcases hD with hD | ⟨c0, e, hc0, he, hk0⟩ | ⟨_, _, ⟨s0, hs0, hfla⟩, _⟩
  · have := hD f hfR
    omega
  · rw [hc] at hc0
    injection hc0 with hc0
    subst hc0
    have h1 : p.comp key e.1 < 0 := lt_of_le_of_ne hv hk0 (hne e he)
    have h2 := hv.lt_of_lt_of_le h1 (hcR e he f hfR)
    omega
  · rw [hs] at hs0
    injection hs0 with hs0
    subst hs0
    exact hfla

end Node

end BPlusTree

namespace BPlusTree

variable {K V : Type}

namespace Node

variable {p : Params K}

/-- The `count` that the descent of `erase` reads at the moment it removes an
entry is above the minimum of a leaf: below a node that is not the root, and
below a root that is internal or is a leaf with more than the minimum number of
entries. -/
theorem erase_loop_traced_spec (hv : p.Valid) (key : K) :
    ∀ (fuel h : Nat) (x : Node K V) (xIsRoot flag : Bool),
      (xIsRoot = true → Wf p 1 1 h x ∧ flag = false) →
      (xIsRoot = false → Wf p (p.kLeafNodeMinKeys + 1) (p.kInternalNodeMinKeys + 1) h x) →
      (∀ es, x = leaf es → p.kLeafNodeMinKeys < es.length) →
      h < fuel →
      ∀ r n, erase_loop_traced p key fuel x xIsRoot flag = .ok (r, n) →
        (r.isRemoved = true → ∃ c, n = some c ∧ p.kLeafNodeMinKeys < c) ∧
        (r.isRemoved = false → n = none) := by
  intro fuel
  induction fuel with
  | zero => intro h x xIsRoot flag _ _ _ hf; omega
  | succ fuel ih =>
    intro h x xIsRoot flag hR hN hbig hf r n hrun
    have hW : ∃ minL minI, Wf p minL minI h x ∧ 1 ≤ minL ∧ 1 ≤ minI ∧
        (xIsRoot = false → p.kLeafNodeMinKeys + 1 ≤ minL ∧ p.kInternalNodeMinKeys + 1 ≤ minI) := by
      cases xIsRoot with
      | true => exact ⟨1, 1, (hR rfl).1, le_refl _, le_refl _, fun h => by cases h⟩
      | false =>
        exact ⟨_, _, hN rfl, by omega, by omega, fun _ => ⟨le_refl _, le_refl _⟩⟩
    obtain ⟨minL, minI, hW, hL1, hI1, hnr⟩ := hW
    cases hW with
    | leaf _ _ es h1 h2 h3 =>
      simp only [erase_loop_traced] at hrun
      split at hrun
      · split at hrun
        · injection hrun with hrun
          simp only [Prod.mk.injEq] at hrun
          obtain ⟨g1, g2⟩ := hrun
          subst g1; subst g2
          exact ⟨(fun h => by simp [EraseStep.isRemoved] at h), fun _ => rfl⟩
        · injection hrun with hrun
          simp only [Prod.mk.injEq] at hrun
          obtain ⟨g1, g2⟩ := hrun
          subst g1; subst g2
          exact ⟨(fun h => by simp [EraseStep.isRemoved] at h), fun _ => rfl⟩
      · injection hrun with hrun
        simp only [Prod.mk.injEq] at hrun
        obtain ⟨g1, g2⟩ := hrun
        subst g1; subst g2
        exact ⟨(fun _ => ⟨_, rfl, hbig es rfl⟩), (fun h => by simp [EraseStep.isRemoved] at h)⟩
    | internal _ _ h0 ks cs h1 h2 h3 h4 h5 =>
      have hx : Wf p minL minI (h0 + 1) (internal ks cs) := Wf.internal _ _ h0 ks cs h1 h2 h3 h4 h5
      have hk1 : 1 ≤ ks.length := by omega
      have hroot : xIsRoot = true ∨ 2 ≤ ks.length := by
        cases hxr : xIsRoot with
        | true => exact Or.inl rfl
        | false =>
          have := (hnr hxr).2
          have := p.internalMin_pos
          exact Or.inr (by omega)
      have hrestart : ∀ (newRoot : Node K V) (ks' : List K) (cs' : List (Node K V)) (mL mI : Nat),
          Wf p mL mI (h0 + 1) (internal ks' cs') → 1 ≤ ks'.length →
          Wf p 1 1 h0 newRoot → toList newRoot = toListL cs' →
          erase_loop_traced p key fuel newRoot true false = .ok (r, n) →
          (r.isRemoved = true → ∃ c, n = some c ∧ p.kLeafNodeMinKeys < c) ∧
          (r.isRemoved = false → n = none) := by
        intro newRoot ks' cs' mL mI hx' hk' hnW htl hrun'
        refine ih h0 newRoot true false (fun _ => ⟨hnW, rfl⟩) (fun h => by cases h) ?_ (by omega)
          r n hrun'
        intro es hes
        subst hes
        exact shrunk_leaf_above_min hx' hk' hnW (by simpa using htl)
      rw [erase_loop_traced] at hrun
      rcases erase_steer_spec hv key xIsRoot flag hx hk1 hroot with
        ⟨newRoot, hsteer, hxr, hnW, htl⟩ |
        ⟨ks1, cs1, i1, flag1, hsteer, hW1, htl1, hk11, hk12, hi1, hready, hin, hside⟩
      · simp only [hsteer] at hrun
        exact hrestart newRoot ks cs _ _ hx hk1 hnW htl hrun
      · simp only [hsteer] at hrun
        rcases erase_prepare hv xIsRoot hW1 hk11 hi1 hk12 hroot hside with
          ⟨newRoot, j, htrm, hxr, hnW, htl⟩ |
          ⟨op, ks2, cs2, i2, c2, htrm, hns, hW2, htl2, hk2, hk21, hc2, hc2W, habs⟩
        · simp only [htrm] at hrun
          exact hrestart newRoot ks1 cs1 _ _ hW1 hk11 hnW htl hrun
        · have hrun2 : (match erase_loop_traced p key fuel c2 false flag1 with
              | .error f => (Except.error f : Except Fault (EraseStep K V × Option Nat))
              | .ok q => erase_up_traced p key (internal ks2 cs2) i2 q) = .ok (r, n) := by
            rw [htrm] at hrun
            cases op
            · simpa only [children, List.get?_eq_getElem?, hc2] using hrun
            · simpa only [children, List.get?_eq_getElem?, hc2] using hrun
            · simpa only [children, List.get?_eq_getElem?, hc2] using hrun
            · simpa only [children, List.get?_eq_getElem?, hc2] using hrun
            · exact absurd rfl hns
          cases hrec : erase_loop_traced p key fuel c2 false flag1 with
          | error f => rw [hrec] at hrun2; cases hrun2
          | ok q =>
            obtain ⟨r0, n0⟩ := q
            rw [hrec] at hrun2
            simp only at hrun2
            have hbig2 : ∀ es, c2 = leaf es → p.kLeafNodeMinKeys < es.length := by
              intro es hes
              subst hes
              cases hc2W with
              | leaf _ _ _ g1 g2 g3 => omega
            obtain ⟨hrem, hnot⟩ := ih h0 c2 false flag1 (fun h => by cases h) (fun _ => hc2W) hbig2
              (by omega) r0 n0 hrec
            have hproj : erase_loop p key fuel c2 false flag1 = .ok r0 := by
              rw [← erase_loop_traced_fst, hrec]
              rfl
            obtain ⟨r1, hr1, hpost⟩ := erase_loop_spec hv key fuel h0 c2 false flag1
              (fun h => by cases h) (fun _ => hc2W) (by omega)
            rw [hproj] at hr1
            injection hr1 with hr1
            subst hr1
            have hpost' : ErasePostG p key (Wf p p.kLeafNodeMinKeys p.kInternalNodeMinKeys h0)
                (toList c2) flag1 r0 :=
              hpost.weaken (fun x' hx' => by simpa [EraseGood] using hx')
            cases r0 with
            | removed c' =>
              simp only [erase_up_traced] at hrun2
              injection hrun2 with hrun2
              simp only [Prod.mk.injEq] at hrun2
              obtain ⟨g1, g2⟩ := hrun2
              subst g1; subst g2
              exact ⟨(fun _ => hrem rfl), (fun h => by simp [EraseStep.isRemoved] at h)⟩
            | absent c' =>
              simp only [erase_up_traced] at hrun2
              injection hrun2 with hrun2
              simp only [Prod.mk.injEq] at hrun2
              obtain ⟨g1, g2⟩ := hrun2
              subst g1; subst g2
              exact ⟨(fun h => by simp [EraseStep.isRemoved] at h), (fun _ => hnot rfl)⟩
            | successor c' =>
              have hn0 : n0 = none := hnot rfl
              subst hn0
              have hget3 : (cs2.set i2 c')[i2 + 1]? = cs2[i2 + 1]? := by
                rw [List.getElem?_set_ne (by omega)]
              simp only [erase_up_traced, setChild_internal, children, List.get?_eq_getElem?,
                hget3] at hrun2
              cases hs : cs2[i2 + 1]? with
              | none =>
                rw [hs] at hrun2
                simp only at hrun2
                injection hrun2 with hrun2
                simp only [Prod.mk.injEq] at hrun2
                obtain ⟨g1, g2⟩ := hrun2
                subst g1; subst g2
                exact ⟨(fun h => by simp [EraseStep.isRemoved] at h), (fun _ => rfl)⟩
              | some s =>
                rw [hs] at hrun2
                simp only at hrun2
                have hsW : Wf p p.kLeafNodeMinKeys p.kInternalNodeMinKeys h0 s :=
                  wf_child hW2 (List.getElem?_mem hs)
                cases hq : erase_first_traced p.comp key s with
                | error f => rw [hq] at hrun2; cases hrun2
                | ok q =>
                  obtain ⟨b, s', m⟩ := q
                  rw [hq] at hrun2
                  have hfst : erase_first p.comp key s = .ok (b, s') := by
                    rw [← erase_first_traced_fst p.comp key s.height s (le_refl _), hq]
                    rfl
                  cases b with
                  | false =>
                    simp only at hrun2
                    injection hrun2 with hrun2
                    simp only [Prod.mk.injEq] at hrun2
                    obtain ⟨g1, g2⟩ := hrun2
                    subst g1; subst g2
                    exact ⟨(fun h => by simp [EraseStep.isRemoved] at h), (fun _ => rfl)⟩
                  | true =>
                    simp only at hrun2
                    injection hrun2 with hrun2
                    simp only [Prod.mk.injEq] at hrun2
                    obtain ⟨g1, g2⟩ := hrun2
                    subst g1; subst g2
                    obtain ⟨f, rest, hstl, hcase⟩ := erase_first_spec hv key h0 s hsW
                    have hk : p.comp key f.1 = 0 := by
                      rcases hcase with ⟨_, hef⟩ | ⟨hk, _⟩
                      · rw [hfst] at hef
                        injection hef with hef
                        simp only [Prod.mk.injEq] at hef
                        exact absurd hef.1 (by simp)
                      · exact hk
                    have hfla := successor_prepared hv hW2 hc2 (ready_absorbed hready habs)
                      hpost' hs hstl hk
                    have hcnt := (erase_first_traced_count key s.height s (le_refl _) hfla
                      true s' m hq).1 rfl
                    exact ⟨(fun _ => hcnt), (fun h => by simp [EraseStep.isRemoved] at h)⟩

end Node

end BPlusTree

namespace BPlusTree

variable {K V : Type}

namespace Node

variable {p : Params K}

/-- Every leaf below a well-formed node whose leaf bound is at least the
minimum holds at least the minimum number of entries. -/
theorem leaves_min : ∀ (h : Nat) {minL minI : Nat} {x : Node K V}, Wf p minL minI h x →
    p.kLeafNodeMinKeys ≤ minL → ∀ l ∈ leaves x, p.kLeafNodeMinKeys ≤ l.length := by
  intro h
  induction h with
  | zero =>
    intro minL minI x hx hm l hl
    cases hx with
    | leaf _ _ es h1 h2 h3 =>
      simp only [leaves_leaf, List.mem_singleton] at hl
      subst hl
      omega
  | succ h ih =>
    intro minL minI x hx hm l hl
    cases hx with
    | internal _ _ _ ks cs h1 h2 h3 h4 h5 =>
      simp only [leaves_internal] at hl
      obtain ⟨c, hc, hlc⟩ := mem_leavesL hl
      exact ih (h4 c hc) (le_refl _) l hlc

/-- Dropping the reported `count` from `erase_traced` gives `erase`. -/
theorem erase_traced_fst (root : Node K V) (key : K) :
    (erase_traced p root key).map (fun r => (r.1, r.2.1)) = erase p root key := by
  unfold erase_traced erase
  rw [← erase_loop_traced_fst]
  cases erase_loop_traced p key (root.height + 1) root true false with
  | error f => rfl
  | ok q =>
    obtain ⟨r, n⟩ := q
    cases r <;> rfl

/-- Effect of `node::erase` on a well-formed internal root, with the `count`
read at the removal. -/
theorem erase_traced_spec (hv : p.Valid) (key : K) {h : Nat} {ks : List K}
    {cs : List (Node K V)} (hx : Wf p 1 1 h (internal ks cs)) :
    (∃ root' c, erase_traced p (internal ks cs) key = .ok (true, root', some c) ∧
        erase p (internal ks cs) key = .ok (true, root') ∧ p.kLeafNodeMinKeys < c) ∨
    (∃ root', erase_traced p (internal ks cs) key = .ok (false, root', none) ∧
        erase p (internal ks cs) key = .ok (false, root')) ∨
    (erase_traced p (internal ks cs) key = .error .nullNode ∧
        erase p (internal ks cs) key = .error .nullNode ∧ p.kDuplicates = true) := by
  have hproj := erase_traced_fst (p := p) (internal ks cs) key
  have hfuel : h < (internal ks cs).height + 1 := by rw [hx.height_eq]; omega
  obtain ⟨r, hr, hpost⟩ := erase_loop_spec hv key ((internal ks cs).height + 1) h
    (internal ks cs) true false (fun _ => ⟨hx, rfl⟩) (fun h => by cases h) hfuel
  have hl := erase_loop_traced_fst (p := p) key ((internal ks cs).height + 1) (internal ks cs)
    true false
  rw [hr] at hl
  cases hq : erase_loop_traced p key ((internal ks cs).height + 1) (internal ks cs) true false with
  | error f => rw [hq] at hl; cases hl
  | ok q =>
    obtain ⟨r0, n⟩ := q
    rw [hq] at hl
    have hr0 : r0 = r := by
      injection hl
    subst hr0
    obtain ⟨hrem, hnot⟩ := erase_loop_traced_spec hv key ((internal ks cs).height + 1) h
      (internal ks cs) true false (fun _ => ⟨hx, rfl⟩) (fun h => by cases h)
      (fun es hes => by cases hes) hfuel r0 n hq
    cases r0 with
    | removed x' =>
      obtain ⟨c, hc, hgt⟩ := hrem rfl
      subst hc
      left
      refine ⟨x', c, ?_, ?_, hgt⟩
      · simp only [erase_traced, hq]
      · simp only [erase, hr]
    | absent x' =>
      have hn := hnot rfl
      subst hn
      right; left
      refine ⟨x', ?_, ?_⟩
      · simp only [erase_traced, hq]
      · simp only [erase, hr]
    | successor x' =>
      right; right
      refine ⟨?_, ?_, hpost.2.2.2⟩
      · simp only [erase_traced, hq]
      · simp only [erase, hr]

end Node

variable {p : Params K}

/-- Claim C29: during every erase on a reachable tree whose root is an
internal node, the leaf from which an entry is removed (the leaf reached by the
descent or, in duplicate mode, its successor, from slot 0) holds strictly more
than `kLeafNodeMinKeys` entries at the moment of the removal: the `count` that
`node::erase` reads from that leaf is above the minimum.  Afterwards the tree
satisfies the invariant, and while its root is internal every leaf holds at
least `kLeafNodeMinKeys` entries.  A call that removes nothing returns false or,
in duplicate mode, dereferences the null successor. -/
theorem removal_leaf_above_min (hv : p.Valid) {t : Tree K V} (hr : Reachable p t) (key : K)
    {ks : List K} {cs : List (Node K V)} (hroot : t.root = some (Node.internal ks cs)) :
    (∃ t' c, btree.erase_traced p t key = .ok (true, t', some c) ∧
        btree.erase p t key = .ok (true, t') ∧ p.kLeafNodeMinKeys < c ∧ TreeInv p t' ∧
        (∀ ks' cs', t'.root = some (Node.internal ks' cs') →
          ∀ es ∈ btree.chain t', p.kLeafNodeMinKeys ≤ es.length)) ∨
    (∃ t', btree.erase_traced p t key = .ok (false, t', none) ∧
        btree.erase p t key = .ok (false, t')) ∨
    (btree.erase_traced p t key = .error .nullNode ∧ btree.erase p t key = .error .nullNode ∧
        p.kDuplicates = true) := by
  have hinv := btree.reachable_inv hv hr
  have hinv0 := hinv
  unfold TreeInv at hinv
  rw [hroot] at hinv
  obtain ⟨⟨h, hW⟩, _⟩ := hinv
  rcases Node.erase_traced_spec hv key hW with ⟨r', c, h1, h2, h3⟩ | ⟨r', h1, h2⟩ | ⟨h1, h2, h3⟩
  · left
    rcases btree.erase_spec hv hinv0 key with ⟨t', he, hinv', _⟩ | ⟨t', he, _⟩ | ⟨he, _⟩
    · refine ⟨t', c, ?_, he, h3, hinv', ?_⟩
      · have he' := he
        simp only [btree.erase, hroot, h2] at he'
        simp only [btree.erase_traced, hroot, h1]
        split at he'
        · rename_i hz
          simp only [hz, if_true]
          injection he' with he'
          simp only [Prod.mk.injEq, true_and] at he'
          rw [he']
        · rename_i hz
          simp only [hz, if_false]
          injection he' with he'
          simp only [Prod.mk.injEq, true_and] at he'
          rw [he']
          simp
      · intro ks' cs' hroot' es hes
        unfold TreeInv at hinv'
        rw [hroot'] at hinv'
        obtain ⟨⟨h', hW'⟩, _⟩ := hinv'
        simp only [btree.chain, hroot'] at hes
        cases hW' with
        | internal _ _ h0 _ _ g1 g2 g3 g4 g5 =>
          simp only [Node.leaves_internal] at hes
          obtain ⟨c0, hc0, hl⟩ := Node.mem_leavesL hes
          exact Node.leaves_min h0 (g4 c0 hc0) (le_refl _) es hl
    · simp only [btree.erase, hroot, h2] at he
      split at he <;> · injection he with he; simp at he
    · simp only [btree.erase, hroot, h2] at he
      split at he <;> cases he
  · right; left
    refine ⟨{ root := some r', nkeys := t.nkeys }, ?_, ?_⟩
    · simp only [btree.erase_traced, hroot, h1]
    · simp only [btree.erase, hroot, h2]
  · right; right
    refine ⟨?_, ?_, h3⟩
    · simp only [btree.erase_traced, hroot, h1]
    · simp only [btree.erase, hroot, h2]

theorem removal_leaf_above_min_witness :
    (intParams false).Valid ∧ Reachable (intParams false) mapGap ∧
    mapGap.root = some (Node.internal [4] [.leaf [(1, 10), (2, 20)], .leaf [(4, 40), (5, 50)]]) ∧
    ((∃ t' c, btree.erase_traced (intParams false) mapGap 2 = .ok (true, t', some c) ∧
        btree.erase (intParams false) mapGap 2 = .ok (true, t') ∧
        (intParams false).kLeafNodeMinKeys < c ∧ TreeInv (intParams false) t' ∧
        (∀ ks' cs', t'.root = some (Node.internal ks' cs') →
          ∀ es ∈ btree.chain t', (intParams false).kLeafNodeMinKeys ≤ es.length)) ∨
    (∃ t', btree.erase_traced (intParams false) mapGap 2 = .ok (false, t', none) ∧
        btree.erase (intParams false) mapGap 2 = .ok (false, t')) ∨
    (btree.erase_traced (intParams false) mapGap 2 = .error .nullNode ∧
        btree.erase (intParams false) mapGap 2 = .error .nullNode ∧
        (intParams false).kDuplicates = true)) :=
  ⟨intParams_valid false, mapGap_reachable, rfl,
    removal_leaf_above_min (intParams_valid false) mapGap_reachable 2 rfl⟩

end BPlusTree

namespace BPlusTree

variable {K V : Type} {p : Params K}

/-- Where an element `u` of a list stands relative to three consecutive
elements `x y z` of it: after them, third, second, first, or before them. -/
theorem cases_mid {α : Type} {X Y P Q : List α} {u x y z : α}
    (h : X ++ u :: Y = P ++ x :: y :: z :: Q) :
    (∃ c, X = P ++ x :: y :: z :: c ∧ Q = c ++ u :: Y) ∨
    (X = P ++ [x, y] ∧ u = z ∧ Q = Y) ∨
    (X = P ++ [x] ∧ u = y ∧ Y = z :: Q) ∨
    (X = P ∧ u = x ∧ Y = y :: z :: Q) ∨
    (∃ c, P = X ++ u :: c ∧ Y = c ++ x :: y :: z :: Q) := by
  rcases List.append_eq_append_iff.1 h with ⟨a', h1, h2⟩ | ⟨c', h1, h2⟩
  · cases a' with
    | nil =>
      simp only [List.nil_append, List.cons.injEq] at h2
      simp only [List.append_nil] at h1
      exact Or.inr (Or.inr (Or.inr (Or.inl ⟨h1.symm, h2.1, h2.2⟩)))
    | cons a0 a' =>
      simp only [List.cons_append, List.cons.injEq] at h2
      obtain ⟨h3, h4⟩ := h2
      subst h3
      exact Or.inr (Or.inr (Or.inr (Or.inr ⟨a', h1, h4⟩)))
  · cases c' with
    | nil =>
      simp only [List.nil_append, List.cons.injEq] at h2
      simp only [List.append_nil] at h1
      exact Or.inr (Or.inr (Or.inr (Or.inl ⟨h1, h2.1.symm, h2.2.symm⟩)))
    | cons c0 c' =>
      simp only [List.cons_append, List.cons.injEq] at h2
      obtain ⟨h3, h4⟩ := h2
      subst h3
      cases c' with
      | nil =>
        simp only [List.nil_append, List.cons.injEq] at h4
        exact Or.inr (Or.inr (Or.inl ⟨h1, h4.1.symm, h4.2.symm⟩))
      | cons c1 c' =>
        simp only [List.cons_append, List.cons.injEq] at h4
        obtain ⟨h5, h6⟩ := h4
        subst h5
        cases c' with
        | nil =>
          simp only [List.nil_append, List.cons.injEq] at h6
          exact Or.inr (Or.inl ⟨h1, h6.1.symm, h6.2⟩)
        | cons c2 c' =>
          simp only [List.cons_append, List.cons.injEq] at h6
          obtain ⟨h7, h8⟩ := h6
          subst h7
          exact Or.inl ⟨c', h1, h8⟩

theorem ties_of_short {l : List (Bool × K)} (h : l.length < 3) : TiesKept p l := by
  intro a x y z b hl
  have := congrArg List.length hl
  simp at this
  omega

theorem ties_mid {a b : List (Bool × K)} {x y z : Bool × K}
    (h : TiesKept p (a ++ x :: y :: z :: b)) : TieOk p x y z :=
  h a x y z b rfl

theorem ties_infix {a l b : List (Bool × K)} (h : TiesKept p (a ++ (l ++ b))) :
    TiesKept p l := by
  intro c x y z d hl
  apply h (a ++ c) x y z (d ++ b)
  rw [hl]
  simp

theorem tieOk_mid_entry {x z : Bool × K} (k : K) : TieOk p x (false, k) z := by
  intro _ h
  cases h

theorem tieOk_first_key {y z : Bool × K} (k : K) : TieOk p (true, k) y z := by
  intro h
  cases h

theorem tieOk_last_key {x y : Bool × K} (k : K) : TieOk p x y (true, k) := by
  intro _ _ h
  cases h

theorem tieSafe_refl (l : List (Bool × K)) : TieSafe p l l := fun _ _ h => h

theorem tieSafe_trans {l1 l2 l3 : List (Bool × K)} (h1 : TieSafe p l1 l2)
    (h2 : TieSafe p l2 l3) : TieSafe p l1 l3 := fun a b h => h2 a b (h1 a b h)

/-- A safe replacement stays safe inside larger items. -/
theorem tieSafe_ctx {l l' : List (Bool × K)} (c d : List (Bool × K)) (h : TieSafe p l l') :
    TieSafe p (c ++ (l ++ d)) (c ++ (l' ++ d)) := by
  intro a b ht
  have h1 : a ++ ((c ++ (l ++ d)) ++ b) = (a ++ c) ++ (l ++ (d ++ b)) := by simp
  have h2 : a ++ ((c ++ (l' ++ d)) ++ b) = (a ++ c) ++ (l' ++ (d ++ b)) := by simp
  rw [h2]
  rw [h1] at ht
  exact h (a ++ c) (d ++ b) ht

theorem tieSafe_of_eq {l l' : List (Bool × K)} (h : l = l') : TieSafe p l l' := by
  subst h
  exact tieSafe_refl l

/-- A routing key that compares equal to an entry may be put before it. -/
theorem tieSafe_ins {k b : K} (h : p.comp k b = 0) :
    TieSafe p [(false, b)] [(true, k), (false, b)] := by
  intro X Y ht P x y z Q hl
  have hl' : X ++ (true, k) :: ((false, b) :: Y) = P ++ x :: y :: z :: Q := by
    simpa using hl
  have hold : TiesKept p (X ++ (false, b) :: Y) := by simpa using ht
  rcases cases_mid hl' with ⟨c, h1, h2⟩ | ⟨h1, h2, h3⟩ | ⟨h1, h2, h3⟩ | ⟨h1, h2, h3⟩ | ⟨c, h1, h2⟩
  · exact hold P x y z (c ++ (false, b) :: Y) (by rw [h1]; simp)
  · subst h2
    exact tieOk_last_key k
  · subst h2
    injection h3 with h3 h4
    subst h3
    intro _ _ _ _
    exact h
  · subst h2
    exact tieOk_first_key k
  · cases c with
    | nil =>
      simp only [List.nil_append, List.cons.injEq] at h2
      obtain ⟨h3, h4⟩ := h2
      subst h3
      exact hold X (false, b) y z Q (by rw [h4])
    | cons c0 c =>
      simp only [List.cons_append, List.cons.injEq] at h2
      obtain ⟨h3, h4⟩ := h2
      subst h3
      exact hold (X ++ (false, b) :: c) x y z Q (by rw [h4]; simp)

/-- A routing key between two entries may be taken out. -/
theorem tieSafe_del (a s b : K) :
    TieSafe p [(false, a), (true, s), (false, b)] [(false, a), (false, b)] := by
  intro X Y ht P x y z Q hl
  have hl' : X ++ (false, a) :: ((false, b) :: Y) = P ++ x :: y :: z :: Q := by
    simpa using hl
  have hold : TiesKept p (X ++ (false, a) :: (true, s) :: (false, b) :: Y) := by simpa using ht
  rcases cases_mid hl' with ⟨c, h1, h2⟩ | ⟨h1, h2, h3⟩ | ⟨h1, h2, h3⟩ | ⟨h1, h2, h3⟩ | ⟨c, h1, h2⟩
  · exact hold P x y z (c ++ (false, a) :: (true, s) :: (false, b) :: Y) (by rw [h1]; simp)
  · subst h2
    exact hold P x y (false, a) ((true, s) :: (false, b) :: Y) (by rw [h1]; simp)
  · subst h2
    exact tieOk_mid_entry a
  · subst h2
    injection h3 with h3 h4
    subst h3
    exact tieOk_mid_entry b
  · cases c with
    | nil =>
      simp only [List.nil_append, List.cons.injEq] at h2
      obtain ⟨h3, h4⟩ := h2
      subst h3
      exact hold (X ++ [(false, a), (true, s)]) (false, b) y z Q (by rw [h4]; simp)
    | cons c0 c =>
      simp only [List.cons_append, List.cons.injEq] at h2
      obtain ⟨h3, h4⟩ := h2
      subst h3
      exact hold (X ++ (false, a) :: (true, s) :: (false, b) :: c) x y z Q (by rw [h4]; simp)

theorem comp_eq_trans (hv : p.Valid) {a b c : K} (h1 : p.comp a b = 0) (h2 : p.comp b c = 0) :
    p.comp a c = 0 := by
  have h3 := hv.comp_trans a b c (le_of_eq h1) (le_of_eq h2)
  have h4 := hv.comp_trans c b a (le_of_eq ((hv.zero_iff _ _).1 h2))
    (le_of_eq ((hv.zero_iff _ _).1 h1))
  have := (hv.nonneg_iff a c).2 h4
  omega

theorem comp_eq_of_le_le (hv : p.Valid) {a b : K} (h1 : p.comp a b ≤ 0) (h2 : p.comp b a ≤ 0) :
    p.comp a b = 0 := by
  have := (hv.nonneg_iff a b).2 h2
  omega

/-- Putting the entry `k` between the items `≤ k` and the items `> k` keeps the
ties, when an entry stands on one side of the place. -/
theorem ties_insert (hv : p.Valid) {A B : List (Bool × K)} {k : K}
    (hA : ∀ x ∈ A, p.comp x.2 k ≤ 0) (hB : ∀ x ∈ B, p.comp k x.2 < 0)
    (hside : (∃ A' a, A = A' ++ [(false, a)]) ∨ (∃ b B', B = (false, b) :: B') ∨ A = [])
    (h : TiesKept p (A ++ B)) : TiesKept p (A ++ (false, k) :: B) := by
  intro P x y z Q hl
  rcases cases_mid hl with ⟨c, h1, h2⟩ | ⟨h1, h2, h3⟩ | ⟨h1, h2, h3⟩ | ⟨h1, h2, h3⟩ | ⟨c, h1, h2⟩
  · exact h P x y z (c ++ B) (by rw [h1]; simp)
  · subst h2
    intro hx hy _ hxy
    rcases hside with ⟨A', a, hA'⟩ | ⟨b, B', hB'⟩ | hnil
    · rw [hA'] at h1
      have h4 : A' ++ [(false, a)] = (P ++ [x]) ++ [y] := by rw [h1]; simp
      have h5 := List.append_inj_right' h4 rfl
      simp only [List.cons.injEq, and_true] at h5
      rw [← h5] at hy
      cases hy
    · have hold : TieOk p x y (false, b) := h P x y (false, b) B' (by rw [h1, hB']; simp)
      have h4 := hold hx hy rfl hxy
      have h5 : p.comp y.2 k ≤ 0 := hA y (by rw [h1]; simp)
      have h6 : p.comp k b < 0 := hB (false, b) (by rw [hB']; simp)
      have := hv.lt_of_le_of_lt h5 h6
      simp only at h4
      omega
    · rw [hnil] at h1
      simp at h1
  · subst h2
    exact tieOk_mid_entry k
  · subst h2
    intro _ _ _ hxy
    have := hB y (by rw [h3]; simp)
    simp only at hxy
    omega
  · exact h (A ++ c) x y z Q (by rw [h2]; simp)

/-- Taking out an entry that no entry before it compares equal to keeps the
ties, when the items before it are `≤` it and the items after it `≥` it. -/
theorem ties_remove (hv : p.Valid) {A B : List (Bool × K)} {e : K}
    (hle : ∀ x ∈ A, p.comp x.2 e ≤ 0) (hge : ∀ y ∈ B, p.comp e y.2 ≤ 0)
    (hA : ∀ x ∈ A, x.1 = false → p.comp x.2 e ≠ 0)
    (h : TiesKept p (A ++ (false, e) :: B)) : TiesKept p (A ++ B) := by
  intro P x y z Q hl
  rcases List.append_eq_append_iff.1 hl with ⟨a', h1, h2⟩ | ⟨c', h1, h2⟩
  · exact h (A ++ (false, e) :: a') x y z Q (by rw [h2]; simp)
  · cases c' with
    | nil =>
      simp only [List.nil_append] at h2
      exact h (A ++ [(false, e)]) x y z Q (by rw [← h2]; simp)
    | cons c0 c' =>
      simp only [List.cons_append, List.cons.injEq] at h2
      obtain ⟨h3, h4⟩ := h2
      subst h3
      cases c' with
      | nil =>
        simp only [List.nil_append] at h4
        have hold : TieOk p (false, e) y z := h (P ++ [x]) (false, e) y z Q (by rw [h1, ← h4])
        intro hx hy hz hxy
        apply hold rfl hy hz
        have hxe : p.comp x.2 e ≤ 0 := hle x (by rw [h1]; simp)
        have hey : p.comp e y.2 ≤ 0 := hge y (by rw [← h4]; simp)
        have hyx : p.comp y.2 x.2 ≤ 0 := le_of_eq ((hv.zero_iff _ _).1 hxy)
        exact comp_eq_of_le_le hv hey (hv.comp_trans _ _ _ hyx hxe)
      | cons c1 c' =>
        simp only [List.cons_append, List.cons.injEq] at h4
        obtain ⟨h5, h6⟩ := h4
        subst h5
        cases c' with
        | nil =>
          simp only [List.nil_append] at h6
          have hold : TieOk p x y (false, e) := h P x y (false, e) B (by rw [h1]; simp)
          intro hx hy hz hxy
          have hye := hold hx hy rfl hxy
          exact absurd (comp_eq_trans hv hxy hye) (hA x (by rw [h1]; simp) hx)
        | cons c2 c' =>
          simp only [List.cons_append, List.cons.injEq] at h6
          obtain ⟨h7, h8⟩ := h6
          subst h7
          exact h P x y z (c' ++ (false, e) :: B) (by rw [h1]; simp)

end BPlusTree

namespace BPlusTree

variable {K V : Type} {p : Params K}

theorem weaveTail_nil_left (ls : List (List (Bool × K))) : weaveTail ([] : List K) ls = [] := by
  simp [weaveTail]

theorem weaveTail_nil_right (ks : List K) : weaveTail ks [] = [] := by
  cases ks <;> simp [weaveTail]

theorem weaveTail_cons (k : K) (ks : List K) (l : List (Bool × K))
    (ls : List (List (Bool × K))) :
    weaveTail (k :: ks) (l :: ls) = (true, k) :: (l ++ weaveTail ks ls) := by
  simp [weaveTail]

theorem weavePre_cons (k : K) (ks : List K) (l : List (Bool × K))
    (ls : List (List (Bool × K))) :
    weavePre (k :: ks) (l :: ls) = l ++ (true, k) :: weavePre ks ls := by
  simp [weavePre]

theorem weavePre_nil : weavePre ([] : List K) ([] : List (List (Bool × K))) = [] := by
  simp [weavePre]

theorem weave_cons (ks : List K) (l : List (Bool × K)) (ls : List (List (Bool × K))) :
    weave ks (l :: ls) = l ++ weaveTail ks ls := by
  simp [weave]

theorem weave_single (ks : List K) (l : List (Bool × K)) : weave ks [l] = l := by
  simp [weave, weaveTail_nil_right]

/-- Interleaved lists split around the list at position `ll.length`. -/
theorem weave_split : ∀ (kl : List K) (ll : List (List (Bool × K))) (kr : List K)
    (y : List (Bool × K)) (lr : List (List (Bool × K))), kl.length = ll.length →
    weave (kl ++ kr) (ll ++ y :: lr) = weavePre kl ll ++ (y ++ weaveTail kr lr)
  | [], [], kr, y, lr, _ => by simp [weave, weavePre]
  | [], _ :: _, _, _, _, h => by simp at h
  | _ :: _, [], _, _, _, h => by simp at h
  | k :: kl, l :: ll, kr, y, lr, h => by
    have ih := weave_split kl ll kr y lr (by simpa using h)
    cases hll : ll ++ y :: lr with
    | nil => simp at hll
    | cons l' rest =>
      rw [hll] at ih
      simp only [List.cons_append, weave_cons, weaveTail_cons, weavePre_cons, hll,
        List.append_assoc] at ih ⊢
      rw [ih]

/-- The interleaving after a routing key, split around the list at position
`ll.length`. -/
theorem weaveTail_split : ∀ (kl : List K) (ll : List (List (Bool × K))) (k : K) (kr : List K)
    (y : List (Bool × K)) (lr : List (List (Bool × K))), kl.length = ll.length →
    weaveTail (kl ++ k :: kr) (ll ++ y :: lr) =
      weaveTail kl ll ++ (true, k) :: (y ++ weaveTail kr lr)
  | [], [], k, kr, y, lr, _ => by simp [weaveTail]
  | [], _ :: _, _, _, _, _, h => by simp at h
  | _ :: _, [], _, _, _, _, h => by simp at h
  | k0 :: kl, l :: ll, k, kr, y, lr, h => by
    have ih := weaveTail_split kl ll k kr y lr (by simpa using h)
    simp only [List.cons_append, weaveTail_cons, ih, List.append_assoc]

/-- Interleaved lists cut at a routing key. -/
theorem weave_cut (kl : List K) (ll : List (List (Bool × K))) (k : K) (kr : List K)
    (lr : List (List (Bool × K))) (hl : ll.length = kl.length + 1) (hr : lr ≠ []) :
    weave (kl ++ k :: kr) (ll ++ lr) = weave kl ll ++ (true, k) :: weave kr lr := by
  cases ll with
  | nil => simp at hl
  | cons l0 ll =>
    cases lr with
    | nil => exact absurd rfl hr
    | cons r0 lr =>
      simp only [List.cons_append, weave_cons]
      rw [weaveTail_split kl ll k kr r0 lr (by simpa using hl.symm)]
      simp [List.append_assoc]

theorem mem_weaveTail {x : Bool × K} : ∀ {ks : List K} {ls : List (List (Bool × K))},
    x ∈ weaveTail ks ls → (∃ k ∈ ks, x = (true, k)) ∨ ∃ l ∈ ls, x ∈ l
  | [], _, h => by simp [weaveTail] at h
  | _ :: _, [], h => by simp [weaveTail] at h
  | k :: ks, l :: ls, h => by
    simp only [weaveTail_cons, List.mem_cons, List.mem_append] at h
    rcases h with h | h | h
    · exact Or.inl ⟨k, by simp, h⟩
    · exact Or.inr ⟨l, by simp, h⟩
    · rcases mem_weaveTail h with ⟨k', hk', hx⟩ | ⟨l', hl', hx⟩
      · exact Or.inl ⟨k', by simp [hk'], hx⟩
      · exact Or.inr ⟨l', by simp [hl'], hx⟩

theorem mem_weavePre {x : Bool × K} : ∀ {ks : List K} {ls : List (List (Bool × K))},
    x ∈ weavePre ks ls → (∃ k ∈ ks, x = (true, k)) ∨ ∃ l ∈ ls, x ∈ l
  | [], _, h => by simp [weavePre] at h
  | _ :: _, [], h => by simp [weavePre] at h
  | k :: ks, l :: ls, h => by
    simp only [weavePre_cons, List.mem_cons, List.mem_append] at h
    rcases h with h | h | h
    · exact Or.inr ⟨l, by simp, h⟩
    · exact Or.inl ⟨k, by simp, h⟩
    · rcases mem_weavePre h with ⟨k', hk', hx⟩ | ⟨l', hl', hx⟩
      · exact Or.inl ⟨k', by simp [hk'], hx⟩
      · exact Or.inr ⟨l', by simp [hl'], hx⟩

theorem mem_weave {x : Bool × K} {ks : List K} {ls : List (List (Bool × K))}
    (h : x ∈ weave ks ls) : (∃ k ∈ ks, x = (true, k)) ∨ ∃ l ∈ ls, x ∈ l := by
  cases ls with
  | nil => simp [weave] at h
  | cons l ls =>
    simp only [weave_cons, List.mem_append] at h
    rcases h with h | h
    · exact Or.inr ⟨l, by simp, h⟩
    · rcases mem_weaveTail h with ⟨k', hk', hx⟩ | ⟨l', hl', hx⟩
      · exact Or.inl ⟨k', hk', hx⟩
      · exact Or.inr ⟨l', by simp [hl'], hx⟩

theorem mem_weave_of_mem {x : Bool × K} {l : List (Bool × K)} :
    ∀ {ks : List K} {ls : List (List (Bool × K))}, ls.length = ks.length + 1 → l ∈ ls → x ∈ l →
      x ∈ weave ks ls := by
  intro ks ls hlen hl hx
  obtain ⟨i, hi, hget⟩ := List.getElem_of_mem hl
  have hg : ls[i]? = some l := by rw [List.getElem?_eq_getElem hi, hget]
  obtain ⟨hs, htl, _⟩ := list_split_at hg
  have h1 := weave_split (ks.take i) (ls.take i) (ks.drop i) l (ls.drop (i + 1))
    (by simp; omega)
  rw [List.take_append_drop, ← hs] at h1
  rw [h1]
  simp [hx]

namespace Node

@[simp] theorem fullItems_leaf (es : List (K × V)) :
    fullItems (leaf es : Node K V) = es.map (fun e => (false, e.1)) := by
  simp [fullItems]

theorem fullItemsL_eq_map : ∀ cs : List (Node K V), fullItemsL cs = cs.map fullItems
  | [] => by simp [fullItemsL]
  | c :: cs => by simp [fullItemsL, fullItemsL_eq_map cs]

@[simp] theorem fullItems_internal (ks : List K) (cs : List (Node K V)) :
    fullItems (internal ks cs) = weave ks (cs.map fullItems) := by
  simp [fullItems, fullItemsL_eq_map]

/-- Items of an internal node split around the child at position `i`. -/
theorem fullItems_at {ks : List K} {cs : List (Node K V)} {i : Nat} {c : Node K V}
    (hi : i ≤ ks.length) (hc : cs[i]? = some c) :
    fullItems (internal ks cs) =
      weavePre (ks.take i) ((cs.take i).map fullItems) ++
        (fullItems c ++ weaveTail (ks.drop i) ((cs.drop (i + 1)).map fullItems)) := by
  obtain ⟨hs, htl, hlt⟩ := list_split_at hc
  have h1 := weave_split (ks.take i) ((cs.take i).map fullItems) (ks.drop i) (fullItems c)
    ((cs.drop (i + 1)).map fullItems) (by simp; omega)
  rw [List.take_append_drop] at h1
  rw [fullItems_internal, ← h1]
  conv_lhs => rw [hs]
  simp

/-- Items of an internal node after the child at position `i` is replaced. -/
theorem fullItems_set {ks : List K} {cs : List (Node K V)} {i : Nat} {c : Node K V}
    (c' : Node K V) (hi : i ≤ ks.length) (hc : cs[i]? = some c) :
    fullItems (internal ks (cs.set i c')) =
      weavePre (ks.take i) ((cs.take i).map fullItems) ++
        (fullItems c' ++ weaveTail (ks.drop i) ((cs.drop (i + 1)).map fullItems)) := by
  obtain ⟨ht, hd, hg⟩ := take_set_self c' hc
  have := @fullItems_at K V ks (cs.set i c') i c' hi hg
  rw [ht, hd] at this
  exact this

/-- Replacing a child by one with safely replaced items is safe. -/
theorem tieSafe_set_child {ks : List K} {cs : List (Node K V)} {i : Nat} {c c' : Node K V}
    (hi : i ≤ ks.length) (hc : cs[i]? = some c)
    (h : TieSafe p (fullItems c) (fullItems c')) :
    TieSafe p (fullItems (internal ks cs)) (fullItems (internal ks (cs.set i c'))) := by
  rw [fullItems_at hi hc, fullItems_set c' hi hc]
  exact tieSafe_ctx _ _ h

/-- Items of an internal node split around two adjacent children. -/
theorem fullItems_pair {kl kr : List K} {cl cr : List (Node K V)} (k : K) (y z : Node K V)
    (hlen : kl.length = cl.length) :
    fullItems (internal (kl ++ k :: kr) (cl ++ y :: z :: cr)) =
      weavePre kl (cl.map fullItems) ++
        ((fullItems y ++ (true, k) :: fullItems z) ++ weaveTail kr (cr.map fullItems)) := by
  have h1 := weave_split kl (cl.map fullItems) (k :: kr) (fullItems y)
    ((z :: cr).map fullItems) (by simpa using hlen)
  rw [fullItems_internal]
  simp only [List.map_append, List.map_cons] at h1 ⊢
  rw [h1, weaveTail_cons]
  simp

/-- Items of an internal node split around one child. -/
theorem fullItems_one {kl kr : List K} {cl cr : List (Node K V)} (m : Node K V)
    (hlen : kl.length = cl.length) :
    fullItems (internal (kl ++ kr) (cl ++ m :: cr)) =
      weavePre kl (cl.map fullItems) ++ (fullItems m ++ weaveTail kr (cr.map fullItems)) := by
  have h1 := weave_split kl (cl.map fullItems) kr (fullItems m) (cr.map fullItems)
    (by simpa using hlen)
  rw [fullItems_internal]
  simp only [List.map_append, List.map_cons] at h1 ⊢
  rw [h1]

end Node

end BPlusTree

namespace BPlusTree

variable {K V : Type} {p : Params K}

namespace Node

theorem mem_toListL {e : K × V} : ∀ {cs : List (Node K V)}, e ∈ toListL cs →
    ∃ c ∈ cs, e ∈ toList c
  | [], h => by simp at h
  | c :: cs, h => by
    simp only [toListL_cons, List.mem_append] at h
    rcases h with h | h
    · exact ⟨c, List.mem_cons_self _ _, h⟩
    · obtain ⟨c', hc', hl⟩ := mem_toListL h
      exact ⟨c', List.mem_cons_of_mem _ hc', hl⟩

theorem mem_toListL_of_mem {e : K × V} {c : Node K V} : ∀ {cs : List (Node K V)}, c ∈ cs →
    e ∈ toList c → e ∈ toListL cs
  | [], h, _ => by simp at h
  | c' :: cs, h, he => by
    simp only [toListL_cons, List.mem_append]
    rcases List.mem_cons.1 h with h | h
    · subst h; exact Or.inl he
    · exact Or.inr (mem_toListL_of_mem h he)

/-- An item tagged as an entry is the key of an entry below the node. -/
theorem fullItems_entry : ∀ (h : Nat) {minL minI : Nat} {x : Node K V}, Wf p minL minI h x →
    ∀ k, ((false, k) : Bool × K) ∈ fullItems x → ∃ e ∈ toList x, e.1 = k := by
  intro h
  induction h with
  | zero =>
    intro minL minI x hx k hk
    cases hx with
    | leaf _ _ es h1 h2 h3 =>
      simp only [fullItems_leaf, List.mem_map, Prod.mk.injEq, true_and] at hk
      obtain ⟨e, he, hek⟩ := hk
      exact ⟨e, by simpa using he, hek⟩
  | succ h ih =>
    intro minL minI x hx k hk
    cases hx with
    | internal _ _ _ ks cs h1 h2 h3 h4 h5 =>
      rw [fullItems_internal] at hk
      rcases mem_weave hk with ⟨k', _, hx⟩ | ⟨l, hl, hx⟩
      · cases hx
      · obtain ⟨c, hc, rfl⟩ := List.mem_map.1 hl
        obtain ⟨e, he, hek⟩ := ih (h4 c hc) k hx
        exact ⟨e, by simpa using mem_toListL_of_mem hc he, hek⟩

theorem seps_mem_items {ks : List K} {cs : List (Node K V)} (hl : cs.length = ks.length + 1)
    {k : K} (hk : k ∈ ks) : ((true, k) : Bool × K) ∈ items ks cs :=
  (seps_sublist_items ks cs (by omega)).subset (List.mem_map_of_mem _ hk)

/-- Every item below a well-formed node stands between two entries below the
node. -/
theorem fullItems_bounds (hv : p.Valid) : ∀ (h : Nat) {minL minI : Nat} {x : Node K V},
    Wf p minL minI h x → ∀ a ∈ fullItems x,
      (∃ e ∈ toList x, p.comp e.1 a.2 ≤ 0) ∧ (∃ e ∈ toList x, p.comp a.2 e.1 ≤ 0) := by
  intro h
  induction h with
  | zero =>
    intro minL minI x hx a ha
    cases hx with
    | leaf _ _ es h1 h2 h3 =>
      simp only [fullItems_leaf, List.mem_map] at ha
      obtain ⟨e, he, rfl⟩ := ha
      exact ⟨⟨e, by simpa using he, le_of_eq (hv.comp_self _)⟩,
        ⟨e, by simpa using he, le_of_eq (hv.comp_self _)⟩⟩
  | succ h ih =>
    intro minL minI x hx a ha
    cases hx with
    | internal _ _ _ ks cs h1 h2 h3 h4 h5 =>
      rw [fullItems_internal] at ha
      rcases mem_weave ha with ⟨k', hk', hx⟩ | ⟨l, hl, hx⟩
      · subst hx
        have hm := seps_mem_items h3 hk'
        have hne : ∀ c ∈ cs, elems c ≠ [] := fun c hc => (h4 c hc).elems_ne_nil
        obtain ⟨e1, he1, hr1⟩ := items_ge_elem hv h3 h5 hne _ hm
        obtain ⟨e2, he2, hr2⟩ := items_le_elem hv h5 hne _ hm
        refine ⟨⟨e1, by simpa using he1, ?_⟩, ⟨e2, by simpa using he2, ?_⟩⟩
        · rcases hr1 with hr1 | hr1
          · cases hr1
          · exact hr1
        · rcases hr2 with hr2 | hr2
          · cases hr2
          · exact hr2
      · obtain ⟨c, hc, rfl⟩ := List.mem_map.1 hl
        obtain ⟨⟨e1, he1, hr1⟩, ⟨e2, he2, hr2⟩⟩ := ih (h4 c hc) a hx
        exact ⟨⟨e1, by simpa using mem_toListL_of_mem hc he1, hr1⟩,
          ⟨e2, by simpa using mem_toListL_of_mem hc he2, hr2⟩⟩

theorem fullItems_le_of_entries (hv : p.Valid) {h minL minI : Nat} {x : Node K V}
    (hx : Wf p minL minI h x) {k : K} (hk : ∀ e ∈ toList x, p.comp e.1 k ≤ 0) :
    ∀ a ∈ fullItems x, p.comp a.2 k ≤ 0 := by
  intro a ha
  obtain ⟨_, ⟨e, he, hr⟩⟩ := fullItems_bounds hv h hx a ha
  exact hv.comp_trans _ _ _ hr (hk e he)

theorem fullItems_ge_of_entries (hv : p.Valid) {h minL minI : Nat} {x : Node K V}
    (hx : Wf p minL minI h x) {k : K} (hk : ∀ e ∈ toList x, p.comp k e.1 ≤ 0) :
    ∀ a ∈ fullItems x, p.comp k a.2 ≤ 0 := by
  intro a ha
  obtain ⟨⟨e, he, hr⟩, _⟩ := fullItems_bounds hv h hx a ha
  exact hv.comp_trans _ _ _ (hk e he) hr

theorem fullItems_gt_of_entries (hv : p.Valid) {h minL minI : Nat} {x : Node K V}
    (hx : Wf p minL minI h x) {k : K} (hk : ∀ e ∈ toList x, p.comp k e.1 < 0) :
    ∀ a ∈ fullItems x, p.comp k a.2 < 0 := by
  intro a ha
  obtain ⟨⟨e, he, hr⟩, _⟩ := fullItems_bounds hv h hx a ha
  exact hv.lt_of_lt_of_le (hk e he) hr

/-- Items left of slot `i` are `≤` a key that bounds the routing keys left of
slot `i`. -/
theorem wpre_le (hv : p.Valid) {minL minI h i : Nat} {ks : List K} {cs : List (Node K V)}
    {key : K} (hx : Wf p minL minI (h + 1) (internal ks cs)) (hi : i ≤ ks.length)
    (hk : ∀ k ∈ ks.take i, p.comp k key ≤ 0) :
    ∀ a ∈ weavePre (ks.take i) ((cs.take i).map fullItems), p.comp a.2 key ≤ 0 := by
  intro a ha
  have hleft := wf_left_before hv hx hi hk
  rcases mem_weavePre ha with ⟨k', hk', hx'⟩ | ⟨l, hl, hx'⟩
  · subst hx'
    exact hk k' hk'
  · obtain ⟨c, hc, rfl⟩ := List.mem_map.1 hl
    have hcW := wf_child hx (List.mem_of_mem_take hc)
    apply fullItems_le_of_entries hv hcW _ a hx'
    intro e he
    exact hv.before_le (hleft e (mem_toListL_of_mem hc he))

/-- Items right of slot `i` are `>` a key that is strictly below the routing
keys from slot `i` on. -/
theorem wtail_gt (hv : p.Valid) {minL minI h i : Nat} {ks : List K} {cs : List (Node K V)}
    {key : K} (hx : Wf p minL minI (h + 1) (internal ks cs)) (hi : i ≤ ks.length)
    (hk : ∀ k ∈ ks.drop i, p.comp key k < 0) :
    ∀ a ∈ weaveTail (ks.drop i) ((cs.drop (i + 1)).map fullItems), p.comp key a.2 < 0 := by
  intro a ha
  have hright := wf_right_gt hv hx hi hk
  rcases mem_weaveTail ha with ⟨k', hk', hx'⟩ | ⟨l, hl, hx'⟩
  · subst hx'
    exact hk k' hk'
  · obtain ⟨c, hc, rfl⟩ := List.mem_map.1 hl
    have hcW := wf_child hx (List.mem_of_mem_drop hc)
    apply fullItems_gt_of_entries hv hcW _ a hx'
    intro e he
    exact hright e (mem_toListL_of_mem hc he)

/-- Items right of slot `i` are `≥` a key that is `≤` the routing keys from
slot `i` on. -/
theorem wtail_ge (hv : p.Valid) {minL minI h i : Nat} {ks : List K} {cs : List (Node K V)}
    {key : K} (hx : Wf p minL minI (h + 1) (internal ks cs)) (hi : i ≤ ks.length)
    (hk : ∀ k ∈ ks.drop i, p.comp key k ≤ 0) :
    ∀ a ∈ weaveTail (ks.drop i) ((cs.drop (i + 1)).map fullItems), p.comp key a.2 ≤ 0 := by
  intro a ha
  have hright := wf_right_ge hv hx hi hk
  rcases mem_weaveTail ha with ⟨k', hk', hx'⟩ | ⟨l, hl, hx'⟩
  · subst hx'
    exact hk k' hk'
  · obtain ⟨c, hc, rfl⟩ := List.mem_map.1 hl
    have hcW := wf_child hx (List.mem_of_mem_drop hc)
    apply fullItems_ge_of_entries hv hcW _ a hx'
    intro e he
    exact hright e (mem_toListL_of_mem hc he)

/-- The routing keys left of a child are `≤` its entries, and its entries are
`≤` the routing keys right of it. -/
theorem keys_around_entry (hv : p.Valid) {minL minI h i : Nat} {ks : List K}
    {cs : List (Node K V)} {c : Node K V} {e : K × V}
    (hx : Wf p minL minI (h + 1) (internal ks cs)) (hi : i ≤ ks.length)
    (hc : cs[i]? = some c) (he : e ∈ toList c) :
    (∀ k ∈ ks.take i, p.comp k e.1 ≤ 0) ∧ (∀ k ∈ ks.drop i, p.comp e.1 k ≤ 0) := by
  have hcl := wf_cs_length hx
  obtain ⟨y, hy, h5⟩ := wf_items_at hx hi
  rw [hc] at hy
  injection hy with hy
  subst hy
  have hmem : ((false, e.1) : Bool × K) ∈ elems c := mem_elems.2 ⟨e, he, rfl⟩
  have h6 := List.pairwise_append.1 h5
  have h7 := List.pairwise_append.1 h6.2.1
  constructor
  · intro k hk
    have hm : ((true, k) : Bool × K) ∈ preItems (ks.take i) (cs.take i) := by
      have hsub := seps_sublist_items (ks.take i) (cs.take i ++ [c]) (by simp; omega)
      rw [items_eq_preItems _ _ _ (by simp; omega)] at hsub
      have := hsub.subset (List.mem_map_of_mem (fun k => ((true, k) : Bool × K)) hk)
      rcases List.mem_append.1 this with h | h
      · exact h
      · obtain ⟨e', _, he'⟩ := mem_elems.1 h
        cases he'
    exact hv.rel_to_le (h6.2.2 _ hm _ (List.mem_append_left _ hmem))
  · intro k hk
    have hm : ((true, k) : Bool × K) ∈ tailItems (ks.drop i) (cs.drop (i + 1)) :=
      (seps_sublist_tailItems (ks.drop i) (cs.drop (i + 1)) (by simp; omega)).subset
        (List.mem_map_of_mem (fun k => ((true, k) : Bool × K)) hk)
    exact hv.rel_to_le (h7.2.2 _ hmem _ hm)

/-- The items of a well-formed node with entries start with its first entry
and end with its last one. -/
theorem fullItems_ends : ∀ (h : Nat) {minL minI : Nat} {x : Node K V}, Wf p minL minI h x →
    1 ≤ minL →
    (∃ e tl rest, toList x = e :: tl ∧ fullItems x = (false, e.1) :: rest) ∧
    (∃ e tl rest, toList x = tl ++ [e] ∧ fullItems x = rest ++ [(false, e.1)]) := by
  intro h
  induction h with
  | zero =>
    intro minL minI x hx hm
    cases hx with
    | leaf _ _ es h1 h2 h3 =>
      have hne : es ≠ [] := by
        intro hc
        subst hc
        simp at h1
        omega
      constructor
      · obtain ⟨e, tl, hes⟩ := List.exists_cons_of_ne_nil hne
        subst hes
        exact ⟨e, tl, tl.map (fun e => (false, e.1)), rfl, by simp⟩
      · refine ⟨es.getLast hne, es.dropLast, es.dropLast.map (fun e => (false, e.1)), ?_, ?_⟩
        · simp [List.dropLast_append_getLast hne]
        · conv_lhs => rw [← List.dropLast_append_getLast hne]
          simp
  | succ h ih =>
    intro minL minI x hx hm
    cases hx with
    | internal _ _ _ ks cs h1 h2 h3 h4 h5 =>
      have hcs : cs ≠ [] := by intro hc; subst hc; simp at h3
      constructor
      · obtain ⟨c, cs', hcs'⟩ := List.exists_cons_of_ne_nil hcs
        subst hcs'
        obtain ⟨⟨e, tl, rest, h6, h7⟩, _⟩ := ih (h4 c (by simp)) p.leafMin_pos
        refine ⟨e, tl ++ toListL cs', rest ++ weaveTail ks (cs'.map fullItems), ?_, ?_⟩
        · simp [h6]
        · simp [weave_cons, h7]
      · have hd := (List.dropLast_append_getLast hcs).symm
        generalize cs.getLast hcs = c at hd
        generalize hcs' : cs.dropLast = cs' at hd
        subst hd
        obtain ⟨_, ⟨e, tl, rest, h6, h7⟩⟩ := ih (h4 c (by simp)) p.leafMin_pos
        have hlen : ks.length = cs'.length := by simp at h3; omega
        have hw := weave_split ks (cs'.map fullItems) [] (fullItems c) []
          (by simpa using hlen)
        simp only [List.append_nil, weaveTail_nil_left] at hw
        refine ⟨e, toListL cs' ++ tl, weavePre ks (cs'.map fullItems) ++ rest, ?_, ?_⟩
        · simp [toListL_append, h6]
        · rw [fullItems_internal]
          simp only [List.map_append, List.map_cons, List.map_nil]
          rw [hw, h7]
          simp

end Node

end BPlusTree

namespace BPlusTree

variable {K V : Type} {p : Params K}

theorem tieSafeInsert_of_tieSafe {key : K} {l l' : List (Bool × K)} (h : TieSafe p l l') :
    TieSafeInsert p key l l' := fun a b _ _ ht => h a b ht

theorem tieSafeInsert_trans_left {key : K} {l1 l2 l3 : List (Bool × K)} (h1 : TieSafe p l1 l2)
    (h2 : TieSafeInsert p key l2 l3) : TieSafeInsert p key l1 l3 :=
  fun a b ha hb ht => h2 a b ha hb (h1 a b ht)

/-- A replacement that is safe at the place of an insertion stays safe inside
larger items that are `≤ key` before it and `> key` after it. -/
theorem tieSafeInsert_ctx {key : K} {l l' : List (Bool × K)} (c d : List (Bool × K))
    (hc : ∀ x ∈ c, p.comp x.2 key ≤ 0) (hd : ∀ x ∈ d, p.comp key x.2 < 0)
    (h : TieSafeInsert p key l l') :
    TieSafeInsert p key (c ++ (l ++ d)) (c ++ (l' ++ d)) := by
  intro a b ha hb ht
  have h1 : a ++ ((c ++ (l ++ d)) ++ b) = (a ++ c) ++ (l ++ (d ++ b)) := by simp
  have h2 : a ++ ((c ++ (l' ++ d)) ++ b) = (a ++ c) ++ (l' ++ (d ++ b)) := by simp
  rw [h2]
  rw [h1] at ht
  refine h (a ++ c) (d ++ b) ?_ ?_ ht
  · intro x hx
    rcases List.mem_append.1 hx with hx | hx
    · exact ha x hx
    · exact hc x hx
  · intro x hx
    rcases List.mem_append.1 hx with hx | hx
    · exact hd x hx
    · exact hb x hx

namespace Node

/-- The items after `split_child`: a leaf gets the routing key before the
first entry of the new sibling, which compares equal to it; an internal child
gives its median key to the parent, which leaves the items as they are. -/
theorem split_child_ties (hv : p.Valid) {ks : List K} {cs : List (Node K V)}
    {minL minI h i : Nat} {y x' : Node K V}
    (hx : Wf p minL minI (h + 1) (internal ks cs))
    (hy : cs[i]? = some y)
    (hrun : split_child p (internal ks cs) i = .ok x') :
    TieSafe p (fullItems (internal ks cs)) (fullItems x') := by
  have hcl := wf_cs_length hx
  obtain ⟨hcs, hlen, hilt⟩ := list_split_at hy
  have hi : i ≤ ks.length := by omega
  have hyW := wf_child hx (List.getElem?_mem hy)
  have hkl : (ks.take i).length = (cs.take i).length := by simp; omega
  unfold split_child at hrun
  simp only [List.get?_eq_getElem?, hy] at hrun
  split at hrun
  · cases hrun
  · split at hrun
    · cases hrun
    · cases y with
      | leaf ye =>
        simp only at hrun
        cases hhead : (ye.drop p.kLeafNodeMedian).head? with
        | none => rw [hhead] at hrun; cases hrun
        | some e =>
          rw [hhead] at hrun
          simp only at hrun
          injection hrun with hrun
          subst hrun
          obtain ⟨rest, hrest⟩ : ∃ rest, ye.drop p.kLeafNodeMedian = e :: rest := by
            cases hd : ye.drop p.kLeafNodeMedian with
            | nil => rw [hd] at hhead; cases hhead
            | cons e' rest =>
              rw [hd] at hhead
              simp only [List.head?_cons, Option.some.injEq] at hhead
              subst hhead
              exact ⟨rest, rfl⟩
          rw [fullItems_at hi hy, fullItems_pair e.1 _ _ hkl]
          apply tieSafe_ctx
          have hye : fullItems (leaf ye : Node K V) =
              (ye.take p.kLeafNodeMedian).map (fun e => (false, e.1)) ++
                ([(false, e.1)] ++ rest.map (fun e => (false, e.1))) := by
            conv_lhs => rw [← List.take_append_drop p.kLeafNodeMedian ye, hrest]
            simp
          have hnew : fullItems (leaf (ye.take p.kLeafNodeMedian) : Node K V) ++
              (true, e.1) :: fullItems (leaf (ye.drop p.kLeafNodeMedian) : Node K V) =
              (ye.take p.kLeafNodeMedian).map (fun e => (false, e.1)) ++
                ([(true, e.1), (false, e.1)] ++ rest.map (fun e => (false, e.1))) := by
            rw [hrest]
            simp
          rw [hye, hnew]
          exact tieSafe_ctx _ _ (tieSafe_ins (hv.comp_self _))
      | internal yk yc =>
        simp only at hrun
        cases hup : yk[p.kInternalNodeMedian]? with
        | none => rw [hup] at hrun; cases hrun
        | some up =>
          rw [hup] at hrun
          simp only at hrun
          injection hrun with hrun
          subst hrun
          obtain ⟨hyk, hykl, hmlt⟩ := list_split_at hup
          have hycl : yc.length = yk.length + 1 := by
            cases hyW with
            | internal _ _ _ _ _ g1 g2 g3 g4 g5 => exact g3
          rw [fullItems_at hi hy, fullItems_pair up _ _ hkl]
          apply tieSafe_ctx
          apply tieSafe_of_eq
          have hcut := weave_cut (yk.take p.kInternalNodeMedian)
            ((yc.take (p.kInternalNodeMedian + 1)).map fullItems) up
            (yk.drop (p.kInternalNodeMedian + 1))
            ((yc.drop (p.kInternalNodeMedian + 1)).map fullItems)
            (by simp; omega)
            (by
              intro hc
              have := congrArg List.length hc
              simp at this
              omega)
          rw [← hyk, ← List.map_append, List.take_append_drop] at hcut
          simp only [fullItems_internal]
          exact hcut

end Node

end BPlusTree

namespace BPlusTree

variable {K V : Type} {p : Params K}

namespace Node

/-- Lifting a replacement of child `i` that is safe at the place of an
insertion to the parent, when the routing keys left of `i` are `≤ key` and
those from `i` on are `> key`. -/
theorem tieSafeInsert_set_child (hv : p.Valid) {ks : List K} {cs : List (Node K V)}
    {minL minI h i : Nat} {c c' : Node K V} {key : K}
    (hx : Wf p minL minI (h + 1) (internal ks cs)) (hi : i ≤ ks.length)
    (hc : cs[i]? = some c)
    (hkl : ∀ k ∈ ks.take i, p.comp k key ≤ 0) (hkr : ∀ k ∈ ks.drop i, p.comp key k < 0)
    (h : TieSafeInsert p key (fullItems c) (fullItems c')) :
    TieSafeInsert p key (fullItems (internal ks cs)) (fullItems (internal ks (cs.set i c'))) := by
  rw [fullItems_at hi hc, fullItems_set c' hi hc]
  exact tieSafeInsert_ctx _ _ (wpre_le hv hx hi hkl) (wtail_gt hv hx hi hkr) h

/-- The leaf part of `insert_non_full` when duplicates are allowed: the key
goes after the entries `≤ key` of a leaf that holds an entry. -/
theorem insert_leaf_ties (hv : p.Valid) (hd : p.kDuplicates = true) {es : List (K × V)}
    {minL minI : Nat} (fuel : Nat) (key : K) (value : V)
    (hx : Wf p minL minI 0 (leaf es)) (hne : es ≠ []) {x' : Node K V} {grew : Bool}
    (hrun : insert_non_full p (fuel + 1) (leaf es) key value = .ok (x', grew)) :
    TieSafeInsert p key (fullItems (leaf es : Node K V)) (fullItems x') := by
  cases hx with
  | leaf _ _ _ h1 h2 h3 =>
  obtain ⟨hpos, htake, hdrop, _⟩ :=
    upper_bound_spec hv (pairwise_le_of_before hv h3) key
  unfold insert_non_full at hrun
  simp only [hd, Bool.not_true, Bool.and_false, Bool.false_eq_true, if_false] at hrun
  generalize (upper_bound p.comp (es.map Prod.fst) key).2 = i at hpos htake hdrop hrun
  split at hrun
  · cases hrun
  · injection hrun with hrun
    simp only [Prod.mk.injEq] at hrun
    obtain ⟨hx', _⟩ := hrun
    subst hx'
    intro a b ha hb ht
    have hA : ∀ x ∈ a ++ (es.take i).map (fun e => ((false, e.1) : Bool × K)),
        p.comp x.2 key ≤ 0 := by
      intro x hx
      rcases List.mem_append.1 hx with hx | hx
      · exact ha x hx
      · obtain ⟨e, he, rfl⟩ := List.mem_map.1 hx
        exact htake e.1 (by rw [← List.map_take]; exact List.mem_map_of_mem _ he)
    have hB : ∀ x ∈ (es.drop i).map (fun e => ((false, e.1) : Bool × K)) ++ b,
        p.comp key x.2 < 0 := by
      intro x hx
      rcases List.mem_append.1 hx with hx | hx
      · obtain ⟨e, he, rfl⟩ := List.mem_map.1 hx
        exact hdrop e.1 (by rw [← List.map_drop]; exact List.mem_map_of_mem _ he)
      · exact hb x hx
    have hold : TiesKept p ((a ++ (es.take i).map (fun e => ((false, e.1) : Bool × K))) ++
        ((es.drop i).map (fun e => ((false, e.1) : Bool × K)) ++ b)) := by
      have : a ++ (fullItems (leaf es : Node K V) ++ b) =
          (a ++ (es.take i).map (fun e => ((false, e.1) : Bool × K))) ++
            ((es.drop i).map (fun e => ((false, e.1) : Bool × K)) ++ b) := by
        have hsp : es.map (fun e => ((false, e.1) : Bool × K)) =
            (es.take i).map (fun e => ((false, e.1) : Bool × K)) ++
              (es.drop i).map (fun e => ((false, e.1) : Bool × K)) := by
          rw [← List.map_append, List.take_append_drop]
        rw [fullItems_leaf, hsp]
        simp only [List.append_assoc]
      rw [← this]
      exact ht
    have hside : (∃ A' a0, a ++ (es.take i).map (fun e => ((false, e.1) : Bool × K)) =
          A' ++ [(false, a0)]) ∨
        (∃ b0 B', (es.drop i).map (fun e => ((false, e.1) : Bool × K)) ++ b =
          (false, b0) :: B') ∨
        a ++ (es.take i).map (fun e => ((false, e.1) : Bool × K)) = [] := by
      by_cases htk : es.take i = []
      · right; left
        have hdr : es.drop i = es := by
          have := List.take_append_drop i es
          rw [htk] at this
          simpa using this
        obtain ⟨e, tl, hes⟩ := List.exists_cons_of_ne_nil hne
        rw [hdr, hes]
        exact ⟨e.1, tl.map (fun e => ((false, e.1) : Bool × K)) ++ b, by simp⟩
      · left
        refine ⟨a ++ ((es.take i).dropLast).map (fun e => ((false, e.1) : Bool × K)),
          ((es.take i).getLast htk).1, ?_⟩
        conv_lhs => rw [← List.dropLast_append_getLast htk]
        simp
    have hnew := ties_insert hv hA hB hside hold
    have : a ++ (fullItems (leaf (es.take i ++ (key, value) :: es.drop i) : Node K V) ++ b) =
        (a ++ (es.take i).map (fun e => ((false, e.1) : Bool × K))) ++
          (false, key) :: ((es.drop i).map (fun e => ((false, e.1) : Bool × K)) ++ b) := by
      simp
    rw [this]
    exact hnew

/-- Effect of `insert_non_full` on the items of a well-formed node that is not
full, when duplicates are allowed: a replacement that is safe at the place of
the insertion. -/
theorem insert_non_full_ties (hv : p.Valid) (hd : p.kDuplicates = true) (key : K) (value : V) :
    ∀ (fuel h minL minI : Nat) (x : Node K V), Wf p minL minI h x → 1 ≤ minL →
      x.full p = false → h < fuel →
      ∀ x' grew, insert_non_full p fuel x key value = .ok (x', grew) →
        TieSafeInsert p key (fullItems x) (fullItems x') := by
  intro fuel
  induction fuel with
  | zero => intro h minL minI x _ _ _ hf; omega
  | succ fuel ih =>
    intro h minL minI x hx hm hnf hf x' grew hrun
    cases hx with
    | leaf _ _ es h1 h2 h3 =>
      have hne : es ≠ [] := by
        intro hc
        subst hc
        simp at h1
        omega
      exact insert_leaf_ties hv hd fuel key value (Wf.leaf minL minI es h1 h2 h3) hne hrun
    | internal _ _ h ks cs h1 h2 h3 h4 h5 =>
      have hx : Wf p minL minI (h + 1) (internal ks cs) := Wf.internal _ _ h ks cs h1 h2 h3 h4 h5
      simp only [full, beq_eq_false_iff_ne, ne_eq] at hnf
      have hroom : ks.length < p.kInternalNodeMaxKeys := by omega
      obtain ⟨hpos, htake, hdrop, _⟩ :=
        upper_bound_spec hv (pairwise_le_of_items h5 (by omega)) key
      generalize hi : (upper_bound p.comp ks key).2 = i at hpos htake hdrop
      have hilt : i < cs.length := by omega
      have hget : cs[i]? = some cs[i] := List.getElem?_eq_getElem hilt
      generalize hcdef : cs[i] = c at hget
      unfold insert_non_full at hrun
      simp only [hi, List.get?_eq_getElem?, hget] at hrun
      by_cases hfull : c.full p = true
      · simp only [hfull, if_true] at hrun
        obtain ⟨up, y1, z, hsplit, hWf', htl, hnf1, hnf2⟩ :=
          split_child_spec hv hx hroom hget hfull
        have hsafe := split_child_ties hv hx hget hsplit
        rw [hsplit] at hrun
        obtain ⟨ht1, ht2, ht3, ht4⟩ := take_insert_at ks i up hpos
        have hclen : (cs.take i).length = i := by simp; omega
        simp only [keyArray, children, getElem?_insert_at ks i up hpos] at hrun
        have hlen' : (ks.take i ++ up :: ks.drop i).length = ks.length + 1 := by
          simp; omega
        by_cases hcmp : p.comp up key ≤ 0
        · simp only [hcmp, if_true] at hrun
          have hgz : (cs.take i ++ y1 :: z :: cs.drop (i + 1))[i + 1]? = some z := by
            rw [List.getElem?_append_right (by omega)]
            simp [hclen]
          simp only [hgz] at hrun
          have hzWf := wf_child hWf' (c := z) (by simp)
          cases hrec : insert_non_full p fuel z key value with
          | error f => rw [hrec] at hrun; cases hrun
          | ok q =>
            obtain ⟨c'', g⟩ := q
            rw [hrec] at hrun
            injection hrun with hrun
            simp only [Prod.mk.injEq] at hrun
            obtain ⟨hx', _⟩ := hrun
            subst hx'
            have hchild := ih h _ _ z hzWf p.leafMin_pos hnf2 (by omega) c'' g hrec
            apply tieSafeInsert_trans_left hsafe
            refine tieSafeInsert_set_child hv hWf' (by omega) hgz ?_ ?_ hchild
            · rw [ht3]
              intro k hk
              rcases List.mem_append.1 hk with hk | hk
              · exact htake k hk
              · simp at hk; subst hk; exact hcmp
            · rw [ht4]
              exact hdrop
        · simp only [hcmp, if_false] at hrun
          have hgy : (cs.take i ++ y1 :: z :: cs.drop (i + 1))[i]? = some y1 := by
            rw [List.getElem?_append_right (by omega)]
            simp [hclen]
          simp only [hgy] at hrun
          have hyWf := wf_child hWf' (c := y1) (by simp)
          cases hrec : insert_non_full p fuel y1 key value with
          | error f => rw [hrec] at hrun; cases hrun
          | ok q =>
            obtain ⟨c'', g⟩ := q
            rw [hrec] at hrun
            injection hrun with hrun
            simp only [Prod.mk.injEq] at hrun
            obtain ⟨hx', _⟩ := hrun
            subst hx'
            have hchild := ih h _ _ y1 hyWf p.leafMin_pos hnf1 (by omega) c'' g hrec
            apply tieSafeInsert_trans_left hsafe
            refine tieSafeInsert_set_child hv hWf' (by omega) hgy ?_ ?_ hchild
            · rw [ht1]
              exact htake
            · rw [ht2]
              intro k hk
              rcases List.mem_cons.1 hk with hk | hk
              · subst hk; exact (hv.not_le_iff _ _).1 hcmp
              · exact hdrop k hk
      · have hfull' : c.full p = false := by simpa using hfull
        simp only [hfull', Bool.false_eq_true, if_false] at hrun
        have hcWf := h4 c (List.getElem?_mem hget)
        cases hrec : insert_non_full p fuel c key value with
        | error f => rw [hrec] at hrun; cases hrun
        | ok q =>
          obtain ⟨c'', g⟩ := q
          rw [hrec] at hrun
          injection hrun with hrun
          simp only [Prod.mk.injEq] at hrun
          obtain ⟨hx', _⟩ := hrun
          subst hx'
          have hchild := ih h _ _ c hcWf p.leafMin_pos hfull' (by omega) c'' g hrec
          exact tieSafeInsert_set_child hv hx hpos hget htake hdrop hchild

end Node

namespace btree

/-- With duplicates allowed `insert` keeps the invariant of the routing
keys. -/
theorem insert_ties (hv : p.Valid) (hd : p.kDuplicates = true) {t t' : Tree K V}
    (hinv : TreeInv p t) (hties : TreeTies p t) {key : K} {value : V}
    (hrun : insert p t key value = .ok t') : TreeTies p t' := by
  unfold TreeInv at hinv
  unfold TreeTies at hties
  unfold insert at hrun
  cases hroot : t.root with
  | none =>
    rw [hroot] at hrun
    simp only at hrun
    have hleaf : Node.insert_non_full p ((Node.leaf ([] : List (K × V))).height + 1)
        (Node.leaf []) key value = .ok (Node.leaf [(key, value)], true) := by
      have := p.leafMax_ge
      simp [Node.insert_non_full, Node.height, hd, Node.upper_bound, Node.upper_bound_loop]
      omega
    rw [hleaf] at hrun
    injection hrun with hrun
    subst hrun
    simp only [TreeTies]
    exact ties_of_short (by simp)
  | some r =>
    rw [hroot] at hinv hties hrun
    simp only at hinv hties hrun
    obtain ⟨⟨h, hw⟩, _⟩ := hinv
    by_cases hfull : r.full p = true
    · simp only [hfull, if_true] at hrun
      have hx0 : Node.Wf p 1 0 (h + 1) (Node.internal [] [r]) := by
        refine Node.Wf.internal _ _ h [] [r] (by simp) (by simp) (by simp) ?_ ?_
        · intro c hc
          simp only [List.mem_singleton] at hc
          subst hc
          exact hw.of_full hfull
        · simpa [Node.items, Node.tailItems] using hw.elems_pairwise
      have hg0 : ([r] : List (Node K V))[0]? = some r := by simp
      obtain ⟨up, y1, z, hsplit, hWf', htl, hnf1, hnf2⟩ :=
        Node.split_child_spec hv hx0 (by have := p.internalMax_ge; simp; omega) hg0 hfull
      have hsafe := Node.split_child_ties hv hx0 hg0 hsplit
      rw [hsplit] at hrun
      simp only [List.take_zero, List.drop_zero, List.nil_append, List.length_nil, zero_add,
        List.drop_succ_cons, List.drop_nil] at hWf' hrun hsafe
      have hnf0 : (Node.internal [up] [y1, z] : Node K V).full p = false := by
        have := p.internalMax_ge
        simp only [Node.full, List.length_singleton, beq_eq_false_iff_ne, ne_eq]
        omega
      cases hrec : Node.insert_non_full p ((Node.internal [up] [y1, z]).height + 1)
          (Node.internal [up] [y1, z]) key value with
      | error f => rw [hrec] at hrun; cases hrun
      | ok q =>
        obtain ⟨root', g⟩ := q
        rw [hrec] at hrun
        injection hrun with hrun
        subst hrun
        have hins := Node.insert_non_full_ties hv hd key value _ (h + 1) 1 1 _ hWf' (le_refl _)
          hnf0 (by rw [hWf'.height_eq]; omega) root' g hrec
        have h0 : TiesKept p (Node.internal [] [r] : Node K V).fullItems := by
          simpa [weave_single] using hties
        have h1 := hsafe [] [] (by simpa using h0)
        have h2 := hins [] [] (by simp) (by simp) h1
        simpa [TreeTies] using h2
    · have hfull' : r.full p = false := by simpa using hfull
      simp only [hfull', Bool.false_eq_true, if_false] at hrun
      cases hrec : Node.insert_non_full p (r.height + 1) r key value with
      | error f => rw [hrec] at hrun; cases hrun
      | ok q =>
        obtain ⟨root', g⟩ := q
        rw [hrec] at hrun
        injection hrun with hrun
        subst hrun
        have hins := Node.insert_non_full_ties hv hd key value _ h 1 1 _ hw (le_refl _)
          hfull' (by rw [hw.height_eq]; omega) root' g hrec
        have h2 := hins [] [] (by simp) (by simp) (by simpa using hties)
        simpa [TreeTies] using h2

end btree

end BPlusTree

namespace BPlusTree

variable {K V : Type} {p : Params K}

namespace Node

theorem leaf_ne_nil_of_wf {minL minI h : Nat} {es : List (K × V)}
    (hx : Wf p minL minI h (leaf es)) (hm : 1 ≤ minL) : es ≠ [] := by
  cases hx with
  | leaf _ _ _ h1 h2 h3 =>
    intro hc
    subst hc
    simp at h1
    omega

theorem weave_cons_cons (k : K) (ks : List K) (l : List (Bool × K))
    (ls : List (List (Bool × K))) (hls : ls ≠ []) :
    weave (k :: ks) (l :: ls) = l ++ (true, k) :: weave ks ls := by
  cases ls with
  | nil => exact absurd rfl hls
  | cons l' ls => simp [weave_cons, weaveTail_cons]

theorem weave_snoc (ks : List K) (k : K) (ls : List (List (Bool × K))) (l : List (Bool × K))
    (hl : ls.length = ks.length + 1) :
    weave (ks ++ [k]) (ls ++ [l]) = weave ks ls ++ (true, k) :: l := by
  have := weave_cut ks ls k [] [l] hl (by simp)
  simpa [weave_single] using this

/-- The items after `rebalance_left_to_right` between two adjacent children: a
safe replacement. -/
theorem rebalance_left_to_right_ties (hv : p.Valid) {kl kr : List K}
    {cl cr : List (Node K V)} {k : K} {y z x' : Node K V} {minL minI h : Nat}
    (hlen : kl.length = cl.length)
    (hx : Wf p minL minI (h + 1) (internal (kl ++ k :: kr) (cl ++ y :: z :: cr)))
    (hrun : rebalance_left_to_right p (internal (kl ++ k :: kr) (cl ++ y :: z :: cr))
      (cl.length + 1) = .ok x') :
    TieSafe p (fullItems (internal (kl ++ k :: kr) (cl ++ y :: z :: cr))) (fullItems x') := by
  obtain ⟨hyW, hzW, _, _, _⟩ := pair_facts hv hlen hx
  have hg0 : (cl ++ y :: z :: cr)[cl.length]? = some y := get_mid0 _ _ _
  have hg1 : (cl ++ y :: z :: cr)[cl.length + 1]? = some z := get_mid1 _ _ _ _
  have hgk : (kl ++ k :: kr)[cl.length]? = some k := by rw [← hlen]; exact get_mid0 _ _ _
  have hsetk : ∀ k', (kl ++ k :: kr).set cl.length k' = kl ++ k' :: kr := by
    intro k'; rw [← hlen]; exact set_mid0 _ _ _ _
  have hsetc : ∀ y' z', ((cl ++ y :: z :: cr).set cl.length y').set (cl.length + 1) z' =
      cl ++ y' :: z' :: cr := by
    intro y' z'; rw [set_mid0, set_mid1]
  unfold rebalance_left_to_right at hrun
  simp only [Nat.add_one_ne_zero, if_false, Nat.add_sub_cancel, List.get?_eq_getElem?, hg0, hg1,
    hgk, hsetk, hsetc] at hrun
  cases hyW with
  | leaf _ _ ye hy1 hy2 hy3 =>
    cases hzW with
    | leaf _ _ ze hz1 hz2 hz3 =>
    have hmin := p.leafMin_pos
    simp only at hrun
    split at hrun
    · cases hrun
    · split at hrun
      · cases hrun
      · rename_i hc2
        have hn : ye.length = (ye.length - 1) + 1 := by omega
        cases hget : ye[ye.length - 1]? with
        | none => rw [hget] at hrun; cases hrun
        | some e =>
          rw [hget] at hrun
          simp only at hrun
          injection hrun with hrun
          subst hrun
          have hye := last_split hn hget
          obtain ⟨b, zr, hze⟩ := List.exists_cons_of_ne_nil
            (show ze ≠ [] by intro hc; subst hc; simp at hz1; omega)
          rw [fullItems_pair k _ _ hlen, fullItems_pair e.1 _ _ hlen]
          apply tieSafe_ctx
          have hold : fullItems (leaf ye : Node K V) ++ (true, k) :: fullItems (leaf ze : Node K V) =
              (ye.take (ye.length - 1)).map (fun e => ((false, e.1) : Bool × K)) ++
                ([(false, e.1), (true, k), (false, b.1)] ++
                  zr.map (fun e => ((false, e.1) : Bool × K))) := by
            conv_lhs => rw [hye, hze]
            simp
          have hnew : fullItems (leaf (ye.take (ye.length - 1)) : Node K V) ++
              (true, e.1) :: fullItems (leaf (e :: ze) : Node K V) =
              (ye.take (ye.length - 1)).map (fun e => ((false, e.1) : Bool × K)) ++
                ([(true, e.1), (false, e.1), (false, b.1)] ++
                  zr.map (fun e => ((false, e.1) : Bool × K))) := by
            rw [hze]
            simp
          rw [hold, hnew]
          apply tieSafe_ctx
          apply tieSafe_trans (tieSafe_del e.1 k b.1)
          have := tieSafe_ctx (p := p) [] [(false, b.1)] (tieSafe_ins (hv.comp_self e.1))
          simpa using this
  | internal _ _ h yk yc hy1 hy2 hy3 hy4 hy5 =>
    cases hzW with
    | internal _ _ _ zk zc hz1 hz2 hz3 hz4 hz5 =>
    simp only at hrun
    split at hrun
    · cases hrun
    · split at hrun
      · cases hrun
      · rename_i hc2
        have hn : yk.length = (yk.length - 1) + 1 := by omega
        cases hget : yk[yk.length - 1]? with
        | none => rw [hget] at hrun; simp at hrun
        | some ylast =>
          cases hgetc : yc[yk.length]? with
          | none => rw [hget, hgetc] at hrun; simp at hrun
          | some ychild =>
            rw [hget, hgetc] at hrun
            simp only at hrun
            injection hrun with hrun
            subst hrun
            have hyk' := last_split hn hget
            have hyc' := last_split hy3 hgetc
            have hzcne : zc ≠ [] := by intro hc; subst hc; simp at hz3
            rw [fullItems_pair k _ _ hlen, fullItems_pair ylast _ _ hlen]
            apply tieSafe_ctx
            apply tieSafe_of_eq
            have h1 : fullItems (internal yk yc) =
                weave (yk.take (yk.length - 1)) ((yc.take yk.length).map fullItems) ++
                  (true, ylast) :: fullItems ychild := by
              rw [fullItems_internal]
              conv_lhs => rw [hyk', hyc']
              rw [List.map_append, List.map_cons, List.map_nil]
              exact weave_snoc _ _ _ _ (by simp; omega)
            have h2 : fullItems (internal (k :: zk) (ychild :: zc)) =
                fullItems ychild ++ (true, k) :: fullItems (internal zk zc) := by
              simp only [fullItems_internal, List.map_cons]
              exact weave_cons_cons _ _ _ _ (by simpa using hzcne)
            rw [h1, h2]
            simp [fullItems_internal]

/-- The items after `rebalance_right_to_left` between two adjacent children: a
safe replacement. -/
theorem rebalance_right_to_left_ties (hv : p.Valid) {kl kr : List K}
    {cl cr : List (Node K V)} {k : K} {y z x' : Node K V} {minL minI h : Nat}
    (hlen : kl.length = cl.length)
    (hx : Wf p minL minI (h + 1) (internal (kl ++ k :: kr) (cl ++ y :: z :: cr)))
    (hrun : rebalance_right_to_left p (internal (kl ++ k :: kr) (cl ++ y :: z :: cr))
      cl.length = .ok x') :
    TieSafe p (fullItems (internal (kl ++ k :: kr) (cl ++ y :: z :: cr))) (fullItems x') := by
  obtain ⟨hyW, hzW, _, _, _⟩ := pair_facts hv hlen hx
  have hg0 : (cl ++ y :: z :: cr)[cl.length]? = some y := get_mid0 _ _ _
  have hg1 : (cl ++ y :: z :: cr)[cl.length + 1]? = some z := get_mid1 _ _ _ _
  have hgk : (kl ++ k :: kr)[cl.length]? = some k := by rw [← hlen]; exact get_mid0 _ _ _
  have hsetk : ∀ k', (kl ++ k :: kr).set cl.length k' = kl ++ k' :: kr := by
    intro k'; rw [← hlen]; exact set_mid0 _ _ _ _
  have hsetc : ∀ y' z', ((cl ++ y :: z :: cr).set cl.length y').set (cl.length + 1) z' =
      cl ++ y' :: z' :: cr := by
    intro y' z'; rw [set_mid0, set_mid1]
  unfold rebalance_right_to_left at hrun
  simp only [List.get?_eq_getElem?, hg0, hg1, hgk, hsetk, hsetc] at hrun
  cases hyW with
  | leaf _ _ ye hy1 hy2 hy3 =>
    cases hzW with
    | leaf _ _ ze hz1 hz2 hz3 =>
    have hmin := p.leafMin_pos
    simp only at hrun
    split at hrun
    · cases hrun
    · cases ze with
      | nil => simp at hrun
      | cons e ze1 =>
        cases ze1 with
        | nil => simp at hrun
        | cons e' rest =>
          simp only at hrun
          injection hrun with hrun
          subst hrun
          have hyene : ye ≠ [] := by intro hc; subst hc; simp at hy1; omega
          rw [fullItems_pair k _ _ hlen, fullItems_pair e'.1 _ _ hlen]
          apply tieSafe_ctx
          have hold : fullItems (leaf ye : Node K V) ++
              (true, k) :: fullItems (leaf (e :: e' :: rest) : Node K V) =
              (ye.dropLast).map (fun e => ((false, e.1) : Bool × K)) ++
                ([(false, (ye.getLast hyene).1), (true, k), (false, e.1), (false, e'.1)] ++
                  rest.map (fun e => ((false, e.1) : Bool × K))) := by
            conv_lhs => rw [← List.dropLast_append_getLast hyene]
            simp
          have hnew : fullItems (leaf (ye ++ [e]) : Node K V) ++
              (true, e'.1) :: fullItems (leaf (e' :: rest) : Node K V) =
              (ye.dropLast).map (fun e => ((false, e.1) : Bool × K)) ++
                ([(false, (ye.getLast hyene).1), (false, e.1), (true, e'.1), (false, e'.1)] ++
                  rest.map (fun e => ((false, e.1) : Bool × K))) := by
            conv_lhs => rw [← List.dropLast_append_getLast hyene]
            simp
          rw [hold, hnew]
          apply tieSafe_ctx
          have h1 := tieSafe_ctx (p := p) [] [(false, e'.1)]
            (tieSafe_del (ye.getLast hyene).1 k e.1)
          have h2 := tieSafe_ctx (p := p) [(false, (ye.getLast hyene).1), (false, e.1)] []
            (tieSafe_ins (hv.comp_self e'.1))
          have h3 := tieSafe_trans h1 h2
          simpa using h3
  | internal _ _ h yk yc hy1 hy2 hy3 hy4 hy5 =>
    cases hzW with
    | internal _ _ _ zk zc hz1 hz2 hz3 hz4 hz5 =>
    simp only at hrun
    split at hrun
    · cases hrun
    · cases zk with
      | nil => simp at hrun
      | cons zk0 zkrest =>
        cases zc with
        | nil => simp at hrun
        | cons zc0 zcrest =>
          simp only at hrun
          injection hrun with hrun
          subst hrun
          have hzcne : zcrest ≠ [] := by
            intro hc
            subst hc
            simp at hz3
          rw [fullItems_pair k _ _ hlen, fullItems_pair zk0 _ _ hlen]
          apply tieSafe_ctx
          apply tieSafe_of_eq
          have h1 : fullItems (internal (yk ++ [k]) (yc ++ [zc0])) =
              fullItems (internal yk yc) ++ (true, k) :: fullItems zc0 := by
            simp only [fullItems_internal, List.map_append, List.map_cons, List.map_nil]
            exact weave_snoc _ _ _ _ (by simp; omega)
          have h2 : fullItems (internal (zk0 :: zkrest) (zc0 :: zcrest)) =
              fullItems zc0 ++ (true, zk0) :: fullItems (internal zkrest zcrest) := by
            simp only [fullItems_internal, List.map_cons]
            exact weave_cons_cons _ _ _ _ (by simpa using hzcne)
          rw [h1, h2]
          simp

/-- The items after `merge` of two adjacent children: a safe replacement. -/
theorem merge_ties (hv : p.Valid) {kl kr : List K}
    {cl cr : List (Node K V)} {k : K} {y z x' : Node K V} {minL minI h : Nat}
    (hlen : kl.length = cl.length)
    (hx : Wf p minL minI (h + 1) (internal (kl ++ k :: kr) (cl ++ y :: z :: cr)))
    (hrun : merge p (internal (kl ++ k :: kr) (cl ++ y :: z :: cr)) cl.length = .ok x') :
    TieSafe p (fullItems (internal (kl ++ k :: kr) (cl ++ y :: z :: cr))) (fullItems x') := by
  obtain ⟨hyW, hzW, _, _, _⟩ := pair_facts hv hlen hx
  have hg0 : (cl ++ y :: z :: cr)[cl.length]? = some y := get_mid0 _ _ _
  have hg1 : (cl ++ y :: z :: cr)[cl.length + 1]? = some z := get_mid1 _ _ _ _
  have hgk : (kl ++ k :: kr)[cl.length]? = some k := by rw [← hlen]; exact get_mid0 _ _ _
  have hek : (kl ++ k :: kr).eraseIdx cl.length = kl ++ kr := by
    rw [← hlen]; exact eraseIdx_mid0 _ _ _
  have hec : ∀ y', ((cl ++ y :: z :: cr).set cl.length y').eraseIdx (cl.length + 1) =
      cl ++ y' :: cr := by
    intro y'; rw [set_mid0, eraseIdx_mid1]
  unfold merge at hrun
  simp only [List.get?_eq_getElem?, hg0, hg1, hgk, hek, hec] at hrun
  cases hyW with
  | leaf _ _ ye hy1 hy2 hy3 =>
    cases hzW with
    | leaf _ _ ze hz1 hz2 hz3 =>
    have hmin := p.leafMin_pos
    simp only at hrun
    split at hrun
    · cases hrun
    · injection hrun with hrun
      subst hrun
      have hyene : ye ≠ [] := by intro hc; subst hc; simp at hy1; omega
      obtain ⟨b, zr, hze⟩ := List.exists_cons_of_ne_nil
        (show ze ≠ [] by intro hc; subst hc; simp at hz1; omega)
      rw [fullItems_pair k _ _ hlen, fullItems_one _ hlen]
      apply tieSafe_ctx
      have hold : fullItems (leaf ye : Node K V) ++ (true, k) :: fullItems (leaf ze : Node K V) =
          (ye.dropLast).map (fun e => ((false, e.1) : Bool × K)) ++
            ([(false, (ye.getLast hyene).1), (true, k), (false, b.1)] ++
              zr.map (fun e => ((false, e.1) : Bool × K))) := by
        conv_lhs => rw [← List.dropLast_append_getLast hyene, hze]
        simp
      have hnew : fullItems (leaf (ye ++ ze) : Node K V) =
          (ye.dropLast).map (fun e => ((false, e.1) : Bool × K)) ++
            ([(false, (ye.getLast hyene).1), (false, b.1)] ++
              zr.map (fun e => ((false, e.1) : Bool × K))) := by
        conv_lhs => rw [← List.dropLast_append_getLast hyene, hze]
        simp
      rw [hold, hnew]
      exact tieSafe_ctx _ _ (tieSafe_del _ _ _)
  | internal _ _ h yk yc hy1 hy2 hy3 hy4 hy5 =>
    cases hzW with
    | internal _ _ _ zk zc hz1 hz2 hz3 hz4 hz5 =>
    simp only at hrun
    split at hrun
    · cases hrun
    · injection hrun with hrun
      subst hrun
      have hzcne : zc ≠ [] := by intro hc; subst hc; simp at hz3
      rw [fullItems_pair k _ _ hlen, fullItems_one _ hlen]
      apply tieSafe_ctx
      apply tieSafe_of_eq
      simp only [fullItems_internal, List.map_append]
      exact (weave_cut yk (yc.map fullItems) k zk (zc.map fullItems) (by simpa using hy3)
        (by simpa using hzcne)).symm

end Node

end BPlusTree

namespace BPlusTree

variable {K V : Type} {p : Params K}

namespace Node

/-- Two adjacent slots of a well-formed internal node in pair form. -/
theorem pair_form {minL minI h j : Nat} {ks : List K} {cs : List (Node K V)}
    (hx : Wf p minL minI (h + 1) (internal ks cs)) (hj : j < ks.length) :
    ∃ kl kr cl cr k y z, ks = kl ++ k :: kr ∧ cs = cl ++ y :: z :: cr ∧
      kl.length = cl.length ∧ cl.length = j := by
  have hcl := wf_cs_length hx
  obtain ⟨k, hk⟩ := get_some_of_lt ks j hj
  obtain ⟨y, hy⟩ := get_some_of_lt cs j (by omega)
  obtain ⟨z, hz⟩ := get_some_of_lt cs (j + 1) (by omega)
  obtain ⟨hcs, hcl2⟩ := pair_split hy hz
  obtain ⟨hks, hkl, _⟩ := list_split_at hk
  exact ⟨_, _, _, _, k, y, z, hks, hcs, by rw [hkl, hcl2], hcl2⟩

/-- Slot form of `rebalance_left_to_right_ties`. -/
theorem l2r_ties_at (hv : p.Valid) {ks : List K} {cs : List (Node K V)} {minL minI h j : Nat}
    {x' : Node K V} (hx : Wf p minL minI (h + 1) (internal ks cs)) (hj : j < ks.length)
    (hrun : rebalance_left_to_right p (internal ks cs) (j + 1) = .ok x') :
    TieSafe p (fullItems (internal ks cs)) (fullItems x') := by
  obtain ⟨kl, kr, cl, cr, k, y, z, hks, hcs, hlen, hcl⟩ := pair_form hx hj
  subst hks
  subst hcs
  subst hcl
  exact rebalance_left_to_right_ties hv hlen hx hrun

/-- Slot form of `rebalance_right_to_left_ties`. -/
theorem r2l_ties_at (hv : p.Valid) {ks : List K} {cs : List (Node K V)} {minL minI h j : Nat}
    {x' : Node K V} (hx : Wf p minL minI (h + 1) (internal ks cs)) (hj : j < ks.length)
    (hrun : rebalance_right_to_left p (internal ks cs) j = .ok x') :
    TieSafe p (fullItems (internal ks cs)) (fullItems x') := by
  obtain ⟨kl, kr, cl, cr, k, y, z, hks, hcs, hlen, hcl⟩ := pair_form hx hj
  subst hks
  subst hcs
  subst hcl
  exact rebalance_right_to_left_ties hv hlen hx hrun

/-- Slot form of `merge_ties`. -/
theorem merge_ties_at (hv : p.Valid) {ks : List K} {cs : List (Node K V)} {minL minI h j : Nat}
    {x' : Node K V} (hx : Wf p minL minI (h + 1) (internal ks cs)) (hj : j < ks.length)
    (hrun : merge p (internal ks cs) j = .ok x') :
    TieSafe p (fullItems (internal ks cs)) (fullItems x') := by
  obtain ⟨kl, kr, cl, cr, k, y, z, hks, hcs, hlen, hcl⟩ := pair_form hx hj
  subst hks
  subst hcs
  subst hcl
  exact merge_ties hv hlen hx hrun

/-- A node without keys has the items of its only child. -/
theorem fullItems_of_count_zero {x c : Node K V} (h0 : x.count = 0)
    (hc : x.children.head? = some c) (hint : x.isInternal = true) :
    fullItems x = fullItems c := by
  cases x with
  | leaf es => simp [isInternal] at hint
  | internal ks cs =>
    simp only [count] at h0
    have hks : ks = [] := List.eq_nil_of_length_eq_zero h0
    subst hks
    cases cs with
    | nil => simp [children] at hc
    | cons c0 cs =>
      simp only [children, List.head?_cons, Option.some.injEq] at hc
      subst hc
      simp only [fullItems_internal, List.map_cons, weave_cons, weaveTail_nil_left,
        List.append_nil]

/-- The items after `merge_and_shrink`: a safe replacement. -/
theorem merge_and_shrink_ties (hv : p.Valid) {ks : List K} {cs : List (Node K V)}
    {minL minI h j : Nat} {xIsRoot : Bool} {r : operation_result × Node K V × Nat}
    (hx : Wf p minL minI (h + 1) (internal ks cs)) (hj : j < ks.length)
    (hrun : merge_and_shrink p (internal ks cs) xIsRoot j = .ok r) :
    TieSafe p (fullItems (internal ks cs)) (fullItems r.2.1) := by
  unfold merge_and_shrink at hrun
  cases hm : merge p (internal ks cs) j with
  | error f => rw [hm] at hrun; cases hrun
  | ok x' =>
    rw [hm] at hrun
    simp only at hrun
    have h1 := merge_ties_at hv hx hj hm
    have hint : x'.isInternal = true := by
      obtain ⟨k, hk⟩ := get_some_of_lt ks j hj
      have hcl := wf_cs_length hx
      obtain ⟨y, hy⟩ := get_some_of_lt cs j (by omega)
      obtain ⟨z, hz⟩ := get_some_of_lt cs (j + 1) (by omega)
      unfold merge at hm
      simp only [List.get?_eq_getElem?, hk, hy, hz] at hm
      split at hm
      · split at hm
        · cases hm
        · injection hm with hm; subst hm; rfl
      · split at hm
        · cases hm
        · injection hm with hm; subst hm; rfl
      · cases hm
    split at hrun
    · rename_i h0
      cases hh : x'.children.head? with
      | none => rw [hh] at hrun; cases hrun
      | some c =>
        rw [hh] at hrun
        simp only at hrun
        split at hrun
        · injection hrun with hrun
          subst hrun
          simp only
          rw [← fullItems_of_count_zero (by simpa using h0) hh hint]
          exact h1
        · cases hrun
    · injection hrun with hrun
      subst hrun
      exact h1

end Node

end BPlusTree

namespace BPlusTree

variable {K V : Type} {p : Params K}

namespace Node

/-- The items after `try_rebalance_or_merge`: a safe replacement. -/
theorem try_rebalance_or_merge_ties (hv : p.Valid) {ks : List K} {cs : List (Node K V)}
    {minL minI h i : Nat} {xIsRoot : Bool} {r : operation_result × Node K V × Nat}
    (hx : Wf p minL minI (h + 1) (internal ks cs)) (hk1 : 1 ≤ ks.length) (hi : i ≤ ks.length)
    (hrun : try_rebalance_or_merge p (internal ks cs) xIsRoot i = .ok r) :
    TieSafe p (fullItems (internal ks cs)) (fullItems r.2.1) := by
  unfold try_rebalance_or_merge at hrun
  simp only [children, count, List.get?_eq_getElem?] at hrun
  cases hc : cs[i]? with
  | none => rw [hc] at hrun; cases hrun
  | some c =>
    rw [hc] at hrun
    simp only at hrun
    split at hrun
    · split at hrun
      · rename_i hi0
        cases hl : cs[i - 1]? with
        | none => rw [hl] at hrun; cases hrun
        | some l =>
          rw [hl] at hrun
          simp only at hrun
          have hi1 : i = (i - 1) + 1 := by omega
          split at hrun
          · cases hm : rebalance_left_to_right p (internal ks cs) i with
            | error f => rw [hm] at hrun; cases hrun
            | ok x' =>
              rw [hm] at hrun
              injection hrun with hrun
              subst hrun
              rw [hi1] at hm
              exact l2r_ties_at hv hx (by omega) hm
          · split at hrun
            · cases hrun
            · cases hm : rebalance_right_to_left p (internal ks cs) i with
              | error f => rw [hm] at hrun; cases hrun
              | ok x' =>
                rw [hm] at hrun
                injection hrun with hrun
                subst hrun
                rename_i hok
                have hlt : i < ks.length := by
                  by_contra hge
                  simp only [hge, if_false] at hok
                  cases hok
                exact r2l_ties_at hv hx hlt hm
            · exact merge_and_shrink_ties hv hx (by omega) hrun
      · have hi0 : i = 0 := by omega
        subst hi0
        cases hr : cs[0 + 1]? with
        | none => rw [hr] at hrun; cases hrun
        | some rr =>
          rw [hr] at hrun
          simp only at hrun
          split at hrun
          · cases hm : rebalance_right_to_left p (internal ks cs) 0 with
            | error f => rw [hm] at hrun; cases hrun
            | ok x' =>
              rw [hm] at hrun
              injection hrun with hrun
              subst hrun
              exact r2l_ties_at hv hx (by omega) hm
          · exact merge_and_shrink_ties hv hx (by omega) hrun
    · injection hrun with hrun
      subst hrun
      exact tieSafe_refl _

end Node

end BPlusTree

namespace BPlusTree

variable {K V : Type} {p : Params K}

namespace Node

/-- The items after the left-spine walk of `try_rebalance_or_merge_subtree`: a
safe replacement. -/
theorem rebalance_spine_ties (hv : p.Valid) :
    ∀ (fuel h : Nat) (s : Node K V),
      Wf p (p.kLeafNodeMinKeys + 1) (p.kInternalNodeMinKeys + 1) h s → h < fuel →
      ∀ s', rebalance_spine p fuel s = .ok s' → TieSafe p (fullItems s) (fullItems s') := by
  intro fuel
  induction fuel with
  | zero => intro h s _ hf; omega
  | succ fuel ih =>
    intro h s hs hf s' hrun
    cases hs with
    | leaf _ _ es h1 h2 h3 =>
      simp only [rebalance_spine] at hrun
      injection hrun with hrun
      subst hrun
      exact tieSafe_refl _
    | internal _ _ h ks cs h1 h2 h3 h4 h5 =>
      have hx : Wf p (p.kLeafNodeMinKeys + 1) (p.kInternalNodeMinKeys + 1) (h + 1)
          (internal ks cs) := Wf.internal _ _ h ks cs h1 h2 h3 h4 h5
      have hmin := p.internalMin_pos
      obtain ⟨r, hr, hpost⟩ := try_rebalance_or_merge_spec hv false hx (by omega)
        (Nat.zero_le _) (Or.inr (by omega))
      have hT := try_rebalance_or_merge_ties hv hx (by omega) (Nat.zero_le _) hr
      obtain ⟨opres, x', i'⟩ := r
      unfold rebalance_spine at hrun
      simp only [hr] at hrun
      obtain ⟨htl, hcase⟩ := hpost
      rcases hcase with ⟨_, hroot, _⟩ | ⟨hns, ks', cs', hx', hW, hk1, hk2, hk3, hnm, hm, _, _, _,
        ⟨c', hc', hc'W⟩, habs⟩
      · simp at hroot
      · simp only at hx' hc' hnm hm htl habs hT
        subst hx'
        have hi0 : i' = 0 := by
          by_cases hmerged : opres = .kMerged
          · rcases hm hmerged with h | h
            · omega
            · exact h.2
          · exact (hnm hmerged).2
        subst hi0
        have hcs' : ∃ rest, cs' = c' :: rest := by
          cases cs' with
          | nil => simp at hc'
          | cons a rest => simp at hc'; subst hc'; exact ⟨rest, rfl⟩
        obtain ⟨rest, rfl⟩ := hcs'
        simp only [children, List.head?_cons] at hrun
        obtain ⟨s1, hs1, _⟩ := rebalance_spine_spec hv fuel h c' hc'W (by omega)
        have hT2 := ih h c' hc'W (by omega) s1 hs1
        simp only [hs1, setChild_internal, List.set_cons_zero] at hrun
        injection hrun with hrun
        subst hrun
        have hT3 := @tieSafe_set_child K V p ks' (c' :: rest) 0 c' s1 (Nat.zero_le _)
          (by simp) hT2
        simp only [List.set_cons_zero] at hT3
        exact tieSafe_trans hT hT3

/-- The items after `try_rebalance_or_merge_subtree`: a safe replacement. -/
theorem try_rebalance_or_merge_subtree_ties (hv : p.Valid) {ks : List K}
    {cs : List (Node K V)} {minL minI h j : Nat} (xIsRoot : Bool)
    (hx : Wf p minL minI (h + 1) (internal ks cs))
    (hk1 : 1 ≤ ks.length) (hj : j ≤ ks.length)
    (hroot : xIsRoot = true ∨ 2 ≤ ks.length) {r : operation_result × Node K V}
    (hrun : try_rebalance_or_merge_subtree p (internal ks cs) xIsRoot j = .ok r) :
    TieSafe p (fullItems (internal ks cs)) (fullItems r.2) := by
  obtain ⟨r1, hr, hpost⟩ := try_rebalance_or_merge_spec hv xIsRoot hx hk1 hj hroot
  have hT := try_rebalance_or_merge_ties hv hx hk1 hj hr
  obtain ⟨opres, x1, i'⟩ := r1
  obtain ⟨htl, hcase⟩ := hpost
  unfold try_rebalance_or_merge_subtree at hrun
  simp only [hr] at hrun
  simp only at hT
  rcases hcase with ⟨hs, hroot', hW⟩ | ⟨hns, ks', cs', hx', hW, hk1', hk2, hk3, hnm, hm, htk, htk2, _,
      ⟨c', hc', hc'W⟩, habs⟩
  · simp only at hs
    subst hs
    simp only at hrun
    injection hrun with hrun
    subst hrun
    exact hT
  · simp only at hns hx' hnm hm htk2 hc' habs htl
    subst hx'
    by_cases hmerged : opres = .kMerged
    · subst hmerged
      simp only at hrun
      injection hrun with hrun
      subst hrun
      exact hT
    · obtain ⟨hlen, hi'⟩ := hnm hmerged
      subst hi'
      have hh := hc'W.height_eq
      obtain ⟨s', hs', _⟩ := rebalance_spine_spec hv (c'.height + 1) h c' hc'W (by omega)
      have hT2 := rebalance_spine_ties hv (c'.height + 1) h c' hc'W (by omega) s' hs'
      have hstep : r = (opres, internal ks' (cs'.set i' s')) := by
        clear habs htk htk2 hnm hm hr htl hT hT2
        cases opres <;> simp_all [children]
      subst hstep
      exact tieSafe_trans hT (tieSafe_set_child (by omega) hc' hT2)

/-- The items after the steering step of `erase`: a safe replacement. -/
theorem erase_steer_ties (hv : p.Valid) (key : K) {ks : List K} {cs : List (Node K V)}
    {minL minI h : Nat} (xIsRoot flag : Bool)
    (hx : Wf p minL minI (h + 1) (internal ks cs))
    (hk1 : 1 ≤ ks.length) (hroot : xIsRoot = true ∨ 2 ≤ ks.length)
    {r : Node K V ⊕ (Node K V × Nat × Bool)}
    (hrun : erase_steer p key (internal ks cs) xIsRoot flag = .ok r) :
    TieSafe p (fullItems (internal ks cs)) (fullItems (steerNode r)) := by
  have hcl := wf_cs_length hx
  have hsorted := wf_keys_sorted hx
  obtain ⟨hpos, htake, hdrop, hfound⟩ := lower_bound_spec hv hsorted key
  unfold erase_steer at hrun
  simp only [keyArray] at hrun
  generalize hr : lower_bound p.comp ks key = r0 at hpos htake hdrop hfound hrun
  by_cases hf : r0.1 = true
  · simp only [hf, if_true] at hrun
    obtain ⟨k0, hk0, hk0eq⟩ := found_head hv hsorted htake hdrop (hfound.1 hf)
    obtain ⟨_, _, hilt⟩ := list_split_at hk0
    by_cases hd : p.kDuplicates = true
    · simp only [hd, Bool.not_true, Bool.false_eq_true, if_false] at hrun
      cases hsub : try_rebalance_or_merge_subtree p (internal ks cs) xIsRoot (r0.2 + 1) with
      | error f => rw [hsub] at hrun; cases hrun
      | ok pr =>
        have hT := try_rebalance_or_merge_subtree_ties hv xIsRoot hx hk1
          (show r0.2 + 1 ≤ ks.length by omega) hroot hsub
        obtain ⟨op, x'⟩ := pr
        rw [hsub] at hrun
        simp only at hT
        cases op with
        | kRebalancedLeftToRight =>
          simp only at hrun
          split at hrun
          · cases hrun
          · split at hrun
            · injection hrun with hrun; subst hrun; exact hT
            · injection hrun with hrun; subst hrun; exact hT
        | kShrinked =>
          simp only at hrun
          injection hrun with hrun; subst hrun; exact hT
        | kNoop =>
          simp only at hrun
          injection hrun with hrun; subst hrun; exact hT
        | kRebalancedRightToLeft =>
          simp only at hrun
          injection hrun with hrun; subst hrun; exact hT
        | kMerged =>
          simp only at hrun
          injection hrun with hrun; subst hrun; exact hT
    · have hd' : p.kDuplicates = false := by simpa using hd
      simp only [hd', Bool.not_false, if_true] at hrun
      injection hrun with hrun
      subst hrun
      exact tieSafe_refl _
  · have hf' : r0.1 = false := by simpa using hf
    simp only [hf', Bool.false_eq_true, if_false] at hrun
    injection hrun with hrun
    subst hrun
    exact tieSafe_refl _

end Node

end BPlusTree

namespace BPlusTree

variable {K V : Type} {p : Params K}

theorem tieSafeErase_of_tieSafe {key : K} {l l' : List (Bool × K)} (h : TieSafe p l l') :
    TieSafeErase p key l l' := fun a b _ _ _ ht => h a b ht

theorem tieSafeErase_trans_left {key : K} {l1 l2 l3 : List (Bool × K)} (h1 : TieSafe p l1 l2)
    (h2 : TieSafeErase p key l2 l3) : TieSafeErase p key l1 l3 :=
  fun a b ha ha' hb ht => h2 a b ha ha' hb (h1 a b ht)

theorem eraseTies_trans_left {key : K} {l1 l2 : List (Bool × K)} {r : Node.EraseStep K V}
    (h1 : TieSafe p l1 l2) (h2 : EraseTies p key l2 r) : EraseTies p key l1 r := by
  cases r with
  | removed x => exact tieSafeErase_trans_left h1 h2
  | absent x => exact tieSafe_trans h1 h2
  | successor x => exact tieSafe_trans h1 h2

theorem tieSafeErase_ctx {key : K} {l l' : List (Bool × K)} (c d : List (Bool × K))
    (hc : ∀ x ∈ c, p.comp x.2 key ≤ 0) (hc' : ∀ x ∈ c, x.1 = false → p.comp x.2 key < 0)
    (hd : ∀ x ∈ d, p.comp key x.2 ≤ 0) (h : TieSafeErase p key l l') :
    TieSafeErase p key (c ++ (l ++ d)) (c ++ (l' ++ d)) := by
  intro a b ha ha' hb ht
  have h1 : a ++ (c ++ (l ++ d) ++ b) = (a ++ c) ++ (l ++ (d ++ b)) := by
    simp [List.append_assoc]
  have h2 : a ++ (c ++ (l' ++ d) ++ b) = (a ++ c) ++ (l' ++ (d ++ b)) := by
    simp [List.append_assoc]
  rw [h1] at ht
  rw [h2]
  refine h (a ++ c) (d ++ b) ?_ ?_ ?_ ht
  · intro x hx
    rcases List.mem_append.1 hx with hx | hx
    · exact ha x hx
    · exact hc x hx
  · intro x hx
    rcases List.mem_append.1 hx with hx | hx
    · exact ha' x hx
    · exact hc' x hx
  · intro x hx
    rcases List.mem_append.1 hx with hx | hx
    · exact hd x hx
    · exact hb x hx

/-- Taking out an entry equal to `key` that stands after items `≤ key`, the
entries among them below `key`, and before items `≥ key`, keeps the ties. -/
theorem ties_remove_key (hv : p.Valid) {A B : List (Bool × K)} {e key : K}
    (hek : p.comp e key = 0)
    (hle : ∀ x ∈ A, p.comp x.2 key ≤ 0) (hA : ∀ x ∈ A, x.1 = false → p.comp x.2 key < 0)
    (hge : ∀ y ∈ B, p.comp key y.2 ≤ 0)
    (h : TiesKept p (A ++ (false, e) :: B)) : TiesKept p (A ++ B) := by
  have hke : p.comp key e = 0 := (hv.zero_iff _ _).1 hek
  refine ties_remove hv ?_ ?_ ?_ h
  · intro x hx
    exact hv.comp_trans _ _ _ (hle x hx) (le_of_eq hke)
  · intro y hy
    exact hv.comp_trans _ _ _ (le_of_eq hek) (hge y hy)
  · intro x hx hxf
    have := hv.lt_of_lt_of_le (hA x hx hxf) (le_of_eq hke)
    omega

namespace Node

/-- Lifting a replacement of child `i` that is safe at the place of a removal
to the parent. -/
theorem tieSafeErase_set_child (hv : p.Valid) {ks : List K} {cs : List (Node K V)}
    {minL minI h i : Nat} {c c' : Node K V} {key : K}
    (hx : Wf p minL minI (h + 1) (internal ks cs)) (hi : i ≤ ks.length)
    (hc : cs[i]? = some c)
    (hpre : ∀ e ∈ toListL (cs.take i), p.comp e.1 key < 0)
    (he : ∃ e ∈ toList c, p.comp e.1 key = 0)
    (hT : TieSafeErase p key (fullItems c) (fullItems c')) :
    TieSafeErase p key (fullItems (internal ks cs)) (fullItems (internal ks (cs.set i c'))) := by
  obtain ⟨e, hemem, hek⟩ := he
  have hke : p.comp key e.1 = 0 := (hv.zero_iff _ _).1 hek
  obtain ⟨hkl, hkr⟩ := keys_around_entry hv hx hi hc hemem
  rw [fullItems_at hi hc, fullItems_set c' hi hc]
  refine tieSafeErase_ctx _ _ ?_ ?_ ?_ hT
  · exact wpre_le hv hx hi (fun k hk => hv.comp_trans _ _ _ (hkl k hk) (le_of_eq hek))
  · intro x hxm hxf
    rcases mem_weavePre hxm with ⟨k', _, hx'⟩ | ⟨l, hl, hx'⟩
    · subst hx'; cases hxf
    · obtain ⟨c0, hc0, rfl⟩ := List.mem_map.1 hl
      have hcW := wf_child hx (List.mem_of_mem_take hc0)
      obtain ⟨b, k⟩ := x
      simp only at hxf
      subst hxf
      obtain ⟨e', he', hek'⟩ := fullItems_entry h hcW k hx'
      have := hpre e' (mem_toListL_of_mem hc0 he')
      rw [hek'] at this
      exact this
  · exact wtail_ge hv hx hi (fun k hk => hv.comp_trans _ _ _ (le_of_eq hke) (hkr k hk))

/-- Effect of `erase_first` on the items: the first item goes. -/
theorem erase_first_items (key : K) :
    ∀ (h : Nat) {minL minI : Nat} (s : Node K V), Wf p minL minI h s →
      ∀ s', erase_first p.comp key s = .ok (true, s') →
        ∃ f, p.comp key f = 0 ∧ fullItems s = (false, f) :: fullItems s' := by
  intro h
  induction h with
  | zero =>
    intro minL minI s hs s' hrun
    cases hs with
    | leaf _ _ es h1 h2 h3 =>
      cases es with
      | nil => simp [erase_first] at hrun
      | cons e rest =>
        simp only [erase_first] at hrun
        split at hrun
        · simp at hrun
        · rename_i hne
          injection hrun with hrun
          simp only [Prod.mk.injEq, true_and] at hrun
          subst hrun
          refine ⟨e.1, by simpa using hne, by simp⟩
  | succ h ih =>
    intro minL minI s hs s' hrun
    cases hs with
    | internal _ _ _ ks cs h1 h2 h3 h4 h5 =>
      cases cs with
      | nil => simp at h3
      | cons c cs =>
        simp only [erase_first] at hrun
        cases hc : erase_first p.comp key c with
        | error f => rw [hc] at hrun; cases hrun
        | ok pr =>
          obtain ⟨b, c'⟩ := pr
          rw [hc] at hrun
          simp only at hrun
          injection hrun with hrun
          simp only [Prod.mk.injEq] at hrun
          obtain ⟨hb, hs'⟩ := hrun
          subst hb
          subst hs'
          obtain ⟨f, hf, hF⟩ := ih c (h4 c (List.mem_cons_self _ _)) c' hc
          refine ⟨f, hf, ?_⟩
          simp only [fullItems_internal, List.map_cons, weave_cons, hF, List.cons_append]

/-- Removing the first entry below a node, equal to `key`, is safe at the place
of a removal. -/
theorem erase_first_ties (hv : p.Valid) (key : K) {h : Nat} {s s' : Node K V}
    (hs : Wf p p.kLeafNodeMinKeys p.kInternalNodeMinKeys h s)
    (hrun : erase_first p.comp key s = .ok (true, s')) :
    (∃ e ∈ toList s, p.comp e.1 key = 0) ∧
    TieSafeErase p key (fullItems s) (fullItems s') := by
  obtain ⟨f, hf, hF⟩ := erase_first_items key h s hs s' hrun
  obtain ⟨e, rest, htl, hcase⟩ := erase_first_spec hv key h s hs
  have hke : p.comp key e.1 = 0 := by
    rcases hcase with ⟨_, h2⟩ | ⟨h1, _⟩
    · rw [h2] at hrun
      injection hrun with hrun
      simp at hrun
    · exact h1
  have hsorted := hs.sorted
  rw [htl] at hsorted
  simp only [List.map_cons, List.pairwise_cons] at hsorted
  have hge : ∀ a ∈ fullItems s, p.comp key a.2 ≤ 0 := by
    apply fullItems_ge_of_entries hv hs
    intro e' he'
    rw [htl] at he'
    rcases List.mem_cons.1 he' with h1 | h1
    · subst h1; exact le_of_eq hke
    · have := hv.before_le (hsorted.1 e'.1 (List.mem_map_of_mem _ h1))
      exact hv.comp_trans _ _ _ (le_of_eq hke) this
  refine ⟨⟨e, by rw [htl]; simp, (hv.zero_iff _ _).1 hke⟩, ?_⟩
  intro a b ha ha' hb ht
  rw [hF] at ht
  simp only [List.cons_append] at ht
  refine ties_remove_key hv ((hv.zero_iff _ _).1 hf) ha ha' ?_ ht
  intro y hy
  rcases List.mem_append.1 hy with hy | hy
  · exact hge y (by rw [hF]; exact List.mem_cons_of_mem _ hy)
  · exact hb y hy

/-- The leaf part of `erase` on the items. -/
theorem erase_leaf_ties (hv : p.Valid) (key : K) {es : List (K × V)} {minL minI : Nat}
    (fuel : Nat) (xIsRoot flag : Bool) (hx : Wf p minL minI 0 (leaf es))
    {r : EraseStep K V}
    (hrun : erase_loop p key (fuel + 1) (leaf es) xIsRoot flag = .ok r) :
    EraseTies p key (fullItems (leaf es : Node K V)) r := by
  cases hx with
  | leaf _ _ _ h1 h2 h3 =>
  have hsorted : (es.map Prod.fst).Pairwise (fun a b => p.comp a b ≤ 0) :=
    h3.imp (fun h => hv.before_le h)
  obtain ⟨hpos, htake, hdrop, hfound⟩ := lower_bound_spec hv hsorted key
  rw [erase_loop] at hrun
  generalize hr : lower_bound p.comp (es.map Prod.fst) key = r0 at hpos htake hdrop hfound hrun
  by_cases hf : r0.1 = true
  · simp only [hf, Bool.not_true, Bool.false_eq_true, if_false] at hrun
    injection hrun with hrun
    subst hrun
    obtain ⟨k0, hk0, hk0eq⟩ := found_head hv hsorted htake hdrop (hfound.1 hf)
    rw [List.getElem?_map] at hk0
    obtain ⟨e, he, hek⟩ := Option.map_eq_some'.1 hk0
    subst hek
    obtain ⟨hsplit, _, hilt⟩ := list_split_at he
    intro a b ha ha' hb ht
    have hold : fullItems (leaf es : Node K V) =
        (es.take r0.2).map (fun e => ((false, e.1) : Bool × K)) ++
          (false, e.1) :: (es.drop (r0.2 + 1)).map (fun e => ((false, e.1) : Bool × K)) := by
      rw [fullItems_leaf]
      conv_lhs => rw [hsplit]
      simp
    have hnew : fullItems (leaf (es.eraseIdx r0.2) : Node K V) =
        (es.take r0.2).map (fun e => ((false, e.1) : Bool × K)) ++
          (es.drop (r0.2 + 1)).map (fun e => ((false, e.1) : Bool × K)) := by
      rw [fullItems_leaf, List.eraseIdx_eq_take_drop_succ]
      simp
    rw [hold] at ht
    rw [hnew]
    have ht' : TiesKept p ((a ++ (es.take r0.2).map (fun e => ((false, e.1) : Bool × K))) ++
        (false, e.1) :: ((es.drop (r0.2 + 1)).map (fun e => ((false, e.1) : Bool × K)) ++ b)) := by
      simpa [List.append_assoc] using ht
    have := ties_remove_key hv hk0eq ?_ ?_ ?_ ht'
    · simpa [List.append_assoc] using this
    · intro x hx
      rcases List.mem_append.1 hx with hx | hx
      · exact ha x hx
      · obtain ⟨e', he', rfl⟩ := List.mem_map.1 hx
        have := htake e'.1 (by rw [← List.map_take]; exact List.mem_map_of_mem _ he')
        simp only
        omega
    · intro x hx _
      rcases List.mem_append.1 hx with hx | hx
      · exact ha' x hx (by assumption)
      · obtain ⟨e', he', rfl⟩ := List.mem_map.1 hx
        exact htake e'.1 (by rw [← List.map_take]; exact List.mem_map_of_mem _ he')
    · intro y hy
      rcases List.mem_append.1 hy with hy | hy
      · obtain ⟨e', he', rfl⟩ := List.mem_map.1 hy
        exact hdrop e'.1 (by
          rw [← List.map_drop]
          exact List.mem_map_of_mem _
            ((List.drop_sublist_drop_left es (Nat.le_succ r0.2)).subset he'))
      · exact hb y hy
  · have hf' : r0.1 = false := by simpa using hf
    simp only [hf', Bool.not_false, if_true] at hrun
    split at hrun
    · injection hrun with hrun
      subst hrun
      exact tieSafe_refl _
    · injection hrun with hrun
      subst hrun
      exact tieSafe_refl _

end Node

end BPlusTree

namespace BPlusTree

variable {K V : Type} {p : Params K}

namespace Node

/-- The end of `erase` at the node whose child `i` the descent went through,
on the items. -/
theorem erase_up_ties (hv : p.Valid) {key : K} {ks : List K} {cs : List (Node K V)}
    {minL minI h i : Nat} {flag : Bool} {c : Node K V} {rc r : EraseStep K V}
    (hx : Wf p minL minI (h + 1) (internal ks cs)) (hc : cs[i]? = some c)
    (hready : EraseReady p key flag cs i)
    (hpost : ErasePostG p key (Wf p p.kLeafNodeMinKeys p.kInternalNodeMinKeys h) (toList c)
      flag rc)
    (hT : EraseTies p key (fullItems c) rc)
    (hup : erase_up p key (internal ks cs) i rc = .ok r) :
    EraseTies p key (fullItems (internal ks cs)) r := by
  have hcl := wf_cs_length hx
  obtain ⟨_, _, hilt⟩ := list_split_at hc
  have hi : i ≤ ks.length := by omega
  cases rc with
  | removed c' =>
    simp only [erase_up, setChild_internal] at hup
    injection hup with hup
    subst hup
    exact tieSafeErase_set_child hv hx hi hc hready.1 hpost.1 hT
  | absent c' =>
    simp only [erase_up, setChild_internal] at hup
    injection hup with hup
    subst hup
    exact tieSafe_set_child hi hc hT
  | successor c' =>
    have hT1 : TieSafe p (fullItems (internal ks cs)) (fullItems (internal ks (cs.set i c'))) :=
      tieSafe_set_child hi hc hT
    simp only [erase_up, setChild_internal, children, List.get?_eq_getElem?] at hup
    cases hs : (cs.set i c')[i + 1]? with
    | none =>
      rw [hs] at hup
      simp only at hup
      injection hup with hup
      subst hup
      exact hT1
    | some s =>
      rw [hs] at hup
      simp only at hup
      cases hef : erase_first p.comp key s with
      | error f => rw [hef] at hup; cases hup
      | ok pr =>
        obtain ⟨b, s'⟩ := pr
        rw [hef] at hup
        cases b with
        | false =>
          simp only at hup
          injection hup with hup
          subst hup
          exact hT1
        | true =>
          simp only at hup
          injection hup with hup
          subst hup
          obtain ⟨hne, htl, hc'W, _⟩ := hpost
          have hW' : Wf p minL minI (h + 1) (internal ks (cs.set i c')) :=
            (wf_set_child_same hx hc hc'W htl).1
          have hs0 : cs[i + 1]? = some s := by
            rw [List.getElem?_set_ne (by omega)] at hs
            exact hs
          obtain ⟨_, _, hi1⟩ := list_split_at hs0
          have hsW := wf_child hx (List.getElem?_mem hs0)
          obtain ⟨⟨f, hfmem, hfk⟩, hTs⟩ := erase_first_ties hv key hsW hef
          obtain ⟨ht, _, hg⟩ := take_set_self c' hc
          obtain ⟨k, hk⟩ := get_some_of_lt ks i (by omega)
          have hkf : p.comp k f.1 ≤ 0 :=
            (keys_around_entry hv hx (show i + 1 ≤ ks.length by omega) hs0 hfmem).1 k
              (by rw [List.take_succ, hk]; simp)
          have hpre : ∀ e ∈ toListL ((cs.set i c').take (i + 1)), p.comp e.1 key < 0 := by
            intro e he
            rw [List.take_succ, hg, ht, toListL_append] at he
            simp only [Option.toList_some, toListL_cons, toListL_nil, List.append_nil,
              List.mem_append] at he
            rcases he with he | he
            · exact hready.1 e he
            · rw [htl] at he
              have hek : p.comp e.1 k ≤ 0 :=
                (keys_around_entry hv hx hi hc he).2 k (by
                  rw [List.drop_eq_getElem_cons (by omega)]
                  have := List.getElem?_eq_getElem (show i < ks.length by omega)
                  rw [this] at hk
                  injection hk with hk
                  rw [hk]
                  exact List.mem_cons_self _ _)
              have h1 : p.comp e.1 key ≤ 0 :=
                hv.comp_trans _ _ _ (hv.comp_trans _ _ _ hek hkf) (le_of_eq hfk)
              have h2 := hne e he
              omega
          exact tieSafeErase_trans_left hT1
            (tieSafeErase_set_child hv hW' (show i + 1 ≤ ks.length by omega) hs hpre
              ⟨f, hfmem, hfk⟩ hTs)

/-- The descent of `erase` on the in-order items of all levels: a removal is a
replacement safe at the place of the first entry equal to `key`, any other
outcome a replacement safe everywhere. -/
theorem erase_loop_ties (hv : p.Valid) (key : K) :
    ∀ (fuel h : Nat) (x : Node K V) (xIsRoot flag : Bool),
      (xIsRoot = true → Wf p 1 1 h x ∧ flag = false) →
      (xIsRoot = false → Wf p (p.kLeafNodeMinKeys + 1) (p.kInternalNodeMinKeys + 1) h x) →
      h < fuel →
      ∀ r, erase_loop p key fuel x xIsRoot flag = .ok r → EraseTies p key (fullItems x) r := by
  intro fuel
  induction fuel with
  | zero => intro h x xIsRoot flag _ _ hf; omega
  | succ fuel ih =>
    intro h x xIsRoot flag hR hN hf r hrun
    have hW : ∃ minL minI, Wf p minL minI h x ∧ 1 ≤ minL ∧ 1 ≤ minI ∧
        (xIsRoot = false → p.kLeafNodeMinKeys + 1 ≤ minL ∧ p.kInternalNodeMinKeys + 1 ≤ minI) := by
      cases xIsRoot with
      | true => exact ⟨1, 1, (hR rfl).1, le_refl _, le_refl _, fun h => by cases h⟩
      | false =>
        exact ⟨_, _, hN rfl, by omega, by omega, fun _ => ⟨le_refl _, le_refl _⟩⟩
    obtain ⟨minL, minI, hW, hL1, hI1, hnr⟩ := hW
    cases hW with
    | leaf _ _ es h1 h2 h3 =>
      exact erase_leaf_ties hv key fuel xIsRoot flag (Wf.leaf minL minI es h1 h2 h3) hrun
    | internal _ _ h0 ks cs h1 h2 h3 h4 h5 =>
      have hx : Wf p minL minI (h0 + 1) (internal ks cs) := Wf.internal _ _ h0 ks cs h1 h2 h3 h4 h5
      have hk1 : 1 ≤ ks.length := by omega
      have hroot : xIsRoot = true ∨ 2 ≤ ks.length := by
        cases hxr : xIsRoot with
        | true => exact Or.inl rfl
        | false =>
          have := (hnr hxr).2
          have := p.internalMin_pos
          exact Or.inr (by omega)
      have hrestart : ∀ newRoot : Node K V, Wf p 1 1 h0 newRoot →
          ∀ r : EraseStep K V, erase_loop p key fuel newRoot true false = .ok r →
            EraseTies p key (fullItems newRoot) r := by
        intro newRoot hnW r hr
        exact ih h0 newRoot true false (fun _ => ⟨hnW, rfl⟩) (fun h => by cases h) (by omega) r hr
      rw [erase_loop] at hrun
      rcases erase_steer_spec hv key xIsRoot flag hx hk1 hroot with
        ⟨newRoot, hsteer, hxr, hnW, htl⟩ |
        ⟨ks1, cs1, i1, flag1, hsteer, hW1, htl1, hk11, hk12, hi1, hready, hin, hside⟩
      · have hT0 := erase_steer_ties hv key xIsRoot flag hx hk1 hroot hsteer
        simp only [steerNode] at hT0
        simp only [hsteer] at hrun
        exact eraseTies_trans_left hT0 (hrestart newRoot hnW r hrun)
      · have hT0 := erase_steer_ties hv key xIsRoot flag hx hk1 hroot hsteer
        simp only [steerNode] at hT0
        simp only [hsteer] at hrun
        rcases erase_prepare hv xIsRoot hW1 hk11 hi1 hk12 hroot hside with
          ⟨newRoot, j, htrm, hxr, hnW, htl⟩ |
          ⟨op, ks2, cs2, i2, c2, htrm, hns, hW2, htl2, hk2, hk21, hc2, hc2W, habs⟩
        · have hT1 := try_rebalance_or_merge_ties hv hW1 hk11 hi1 htrm
          simp only at hT1
          simp only [htrm] at hrun
          exact eraseTies_trans_left (tieSafe_trans hT0 hT1) (hrestart newRoot hnW r hrun)
        · have hT1 := try_rebalance_or_merge_ties hv hW1 hk11 hi1 htrm
          simp only at hT1
          obtain ⟨rc, hrc, hpost⟩ := erase_loop_spec hv key fuel h0 c2 false flag1
            (fun h => by cases h) (fun _ => hc2W) (by omega)
          have hTc := ih h0 c2 false flag1 (fun h => by cases h) (fun _ => hc2W) (by omega) rc hrc
          have hpost' : ErasePostG p key (Wf p p.kLeafNodeMinKeys p.kInternalNodeMinKeys h0)
              (toList c2) flag1 rc :=
            hpost.weaken (fun x' hx' => by simpa [EraseGood] using hx')
          have hup : erase_up p key (internal ks2 cs2) i2 rc = .ok r := by
            rw [htrm] at hrun
            cases op <;> first | exact absurd rfl hns | simpa [children, hc2, hrc] using hrun
          have hTup := erase_up_ties hv hW2 hc2 (ready_absorbed hready habs) hpost' hTc hup
          exact eraseTies_trans_left (tieSafe_trans hT0 hT1) hTup

/-- Function `node::erase` keeps the ties of a well-formed root. -/
theorem node_erase_ties (hv : p.Valid) (key : K) {h : Nat} {root root' : Node K V} {b : Bool}
    (hx : Wf p 1 1 h root) (hties : TiesKept p (fullItems root))
    (hrun : erase p root key = .ok (b, root')) : TiesKept p (fullItems root') := by
  unfold erase at hrun
  rw [hx.height_eq] at hrun
  cases hr : erase_loop p key (h + 1) root true false with
  | error f => rw [hr] at hrun; cases hrun
  | ok r =>
    have hT := erase_loop_ties hv key (h + 1) h root true false (fun _ => ⟨hx, rfl⟩)
      (fun h => by cases h) (by omega) r hr
    rw [hr] at hrun
    cases r with
    | removed x =>
      simp only at hrun
      injection hrun with hrun
      simp only [Prod.mk.injEq] at hrun
      obtain ⟨_, hx'⟩ := hrun
      subst hx'
      have := hT [] [] (by simp) (by simp) (by simp) (by simpa using hties)
      simpa using this
    | absent x =>
      simp only at hrun
      injection hrun with hrun
      simp only [Prod.mk.injEq] at hrun
      obtain ⟨_, hx'⟩ := hrun
      subst hx'
      have := hT [] [] (by simpa using hties)
      simpa using this
    | successor x => cases hrun

end Node

namespace btree

/-- Method `btree::erase` keeps the ties. -/
theorem erase_ties (hv : p.Valid) {t t' : Tree K V} (hinv : TreeInv p t)
    (hties : TreeTies p t) {key : K} {b : Bool}
    (hrun : erase p t key = .ok (b, t')) : TreeTies p t' := by
  unfold erase at hrun
  unfold TreeInv at hinv
  unfold TreeTies at hties ⊢
  cases hroot : t.root with
  | none =>
    rw [hroot] at hrun
    simp only at hrun
    injection hrun with hrun
    simp only [Prod.mk.injEq] at hrun
    rw [← hrun.2, hroot]
    trivial
  | some r =>
    rw [hroot] at hrun hinv hties
    simp only at hrun hinv hties
    obtain ⟨⟨h, hW⟩, _⟩ := hinv
    cases he : Node.erase p r key with
    | error f => rw [he] at hrun; cases hrun
    | ok pr =>
      obtain ⟨b', r'⟩ := pr
      have hT := Node.node_erase_ties hv key hW hties he
      rw [he] at hrun
      cases b' with
      | false =>
        simp only at hrun
        injection hrun with hrun
        simp only [Prod.mk.injEq] at hrun
        rw [← hrun.2]
        exact hT
      | true =>
        simp only at hrun
        split at hrun
        · injection hrun with hrun
          simp only [Prod.mk.injEq] at hrun
          rw [← hrun.2]
          trivial
        · injection hrun with hrun
          simp only [Prod.mk.injEq] at hrun
          rw [← hrun.2]
          exact hT

end btree

/-- Every tree reachable with duplicates allowed keeps the ties. -/
theorem reachable_ties (hv : p.Valid) (hd : p.kDuplicates = true) {t : Tree K V}
    (hr : Reachable p t) : TreeTies p t := by
  induction hr with
  | empty => simp [TreeTies, btree.empty]
  | insert key value hr hrun ih => exact btree.insert_ties hv hd (btree.reachable_inv hv hr) ih hrun
  | erase key b hr hrun ih => exact btree.erase_ties hv (btree.reachable_inv hv hr) ih hrun

end BPlusTree

namespace BPlusTree

variable {K V : Type} {p : Params K}

namespace Node

/-- A key equal to `key` left of slot `i`, with routing keys `≤ key` left of
slot `i`, shows in child `i` as well when the ties are kept. -/
theorem tie_carries (hv : p.Valid) {ks : List K} {cs : List (Node K V)}
    {minL minI h i : Nat} {c : Node K V} {key : K}
    (hx : Wf p minL minI (h + 1) (internal ks cs))
    (hties : TiesKept p (fullItems (internal ks cs)))
    (hi : i ≤ ks.length) (hc : cs[i]? = some c)
    (htake : ∀ k ∈ ks.take i, p.comp k key ≤ 0)
    (he : ∃ e ∈ toListL (cs.take i), p.comp e.1 key = 0) :
    ∃ f ∈ toList c, p.comp f.1 key = 0 := by
  obtain ⟨e, hemem, hek⟩ := he
  cases i with
  | zero => simp at hemem
  | succ j =>
    obtain ⟨kl, kr, cl, cr, k, y, z, hks, hcs, hlen, hcl⟩ := pair_form hx (show j < ks.length by omega)
    subst hks
    subst hcs
    subst hcl
    have hcz : c = z := by
      rw [get_mid1] at hc
      injection hc with hc
      exact hc.symm
    subst hcz
    obtain ⟨hyW, hzW, hyk, _, _⟩ := pair_facts hv hlen hx
    have hmin := p.leafMin_pos
    obtain ⟨l, tl, rest, hytl, hyF⟩ := (fullItems_ends h hyW hmin).2
    obtain ⟨f, tl', rest', hztl, hzF⟩ := (fullItems_ends h hzW hmin).1
    have hkkey : p.comp k key ≤ 0 := by
      apply htake k
      rw [← hlen]
      rw [List.take_append_eq_append_take]
      simp
    have hlk : p.comp l.1 k ≤ 0 := by
      have := hyk (false, l.1) (by simp [elems, hytl])
      simpa [Params.rel] using hv.before_le this
    have hkeyl : p.comp key l.1 ≤ 0 := by
      have htake2 : (cl ++ y :: c :: cr).take (cl.length + 1) = cl ++ [y] := by
        rw [List.take_append_eq_append_take]
        simp
      rw [htake2, toListL_append] at hemem
      simp only [toListL_cons, toListL_nil, List.append_nil, hytl] at hemem
      have hsorted := hx.sorted
      simp only [toList_internal, toListL_append, toListL_cons, hytl] at hsorted
      have hel : e = l ∨ p.before e.1 l.1 := by
        rcases List.mem_append.1 hemem with h1 | h1
        · right
          rw [List.pairwise_map] at hsorted
          exact (List.pairwise_append.1 hsorted).2.2 e h1 l (by simp)
        · rcases List.mem_append.1 h1 with h2 | h2
          · right
            rw [List.pairwise_map] at hsorted
            have h3 := (List.pairwise_append.1 hsorted).2.1
            have h4 := (List.pairwise_append.1 h3).1
            exact (List.pairwise_append.1 h4).2.2 e h2 l (by simp)
          · left
            simpa using h2
      have hke : p.comp key e.1 ≤ 0 := le_of_eq ((hv.zero_iff _ _).1 hek)
      rcases hel with h1 | h1
      · rw [← h1]; exact hke
      · exact hv.comp_trans _ _ _ hke (hv.before_le h1)
    have hkl : p.comp k l.1 ≤ 0 := hv.comp_trans _ _ _ hkkey hkeyl
    have hlk0 : p.comp l.1 k = 0 := comp_eq_of_le_le hv hlk hkl
    have hF := @fullItems_pair K V kl kr cl cr k y c hlen
    rw [hyF, hzF] at hF
    have hF2 : fullItems (internal (kl ++ k :: kr) (cl ++ y :: c :: cr)) =
        (weavePre kl (cl.map fullItems) ++ rest) ++
          (false, l.1) :: (true, k) :: (false, f.1) ::
            (rest' ++ weaveTail kr (cr.map fullItems)) := by
      rw [hF]
      simp [List.append_assoc]
    rw [hF2] at hties
    have hkf : p.comp k f.1 = 0 := ties_mid hties rfl rfl rfl hlk0
    have hkeyk : p.comp key k ≤ 0 := hv.comp_trans _ _ _ hkeyl hlk
    have hkk : p.comp k key = 0 := comp_eq_of_le_le hv hkkey hkeyk
    refine ⟨f, by rw [hztl]; simp, ?_⟩
    exact comp_eq_trans hv ((hv.zero_iff _ _).1 hkf) hkk

end Node

namespace btree

/-- The descent of `btree::upper_bound` through a subtree that keeps the ties
reports a key that the subtree holds. -/
theorem upper_bound_descend_finds (hv : p.Valid) (key : K) :
    ∀ (fuel h : Nat) (x : Node K V) (off : Nat) (minL minI : Nat),
      Node.Wf p minL minI h x → h < fuel → TiesKept p x.fullItems →
      (∃ e ∈ Node.toList x, p.comp e.1 key = 0) →
      ∀ found c, upper_bound_descend p key fuel x off = .ok (found, c) → found = true := by
  intro fuel
  induction fuel with
  | zero => intro h x off minL minI _ hf; omega
  | succ fuel ih =>
    intro h x off minL minI hx hf hties hmem found c hrun
    cases hx with
    | leaf _ _ es h1 h2 h3 =>
      have hsorted : (es.map Prod.fst).Pairwise (fun a b => p.comp a b ≤ 0) :=
        h3.imp (fun h => hv.before_le h)
      obtain ⟨_, _, _, hfound⟩ := Node.upper_bound_spec hv hsorted key
      rw [upper_bound_descend] at hrun
      injection hrun with hrun
      simp only [Prod.mk.injEq] at hrun
      rw [← hrun.1, hfound]
      obtain ⟨e, he, hek⟩ := hmem
      exact ⟨e.1, List.mem_map_of_mem _ (by simpa using he), hek⟩
    | internal _ _ h0 ks cs h1 h2 h3 h4 h5 =>
      have hx : Node.Wf p minL minI (h0 + 1) (Node.internal ks cs) :=
        Node.Wf.internal _ _ h0 ks cs h1 h2 h3 h4 h5
      have hsorted := Node.wf_keys_sorted hx
      obtain ⟨hpos, htake, hdrop, _⟩ := Node.upper_bound_spec hv hsorted key
      rw [upper_bound_descend] at hrun
      simp only [List.get?_eq_getElem?] at hrun
      generalize (Node.upper_bound p.comp ks key).2 = i at hpos htake hdrop hrun
      obtain ⟨c0, hc0⟩ := Node.get_some_of_lt cs i (by omega)
      rw [hc0] at hrun
      simp only at hrun
      have hcW := h4 c0 (List.getElem?_mem hc0)
      have hFat := Node.fullItems_at hpos hc0
      have htiesc : TiesKept p c0.fullItems := by
        rw [hFat] at hties
        exact ties_infix hties
      have hin : ∃ f ∈ Node.toList c0, p.comp f.1 key = 0 := by
        obtain ⟨e, he, hek⟩ := hmem
        obtain ⟨hsplit, _, _⟩ := list_split_at hc0
        simp only [Node.toList_internal] at he
        rw [hsplit, Node.toListL_append, Node.toListL_cons] at he
        rcases List.mem_append.1 he with h6 | h6
        · exact Node.tie_carries hv hx hties hpos hc0 htake ⟨e, h6, hek⟩
        · rcases List.mem_append.1 h6 with h7 | h7
          · exact ⟨e, h7, hek⟩
          · have := Node.wf_right_gt hv hx hpos hdrop e h7
            have := (hv.zero_iff _ _).1 hek
            omega
      exact ih h0 c0 _ _ _ hcW (by omega) htiesc hin found c hrun

end btree

/-- Claim C21: on every tree reachable from the empty tree by `insert` and `erase`
calls, with or without duplicates, `upper_bound(key)` returns, and it returns
true exactly when the tree holds an entry whose key compares equal to `key`. -/
theorem upper_bound_true_iff_present (hv : p.Valid) {t : Tree K V} (hr : Reachable p t)
    (key : K) :
    ∃ r oc, btree.upper_bound p t key = .ok (r, oc) ∧
      (r = true ↔ ∃ e ∈ contents t, p.comp e.1 key = 0) := by
  have hinv := btree.reachable_inv hv hr
  cases hroot : t.root with
  | none =>
    have hn : t.nkeys = 0 := by
      unfold TreeInv at hinv
      rw [hroot] at hinv
      exact hinv
    refine ⟨false, none, by simp [btree.upper_bound, hn], ?_⟩
    simp [contents, hroot]
  | some r0 =>
    have hinv' := hinv
    unfold TreeInv at hinv'
    rw [hroot] at hinv'
    obtain ⟨⟨h, hW⟩, hn⟩ := hinv'
    have hne0 : Node.toList r0 ≠ [] := hW.toList_ne_nil (Or.inl (le_refl _))
    have hne : contents t ≠ [] := by simpa [contents, hroot] using hne0
    obtain ⟨found, c, es, hub, _, _, _, _, _, _, _, huniq⟩ :=
      btree.upper_bound_tree_spec hv hinv key hne
    refine ⟨found, some c, hub, ?_⟩
    cases hd : p.kDuplicates with
    | false => exact huniq hd
    | true =>
      have hnk : (t.nkeys == 0) = false := by
        have : (Node.toList r0).length ≠ 0 := by
          intro hc
          exact hne0 (List.eq_nil_of_length_eq_zero hc)
        simp only [beq_eq_false_iff_ne, ne_eq]
        omega
      unfold btree.upper_bound at hub
      simp only [hnk, Bool.false_eq_true, if_false, hroot, hW.height_eq] at hub
      obtain ⟨found', j, i, es', hdesc, hleaf, _, _, _, _, hiff, _⟩ :=
        Node.upper_bound_descend_spec hv key (h + 1) h r0 0 1 1 hW (by omega)
      rw [hdesc] at hub
      simp only [Except.ok.injEq, Prod.mk.injEq, Option.some.injEq] at hub
      obtain ⟨hff, hcc⟩ := hub
      subst hff
      have hcont : contents t = Node.toList r0 := by simp [contents, hroot]
      rw [hcont]
      constructor
      · intro hf
        obtain ⟨e, he, hek⟩ := hiff.1 hf
        refine ⟨e, ?_, hek⟩
        rw [← Node.flatten_leaves]
        exact List.mem_flatten.2 ⟨es', List.getElem?_mem hleaf, he⟩
      · intro hmem
        have hties := reachable_ties hv hd hr
        unfold TreeTies at hties
        rw [hroot] at hties
        exact btree.upper_bound_descend_finds hv key (h + 1) h r0 0 1 1 hW (by omega) hties hmem
          found' _ hdesc

/-- Instance of `upper_bound_true_iff_present`: the multimap with the key 2 in
two leaves, where the routing key equals 2. -/
theorem upper_bound_true_iff_present_witness :
    (intParams true).Valid ∧ Reachable (intParams true) multimapTies ∧
    ∃ r oc, btree.upper_bound (intParams true) multimapTies 2 = .ok (r, oc) ∧
      (r = true ↔ ∃ e ∈ contents multimapTies, (intParams true).comp e.1 2 = 0) :=
  have hr : Reachable (intParams true) multimapTies :=
    reachable_applyOps [.insert 1 10, .insert 2 20, .insert 2 21, .insert 3 30, .insert 2 22]
      Reachable.empty (by rfl)
  ⟨intParams_valid true, hr, upper_bound_true_iff_present (intParams_valid true) hr 2⟩

end BPlusTree

namespace BPlusTree

variable {K V : Type}

/-- When the node size covers the header and two links and no size reaches
`2 ^ wordBits`, the fanout formulas computed in `size_t` have the values of the
formulas over the integers, and the effective fanouts are these values clamped
to 3. -/
theorem fanout_clamp_when_budget_fits (L : Layout) (comp : K → K → Int) (dup : Bool)
    (hfit : L.headerSize + 2 * L.ptrSize ≤ L.nodeSize) (hw : L.nodeSize < 2 ^ L.wordBits)
    (hki : L.keySize + L.ptrSize < 2 ^ L.wordBits)
    (hkl : L.keySize + L.valueSize < 2 ^ L.wordBits) :
    (((L.params comp dup).kInternalNodeMaxKeys : Nat) : Int) = specClamp L.specInternalFanout ∧
    (((L.params comp dup).kLeafNodeMaxKeys : Nat) : Int) = specClamp L.specLeafFanout := by
  have hM : 0 < 2 ^ L.wordBits := Nat.two_pow_pos _
  have hsub : ∀ a b, b ≤ a → a < 2 ^ L.wordBits → L.usub a b = a - b := by
    intro a b hba ha
    unfold Layout.usub
    rw [Nat.mod_eq_of_lt ha, Nat.mod_eq_of_lt (show b < 2 ^ L.wordBits by omega)]
    have : a + (2 ^ L.wordBits - b) = (a - b) + 2 ^ L.wordBits := by omega
    rw [this, Nat.add_mod_right, Nat.mod_eq_of_lt (by omega)]
  have hri : L.rawInternalNodeMaxKeys =
      (L.nodeSize - L.headerSize - L.ptrSize) / (L.keySize + L.ptrSize) := by
    unfold Layout.rawInternalNodeMaxKeys
    rw [hsub L.nodeSize L.headerSize (by omega) hw,
      hsub (L.nodeSize - L.headerSize) L.ptrSize (by omega) (by omega),
      Nat.mod_eq_of_lt hki]
  have hrl : L.rawLeafNodeMaxKeys =
      (L.nodeSize - L.headerSize - 2 * L.ptrSize) / (L.keySize + L.valueSize) := by
    unfold Layout.rawLeafNodeMaxKeys
    rw [hsub L.nodeSize L.headerSize (by omega) hw,
      Nat.mod_eq_of_lt (show 2 * L.ptrSize < 2 ^ L.wordBits by omega),
      hsub (L.nodeSize - L.headerSize) (2 * L.ptrSize) (by omega) (by omega),
      Nat.mod_eq_of_lt hkl]
  have hsi : L.specInternalFanout =
      (((L.nodeSize - L.headerSize - L.ptrSize) / (L.keySize + L.ptrSize) : Nat) : Int) := by
    unfold Layout.specInternalFanout
    have : ((L.nodeSize : Int) - L.headerSize - L.ptrSize) =
        ((L.nodeSize - L.headerSize - L.ptrSize : Nat) : Int) := by omega
    rw [this]
    norm_cast
  have hsl : L.specLeafFanout =
      (((L.nodeSize - L.headerSize - 2 * L.ptrSize) / (L.keySize + L.valueSize) : Nat) : Int) := by
    unfold Layout.specLeafFanout
    have : ((L.nodeSize : Int) - L.headerSize - 2 * L.ptrSize) =
        ((L.nodeSize - L.headerSize - 2 * L.ptrSize : Nat) : Int) := by omega
    rw [this]
    norm_cast
  constructor
  · rw [hsi]
    simp only [Params.kInternalNodeMaxKeys, Layout.params, hri, specClamp]
    split <;> split <;> first | rfl | omega
  · rw [hsl]
    simp only [Params.kLeafNodeMaxKeys, Layout.params, hrl, specClamp]
    split <;> split <;> first | rfl | omega

/-- Claim C35 fails on the code for node sizes below the header and the links:
with `_NodeSize = 8`, `int` keys and values, 8-byte pointers and 64-bit
`size_t`, the subtractions of the fanout formulas wrap around, and the
effective `kInternalNodeMaxKeys` and `kLeafNodeMaxKeys` are
`(2^64 − 4) / 12` and `(2^64 − 12) / 8`, while the formulas over the integers
are negative and the claim gives 3 for both. -/
theorem fanout_wraps_below_header :
    tinyIntParams.kInternalNodeMaxKeys = 1537228672809129301 ∧
    tinyIntParams.kLeafNodeMaxKeys = 2305843009213693950 ∧
    (Layout.lp64 8 4 4).specInternalFanout < 3 ∧ (Layout.lp64 8 4 4).specLeafFanout < 3 ∧
    specClamp (Layout.lp64 8 4 4).specInternalFanout = 3 ∧
    specClamp (Layout.lp64 8 4 4).specLeafFanout = 3 := by
  refine ⟨by decide, by decide, by decide, by decide, by decide, by decide⟩

/-- Claim C34 fails at the default map: `btree_map<int, int>` with 256-byte
nodes has `kInternalNodeMaxKeys = 20`, and the code's `kInternalNodeMinKeys`
(the value `minkeys()` tests against) is 9, while `⌈(20 + 1) / 2⌉ − 1` is
10. -/
theorem internal_min_below_ceiling :
    defaultIntParams.kInternalNodeMaxKeys = 20 ∧
    defaultIntParams.kInternalNodeMinKeys = 9 ∧
    specInternalNodeMinKeys defaultIntParams.kInternalNodeMaxKeys = 10 ∧
    (Node.internal (List.replicate 9 (0 : Int)) ([] : List (Node Int Nat))).minkeys
      defaultIntParams = true ∧
    (Node.internal (List.replicate 10 (0 : Int)) ([] : List (Node Int Nat))).minkeys
      defaultIntParams = false := by
  refine ⟨by decide, by decide, by decide, by decide, by decide⟩

/-- Claim C34, amended: for every effective `kInternalNodeMaxKeys` (which is at
least 3) the code's `kInternalNodeMinKeys`, the value `minkeys()` tests the key
count of an internal node against, is `⌊(INT_MAX + 1) / 2⌋ − 1`; it equals
`⌈(INT_MAX + 1) / 2⌉ − 1` when `INT_MAX` is odd and is one less when `INT_MAX`
is even. -/
theorem internal_min_is_floor (p : Params K) :
    3 ≤ p.kInternalNodeMaxKeys ∧
    p.kInternalNodeMinKeys = (p.kInternalNodeMaxKeys + 1) / 2 - 1 ∧
    (p.kInternalNodeMaxKeys % 2 = 1 →
      p.kInternalNodeMinKeys = specInternalNodeMinKeys p.kInternalNodeMaxKeys) ∧
    (p.kInternalNodeMaxKeys % 2 = 0 →
      p.kInternalNodeMinKeys + 1 = specInternalNodeMinKeys p.kInternalNodeMaxKeys) ∧
    (∀ (ks : List K) (cs : List (Node K V)),
      (Node.internal ks cs).minkeys p = true ↔ ks.length = p.kInternalNodeMinKeys) := by
  have h3 := p.internalMax_ge
  refine ⟨h3, rfl, ?_, ?_, ?_⟩
  · intro hodd
    unfold Params.kInternalNodeMinKeys specInternalNodeMinKeys
    omega
  · intro heven
    unfold Params.kInternalNodeMinKeys specInternalNodeMinKeys
    omega
  · intro ks cs
    simp [Node.minkeys]

/-- Claim C39: for every effective `kInternalNodeMaxKeys` and
`kLeafNodeMaxKeys` (both at least 3) the fanout constants of the code are
consistent: the two halves of a split full node hold at least the minimum
(`LEAF_MED ≥ LEAF_MIN`, `LEAF_MAX − LEAF_MED ≥ LEAF_MIN`, `INT_MED ≥ INT_MIN`,
`INT_MAX − INT_MED − 1 ≥ INT_MIN`), and two merged minimal siblings fit
(`2·LEAF_MIN ≤ LEAF_MAX`, `2·INT_MIN + 1 ≤ INT_MAX`). -/
theorem fanout_constants_consistent (p : Params K) :
    3 ≤ p.kInternalNodeMaxKeys ∧ 3 ≤ p.kLeafNodeMaxKeys ∧
    p.kLeafNodeMinKeys ≤ p.kLeafNodeMedian ∧
    p.kLeafNodeMinKeys ≤ p.kLeafNodeMaxKeys - p.kLeafNodeMedian ∧
    p.kLeafNodeMedian ≤ p.kLeafNodeMaxKeys ∧
    p.kInternalNodeMinKeys ≤ p.kInternalNodeMedian ∧
    p.kInternalNodeMinKeys ≤ p.kInternalNodeMaxKeys - p.kInternalNodeMedian - 1 ∧
    p.kInternalNodeMedian + 1 ≤ p.kInternalNodeMaxKeys ∧
    2 * p.kLeafNodeMinKeys ≤ p.kLeafNodeMaxKeys ∧
    2 * p.kInternalNodeMinKeys + 1 ≤ p.kInternalNodeMaxKeys := by
  have h1 := p.internalMax_ge
  have h2 := p.leafMax_ge
  refine ⟨h1, h2, ?_, ?_, ?_, ?_, ?_, ?_, ?_, ?_⟩ <;>
    simp only [Params.kLeafNodeMinKeys, Params.kLeafNodeMedian, Params.kInternalNodeMinKeys,
      Params.kInternalNodeMedian] <;> omega

end BPlusTree

namespace BPlusTree

variable {K V : Type} {p : Params K}

namespace Node

/-- Every node strictly below a well-formed node is well-formed with the
occupancy bounds of a non-root node. -/
theorem wf_subnodes : ∀ (h : Nat) {minL minI : Nat} {x : Node K V},
    Wf p minL minI h x →
    ∀ y ∈ subnodes x, ∃ h', h' < h ∧ Wf p p.kLeafNodeMinKeys p.kInternalNodeMinKeys h' y := by
  intro h
  induction h with
  | zero =>
    intro minL minI x hx y hy
    cases hx with
    | leaf _ _ es h1 h2 h3 => simp [subnodes] at hy
  | succ h ih =>
    intro minL minI x hx y hy
    cases hx with
    | internal _ _ _ ks cs h1 h2 h3 h4 h5 =>
      simp only [subnodes] at hy
      obtain ⟨c, hc, hyc⟩ := mem_subnodesL hy
      rcases hyc with hyc | hyc
      · subst hyc
        exact ⟨h, by omega, h4 y hc⟩
      · obtain ⟨h', hlt, hW⟩ := ih (h4 c hc) y hyc
        exact ⟨h', by omega, hW⟩

/-- In a well-formed internal node the entries below `children[i]` are before
`keys[i]` and the entries below `children[i + 1]` are not below it. -/
theorem wf_separates (hv : p.Valid) {minL minI h i : Nat} {ks : List K}
    {cs : List (Node K V)} {k : K} {c c' : Node K V}
    (hx : Wf p minL minI (h + 1) (internal ks cs))
    (hk : ks[i]? = some k) (hc : cs[i]? = some c) (hc' : cs[i + 1]? = some c') :
    (∀ e ∈ toList c, p.before e.1 k) ∧ (∀ e ∈ toList c', p.comp k e.1 ≤ 0) := by
  obtain ⟨hcs, hcl⟩ := pair_split hc hc'
  obtain ⟨hks, hkl, _⟩ := list_split_at hk
  have hlen : (ks.take i).length = (cs.take i).length := by rw [hkl, hcl]
  have hx' := hx
  rw [hks, hcs] at hx'
  obtain ⟨_, _, h1, h2, _⟩ := pair_facts hv hlen hx'
  constructor
  · intro e he
    have := h1 (false, e.1) (by simp only [elems, List.mem_map]; exact ⟨e, he, rfl⟩)
    simpa [Params.rel] using this
  · intro e he
    exact h2 (false, e.1) (by simp only [elems, List.mem_map]; exact ⟨e, he, rfl⟩)

end Node

/-- Claim C32: in every tree reachable from the empty tree by `insert` and
`erase` calls, for every internal node (the root or a node below it) and every
routing key `keys[i]` of it, every key stored below `children[i]` is `< keys[i]`
in unique mode and `≤ keys[i]` in duplicate mode, and every key stored below
`children[i + 1]` is `≥ keys[i]`. -/
theorem separators_bound_subtrees (hv : p.Valid) {t : Tree K V} (hr : Reachable p t)
    {r : Node K V} (hroot : t.root = some r) :
    ∀ x, (x = r ∨ x ∈ r.subnodes) → ∀ ks cs, x = Node.internal ks cs →
      ∀ i k c c', ks[i]? = some k → cs[i]? = some c → cs[i + 1]? = some c' →
        (∀ e ∈ Node.toList c,
          if p.kDuplicates = true then p.comp e.1 k ≤ 0 else p.comp e.1 k < 0) ∧
        (∀ e ∈ Node.toList c', p.comp k e.1 ≤ 0) := by
  have hinv := btree.reachable_inv hv hr
  unfold TreeInv at hinv
  rw [hroot] at hinv
  obtain ⟨⟨h, hW⟩, _⟩ := hinv
  intro x hx ks cs hxe i k c c' hk hc hc'
  have hxW : ∃ minL minI h', Node.Wf p minL minI h' x := by
    rcases hx with hx | hx
    · subst hx; exact ⟨1, 1, h, hW⟩
    · obtain ⟨h', _, hW'⟩ := Node.wf_subnodes h hW x hx
      exact ⟨_, _, h', hW'⟩
  obtain ⟨minL, minI, h', hxW⟩ := hxW
  subst hxe
  cases h' with
  | zero => cases hxW
  | succ h' =>
    obtain ⟨h1, h2⟩ := Node.wf_separates hv hxW hk hc hc'
    refine ⟨?_, h2⟩
    intro e he
    have := h1 e he
    unfold Params.before at this
    exact this

theorem separators_bound_subtrees_witness :
    (intParams true).Valid ∧ Reachable (intParams true) multimapTies ∧
    multimapTies.root = some (.internal [2]
      [.leaf [(1, 10), (2, 20)], .leaf [(2, 21), (2, 22), (3, 30)]]) ∧
    ∀ x, (x = (.internal [2] [.leaf [(1, 10), (2, 20)], .leaf [(2, 21), (2, 22), (3, 30)]] :
          Node Int Nat) ∨
        x ∈ (Node.internal [2] [.leaf [(1, 10), (2, 20)], .leaf [(2, 21), (2, 22), (3, 30)]] :
          Node Int Nat).subnodes) →
      ∀ ks cs, x = Node.internal ks cs →
      ∀ i k c c', ks[i]? = some k → cs[i]? = some c → cs[i + 1]? = some c' →
        (∀ e ∈ Node.toList c,
          if (intParams true).kDuplicates = true then (intParams true).comp e.1 k ≤ 0
          else (intParams true).comp e.1 k < 0) ∧
        (∀ e ∈ Node.toList c', (intParams true).comp k e.1 ≤ 0) :=
  have hr : Reachable (intParams true) multimapTies :=
    reachable_applyOps [.insert 1 10, .insert 2 20, .insert 2 21, .insert 3 30, .insert 2 22]
      Reachable.empty (by rfl)
  ⟨intParams_valid true, hr, rfl,
    separators_bound_subtrees (intParams_valid true) hr rfl⟩

end BPlusTree

namespace BPlusTree

variable {K V : Type} {p : Params K}

theorem mapTwoMinLeaves_reachable : Reachable (intParams false) mapTwoMinLeaves :=
  reachable_applyOps
    [.insert 1 10, .insert 2 20, .insert 3 30, .insert 4 40, .erase 2, .erase 4]
    Reachable.empty (by rfl)

/-- Claim C40: on every reachable tree `erase` terminates.  The loop of
`node::erase`, restarts from a new root after a root shrink included, ends
within `height + 1` iterations (any larger bound gives a result as well), and
so do the walks down the left spine inside it; the call then returns true or
false or, in duplicate mode, reads the null successor of the leaf reached, and
it never stops for lack of iterations. -/
theorem erase_descent_terminates (hv : p.Valid) {t : Tree K V} (hr : Reachable p t) (key : K) :
    (∀ r, t.root = some r → ∀ fuel, r.height < fuel →
      ∃ step, Node.erase_loop p key fuel r true false = .ok step) ∧
    ((∃ b t', btree.erase p t key = .ok (b, t')) ∨ btree.erase p t key = .error .nullNode) ∧
    btree.erase p t key ≠ .error .fuel := by
  have hinv := btree.reachable_inv hv hr
  have hcases := btree.erase_spec hv hinv key
  refine ⟨?_, ?_, ?_⟩
  · intro r hroot fuel hf
    unfold TreeInv at hinv
    rw [hroot] at hinv
    obtain ⟨⟨h, hW⟩, _⟩ := hinv
    rw [hW.height_eq] at hf
    obtain ⟨step, hstep, _⟩ := Node.erase_loop_spec hv key fuel h r true false
      (fun _ => ⟨hW, rfl⟩) (fun h => by cases h) hf
    exact ⟨step, hstep⟩
  · rcases hcases with ⟨t', h1, _⟩ | ⟨t', h1, _⟩ | ⟨h1, _⟩
    · exact Or.inl ⟨true, t', h1⟩
    · exact Or.inl ⟨false, t', h1⟩
    · exact Or.inr h1
  · rcases hcases with ⟨t', h1, _⟩ | ⟨t', h1, _⟩ | ⟨h1, _⟩ <;>
    · rw [h1]
      intro hc
      cases hc

theorem erase_descent_terminates_witness :
    (intParams false).Valid ∧ Reachable (intParams false) mapTwoMinLeaves ∧
    (∀ r, mapTwoMinLeaves.root = some r → ∀ fuel, r.height < fuel →
      ∃ step, Node.erase_loop (intParams false) 1 fuel r true false = .ok step) ∧
    ((∃ b t', btree.erase (intParams false) mapTwoMinLeaves 1 = .ok (b, t')) ∨
      btree.erase (intParams false) mapTwoMinLeaves 1 = .error .nullNode) ∧
    btree.erase (intParams false) mapTwoMinLeaves 1 ≠ .error .fuel :=
  ⟨intParams_valid false, mapTwoMinLeaves_reachable,
    erase_descent_terminates (intParams_valid false) mapTwoMinLeaves_reachable 1⟩

/-- Claim C38: on every reachable tree no merge inside `try_rebalance_or_merge`
leaves a node other than the root without keys: `erase` never replaces the root
pointer by a child of a node that is not the root, neither in its descent nor
in the walk down the left spine.  When the merge at the root `x` of the tree
leaves it without keys, `x` had one key, and the child that becomes the root
holds the same entries in the same order and is one level lower. -/
theorem shrink_only_at_root (hv : p.Valid) {t : Tree K V} (hr : Reachable p t) (key : K) :
    btree.erase p t key ≠ .error .lostRoot ∧
    ∀ ks cs, t.root = some (Node.internal ks cs) →
      ∀ i newRoot j,
        Node.try_rebalance_or_merge p (Node.internal ks cs) true i =
          .ok (.kShrinked, newRoot, j) →
        ks.length = 1 ∧ Node.toList newRoot = Node.toList (Node.internal ks cs) ∧
        newRoot.height + 1 = (Node.internal ks cs).height ∧
        ∃ h, Node.Wf p 1 1 h newRoot := by
  have hinv := btree.reachable_inv hv hr
  constructor
  · rcases btree.erase_spec hv hinv key with ⟨t', h1, _⟩ | ⟨t', h1, _⟩ | ⟨h1, _⟩ <;>
    · rw [h1]
      intro hc
      cases hc
  · intro ks cs hroot i newRoot j hrun
    unfold TreeInv at hinv
    rw [hroot] at hinv
    obtain ⟨⟨h, hW⟩, _⟩ := hinv
    cases h with
    | zero => cases hW
    | succ h =>
      have hcl := Node.wf_cs_length hW
      have hk1 : 1 ≤ ks.length := by
        cases hW with
        | internal _ _ _ _ _ g1 _ _ _ _ => exact g1
      have hi : i ≤ ks.length := by
        by_contra hc
        have hnone : cs[i]? = none := List.getElem?_eq_none (by omega)
        unfold Node.try_rebalance_or_merge at hrun
        simp [Node.children, hnone] at hrun
      obtain ⟨r, hr', htl, hcase⟩ :=
        Node.try_rebalance_or_merge_spec hv true hW hk1 hi (Or.inl rfl)
      rw [hrun] at hr'
      injection hr' with hr'
      subst hr'
      simp only at htl hcase
      rcases hcase with ⟨_, _, hnW⟩ | ⟨hns, _⟩
      · have hlen : ks.length = 1 := by
          have hmerge : ks.length ≤ 1 := by
            by_contra hgt
            -- with two keys or more the merge leaves a key in `x`
            unfold Node.try_rebalance_or_merge at hrun
            simp only [Node.children, Node.count, List.get?_eq_getElem?] at hrun
            have hms : ∀ jj r', Node.merge_and_shrink p (Node.internal ks cs) true jj = .ok r' →
                r'.1 = .kShrinked → False := by
              intro jj r' hm hsh
              unfold Node.merge_and_shrink at hm
              cases hmg : Node.merge p (Node.internal ks cs) jj with
              | error f => rw [hmg] at hm; cases hm
              | ok x' =>
                rw [hmg] at hm
                simp only at hm
                have hcount : x'.count = ks.length - 1 := by
                  unfold Node.merge at hmg
                  simp only [List.get?_eq_getElem?] at hmg
                  split at hmg
                  · rename_i y z xk hy hz hxk
                    obtain ⟨_, _, hjlt⟩ := list_split_at hxk
                    split at hmg
                    · split at hmg
                      · cases hmg
                      · injection hmg with hmg
                        subst hmg
                        simp [Node.count, List.length_eraseIdx, hjlt]
                    · split at hmg
                      · cases hmg
                      · injection hmg with hmg
                        subst hmg
                        simp [Node.count, List.length_eraseIdx, hjlt]
                    · cases hmg
                  · cases hmg
                have hne : (x'.count == 0) = false := by
                  simp only [beq_eq_false_iff_ne, ne_eq]
                  omega
                simp only [hne, Bool.false_eq_true, if_false] at hm
                injection hm with hm
                subst hm
                cases hsh
            cases hc : cs[i]? with
            | none => rw [hc] at hrun; cases hrun
            | some c =>
              rw [hc] at hrun
              simp only at hrun
              split at hrun
              · split at hrun
                · cases hl : cs[i - 1]? with
                  | none => rw [hl] at hrun; cases hrun
                  | some l =>
                    rw [hl] at hrun
                    simp only at hrun
                    split at hrun
                    · cases hm : Node.rebalance_left_to_right p (Node.internal ks cs) i with
                      | error f => rw [hm] at hrun; cases hrun
                      | ok x' => rw [hm] at hrun; cases hrun
                    · split at hrun
                      · cases hrun
                      · cases hm : Node.rebalance_right_to_left p (Node.internal ks cs) i with
                        | error f => rw [hm] at hrun; cases hrun
                        | ok x' => rw [hm] at hrun; cases hrun
                      · exact hms _ _ hrun rfl
                · cases hrr : cs[i + 1]? with
                  | none => rw [hrr] at hrun; cases hrun
                  | some rr =>
                    rw [hrr] at hrun
                    simp only at hrun
                    split at hrun
                    · cases hm : Node.rebalance_right_to_left p (Node.internal ks cs) i with
                      | error f => rw [hm] at hrun; cases hrun
                      | ok x' => rw [hm] at hrun; cases hrun
                    · exact hms _ _ hrun rfl
              · cases hrun
          omega
        refine ⟨hlen, by simpa using htl, ?_, h, hnW⟩
        rw [hnW.height_eq, hW.height_eq]
      · exact absurd rfl hns

theorem shrink_only_at_root_witness :
    (intParams false).Valid ∧ Reachable (intParams false) mapTwoMinLeaves ∧
    btree.erase (intParams false) mapTwoMinLeaves 1 ≠ .error .lostRoot ∧
    ∀ ks cs, mapTwoMinLeaves.root = some (Node.internal ks cs) →
      ∀ i newRoot j,
        Node.try_rebalance_or_merge (intParams false) (Node.internal ks cs) true i =
          .ok (.kShrinked, newRoot, j) →
        ks.length = 1 ∧ Node.toList newRoot = Node.toList (Node.internal ks cs) ∧
        newRoot.height + 1 = (Node.internal ks cs).height ∧
        ∃ h, Node.Wf (intParams false) 1 1 h newRoot :=
  ⟨intParams_valid false, mapTwoMinLeaves_reachable,
    shrink_only_at_root (intParams_valid false) mapTwoMinLeaves_reachable 1⟩

end BPlusTree

namespace BPlusTree

variable {K V : Type}

namespace LNode

/-- Entries below siblings of which two adjacent ones were joined. -/
theorem inorderL_merged (L R : List (LNode K V)) (y z y' : LNode K V)
    (h : inorder y' = inorder y ++ inorder z) :
    inorderL (L ++ y' :: R) = inorderL (L ++ y :: z :: R) := by
  induction L with
  | nil => simp [inorderL, h]
  | cons c L ih =>
    rw [List.cons_append, List.cons_append]
    simp only [inorderL]
    rw [ih]

theorem inorderL_append (a b : List (LNode K V)) :
    inorderL (a ++ b) = inorderL a ++ inorderL b := by
  induction a with
  | nil => simp [inorderL]
  | cons c a ih => simp [inorderL, ih]

end LNode

/-- Claim C31: `merge(x, y, z, i)` on the adjacent children `y = children[i]`
and `z = children[i + 1]` of `x`, of the same kind and small enough to fit one
node, returns; `y` then holds its entries followed by those of `z` (for
internal children with `keys[i]` of `x` in between, so the count of `y` becomes
`ycount + 1 + zcount`, for leaves `ycount + zcount`); `keys[i]` and
`children[i + 1]` are removed from `x`, whose count decreases by one and whose
other keys and children are as before; for leaves `z` is spliced out of the
chain (`y.next` is the old `z.next` and, if that is not null, its `prev` is
`y`; no other link changes, and a doubly linked chain through the leaves of `x`
stays one without `z`); the in-order sequence of the entries below `x` is
unchanged. -/
theorem merge_joins_and_splices (p : Params K) (h : Heap) {ks : List K}
    {cs : List (LNode K V)} {i : Nat} {xk : K} {y z : LNode K V}
    (hk : ks[i]? = some xk) (hy : cs[i]? = some y) (hz : cs[i + 1]? = some z) :
    (∀ ya ye za ze, y = .leaf ya ye → z = .leaf za ze →
      ye.length + ze.length ≤ p.kLeafNodeMaxKeys →
      ∃ h' x', LNode.merge p h (.internal ks cs) i = .ok (x', h') ∧
        x' = .internal (ks.take i ++ ks.drop (i + 1))
          (cs.take i ++ .leaf ya (ye ++ ze) :: cs.drop (i + 2)) ∧
        x'.count + 1 = (LNode.internal ks cs).count ∧
        x'.children.length + 1 = cs.length ∧
        x'.children[i]? = some (.leaf ya (ye ++ ze)) ∧
        (LNode.leaf ya (ye ++ ze) : LNode K V).count = y.count + z.count ∧
        h'.next ya = h.next za ∧
        (∀ n, h.next za = some n → h'.prev n = some ya) ∧
        (∀ a, a ≠ ya → h'.next a = h.next a) ∧
        (∀ a, h.next za ≠ some a → h'.prev a = h.prev a) ∧
        x'.addrs = LNode.addrsL (cs.take i) ++ ya :: LNode.addrsL (cs.drop (i + 2)) ∧
        (∀ A B, LNode.Shape (.internal ks cs) →
          Linked h (A ++ (LNode.addrs (.internal ks cs) ++ B)) →
          Linked h' (A ++ (x'.addrs ++ B))) ∧
        x'.inorder = (LNode.internal ks cs).inorder) ∧
    (∀ yk yc zk zc, y = .internal yk yc → z = .internal zk zc →
      yk.length + 1 + zk.length ≤ p.kInternalNodeMaxKeys →
      ∃ x', LNode.merge p h (.internal ks cs) i = .ok (x', h) ∧
        x' = .internal (ks.take i ++ ks.drop (i + 1))
          (cs.take i ++ .internal (yk ++ xk :: zk) (yc ++ zc) :: cs.drop (i + 2)) ∧
        x'.count + 1 = (LNode.internal ks cs).count ∧
        x'.children.length + 1 = cs.length ∧
        x'.children[i]? = some (.internal (yk ++ xk :: zk) (yc ++ zc)) ∧
        (LNode.internal (yk ++ xk :: zk) (yc ++ zc)).count = y.count + 1 + z.count ∧
        x'.inorder = (LNode.internal ks cs).inorder) := by
  obtain ⟨hcs, hcl⟩ := Node.pair_split hy hz
  obtain ⟨hks, hkl, hilt⟩ := list_split_at hk
  have hek : ks.eraseIdx i = ks.take i ++ ks.drop (i + 1) := List.eraseIdx_eq_take_drop_succ ks i
  have hkcount : (ks.take i ++ ks.drop (i + 1)).length + 1 = ks.length := by
    simp; omega
  have hclen : ∀ y' : LNode K V, (cs.take i ++ y' :: cs.drop (i + 2)).length + 1 = cs.length := by
    intro y'
    have := congrArg List.length hcs
    simp at this ⊢
    omega
  have hget : ∀ y' : LNode K V, (cs.take i ++ y' :: cs.drop (i + 2))[i]? = some y' := by
    intro y'
    have := get_mid0 (cs.take i) y' (cs.drop (i + 2))
    rw [hcl] at this
    exact this
  constructor
  · intro ya ye za ze hye hze hfit
    subst hye
    subst hze
    have hrun : LNode.merge p h (.internal ks cs) i =
        .ok (.internal (ks.take i ++ ks.drop (i + 1))
          (cs.take i ++ .leaf ya (ye ++ ze) :: cs.drop (i + 2)),
          (match h.next za with
            | some n => h.setPrev n (some ya)
            | none => h).setNext ya
            ((match h.next za with
              | some n => h.setPrev n (some ya)
              | none => h).next za)) := by
      simp only [LNode.merge, List.get?_eq_getElem?, hy, hz, hk]
      rw [if_neg (by omega), hek, merge_pair _ hy hz]
    have hnext : (match h.next za with
        | some n => h.setPrev n (some ya)
        | none => h).next za = h.next za := by
      cases hn : h.next za <;> simp [Heap.setPrev, hn]
    rw [hnext] at hrun
    refine ⟨_, _, hrun, rfl, ?_, ?_, ?_, ?_, ?_, ?_, ?_, ?_, ?_, ?_, ?_⟩
    · simpa [LNode.count] using hkcount
    · simpa [LNode.children] using hclen (.leaf ya (ye ++ ze))
    · simpa [LNode.children] using hget (.leaf ya (ye ++ ze))
    · simp [LNode.count]
    · simp [Heap.setNext]
    · intro n hn
      simp [hn, Heap.setNext, Heap.setPrev]
    · intro a ha
      cases hn : h.next za <;> simp [Heap.setNext, Heap.setPrev, ha]
    · intro a ha
      cases hn : h.next za with
      | none => simp [Heap.setNext]
      | some n =>
        have : a ≠ n := by
          intro hc
          subst hc
          exact ha hn
        simp [Heap.setNext, Heap.setPrev, this]
    · simp [LNode.addrsL_append]
    · intro A B hs hl
      exact (LNode.merge_chain hrun hs hl).2
    · simp only [LNode.inorder]
      conv_rhs => rw [hcs]
      exact LNode.inorderL_merged _ _ _ _ _ (by simp [LNode.inorder])
  · intro yk yc zk zc hye hze hfit
    subst hye
    subst hze
    have hrun : LNode.merge p h (.internal ks cs) i =
        .ok (.internal (ks.take i ++ ks.drop (i + 1))
          (cs.take i ++ .internal (yk ++ xk :: zk) (yc ++ zc) :: cs.drop (i + 2)), h) := by
      simp only [LNode.merge, List.get?_eq_getElem?, hy, hz, hk]
      rw [if_neg (by omega), hek, merge_pair _ hy hz]
    refine ⟨_, hrun, rfl, ?_, ?_, ?_, ?_, ?_⟩
    · simpa [LNode.count] using hkcount
    · simpa [LNode.children] using hclen (.internal (yk ++ xk :: zk) (yc ++ zc))
    · simpa [LNode.children] using hget (.internal (yk ++ xk :: zk) (yc ++ zc))
    · simp [LNode.count]; omega
    · simp only [LNode.inorder]
      conv_rhs => rw [hcs]
      exact LNode.inorderL_merged _ _ _ _ _ (by simp [LNode.inorder, LNode.inorderL_append])

theorem merge_joins_and_splices_witness :
    ([3, 5] : List Int)[0]? = some 3 ∧
    threeLeafChildren[0]? = some (.leaf 0 [(1, 10)]) ∧
    threeLeafChildren[0 + 1]? = some (.leaf 1 [(3, 30)]) ∧
    (∀ ya ye za ze, (LNode.leaf 0 [(1, 10)] : LNode Int Nat) = .leaf ya ye →
      (LNode.leaf 1 [(3, 30)] : LNode Int Nat) = .leaf za ze →
      ye.length + ze.length ≤ (intParams false).kLeafNodeMaxKeys →
      ∃ h' x', LNode.merge (intParams false) threeLeafHeap (.internal [3, 5] threeLeafChildren) 0 =
          .ok (x', h') ∧
        x' = .internal (([3, 5] : List Int).take 0 ++ ([3, 5] : List Int).drop (0 + 1))
          (threeLeafChildren.take 0 ++ .leaf ya (ye ++ ze) :: threeLeafChildren.drop (0 + 2)) ∧
        x'.count + 1 = (LNode.internal [3, 5] threeLeafChildren).count ∧
        x'.children.length + 1 = threeLeafChildren.length ∧
        x'.children[0]? = some (.leaf ya (ye ++ ze)) ∧
        (LNode.leaf ya (ye ++ ze) : LNode Int Nat).count =
          (LNode.leaf 0 [(1, 10)] : LNode Int Nat).count +
            (LNode.leaf 1 [(3, 30)] : LNode Int Nat).count ∧
        h'.next ya = threeLeafHeap.next za ∧
        (∀ n, threeLeafHeap.next za = some n → h'.prev n = some ya) ∧
        (∀ a, a ≠ ya → h'.next a = threeLeafHeap.next a) ∧
        (∀ a, threeLeafHeap.next za ≠ some a → h'.prev a = threeLeafHeap.prev a) ∧
        x'.addrs = LNode.addrsL (threeLeafChildren.take 0) ++
          ya :: LNode.addrsL (threeLeafChildren.drop (0 + 2)) ∧
        (∀ A B, LNode.Shape (.internal [3, 5] threeLeafChildren) →
          Linked threeLeafHeap (A ++ (LNode.addrs (.internal [3, 5] threeLeafChildren) ++ B)) →
          Linked h' (A ++ (x'.addrs ++ B))) ∧
        x'.inorder = (LNode.internal [3, 5] threeLeafChildren).inorder) ∧
    (∀ yk yc zk zc, (LNode.leaf 0 [(1, 10)] : LNode Int Nat) = .internal yk yc →
      (LNode.leaf 1 [(3, 30)] : LNode Int Nat) = .internal zk zc →
      yk.length + 1 + zk.length ≤ (intParams false).kInternalNodeMaxKeys →
      ∃ x', LNode.merge (intParams false) threeLeafHeap (.internal [3, 5] threeLeafChildren) 0 =
          .ok (x', threeLeafHeap) ∧
        x' = .internal (([3, 5] : List Int).take 0 ++ ([3, 5] : List Int).drop (0 + 1))
          (threeLeafChildren.take 0 ++ .internal (yk ++ 3 :: zk) (yc ++ zc) ::
            threeLeafChildren.drop (0 + 2)) ∧
        x'.count + 1 = (LNode.internal [3, 5] threeLeafChildren).count ∧
        x'.children.length + 1 = threeLeafChildren.length ∧
        x'.children[0]? = some (.internal (yk ++ 3 :: zk) (yc ++ zc)) ∧
        (LNode.internal (yk ++ 3 :: zk) (yc ++ zc)).count =
          (LNode.leaf 0 [(1, 10)] : LNode Int Nat).count + 1 +
            (LNode.leaf 1 [(3, 30)] : LNode Int Nat).count ∧
        x'.inorder = (LNode.internal [3, 5] threeLeafChildren).inorder) :=
  ⟨rfl, rfl, rfl,
    merge_joins_and_splices (intParams false) threeLeafHeap
      (show ([3, 5] : List Int)[0]? = some 3 from rfl)
      (show threeLeafChildren[0]? = some (.leaf 0 [(1, 10)]) from rfl)
      (show threeLeafChildren[0 + 1]? = some (.leaf 1 [(3, 30)]) from rfl)⟩

end BPlusTree

namespace BPlusTree

theorem linkedStale_run :
    LTree.applyOps (intParams true) LTree.empty linkedStaleOps = .ok linkedStale := by
  rfl

theorem linkedStale_reachable : LReachable (intParams true) linkedStale :=
  lreachable_applyOps _ LReachable.empty linkedStale_run

set_option maxHeartbeats 4000000 in
/-- Claim C36 fails on the code: on the reachable multimap with the routing keys
3 and 5 over the leaves `[1, 2]`, `[3]` and `[6]`, `erase(5)` matches the stale
routing key 5, merges the last two leaves and sets the carry; the leaf it
reaches (address 1, now the last leaf) does not hold the key, and its `next`
pointer is null, so `x = x->next()` followed by `x->_M_keys[0]` reads through a
null pointer. -/
theorem erase_carry_null_successor :
    LReachable (intParams true) linkedStale ∧
    linkedStale.strip = multimapStale ∧
    (∃ r, linkedStale.root = some r ∧
      (LNode.erase_loop (intParams true) 5 (r.height + 1) linkedStale.heap r true false).map
        (fun s => match s.1 with
          | .successor x a => some (x.addrs, x.leafAt a, a, s.2.next a)
          | _ => none) = .ok (some ([0, 1], some [(3, 30), (6, 60)], 1, none))) ∧
    LTree.erase (intParams true) linkedStale 5 = .error .nullNode := by
  refine ⟨linkedStale_reachable, ?_, ⟨_, rfl, ?_⟩, ?_⟩
  · rfl
  · rfl
  · rfl

end BPlusTree

namespace BPlusTree

variable {K V : Type} {p : Params K}

namespace LNode

/-- Without the links, the descent of `lower_bound` is the one of the tree:
the leaf reached is the one at the address found at its place in the chain. -/
theorem lower_bound_descend_strip (key : K) :
    ∀ (fuel : Nat) (x : LNode K V) (off : Nat) (carry found carry' : Bool) (c : Cursor),
      btree.lower_bound_descend p key fuel x.strip off carry = .ok (found, carry', c) →
      ∃ a, lower_bound_descend p key fuel x carry =
          .ok (found, carry', { node := a, pos := c.pos }) ∧
        off ≤ c.leaf ∧ (addrs x)[c.leaf - off]? = some a := by
  intro fuel
  induction fuel with
  | zero =>
    intro x off carry found carry' c h
    simp [btree.lower_bound_descend] at h
  | succ fuel ih =>
    intro x off carry found carry' c h
    cases x with
    | leaf a es =>
      simp only [strip_leaf, btree.lower_bound_descend, Except.ok.injEq, Prod.mk.injEq] at h
      obtain ⟨h1, h2, h3⟩ := h
      subst h1
      subst h2
      subst h3
      exact ⟨a, by simp [lower_bound_descend], le_refl _, by simp⟩
    | internal ks cs =>
      simp only [strip_internal, btree.lower_bound_descend, List.get?_eq_getElem?] at h
      simp only [lower_bound_descend, List.get?_eq_getElem?]
      generalize (if (Node.lower_bound p.comp ks key).1 && !p.kDuplicates
        then (Node.lower_bound p.comp ks key).2 + 1
        else (Node.lower_bound p.comp ks key).2) = pos at h ⊢
      generalize (if (Node.lower_bound p.comp ks key).1 && p.kDuplicates then true
        else carry) = carry1 at h ⊢
      rw [stripL_eq_map, List.getElem?_map] at h
      cases hc : cs[pos]? with
      | none => rw [hc] at h; simp at h
      | some c0 =>
        rw [hc] at h
        simp only [Option.map_some'] at h
        obtain ⟨a, hrun, hle, hget⟩ := ih c0 _ carry1 found carry' c h
        refine ⟨a, hrun, by omega, ?_⟩
        have hlen : (Node.leavesL (List.take pos (List.map strip cs))).length =
            (addrsL (cs.take pos)).length := by
          rw [addrsL_length, stripL_eq_map, List.map_take]
        rw [hlen] at hle hget
        have hlt : c.leaf - (off + (addrsL (cs.take pos)).length) < (addrs c0).length :=
          (List.getElem?_eq_some.1 hget).1
        rw [addrs_internal, addrsL_split hc,
          List.getElem?_append_right (by omega)]
        have hidx : c.leaf - off - (addrsL (cs.take pos)).length =
            c.leaf - (off + (addrsL (cs.take pos)).length) := by omega
        rw [hidx, List.getElem?_append_left hlt]
        exact hget

end LNode

/-- Claim C37: on every reachable tree the descent of `lower_bound` (and of
`find`, which calls it) returns, and whenever it misses the key in the leaf it
reaches while the carry is set, the `next` pointer of that leaf is not null and
the leaf it points to holds at least one entry, so that the comparison with
slot 0 of the successor is defined; `lower_bound` and `find` then return. -/
theorem lower_bound_successor_holds_entry (hv : p.Valid) {t : LTree K V}
    (hr : LReachable p t) (key : K) :
    (∃ r oc, LTree.lower_bound p t key = .ok (r, oc) ∧ LTree.find p t key = .ok (r, oc)) ∧
    ∀ root, t.root = some root → t.nkeys ≠ 0 →
      ∃ found carry c,
        LNode.lower_bound_descend p key (root.height + 1) root false = .ok (found, carry, c) ∧
        (carry = true → p.kDuplicates = true) ∧
        (found = false → carry = true →
          ∃ b e es, t.heap.next c.node = some b ∧ root.leafAt b = some (e :: es) ∧
            LTree.entryAt t { node := b, pos := 0 } = .ok e) := by
  have hinv := lreachable_inv hv hr
  have hmain : ∀ root, t.root = some root → t.nkeys ≠ 0 →
      ∃ found carry c,
        LNode.lower_bound_descend p key (root.height + 1) root false = .ok (found, carry, c) ∧
        (carry = true → p.kDuplicates = true) ∧
        (found = false → carry = true →
          ∃ b e es, t.heap.next c.node = some b ∧ root.leafAt b = some (e :: es) ∧
            LTree.entryAt t { node := b, pos := 0 } = .ok e) := by
    intro root hroot hne
    obtain ⟨r, h, hroot', hW, _, hl⟩ := LTree.inv_root hinv (by simpa [LTree.count] using hne)
    rw [hroot] at hroot'
    injection hroot' with hroot'
    subst hroot'
    have hview := LTree.view_of_inv hv hroot hW hl
    obtain ⟨hvlen, hvslots, hvseg, hvne⟩ := hview
    have hheight : root.height = h := by
      rw [← LNode.strip_height]
      exact hW.height_eq
    obtain ⟨found, carry', j, i, es, hdesc, hpost⟩ :=
      Node.lower_bound_descend_spec hv key (h + 1) h root.strip 0 false 1 1 hW (le_refl _)
        (by omega) (fun hc => by cases hc)
    obtain ⟨a, hrun, _, hget⟩ := LNode.lower_bound_descend_strip key (h + 1) root 0 false found
      carry' _ hdesc
    simp only [Nat.zero_add, Nat.sub_zero] at hget hrun
    refine ⟨found, carry', _, by rw [hheight]; exact hrun, ?_, ?_⟩
    · intro hc
      cases hf : found with
      | true =>
        -- the carry is only ever set in duplicate mode
        cases hd : p.kDuplicates with
        | true => rfl
        | false =>
          exfalso
          have hnc : ∀ (fuel : Nat) (x : Node K V) (off : Nat) (f c1 : Bool) (cu : Cursor),
              btree.lower_bound_descend p key fuel x off false = .ok (f, c1, cu) →
              c1 = false := by
            intro fuel
            induction fuel with
            | zero => intro x off f c1 cu hh; simp [btree.lower_bound_descend] at hh
            | succ fuel ih =>
              intro x off f c1 cu hh
              cases x with
              | leaf es0 =>
                simp only [btree.lower_bound_descend, Except.ok.injEq, Prod.mk.injEq] at hh
                exact hh.2.1.symm
              | internal ks0 cs0 =>
                simp only [btree.lower_bound_descend, hd, Bool.and_false, Bool.false_eq_true,
                  if_false] at hh
                split at hh
                · cases hh
                · exact ih _ _ _ _ _ hh
          have := hnc _ _ _ _ _ _ hdesc
          rw [this] at hc
          cases hc
      | false =>
        obtain ⟨_, _, _, _, hmiss⟩ := hpost
        exact ((hmiss hf).2.2 hc).1
    · intro hf hc
      obtain ⟨hjes, _, _, _, hmiss⟩ := hpost
      obtain ⟨_, _, hcarry⟩ := hmiss hf
      obtain ⟨_, hcase⟩ := hcarry hc
      rcases hcase with ⟨hcf, _⟩ | ⟨hj, _⟩
      · cases hcf
      · have hjl : j + 1 < root.addrs.length := by rw [hvlen]; exact hj
        have hgb : root.addrs[j + 1]? = some root.addrs[j + 1] := List.getElem?_eq_getElem hjl
        have hnext := seg_next hvseg hget
        rw [hgb] at hnext
        simp only at hnext
        have hges : (Node.leaves root.strip)[j + 1]? = some (Node.leaves root.strip)[j + 1] :=
          List.getElem?_eq_getElem hj
        have hslots := hvslots (j + 1) _ _ hgb hges
        have hnonempty := (hvne _ (List.getElem?_mem hges)).1
        obtain ⟨e, es', hes'⟩ := List.exists_cons_of_ne_nil hnonempty
        have hleaf : root.leafAt root.addrs[j + 1] = some (e :: es') := by
          unfold LTree.slots at hslots
          rw [hroot] at hslots
          simp only at hslots
          cases hla : root.leafAt root.addrs[j + 1] with
          | none => rw [hla] at hslots; cases hslots
          | some l =>
            rw [hla] at hslots
            injection hslots with hslots
            rw [hslots, hes']
        refine ⟨_, e, es', hnext, hleaf, ?_⟩
        simp [LTree.entryAt, hslots, hes']
  refine ⟨?_, hmain⟩
  unfold LTree.find LTree.lower_bound
  by_cases hn : t.nkeys = 0
  · simp [hn]
  · have hn' : (t.nkeys == 0) = false := by simpa using hn
    simp only [hn', Bool.false_eq_true, if_false]
    obtain ⟨r, h, hroot, _⟩ := LTree.inv_root hinv (by simpa [LTree.count] using hn)
    obtain ⟨found, carry, c, hrun, hcd, hsucc⟩ := hmain r hroot hn
    simp only [hroot, hrun]
    cases found with
    | true => exact ⟨true, some c, rfl, rfl⟩
    | false =>
      simp only
      by_cases hcond : (!p.kDuplicates || !carry) = true
      · simp only [hcond, if_true]
        exact ⟨false, some c, rfl, rfl⟩
      · simp only [hcond, Bool.false_eq_true, if_false]
        have hcarry : carry = true := by
          cases carry with
          | true => rfl
          | false => simp at hcond
        obtain ⟨b, e, es, hnext, hleaf, _⟩ := hsucc rfl hcarry
        simp only [hnext, hleaf]
        split
        · exact ⟨_, _, rfl, rfl⟩
        · exact ⟨_, _, rfl, rfl⟩

theorem lower_bound_successor_holds_entry_witness :
    (intParams true).Valid ∧ LReachable (intParams true) linkedStale ∧
    (∃ r oc, LTree.lower_bound (intParams true) linkedStale 5 = .ok (r, oc) ∧
      LTree.find (intParams true) linkedStale 5 = .ok (r, oc)) ∧
    ∀ root, linkedStale.root = some root → linkedStale.nkeys ≠ 0 →
      ∃ found carry c,
        LNode.lower_bound_descend (intParams true) 5 (root.height + 1) root false =
          .ok (found, carry, c) ∧
        (carry = true → (intParams true).kDuplicates = true) ∧
        (found = false → carry = true →
          ∃ b e es, linkedStale.heap.next c.node = some b ∧ root.leafAt b = some (e :: es) ∧
            LTree.entryAt linkedStale { node := b, pos := 0 } = .ok e) :=
  ⟨intParams_valid true, linkedStale_reachable,
    lower_bound_successor_holds_entry (intParams_valid true) linkedStale_reachable 5⟩

end BPlusTree

namespace BPlusTree

variable {K V : Type} {p : Params K}

theorem copyKept_infix {a l b : List (Bool × K)} (h : CopyKept (a ++ (l ++ b))) :
    CopyKept l :=
  List.Chain'.infix h ⟨a, b, by simp⟩

theorem copyKept_sub {l l' : List (Bool × K)} (h : CopyKept l') (hin : l <:+: l') :
    CopyKept l :=
  List.Chain'.infix h hin

theorem copySafe_refl (l : List (Bool × K)) : CopySafe l l := fun _ _ h => h

theorem copySafe_trans {l1 l2 l3 : List (Bool × K)} (h1 : CopySafe l1 l2)
    (h2 : CopySafe l2 l3) : CopySafe l1 l3 := fun a b h => h2 a b (h1 a b h)

theorem copySafe_ctx {l l' : List (Bool × K)} (c d : List (Bool × K)) (h : CopySafe l l') :
    CopySafe (c ++ (l ++ d)) (c ++ (l' ++ d)) := by
  intro a b ht
  have h1 : a ++ ((c ++ (l ++ d)) ++ b) = (a ++ c) ++ (l ++ (d ++ b)) := by simp
  have h2 : a ++ ((c ++ (l' ++ d)) ++ b) = (a ++ c) ++ (l' ++ (d ++ b)) := by simp
  rw [h2]
  rw [h1] at ht
  exact h _ _ ht

theorem copySafe_of_eq {l l' : List (Bool × K)} (h : l = l') : CopySafe l l' := by
  subst h
  exact copySafe_refl l

/-- A routing key that is a copy of the entry after it may be put between two
entries. -/
theorem copySafe_ins (a0 e : K) :
    CopySafe [((false, a0) : Bool × K), (false, e)] [(false, a0), (true, e), (false, e)] := by
  intro a b ht
  unfold CopyKept at ht ⊢
  simp only [List.cons_append, List.nil_append] at ht ⊢
  rw [List.chain'_split] at ht ⊢
  refine ⟨ht.1, ?_⟩
  have h2 := ht.2
  rw [List.chain'_cons] at h2
  rw [List.chain'_cons, List.chain'_cons]
  refine ⟨?_, ?_, h2.2⟩
  · intro hc
    cases hc
  · intro _
    rfl

theorem copySafeInsert_of_copySafe {key : K} {l l' : List (Bool × K)} (h : CopySafe l l') :
    CopySafeInsert p key l l' := fun a b _ _ ht => h a b ht

theorem copySafeInsert_trans_left {key : K} {l1 l2 l3 : List (Bool × K)} (h1 : CopySafe l1 l2)
    (h2 : CopySafeInsert p key l2 l3) : CopySafeInsert p key l1 l3 :=
  fun a b ha hb ht => h2 a b ha hb (h1 a b ht)

/-- A replacement that is safe at the place of an insertion stays safe inside
larger items that are `≤ key` before it and `> key` after it. -/
theorem copySafeInsert_ctx {key : K} {l l' : List (Bool × K)} (c d : List (Bool × K))
    (hc : ∀ x ∈ c, p.comp x.2 key ≤ 0) (hd : ∀ x ∈ d, p.comp key x.2 < 0)
    (h : CopySafeInsert p key l l') :
    CopySafeInsert p key (c ++ (l ++ d)) (c ++ (l' ++ d)) := by
  intro a b ha hb ht
  have h1 : a ++ ((c ++ (l ++ d)) ++ b) = (a ++ c) ++ (l ++ (d ++ b)) := by simp
  have h2 : a ++ ((c ++ (l' ++ d)) ++ b) = (a ++ c) ++ (l' ++ (d ++ b)) := by simp
  rw [h2]
  rw [h1] at ht
  refine h (a ++ c) (d ++ b) ?_ ?_ ht
  · intro x hx
    rcases List.mem_append.1 hx with hx | hx
    · exact ha x hx
    · exact hc x hx
  · intro x hx
    rcases List.mem_append.1 hx with hx | hx
    · exact hd x hx
    · exact hb x hx

/-- An entry with key `key` may be put between items `≤ key` and items
`> key`, the latter starting with an entry or empty: a routing key right
before that place would be a copy of an entry above `key`. -/
theorem copy_insert (hv : p.Valid) {A B : List (Bool × K)} {key : K}
    (hA : ∀ x ∈ A, p.comp x.2 key ≤ 0) (hB : ∀ x ∈ B, p.comp key x.2 < 0)
    (hne : A ≠ [] → (∃ A' a0, A = A' ++ [(false, a0)]) ∨ B ≠ [])
    (h : CopyKept (A ++ B)) : CopyKept (A ++ (false, key) :: B) := by
  unfold CopyKept at h ⊢
  rw [List.chain'_split]
  obtain ⟨h1, h2, h3⟩ := List.chain'_append.1 h
  constructor
  · rw [List.chain'_append]
    refine ⟨h1, List.chain'_singleton _, ?_⟩
    intro x hx y hy
    simp only [List.head?_cons, Option.mem_def, Option.some.injEq] at hy
    subst hy
    intro hx1
    exfalso
    have hAne : A ≠ [] := by
      intro hc
      subst hc
      simp at hx
    have hxA : x ∈ A := List.mem_of_mem_getLast? hx
    rcases hne hAne with ⟨A', a0, hA'⟩ | hBne
    · subst hA'
      rw [List.getLast?_concat] at hx
      simp only [Option.mem_def, Option.some.injEq] at hx
      subst hx
      cases hx1
    · obtain ⟨y, B', hB'⟩ := List.exists_cons_of_ne_nil hBne
      subst hB'
      have hstep := h3 x hx y (by simp) hx1
      have hle := hA x hxA
      have hlt := hB y (by simp)
      rw [hstep] at hlt
      simp only at hlt
      have := (hv.not_le_iff x.2 key).2 hlt
      exact this hle
  · rw [List.chain'_cons']
    refine ⟨?_, h2⟩
    intro y _ hc
    cases hc

end BPlusTree

namespace BPlusTree

variable {K V : Type} {p : Params K}

namespace Node

/-- The items after `split_child`: a leaf gets the routing key, a copy of the
first key of the new sibling, between the last entry that stays and that first
entry; an internal child gives its median key to the parent, which leaves the
items as they are. -/
theorem split_child_copy {ks : List K} {cs : List (Node K V)}
    {minL minI h i : Nat} {y x' : Node K V}
    (hx : Wf p minL minI (h + 1) (internal ks cs))
    (hy : cs[i]? = some y)
    (hrun : split_child p (internal ks cs) i = .ok x') :
    CopySafe (fullItems (internal ks cs)) (fullItems x') := by
  have hcl := wf_cs_length hx
  obtain ⟨hcs, hlen, hilt⟩ := list_split_at hy
  have hi : i ≤ ks.length := by omega
  have hyW := wf_child hx (List.getElem?_mem hy)
  have hkl : (ks.take i).length = (cs.take i).length := by simp; omega
  unfold split_child at hrun
  simp only [List.get?_eq_getElem?, hy] at hrun
  split at hrun
  · cases hrun
  · split at hrun
    · cases hrun
    · cases y with
      | leaf ye =>
        simp only at hrun
        cases hhead : (ye.drop p.kLeafNodeMedian).head? with
        | none => rw [hhead] at hrun; cases hrun
        | some e =>
          rw [hhead] at hrun
          simp only at hrun
          injection hrun with hrun
          subst hrun
          obtain ⟨rest, hrest⟩ : ∃ rest, ye.drop p.kLeafNodeMedian = e :: rest := by
            cases hd : ye.drop p.kLeafNodeMedian with
            | nil => rw [hd] at hhead; cases hhead
            | cons e' rest =>
              rw [hd] at hhead
              simp only [List.head?_cons, Option.some.injEq] at hhead
              subst hhead
              exact ⟨rest, rfl⟩
          have hyne : ye ≠ [] := leaf_ne_nil_of_wf hyW p.leafMin_pos
          have hmed : 1 ≤ p.kLeafNodeMedian :=
            le_trans p.leafMin_pos p.leafMedian_ge_min
          have htne : ye.take p.kLeafNodeMedian ≠ [] := by
            intro hc
            rcases List.take_eq_nil_iff.1 hc with hc | hc
            · omega
            · exact hyne hc
          obtain ⟨init, a0, hinit⟩ : ∃ init a0, ye.take p.kLeafNodeMedian = init ++ [a0] :=
            ⟨_, _, (List.dropLast_append_getLast htne).symm⟩
          rw [fullItems_at hi hy, fullItems_pair e.1 _ _ hkl]
          apply copySafe_ctx
          have hye : fullItems (leaf ye : Node K V) =
              init.map (fun e => (false, e.1)) ++
                ([(false, a0.1), (false, e.1)] ++ rest.map (fun e => (false, e.1))) := by
            conv_lhs => rw [← List.take_append_drop p.kLeafNodeMedian ye, hrest, hinit]
            simp
          have hnew : fullItems (leaf (ye.take p.kLeafNodeMedian) : Node K V) ++
              (true, e.1) :: fullItems (leaf (ye.drop p.kLeafNodeMedian) : Node K V) =
              init.map (fun e => (false, e.1)) ++
                ([(false, a0.1), (true, e.1), (false, e.1)] ++
                  rest.map (fun e => (false, e.1))) := by
            rw [hrest, hinit]
            simp
          rw [hye, hnew]
          exact copySafe_ctx _ _ (copySafe_ins a0.1 e.1)
      | internal yk yc =>
        simp only at hrun
        cases hup : yk[p.kInternalNodeMedian]? with
        | none => rw [hup] at hrun; cases hrun
        | some up =>
          rw [hup] at hrun
          simp only at hrun
          injection hrun with hrun
          subst hrun
          obtain ⟨hyk, hykl, hmlt⟩ := list_split_at hup
          have hycl : yc.length = yk.length + 1 := by
            cases hyW with
            | internal _ _ _ _ _ g1 g2 g3 g4 g5 => exact g3
          rw [fullItems_at hi hy, fullItems_pair up _ _ hkl]
          apply copySafe_ctx
          apply copySafe_of_eq
          have hcut := weave_cut (yk.take p.kInternalNodeMedian)
            ((yc.take (p.kInternalNodeMedian + 1)).map fullItems) up
            (yk.drop (p.kInternalNodeMedian + 1))
            ((yc.drop (p.kInternalNodeMedian + 1)).map fullItems)
            (by simp; omega)
            (by
              intro hc
              have := congrArg List.length hc
              simp at this
              omega)
          rw [← hyk, ← List.map_append, List.take_append_drop] at hcut
          simp only [fullItems_internal]
          exact hcut

/-- Lifting a replacement of child `i` that is safe at the place of an
insertion to the parent, when the routing keys left of `i` are `≤ key` and
those from `i` on are `> key`. -/
theorem copySafeInsert_set_child (hv : p.Valid) {ks : List K} {cs : List (Node K V)}
    {minL minI h i : Nat} {c c' : Node K V} {key : K}
    (hx : Wf p minL minI (h + 1) (internal ks cs)) (hi : i ≤ ks.length)
    (hc : cs[i]? = some c)
    (hkl : ∀ k ∈ ks.take i, p.comp k key ≤ 0) (hkr : ∀ k ∈ ks.drop i, p.comp key k < 0)
    (h : CopySafeInsert p key (fullItems c) (fullItems c')) :
    CopySafeInsert p key (fullItems (internal ks cs))
      (fullItems (internal ks (cs.set i c'))) := by
  rw [fullItems_at hi hc, fullItems_set c' hi hc]
  exact copySafeInsert_ctx _ _ (wpre_le hv hx hi hkl) (wtail_gt hv hx hi hkr) h

/-- The leaf part of `insert_non_full` on a leaf that holds an entry: an
overwrite leaves the keys as they are, and a new key goes after the entries
`≤ key`. -/
theorem insert_leaf_copy (hv : p.Valid) {es : List (K × V)}
    {minL minI : Nat} (fuel : Nat) (key : K) (value : V)
    (hx : Wf p minL minI 0 (leaf es)) (hne : es ≠ []) {x' : Node K V} {grew : Bool}
    (hrun : insert_non_full p (fuel + 1) (leaf es) key value = .ok (x', grew)) :
    CopySafeInsert p key (fullItems (leaf es : Node K V)) (fullItems x') := by
  cases hx with
  | leaf _ _ _ h1 h2 h3 =>
  obtain ⟨hpos, htake, hdrop, _⟩ :=
    upper_bound_spec hv (pairwise_le_of_before hv h3) key
  unfold insert_non_full at hrun
  simp only at hrun
  generalize (upper_bound p.comp (es.map Prod.fst) key).2 = i at hpos htake hdrop hrun
  generalize (upper_bound p.comp (es.map Prod.fst) key).1 = found at hrun
  have hsame : ∀ es' : List (K × V), es'.map Prod.fst = es.map Prod.fst →
      CopySafeInsert p key (fullItems (leaf es : Node K V)) (fullItems (leaf es' : Node K V)) := by
    intro es' hk
    apply copySafeInsert_of_copySafe
    apply copySafe_of_eq
    have h1 : ∀ l : List (K × V), l.map (fun e => ((false, e.1) : Bool × K)) =
        (l.map Prod.fst).map (fun k => (false, k)) := by
      intro l
      simp
    rw [fullItems_leaf, fullItems_leaf, h1 es, h1 es', hk]
  split at hrun
  · split at hrun
    · split at hrun
      · cases hrun
      · cases hget : es.get? i with
        | none =>
          rw [hget] at hrun
          injection hrun with hrun
          simp only [Prod.mk.injEq] at hrun
          rw [← hrun.1]
          exact hsame es rfl
        | some e1 =>
          rw [hget] at hrun
          injection hrun with hrun
          simp only [Prod.mk.injEq] at hrun
          rw [← hrun.1]
          apply hsame
          rw [List.get?_eq_getElem?] at hget
          obtain ⟨hes, _, _⟩ := list_split_at hget
          rw [set_eq_of_get _ hget]
          conv_rhs => rw [hes]
          simp
    · injection hrun with hrun
      simp only [Prod.mk.injEq] at hrun
      rw [← hrun.1]
      exact hsame es rfl
  · split at hrun
    · cases hrun
    · injection hrun with hrun
      simp only [Prod.mk.injEq] at hrun
      obtain ⟨hx', _⟩ := hrun
      subst hx'
      intro a b ha hb ht
      have hA : ∀ x ∈ a ++ (es.take i).map (fun e => ((false, e.1) : Bool × K)),
          p.comp x.2 key ≤ 0 := by
        intro x hx
        rcases List.mem_append.1 hx with hx | hx
        · exact ha x hx
        · obtain ⟨e, he, rfl⟩ := List.mem_map.1 hx
          exact htake e.1 (by rw [← List.map_take]; exact List.mem_map_of_mem _ he)
      have hB : ∀ x ∈ (es.drop i).map (fun e => ((false, e.1) : Bool × K)) ++ b,
          p.comp key x.2 < 0 := by
        intro x hx
        rcases List.mem_append.1 hx with hx | hx
        · obtain ⟨e, he, rfl⟩ := List.mem_map.1 hx
          exact hdrop e.1 (by rw [← List.map_drop]; exact List.mem_map_of_mem _ he)
        · exact hb x hx
      have hold : CopyKept ((a ++ (es.take i).map (fun e => ((false, e.1) : Bool × K))) ++
          ((es.drop i).map (fun e => ((false, e.1) : Bool × K)) ++ b)) := by
        have : a ++ (fullItems (leaf es : Node K V) ++ b) =
            (a ++ (es.take i).map (fun e => ((false, e.1) : Bool × K))) ++
              ((es.drop i).map (fun e => ((false, e.1) : Bool × K)) ++ b) := by
          have hsp : es.map (fun e => ((false, e.1) : Bool × K)) =
              (es.take i).map (fun e => ((false, e.1) : Bool × K)) ++
                (es.drop i).map (fun e => ((false, e.1) : Bool × K)) := by
            rw [← List.map_append, List.take_append_drop]
          rw [fullItems_leaf, hsp]
          simp only [List.append_assoc]
        rw [← this]
        exact ht
      have hside : a ++ (es.take i).map (fun e => ((false, e.1) : Bool × K)) ≠ [] →
          (∃ A' a0, a ++ (es.take i).map (fun e => ((false, e.1) : Bool × K)) =
            A' ++ [(false, a0)]) ∨
          (es.drop i).map (fun e => ((false, e.1) : Bool × K)) ++ b ≠ [] := by
        intro _
        by_cases htk : es.take i = []
        · right
          have hdr : es.drop i = es := by
            have := List.take_append_drop i es
            rw [htk] at this
            simpa using this
          obtain ⟨e, tl, hes⟩ := List.exists_cons_of_ne_nil hne
          rw [hdr, hes]
          simp
        · left
          refine ⟨a ++ ((es.take i).dropLast).map (fun e => ((false, e.1) : Bool × K)),
            ((es.take i).getLast htk).1, ?_⟩
          conv_lhs => rw [← List.dropLast_append_getLast htk]
          simp
      have hnew := copy_insert hv hA hB hside hold
      have : a ++ (fullItems (leaf (es.take i ++ (key, value) :: es.drop i) : Node K V) ++ b) =
          (a ++ (es.take i).map (fun e => ((false, e.1) : Bool × K))) ++
            (false, key) :: ((es.drop i).map (fun e => ((false, e.1) : Bool × K)) ++ b) := by
        simp
      rw [this]
      exact hnew

end Node

end BPlusTree

namespace BPlusTree

variable {K V : Type} {p : Params K}

namespace Node

/-- Effect of `insert_non_full` on the items of a well-formed node that is not
full: a replacement that keeps every routing key a copy of the entry after it,
at the place of the insertion. -/
theorem insert_non_full_copy (hv : p.Valid) (key : K) (value : V) :
    ∀ (fuel h minL minI : Nat) (x : Node K V), Wf p minL minI h x → 1 ≤ minL →
      x.full p = false → h < fuel →
      ∀ x' grew, insert_non_full p fuel x key value = .ok (x', grew) →
        CopySafeInsert p key (fullItems x) (fullItems x') := by
  intro fuel
  induction fuel with
  | zero => intro h minL minI x _ _ _ hf; omega
  | succ fuel ih =>
    intro h minL minI x hx hm hnf hf x' grew hrun
    cases hx with
    | leaf _ _ es h1 h2 h3 =>
      have hne : es ≠ [] := by
        intro hc
        subst hc
        simp at h1
        omega
      exact insert_leaf_copy hv fuel key value (Wf.leaf minL minI es h1 h2 h3) hne hrun
    | internal _ _ h ks cs h1 h2 h3 h4 h5 =>
      have hx : Wf p minL minI (h + 1) (internal ks cs) := Wf.internal _ _ h ks cs h1 h2 h3 h4 h5
      simp only [full, beq_eq_false_iff_ne, ne_eq] at hnf
      have hroom : ks.length < p.kInternalNodeMaxKeys := by omega
      obtain ⟨hpos, htake, hdrop, _⟩ :=
        upper_bound_spec hv (pairwise_le_of_items h5 (by omega)) key
      generalize hi : (upper_bound p.comp ks key).2 = i at hpos htake hdrop
      have hilt : i < cs.length := by omega
      have hget : cs[i]? = some cs[i] := List.getElem?_eq_getElem hilt
      generalize hcdef : cs[i] = c at hget
      unfold insert_non_full at hrun
      simp only [hi, List.get?_eq_getElem?, hget] at hrun
      by_cases hfull : c.full p = true
      · simp only [hfull, if_true] at hrun
        obtain ⟨up, y1, z, hsplit, hWf', htl, hnf1, hnf2⟩ :=
          split_child_spec hv hx hroom hget hfull
        have hsafe := split_child_copy hx hget hsplit
        rw [hsplit] at hrun
        obtain ⟨ht1, ht2, ht3, ht4⟩ := take_insert_at ks i up hpos
        have hclen : (cs.take i).length = i := by simp; omega
        simp only [keyArray, children, getElem?_insert_at ks i up hpos] at hrun
        have hlen' : (ks.take i ++ up :: ks.drop i).length = ks.length + 1 := by
          simp; omega
        by_cases hcmp : p.comp up key ≤ 0
        · simp only [hcmp, if_true] at hrun
          have hgz : (cs.take i ++ y1 :: z :: cs.drop (i + 1))[i + 1]? = some z := by
            rw [List.getElem?_append_right (by omega)]
            simp [hclen]
          simp only [hgz] at hrun
          have hzWf := wf_child hWf' (c := z) (by simp)
          cases hrec : insert_non_full p fuel z key value with
          | error f => rw [hrec] at hrun; cases hrun
          | ok q =>
            obtain ⟨c'', g⟩ := q
            rw [hrec] at hrun
            injection hrun with hrun
            simp only [Prod.mk.injEq] at hrun
            obtain ⟨hx', _⟩ := hrun
            subst hx'
            have hchild := ih h _ _ z hzWf p.leafMin_pos hnf2 (by omega) c'' g hrec
            apply copySafeInsert_trans_left hsafe
            refine copySafeInsert_set_child hv hWf' (by omega) hgz ?_ ?_ hchild
            · rw [ht3]
              intro k hk
              rcases List.mem_append.1 hk with hk | hk
              · exact htake k hk
              · simp at hk; subst hk; exact hcmp
            · rw [ht4]
              exact hdrop
        · simp only [hcmp, if_false] at hrun
          have hgy : (cs.take i ++ y1 :: z :: cs.drop (i + 1))[i]? = some y1 := by
            rw [List.getElem?_append_right (by omega)]
            simp [hclen]
          simp only [hgy] at hrun
          have hyWf := wf_child hWf' (c := y1) (by simp)
          cases hrec : insert_non_full p fuel y1 key value with
          | error f => rw [hrec] at hrun; cases hrun
          | ok q =>
            obtain ⟨c'', g⟩ := q
            rw [hrec] at hrun
            injection hrun with hrun
            simp only [Prod.mk.injEq] at hrun
            obtain ⟨hx', _⟩ := hrun
            subst hx'
            have hchild := ih h _ _ y1 hyWf p.leafMin_pos hnf1 (by omega) c'' g hrec
            apply copySafeInsert_trans_left hsafe
            refine copySafeInsert_set_child hv hWf' (by omega) hgy ?_ ?_ hchild
            · rw [ht1]
              exact htake
            · rw [ht2]
              intro k hk
              rcases List.mem_cons.1 hk with hk | hk
              · subst hk; exact (hv.not_le_iff _ _).1 hcmp
              · exact hdrop k hk
      · have hfull' : c.full p = false := by simpa using hfull
        simp only [hfull', Bool.false_eq_true, if_false] at hrun
        have hcWf := h4 c (List.getElem?_mem hget)
        cases hrec : insert_non_full p fuel c key value with
        | error f => rw [hrec] at hrun; cases hrun
        | ok q =>
          obtain ⟨c'', g⟩ := q
          rw [hrec] at hrun
          injection hrun with hrun
          simp only [Prod.mk.injEq] at hrun
          obtain ⟨hx', _⟩ := hrun
          subst hx'
          have hchild := ih h _ _ c hcWf p.leafMin_pos hfull' (by omega) c'' g hrec
          exact copySafeInsert_set_child hv hx hpos hget htake hdrop hchild

/-- The items of a node strictly below a well-formed node stand together
among the items of that node. -/
theorem fullItems_subnode_infix : ∀ (h : Nat) {minL minI : Nat} {x : Node K V},
    Wf p minL minI h x → ∀ y ∈ subnodes x, fullItems y <:+: fullItems x := by
  intro h
  induction h with
  | zero =>
    intro minL minI x hx y hy
    cases hx with
    | leaf _ _ es h1 h2 h3 => simp [subnodes] at hy
  | succ h ih =>
    intro minL minI x hx y hy
    have hx' := hx
    cases hx with
    | internal _ _ _ ks cs h1 h2 h3 h4 h5 =>
      simp only [subnodes] at hy
      obtain ⟨c, hc, hyc⟩ := mem_subnodesL hy
      obtain ⟨i, hilt, hgi⟩ := List.getElem_of_mem hc
      have hget : cs[i]? = some c := by rw [List.getElem?_eq_getElem hilt, hgi]
      have hin : fullItems c <:+: fullItems (internal ks cs) := by
        rw [fullItems_at (by omega) hget]
        exact ⟨_, _, (List.append_assoc _ _ _).trans rfl⟩
      rcases hyc with hyc | hyc
      · subst hyc
        exact hin
      · exact List.IsInfix.trans (ih (h4 c hc) y hyc) hin

/-- In a well-formed node whose routing keys are each followed, in the items,
by an entry with the same key, `keys[i]` is the first key below
`children[i + 1]`. -/
theorem copy_first_key {minL minI h i : Nat} {ks : List K} {cs : List (Node K V)} {k : K}
    {c : Node K V} (hx : Wf p minL minI (h + 1) (internal ks cs))
    (hcopy : CopyKept (fullItems (internal ks cs)))
    (hk : ks[i]? = some k) (hc : cs[i + 1]? = some c) :
    (toList c).head?.map Prod.fst = some k := by
  have hcl := wf_cs_length hx
  obtain ⟨_, _, hi1⟩ := list_split_at hc
  have hilt : i < cs.length := by omega
  have hy : cs[i]? = some cs[i] := List.getElem?_eq_getElem hilt
  obtain ⟨hcs, hcl'⟩ := pair_split hy hc
  obtain ⟨hks, hkl, _⟩ := list_split_at hk
  have hlen : (ks.take i).length = (cs.take i).length := by rw [hkl, hcl']
  have hcW := wf_child hx (List.getElem?_mem hc)
  obtain ⟨⟨e, tl, rest, hlist, hitems⟩, _⟩ := fullItems_ends h hcW p.leafMin_pos
  rw [hks, hcs, fullItems_pair k _ _ hlen, hitems] at hcopy
  have hpair : CopyKept [((true, k) : Bool × K), (false, e.1)] :=
    List.Chain'.infix hcopy ⟨weavePre (ks.take i) ((cs.take i).map fullItems) ++ fullItems cs[i],
      rest ++ weaveTail (ks.drop (i + 1)) ((cs.drop (i + 2)).map fullItems), by simp⟩
  have hstep := List.chain'_pair.1 hpair rfl
  simp only [Prod.mk.injEq, true_and] at hstep
  rw [hlist]
  simp [hstep]

end Node

namespace btree

/-- The method `insert` keeps every routing key a copy of the entry after
it. -/
theorem insert_copy (hv : p.Valid) {t t' : Tree K V}
    (hinv : TreeInv p t) (hcopy : TreeCopy t) {key : K} {value : V}
    (hrun : insert p t key value = .ok t') : TreeCopy t' := by
  unfold TreeInv at hinv
  unfold TreeCopy at hcopy
  unfold insert at hrun
  cases hroot : t.root with
  | none =>
    rw [hroot] at hrun
    simp only at hrun
    cases hrec : Node.insert_non_full p ((Node.leaf ([] : List (K × V))).height + 1)
        (Node.leaf []) key value with
    | error f => rw [hrec] at hrun; cases hrun
    | ok q =>
      obtain ⟨root', g⟩ := q
      rw [hrec] at hrun
      injection hrun with hrun
      subst hrun
      simp only [TreeCopy]
      simp only [Node.insert_non_full, Node.height, Node.upper_bound, Node.upper_bound_loop,
        List.map_nil, List.length_nil, bne_self_eq_false, Bool.false_eq_true, if_false,
        Bool.false_and, List.take_nil, List.drop_nil, List.nil_append] at hrec
      split at hrec
      · cases hrec
      · injection hrec with hrec
        simp only [Prod.mk.injEq] at hrec
        rw [← hrec.1]
        simp [CopyKept]
  | some r =>
    rw [hroot] at hinv hcopy hrun
    simp only at hinv hcopy hrun
    obtain ⟨⟨h, hw⟩, _⟩ := hinv
    by_cases hfull : r.full p = true
    · simp only [hfull, if_true] at hrun
      have hx0 : Node.Wf p 1 0 (h + 1) (Node.internal [] [r]) := by
        refine Node.Wf.internal _ _ h [] [r] (by simp) (by simp) (by simp) ?_ ?_
        · intro c hc
          simp only [List.mem_singleton] at hc
          subst hc
          exact hw.of_full hfull
        · simpa [Node.items, Node.tailItems] using hw.elems_pairwise
      have hg0 : ([r] : List (Node K V))[0]? = some r := by simp
      obtain ⟨up, y1, z, hsplit, hWf', htl, hnf1, hnf2⟩ :=
        Node.split_child_spec hv hx0 (by have := p.internalMax_ge; simp; omega) hg0 hfull
      have hsafe := Node.split_child_copy hx0 hg0 hsplit
      rw [hsplit] at hrun
      simp only [List.take_zero, List.drop_zero, List.nil_append, List.length_nil, zero_add,
        List.drop_succ_cons, List.drop_nil] at hWf' hrun hsafe
      have hnf0 : (Node.internal [up] [y1, z] : Node K V).full p = false := by
        have := p.internalMax_ge
        simp only [Node.full, List.length_singleton, beq_eq_false_iff_ne, ne_eq]
        omega
      cases hrec : Node.insert_non_full p ((Node.internal [up] [y1, z]).height + 1)
          (Node.internal [up] [y1, z]) key value with
      | error f => rw [hrec] at hrun; cases hrun
      | ok q =>
        obtain ⟨root', g⟩ := q
        rw [hrec] at hrun
        injection hrun with hrun
        subst hrun
        have hins := Node.insert_non_full_copy hv key value _ (h + 1) 1 1 _ hWf' (le_refl _)
          hnf0 (by rw [hWf'.height_eq]; omega) root' g hrec
        have h0 : CopyKept (Node.internal [] [r] : Node K V).fullItems := by
          simpa [weave_single] using hcopy
        have h1 := hsafe [] [] (by simpa using h0)
        have h2 := hins [] [] (by simp) (by simp) h1
        simpa [TreeCopy] using h2
    · have hfull' : r.full p = false := by simpa using hfull
      simp only [hfull', Bool.false_eq_true, if_false] at hrun
      cases hrec : Node.insert_non_full p (r.height + 1) r key value with
      | error f => rw [hrec] at hrun; cases hrun
      | ok q =>
        obtain ⟨root', g⟩ := q
        rw [hrec] at hrun
        injection hrun with hrun
        subst hrun
        have hins := Node.insert_non_full_copy hv key value _ h 1 1 _ hw (le_refl _)
          hfull' (by rw [hw.height_eq]; omega) root' g hrec
        have h2 := hins [] [] (by simp) (by simp) (by simpa using hcopy)
        simpa [TreeCopy] using h2

theorem insertReachable_reachable {t : Tree K V} (hr : InsertReachable p t) :
    Reachable p t := by
  induction hr with
  | empty => exact Reachable.empty
  | insert key value _ hins ih => exact Reachable.insert key value ih hins

/-- In a tree built by inserts every routing key is followed, in the in-order
items, by an entry with the same key. -/
theorem insertReachable_copy (hv : p.Valid) {t : Tree K V} (hr : InsertReachable p t) :
    TreeCopy t := by
  induction hr with
  | empty => simp [TreeCopy, empty]
  | insert key value hprev hins ih =>
    exact insert_copy hv (reachable_inv hv (insertReachable_reachable hprev)) ih hins

theorem insertReachable_applyOps :
    ∀ (kvs : List (K × V)) {t t' : Tree K V}, InsertReachable p t →
      applyOps p t (kvs.map (fun e => Op.insert e.1 e.2)) = .ok t' → InsertReachable p t'
  | [], t, t', hr, h => by
    simp only [List.map_nil, applyOps] at h
    injection h with h
    subst h
    exact hr
  | e :: kvs, t, t', hr, h => by
    simp only [List.map_cons, applyOps] at h
    cases hins : insert p t e.1 e.2 with
    | error f => rw [hins] at h; cases h
    | ok t1 =>
      rw [hins] at h
      exact insertReachable_applyOps kvs (InsertReachable.insert e.1 e.2 hr hins) h

end btree

end BPlusTree

namespace BPlusTree

variable {K V : Type} {p : Params K}

theorem Node.wf_internal_height {minL minI h : Nat} {ks : List K} {cs : List (Node K V)}
    (hx : Node.Wf p minL minI h (Node.internal ks cs)) : ∃ h', h = h' + 1 := by
  cases hx with
  | internal _ _ h' _ _ _ _ _ _ _ => exact ⟨h', rfl⟩

/-- Counterexample to claim C33: in unique mode, inserting 1, 2, 3, 4 and
erasing 3 gives the root `[3]` over the leaves `[1, 2]` and `[4]`; `erase`
removed the entry from the leaf and left the routing key, so the routing key 3
is not the leftmost key 4 of the subtree to its right. -/
theorem routing_key_stale_after_erase :
    btree.applyOps (intParams false) btree.empty
      [.insert 1 10, .insert 2 20, .insert 3 30, .insert 4 40, .erase 3] = .ok mapStaleKey ∧
    Reachable (intParams false) mapStaleKey ∧
    mapStaleKey.root = some (.internal [3] [.leaf [(1, 10), (2, 20)], .leaf [(4, 40)]]) ∧
    ¬ RoutingKeysCopied mapStaleKey := by
  have hrun : btree.applyOps (intParams false) btree.empty
      [.insert 1 10, .insert 2 20, .insert 3 30, .insert 4 40, .erase 3] = .ok mapStaleKey := by
    rfl
  refine ⟨hrun, reachable_applyOps _ Reachable.empty hrun, rfl, ?_⟩
  intro hc
  have := hc (.internal [3] [.leaf [(1, 10), (2, 20)], .leaf [(4, 40)]]) rfl _ (Or.inl rfl)
    [3] [.leaf [(1, 10), (2, 20)], .leaf [(4, 40)]] rfl 0 3 (.leaf [(4, 40)]) rfl rfl
  simp [Node.toList] at this

/-- Claim C33, amended: in every tree reachable from the empty tree by `insert`
and `erase` calls, every routing key `keys[i]` of every internal node (the root
or a node below it) is at most the leftmost key stored below `children[i + 1]`,
which is the smallest key there; and in every tree reachable by `insert` calls
alone it equals that key. -/
theorem routing_key_le_leftmost (hv : p.Valid) {t : Tree K V} (hr : Reachable p t) :
    RoutingKeysBelow p t ∧ (InsertReachable p t → RoutingKeysCopied t) := by
  have hinv := btree.reachable_inv hv hr
  have hnode : ∀ r, t.root = some r → ∀ x, (x = r ∨ x ∈ r.subnodes) →
      ∃ minL minI h, Node.Wf p minL minI h x ∧ x.fullItems <:+: r.fullItems := by
    intro r hroot x hx
    unfold TreeInv at hinv
    rw [hroot] at hinv
    obtain ⟨⟨h, hW⟩, _⟩ := hinv
    rcases hx with hx | hx
    · subst hx
      exact ⟨1, 1, h, hW, List.infix_refl _⟩
    · obtain ⟨h', _, hW'⟩ := Node.wf_subnodes h hW x hx
      exact ⟨_, _, h', hW', Node.fullItems_subnode_infix h hW x hx⟩
  constructor
  · intro r hroot x hx ks cs hxe i k c hk hc
    obtain ⟨minL, minI, h, hW, _⟩ := hnode r hroot x hx
    subst hxe
    obtain ⟨h', hh⟩ := Node.wf_internal_height hW
    subst hh
    obtain ⟨_, _, hi1⟩ := list_split_at hc
    have hy : cs[i]? = some cs[i] := List.getElem?_eq_getElem (by omega)
    have hsep := (Node.wf_separates hv hW hk hy hc).2
    have hcW := Node.wf_child hW (List.getElem?_mem hc)
    obtain ⟨⟨e, tl, rest, hlist, _⟩, _⟩ := Node.fullItems_ends h' hcW p.leafMin_pos
    refine ⟨e, tl, hlist, hsep e (by rw [hlist]; simp), ?_⟩
    intro e' he'
    have hs := hcW.sorted
    rw [hlist] at hs he'
    simp only [List.map_cons, List.pairwise_cons] at hs
    rcases List.mem_cons.1 he' with he' | he'
    · subst he'
      rw [hv.comp_self]
    · exact hv.before_le (hs.1 e'.1 (List.mem_map_of_mem _ he'))
  · intro hir r hroot x hx ks cs hxe i k c hk hc
    obtain ⟨minL, minI, h, hW, hin⟩ := hnode r hroot x hx
    subst hxe
    obtain ⟨h', hh⟩ := Node.wf_internal_height hW
    subst hh
    have hcopy := btree.insertReachable_copy hv hir
    unfold TreeCopy at hcopy
    rw [hroot] at hcopy
    exact Node.copy_first_key hW (copyKept_sub hcopy hin) hk hc

theorem routing_key_le_leftmost_witness :
    (intParams false).Valid ∧ Reachable (intParams false) mapFourInserts ∧
    InsertReachable (intParams false) mapFourInserts ∧
    RoutingKeysBelow (intParams false) mapFourInserts ∧
    RoutingKeysCopied mapFourInserts :=
  have hir : InsertReachable (intParams false) mapFourInserts :=
    btree.insertReachable_applyOps [(1, 10), (2, 20), (3, 30), (4, 40)]
      InsertReachable.empty (by rfl)
  have hr : Reachable (intParams false) mapFourInserts := btree.insertReachable_reachable hir
  ⟨intParams_valid false, hr, hir,
    (routing_key_le_leftmost (intParams_valid false) hr).1,
    (routing_key_le_leftmost (intParams_valid false) hr).2 hir⟩

end BPlusTree
